import Mathlib

/-!
# A threaded radix index

Shallow embedding of `index.go`: an arena of tagged nodes forming a threaded
trie, with a free list, and the operations `Initialise`, `Scan`, `Search`,
`Select`, `Count`, `Insert` and `Delete`.

Conventions of the embedding.

* A Go `string` is a `List Nat` of bytes (each `< 256`), a `byte` is a `Nat`,
  a Go `int` is an `Int`.
* The arena `[]indexNode` is a `List indexNode`; an access `node[p]` outside
  `0 <= p < len(node)` is a run-time panic, rendered as `none`.
* Every `for` loop without a static bound runs on fuel: `runLoop body fuel`
  gives `none` when the fuel runs out.  A result `some r` is therefore a
  terminating, panic-free run of the Go code.
* `Initialise`, `Insert`, `Delete` and the first forms of the read operations
  are functions of the index, without its mutex.  The read operations are
  embedded a second time as transitions of the index with its mutex
  (`Run.Select` and the others), where the mutex is a flag.
-/

set_option autoImplicit false

namespace RadixIndex

/-! ## Constants -/

abbrev maxKeyLength : Nat := 32
abbrev nullIndexPointer : Int := -1
abbrev decisionNode : Nat := 68
abbrev characterNode : Nat := 88
abbrev indexKeyNode : Nat := 82
abbrev indexTerminalNode : Nat := 83
abbrev duplicateKeyNode : Nat := 75
abbrev duplicateTerminalNode : Nat := 76
abbrev left : Nat := 76
abbrev right : Nat := 82
abbrev null : Nat := 32

/-! ## Data structures -/

/-- One arena slot: `indexType` is the tag byte, `keyCharacter` a key byte. -/
structure indexNode where
  indexType : Nat
  leftPointer : Int
  keyCharacter : Nat
  rightPointer : Int
  deriving DecidableEq

/-- The index header together with its arena (the mutex is left out). -/
structure Index where
  indexRootPointer : Int
  node : List indexNode
  deletedRootPointer : Int
  keyCount : Int
  deriving DecidableEq

/-- The Go zero value of `Index`, as obtained from `var x Index`. -/
def zeroIndex : Index := ⟨0, [], 0, 0⟩

/-! ## Loops -/

/-- Outcome of one pass through a loop body. -/
inductive LoopStep (σ ρ : Type) where
  | next : σ → LoopStep σ ρ
  | exit : ρ → LoopStep σ ρ

/-- Run a loop body until it exits, it panics (`none`) or the fuel is spent. -/
def runLoop {σ ρ : Type} (body : σ → Option (LoopStep σ ρ)) : Nat → σ → Option ρ
  | 0, _ => none
  | fuel + 1, s =>
    match body s with
    | none => none
    | some (LoopStep.next s') => runLoop body fuel s'
    | some (LoopStep.exit r) => some r

/-! ## Arena access -/

/-- The read `node[p]`; `none` is the index-out-of-range panic. -/
def getNode (ns : List indexNode) (p : Int) : Option indexNode :=
  if 0 ≤ p then ns[p.toNat]? else none

/-- The write `node[p] = n`; `none` is the index-out-of-range panic. -/
def setNode (ns : List indexNode) (p : Int) (n : indexNode) : Option (List indexNode) :=
  if 0 ≤ p ∧ p.toNat < ns.length then some (ns.set p.toNat n) else none

/-- The write `node[p].indexType = t`. -/
def setType (ns : List indexNode) (p : Int) (t : Nat) : Option (List indexNode) :=
  match getNode ns p with
  | none => none
  | some n => setNode ns p { n with indexType := t }

/-- The write `node[p].leftPointer = v`. -/
def setLeft (ns : List indexNode) (p : Int) (v : Int) : Option (List indexNode) :=
  match getNode ns p with
  | none => none
  | some n => setNode ns p { n with leftPointer := v }

/-- The write `node[p].rightPointer = v`. -/
def setRight (ns : List indexNode) (p : Int) (v : Int) : Option (List indexNode) :=
  match getNode ns p with
  | none => none
  | some n => setNode ns p { n with rightPointer := v }

/-- The write `node[p].keyCharacter = c`. -/
def setChar (ns : List indexNode) (p : Int) (c : Nat) : Option (List indexNode) :=
  match getNode ns p with
  | none => none
  | some n => setNode ns p { n with keyCharacter := c }

/-! ## Go strings -/

/-- The conversion `string(b)` of a byte: the UTF-8 encoding of code point `b`. -/
def byteToString (b : Nat) : List Nat :=
  if b < 128 then [b] else [192 + b / 64, 128 + b % 64]

/-- The order `a < b` on Go strings: lexicographic on bytes. -/
def strLt : List Nat → List Nat → Bool
  | [], [] => false
  | [], _ :: _ => true
  | _ :: _, [] => false
  | a :: as, b :: bs => decide (a < b) || (decide (a = b) && strLt as bs)

/-- The order `a <= b` on Go strings. -/
def strLe (a b : List Nat) : Bool := !strLt b a

/-- The order `a > b` on Go strings. -/
def strGt (a b : List Nat) : Bool := strLt b a

/-- The slice `s[i:i+1]`; `none` is the slice-bounds panic. -/
def sliceOne (s : List Nat) (i : Nat) : Option (List Nat) :=
  if i + 1 ≤ s.length then some ((s.drop i).take 1) else none

/-- The slice `s[i:]`; `none` is the slice-bounds panic. -/
def sliceFrom (s : List Nat) (i : Nat) : Option (List Nat) :=
  if i ≤ s.length then some (s.drop i) else none

/-! ### `strings.TrimSpace`

The Go library function removes leading and trailing white space as defined
by Unicode, decoding the string as UTF-8 (an invalid byte decodes to U+FFFD,
width 1).  It is `TrimFunc(s, unicode.IsSpace)`. -/

/-- The predicate `unicode.IsSpace`. -/
def isSpaceRune (r : Nat) : Bool :=
  if r ≤ 255 then
    r == 9 || r == 10 || r == 11 || r == 12 || r == 13 || r == 32 || r == 133 || r == 160
  else
    r == 5760 || (decide (8192 ≤ r) && decide (r ≤ 8202)) || r == 8232 || r == 8233 ||
      r == 8239 || r == 8287 || r == 12288

/-- The pair `utf8.DecodeRuneInString(s)`: the rune and its width in bytes. -/
def decodeRune (s : List Nat) : Nat × Nat :=
  match s with
  | [] => (65533, 0)
  | s0 :: rest =>
    if s0 < 128 then (s0, 1)
    else if s0 < 194 then (65533, 1)
    else if s0 < 224 then
      match rest with
      | s1 :: _ =>
        if 128 ≤ s1 ∧ s1 ≤ 191 then ((s0 % 32) * 64 + s1 % 64, 2) else (65533, 1)
      | [] => (65533, 1)
    else if s0 < 240 then
      match rest with
      | s1 :: s2 :: _ =>
        if (if s0 = 224 then 160 else 128) ≤ s1 ∧ s1 ≤ (if s0 = 237 then 159 else 191) then
          if 128 ≤ s2 ∧ s2 ≤ 191 then (((s0 % 16) * 64 + s1 % 64) * 64 + s2 % 64, 3)
          else (65533, 1)
        else (65533, 1)
      | _ => (65533, 1)
    else if s0 < 245 then
      match rest with
      | s1 :: s2 :: s3 :: _ =>
        if (if s0 = 240 then 144 else 128) ≤ s1 ∧ s1 ≤ (if s0 = 244 then 143 else 191) then
          if 128 ≤ s2 ∧ s2 ≤ 191 then
            if 128 ≤ s3 ∧ s3 ≤ 191 then
              ((((s0 % 8) * 64 + s1 % 64) * 64 + s2 % 64) * 64 + s3 % 64, 4)
            else (65533, 1)
          else (65533, 1)
        else (65533, 1)
      | _ => (65533, 1)
    else (65533, 1)

/-- The backwards scan of `utf8.DecodeLastRuneInString` for the start of the
last rune: from `start` down to `lim`, stopping at a byte that is not a
continuation byte. -/
def lastRuneStart (s : List Nat) (lim : Int) : Nat → Int → Int
  | 0, start => start
  | fuel + 1, start =>
    if lim ≤ start then
      if (s.getD start.toNat 0) / 64 ≠ 2 then start
      else lastRuneStart s lim fuel (start - 1)
    else start

/-- The pair `utf8.DecodeLastRuneInString(s)`. -/
def decodeLastRune (s : List Nat) : Nat × Nat :=
  if s.length = 0 then (65533, 0)
  else
    let r := s.getD (s.length - 1) 0
    if r < 128 then (r, 1)
    else
      let lim : Int := if (s.length : Int) - 4 < 0 then 0 else (s.length : Int) - 4
      let start0 := lastRuneStart s lim 5 ((s.length : Int) - 2)
      let start := if start0 < 0 then 0 else start0.toNat
      let d := decodeRune (s.drop start)
      if start + d.2 ≠ s.length then (65533, 1) else d

/-- The function `TrimLeftFunc(s, unicode.IsSpace)`. -/
def trimLeftSpace : Nat → List Nat → List Nat
  | 0, s => s
  | fuel + 1, s =>
    match s with
    | [] => []
    | _ :: _ =>
      if isSpaceRune (decodeRune s).1 then trimLeftSpace fuel (s.drop (decodeRune s).2) else s

/-- The index `lastIndexFunc(s, unicode.IsSpace, false)`, scanning `s[0:i]`. -/
def lastIndexNotSpace (s : List Nat) : Nat → Nat → Int
  | 0, _ => -1
  | fuel + 1, i =>
    if i = 0 then -1
    else
      let d := decodeLastRune (s.take i)
      if isSpaceRune d.1 then lastIndexNotSpace s fuel (i - d.2) else ((i - d.2 : Nat) : Int)

/-- The function `TrimRightFunc(s, unicode.IsSpace)`. -/
def trimRightSpace (s : List Nat) : List Nat :=
  let i := lastIndexNotSpace s (s.length + 1) s.length
  if 0 ≤ i ∧ 128 ≤ s.getD i.toNat 0 then s.take (i.toNat + (decodeRune (s.drop i.toNat)).2)
  else s.take (i + 1).toNat

/-- The function `strings.TrimSpace`. -/
def trimSpace (s : List Nat) : List Nat :=
  trimRightSpace (trimLeftSpace (s.length + 1) s)

/-! ### `strconv.Itoa` -/

/-- Decimal digits of `n`, most significant first, as ASCII bytes, in front of `acc`. -/
def natDigits : Nat → Nat → List Nat → List Nat
  | 0, _, acc => acc
  | fuel + 1, n, acc =>
    if n < 10 then (48 + n) :: acc else natDigits fuel (n / 10) ((48 + n % 10) :: acc)

/-- The function `strconv.Itoa`: decimal rendering, `-` in front of a negative number. -/
def itoa (e : Int) : List Nat :=
  if e < 0 then 45 :: natDigits (e.natAbs + 1) e.natAbs [] else natDigits (e.natAbs + 1) e.natAbs []

/-! ## Functions of `index.go` -/

def decimaliseNumber (keyElement : Int) : List Nat × Nat :=
  (itoa keyElement, (itoa keyElement).length)

def validate (keyInput : List Nat) : List Nat × Nat :=
  let keyInput := trimSpace keyInput
  let keyString := if keyInput.length ≥ maxKeyLength then keyInput.take maxKeyLength else keyInput
  (keyString, keyString.length)

/-- Loop variables of `traverseAndCollect`. -/
structure TraverseState where
  direction : Nat
  indexPointer : Int
  results : List Int

/-- One pass of the `for` loop of `traverseAndCollect`. -/
def traverseBody (endPointer : Int) (indexStructure : Index) (st : TraverseState) :
    Option (LoopStep TraverseState (List Int)) :=
  if st.indexPointer ≠ endPointer ∧ st.indexPointer ≠ nullIndexPointer then
    match getNode indexStructure.node st.indexPointer with
    | none => none
    | some nd =>
      if nd.indexType = indexKeyNode then
        some (LoopStep.next ⟨left, nd.rightPointer, st.results ++ [nd.leftPointer]⟩)
      else if nd.indexType = indexTerminalNode then
        some (LoopStep.next ⟨right, nd.rightPointer, st.results ++ [nd.leftPointer]⟩)
      else if nd.indexType = duplicateKeyNode then
        if st.direction = left then some (LoopStep.next ⟨left, nd.leftPointer, st.results⟩)
        else some (LoopStep.next ⟨left, nd.rightPointer, st.results⟩)
      else if nd.indexType = duplicateTerminalNode then
        if st.direction = left then
          some (LoopStep.next ⟨st.direction, nd.leftPointer, st.results⟩)
        else some (LoopStep.next ⟨st.direction, nd.rightPointer, st.results⟩)
      else if nd.indexType = decisionNode then
        if st.direction = left then some (LoopStep.next ⟨left, nd.leftPointer, st.results⟩)
        else some (LoopStep.next ⟨left, nd.rightPointer, st.results⟩)
      else if nd.indexType = characterNode then
        some (LoopStep.next ⟨left, nd.rightPointer, st.results⟩)
      else some (LoopStep.next st)
  else some (LoopStep.exit st.results)

def traverseAndCollect (fuel : Nat) (startPointer endPointer : Int) (indexStructure : Index) :
    Option (List Int) :=
  runLoop (traverseBody endPointer indexStructure) fuel ⟨left, startPointer, []⟩

/-- The loop of `extend`, counting `i + 1` down: `extendLoop ks e (i + 1)` runs
the passes for `i, i - 1, ..., 0`. -/
def extendLoop (keyString : List Nat) (keyElement : Int) :
    Nat → Int → Index → Option (Int × Index)
  | 0, extensionPointer, indexStructure => some (extensionPointer, indexStructure)
  | i + 1, extensionPointer, indexStructure =>
    let newIndexNode : indexNode :=
      if i + 1 = keyString.length then
        ⟨indexTerminalNode, keyElement, keyString.getD i 0, extensionPointer⟩
      else ⟨characterNode, nullIndexPointer, keyString.getD i 0, extensionPointer⟩
    if indexStructure.deletedRootPointer = nullIndexPointer then
      extendLoop keyString keyElement i (indexStructure.node.length : Int)
        { indexStructure with node := indexStructure.node ++ [newIndexNode] }
    else
      match getNode indexStructure.node indexStructure.deletedRootPointer with
      | none => none
      | some old =>
        match setNode indexStructure.node indexStructure.deletedRootPointer newIndexNode with
        | none => none
        | some ns =>
          extendLoop keyString keyElement i indexStructure.deletedRootPointer
            { indexStructure with node := ns, deletedRootPointer := old.rightPointer }

def extend (keyString : List Nat) (keyElement nextBranchBasePointer : Int)
    (indexStructure : Index) : Option (Int × Index) :=
  extendLoop keyString keyElement keyString.length nextBranchBasePointer indexStructure

def Initialise (indexStructure : Index) : Index :=
  { indexStructure with indexRootPointer := nullIndexPointer,
                        deletedRootPointer := nullIndexPointer }

def Scan (fuel : Nat) (indexStructure : Index) : Option (Bool × List Int) :=
  match traverseAndCollect fuel indexStructure.indexRootPointer nullIndexPointer indexStructure with
  | none => none
  | some results => some (decide (results.length > 0), results)

/-- Loop variables of `Search`. -/
structure SearchState where
  indexPointer : Int
  endPointer : Int
  i : Nat

/-- How the descent loop of `Search` ends: by `return` with the zero results,
or with the start of the collection found. -/
inductive SearchExit where
  | notFound : SearchExit
  | found (startPointer endPointer : Int) : SearchExit

/-- One pass of the descent loop of `Search`. -/
def searchBody (keyString : List Nat) (keyLength : Nat) (indexStructure : Index)
    (st : SearchState) : Option (LoopStep SearchState SearchExit) :=
  if st.indexPointer = nullIndexPointer then some (LoopStep.exit SearchExit.notFound)
  else
    match getNode indexStructure.node st.indexPointer with
    | none => none
    | some nd =>
      if nd.indexType = indexKeyNode ∨ nd.indexType = indexTerminalNode then
        match sliceOne keyString st.i with
        | none => none
        | some k =>
          if k = byteToString nd.keyCharacter then
            if st.i + 1 = keyLength then
              some (LoopStep.exit (SearchExit.found st.indexPointer st.endPointer))
            else if nd.indexType = indexTerminalNode then
              some (LoopStep.exit SearchExit.notFound)
            else some (LoopStep.next ⟨nd.rightPointer, st.endPointer, st.i + 1⟩)
          else some (LoopStep.exit SearchExit.notFound)
      else if nd.indexType = decisionNode then
        match sliceOne keyString st.i with
        | none => none
        | some k =>
          if strLe k (byteToString nd.keyCharacter) then
            some (LoopStep.next ⟨nd.leftPointer, st.indexPointer, st.i⟩)
          else some (LoopStep.next ⟨nd.rightPointer, st.endPointer, st.i⟩)
      else if nd.indexType = duplicateKeyNode ∨ nd.indexType = duplicateTerminalNode then
        match sliceOne keyString st.i with
        | none => none
        | some k =>
          if k = byteToString nd.keyCharacter then
            if st.i + 1 = keyLength then
              some (LoopStep.exit (SearchExit.found nd.leftPointer st.endPointer))
            else if nd.indexType = duplicateTerminalNode then
              some (LoopStep.exit SearchExit.notFound)
            else some (LoopStep.next ⟨nd.rightPointer, st.endPointer, st.i + 1⟩)
          else some (LoopStep.exit SearchExit.notFound)
      else if nd.indexType = characterNode then
        match sliceOne keyString st.i with
        | none => none
        | some k =>
          if k = byteToString nd.keyCharacter then
            if st.i + 1 = keyLength then
              some (LoopStep.exit (SearchExit.found nd.rightPointer st.endPointer))
            else some (LoopStep.next ⟨nd.rightPointer, st.endPointer, st.i + 1⟩)
          else some (LoopStep.exit SearchExit.notFound)
      else some (LoopStep.next st)

def Search (fuel : Nat) (keyInput : List Nat) (indexStructure : Index) :
    Option (Bool × List Int) :=
  let (keyString, keyLength) := validate keyInput
  if keyLength = 0 then some (false, [])
  else
    match runLoop (searchBody keyString keyLength indexStructure) fuel
        ⟨indexStructure.indexRootPointer, nullIndexPointer, 0⟩ with
    | none => none
    | some SearchExit.notFound => some (false, [])
    | some (SearchExit.found startPointer endPointer) =>
      match traverseAndCollect fuel startPointer endPointer indexStructure with
      | none => none
      | some results => some (decide (results.length > 0), results)

/-- Loop variables of `Select`. -/
structure SelectState where
  indexPointer : Int
  i : Nat

/-- One pass of the descent loop of `Select`; the loop ends by `return` only. -/
def selectBody (fuel : Nat) (keyString : List Nat) (keyLength : Nat) (indexStructure : Index)
    (st : SelectState) : Option (LoopStep SelectState (Bool × List Int)) :=
  if st.indexPointer = nullIndexPointer then some (LoopStep.exit (false, []))
  else
    match getNode indexStructure.node st.indexPointer with
    | none => none
    | some nd =>
      if nd.indexType = indexKeyNode ∨ nd.indexType = indexTerminalNode then
        match sliceOne keyString st.i with
        | none => none
        | some k =>
          if k = byteToString nd.keyCharacter then
            if st.i + 1 = keyLength then some (LoopStep.exit (true, [nd.leftPointer]))
            else if nd.indexType = indexTerminalNode then some (LoopStep.exit (false, []))
            else some (LoopStep.next ⟨nd.rightPointer, st.i + 1⟩)
          else some (LoopStep.exit (false, []))
      else if nd.indexType = decisionNode then
        match sliceOne keyString st.i with
        | none => none
        | some k =>
          if strLe k (byteToString nd.keyCharacter) then
            some (LoopStep.next ⟨nd.leftPointer, st.i⟩)
          else some (LoopStep.next ⟨nd.rightPointer, st.i⟩)
      else if nd.indexType = duplicateKeyNode ∨ nd.indexType = duplicateTerminalNode then
        match sliceOne keyString st.i with
        | none => none
        | some k =>
          if k = byteToString nd.keyCharacter then
            if st.i + 1 = keyLength then
              match traverseAndCollect fuel nd.leftPointer st.indexPointer indexStructure with
              | none => none
              | some results => some (LoopStep.exit (decide (results.length > 0), results))
            else if nd.indexType = duplicateTerminalNode then some (LoopStep.exit (false, []))
            else some (LoopStep.next ⟨nd.rightPointer, st.i + 1⟩)
          else some (LoopStep.exit (false, []))
      else if nd.indexType = characterNode then
        match sliceOne keyString st.i with
        | none => none
        | some k =>
          if k = byteToString nd.keyCharacter then
            if st.i + 1 = keyLength then some (LoopStep.exit (false, []))
            else some (LoopStep.next ⟨nd.rightPointer, st.i + 1⟩)
          else some (LoopStep.exit (false, []))
      else some (LoopStep.next st)

def Select (fuel : Nat) (keyInput : List Nat) (indexStructure : Index) :
    Option (Bool × List Int) :=
  let (keyString, keyLength) := validate keyInput
  if keyLength = 0 then some (false, [])
  else
    runLoop (selectBody fuel keyString keyLength indexStructure) fuel
      ⟨indexStructure.indexRootPointer, 0⟩

def Count (indexStructure : Index) : Int :=
  indexStructure.keyCount

/-- Loop variables of `Insert`: the index itself is written inside the loop. -/
structure InsertState where
  indexStructure : Index
  keyString : List Nat
  keyLength : Nat
  previousIndexPointer : Int
  indexPointer : Int
  duplicateFlag : Bool
  i : Nat

/-- How the descent loop of `Insert` ends: by `return`, or by `searching = false`
at the node where the key diverges. -/
inductive InsertExit where
  | returned (success : Bool) (indexStructure : Index) : InsertExit
  | diverged (st : InsertState) : InsertExit

/-- One pass of the descent loop of `Insert`. -/
def insertBody (keyElement : Int) (st : InsertState) :
    Option (LoopStep InsertState InsertExit) :=
  match getNode st.indexStructure.node st.indexPointer with
  | none => none
  | some nd =>
    if nd.indexType = indexKeyNode ∨ nd.indexType = indexTerminalNode then
      match sliceOne st.keyString st.i with
      | none => none
      | some k =>
        if k = byteToString nd.keyCharacter then
          if st.i + 1 = st.keyLength then
            if keyElement = nd.leftPointer then
              some (LoopStep.exit (InsertExit.returned false st.indexStructure))
            else
              match extend (decimaliseNumber nd.leftPointer).1 nd.leftPointer st.indexPointer
                  st.indexStructure with
              | none => none
              | some (linkIndexPointer, ix1) =>
                match getNode ix1.node st.indexPointer with
                | none => none
                | some nd1 =>
                  match setType ix1.node st.indexPointer
                      (if nd1.indexType = indexKeyNode then duplicateKeyNode
                       else duplicateTerminalNode) with
                  | none => none
                  | some ns2 =>
                    match setLeft ns2 st.indexPointer linkIndexPointer with
                    | none => none
                    | some ns3 =>
                      some (LoopStep.next
                        { indexStructure := { ix1 with node := ns3 },
                          keyString := (decimaliseNumber keyElement).1,
                          keyLength := (decimaliseNumber keyElement).2,
                          previousIndexPointer := st.indexPointer,
                          indexPointer := linkIndexPointer,
                          duplicateFlag := true,
                          i := 0 })
          else if nd.indexType = indexTerminalNode then
            match sliceFrom st.keyString (st.i + 1) with
            | none => none
            | some rest =>
              match extend rest keyElement nd.rightPointer st.indexStructure with
              | none => none
              | some (linkIndexPointer, ix1) =>
                match setType ix1.node st.indexPointer indexKeyNode with
                | none => none
                | some ns2 =>
                  match setRight ns2 st.indexPointer linkIndexPointer with
                  | none => none
                  | some ns3 =>
                    some (LoopStep.exit (InsertExit.returned true
                      { ix1 with node := ns3, keyCount := ix1.keyCount + 1 }))
          else
            some (LoopStep.next { st with previousIndexPointer := st.indexPointer,
                                          indexPointer := nd.rightPointer, i := st.i + 1 })
        else some (LoopStep.exit (InsertExit.diverged st))
    else if nd.indexType = decisionNode then
      match sliceOne st.keyString st.i with
      | none => none
      | some k =>
        if strLe k (byteToString nd.keyCharacter) then
          some (LoopStep.next { st with previousIndexPointer := st.indexPointer,
                                        indexPointer := nd.leftPointer })
        else
          some (LoopStep.next { st with previousIndexPointer := st.indexPointer,
                                        indexPointer := nd.rightPointer })
    else if nd.indexType = duplicateKeyNode ∨ nd.indexType = duplicateTerminalNode then
      match sliceOne st.keyString st.i with
      | none => none
      | some k =>
        if k = byteToString nd.keyCharacter then
          if st.i + 1 = st.keyLength then
            some (LoopStep.next { st with duplicateFlag := true,
                                          keyString := (decimaliseNumber keyElement).1,
                                          keyLength := (decimaliseNumber keyElement).2,
                                          i := 0,
                                          previousIndexPointer := st.indexPointer,
                                          indexPointer := nd.leftPointer })
          else if nd.indexType = duplicateTerminalNode then
            match sliceFrom st.keyString (st.i + 1) with
            | none => none
            | some rest =>
              match extend rest keyElement nd.rightPointer st.indexStructure with
              | none => none
              | some (linkIndexPointer, ix1) =>
                match setType ix1.node st.indexPointer duplicateKeyNode with
                | none => none
                | some ns2 =>
                  match setRight ns2 st.indexPointer linkIndexPointer with
                  | none => none
                  | some ns3 =>
                    some (LoopStep.exit (InsertExit.returned true
                      { ix1 with node := ns3, keyCount := ix1.keyCount + 1 }))
          else
            some (LoopStep.next { st with previousIndexPointer := st.indexPointer,
                                          indexPointer := nd.rightPointer, i := st.i + 1 })
        else some (LoopStep.exit (InsertExit.diverged st))
    else if nd.indexType = characterNode then
      match sliceOne st.keyString st.i with
      | none => none
      | some k =>
        if k = byteToString nd.keyCharacter then
          if st.i + 1 = st.keyLength then
            match setType st.indexStructure.node st.indexPointer indexKeyNode with
            | none => none
            | some ns1 =>
              match setLeft ns1 st.indexPointer keyElement with
              | none => none
              | some ns2 =>
                some (LoopStep.exit (InsertExit.returned true
                  { st.indexStructure with node := ns2,
                                           keyCount := st.indexStructure.keyCount + 1 }))
          else
            some (LoopStep.next { st with previousIndexPointer := st.indexPointer,
                                          indexPointer := nd.rightPointer, i := st.i + 1 })
        else some (LoopStep.exit (InsertExit.diverged st))
    else some (LoopStep.next st)

/-- One pass of the loop of `Insert` that walks right pointers to the last
terminal of the existing branch. -/
def insertThreadBody (ns : List indexNode) (threadIndexPointer : Int) :
    Option (LoopStep Int Int) :=
  match getNode ns threadIndexPointer with
  | none => none
  | some nd =>
    if ¬ (nd.indexType = indexTerminalNode ∨ nd.indexType = duplicateTerminalNode) then
      some (LoopStep.next nd.rightPointer)
    else some (LoopStep.exit threadIndexPointer)

/-- The part of `Insert` after the descent loop: a new `decisionNode` with the
new branch on one side and the existing branch on the other. -/
def insertBranch (fuel : Nat) (keyElement : Int) (st : InsertState) : Option (Bool × Index) :=
  let newIndexNode : indexNode := ⟨decisionNode, 0, 0, 0⟩
  let alloc : Option (Int × Index) :=
    if st.indexStructure.deletedRootPointer = nullIndexPointer then
      some ((st.indexStructure.node.length : Int),
            { st.indexStructure with node := st.indexStructure.node ++ [newIndexNode] })
    else
      match getNode st.indexStructure.node st.indexStructure.deletedRootPointer with
      | none => none
      | some old =>
        match setNode st.indexStructure.node st.indexStructure.deletedRootPointer
            newIndexNode with
        | none => none
        | some ns =>
          some (st.indexStructure.deletedRootPointer,
                { st.indexStructure with node := ns, deletedRootPointer := old.rightPointer })
  match alloc with
  | none => none
  | some (decisionIndexPointer, ix1) =>
    match sliceOne st.keyString st.i, getNode ix1.node st.indexPointer with
    | some k, some nd =>
      let threaded : Option (Int × Index) :=
        if strGt k (byteToString nd.keyCharacter) then
          match runLoop (insertThreadBody ix1.node) fuel st.indexPointer with
          | none => none
          | some threadIndexPointer =>
            match getNode ix1.node threadIndexPointer with
            | none => none
            | some tn =>
              match setRight ix1.node threadIndexPointer decisionIndexPointer with
              | none => none
              | some ns => some (tn.rightPointer, { ix1 with node := ns })
        else some (decisionIndexPointer, ix1)
      match threaded with
      | none => none
      | some (nextBranchBasePointer, ix2) =>
        match sliceFrom st.keyString st.i with
        | none => none
        | some rest =>
          match extend rest keyElement nextBranchBasePointer ix2 with
          | none => none
          | some (linkIndexPointer, ix3) =>
            match getNode ix3.node st.indexPointer with
            | none => none
            | some nd3 =>
              let filled : Option (List indexNode) :=
                if strLt k (byteToString nd3.keyCharacter) then
                  match setLeft ix3.node decisionIndexPointer linkIndexPointer with
                  | none => none
                  | some ns1 =>
                    match setChar ns1 decisionIndexPointer (st.keyString.getD st.i 0) with
                    | none => none
                    | some ns2 => setRight ns2 decisionIndexPointer st.indexPointer
                else
                  match setLeft ix3.node decisionIndexPointer st.indexPointer with
                  | none => none
                  | some ns1 =>
                    match getNode ns1 st.indexPointer with
                    | none => none
                    | some nd4 =>
                      match setChar ns1 decisionIndexPointer nd4.keyCharacter with
                      | none => none
                      | some ns2 => setRight ns2 decisionIndexPointer linkIndexPointer
              match filled with
              | none => none
              | some ns4 =>
                if st.previousIndexPointer = nullIndexPointer then
                  some (true, { ix3 with node := ns4, indexRootPointer := decisionIndexPointer,
                                         keyCount := ix3.keyCount + 1 })
                else
                  match getNode ns4 st.previousIndexPointer with
                  | none => none
                  | some pn =>
                    let linked : Option (List indexNode) :=
                      if (pn.indexType = decisionNode ∧
                            strLe k (byteToString pn.keyCharacter) = true) ∨
                          pn.indexType = duplicateTerminalNode ∨
                          (pn.indexType = duplicateKeyNode ∧ st.duplicateFlag = true) then
                        setLeft ns4 st.previousIndexPointer decisionIndexPointer
                      else setRight ns4 st.previousIndexPointer decisionIndexPointer
                    match linked with
                    | none => none
                    | some ns5 =>
                      some (true, { ix3 with node := ns5, keyCount := ix3.keyCount + 1 })
    | _, _ => none

def Insert (fuel : Nat) (keyInput : List Nat) (keyElement : Int) (indexStructure : Index) :
    Option (Bool × Index) :=
  let (keyString, keyLength) := validate keyInput
  if keyLength = 0 then some (false, indexStructure)
  else if indexStructure.indexRootPointer = nullIndexPointer then
    match extend keyString keyElement nullIndexPointer indexStructure with
    | none => none
    | some (extensionPointer, ix1) =>
      some (true, { ix1 with indexRootPointer := extensionPointer,
                             keyCount := ix1.keyCount + 1 })
  else
    match runLoop (insertBody keyElement) fuel
        { indexStructure := indexStructure, keyString := keyString, keyLength := keyLength,
          previousIndexPointer := nullIndexPointer,
          indexPointer := indexStructure.indexRootPointer,
          duplicateFlag := false, i := 0 } with
    | none => none
    | some (InsertExit.returned success ix) => some (success, ix)
    | some (InsertExit.diverged st) => insertBranch fuel keyElement st

/-- Loop variables of `Delete`. -/
structure DeleteState where
  keyString : List Nat
  keyLength : Nat
  previousIndexPointer : Int
  deleteIndexPointer : Int
  duplicateNodePointer : Int
  linkPreviousPointer : Int
  indexPointer : Int
  deleteBranch : Nat
  i : Nat

/-- How the descent loop of `Delete` ends: by `return` with failure, or by
`searching = false` at the node that holds the pair. -/
inductive DeleteExit where
  | notFound : DeleteExit
  | matched (st : DeleteState) : DeleteExit

/-- One pass of the descent loop of `Delete`. -/
def deleteBody (keyElement : Int) (indexStructure : Index) (st0 : DeleteState) :
    Option (LoopStep DeleteState DeleteExit) :=
  match getNode indexStructure.node st0.indexPointer with
  | none => none
  | some nd =>
    let st : DeleteState :=
      if nd.indexType = decisionNode ∨ nd.indexType = duplicateKeyNode ∨
          nd.indexType = indexKeyNode then
        { st0 with deleteIndexPointer := st0.indexPointer,
                   linkPreviousPointer := st0.previousIndexPointer }
      else st0
    if nd.indexType = indexKeyNode ∨ nd.indexType = indexTerminalNode then
      match sliceOne st.keyString st.i with
      | none => none
      | some k =>
        if k = byteToString nd.keyCharacter then
          if st.i + 1 = st.keyLength then
            if nd.leftPointer ≠ keyElement then some (LoopStep.exit DeleteExit.notFound)
            else some (LoopStep.exit (DeleteExit.matched st))
          else if nd.indexType = indexTerminalNode then some (LoopStep.exit DeleteExit.notFound)
          else
            some (LoopStep.next { st with previousIndexPointer := st.indexPointer,
                                          indexPointer := nd.rightPointer, i := st.i + 1 })
        else some (LoopStep.exit DeleteExit.notFound)
    else if nd.indexType = decisionNode then
      match sliceOne st.keyString st.i with
      | none => none
      | some k =>
        if strLe k (byteToString nd.keyCharacter) then
          some (LoopStep.next { st with previousIndexPointer := st.indexPointer,
                                        indexPointer := nd.leftPointer, deleteBranch := left })
        else
          some (LoopStep.next { st with previousIndexPointer := st.indexPointer,
                                        indexPointer := nd.rightPointer, deleteBranch := right })
    else if nd.indexType = duplicateKeyNode ∨ nd.indexType = duplicateTerminalNode then
      match sliceOne st.keyString st.i with
      | none => none
      | some k =>
        if k = byteToString nd.keyCharacter then
          if st.i + 1 = st.keyLength then
            some (LoopStep.next { st with duplicateNodePointer := st.indexPointer,
                                          i := 0,
                                          keyString := (decimaliseNumber keyElement).1,
                                          keyLength := (decimaliseNumber keyElement).2,
                                          previousIndexPointer := st.indexPointer,
                                          indexPointer := nd.leftPointer })
          else if nd.indexType = duplicateTerminalNode then
            some (LoopStep.exit DeleteExit.notFound)
          else
            some (LoopStep.next { st with previousIndexPointer := st.indexPointer,
                                          indexPointer := nd.rightPointer, i := st.i + 1 })
        else some (LoopStep.exit DeleteExit.notFound)
    else if nd.indexType = characterNode then
      match sliceOne st.keyString st.i with
      | none => none
      | some k =>
        if k = byteToString nd.keyCharacter then
          if st.i + 1 = st.keyLength then some (LoopStep.exit DeleteExit.notFound)
          else
            some (LoopStep.next { st with previousIndexPointer := st.indexPointer,
                                          indexPointer := nd.rightPointer, i := st.i + 1 })
        else some (LoopStep.exit DeleteExit.notFound)
    else some (LoopStep.next st)

/-- Loop variables of the element count of a duplicates branch in `Delete`. -/
structure CountState where
  elementCount : Nat
  direction : Nat
  scanPointer : Int

/-- One pass of the loop of `Delete` that counts up to three elements of a
duplicates branch. -/
def deleteCountBody (ns : List indexNode) (duplicateNodePointer : Int) (st : CountState) :
    Option (LoopStep CountState Nat) :=
  if (st.scanPointer ≠ duplicateNodePointer ∧ st.scanPointer ≠ nullIndexPointer) ∧
      st.elementCount < 3 then
    match getNode ns st.scanPointer with
    | none => none
    | some nd =>
      if nd.indexType = indexKeyNode then
        some (LoopStep.next ⟨st.elementCount + 1, left, nd.rightPointer⟩)
      else if nd.indexType = indexTerminalNode then
        some (LoopStep.next ⟨st.elementCount + 1, right, nd.rightPointer⟩)
      else if nd.indexType = decisionNode then
        if st.direction = left then some (LoopStep.next ⟨st.elementCount, left, nd.leftPointer⟩)
        else some (LoopStep.next ⟨st.elementCount, left, nd.rightPointer⟩)
      else if nd.indexType = characterNode then
        some (LoopStep.next ⟨st.elementCount, left, nd.rightPointer⟩)
      else some (LoopStep.next st)
  else some (LoopStep.exit st.elementCount)

/-- One pass of the loops of `Delete` that walk right pointers to the next
`indexTerminalNode`. -/
def deleteScanBody (ns : List indexNode) (scanPointer : Int) : Option (LoopStep Int Int) :=
  match getNode ns scanPointer with
  | none => none
  | some nd =>
    if nd.indexType ≠ indexTerminalNode then some (LoopStep.next nd.rightPointer)
    else some (LoopStep.exit scanPointer)

/-- One pass of the loop of `Delete` that walks right pointers to the node
whose thread is the `decisionNode` being removed. -/
def deleteThreadBody (ns : List indexNode) (deleteIndexPointer : Int)
    (threadIndexPointer : Int) : Option (LoopStep Int Int) :=
  match getNode ns threadIndexPointer with
  | none => none
  | some nd =>
    if nd.rightPointer ≠ deleteIndexPointer then some (LoopStep.next nd.rightPointer)
    else some (LoopStep.exit threadIndexPointer)

/-- The part of `Delete` that removes a duplicates branch of two elements and
turns the `duplicate*Node` back into an `index*Node`. -/
def deleteCollapse (fuel : Nat) (indexStructure : Index) (st : DeleteState) :
    Option (Bool × Index) :=
  match getNode indexStructure.node st.duplicateNodePointer with
  | none => none
  | some dn0 =>
    match setType indexStructure.node st.duplicateNodePointer
        (if dn0.indexType = duplicateKeyNode then indexKeyNode else indexTerminalNode) with
    | none => none
    | some ns1 =>
      match getNode ns1 st.indexPointer with
      | none => none
      | some pn =>
        let simplest : Option Bool :=
          if pn.indexType = indexTerminalNode then
            match getNode ns1 st.deleteIndexPointer with
            | none => none
            | some en => some (decide (en.indexType = indexKeyNode))
          else some false
        match simplest with
        | none => none
        | some true =>
          match setRight ns1 st.indexPointer indexStructure.deletedRootPointer with
          | none => none
          | some ns2 =>
            match getNode ns2 st.duplicateNodePointer, getNode ns2 st.deleteIndexPointer with
            | some dn, some en =>
              match setLeft ns2 st.duplicateNodePointer en.leftPointer with
              | none => none
              | some ns3 =>
                some (true, { indexStructure with node := ns3,
                                                  deletedRootPointer := dn.leftPointer,
                                                  keyCount := indexStructure.keyCount - 1 })
            | _, _ => none
        | some false =>
          if pn.indexType = indexKeyNode then
            match runLoop (deleteScanBody ns1) fuel pn.rightPointer with
            | none => none
            | some scanPointer =>
              match setRight ns1 scanPointer indexStructure.deletedRootPointer with
              | none => none
              | some ns2 =>
                match getNode ns2 st.duplicateNodePointer, getNode ns2 scanPointer with
                | some dn, some sn =>
                  match setLeft ns2 st.duplicateNodePointer sn.leftPointer with
                  | none => none
                  | some ns3 =>
                    some (true, { indexStructure with node := ns3,
                                                      deletedRootPointer := dn.leftPointer,
                                                      keyCount := indexStructure.keyCount - 1 })
                | _, _ => none
          else
            match getNode ns1 st.deleteIndexPointer with
            | none => none
            | some en =>
              let relinked : Option (Int × List indexNode × Int) :=
                if st.deleteBranch = left then
                  match runLoop (deleteScanBody ns1) fuel en.rightPointer with
                  | none => none
                  | some scanPointer =>
                    match setRight ns1 scanPointer indexStructure.deletedRootPointer with
                    | none => none
                    | some ns2 =>
                      match getNode ns2 st.duplicateNodePointer with
                      | none => none
                      | some dn =>
                        match setRight ns2 st.indexPointer dn.leftPointer with
                        | none => none
                        | some ns3 =>
                          match getNode ns3 st.deleteIndexPointer with
                          | none => none
                          | some en3 => some (scanPointer, ns3, en3.leftPointer)
                else
                  match runLoop (deleteScanBody ns1) fuel en.leftPointer with
                  | none => none
                  | some scanPointer =>
                    match setRight ns1 st.indexPointer indexStructure.deletedRootPointer with
                    | none => none
                    | some ns2 =>
                      match getNode ns2 st.duplicateNodePointer with
                      | none => none
                      | some dn =>
                        match setRight ns2 scanPointer dn.leftPointer with
                        | none => none
                        | some ns3 =>
                          match getNode ns3 st.deleteIndexPointer with
                          | none => none
                          | some en3 => some (scanPointer, ns3, en3.leftPointer)
              match relinked with
              | none => none
              | some (scanPointer, ns3, newDeleted) =>
                match getNode ns3 scanPointer with
                | none => none
                | some sn =>
                  match setLeft ns3 st.duplicateNodePointer sn.leftPointer with
                  | none => none
                  | some ns4 =>
                    some (true, { indexStructure with node := ns4,
                                                      deletedRootPointer := newDeleted,
                                                      keyCount := indexStructure.keyCount - 1 })

/-- The write in `Delete` that links the surviving branch `target` below
`linkPreviousPointer` in place of the `decisionNode` being removed, or makes it
the root. -/
def deleteRelink (indexStructure : Index) (st : DeleteState) (target : Int) (resetChar : Bool) :
    Option Index :=
  if st.linkPreviousPointer ≠ nullIndexPointer then
    match getNode indexStructure.node st.linkPreviousPointer,
          getNode indexStructure.node st.deleteIndexPointer with
    | some ln, some en =>
      if ln.indexType = decisionNode then
        if en.keyCharacter ≤ ln.keyCharacter then
          if resetChar then
            match getNode indexStructure.node en.leftPointer with
            | none => none
            | some rn =>
              let reset : Option (List indexNode) :=
                if rn.indexType ≠ decisionNode then
                  setChar indexStructure.node st.linkPreviousPointer rn.keyCharacter
                else some indexStructure.node
              match reset with
              | none => none
              | some ns1 =>
                match getNode ns1 st.deleteIndexPointer with
                | none => none
                | some en1 =>
                  match setLeft ns1 st.linkPreviousPointer en1.leftPointer with
                  | none => none
                  | some ns2 => some { indexStructure with node := ns2 }
          else
            match setLeft indexStructure.node st.linkPreviousPointer target with
            | none => none
            | some ns1 => some { indexStructure with node := ns1 }
        else
          match setRight indexStructure.node st.linkPreviousPointer target with
          | none => none
          | some ns1 => some { indexStructure with node := ns1 }
      else if ln.indexType = duplicateTerminalNode then
        match setLeft indexStructure.node st.linkPreviousPointer target with
        | none => none
        | some ns1 => some { indexStructure with node := ns1 }
      else if ln.indexType = duplicateKeyNode then
        if st.duplicateNodePointer ≠ nullIndexPointer then
          match setLeft indexStructure.node st.linkPreviousPointer target with
          | none => none
          | some ns1 => some { indexStructure with node := ns1 }
        else
          match setRight indexStructure.node st.linkPreviousPointer target with
          | none => none
          | some ns1 => some { indexStructure with node := ns1 }
      else if ln.indexType = characterNode ∨ ln.indexType = indexKeyNode then
        match setRight indexStructure.node st.linkPreviousPointer target with
        | none => none
        | some ns1 => some { indexStructure with node := ns1 }
      else some indexStructure
    | _, _ => none
  else some { indexStructure with indexRootPointer := target }

/-- The part of `Delete` after the descent loop and after the duplicates
branch has been dealt with: removal of a single element. -/
def deleteSingle (fuel : Nat) (indexStructure : Index) (st : DeleteState) :
    Option (Bool × Index) :=
  match getNode indexStructure.node st.indexPointer with
  | none => none
  | some pn =>
    if pn.indexType = indexKeyNode then
      match setType indexStructure.node st.indexPointer characterNode with
      | none => none
      | some ns1 =>
        match setLeft ns1 st.indexPointer nullIndexPointer with
        | none => none
        | some ns2 =>
          some (true, { indexStructure with node := ns2,
                                            keyCount := indexStructure.keyCount - 1 })
    else if st.deleteIndexPointer = nullIndexPointer then
      match setRight indexStructure.node st.indexPointer indexStructure.deletedRootPointer with
      | none => none
      | some ns1 =>
        some (true, { indexStructure with node := ns1,
                                          deletedRootPointer := indexStructure.indexRootPointer,
                                          indexRootPointer := nullIndexPointer,
                                          keyCount := indexStructure.keyCount - 1 })
    else
      match getNode indexStructure.node st.deleteIndexPointer with
      | none => none
      | some en =>
        if en.indexType = indexKeyNode ∨ en.indexType = duplicateKeyNode then
          match setRight indexStructure.node st.deleteIndexPointer pn.rightPointer with
          | none => none
          | some ns1 =>
            match getNode ns1 st.deleteIndexPointer with
            | none => none
            | some en1 =>
              match setType ns1 st.deleteIndexPointer
                  (if en1.indexType = indexKeyNode then indexTerminalNode
                   else duplicateTerminalNode) with
              | none => none
              | some ns2 =>
                match setRight ns2 st.indexPointer indexStructure.deletedRootPointer with
                | none => none
                | some ns3 =>
                  some (true, { indexStructure with node := ns3,
                                                    deletedRootPointer := en.rightPointer,
                                                    keyCount := indexStructure.keyCount - 1 })
        else if st.deleteBranch = left then
          match deleteRelink indexStructure st en.rightPointer false with
          | none => none
          | some ix1 =>
            match setRight ix1.node st.indexPointer ix1.deletedRootPointer with
            | none => none
            | some ns2 =>
              match getNode ns2 st.deleteIndexPointer with
              | none => none
              | some en2 =>
                match setRight ns2 st.deleteIndexPointer en2.leftPointer with
                | none => none
                | some ns3 =>
                  some (true, { ix1 with node := ns3,
                                         deletedRootPointer := st.deleteIndexPointer,
                                         keyCount := ix1.keyCount - 1 })
        else
          match runLoop (deleteThreadBody indexStructure.node st.deleteIndexPointer) fuel
              en.leftPointer with
          | none => none
          | some threadIndexPointer =>
            match setRight indexStructure.node threadIndexPointer pn.rightPointer with
            | none => none
            | some ns1 =>
              match getNode ns1 st.deleteIndexPointer with
              | none => none
              | some en1 =>
                match deleteRelink { indexStructure with node := ns1 } st en1.leftPointer true
                with
                | none => none
                | some ix2 =>
                  match setRight ix2.node st.indexPointer ix2.deletedRootPointer with
                  | none => none
                  | some ns3 =>
                    some (true, { ix2 with node := ns3,
                                           deletedRootPointer := st.deleteIndexPointer,
                                           keyCount := ix2.keyCount - 1 })

def Delete (fuel : Nat) (keyInput : List Nat) (keyElement : Int) (indexStructure : Index) :
    Option (Bool × Index) :=
  let (keyString, keyLength) := validate keyInput
  if keyLength = 0 then some (false, indexStructure)
  else if indexStructure.indexRootPointer = nullIndexPointer then some (false, indexStructure)
  else
    match runLoop (deleteBody keyElement indexStructure) fuel
        { keyString := keyString, keyLength := keyLength,
          previousIndexPointer := nullIndexPointer,
          deleteIndexPointer := nullIndexPointer,
          duplicateNodePointer := nullIndexPointer,
          linkPreviousPointer := nullIndexPointer,
          indexPointer := indexStructure.indexRootPointer,
          deleteBranch := null, i := 0 } with
    | none => none
    | some DeleteExit.notFound => some (false, indexStructure)
    | some (DeleteExit.matched st) =>
      if st.duplicateNodePointer ≠ nullIndexPointer then
        match getNode indexStructure.node st.duplicateNodePointer with
        | none => none
        | some dn =>
          match runLoop (deleteCountBody indexStructure.node st.duplicateNodePointer) fuel
              ⟨0, left, dn.leftPointer⟩ with
          | none => none
          | some elementCount =>
            if elementCount < 3 then deleteCollapse fuel indexStructure st
            else deleteSingle fuel indexStructure st
      else deleteSingle fuel indexStructure st

/-! ## The tree that an arena represents

`Trie` is the shape of a well-formed index: every node carries the arena
address `p` of its slot and its key byte `c`.  The constructors are the six
node types: `S` indexTerminalNode, `R` indexKeyNode, `X` characterNode,
`D` decisionNode, `L` duplicateTerminalNode, `K` duplicateKeyNode. -/

inductive Trie where
  | S (p : Nat) (c : Nat) (e : Int) : Trie
  | R (p : Nat) (c : Nat) (e : Int) (n : Trie) : Trie
  | X (p : Nat) (c : Nat) (n : Trie) : Trie
  | D (p : Nat) (c : Nat) (l r : Trie) : Trie
  | L (p : Nat) (c : Nat) (sub : Trie) : Trie
  | K (p : Nat) (c : Nat) (sub : Trie) (n : Trie) : Trie

namespace Trie

/-- Arena address of the root node of the tree. -/
def addr : Trie → Nat
  | S p _ _ => p
  | R p _ _ _ => p
  | X p _ _ => p
  | D p _ _ _ => p
  | L p _ _ => p
  | K p _ _ _ => p

/-- Addresses of all nodes of the tree. -/
def addrs : Trie → List Nat
  | S p _ _ => [p]
  | R p _ _ n => p :: addrs n
  | X p _ n => p :: addrs n
  | D p _ l r => p :: (addrs l ++ addrs r)
  | L p _ sub => p :: addrs sub
  | K p _ sub n => p :: (addrs sub ++ addrs n)

/-- The arena `ns` holds the tree, the thread of its last terminal being `th`. -/
def Laid (ns : List indexNode) : Trie → Int → Prop
  | S p c e, th => ns[p]? = some ⟨indexTerminalNode, e, c, th⟩
  | R p c e n, th => ns[p]? = some ⟨indexKeyNode, e, c, (n.addr : Int)⟩ ∧ Laid ns n th
  | X p c n, th => ns[p]? = some ⟨characterNode, nullIndexPointer, c, (n.addr : Int)⟩ ∧ Laid ns n th
  | D p c l r, th =>
    ns[p]? = some ⟨decisionNode, (l.addr : Int), c, (r.addr : Int)⟩ ∧ Laid ns l (p : Int) ∧ Laid ns r th
  | L p c sub, th =>
    ns[p]? = some ⟨duplicateTerminalNode, (sub.addr : Int), c, th⟩ ∧ Laid ns sub (p : Int)
  | K p c sub n, th =>
    ns[p]? = some ⟨duplicateKeyNode, (sub.addr : Int), c, (n.addr : Int)⟩ ∧
      Laid ns sub (p : Int) ∧ Laid ns n th

/-- Element numbers of the tree in traversal order. -/
def elems : Trie → List Int
  | S _ _ e => [e]
  | R _ _ e n => e :: elems n
  | X _ _ n => elems n
  | D _ _ l r => elems l ++ elems r
  | L _ _ sub => elems sub
  | K _ _ sub n => elems sub ++ elems n

/-- The pairs (key, element) of the tree in traversal order; the keys are
relative to the root of the tree. -/
def ents : Trie → List (List Nat × Int)
  | S _ c e => [([c], e)]
  | R _ c e n => ([c], e) :: (ents n).map (fun x => (c :: x.1, x.2))
  | X _ c n => (ents n).map (fun x => (c :: x.1, x.2))
  | D _ _ l r => ents l ++ ents r
  | L _ c sub => (elems sub).map (fun e => ([c], e))
  | K _ c sub n => (elems sub).map (fun e => ([c], e)) ++ (ents n).map (fun x => (c :: x.1, x.2))

/-- Address of the last terminal of the tree, the node that holds its thread. -/
def lastTerm : Trie → Nat
  | S p _ _ => p
  | R _ _ _ n => lastTerm n
  | X _ _ n => lastTerm n
  | D _ _ _ r => lastTerm r
  | L p _ _ => p
  | K _ _ _ n => lastTerm n

/-- Number of nodes on the path of right pointers from the root to the last terminal. -/
def rightDepth : Trie → Nat
  | S _ _ _ => 0
  | R _ _ _ n => rightDepth n + 1
  | X _ _ n => rightDepth n + 1
  | D _ _ _ r => rightDepth r + 1
  | L _ _ _ => 0
  | K _ _ _ n => rightDepth n + 1

/-- Number of nodes of the tree. -/
def size : Trie → Nat
  | S _ _ _ => 1
  | R _ _ _ n => size n + 1
  | X _ _ n => size n + 1
  | D _ _ l r => size l + size r + 1
  | L _ _ sub => size sub + 1
  | K _ _ sub n => size sub + size n + 1

/-- Key bytes of all nodes of the tree. -/
def chars : Trie → List Nat
  | S _ c _ => [c]
  | R _ c _ n => c :: chars n
  | X _ c n => c :: chars n
  | D _ c l r => c :: (chars l ++ chars r)
  | L _ c sub => c :: chars sub
  | K _ c sub n => c :: (chars sub ++ chars n)

/-- Every key byte of the tree is an ASCII byte. -/
def Ascii (t : Trie) : Prop := ∀ c ∈ t.chars, c < 128

/-- The elements found under exactly the key `key`, read off the tree. -/
def find : Trie → List Nat → List Int
  | _, [] => []
  | S _ c e, k :: rest => if k = c ∧ rest = [] then [e] else []
  | R _ c e n, k :: rest => if k = c then (if rest = [] then [e] else find n rest) else []
  | X _ c n, k :: rest => if k = c then (if rest = [] then [] else find n rest) else []
  | D _ c l r, k :: rest => if k ≤ c then find l (k :: rest) else find r (k :: rest)
  | L _ c sub, k :: rest => if k = c ∧ rest = [] then elems sub else []
  | K _ c sub n, k :: rest =>
    if k = c then (if rest = [] then elems sub else find n rest) else []

/-- The elements found under the keys that start with `key`, read off the tree. -/
def seek : Trie → List Nat → List Int
  | _, [] => []
  | S _ c e, k :: rest => if k = c ∧ rest = [] then [e] else []
  | R _ c e n, k :: rest => if k = c then (if rest = [] then e :: elems n else seek n rest) else []
  | X _ c n, k :: rest => if k = c then (if rest = [] then elems n else seek n rest) else []
  | D _ c l r, k :: rest => if k ≤ c then seek l (k :: rest) else seek r (k :: rest)
  | L _ c sub, k :: rest => if k = c ∧ rest = [] then elems sub else []
  | K _ c sub n, k :: rest =>
    if k = c then (if rest = [] then elems sub ++ elems n else seek n rest) else []

/-- Well-formedness of a tree whose first key bytes lie in `(lo, hi]`.  With
`mode = some w` the tree is part of a duplicates branch, `w` being the bytes
from the root of the branch down to the tree: there every element is stored
under its decimal rendering and no duplicate node occurs.  A decision node
splits the range of first bytes at its key byte; a duplicates branch holds
at least two elements. -/
def WF : Option (List Nat) → Int → Int → Trie → Prop
  | mode, lo, hi, S _ c e =>
    lo < (c : Int) ∧ (c : Int) ≤ hi ∧ ∀ w, mode = some w → w ++ [c] = itoa e
  | mode, lo, hi, R _ c e n =>
    lo < (c : Int) ∧ (c : Int) ≤ hi ∧ (∀ w, mode = some w → w ++ [c] = itoa e) ∧
      WF (mode.map (fun w => w ++ [c])) (-1) 127 n
  | mode, lo, hi, X _ c n =>
    lo < (c : Int) ∧ (c : Int) ≤ hi ∧ WF (mode.map (fun w => w ++ [c])) (-1) 127 n
  | mode, lo, hi, D _ c l r =>
    lo < (c : Int) ∧ (c : Int) ≤ hi ∧ WF mode lo c l ∧ WF mode c hi r
  | mode, lo, hi, L _ c sub =>
    mode = none ∧ lo < (c : Int) ∧ (c : Int) ≤ hi ∧ WF (some []) (-1) 127 sub ∧
      2 ≤ (elems sub).length
  | mode, lo, hi, K _ c sub n =>
    mode = none ∧ lo < (c : Int) ∧ (c : Int) ≤ hi ∧ WF (some []) (-1) 127 sub ∧
      2 ≤ (elems sub).length ∧ WF none (-1) 127 n

end Trie

/-- What the descent loop of `Search` has found, for a tree and the rest of the key. -/
def SearchOk (ix : Index) (t : Trie) (key : List Nat) : SearchExit → Prop
  | SearchExit.notFound => t.seek key = []
  | SearchExit.found s e =>
    ∀ fuelT, 2 * t.size + 2 ≤ fuelT → traverseAndCollect fuelT s e ix = some (t.seek key)

/-! ## Paths into the tree

A `Frame` is a node of the tree with one of its subtrees taken out; a list of
frames, innermost first, is the path from a subtree up to the root. -/

inductive Frame where
  | Rf (p : Nat) (c : Nat) (e : Int) : Frame
  | Xf (p : Nat) (c : Nat) : Frame
  | Kf (p : Nat) (c : Nat) (sub : Trie) : Frame
  | Ks (p : Nat) (c : Nat) (n : Trie) : Frame
  | Ls (p : Nat) (c : Nat) : Frame
  | Dl (p : Nat) (c : Nat) (r : Trie) : Frame
  | Dr (p : Nat) (c : Nat) (l : Trie) : Frame

namespace Frame

/-- The node with the subtree `t` put back. -/
def fill : Frame → Trie → Trie
  | Rf p c e, t => Trie.R p c e t
  | Xf p c, t => Trie.X p c t
  | Kf p c sub, t => Trie.K p c sub t
  | Ks p c n, t => Trie.K p c t n
  | Ls p c, t => Trie.L p c t
  | Dl p c r, t => Trie.D p c t r
  | Dr p c l, t => Trie.D p c l t

/-- Arena address of the node of the frame. -/
def addr : Frame → Nat
  | Rf p _ _ => p
  | Xf p _ => p
  | Kf p _ _ => p
  | Ks p _ _ => p
  | Ls p _ => p
  | Dl p _ _ => p
  | Dr p _ _ => p

/-- Key byte of the node of the frame. -/
def char : Frame → Nat
  | Rf _ c _ => c
  | Xf _ c => c
  | Kf _ c _ => c
  | Ks _ c _ => c
  | Ls _ c => c
  | Dl _ c _ => c
  | Dr _ c _ => c

/-- Addresses of the node of the frame and of the subtrees it keeps. -/
def addrs : Frame → List Nat
  | Rf p _ _ => [p]
  | Xf p _ => [p]
  | Kf p _ sub => p :: sub.addrs
  | Ks p _ n => p :: n.addrs
  | Ls p _ => [p]
  | Dl p _ r => p :: r.addrs
  | Dr p _ l => p :: l.addrs

/-- Thread of the subtree taken out, `th` being the thread of the node. -/
def thread : Frame → Int → Int
  | Rf _ _ _, th => th
  | Xf _ _, th => th
  | Kf _ _ _, th => th
  | Ks p _ _, _ => (p : Int)
  | Ls p _, _ => (p : Int)
  | Dl p _ _, _ => (p : Int)
  | Dr _ _ _, th => th

/-- The arena holds the frame: its node, pointing at `a` where the subtree was
taken out, and the subtrees it keeps. -/
def Laid (ns : List indexNode) : Frame → Int → Int → Prop
  | Rf p c e, _, a => ns[p]? = some ⟨indexKeyNode, e, c, a⟩
  | Xf p c, _, a => ns[p]? = some ⟨characterNode, nullIndexPointer, c, a⟩
  | Kf p c sub, _, a =>
    ns[p]? = some ⟨duplicateKeyNode, (sub.addr : Int), c, a⟩ ∧ Trie.Laid ns sub (p : Int)
  | Ks p c n, th, a =>
    ns[p]? = some ⟨duplicateKeyNode, a, c, (n.addr : Int)⟩ ∧ Trie.Laid ns n th
  | Ls p c, th, a => ns[p]? = some ⟨duplicateTerminalNode, a, c, th⟩
  | Dl p c r, th, a => ns[p]? = some ⟨decisionNode, a, c, (r.addr : Int)⟩ ∧ Trie.Laid ns r th
  | Dr p c l, _, a =>
    ns[p]? = some ⟨decisionNode, (l.addr : Int), c, a⟩ ∧ Trie.Laid ns l (p : Int)

/-- The pairs of the node, `es` being the pairs of the subtree taken out. -/
def ents : Frame → List (List Nat × Int) → List (List Nat × Int)
  | Rf _ c e, es => ([c], e) :: es.map (fun x => (c :: x.1, x.2))
  | Xf _ c, es => es.map (fun x => (c :: x.1, x.2))
  | Kf _ c sub, es => (Trie.elems sub).map (fun e => ([c], e)) ++ es.map (fun x => (c :: x.1, x.2))
  | Ks _ c n, es =>
    (es.map Prod.snd).map (fun e => ([c], e)) ++ (Trie.ents n).map (fun x => (c :: x.1, x.2))
  | Ls _ c, es => (es.map Prod.snd).map (fun e => ([c], e))
  | Dl _ _ r, es => es ++ Trie.ents r
  | Dr _ _ l, es => Trie.ents l ++ es

/-- The pair of the node that comes from the pair `x` of the subtree taken out. -/
def lift : Frame → List Nat × Int → List Nat × Int
  | Rf _ c _, x => (c :: x.1, x.2)
  | Xf _ c, x => (c :: x.1, x.2)
  | Kf _ c _, x => (c :: x.1, x.2)
  | Ks _ c _, x => ([c], x.2)
  | Ls _ c, x => ([c], x.2)
  | Dl _ _ _, x => x
  | Dr _ _ _, x => x

end Frame

/-- A path, innermost frame first. -/
abbrev Path := List Frame

namespace Path

/-- The whole tree, from the subtree `t` at the end of the path. -/
def plug : Path → Trie → Trie
  | [], t => t
  | f :: ctx, t => plug ctx (f.fill t)

/-- Addresses of all nodes of the whole tree outside the subtree at the end of the path. -/
def addrs : Path → List Nat
  | [] => []
  | f :: ctx => f.addrs ++ addrs ctx

/-- Thread of the subtree at the end of the path, `th0` being the thread of the whole tree. -/
def thread : Path → Int → Int
  | [], th0 => th0
  | f :: ctx, th0 => f.thread (thread ctx th0)

/-- The arena holds the whole tree outside the subtree at the end of the
path, the node above that subtree pointing at `a`. -/
def Laid (ns : List indexNode) : Path → Int → Int → Prop
  | [], _, _ => True
  | f :: ctx, th0, a => f.Laid ns (thread ctx th0) a ∧ Laid ns ctx th0 (f.addr : Int)

/-- The pairs of the whole tree, `es` being the pairs of the subtree at the end of the path. -/
def ents : Path → List (List Nat × Int) → List (List Nat × Int)
  | [], es => es
  | f :: ctx, es => ents ctx (f.ents es)

/-- The pair of the whole tree that comes from the pair `x` of the subtree at
the end of the path. -/
def lift : Path → List Nat × Int → List Nat × Int
  | [], x => x
  | f :: ctx, x => lift ctx (f.lift x)

/-- The variable `previousIndexPointer` of a descent that has followed the path. -/
def prev : Path → Int
  | [] => nullIndexPointer
  | f :: _ => (f.addr : Int)

/-- The path has entered a duplicates branch. -/
def inSub : Path → Bool
  | [] => false
  | Frame.Ks _ _ _ :: _ => true
  | Frame.Ls _ _ :: _ => true
  | _ :: ctx => inSub ctx

/-- Root address of the whole tree, `a` being the address of the subtree at the end of the path. -/
def rootAddr : Path → Nat → Nat
  | [], a => a
  | f :: ctx, _ => rootAddr ctx f.addr

/-- Mode, lower and upper bound of the first key byte of the subtree at the
end of the path, as in `Trie.WF`. -/
def params : Path → Option (List Nat) × Int × Int
  | [] => (none, -1, 127)
  | Frame.Rf _ c _ :: ctx => ((params ctx).1.map (fun w => w ++ [c]), -1, 127)
  | Frame.Xf _ c :: ctx => ((params ctx).1.map (fun w => w ++ [c]), -1, 127)
  | Frame.Kf _ _ _ :: _ => (none, -1, 127)
  | Frame.Ks _ _ _ :: _ => (some [], -1, 127)
  | Frame.Ls _ _ :: _ => (some [], -1, 127)
  | Frame.Dl _ c _ :: ctx => ((params ctx).1, (params ctx).2.1, (c : Int))
  | Frame.Dr _ c _ :: ctx => ((params ctx).1, (c : Int), (params ctx).2.2)

/-- Well-formedness of the whole tree outside the subtree at the end of the
path, that subtree holding `cnt` elements. -/
def WF : Path → Nat → Prop
  | [], _ => True
  | Frame.Rf _ c e :: ctx, cnt =>
    (params ctx).2.1 < (c : Int) ∧ (c : Int) ≤ (params ctx).2.2 ∧
      (∀ w, (params ctx).1 = some w → w ++ [c] = itoa e) ∧ WF ctx (cnt + 1)
  | Frame.Xf _ c :: ctx, cnt =>
    (params ctx).2.1 < (c : Int) ∧ (c : Int) ≤ (params ctx).2.2 ∧ WF ctx cnt
  | Frame.Kf _ c sub :: ctx, cnt =>
    (params ctx).1 = none ∧ (params ctx).2.1 < (c : Int) ∧ (c : Int) ≤ (params ctx).2.2 ∧
      Trie.WF (some []) (-1) 127 sub ∧ 2 ≤ (Trie.elems sub).length ∧ WF ctx cnt
  | Frame.Ks _ c n :: ctx, cnt =>
    (params ctx).1 = none ∧ (params ctx).2.1 < (c : Int) ∧ (c : Int) ≤ (params ctx).2.2 ∧
      2 ≤ cnt ∧ Trie.WF none (-1) 127 n ∧ WF ctx 0
  | Frame.Ls _ c :: ctx, cnt =>
    (params ctx).1 = none ∧ (params ctx).2.1 < (c : Int) ∧ (c : Int) ≤ (params ctx).2.2 ∧
      2 ≤ cnt ∧ WF ctx 0
  | Frame.Dl _ c r :: ctx, cnt =>
    (params ctx).2.1 < (c : Int) ∧ (c : Int) ≤ (params ctx).2.2 ∧
      Trie.WF (params ctx).1 (c : Int) (params ctx).2.2 r ∧ WF ctx (cnt + (Trie.elems r).length)
  | Frame.Dr _ c l :: ctx, cnt =>
    (params ctx).2.1 < (c : Int) ∧ (c : Int) ≤ (params ctx).2.2 ∧
      Trie.WF (params ctx).1 (params ctx).2.1 (c : Int) l ∧ WF ctx (cnt + (Trie.elems l).length)

end Path

/-- The free list: the slots `fl`, in order, linked through their right
pointers from `head` to the null pointer. -/
def FreeList (ns : List indexNode) : Int → List Nat → Prop
  | head, [] => head = nullIndexPointer
  | head, a :: fl => head = (a : Int) ∧ ∃ nd, ns[a]? = some nd ∧ FreeList ns nd.rightPointer fl

/-- The tree is the chain of nodes that `extend` builds for the bytes `ks` and
the element `e`: character nodes and a final terminal. -/
def Trie.IsChain : Trie → List Nat → Int → Prop
  | Trie.S _ c e', [k], e => c = k ∧ e' = e
  | Trie.X _ c n, k :: k2 :: ks, e => c = k ∧ Trie.IsChain n (k2 :: ks) e
  | _, _, _ => False

/-- The allocation of one slot for the node `nd`, as written out in `extend`
and in `Insert`: the head of the free list if there is one, a new slot at the
end of the arena otherwise. -/
def allocNode (nd : indexNode) (ix : Index) : Option (Int × Index) :=
  if ix.deletedRootPointer = nullIndexPointer then
    some ((ix.node.length : Int), { ix with node := ix.node ++ [nd] })
  else
    match getNode ix.node ix.deletedRootPointer with
    | none => none
    | some old =>
      match setNode ix.node ix.deletedRootPointer nd with
      | none => none
      | some ns =>
        some (ix.deletedRootPointer, { ix with node := ns, deletedRootPointer := old.rightPointer })

/-- The descent of `Insert` and `Delete` for the element `e`: from the tree
`t`, reached along `ctx`, with the bytes `key` still to match, down to the
node where the descent stops.  A duplicate node matched by the last byte of
the key is entered with the decimal rendering of `e` as the new key. -/
def descend (e : Int) : Trie → List Nat → Path → Path × Trie × List Nat
  | t, [], ctx => (ctx, t, [])
  | Trie.S p c e', k :: rest, ctx => (ctx, Trie.S p c e', k :: rest)
  | Trie.R p c e' n, k :: rest, ctx =>
    if k = c ∧ rest ≠ [] then descend e n rest (Frame.Rf p c e' :: ctx)
    else (ctx, Trie.R p c e' n, k :: rest)
  | Trie.X p c n, k :: rest, ctx =>
    if k = c ∧ rest ≠ [] then descend e n rest (Frame.Xf p c :: ctx)
    else (ctx, Trie.X p c n, k :: rest)
  | Trie.D p c l r, k :: rest, ctx =>
    if k ≤ c then descend e l (k :: rest) (Frame.Dl p c r :: ctx)
    else descend e r (k :: rest) (Frame.Dr p c l :: ctx)
  | Trie.L p c sub, k :: rest, ctx =>
    if k = c ∧ rest = [] then descend e sub (itoa e) (Frame.Ls p c :: ctx)
    else (ctx, Trie.L p c sub, k :: rest)
  | Trie.K p c sub n, k :: rest, ctx =>
    if k = c then
      if rest = [] then descend e sub (itoa e) (Frame.Ks p c n :: ctx)
      else descend e n rest (Frame.Kf p c sub :: ctx)
    else (ctx, Trie.K p c sub n, k :: rest)

/-- The loop variables of `Insert` stand at the tree `t` reached along `ctx`
with the bytes `key` still to match. -/
structure InsertAt (ix : Index) (st : InsertState) (ctx : Path) (t : Trie) (key : List Nat) :
    Prop where
  index : st.indexStructure = ix
  key : st.keyString.drop st.i = key
  length : st.keyLength = st.keyString.length
  prev : st.previousIndexPointer = Path.prev ctx
  pointer : st.indexPointer = (t.addr : Int)
  flag : st.duplicateFlag = Path.inSub ctx

namespace Path

/-- The variable `deleteIndexPointer` of a descent that has followed the path. -/
def dele : Path → Int
  | [] => nullIndexPointer
  | Frame.Xf _ _ :: ctx => dele ctx
  | Frame.Ls _ _ :: ctx => dele ctx
  | f :: _ => (f.addr : Int)

/-- The variable `linkPreviousPointer` of a descent that has followed the path. -/
def lprev : Path → Int
  | [] => nullIndexPointer
  | Frame.Xf _ _ :: ctx => lprev ctx
  | Frame.Ls _ _ :: ctx => lprev ctx
  | _ :: ctx => prev ctx

/-- The variable `deleteBranch` of a descent that has followed the path. -/
def branch : Path → Nat
  | [] => null
  | Frame.Dl _ _ _ :: _ => left
  | Frame.Dr _ _ _ :: _ => right
  | _ :: ctx => branch ctx

/-- The variable `duplicateNodePointer` of a descent that has followed the path. -/
def dup : Path → Int
  | [] => nullIndexPointer
  | Frame.Ks p _ _ :: _ => (p : Int)
  | Frame.Ls p _ :: _ => (p : Int)
  | _ :: ctx => dup ctx

end Path

/-- The loop variables of `Delete` stand at the tree `t` reached along `ctx`
with the bytes `key` still to match. -/
structure DeleteAt (st : DeleteState) (ctx : Path) (t : Trie) (key : List Nat) : Prop where
  key : st.keyString.drop st.i = key
  length : st.keyLength = st.keyString.length
  prev : st.previousIndexPointer = Path.prev ctx
  dele : st.deleteIndexPointer = Path.dele ctx
  dup : st.duplicateNodePointer = Path.dup ctx
  lprev : st.linkPreviousPointer = Path.lprev ctx
  pointer : st.indexPointer = (t.addr : Int)
  branch : st.deleteBranch = Path.branch ctx

/-- Number of elements of the tree beyond the first. -/
def Trie.extra (t : Trie) : Nat := t.elems.length - 1

/-- The bytes `key` still to match at the end of the path `ctx`, in a descent
for the element `e`, are ASCII bytes, the first of them within the bounds of
the path, and inside a duplicates branch they complete the bytes of the path
to the decimal rendering of `e`. -/
def KeyOk (e : Int) (ctx : Path) (key : List Nat) : Prop :=
  (∀ b ∈ key, b < 128) ∧
  (∃ k rest, key = k :: rest ∧ (Path.params ctx).2.1 < (k : Int) ∧
    (k : Int) ≤ (Path.params ctx).2.2) ∧
  ∀ w, (Path.params ctx).1 = some w → w ++ key = itoa e

/-- The descent stops at the tree `t` with the bytes `key` still to match. -/
def Stops : Trie → List Nat → Prop
  | _, [] => False
  | Trie.S _ _ _, _ :: _ => True
  | Trie.R _ c _ _, k :: rest => ¬ (k = c ∧ rest ≠ [])
  | Trie.X _ c _, k :: rest => ¬ (k = c ∧ rest ≠ [])
  | Trie.D _ _ _ _, _ :: _ => False
  | Trie.L _ c _, k :: rest => ¬ (k = c ∧ rest = [])
  | Trie.K _ c _ _, k :: _ => k ≠ c

/-- The arena node of a frame, `th` being the thread of the node and `a` the
pointer to the subtree taken out. -/
def Frame.node : Frame → Int → Int → indexNode
  | Frame.Rf _ c e, _, a => ⟨indexKeyNode, e, c, a⟩
  | Frame.Xf _ c, _, a => ⟨characterNode, nullIndexPointer, c, a⟩
  | Frame.Kf _ c sub, _, a => ⟨duplicateKeyNode, (sub.addr : Int), c, a⟩
  | Frame.Ks _ c n, _, a => ⟨duplicateKeyNode, a, c, (n.addr : Int)⟩
  | Frame.Ls _ c, th, a => ⟨duplicateTerminalNode, a, c, th⟩
  | Frame.Dl _ c r, _, a => ⟨decisionNode, a, c, (r.addr : Int)⟩
  | Frame.Dr _ c l, _, a => ⟨decisionNode, (l.addr : Int), c, a⟩

/-- The subtree taken out of the frame hangs on the left pointer of its node. -/
def Frame.holeLeft : Frame → Bool
  | Frame.Ks _ _ _ => true
  | Frame.Ls _ _ => true
  | Frame.Dl _ _ _ => true
  | _ => false

/-- The arena node of the root of a tree, `th` being its thread. -/
def Trie.node : Trie → Int → indexNode
  | Trie.S _ c e, th => ⟨indexTerminalNode, e, c, th⟩
  | Trie.R _ c e n, _ => ⟨indexKeyNode, e, c, (n.addr : Int)⟩
  | Trie.X _ c n, _ => ⟨characterNode, nullIndexPointer, c, (n.addr : Int)⟩
  | Trie.D _ c l r, _ => ⟨decisionNode, (l.addr : Int), c, (r.addr : Int)⟩
  | Trie.L _ c sub, th => ⟨duplicateTerminalNode, (sub.addr : Int), c, th⟩
  | Trie.K _ c sub n, _ => ⟨duplicateKeyNode, (sub.addr : Int), c, (n.addr : Int)⟩

/-- Key byte of the root of a tree. -/
def Trie.char : Trie → Nat
  | Trie.S _ c _ => c
  | Trie.R _ c _ _ => c
  | Trie.X _ c _ => c
  | Trie.D _ c _ _ => c
  | Trie.L _ c _ => c
  | Trie.K _ c _ _ => c

/-- The index holds the whole tree made of the path `ctx` and the subtree
`t`, and the free list `fl`; the two share no slot and fill the arena. -/
structure AtFocus (ix : Index) (fl : List Nat) (ctx : Path) (t : Trie) : Prop where
  root : ix.indexRootPointer = (Path.rootAddr ctx t.addr : Int)
  path : Path.Laid ix.node ctx (-1) (t.addr : Int)
  tree : Trie.Laid ix.node t (Path.thread ctx (-1))
  free : FreeList ix.node ix.deletedRootPointer fl
  perm : (Path.addrs ctx ++ t.addrs ++ fl).Perm (List.range ix.node.length)

/-- The slots that an operation has taken: a number `n` of them, the first
`n` slots of the free list `fl` in their order, and, once the free list is
empty, new slots at the end of the arena; `len` and `len'` are the lengths
of the arena, `fl'` is the free list afterwards. -/
def Taken (len len' : Nat) (fl fl' : List Nat) : Prop :=
  ∃ n, fl' = fl.drop n ∧ len' = len + (n - fl.length)

/-- What one call of `extend`, or a part of it, has done to the index: the
new tree `res` is laid out in slots taken from the free list or appended. -/
structure Extended (ix ix' : Index) (fl fl' : List Nat) (old : List Nat) (res : Trie)
    (next : Int) : Prop where
  laid : Trie.Laid ix'.node res next
  free : FreeList ix'.node ix'.deletedRootPointer fl'
  nodup : fl'.Nodup
  perm : (res.addrs ++ fl').Perm
    (old ++ fl ++ List.range' ix.node.length (ix'.node.length - ix.node.length))
  len : ix.node.length ≤ ix'.node.length
  frame : ∀ b, b < ix.node.length → b ∉ fl → ix'.node[b]? = ix.node[b]?
  root : ix'.indexRootPointer = ix.indexRootPointer
  count : ix'.keyCount = ix.keyCount
  taken : Taken ix.node.length ix'.node.length fl fl'

/-- What the allocation of one slot has done to the index. -/
structure Allocated (ix ix1 : Index) (fl fl1 : List Nat) (a : Nat) (nd : indexNode) : Prop where
  node : ix1.node[a]? = some nd
  free : FreeList ix1.node ix1.deletedRootPointer fl1
  nodup : fl1.Nodup
  fresh : a ∉ fl1
  perm : (a :: fl1).Perm (fl ++ List.range' ix.node.length (ix1.node.length - ix.node.length))
  len : ix.node.length ≤ ix1.node.length
  frame : ∀ b, b < ix.node.length → b ∉ fl → ix1.node[b]? = ix.node[b]?
  other : ∀ b, b < ix.node.length → b ∉ fl → b ≠ a
  root : ix1.indexRootPointer = ix.indexRootPointer
  count : ix1.keyCount = ix.keyCount
  taken : Taken ix.node.length ix1.node.length fl fl1

/-- Value of a string of decimal digits. -/
def digitsValue (ds : List Nat) : Nat := ds.foldl (fun v d => 10 * v + (d - 48)) 0

/-- The facts that hold where the descent stops. -/
structure Descended (e : Int) (d : Nat) (ctx : Path) (t : Trie) (key : List Nat)
    (r : Path × Trie × List Nat) : Prop where
  plug : Path.plug r.1 r.2.1 = Path.plug ctx t
  wf : Trie.WF (Path.params r.1).1 (Path.params r.1).2.1 (Path.params r.1).2.2 r.2.1
  path : Path.WF r.1 (r.2.1.extra + d)
  keyOk : KeyOk e r.1 r.2.2
  lift : Path.lift r.1 (r.2.2, e) = Path.lift ctx (key, e)
  stops : Stops r.2.1 r.2.2

/-- What the descent of `Insert` knows of the frame above the place where it
stops with the key byte `k`: at a decision node it went left exactly when the
byte is at most the byte of the node, and a duplicate-key node passed on the
way to its right pointer is not inside a duplicates branch. -/
def Path.LinkOk : Path → Nat → Prop
  | Frame.Dl _ c _ :: _, k => strLe [k] (byteToString c) = true
  | Frame.Dr _ c _ :: _, k => strLe [k] (byteToString c) = false
  | Frame.Kf _ _ _ :: ctx, _ => Path.inSub ctx = false
  | _, _ => True

/-- What `Insert` returns once its descent loop has left with `r`. -/
def insertOutcome (fuel : Nat) (keyElement : Int) : InsertExit → Option (Bool × Index)
  | InsertExit.returned success ix => some (success, ix)
  | InsertExit.diverged st => insertBranch fuel keyElement st

/-- The result `out` of an insertion of the pair `x` at the subtree `t`
reached along `ctx`: either nothing has changed and the pair is in the
subtree, or a well-formed subtree with the pair added has taken its place. -/
def InsertedAt (ix : Index) (ctx : Path) (t : Trie) (x : List Nat × Int)
    (out : Bool × Index) : Prop :=
  (out = (false, ix) ∧ x ∈ t.ents) ∨
  ∃ ix' fl' t', out = (true, ix') ∧ AtFocus ix' fl' ctx t' ∧
    Trie.WF (Path.params ctx).1 (Path.params ctx).2.1 (Path.params ctx).2.2 t' ∧
    t'.ents.Perm (x :: t.ents) ∧ ix'.keyCount = ix.keyCount + 1

/-- Every frame of the path is a character node. -/
def Path.IsX (xp : Path) : Prop := ∀ f ∈ xp, ∃ p c, f = Frame.Xf p c

/-- The frame is a character node. -/
def Frame.isX : Frame → Bool
  | Frame.Xf _ _ => true
  | _ => false

/-- The tree is a single line of right pointers: no decision and no duplicate node. -/
def Trie.Linear : Trie → Prop
  | Trie.S _ _ _ => True
  | Trie.R _ _ _ n => Trie.Linear n
  | Trie.X _ _ n => Trie.Linear n
  | _ => False

/-- The tree is a decision node. -/
def Trie.isD : Trie → Bool
  | Trie.D _ _ _ _ => true
  | _ => false

/-- The path after `Delete` has put the tree `t` in the place of a decision
node on the left of the decision node above: the key byte of the node above
becomes that of `t`, unless `t` is a decision node. -/
def Path.reset : Path → Trie → Path
  | Frame.Dl p c r :: ctx, t => Frame.Dl p (if t.isD then c else t.char) r :: ctx
  | ctx, _ => ctx

/-- What `Delete` needs of the frame above a decision node with the byte `cq`
that it takes out: below a decision node the byte tells the side, and a
duplicate-key node above, passed on the way to its right pointer, is not the
base of the duplicates branch of the descent. -/
def Path.SideOk : Path → Nat → Prop
  | Frame.Dl _ c _ :: _, cq => cq ≤ c
  | Frame.Dr _ c _ :: _, cq => c < cq
  | Frame.Kf _ _ _ :: ctx, _ => Path.dup ctx = nullIndexPointer
  | _, _ => True

/-- The frame is a duplicate node with its duplicates branch taken out. -/
def Frame.isDup : Frame → Bool
  | Frame.Ks _ _ _ => true
  | Frame.Ls _ _ => true
  | _ => false

/-- The key node with element `e` that a duplicate node becomes when its
duplicates branch is given up. -/
def Frame.collapse : Frame → Int → Trie
  | Frame.Ks p c n, e => Trie.R p c e n
  | Frame.Ls p c, e => Trie.S p c e
  | Frame.Rf p c _, e => Trie.S p c e
  | Frame.Xf p c, e => Trie.S p c e
  | Frame.Kf p c _, e => Trie.S p c e
  | Frame.Dl p c _, e => Trie.S p c e
  | Frame.Dr p c _, e => Trie.S p c e

/-- Number of elements of the duplicates branch around the end of the path,
the subtree at the end of the path holding `n` of them. -/
def Path.subCount : Path → Nat → Nat
  | [], n => n
  | Frame.Rf _ _ _ :: ctx, n => Path.subCount ctx (n + 1)
  | Frame.Xf _ _ :: ctx, n => Path.subCount ctx n
  | Frame.Kf _ _ sub :: ctx, n => Path.subCount ctx (n + sub.elems.length)
  | Frame.Ks _ _ _ :: _, n => n
  | Frame.Ls _ _ :: _, n => n
  | Frame.Dl _ _ r :: ctx, n => Path.subCount ctx (n + r.elems.length)
  | Frame.Dr _ _ l :: ctx, n => Path.subCount ctx (n + l.elems.length)

/-- The frames of the path inside the duplicates branch around its end. -/
def Path.inner : Path → Path
  | [] => []
  | Frame.Ks _ _ _ :: _ => []
  | Frame.Ls _ _ :: _ => []
  | f :: ctx => f :: Path.inner ctx

/-- The path from the duplicate node of the duplicates branch around its end. -/
def Path.outer : Path → Path
  | [] => []
  | Frame.Ks p c n :: ctx => Frame.Ks p c n :: ctx
  | Frame.Ls p c :: ctx => Frame.Ls p c :: ctx
  | _ :: ctx => Path.outer ctx

/-- The invariant of the index: it is empty, or it holds a well-formed tree;
the slots that are not in the tree are on the free list. -/
def Inv (ix : Index) (fl : List Nat) : Option Trie → Prop
  | none => ix.indexRootPointer = nullIndexPointer ∧
      FreeList ix.node ix.deletedRootPointer fl ∧ fl.Perm (List.range ix.node.length)
  | some T => AtFocus ix fl [] T ∧ Trie.WF none (-1) 127 T

/-- The pairs of the index, in the order of the traversal. -/
def entsOf : Option Trie → List (List Nat × Int)
  | none => []
  | some T => T.ents

/-- What `Delete` returns once its descent loop has left with `r`. -/
def deleteOutcome (fuel : Nat) (indexStructure : Index) : DeleteExit → Option (Bool × Index)
  | DeleteExit.notFound => some (false, indexStructure)
  | DeleteExit.matched st =>
    if st.duplicateNodePointer ≠ nullIndexPointer then
      match getNode indexStructure.node st.duplicateNodePointer with
      | none => none
      | some dn =>
        match runLoop (deleteCountBody indexStructure.node st.duplicateNodePointer) fuel
            ⟨0, left, dn.leftPointer⟩ with
        | none => none
        | some elementCount =>
          if elementCount < 3 then deleteCollapse fuel indexStructure st
          else deleteSingle fuel indexStructure st
    else deleteSingle fuel indexStructure st

/-- The pair is in the tree exactly when the descent for it stops at a node
that holds it. -/
def Found (e : Int) (r : Path × Trie × List Nat) : Prop :=
  ∃ k, r.2.2 = [k] ∧ ((∃ p, r.2.1 = Trie.S p k e) ∨ (∃ p n, r.2.1 = Trie.R p k e n))

/-- Outcome of `Delete` on a tree: the pair is not in the tree and nothing
changes, or the pair is taken out of the tree. -/
def DeletedAt (ix : Index) (T : Trie) (x : List Nat × Int) (out : Bool × Index) : Prop :=
  (out = (false, ix) ∧ x ∉ T.ents) ∨
  (∃ ix' fl' oT', out = (true, ix') ∧ Inv ix' fl' oT' ∧ T.ents.Perm (x :: entsOf oT') ∧
    ix'.keyCount = ix.keyCount - 1)

/-- The order of `Scan` on pairs: by key, byte-wise lexicographic with a
proper initial segment first, and under one key by the decimal rendering of
the element. -/
def pairLt (x y : List Nat × Int) : Prop :=
  strLt x.1 y.1 = true ∨ (x.1 = y.1 ∧ strLt (itoa x.2) (itoa y.2) = true)

/-- The elements of the pairs with exactly the key `key`, in order. -/
def underKey (es : List (List Nat × Int)) (key : List Nat) : List Int :=
  (es.filter (fun x => decide (x.1 = key))).map Prod.snd

/-- The elements of the pairs whose key starts with `key`, in order. -/
def underStart (es : List (List Nat × Int)) (key : List Nat) : List Int :=
  (es.filter (fun x => key.isPrefixOf x.1)).map Prod.snd

/-- A key of ASCII bytes. -/
@[reducible] def AsciiKey (k : List Nat) : Prop := ∀ b ∈ k, b < 128

/-- The normalized form of a key: what `validate` makes of it. -/
def normalize (k : List Nat) : List Nat := (validate k).1

/-- The stored pairs after a successful `Delete` of the pair `x`. -/
def removePair (x : List Nat × Int) (m : List (List Nat × Int)) : List (List Nat × Int) :=
  m.filter (fun y => decide (y ≠ x))

/-- One call of `Insert` (or of `Delete`), with its arguments and the success
flag it returned. -/
structure Call where
  isInsert : Bool
  key : List Nat
  element : Int
  success : Bool

/-- The pairs (normalized key, element) that were inserted successfully and not
deleted afterwards, read off the log of the calls, latest call first. -/
def stored : List Call → List (List Nat × Int)
  | [] => []
  | c :: log =>
    if c.success = true then
      if c.isInsert = true then (normalize c.key, c.element) :: stored log
      else removePair (normalize c.key, c.element) (stored log)
    else stored log

/-- Number of successful `Insert` calls of the log. -/
def insertedCount (log : List Call) : Nat :=
  (log.filter (fun c => c.isInsert && c.success)).length

/-- Number of successful `Delete` calls of the log. -/
def deletedCount (log : List Call) : Nat :=
  (log.filter (fun c => !c.isInsert && c.success)).length

/-- The indexes obtained from `Initialise`, applied to the zero value of the
type, by `Insert` and `Delete` calls with ASCII keys, each with the log of
the calls, latest first.  A call is a run of the operation that returns, on
any fuel. -/
inductive Reach : Index → List Call → Prop
  | init : Reach (Initialise zeroIndex) []
  | insert (fuel : Nat) (k : List Nat) (e : Int) (b : Bool) (s s' : Index)
      (log : List Call) : Reach s log → AsciiKey k →
      Insert fuel k e s = some (b, s') → Reach s' (⟨true, k, e, b⟩ :: log)
  | delete (fuel : Nat) (k : List Nat) (e : Int) (b : Bool) (s s' : Index)
      (log : List Call) : Reach s log → AsciiKey k →
      Delete fuel k e s = some (b, s') → Reach s' (⟨false, k, e, b⟩ :: log)

/-- The index represents the pairs `m`: its arena holds a well-formed tree with
these pairs, every other slot is on the free list, and the key count is the
number of pairs. -/
def Good (ix : Index) (m : List (List Nat × Int)) : Prop :=
  ∃ fl oT, Inv ix fl oT ∧ (entsOf oT).Perm m ∧ ix.keyCount = (m.length : Int)

/-- The calls `Insert(k, e)` for the pairs of the list, in order, with the
success flags returned. -/
def insertAll (fuel : Nat) : List (List Nat × Int) → Index → Option (List Bool × Index)
  | [], s => some ([], s)
  | p :: ps, s =>
    match Insert fuel p.1 p.2 s with
    | none => none
    | some (b, s') =>
      match insertAll fuel ps s' with
      | none => none
      | some (bs, s'') => some (b :: bs, s'')

/-- The calls `Delete(k, e)` for the pairs of the list, in order, with the
success flags returned. -/
def deleteAll (fuel : Nat) : List (List Nat × Int) → Index → Option (List Bool × Index)
  | [], s => some ([], s)
  | p :: ps, s =>
    match Delete fuel p.1 p.2 s with
    | none => none
    | some (b, s') =>
      match deleteAll fuel ps s' with
      | none => none
      | some (bs, s'') => some (b :: bs, s'')

/-- The pair with its key normalized. -/
def normPair (p : List Nat × Int) : List Nat × Int := (normalize p.1, p.2)

/-- The counts that `Statistics` returns; every field is a Go `int`. -/
structure Statistic where
  Active : Int
  Deleted : Int
  Depth : Int
  DecisionNodeCount : Int
  CharacterNodeCount : Int
  IndexKeyNodeCount : Int
  IndexTerminalNodeCount : Int
  DuplicateKeyNodeCount : Int
  DuplicateTerminalNodeCount : Int
  deriving DecidableEq

/-- The function `pushStack`: the stack is an array that is overwritten at
`inDepth` when it is long enough and grows by one slot otherwise. -/
def pushStack (inStack : List Int) (indexPointer : Int) (inDepth : Nat) : List Int × Nat :=
  if inStack.length ≤ inDepth then (inStack ++ [indexPointer], inDepth + 1)
  else (inStack.set inDepth indexPointer, inDepth + 1)

/-- The loop `for stackPointer = 0; stack[stackPointer] != indexPointer; stackPointer++`:
the first position of `indexPointer` in the stack; `none` is the
index-out-of-range panic when the stack does not hold it. -/
def stackSeek : List Int → Int → Option Nat
  | [], _ => none
  | a :: rest, indexPointer =>
    if a = indexPointer then some 0
    else
      match stackSeek rest indexPointer with
      | none => none
      | some n => some (n + 1)

/-- The stack pointer after the reset of the stack to the node `indexPointer`. -/
def resetStack (stack : List Int) (indexPointer : Int) (stackPointer : Nat) : Option Nat :=
  if indexPointer ≠ nullIndexPointer then
    match stackSeek stack indexPointer with
    | none => none
    | some n => some (n + 1)
  else some stackPointer

/-- Loop variables of `Statistics`. -/
structure StatState where
  stack : List Int
  stackPointer : Nat
  direction : Nat
  result : Statistic
  indexPointer : Int

/-- One pass of the scanning loop of `Statistics`. -/
def statsBody (indexStructure : Index) (st : StatState) :
    Option (LoopStep StatState StatState) :=
  if st.indexPointer = nullIndexPointer then some (LoopStep.exit st)
  else
    match getNode indexStructure.node st.indexPointer with
    | none => none
    | some nd =>
      if nd.indexType = characterNode then
        some (LoopStep.next
          { stack := (pushStack st.stack st.indexPointer st.stackPointer).1,
            stackPointer := (pushStack st.stack st.indexPointer st.stackPointer).2,
            direction := left,
            result := { st.result with CharacterNodeCount := st.result.CharacterNodeCount + 1 },
            indexPointer := nd.rightPointer })
      else if nd.indexType = indexKeyNode then
        some (LoopStep.next
          { stack := (pushStack st.stack st.indexPointer st.stackPointer).1,
            stackPointer := (pushStack st.stack st.indexPointer st.stackPointer).2,
            direction := left,
            result := { st.result with IndexKeyNodeCount := st.result.IndexKeyNodeCount + 1 },
            indexPointer := nd.rightPointer })
      else if nd.indexType = decisionNode then
        if st.direction = left then
          some (LoopStep.next
            { stack := (pushStack st.stack st.indexPointer st.stackPointer).1,
              stackPointer := (pushStack st.stack st.indexPointer st.stackPointer).2,
              direction := st.direction,
              result := { st.result with DecisionNodeCount := st.result.DecisionNodeCount + 1 },
              indexPointer := nd.leftPointer })
        else some (LoopStep.next { st with indexPointer := nd.rightPointer, direction := left })
      else if nd.indexType = duplicateKeyNode then
        if st.direction = left then
          some (LoopStep.next
            { stack := (pushStack st.stack st.indexPointer st.stackPointer).1,
              stackPointer := (pushStack st.stack st.indexPointer st.stackPointer).2,
              direction := st.direction,
              result :=
                { st.result with DuplicateKeyNodeCount := st.result.DuplicateKeyNodeCount + 1 },
              indexPointer := nd.leftPointer })
        else some (LoopStep.next { st with indexPointer := nd.rightPointer, direction := left })
      else if nd.indexType = indexTerminalNode then
        match resetStack (pushStack st.stack st.indexPointer st.stackPointer).1 nd.rightPointer
            (pushStack st.stack st.indexPointer st.stackPointer).2 with
        | none => none
        | some sp =>
          some (LoopStep.next
            { stack := (pushStack st.stack st.indexPointer st.stackPointer).1,
              stackPointer := sp,
              direction := right,
              result :=
                { st.result with IndexTerminalNodeCount := st.result.IndexTerminalNodeCount + 1 },
              indexPointer := nd.rightPointer })
      else if nd.indexType = duplicateTerminalNode then
        if st.direction = left then
          some (LoopStep.next
            { stack := (pushStack st.stack st.indexPointer st.stackPointer).1,
              stackPointer := (pushStack st.stack st.indexPointer st.stackPointer).2,
              direction := st.direction,
              result :=
                { st.result with
                  DuplicateTerminalNodeCount := st.result.DuplicateTerminalNodeCount + 1 },
              indexPointer := nd.leftPointer })
        else
          match resetStack st.stack nd.rightPointer st.stackPointer with
          | none => none
          | some sp =>
            some (LoopStep.next { st with indexPointer := nd.rightPointer, stackPointer := sp })
      else some (LoopStep.next st)

/-- One pass of the loop of `Statistics` over the free list: the loop
variable `x` and the count `Deleted`. -/
def deletedBody (indexStructure : Index) (st : Int × Int) : Option (LoopStep (Int × Int) Int) :=
  if st.1 ≠ nullIndexPointer then
    match getNode indexStructure.node st.1 with
    | none => none
    | some nd => some (LoopStep.next (nd.rightPointer, st.2 + 1))
  else some (LoopStep.exit st.2)

/-- The bytes of a string of ASCII characters. -/
def asciiBytes (s : String) : List Nat := s.toList.map Char.toNat

/-- The text `json.Marshal(result)`: the fields in the order of the structure
under their JSON names, the numbers in decimal. -/
def marshalStatistic (r : Statistic) : List Nat :=
  asciiBytes "\x7b\"Active\":" ++ itoa r.Active ++
  asciiBytes ",\"Deleted\":" ++ itoa r.Deleted ++
  asciiBytes ",\"Depth\":" ++ itoa r.Depth ++
  asciiBytes ",\"DecisionNodes\":" ++ itoa r.DecisionNodeCount ++
  asciiBytes ",\"CharacterNodes\":" ++ itoa r.CharacterNodeCount ++
  asciiBytes ",\"IndexKeyNodes\":" ++ itoa r.IndexKeyNodeCount ++
  asciiBytes ",\"IndexTerminalNodes\":" ++ itoa r.IndexTerminalNodeCount ++
  asciiBytes ",\"DuplicateKeyNodes\":" ++ itoa r.DuplicateKeyNodeCount ++
  asciiBytes ",\"DuplicateTerminalNodes\":" ++ itoa r.DuplicateTerminalNodeCount ++
  asciiBytes "\x7d"

/-- The counts after the scanning loop: `Active` is the sum of the six counts
of node types and `Depth` the length of the stack. -/
def statsTotals (st : StatState) : Statistic :=
  { st.result with
    Active := st.result.IndexKeyNodeCount + st.result.IndexTerminalNodeCount +
      st.result.CharacterNodeCount + st.result.DuplicateKeyNodeCount +
      st.result.DuplicateTerminalNodeCount + st.result.DecisionNodeCount,
    Depth := (st.stack.length : Int) }

def Statistics (fuel : Nat) (indexStructure : Index) : Option (Statistic × List Nat) :=
  match runLoop (statsBody indexStructure) fuel
      { stack := [], stackPointer := 0, direction := left,
        result := ⟨0, 0, 0, 0, 0, 0, 0, 0, 0⟩,
        indexPointer := indexStructure.indexRootPointer } with
  | none => none
  | some st =>
    match runLoop (deletedBody indexStructure) fuel
        (indexStructure.deletedRootPointer, (statsTotals st).Deleted) with
    | none => none
    | some deleted =>
      some ({ statsTotals st with Deleted := deleted },
        marshalStatistic { statsTotals st with Deleted := deleted })

/-- The tags of the nodes of the tree, in the order in which `Statistics`
counts them. -/
def Trie.types : Trie → List Nat
  | Trie.S _ _ _ => [indexTerminalNode]
  | Trie.R _ _ _ n => indexKeyNode :: Trie.types n
  | Trie.X _ _ n => characterNode :: Trie.types n
  | Trie.D _ _ l r => decisionNode :: (Trie.types l ++ Trie.types r)
  | Trie.L _ _ sub => duplicateTerminalNode :: Trie.types sub
  | Trie.K _ _ sub n => duplicateKeyNode :: (Trie.types sub ++ Trie.types n)

/-- The counts with one more node of the tag `ty`. -/
def bump (r : Statistic) (ty : Nat) : Statistic :=
  if ty = characterNode then { r with CharacterNodeCount := r.CharacterNodeCount + 1 }
  else if ty = indexKeyNode then { r with IndexKeyNodeCount := r.IndexKeyNodeCount + 1 }
  else if ty = decisionNode then { r with DecisionNodeCount := r.DecisionNodeCount + 1 }
  else if ty = duplicateKeyNode then
    { r with DuplicateKeyNodeCount := r.DuplicateKeyNodeCount + 1 }
  else if ty = indexTerminalNode then
    { r with IndexTerminalNodeCount := r.IndexTerminalNodeCount + 1 }
  else if ty = duplicateTerminalNode then
    { r with DuplicateTerminalNodeCount := r.DuplicateTerminalNodeCount + 1 }
  else r

/-- The tags of the nodes of the index. -/
def typesOf : Option Trie → List Nat
  | none => []
  | some T => T.types

/-- The slots of the nodes of the index. -/
def addrsOf : Option Trie → List Nat
  | none => []
  | some T => T.addrs

/-- The slot `q` hangs on the slot `p`: on the right pointer of a character,
index-key, decision or duplicate-key node (continuation and right child), or
on the left pointer of a decision, duplicate-key or duplicate-terminal node
(left child and duplicates branch).  The right pointer of a terminal is a
thread, not a link. -/
inductive Linked (ns : List indexNode) : Int → Int → Prop
  | onRight (p : Int) (nd : indexNode) : getNode ns p = some nd →
      (nd.indexType = characterNode ∨ nd.indexType = indexKeyNode ∨
        nd.indexType = decisionNode ∨ nd.indexType = duplicateKeyNode) →
      Linked ns p nd.rightPointer
  | onLeft (p : Int) (nd : indexNode) : getNode ns p = some nd →
      (nd.indexType = decisionNode ∨ nd.indexType = duplicateKeyNode ∨
        nd.indexType = duplicateTerminalNode) →
      Linked ns p nd.leftPointer

/-- The slot `a` is reachable from the root of the index. -/
def Reachable (ix : Index) (a : Int) : Prop :=
  ix.indexRootPointer ≠ nullIndexPointer ∧
    Relation.ReflTransGen (Linked ix.node) ix.indexRootPointer a

/-- At every decision node of the tree, in the main trie and in the
duplicates branches: every key of the left subtree starts with a byte that
is at most the key byte of the node, every key of the right subtree with a
byte that is greater, and both subtrees hold a key.  The keys of a subtree
are relative to its root, so that their first byte is the byte at the key
position of the decision node. -/
def Trie.DecisionOrdered : Trie → Prop
  | Trie.S _ _ _ => True
  | Trie.R _ _ _ n => Trie.DecisionOrdered n
  | Trie.X _ _ n => Trie.DecisionOrdered n
  | Trie.D _ c l r =>
    (∀ x ∈ l.ents, ∃ k rest, x.1 = k :: rest ∧ k ≤ c) ∧
    (∀ x ∈ r.ents, ∃ k rest, x.1 = k :: rest ∧ c < k) ∧
    l.ents ≠ [] ∧ r.ents ≠ [] ∧ Trie.DecisionOrdered l ∧ Trie.DecisionOrdered r
  | Trie.L _ _ sub => Trie.DecisionOrdered sub
  | Trie.K _ _ sub n => Trie.DecisionOrdered sub ∧ Trie.DecisionOrdered n

/-- The order at the decision nodes of the index. -/
def DecisionOrderedOf : Option Trie → Prop
  | none => True
  | some T => T.DecisionOrdered

/-- The terminals of the tree, each with the slot that its right pointer has
to hold, `th` being that of the last terminal of the tree: for the last
terminal of the left subtree of a decision node it is the decision node, for
the last terminal of a duplicates branch the duplicate node that owns the
branch. -/
def Trie.threads : Trie → Int → List (Nat × Int)
  | Trie.S p _ _, th => [(p, th)]
  | Trie.R _ _ _ n, th => Trie.threads n th
  | Trie.X _ _ n, th => Trie.threads n th
  | Trie.D p _ l r, th => Trie.threads l (p : Int) ++ Trie.threads r th
  | Trie.L p _ sub, th => (p, th) :: Trie.threads sub (p : Int)
  | Trie.K p _ sub n, th => Trie.threads sub (p : Int) ++ Trie.threads n th

/-- The tree holds no duplicate node. -/
def Trie.plain : Trie → Prop
  | Trie.S _ _ _ => True
  | Trie.R _ _ _ n => Trie.plain n
  | Trie.X _ _ n => Trie.plain n
  | Trie.D _ _ l r => Trie.plain l ∧ Trie.plain r
  | Trie.L _ _ _ => False
  | Trie.K _ _ _ _ => False

/-- The tree is a duplicates branch as it should be: it holds at least two
elements, all distinct, each in a node at the end of the bytes of its decimal
rendering, and no duplicate node. -/
def Trie.Branch (sub : Trie) : Prop :=
  sub.plain ∧ 2 ≤ sub.elems.length ∧ sub.elems.Nodup ∧
    sub.ents = sub.elems.map (fun e => (itoa e, e))

/-- Every duplicates branch of the tree is as it should be. -/
def Trie.DuplicatesOk : Trie → Prop
  | Trie.S _ _ _ => True
  | Trie.R _ _ _ n => Trie.DuplicatesOk n
  | Trie.X _ _ n => Trie.DuplicatesOk n
  | Trie.D _ _ l r => Trie.DuplicatesOk l ∧ Trie.DuplicatesOk r
  | Trie.L _ _ sub => Trie.Branch sub
  | Trie.K _ _ sub n => Trie.Branch sub ∧ Trie.DuplicatesOk n

/-- The tag of the node that stands for the key `key`, when the tree has one. -/
def Trie.typeAt : Trie → List Nat → Option Nat
  | _, [] => none
  | Trie.S _ c _, k :: rest => if k = c ∧ rest = [] then some indexTerminalNode else none
  | Trie.R _ c _ n, k :: rest =>
    if k = c then (if rest = [] then some indexKeyNode else Trie.typeAt n rest) else none
  | Trie.X _ c n, k :: rest =>
    if k = c then (if rest = [] then some characterNode else Trie.typeAt n rest) else none
  | Trie.D _ c l r, k :: rest =>
    if k ≤ c then Trie.typeAt l (k :: rest) else Trie.typeAt r (k :: rest)
  | Trie.L _ c _, k :: rest => if k = c ∧ rest = [] then some duplicateTerminalNode else none
  | Trie.K _ c _ n, k :: rest =>
    if k = c then (if rest = [] then some duplicateKeyNode else Trie.typeAt n rest) else none

/-- Number of index-key and index-terminal nodes of the main trie. -/
def Trie.mainKeys : Trie → Nat
  | Trie.S _ _ _ => 1
  | Trie.R _ _ _ n => Trie.mainKeys n + 1
  | Trie.X _ _ n => Trie.mainKeys n
  | Trie.D _ _ l r => Trie.mainKeys l + Trie.mainKeys r
  | Trie.L _ _ _ => 0
  | Trie.K _ _ _ n => Trie.mainKeys n

/-- Number of elements held in the duplicates branches of the tree. -/
def Trie.branchEntries : Trie → Nat
  | Trie.S _ _ _ => 0
  | Trie.R _ _ _ n => Trie.branchEntries n
  | Trie.X _ _ n => Trie.branchEntries n
  | Trie.D _ _ l r => Trie.branchEntries l + Trie.branchEntries r
  | Trie.L _ _ sub => sub.elems.length
  | Trie.K _ _ sub n => sub.elems.length + Trie.branchEntries n

/-- ASCII white space: tab, line feed, vertical tab, form feed, carriage
return and space. -/
def isAsciiSpace (b : Nat) : Bool :=
  b == 9 || b == 10 || b == 11 || b == 12 || b == 13 || b == 32

/-- Normalization in the words of the specification: the ASCII white space
bytes off both ends of the input, and nothing else, then the first
`min(32, length)` bytes; the result goes with its length. -/
def specValidate (s : List Nat) : List Nat × Nat :=
  (((s.dropWhile isAsciiSpace).rdropWhile isAsciiSpace).take maxKeyLength,
    (((s.dropWhile isAsciiSpace).rdropWhile isAsciiSpace).take maxKeyLength).length)

/-- The decision nodes of the index are ordered: the index holds a tree, its
nodes being the slots reachable from the root, that is ordered at every
decision node. -/
def DecisionInvariant (s : Index) : Prop :=
  ∃ fl oT, Inv s fl oT ∧ (∀ a : Int, Reachable s a ↔ ∃ n ∈ addrsOf oT, a = (n : Int)) ∧
    DecisionOrderedOf oT

/-- The threads of the tree `oT` as the arena holds them: every terminal
listed is an index-terminal or duplicate-terminal node whose right pointer is
the thread listed, null for the last terminal of the tree only, and every
terminal of the tree is listed. -/
def ThreadsOk (s : Index) : Option Trie → Prop
  | none => True
  | some T =>
    (∀ x ∈ T.threads nullIndexPointer, ∃ nd, s.node[x.1]? = some nd ∧
      (nd.indexType = indexTerminalNode ∨ nd.indexType = duplicateTerminalNode) ∧
      nd.rightPointer = x.2 ∧ (x.2 = nullIndexPointer ↔ x.1 = T.lastTerm)) ∧
    ∀ a ∈ T.addrs, ∀ nd, s.node[a]? = some nd →
      (nd.indexType = indexTerminalNode ∨ nd.indexType = duplicateTerminalNode) →
      (a, nd.rightPointer) ∈ T.threads nullIndexPointer

/-- The threading invariant of the index. -/
def ThreadInvariant (s : Index) : Prop :=
  ∃ fl oT, Inv s fl oT ∧ (∀ a : Int, Reachable s a ↔ ∃ n ∈ addrsOf oT, a = (n : Int)) ∧
    ThreadsOk s oT

/-- The duplicates branches of the tree `oT` are as they should be; a
duplicate node stands for a key only when the key holds two elements or more,
and a key that holds one element has an index-key or index-terminal node. -/
def BranchesOk (m : List (List Nat × Int)) : Option Trie → Prop
  | none => True
  | some T =>
    T.DuplicatesOk ∧
    ∀ key,
      ((T.typeAt key = some duplicateKeyNode ∨ T.typeAt key = some duplicateTerminalNode) →
        2 ≤ (underKey m key).length) ∧
      ((underKey m key).length = 1 →
        T.typeAt key = some indexKeyNode ∨ T.typeAt key = some indexTerminalNode)

/-- The duplicates invariant of the index with the stored pairs `m`. -/
def DuplicatesInvariant (s : Index) (m : List (List Nat × Int)) : Prop :=
  ∃ fl oT, Inv s fl oT ∧ (∀ a : Int, Reachable s a ↔ ∃ n ∈ addrsOf oT, a = (n : Int)) ∧
    BranchesOk m oT

/-- Number of index-key and index-terminal nodes of the main trie of the index. -/
def mainKeysOf : Option Trie → Nat
  | none => 0
  | some T => T.mainKeys

/-- Number of elements held in the duplicates branches of the index. -/
def branchEntriesOf : Option Trie → Nat
  | none => 0
  | some T => T.branchEntries

/-- The key bytes at the top of a tree: those of its root, and below a
decision node those at the top of both subtrees. -/
def Trie.tops : Trie → List Nat
  | Trie.S _ c _ => [c]
  | Trie.R _ c _ _ => [c]
  | Trie.X _ c _ => [c]
  | Trie.D _ c l r => c :: (Trie.tops l ++ Trie.tops r)
  | Trie.L _ c _ => [c]
  | Trie.K _ c _ _ => [c]

/-- Well-formedness of a tree built from keys of arbitrary bytes.  At a
decision node with an ASCII byte the bytes at the top of the left subtree are
at most that byte and those at the top of the right subtree are above it; at
a decision node with a byte of 128 or more the left subtree has such a byte
at its top and the right subtree has only such bytes at its top.  A
duplicates branch is as in `Trie.WF`. -/
def Trie.WFg : Trie → Prop
  | Trie.S _ _ _ => True
  | Trie.R _ _ _ n => Trie.WFg n
  | Trie.X _ _ n => Trie.WFg n
  | Trie.D _ c l r => Trie.WFg l ∧ Trie.WFg r ∧
      (if c < 128 then (∀ x ∈ Trie.tops l, x ≤ c) ∧ (∀ x ∈ Trie.tops r, c < x)
       else (∃ x ∈ Trie.tops l, 128 ≤ x) ∧ (∀ x ∈ Trie.tops r, 128 ≤ x))
  | Trie.L _ c sub => c < 128 ∧ Trie.WF (some []) (-1) 127 sub ∧ 2 ≤ (Trie.elems sub).length
  | Trie.K _ c sub n => c < 128 ∧ Trie.WF (some []) (-1) 127 sub ∧
      2 ≤ (Trie.elems sub).length ∧ Trie.WFg n

/-- The index holds the tree `oT`, well-formed in the sense of `Trie.WFg`, or
none, and the free list `fl`. -/
def InvG (ix : Index) (fl : List Nat) : Option Trie → Prop
  | none => ix.indexRootPointer = nullIndexPointer ∧
      FreeList ix.node ix.deletedRootPointer fl ∧ fl.Perm (List.range ix.node.length)
  | some T => AtFocus ix fl [] T ∧ T.WFg

/-- No frame of the path is the base of a duplicates branch: the path lies in
the main part of the tree. -/
def Path.Main (ctx : Path) : Prop := ∀ f ∈ ctx, f.isDup = false

/-- What the descent knows of the key byte `k` at the run of decision nodes
at the end of the path. -/
def Path.Hist : Path → Nat → Prop
  | Frame.Dl _ c _ :: ctx, k => strLe [k] (byteToString c) = true ∧ Path.Hist ctx k
  | Frame.Dr _ c _ :: ctx, k => strLe [k] (byteToString c) = false ∧ Path.Hist ctx k
  | _, _ => True

/-- The byte `x` may stand at the top of the subtree at the end of the path. -/
def Path.Fits : Path → Nat → Prop
  | Frame.Dl _ c _ :: ctx, x => (c < 128 → x ≤ c) ∧ Path.Fits ctx x
  | Frame.Dr _ c _ :: ctx, x => (if c < 128 then c < x else 128 ≤ x) ∧ Path.Fits ctx x
  | _, _ => True

/-- The descent through the main part of the tree, by the comparisons of the
code: from the tree `t`, reached along `ctx`, with the bytes `key` still to
match, down to the node where it stops or enters a duplicates branch. -/
def descendM : Trie → List Nat → Path → Path × Trie × List Nat
  | t, [], ctx => (ctx, t, [])
  | Trie.S p c e', k :: rest, ctx => (ctx, Trie.S p c e', k :: rest)
  | Trie.R p c e' n, k :: rest, ctx =>
    if (k = c ∧ c < 128) ∧ rest ≠ [] then descendM n rest (Frame.Rf p c e' :: ctx)
    else (ctx, Trie.R p c e' n, k :: rest)
  | Trie.X p c n, k :: rest, ctx =>
    if (k = c ∧ c < 128) ∧ rest ≠ [] then descendM n rest (Frame.Xf p c :: ctx)
    else (ctx, Trie.X p c n, k :: rest)
  | Trie.D p c l r, k :: rest, ctx =>
    if strLe [k] (byteToString c) = true then descendM l (k :: rest) (Frame.Dl p c r :: ctx)
    else descendM r (k :: rest) (Frame.Dr p c l :: ctx)
  | Trie.L p c sub, k :: rest, ctx => (ctx, Trie.L p c sub, k :: rest)
  | Trie.K p c sub n, k :: rest, ctx =>
    if (k = c ∧ c < 128) ∧ rest ≠ [] then descendM n rest (Frame.Kf p c sub :: ctx)
    else (ctx, Trie.K p c sub n, k :: rest)

/-- Every node passed on the way to its right pointer with a matching key
byte has an ASCII byte. -/
def Path.Matched (ctx : Path) : Prop :=
  ∀ f ∈ ctx, (∀ p c e, f = Frame.Rf p c e → c < 128) ∧ (∀ p c, f = Frame.Xf p c → c < 128) ∧
    (∀ p c sub, f = Frame.Kf p c sub → c < 128)

/-- The descent through the main part stops at the tree `t` with the bytes
`key` still to match. -/
def StopsM : Trie → List Nat → Prop
  | _, [] => False
  | Trie.S _ _ _, _ :: _ => True
  | Trie.R _ c _ _, k :: rest => ¬ ((k = c ∧ c < 128) ∧ rest ≠ [])
  | Trie.X _ c _, k :: rest => ¬ ((k = c ∧ c < 128) ∧ rest ≠ [])
  | Trie.D _ _ _ _, _ :: _ => False
  | Trie.L _ _ _, _ :: _ => True
  | Trie.K _ c _ _, k :: rest => ¬ ((k = c ∧ c < 128) ∧ rest ≠ [])

/-- What the descent knows of the first of the bytes `key` still to match. -/
def Path.HistK (ctx : Path) (key : List Nat) : Prop :=
  ∀ k rest, key = k :: rest → Path.Hist ctx k

/-- The facts that hold where the descent through the main part stops. -/
structure DescendedM (ctx : Path) (t : Trie) (r : Path × Trie × List Nat) : Prop where
  plug : Path.plug r.1 r.2.1 = Path.plug ctx t
  main : Path.Main ctx → Path.Main r.1
  hist : Path.HistK r.1 r.2.2
  matched : Path.Matched ctx → Path.Matched r.1
  stops : StopsM r.2.1 r.2.2

/-- The tree `t'` is the tree `t` with the element `e` put in under the bytes
`k :: rest` at its root: a chain below a terminal node that the first byte
matches, a character node that becomes an index-key node, or a new decision
node above the tree with a chain on one side. -/
inductive Inserted (e : Int) (k : Nat) (rest : List Nat) : Trie → Trie → Prop
  | supS (p c : Nat) (e0 : Int) (res : Trie) : k = c → c < 128 → rest ≠ [] →
      res.IsChain rest e → Inserted e k rest (Trie.S p c e0) (Trie.R p c e0 res)
  | supL (p c : Nat) (sub res : Trie) : k = c → c < 128 → rest ≠ [] →
      res.IsChain rest e → Inserted e k rest (Trie.L p c sub) (Trie.K p c sub res)
  | promote (p c : Nat) (n : Trie) : k = c → c < 128 → rest = [] →
      Inserted e k rest (Trie.X p c n) (Trie.R p c e n)
  | lt (t : Trie) (dp : Nat) (res : Trie) : t.isD = false →
      strLt [k] (byteToString t.char) = true → res.IsChain (k :: rest) e →
      Inserted e k rest t (Trie.D dp k res t)
  | gt (t : Trie) (dp : Nat) (res : Trie) : t.isD = false →
      strLt (byteToString t.char) [k] = true → res.IsChain (k :: rest) e →
      Inserted e k rest t (Trie.D dp t.char t res)

/-- The descent of `Insert` for the element `e` ends at the tree `t` with the
bytes `k :: rest` still to match: it neither goes on below the root of the
tree nor enters or makes a duplicates branch there. -/
def InsStops (e : Int) : Trie → Nat → List Nat → Prop
  | Trie.S _ c e0, k, rest => ¬ ((k = c ∧ c < 128) ∧ rest = [] ∧ e ≠ e0)
  | Trie.R _ c e0 _, k, rest => (k = c ∧ c < 128) → rest = [] ∧ e = e0
  | Trie.X _ c _, k, rest => ¬ ((k = c ∧ c < 128) ∧ rest ≠ [])
  | Trie.D _ _ _ _, _, _ => False
  | Trie.L _ c _, k, rest => ¬ ((k = c ∧ c < 128) ∧ rest = [])
  | Trie.K _ c _ _, k, _ => ¬ (k = c ∧ c < 128)

/-- The path cut above the base `g` of a duplicates branch. -/
def Frame.cut (g : Frame) : Path := [Frame.Ls g.addr g.char]

/-- No frame of the path is a duplicate node. -/
def Path.Plain (P : Path) : Prop :=
  ∀ f ∈ P, f.isDup = false ∧ ∀ p c sub, f ≠ Frame.Kf p c sub

/-- What `Delete` leaves of a duplicates branch with the base `g`: the branch
with one element less, or, of a branch of two elements, the node of the one
that stays. -/
def SubDeleted (ix : Index) (g : Frame) (outer : Path) (out : Bool × Index) : Prop :=
  (∃ ix' fl' sub', out = (true, ix') ∧ AtFocus ix' fl' (g :: outer) sub' ∧
    Trie.WF (some []) (-1) 127 sub' ∧ 2 ≤ sub'.elems.length ∧
    ix'.keyCount = ix.keyCount - 1 ∧ ix'.node.length = ix.node.length) ∨
  (∃ ix' fl' e', out = (true, ix') ∧ AtFocus ix' fl' outer (g.collapse e') ∧
    ix'.keyCount = ix.keyCount - 1 ∧ ix'.node.length = ix.node.length)

/-- What `Delete` leaves of the duplicates branch `sub` with the base `g`
when it takes the element `e` out: the branch `sub1` of the other elements,
two at least, or, of a branch of the two elements `e` and `e1`, the node of
`e1` in the place of the base. -/
def SubRemoved (ix : Index) (g : Frame) (outer : Path) (sub : Trie) (e : Int)
    (out : Bool × Index) : Prop :=
  (∃ ix1 fl1 sub1, out = (true, ix1) ∧ AtFocus ix1 fl1 (g :: outer) sub1 ∧
    Trie.WF (some []) (-1) 127 sub1 ∧ 2 ≤ sub1.elems.length ∧
    ix1.keyCount = ix.keyCount - 1 ∧ ix1.node.length = ix.node.length ∧
    sub.elems.Perm (e :: sub1.elems)) ∨
  (∃ ix1 fl1 e1, out = (true, ix1) ∧ AtFocus ix1 fl1 outer (g.collapse e1) ∧
    ix1.keyCount = ix.keyCount - 1 ∧ ix1.node.length = ix.node.length ∧
    sub.elems.Perm [e, e1])

/-- The indexes obtained from `Initialise`, applied to the zero value of the
type, by `Insert` and `Delete` calls with keys of arbitrary bytes.  A call is
a run of the operation that returns, on any fuel. -/
inductive ReachAny : Index → Prop
  | init : ReachAny (Initialise zeroIndex)
  | insert (fuel : Nat) (k : List Nat) (e : Int) (b : Bool) (s s' : Index) :
      ReachAny s → Insert fuel k e s = some (b, s') → ReachAny s'
  | delete (fuel : Nat) (k : List Nat) (e : Int) (b : Bool) (s s' : Index) :
      ReachAny s → Delete fuel k e s = some (b, s') → ReachAny s'

/-- The chain that `extend` is to build, read in the arena: the slots `as`
hold, linked through their right pointers, one node for each byte of `ks`;
all but the last are character nodes with a null left pointer, the last is
an index terminal with the element `e` and the right pointer `next`. -/
def ChainAt (ns : List indexNode) : List Nat → List Nat → Int → Int → Prop
  | [a], [c], e, next => ns[a]? = some ⟨indexTerminalNode, e, c, next⟩
  | a :: b :: as, c :: k :: ks, e, next =>
    ns[a]? = some ⟨characterNode, nullIndexPointer, c, (b : Int)⟩ ∧
      ChainAt ns (b :: as) (k :: ks) e next
  | _, _, _, _ => False

/-- The arena holds the tree, or none, at the root, whatever the shape of
the tree. -/
def Holds (s : Index) : Option Trie → Prop
  | none => s.indexRootPointer = nullIndexPointer
  | some T => s.indexRootPointer = (T.addr : Int) ∧ Trie.Laid s.node T (-1) ∧ T.addrs.Nodup

/-- What the pass of the descent loop of `Insert` does at a terminal node in
the slot `p` whose byte is the current byte of the key, an ASCII byte, with
the bytes `rest` of the key left: `promoted` is the node type that the
terminal takes. -/
structure Grafted (ix ix' : Index) (fl : List Nat) (p : Nat) (nd : indexNode) (promoted : Nat)
    (rest : List Nat) (e : Int) (a : Nat) (as : List Nat) : Prop where
  node : ix'.node[p]? = some ⟨promoted, nd.leftPointer, nd.keyCharacter, (a : Int)⟩
  chain : ChainAt ix'.node (a :: as) rest e nd.rightPointer
  slots : (a :: as).Perm
    (fl.take rest.length ++ List.range' ix.node.length (rest.length - fl.length))
  keep : ∀ b, b < ix.node.length → b ≠ p → b ∉ fl.take rest.length →
    ix'.node[b]? = ix.node[b]?
  len : ix'.node.length = ix.node.length + (rest.length - fl.length)
  free : FreeList ix'.node ix'.deletedRootPointer (fl.drop rest.length)
  root : ix'.indexRootPointer = ix.indexRootPointer
  count : ix'.keyCount = ix.keyCount + 1

/-- The loop `runLoop` with a record of its passes: the states from which
the body has gone on to a next pass, in their order.  The result is that of
`runLoop`. -/
def runLoopTrace {σ ρ : Type} (body : σ → Option (LoopStep σ ρ)) : Nat → σ → Option (List σ × ρ)
  | 0, _ => none
  | fuel + 1, s =>
    match body s with
    | none => none
    | some (LoopStep.next s') => (runLoopTrace body fuel s').map (fun x => (s :: x.1, x.2))
    | some (LoopStep.exit r) => some ([], r)

/-- The pass of the loop of `traverseAndCollect` at the slot `p`, entered
with the direction `d`, without the results: the direction and the slot of
the next pass and what the pass emits. -/
def travStep (indexStructure : Index) (d : Nat) (p : Int) : Option (Nat × Int × List Int) :=
  match getNode indexStructure.node p with
  | none => none
  | some nd =>
    if nd.indexType = indexKeyNode then some (left, nd.rightPointer, [nd.leftPointer])
    else if nd.indexType = indexTerminalNode then some (right, nd.rightPointer, [nd.leftPointer])
    else if nd.indexType = duplicateKeyNode then
      if d = left then some (left, nd.leftPointer, []) else some (left, nd.rightPointer, [])
    else if nd.indexType = duplicateTerminalNode then
      if d = left then some (d, nd.leftPointer, []) else some (d, nd.rightPointer, [])
    else if nd.indexType = decisionNode then
      if d = left then some (left, nd.leftPointer, []) else some (left, nd.rightPointer, [])
    else if nd.indexType = characterNode then some (left, nd.rightPointer, [])
    else some (d, p, [])

/-- What a pass of the loop of `traverseAndCollect` emits: the left pointer
of an index key or index terminal node. -/
def emitted (indexStructure : Index) (st : TraverseState) : List Int :=
  match getNode indexStructure.node st.indexPointer with
  | none => []
  | some nd =>
    if nd.indexType = indexKeyNode ∨ nd.indexType = indexTerminalNode then [nd.leftPointer]
    else []

/-- The passes of the traversal of the tree, each with its direction and its
slot: a terminal, a key node and a character node are entered once, a
decision node and a duplicate node are entered once from above and once by
the thread of the subtree to their left. -/
def Trie.visits : Trie → List (Nat × Nat)
  | Trie.S p _ _ => [(left, p)]
  | Trie.R p _ _ n => (left, p) :: Trie.visits n
  | Trie.X p _ n => (left, p) :: Trie.visits n
  | Trie.D p _ l r => (left, p) :: (Trie.visits l ++ (right, p) :: Trie.visits r)
  | Trie.L p _ sub => (left, p) :: (Trie.visits sub ++ [(right, p)])
  | Trie.K p _ sub n => (left, p) :: (Trie.visits sub ++ (right, p) :: Trie.visits n)

/-- The direction and the slot of a pass, the slot as a pointer. -/
def passOf (st : TraverseState) : Nat × Int := (st.direction, st.indexPointer)

/-- A pass of the tree as a pass of the loop. -/
def passAt (x : Nat × Nat) : Nat × Int := (x.1, (x.2 : Int))

/-- Number of passes of the traversal of the tree at the slot `a`. -/
def Trie.passes (t : Trie) (a : Nat) : Nat := (t.visits.map Prod.snd).count a

/-- What the traversal of the whole index does, `tr` being the record of
its passes and `res` its results. -/
structure Traversed (s : Index) (N : Nat) (tr : List TraverseState) (res : List Int) : Prop where
  run : ∀ fuel, N ≤ fuel →
    runLoopTrace (traverseBody nullIndexPointer s) fuel ⟨left, s.indexRootPointer, []⟩ =
      some (tr, res)
  emits : res = (tr.map (emitted s)).flatten
  reach : ∀ x ∈ tr, Reachable s x.indexPointer
  once : ∀ (a : Nat) (nd : indexNode), Reachable s (a : Int) → s.node[a]? = some nd →
    (nd.indexType = indexKeyNode ∨ nd.indexType = indexTerminalNode ∨
      nd.indexType = characterNode) →
    (tr.map (fun x => x.indexPointer)).count (a : Int) = 1
  twice : ∀ (a : Nat) (nd : indexNode), Reachable s (a : Int) → s.node[a]? = some nd →
    (nd.indexType = decisionNode ∨ nd.indexType = duplicateKeyNode ∨
      nd.indexType = duplicateTerminalNode) →
    (tr.map (fun x => x.indexPointer)).count (a : Int) = 2
  part : ∀ (a : Nat) (b : Int), Reachable s (a : Int) →
    ∃ (tr' : List TraverseState) (res' : List Int) (pre post : List Int),
      (∀ fuel, N ≤ fuel →
        runLoopTrace (traverseBody b s) fuel ⟨left, (a : Int), []⟩ = some (tr', res')) ∧
      tr.map (fun x => x.indexPointer) = pre ++ tr'.map (fun x => x.indexPointer) ++ post

/-- The elements that `Search` returns for the key bytes `key`, read off a
tree with key bytes of any value: a node is passed when the key byte as a
string equals `string(keyCharacter)`, a decision node is left to the left
when the key byte as a string is at most `string(keyCharacter)`. -/
def Trie.seekBytes : Trie → List Nat → List Int
  | _, [] => []
  | Trie.S _ c e, k :: rest => if [k] = byteToString c ∧ rest = [] then [e] else []
  | Trie.R _ c e n, k :: rest =>
    if [k] = byteToString c then (if rest = [] then e :: n.elems else Trie.seekBytes n rest)
    else []
  | Trie.X _ c n, k :: rest =>
    if [k] = byteToString c then (if rest = [] then n.elems else Trie.seekBytes n rest) else []
  | Trie.D _ c l r, k :: rest =>
    if strLe [k] (byteToString c) = true then Trie.seekBytes l (k :: rest)
    else Trie.seekBytes r (k :: rest)
  | Trie.L _ c sub, k :: rest => if [k] = byteToString c ∧ rest = [] then sub.elems else []
  | Trie.K _ c sub n, k :: rest =>
    if [k] = byteToString c then
      (if rest = [] then sub.elems ++ n.elems else Trie.seekBytes n rest)
    else []

/-- What the descent loop of `Search` has found, for a tree with key bytes of
any value and the rest of the key. -/
def SearchAt (ix : Index) (t : Trie) (key : List Nat) : SearchExit → Prop
  | SearchExit.notFound => t.seekBytes key = []
  | SearchExit.found s e =>
    ∀ fuelT, 2 * t.size + 2 ≤ fuelT → traverseAndCollect fuelT s e ix = some (t.seekBytes key)

/-- The elements that `Search` returns for the key bytes `key` on the tree
`oT`, or on the empty index. -/
def seekOf : Option Trie → List Nat → List Int
  | none, _ => []
  | some T, key => T.seekBytes key

/-- The index with its mutex: `held` says that the mutex is locked. -/
structure Guarded where
  index : Index
  held : Bool
  deriving DecidableEq

/-- The call `indexMutex.Lock()` in a sequential run: on a locked mutex the
call does not return, rendered as `none`. -/
def lockMutex (g : Guarded) : Option Guarded :=
  if g.held = true then none else some { g with held := true }

/-- The call `indexMutex.Unlock()`, made by `defer` on every return: on an
unlocked mutex it is a run-time error, rendered as `none`. -/
def unlockMutex (g : Guarded) : Option Guarded :=
  if g.held = true then some { g with held := false } else none

/-- One pass of the `for` loop of `traverseAndCollect`, with the index as
state. -/
def Run.traverseBody (endPointer : Int) (x : Guarded × TraverseState) :
    Option (LoopStep (Guarded × TraverseState) (List Int × Guarded)) :=
  if x.2.indexPointer ≠ endPointer ∧ x.2.indexPointer ≠ nullIndexPointer then
    match getNode x.1.index.node x.2.indexPointer with
    | none => none
    | some nd =>
      if nd.indexType = indexKeyNode then
        some (LoopStep.next (x.1, ⟨left, nd.rightPointer, x.2.results ++ [nd.leftPointer]⟩))
      else if nd.indexType = indexTerminalNode then
        some (LoopStep.next (x.1, ⟨right, nd.rightPointer, x.2.results ++ [nd.leftPointer]⟩))
      else if nd.indexType = duplicateKeyNode then
        if x.2.direction = left then
          some (LoopStep.next (x.1, ⟨left, nd.leftPointer, x.2.results⟩))
        else some (LoopStep.next (x.1, ⟨left, nd.rightPointer, x.2.results⟩))
      else if nd.indexType = duplicateTerminalNode then
        if x.2.direction = left then
          some (LoopStep.next (x.1, ⟨x.2.direction, nd.leftPointer, x.2.results⟩))
        else some (LoopStep.next (x.1, ⟨x.2.direction, nd.rightPointer, x.2.results⟩))
      else if nd.indexType = decisionNode then
        if x.2.direction = left then
          some (LoopStep.next (x.1, ⟨left, nd.leftPointer, x.2.results⟩))
        else some (LoopStep.next (x.1, ⟨left, nd.rightPointer, x.2.results⟩))
      else if nd.indexType = characterNode then
        some (LoopStep.next (x.1, ⟨left, nd.rightPointer, x.2.results⟩))
      else some (LoopStep.next (x.1, x.2))
  else some (LoopStep.exit (x.2.results, x.1))

/-- The function `traverseAndCollect`, with the index as state. -/
def Run.traverseAndCollect (fuel : Nat) (startPointer endPointer : Int) (g : Guarded) :
    Option (List Int × Guarded) :=
  runLoop (Run.traverseBody endPointer) fuel (g, ⟨left, startPointer, []⟩)

/-- The function `Scan`, with the index as state. -/
def Run.Scan (fuel : Nat) (g : Guarded) : Option ((Bool × List Int) × Guarded) :=
  match lockMutex g with
  | none => none
  | some g1 =>
    match Run.traverseAndCollect fuel g1.index.indexRootPointer nullIndexPointer g1 with
    | none => none
    | some (results, g2) =>
      match unlockMutex g2 with
      | none => none
      | some g3 => some ((decide (results.length > 0), results), g3)

/-- One pass of the descent loop of `Search`, with the index as state. -/
def Run.searchBody (keyString : List Nat) (keyLength : Nat) 
    (x : Guarded × SearchState) :
    Option (LoopStep (Guarded × SearchState) (SearchExit × Guarded)) :=
  if x.2.indexPointer = nullIndexPointer then some (LoopStep.exit (SearchExit.notFound, x.1))
  else
    match getNode x.1.index.node x.2.indexPointer with
    | none => none
    | some nd =>
      if nd.indexType = indexKeyNode ∨ nd.indexType = indexTerminalNode then
        match sliceOne keyString x.2.i with
        | none => none
        | some k =>
          if k = byteToString nd.keyCharacter then
            if x.2.i + 1 = keyLength then
              some (LoopStep.exit ((SearchExit.found x.2.indexPointer x.2.endPointer), x.1))
            else if nd.indexType = indexTerminalNode then
              some (LoopStep.exit (SearchExit.notFound, x.1))
            else some (LoopStep.next (x.1, ⟨nd.rightPointer, x.2.endPointer, x.2.i + 1⟩))
          else some (LoopStep.exit (SearchExit.notFound, x.1))
      else if nd.indexType = decisionNode then
        match sliceOne keyString x.2.i with
        | none => none
        | some k =>
          if strLe k (byteToString nd.keyCharacter) then
            some (LoopStep.next (x.1, ⟨nd.leftPointer, x.2.indexPointer, x.2.i⟩))
          else some (LoopStep.next (x.1, ⟨nd.rightPointer, x.2.endPointer, x.2.i⟩))
      else if nd.indexType = duplicateKeyNode ∨ nd.indexType = duplicateTerminalNode then
        match sliceOne keyString x.2.i with
        | none => none
        | some k =>
          if k = byteToString nd.keyCharacter then
            if x.2.i + 1 = keyLength then
              some (LoopStep.exit ((SearchExit.found nd.leftPointer x.2.endPointer), x.1))
            else if nd.indexType = duplicateTerminalNode then
              some (LoopStep.exit (SearchExit.notFound, x.1))
            else some (LoopStep.next (x.1, ⟨nd.rightPointer, x.2.endPointer, x.2.i + 1⟩))
          else some (LoopStep.exit (SearchExit.notFound, x.1))
      else if nd.indexType = characterNode then
        match sliceOne keyString x.2.i with
        | none => none
        | some k =>
          if k = byteToString nd.keyCharacter then
            if x.2.i + 1 = keyLength then
              some (LoopStep.exit ((SearchExit.found nd.rightPointer x.2.endPointer), x.1))
            else some (LoopStep.next (x.1, ⟨nd.rightPointer, x.2.endPointer, x.2.i + 1⟩))
          else some (LoopStep.exit (SearchExit.notFound, x.1))
      else some (LoopStep.next (x.1, x.2))

/-- The function `Search`, with the index as state. -/
def Run.Search (fuel : Nat) (keyInput : List Nat) (g : Guarded) :
    Option ((Bool × List Int) × Guarded) :=
  match lockMutex g with
  | none => none
  | some g1 =>
    let (keyString, keyLength) := validate keyInput
    if keyLength = 0 then
      match unlockMutex g1 with
      | none => none
      | some g3 => some ((false, []), g3)
    else
      match runLoop (Run.searchBody keyString keyLength) fuel
          (g1, ⟨g1.index.indexRootPointer, nullIndexPointer, 0⟩) with
      | none => none
      | some (SearchExit.notFound, g2) =>
        match unlockMutex g2 with
        | none => none
        | some g3 => some ((false, []), g3)
      | some (SearchExit.found startPointer endPointer, g2) =>
        match Run.traverseAndCollect fuel startPointer endPointer g2 with
        | none => none
        | some (results, g2') =>
          match unlockMutex g2' with
          | none => none
          | some g3 => some ((decide (results.length > 0), results), g3)

/-- One pass of the descent loop of `Select`, with the index as state. -/
def Run.selectBody (fuel : Nat) (keyString : List Nat) (keyLength : Nat) 
    (x : Guarded × SelectState) :
    Option (LoopStep (Guarded × SelectState) ((Bool × List Int) × Guarded)) :=
  if x.2.indexPointer = nullIndexPointer then some (LoopStep.exit ((false, []), x.1))
  else
    match getNode x.1.index.node x.2.indexPointer with
    | none => none
    | some nd =>
      if nd.indexType = indexKeyNode ∨ nd.indexType = indexTerminalNode then
        match sliceOne keyString x.2.i with
        | none => none
        | some k =>
          if k = byteToString nd.keyCharacter then
            if x.2.i + 1 = keyLength then some (LoopStep.exit ((true, [nd.leftPointer]), x.1))
            else if nd.indexType = indexTerminalNode then some (LoopStep.exit ((false, []), x.1))
            else some (LoopStep.next (x.1, ⟨nd.rightPointer, x.2.i + 1⟩))
          else some (LoopStep.exit ((false, []), x.1))
      else if nd.indexType = decisionNode then
        match sliceOne keyString x.2.i with
        | none => none
        | some k =>
          if strLe k (byteToString nd.keyCharacter) then
            some (LoopStep.next (x.1, ⟨nd.leftPointer, x.2.i⟩))
          else some (LoopStep.next (x.1, ⟨nd.rightPointer, x.2.i⟩))
      else if nd.indexType = duplicateKeyNode ∨ nd.indexType = duplicateTerminalNode then
        match sliceOne keyString x.2.i with
        | none => none
        | some k =>
          if k = byteToString nd.keyCharacter then
            if x.2.i + 1 = keyLength then
              match Run.traverseAndCollect fuel nd.leftPointer x.2.indexPointer x.1 with
              | none => none
              | some (results, g1) =>
                some (LoopStep.exit ((decide (results.length > 0), results), g1))
            else if nd.indexType = duplicateTerminalNode then
              some (LoopStep.exit ((false, []), x.1))
            else some (LoopStep.next (x.1, ⟨nd.rightPointer, x.2.i + 1⟩))
          else some (LoopStep.exit ((false, []), x.1))
      else if nd.indexType = characterNode then
        match sliceOne keyString x.2.i with
        | none => none
        | some k =>
          if k = byteToString nd.keyCharacter then
            if x.2.i + 1 = keyLength then some (LoopStep.exit ((false, []), x.1))
            else some (LoopStep.next (x.1, ⟨nd.rightPointer, x.2.i + 1⟩))
          else some (LoopStep.exit ((false, []), x.1))
      else some (LoopStep.next (x.1, x.2))

/-- The function `Select`, with the index as state. -/
def Run.Select (fuel : Nat) (keyInput : List Nat) (g : Guarded) :
    Option ((Bool × List Int) × Guarded) :=
  match lockMutex g with
  | none => none
  | some g1 =>
    let (keyString, keyLength) := validate keyInput
    if keyLength = 0 then
      match unlockMutex g1 with
      | none => none
      | some g3 => some ((false, []), g3)
    else
      match runLoop (Run.selectBody fuel keyString keyLength) fuel
          (g1, ⟨g1.index.indexRootPointer, 0⟩) with
      | none => none
      | some (r, g2) =>
        match unlockMutex g2 with
        | none => none
        | some g3 => some (r, g3)

/-- The function `Count`, with the index as state. -/
def Run.Count (g : Guarded) : Option (Int × Guarded) :=
  match lockMutex g with
  | none => none
  | some g1 =>
    match unlockMutex g1 with
    | none => none
    | some g3 => some (g1.index.keyCount, g3)

/-- One pass of the scanning loop of `Statistics`, with the index as state. -/
def Run.statsBody (x : Guarded × StatState) :
    Option (LoopStep (Guarded × StatState) (StatState × Guarded)) :=
  if x.2.indexPointer = nullIndexPointer then some (LoopStep.exit (x.2, x.1))
  else
    match getNode x.1.index.node x.2.indexPointer with
    | none => none
    | some nd =>
      if nd.indexType = characterNode then
        some (LoopStep.next (x.1,
          { stack := (pushStack x.2.stack x.2.indexPointer x.2.stackPointer).1,
            stackPointer := (pushStack x.2.stack x.2.indexPointer x.2.stackPointer).2,
            direction := left,
            result := { x.2.result with CharacterNodeCount := x.2.result.CharacterNodeCount + 1 },
            indexPointer := nd.rightPointer }))
      else if nd.indexType = indexKeyNode then
        some (LoopStep.next (x.1,
          { stack := (pushStack x.2.stack x.2.indexPointer x.2.stackPointer).1,
            stackPointer := (pushStack x.2.stack x.2.indexPointer x.2.stackPointer).2,
            direction := left,
            result := { x.2.result with IndexKeyNodeCount := x.2.result.IndexKeyNodeCount + 1 },
            indexPointer := nd.rightPointer }))
      else if nd.indexType = decisionNode then
        if x.2.direction = left then
          some (LoopStep.next (x.1,
            { stack := (pushStack x.2.stack x.2.indexPointer x.2.stackPointer).1,
              stackPointer := (pushStack x.2.stack x.2.indexPointer x.2.stackPointer).2,
              direction := x.2.direction,
              result := { x.2.result with DecisionNodeCount := x.2.result.DecisionNodeCount + 1 },
              indexPointer := nd.leftPointer }))
        else
          some (LoopStep.next
            (x.1, { x.2 with indexPointer := nd.rightPointer, direction := left }))
      else if nd.indexType = duplicateKeyNode then
        if x.2.direction = left then
          some (LoopStep.next (x.1,
            { stack := (pushStack x.2.stack x.2.indexPointer x.2.stackPointer).1,
              stackPointer := (pushStack x.2.stack x.2.indexPointer x.2.stackPointer).2,
              direction := x.2.direction,
              result :=
                { x.2.result with DuplicateKeyNodeCount := x.2.result.DuplicateKeyNodeCount + 1 },
              indexPointer := nd.leftPointer }))
        else
          some (LoopStep.next
            (x.1, { x.2 with indexPointer := nd.rightPointer, direction := left }))
      else if nd.indexType = indexTerminalNode then
        match resetStack (pushStack x.2.stack x.2.indexPointer x.2.stackPointer).1 nd.rightPointer
            (pushStack x.2.stack x.2.indexPointer x.2.stackPointer).2 with
        | none => none
        | some sp =>
          some (LoopStep.next (x.1,
            { stack := (pushStack x.2.stack x.2.indexPointer x.2.stackPointer).1,
              stackPointer := sp,
              direction := right,
              result :=
                { x.2.result with IndexTerminalNodeCount := x.2.result.IndexTerminalNodeCount + 1 },
              indexPointer := nd.rightPointer }))
      else if nd.indexType = duplicateTerminalNode then
        if x.2.direction = left then
          some (LoopStep.next (x.1,
            { stack := (pushStack x.2.stack x.2.indexPointer x.2.stackPointer).1,
              stackPointer := (pushStack x.2.stack x.2.indexPointer x.2.stackPointer).2,
              direction := x.2.direction,
              result :=
                { x.2.result with
                  DuplicateTerminalNodeCount := x.2.result.DuplicateTerminalNodeCount + 1 },
              indexPointer := nd.leftPointer }))
        else
          match resetStack x.2.stack nd.rightPointer x.2.stackPointer with
          | none => none
          | some sp =>
            some (LoopStep.next
              (x.1, { x.2 with indexPointer := nd.rightPointer, stackPointer := sp }))
      else some (LoopStep.next (x.1, x.2))

/-- One pass of the loop of `Statistics` over the free list, with the index
as state. -/
def Run.deletedBody (x : Guarded × (Int × Int)) :
    Option (LoopStep (Guarded × (Int × Int)) (Int × Guarded)) :=
  if x.2.1 ≠ nullIndexPointer then
    match getNode x.1.index.node x.2.1 with
    | none => none
    | some nd => some (LoopStep.next (x.1, (nd.rightPointer, x.2.2 + 1)))
  else some (LoopStep.exit (x.2.2, x.1))

/-- The function `Statistics`, with the index as state: it does not lock the
mutex. -/
def Run.Statistics (fuel : Nat) (g : Guarded) : Option ((Statistic × List Nat) × Guarded) :=
  match runLoop Run.statsBody fuel
      (g, { stack := [], stackPointer := 0, direction := left,
            result := ⟨0, 0, 0, 0, 0, 0, 0, 0, 0⟩,
            indexPointer := g.index.indexRootPointer }) with
  | none => none
  | some (st, g1) =>
    match runLoop Run.deletedBody fuel
        (g1, (g1.index.deletedRootPointer, (statsTotals st).Deleted)) with
    | none => none
    | some (deleted, g2) =>
      some (({ statsTotals st with Deleted := deleted },
        marshalStatistic { statsTotals st with Deleted := deleted }), g2)

/-- The pass of a loop as a pass that hands the index `g` on as it is. -/
def LoopStep.withIndex {σ ρ : Type} (g : Guarded) :
    LoopStep σ ρ → LoopStep (Guarded × σ) (ρ × Guarded)
  | LoopStep.next st => LoopStep.next (g, st)
  | LoopStep.exit r => LoopStep.exit (r, g)

/-- The index after `Insert("a", 1)` on a fresh index. -/
def sampleOne : Index := ⟨0, [⟨83, 1, 97, -1⟩], -1, 1⟩

/-- The index after `Insert("CAT", 1)` and `Insert("CATTLE", 2)` on a fresh index. -/
def sampleCat : Index :=
  ⟨2, [⟨82, 1, 84, 5⟩, ⟨88, -1, 65, 0⟩, ⟨88, -1, 67, 1⟩, ⟨83, 2, 69, -1⟩, ⟨88, -1, 76, 3⟩,
    ⟨88, -1, 84, 4⟩], -1, 2⟩

/-- The log of the calls that give `sampleOne`. -/
def sampleOneLog : List Call := [⟨true, [97], 1, true⟩]

/-- The log of the calls that give `sampleCat`, latest first. -/
def sampleCatLog : List Call :=
  [⟨true, [67, 65, 84, 84, 76, 69], 2, true⟩, ⟨true, [67, 65, 84], 1, true⟩]

set_option maxRecDepth 100000 in

/-- The key `"DOG"`. -/
def dogKey : List Nat := [68, 79, 71]

/-- The index after `Insert("DOG", 10)` on a fresh index. -/
def sampleDogOne : Index :=
  ⟨2, [⟨83, 10, 71, -1⟩, ⟨88, -1, 79, 0⟩, ⟨88, -1, 68, 1⟩], -1, 1⟩

/-- The index after `Insert("DOG", 10)` and `Insert("DOG", 20)`. -/
def sampleDogTwo : Index :=
  ⟨2, [⟨76, 5, 71, -1⟩, ⟨88, -1, 79, 0⟩, ⟨88, -1, 68, 1⟩, ⟨83, 10, 48, 5⟩, ⟨88, -1, 49, 3⟩,
    ⟨68, 4, 49, 7⟩, ⟨83, 20, 48, 0⟩, ⟨88, -1, 50, 6⟩], -1, 2⟩

/-- The index after `Insert("DOG", 10)`, `Insert("DOG", 20)` and `Insert("DOG", 30)`. -/
def sampleDog : Index :=
  ⟨2, [⟨76, 5, 71, -1⟩, ⟨88, -1, 79, 0⟩, ⟨88, -1, 68, 1⟩, ⟨83, 10, 48, 5⟩, ⟨88, -1, 49, 3⟩,
    ⟨68, 4, 49, 8⟩, ⟨83, 20, 48, 8⟩, ⟨88, -1, 50, 6⟩, ⟨68, 7, 50, 10⟩, ⟨83, 30, 48, 0⟩,
    ⟨88, -1, 51, 9⟩], -1, 3⟩

/-- The index `sampleDog` after `Delete("DOG", 20)`: three slots are on the free list. -/
def sampleDogLess : Index :=
  ⟨2, [⟨76, 5, 71, -1⟩, ⟨88, -1, 79, 0⟩, ⟨88, -1, 68, 1⟩, ⟨83, 10, 48, 5⟩, ⟨88, -1, 49, 3⟩,
    ⟨68, 4, 49, 10⟩, ⟨83, 20, 48, -1⟩, ⟨88, -1, 50, 6⟩, ⟨68, 7, 50, 7⟩, ⟨83, 30, 48, 0⟩,
    ⟨88, -1, 51, 9⟩], 8, 2⟩

/-- The log of the calls that give `sampleDog`, latest first. -/
def sampleDogLog : List Call :=
  [⟨true, dogKey, 30, true⟩, ⟨true, dogKey, 20, true⟩, ⟨true, dogKey, 10, true⟩]

/-- The log of the calls that give `sampleDogLess`, latest first. -/
def sampleDogLessLog : List Call := ⟨false, dogKey, 20, true⟩ :: sampleDogLog

/-- A key of 40 bytes between white space. -/
def longKey : List Nat := [32, 9] ++ List.range' 48 40 ++ [32, 10]

set_option maxRecDepth 100000 in

/-- The index after `Insert("\x80", 1)` on a fresh index. -/
def sampleHighOne : Index := ⟨0, [⟨83, 1, 128, -1⟩], -1, 1⟩

/-- The index after two calls `Insert("\x80", 1)` on a fresh index. -/
def sampleHigh : Index :=
  ⟨1, [⟨83, 1, 128, -1⟩, ⟨68, 2, 128, 0⟩, ⟨83, 1, 128, 1⟩], -1, 2⟩

set_option maxRecDepth 100000 in

/-- The index after `Insert("A", 1)`, `Insert("A", 12)` and `Insert("A", 3)`
on a fresh index: the duplicates branch of `"A"` holds the elements 1, 12
and 3, the entry `"1"` at an index key node in the slot 1. -/
def sampleTriple : Index :=
  ⟨0, [⟨duplicateTerminalNode, 3, 65, -1⟩, ⟨indexKeyNode, 1, 49, 2⟩,
    ⟨indexTerminalNode, 12, 50, 3⟩, ⟨decisionNode, 1, 49, 4⟩,
    ⟨indexTerminalNode, 3, 51, 0⟩], -1, 3⟩

set_option maxRecDepth 100000 in

/-- The index after `Insert("CAT", 1)` on a fresh index. -/
def sampleCatOne : Index :=
  ⟨2, [⟨indexTerminalNode, 1, 84, -1⟩, ⟨characterNode, -1, 65, 0⟩,
    ⟨characterNode, -1, 67, 1⟩], -1, 1⟩

/-- The tree of `sampleCatOne`. -/
def sampleCatOneTree : Trie := Trie.X 2 67 (Trie.X 1 65 (Trie.S 0 84 1))

/-- The index after `Insert("A", 1)` and `Insert("A", 2)` on a fresh index. -/
def sampleDupTwo : Index :=
  ⟨0, [⟨duplicateTerminalNode, 2, 65, -1⟩, ⟨indexTerminalNode, 1, 49, 2⟩,
    ⟨decisionNode, 1, 49, 3⟩, ⟨indexTerminalNode, 2, 50, 0⟩], -1, 2⟩

/-- The tree of `sampleDupTwo`. -/
def sampleDupTwoTree : Trie := Trie.L 0 65 (Trie.D 2 49 (Trie.S 1 49 1) (Trie.S 3 50 2))

/-- The tree of `sampleTriple`. -/
def sampleTripleTree : Trie :=
  Trie.L 0 65 (Trie.D 3 49 (Trie.R 1 49 1 (Trie.S 2 50 12)) (Trie.S 4 51 3))

/-- The index after `Delete("A", 1)` on `sampleDupTwo`: the slot 0 holds an
index terminal with the element 2, the three slots of the former sub-branch
are the free list 1, 2, 3. -/
def sampleDupLess : Index :=
  ⟨0, [⟨indexTerminalNode, 2, 65, -1⟩, ⟨indexTerminalNode, 1, 49, 2⟩,
    ⟨decisionNode, 1, 49, 3⟩, ⟨indexTerminalNode, 2, 50, -1⟩], 1, 1⟩

set_option maxRecDepth 100000 in

/-- The index that holds `("CAT", 1)` and `("CATTLE", 2)`, with its mutex free. -/
def sampleCatFree : Guarded := ⟨sampleCat, false⟩

set_option maxRecDepth 100000 in

/-! ## Loops and fuel -/

theorem runLoop_next {σ ρ : Type} (body : σ → Option (LoopStep σ ρ)) (fuel : Nat) (s s' : σ)
    (h : body s = some (LoopStep.next s')) :
    runLoop body (fuel + 1) s = runLoop body fuel s' := by
  simp [runLoop, h]

theorem runLoop_exit {σ ρ : Type} (body : σ → Option (LoopStep σ ρ)) (fuel : Nat) (s : σ) (r : ρ)
    (h : body s = some (LoopStep.exit r)) :
    runLoop body (fuel + 1) s = some r := by
  simp [runLoop, h]

theorem runLoop_mono {σ ρ : Type} (body : σ → Option (LoopStep σ ρ)) :
    ∀ (fuel : Nat) (s : σ) (r : ρ), runLoop body fuel s = some r →
      ∀ fuel', fuel ≤ fuel' → runLoop body fuel' s = some r := by
  intro fuel
  induction fuel with
  | zero => intro s r h; simp [runLoop] at h
  | succ n ih =>
    intro s r h fuel' hle
    obtain ⟨m, rfl⟩ : ∃ m, fuel' = m + 1 := ⟨fuel' - 1, by omega⟩
    cases hb : body s with
    | none => simp [runLoop, hb] at h
    | some st =>
      cases st with
      | next s' =>
        rw [runLoop_next body n s s' hb] at h
        rw [runLoop_next body m s s' hb]
        exact ih s' r h m (by omega)
      | exit r' =>
        rw [runLoop_exit body n s r' hb] at h
        rw [runLoop_exit body m s r' hb]
        exact h

/-- A loop that gives `r` on fuel `n` gives it on `n + k` too. -/
theorem runLoop_add {σ ρ : Type} (body : σ → Option (LoopStep σ ρ)) (n k : Nat) (s : σ) (r : ρ)
    (h : runLoop body n s = some r) : runLoop body (n + k) s = some r :=
  runLoop_mono body n s r h (n + k) (by omega)

/-! ## Arena access at natural-number addresses -/

@[simp] theorem getNode_natCast (ns : List indexNode) (a : Nat) :
    getNode ns (a : Int) = ns[a]? := by
  simp [getNode]

@[simp] theorem getNode_neg_one (ns : List indexNode) : getNode ns (-1) = none := by
  simp [getNode]

theorem setNode_natCast (ns : List indexNode) (a : Nat) (n : indexNode) (h : a < ns.length) :
    setNode ns (a : Int) n = some (ns.set a n) := by
  simp [setNode, h]

theorem lt_length_of_getElem? {ns : List indexNode} {a : Nat} {n : indexNode}
    (h : ns[a]? = some n) : a < ns.length := by
  by_contra hc
  rw [List.getElem?_eq_none (by omega)] at h
  cases h

theorem setType_natCast (ns : List indexNode) (a : Nat) (n : indexNode) (t : Nat)
    (h : ns[a]? = some n) :
    setType ns (a : Int) t = some (ns.set a { n with indexType := t }) := by
  simp [setType, h, setNode_natCast _ _ _ (lt_length_of_getElem? h)]

theorem setLeft_natCast (ns : List indexNode) (a : Nat) (n : indexNode) (v : Int)
    (h : ns[a]? = some n) :
    setLeft ns (a : Int) v = some (ns.set a { n with leftPointer := v }) := by
  simp [setLeft, h, setNode_natCast _ _ _ (lt_length_of_getElem? h)]

theorem setRight_natCast (ns : List indexNode) (a : Nat) (n : indexNode) (v : Int)
    (h : ns[a]? = some n) :
    setRight ns (a : Int) v = some (ns.set a { n with rightPointer := v }) := by
  simp [setRight, h, setNode_natCast _ _ _ (lt_length_of_getElem? h)]

theorem setChar_natCast (ns : List indexNode) (a : Nat) (n : indexNode) (c : Nat)
    (h : ns[a]? = some n) :
    setChar ns (a : Int) c = some (ns.set a { n with keyCharacter := c }) := by
  simp [setChar, h, setNode_natCast _ _ _ (lt_length_of_getElem? h)]

theorem getElem?_set_self' (ns : List indexNode) (a : Nat) (n : indexNode)
    (h : a < ns.length) : (ns.set a n)[a]? = some n := by
  simp [List.getElem?_set, h]

theorem getElem?_set_other (ns : List indexNode) (a b : Nat) (n : indexNode) (h : a ≠ b) :
    (ns.set a n)[b]? = ns[b]? := by
  simp [List.getElem?_set, h]

/-! ## Strings of ASCII bytes -/

theorem byteToString_ascii {c : Nat} (h : c < 128) : byteToString c = [c] := by
  simp [byteToString, h]

theorem strLt_single (a b : Nat) : strLt [a] [b] = decide (a < b) := by
  simp [strLt]

theorem strLe_single (a b : Nat) : strLe [a] [b] = decide (a ≤ b) := by
  by_cases h : a ≤ b
  · have h2 : ¬ b < a := by omega
    have h3 : b = a ∨ ¬ b = a := by omega
    rcases h3 with h3 | h3 <;> simp [strLe, strLt, h, h2, h3]
  · have h2 : b < a := by omega
    simp [strLe, strLt, h, h2]

theorem strGt_single (a b : Nat) : strGt [a] [b] = decide (b < a) := by
  simp [strGt, strLt]

theorem sliceOne_drop {s : List Nat} {i k : Nat} {rest : List Nat}
    (h : s.drop i = k :: rest) : sliceOne s i = some [k] := by
  have hl : i < s.length := by
    by_contra hc
    rw [List.drop_eq_nil_of_le (by omega)] at h
    cases h
  simp [sliceOne, h]
  omega

theorem drop_succ_of_drop {s : List Nat} {i k : Nat} {rest : List Nat}
    (h : s.drop i = k :: rest) : s.drop (i + 1) = rest := by
  have : s.drop (i + 1) = (s.drop i).drop 1 := by simp [List.drop_drop]
  rw [this, h]; rfl

theorem length_of_drop {s : List Nat} {i k : Nat} {rest : List Nat}
    (h : s.drop i = k :: rest) : s.length = i + 1 + rest.length := by
  have := congrArg List.length h
  simp at this
  omega

theorem last_iff_of_drop {s : List Nat} {i k : Nat} {rest : List Nat}
    (h : s.drop i = k :: rest) : i + 1 = s.length ↔ rest = [] := by
  rw [length_of_drop h]
  constructor
  · intro h1
    exact List.length_eq_zero.mp (by omega)
  · intro h1; simp [h1]

theorem sliceFrom_drop {s : List Nat} {i k : Nat} {rest : List Nat}
    (h : s.drop i = k :: rest) : sliceFrom s (i + 1) = some rest := by
  simp [sliceFrom, drop_succ_of_drop h, length_of_drop h]

theorem sliceFrom_drop_self {s : List Nat} {i k : Nat} {rest : List Nat}
    (h : s.drop i = k :: rest) : sliceFrom s i = some (k :: rest) := by
  simp [sliceFrom, h, length_of_drop h]
  omega

theorem getD_of_drop {s : List Nat} {i k : Nat} {rest : List Nat}
    (h : s.drop i = k :: rest) : s.getD i 0 = k := by
  have hl : i < s.length := by rw [length_of_drop h]; omega
  have h2 : (s.drop i)[0]? = some k := by rw [h]; simp
  rw [List.getElem?_drop] at h2
  simp at h2
  simp [List.getD, h2]

/-! ## Root addresses -/

@[simp] theorem Trie.addr_S (p c : Nat) (e : Int) : (Trie.S p c e).addr = p := rfl

@[simp] theorem Trie.addr_R (p c : Nat) (e : Int) (n : Trie) : (Trie.R p c e n).addr = p := rfl

@[simp] theorem Trie.addr_X (p c : Nat) (n : Trie) : (Trie.X p c n).addr = p := rfl

@[simp] theorem Trie.addr_D (p c : Nat) (l r : Trie) : (Trie.D p c l r).addr = p := rfl

@[simp] theorem Trie.addr_L (p c : Nat) (sub : Trie) : (Trie.L p c sub).addr = p := rfl

@[simp] theorem Trie.addr_K (p c : Nat) (sub n : Trie) : (Trie.K p c sub n).addr = p := rfl

@[simp] theorem Frame.addr_Rf (p c : Nat) (e : Int) : (Frame.Rf p c e).addr = p := rfl

@[simp] theorem Frame.addr_Xf (p c : Nat) : (Frame.Xf p c).addr = p := rfl

@[simp] theorem Frame.addr_Kf (p c : Nat) (sub : Trie) : (Frame.Kf p c sub).addr = p := rfl

@[simp] theorem Frame.addr_Ks (p c : Nat) (n : Trie) : (Frame.Ks p c n).addr = p := rfl

@[simp] theorem Frame.addr_Ls (p c : Nat) : (Frame.Ls p c).addr = p := rfl

@[simp] theorem Frame.addr_Dl (p c : Nat) (r : Trie) : (Frame.Dl p c r).addr = p := rfl

@[simp] theorem Frame.addr_Dr (p c : Nat) (l : Trie) : (Frame.Dr p c l).addr = p := rfl

/-! ## Representation: frame property -/

theorem Trie.addr_mem_addrs (t : Trie) : t.addr ∈ t.addrs := by
  cases t <;> simp [Trie.addr, Trie.addrs]

theorem Trie.size_eq_length (t : Trie) : t.size = t.addrs.length := by
  induction t with
  | S p c e => simp [Trie.size, Trie.addrs]
  | R p c e n ih => simp [Trie.size, Trie.addrs, ih]
  | X p c n ih => simp [Trie.size, Trie.addrs, ih]
  | D p c l r ihl ihr => simp [Trie.size, Trie.addrs, ihl, ihr]
  | L p c sub ih => simp [Trie.size, Trie.addrs, ih]
  | K p c sub n ihs ihn => simp [Trie.size, Trie.addrs, ihs, ihn]

/-- A tree stays represented when the arena is unchanged on its addresses. -/
theorem Trie.Laid.frame {ns ns' : List indexNode} :
    ∀ (t : Trie) (th : Int), Trie.Laid ns t th → (∀ a ∈ t.addrs, ns'[a]? = ns[a]?) → Trie.Laid ns' t th := by
  intro t
  induction t with
  | S p c e =>
    intro th h hf
    simp only [Trie.Laid] at h ⊢
    rw [hf p (by simp [Trie.addrs])]; exact h
  | R p c e n ih =>
    intro th h hf
    simp only [Trie.Laid] at h ⊢
    refine ⟨?_, ih th h.2 (fun a ha => hf a (by simp [Trie.addrs, ha]))⟩
    rw [hf p (by simp [Trie.addrs])]; exact h.1
  | X p c n ih =>
    intro th h hf
    simp only [Trie.Laid] at h ⊢
    refine ⟨?_, ih th h.2 (fun a ha => hf a (by simp [Trie.addrs, ha]))⟩
    rw [hf p (by simp [Trie.addrs])]; exact h.1
  | D p c l r ihl ihr =>
    intro th h hf
    simp only [Trie.Laid] at h ⊢
    refine ⟨?_, ihl _ h.2.1 (fun a ha => hf a (by simp [Trie.addrs, ha])),
      ihr th h.2.2 (fun a ha => hf a (by simp [Trie.addrs, ha]))⟩
    rw [hf p (by simp [Trie.addrs])]; exact h.1
  | L p c sub ih =>
    intro th h hf
    simp only [Trie.Laid] at h ⊢
    refine ⟨?_, ih _ h.2 (fun a ha => hf a (by simp [Trie.addrs, ha]))⟩
    rw [hf p (by simp [Trie.addrs])]; exact h.1
  | K p c sub n ihs ihn =>
    intro th h hf
    simp only [Trie.Laid] at h ⊢
    refine ⟨?_, ihs _ h.2.1 (fun a ha => hf a (by simp [Trie.addrs, ha])),
      ihn th h.2.2 (fun a ha => hf a (by simp [Trie.addrs, ha]))⟩
    rw [hf p (by simp [Trie.addrs])]; exact h.1

/-- Every address of a represented tree is inside the arena. -/
theorem Trie.Laid.lt_length {ns : List indexNode} :
    ∀ (t : Trie) (th : Int), Trie.Laid ns t th → ∀ a ∈ t.addrs, a < ns.length := by
  intro t
  induction t with
  | S p c e =>
    intro th h a ha
    simp only [Trie.Laid] at h
    simp [Trie.addrs] at ha
    subst ha; exact lt_length_of_getElem? h
  | R p c e n ih =>
    intro th h a ha
    simp only [Trie.Laid] at h
    simp [Trie.addrs] at ha
    rcases ha with rfl | ha
    · exact lt_length_of_getElem? h.1
    · exact ih th h.2 a ha
  | X p c n ih =>
    intro th h a ha
    simp only [Trie.Laid] at h
    simp [Trie.addrs] at ha
    rcases ha with rfl | ha
    · exact lt_length_of_getElem? h.1
    · exact ih th h.2 a ha
  | D p c l r ihl ihr =>
    intro th h a ha
    simp only [Trie.Laid] at h
    simp [Trie.addrs] at ha
    rcases ha with rfl | ha | ha
    · exact lt_length_of_getElem? h.1
    · exact ihl _ h.2.1 a ha
    · exact ihr th h.2.2 a ha
  | L p c sub ih =>
    intro th h a ha
    simp only [Trie.Laid] at h
    simp [Trie.addrs] at ha
    rcases ha with rfl | ha
    · exact lt_length_of_getElem? h.1
    · exact ih _ h.2 a ha
  | K p c sub n ihs ihn =>
    intro th h a ha
    simp only [Trie.Laid] at h
    simp [Trie.addrs] at ha
    rcases ha with rfl | ha | ha
    · exact lt_length_of_getElem? h.1
    · exact ihs _ h.2.1 a ha
    · exact ihn th h.2.2 a ha

/-! ## The threaded traversal -/

theorem natCast_ne_null (p : Nat) : (p : Int) ≠ nullIndexPointer := by
  simp only [nullIndexPointer]; omega

theorem runLoop_step {σ ρ : Type} (body : σ → Option (LoopStep σ ρ)) (s s' : σ) (r : ρ)
    (fuel fuel' : Nat) (hb : body s = some (LoopStep.next s'))
    (h : runLoop body fuel s' = some r) (hf : fuel < fuel') : runLoop body fuel' s = some r := by
  obtain ⟨m, rfl⟩ : ∃ m, fuel' = m + 1 := ⟨fuel' - 1, by omega⟩
  rw [runLoop_next body m s s' hb]
  exact runLoop_mono body fuel s' r h m (by omega)

/-- The traversal of a represented tree, entered from above, emits the
elements of the tree and leaves through the thread with direction `right`. -/
theorem traverse_tree (ix : Index) (endPointer : Int) :
    ∀ (t : Trie) (th : Int), Trie.Laid ix.node t th → (∀ a ∈ t.addrs, (a : Int) ≠ endPointer) →
      ∀ (acc : List Int) (fuel : Nat) (r : List Int),
        runLoop (traverseBody endPointer ix) fuel ⟨right, th, acc ++ t.elems⟩ = some r →
        runLoop (traverseBody endPointer ix) (fuel + 2 * t.size) ⟨left, (t.addr : Int), acc⟩
          = some r := by
  intro t
  induction t with
  | S p c e =>
    intro th h hne acc fuel r hr
    simp only [Trie.Laid] at h
    have hp : (p : Int) ≠ endPointer := hne p (by simp [Trie.addrs])
    simp only [Trie.size, Trie.addr, Trie.elems] at hr ⊢
    exact runLoop_step _ _ _ _ _ _ (by simp [traverseBody, hp, h, natCast_ne_null]) hr (by omega)
  | R p c e n ih =>
    intro th h hne acc fuel r hr
    simp only [Trie.Laid] at h
    have hp : (p : Int) ≠ endPointer := hne p (by simp [Trie.addrs])
    simp only [Trie.size, Trie.addr, Trie.elems] at hr ⊢
    have h1 := ih th h.2 (fun a ha => hne a (by simp [Trie.addrs, ha])) (acc ++ [e]) fuel r
      (by simpa using hr)
    exact runLoop_step _ _ _ _ _ _ (by simp [traverseBody, hp, h.1, natCast_ne_null]) h1 (by omega)
  | X p c n ih =>
    intro th h hne acc fuel r hr
    simp only [Trie.Laid] at h
    have hp : (p : Int) ≠ endPointer := hne p (by simp [Trie.addrs])
    simp only [Trie.size, Trie.addr, Trie.elems] at hr ⊢
    have h1 := ih th h.2 (fun a ha => hne a (by simp [Trie.addrs, ha])) acc fuel r hr
    exact runLoop_step _ _ _ _ _ _ (by simp [traverseBody, hp, h.1, natCast_ne_null]) h1 (by omega)
  | D p c l r ihl ihr =>
    intro th h hne acc fuel res hr
    simp only [Trie.Laid] at h
    have hp : (p : Int) ≠ endPointer := hne p (by simp [Trie.addrs])
    simp only [Trie.size, Trie.addr, Trie.elems] at hr ⊢
    have h1 := ihr th h.2.2 (fun a ha => hne a (by simp [Trie.addrs, ha])) (acc ++ l.elems) fuel res
      (by simpa using hr)
    have h2 : runLoop (traverseBody endPointer ix) (fuel + 2 * r.size + 1)
        ⟨right, (p : Int), acc ++ l.elems⟩ = some res :=
      runLoop_step _ _ _ _ _ _ (by simp [traverseBody, hp, h.1, natCast_ne_null]) h1 (by omega)
    have h3 := ihl _ h.2.1 (fun a ha => hne a (by simp [Trie.addrs, ha])) acc _ res h2
    exact runLoop_step _ _ _ _ _ _ (by simp [traverseBody, hp, h.1, natCast_ne_null]) h3 (by omega)
  | L p c sub ih =>
    intro th h hne acc fuel res hr
    simp only [Trie.Laid] at h
    have hp : (p : Int) ≠ endPointer := hne p (by simp [Trie.addrs])
    simp only [Trie.size, Trie.addr, Trie.elems] at hr ⊢
    have h2 : runLoop (traverseBody endPointer ix) (fuel + 1)
        ⟨right, (p : Int), acc ++ sub.elems⟩ = some res :=
      runLoop_step _ _ _ _ _ _ (by simp [traverseBody, hp, h.1, natCast_ne_null]) hr (by omega)
    have h3 := ih _ h.2 (fun a ha => hne a (by simp [Trie.addrs, ha])) acc _ res h2
    exact runLoop_step _ _ _ _ _ _ (by simp [traverseBody, hp, h.1, natCast_ne_null]) h3 (by omega)
  | K p c sub n ihs ihn =>
    intro th h hne acc fuel res hr
    simp only [Trie.Laid] at h
    have hp : (p : Int) ≠ endPointer := hne p (by simp [Trie.addrs])
    simp only [Trie.size, Trie.addr, Trie.elems] at hr ⊢
    have h1 := ihn th h.2.2 (fun a ha => hne a (by simp [Trie.addrs, ha])) (acc ++ sub.elems) fuel res
      (by simpa using hr)
    have h2 : runLoop (traverseBody endPointer ix) (fuel + 2 * n.size + 1)
        ⟨right, (p : Int), acc ++ sub.elems⟩ = some res :=
      runLoop_step _ _ _ _ _ _ (by simp [traverseBody, hp, h.1, natCast_ne_null]) h1 (by omega)
    have h3 := ihs _ h.2.1 (fun a ha => hne a (by simp [Trie.addrs, ha])) acc _ res h2
    exact runLoop_step _ _ _ _ _ _ (by simp [traverseBody, hp, h.1, natCast_ne_null]) h3 (by omega)

theorem runLoop_exit' {σ ρ : Type} (body : σ → Option (LoopStep σ ρ)) (s : σ) (r : ρ)
    (fuel : Nat) (hb : body s = some (LoopStep.exit r)) (hf : 0 < fuel) :
    runLoop body fuel s = some r := by
  obtain ⟨m, rfl⟩ : ∃ m, fuel = m + 1 := ⟨fuel - 1, by omega⟩
  exact runLoop_exit body m s r hb

/-! ## Ascii trees -/

theorem Trie.Ascii.S {p c : Nat} {e : Int} (h : (Trie.S p c e).Ascii) : c < 128 :=
  h c (by simp [Trie.chars])

theorem Trie.Ascii.R {p c : Nat} {e : Int} {n : Trie} (h : (Trie.R p c e n).Ascii) :
    c < 128 ∧ n.Ascii :=
  ⟨h c (by simp [Trie.chars]), fun x hx => h x (by simp [Trie.chars, hx])⟩

theorem Trie.Ascii.X {p c : Nat} {n : Trie} (h : (Trie.X p c n).Ascii) :
    c < 128 ∧ n.Ascii :=
  ⟨h c (by simp [Trie.chars]), fun x hx => h x (by simp [Trie.chars, hx])⟩

theorem Trie.Ascii.D {p c : Nat} {l r : Trie} (h : (Trie.D p c l r).Ascii) :
    c < 128 ∧ l.Ascii ∧ r.Ascii :=
  ⟨h c (by simp [Trie.chars]), fun x hx => h x (by simp [Trie.chars, hx]),
    fun x hx => h x (by simp [Trie.chars, hx])⟩

theorem Trie.Ascii.L {p c : Nat} {sub : Trie} (h : (Trie.L p c sub).Ascii) :
    c < 128 ∧ sub.Ascii :=
  ⟨h c (by simp [Trie.chars]), fun x hx => h x (by simp [Trie.chars, hx])⟩

theorem Trie.Ascii.K {p c : Nat} {sub n : Trie} (h : (Trie.K p c sub n).Ascii) :
    c < 128 ∧ sub.Ascii ∧ n.Ascii :=
  ⟨h c (by simp [Trie.chars]), fun x hx => h x (by simp [Trie.chars, hx]),
    fun x hx => h x (by simp [Trie.chars, hx])⟩

/-! ## Select -/

/-- The traversal of a duplicates branch bounded by its owner. -/
theorem traverse_sub (ix : Index) (p : Nat) (sub : Trie) (h : Trie.Laid ix.node sub (p : Int))
    (hp : p ∉ sub.addrs) (fuel : Nat) (hf : 2 * sub.size + 1 ≤ fuel) :
    traverseAndCollect fuel (sub.addr : Int) (p : Int) ix = some sub.elems := by
  have h0 : runLoop (traverseBody (p : Int) ix) 1 ⟨right, (p : Int), [] ++ sub.elems⟩
      = some sub.elems := by
    apply runLoop_exit'
    · simp [traverseBody]
    · omega
  have h1 := traverse_tree ix (p : Int) sub (p : Int) h
    (fun a ha hc => hp (by have : a = p := by exact_mod_cast hc
                           rw [← this]; exact ha)) [] 1 _ h0
  exact runLoop_mono _ _ _ _ h1 _ (by omega)

theorem select_tree (ix : Index) (ks : List Nat) (fuelT : Nat) :
    ∀ (t : Trie) (th : Int), Trie.Laid ix.node t th → t.Ascii → t.addrs.Nodup →
      2 * t.size + 1 ≤ fuelT →
      ∀ (i k : Nat) (rest : List Nat), ks.drop i = k :: rest →
        ∀ fuel, t.size ≤ fuel →
          runLoop (selectBody fuelT ks ks.length ix) fuel ⟨(t.addr : Int), i⟩ =
            some (decide ((t.find (k :: rest)).length > 0), t.find (k :: rest)) := by
  intro t
  induction t with
  | S p c e =>
    intro th h ha hnd hT i k rest hk fuel hf
    simp only [Trie.Laid] at h
    have hc := ha.S
    simp only [Trie.size] at hf
    apply runLoop_exit' _ _ _ _ _ (by omega)
    simp only [Trie.addr, Trie.find]
    by_cases hkc : k = c
    · by_cases hr : rest = []
      · simp [selectBody, natCast_ne_null, h, sliceOne_drop hk, byteToString_ascii hc, hkc,
          last_iff_of_drop hk, hr]
      · simp [selectBody, natCast_ne_null, h, sliceOne_drop hk, byteToString_ascii hc, hkc,
          last_iff_of_drop hk, hr]
    · simp [selectBody, natCast_ne_null, h, sliceOne_drop hk, byteToString_ascii hc, hkc]
  | R p c e n ih =>
    intro th h ha hnd hT i k rest hk fuel hf
    simp only [Trie.Laid] at h
    obtain ⟨hc, han⟩ := ha.R
    simp only [Trie.size] at hf hT
    simp only [Trie.addr, Trie.find]
    by_cases hkc : k = c
    · by_cases hr : rest = []
      · apply runLoop_exit' _ _ _ _ _ (by omega)
        simp [selectBody, natCast_ne_null, h.1, sliceOne_drop hk, byteToString_ascii hc, hkc,
          last_iff_of_drop hk, hr]
      · obtain ⟨k2, rest2, hr2⟩ : ∃ k2 rest2, rest = k2 :: rest2 := by
          cases rest with
          | nil => exact absurd rfl hr
          | cons a b => exact ⟨a, b, rfl⟩
        obtain ⟨m, rfl⟩ : ∃ m, fuel = m + 1 := ⟨fuel - 1, by omega⟩
        rw [runLoop_next _ _ _ ⟨(n.addr : Int), i + 1⟩
          (by simp [selectBody, natCast_ne_null, h.1, sliceOne_drop hk, byteToString_ascii hc, hkc,
            last_iff_of_drop hk, hr])]
        have hk2 : ks.drop (i + 1) = k2 :: rest2 := by rw [drop_succ_of_drop hk, hr2]
        have := ih th h.2 han (by simp [Trie.addrs] at hnd; exact hnd.2) (by omega) (i + 1) k2 rest2
          hk2 m (by omega)
        rw [this]; simp [hkc, hr2]
    · apply runLoop_exit' _ _ _ _ _ (by omega)
      simp [selectBody, natCast_ne_null, h.1, sliceOne_drop hk, byteToString_ascii hc, hkc]
  | X p c n ih =>
    intro th h ha hnd hT i k rest hk fuel hf
    simp only [Trie.Laid] at h
    obtain ⟨hc, han⟩ := ha.X
    simp only [Trie.size] at hf hT
    simp only [Trie.addr, Trie.find]
    by_cases hkc : k = c
    · by_cases hr : rest = []
      · apply runLoop_exit' _ _ _ _ _ (by omega)
        simp [selectBody, natCast_ne_null, h.1, sliceOne_drop hk, byteToString_ascii hc, hkc,
          last_iff_of_drop hk, hr]
      · obtain ⟨k2, rest2, hr2⟩ : ∃ k2 rest2, rest = k2 :: rest2 := by
          cases rest with
          | nil => exact absurd rfl hr
          | cons a b => exact ⟨a, b, rfl⟩
        obtain ⟨m, rfl⟩ : ∃ m, fuel = m + 1 := ⟨fuel - 1, by omega⟩
        rw [runLoop_next _ _ _ ⟨(n.addr : Int), i + 1⟩
          (by simp [selectBody, natCast_ne_null, h.1, sliceOne_drop hk, byteToString_ascii hc, hkc,
            last_iff_of_drop hk, hr])]
        have hk2 : ks.drop (i + 1) = k2 :: rest2 := by rw [drop_succ_of_drop hk, hr2]
        have := ih th h.2 han (by simp [Trie.addrs] at hnd; exact hnd.2) (by omega) (i + 1) k2 rest2
          hk2 m (by omega)
        rw [this]; simp [hkc, hr2]
    · apply runLoop_exit' _ _ _ _ _ (by omega)
      simp [selectBody, natCast_ne_null, h.1, sliceOne_drop hk, byteToString_ascii hc, hkc]
  | D p c l r ihl ihr =>
    intro th h ha hnd hT i k rest hk fuel hf
    simp only [Trie.Laid] at h
    obtain ⟨hc, hal, har⟩ := ha.D
    simp only [Trie.size] at hf hT
    simp only [Trie.addr, Trie.find]
    have hnd' : l.addrs.Nodup ∧ r.addrs.Nodup := by
      simp [Trie.addrs, List.nodup_append] at hnd; exact ⟨hnd.2.1, hnd.2.2.1⟩
    obtain ⟨m, rfl⟩ : ∃ m, fuel = m + 1 := ⟨fuel - 1, by omega⟩
    by_cases hkc : k ≤ c
    · rw [runLoop_next _ _ _ ⟨(l.addr : Int), i⟩
        (by simp [selectBody, natCast_ne_null, h.1, sliceOne_drop hk, byteToString_ascii hc, hkc,
          strLe_single])]
      rw [ihl _ h.2.1 hal hnd'.1 (by omega) i k rest hk m (by omega)]; simp [hkc]
    · rw [runLoop_next _ _ _ ⟨(r.addr : Int), i⟩
        (by simp [selectBody, natCast_ne_null, h.1, sliceOne_drop hk, byteToString_ascii hc, hkc,
          strLe_single])]
      rw [ihr _ h.2.2 har hnd'.2 (by omega) i k rest hk m (by omega)]; simp [hkc]
  | L p c sub ih =>
    intro th h ha hnd hT i k rest hk fuel hf
    simp only [Trie.Laid] at h
    obtain ⟨hc, has⟩ := ha.L
    simp only [Trie.size] at hf hT
    simp only [Trie.addr, Trie.find]
    apply runLoop_exit' _ _ _ _ _ (by omega)
    by_cases hkc : k = c
    · by_cases hr : rest = []
      · have hp : p ∉ sub.addrs := by simp [Trie.addrs] at hnd; exact hnd.1
        simp [selectBody, natCast_ne_null, h.1, sliceOne_drop hk, byteToString_ascii hc, hkc,
          last_iff_of_drop hk, hr, traverse_sub ix p sub h.2 hp fuelT (by omega)]
      · simp [selectBody, natCast_ne_null, h.1, sliceOne_drop hk, byteToString_ascii hc, hkc,
          last_iff_of_drop hk, hr]
    · simp [selectBody, natCast_ne_null, h.1, sliceOne_drop hk, byteToString_ascii hc, hkc]
  | K p c sub n ihs ihn =>
    intro th h ha hnd hT i k rest hk fuel hf
    simp only [Trie.Laid] at h
    obtain ⟨hc, has, han⟩ := ha.K
    simp only [Trie.size] at hf hT
    simp only [Trie.addr, Trie.find]
    have hnd' : p ∉ sub.addrs ∧ n.addrs.Nodup := by
      simp [Trie.addrs, List.nodup_append] at hnd; exact ⟨hnd.1.1, hnd.2.2.1⟩
    by_cases hkc : k = c
    · by_cases hr : rest = []
      · apply runLoop_exit' _ _ _ _ _ (by omega)
        simp [selectBody, natCast_ne_null, h.1, sliceOne_drop hk, byteToString_ascii hc, hkc,
          last_iff_of_drop hk, hr, traverse_sub ix p sub h.2.1 hnd'.1 fuelT (by omega)]
      · obtain ⟨k2, rest2, hr2⟩ : ∃ k2 rest2, rest = k2 :: rest2 := by
          cases rest with
          | nil => exact absurd rfl hr
          | cons a b => exact ⟨a, b, rfl⟩
        obtain ⟨m, rfl⟩ : ∃ m, fuel = m + 1 := ⟨fuel - 1, by omega⟩
        rw [runLoop_next _ _ _ ⟨(n.addr : Int), i + 1⟩
          (by simp [selectBody, natCast_ne_null, h.1, sliceOne_drop hk, byteToString_ascii hc, hkc,
            last_iff_of_drop hk, hr])]
        have hk2 : ks.drop (i + 1) = k2 :: rest2 := by rw [drop_succ_of_drop hk, hr2]
        have := ihn th h.2.2 han hnd'.2 (by omega) (i + 1) k2 rest2 hk2 m (by omega)
        rw [this]; simp [hkc, hr2]
    · apply runLoop_exit' _ _ _ _ _ (by omega)
      simp [selectBody, natCast_ne_null, h.1, sliceOne_drop hk, byteToString_ascii hc, hkc]

/-! ## Search -/

/-- The traversal of a tree bounded by its own thread. -/
theorem traverse_to_thread (ix : Index) (t : Trie) (th : Int) (h : Trie.Laid ix.node t th)
    (hp : ∀ a ∈ t.addrs, (a : Int) ≠ th) (acc : List Int) (fuel : Nat)
    (hf : 2 * t.size + 1 ≤ fuel) :
    runLoop (traverseBody th ix) fuel ⟨left, (t.addr : Int), acc⟩ = some (acc ++ t.elems) := by
  have h0 : runLoop (traverseBody th ix) 1 ⟨right, th, acc ++ t.elems⟩
      = some (acc ++ t.elems) := by
    apply runLoop_exit'
    · simp [traverseBody]
    · omega
  have h1 := traverse_tree ix th t th h hp acc 1 _ h0
  exact runLoop_mono _ _ _ _ h1 _ (by omega)

theorem search_tree (ix : Index) (ks : List Nat) :
    ∀ (t : Trie) (th : Int), Trie.Laid ix.node t th → t.Ascii → t.addrs.Nodup →
      (∀ a ∈ t.addrs, (a : Int) ≠ th) →
      ∀ (i k : Nat) (rest : List Nat), ks.drop i = k :: rest →
        ∀ fuel, t.size ≤ fuel →
          ∃ ex, runLoop (searchBody ks ks.length ix) fuel ⟨(t.addr : Int), th, i⟩ = some ex ∧
            SearchOk ix t (k :: rest) ex := by
  intro t
  induction t with
  | S p c e =>
    intro th h ha hnd hth i k rest hk fuel hf
    have hc := ha.S
    simp only [Trie.size] at hf
    by_cases hkc : k = c ∧ rest = []
    · refine ⟨SearchExit.found (p : Int) th, runLoop_exit' _ _ _ _ ?_ (by omega), ?_⟩
      · simp only [Trie.Laid] at h
        simp [searchBody, natCast_ne_null, h, sliceOne_drop hk, byteToString_ascii hc, hkc.1,
          last_iff_of_drop hk, hkc.2, Trie.addr]
      · intro fuelT hT
        have := traverse_to_thread ix _ th h hth [] fuelT (by simp only [Trie.size] at hT ⊢; omega)
        simpa [traverseAndCollect, Trie.seek, hkc, Trie.elems, Trie.addr] using this
    · refine ⟨SearchExit.notFound, runLoop_exit' _ _ _ _ ?_ (by omega), ?_⟩
      · simp only [Trie.Laid] at h
        by_cases h1 : k = c
        · have h2 : rest ≠ [] := fun h2 => hkc ⟨h1, h2⟩
          simp [searchBody, natCast_ne_null, h, sliceOne_drop hk, byteToString_ascii hc, h1,
            last_iff_of_drop hk, h2, Trie.addr]
        · simp [searchBody, natCast_ne_null, h, sliceOne_drop hk, byteToString_ascii hc, h1,
            Trie.addr]
      · simp [SearchOk, Trie.seek, hkc]
  | R p c e n ih =>
    intro th h ha hnd hth i k rest hk fuel hf
    obtain ⟨hc, han⟩ := ha.R
    simp only [Trie.size] at hf
    by_cases hkc : k = c
    · by_cases hr : rest = []
      · refine ⟨SearchExit.found (p : Int) th, runLoop_exit' _ _ _ _ ?_ (by omega), ?_⟩
        · simp only [Trie.Laid] at h
          simp [searchBody, natCast_ne_null, h.1, sliceOne_drop hk, byteToString_ascii hc, hkc,
            last_iff_of_drop hk, hr, Trie.addr]
        · intro fuelT hT
          have := traverse_to_thread ix _ th h hth [] fuelT (by simp only [Trie.size] at hT ⊢; omega)
          simpa [traverseAndCollect, Trie.seek, hkc, hr, Trie.elems, Trie.addr] using this
      · obtain ⟨k2, rest2, hr2⟩ : ∃ k2 rest2, rest = k2 :: rest2 := by
          cases rest with
          | nil => exact absurd rfl hr
          | cons a b => exact ⟨a, b, rfl⟩
        obtain ⟨m, rfl⟩ : ∃ m, fuel = m + 1 := ⟨fuel - 1, by omega⟩
        simp only [Trie.Laid] at h
        have hk2 : ks.drop (i + 1) = k2 :: rest2 := by rw [drop_succ_of_drop hk, hr2]
        obtain ⟨ex, hex, hok⟩ := ih th h.2 han (by simp [Trie.addrs] at hnd; exact hnd.2)
          (fun a ha' => hth a (by simp [Trie.addrs, ha'])) (i + 1) k2 rest2 hk2 m (by omega)
        refine ⟨ex, ?_, ?_⟩
        · rw [runLoop_next _ _ _ ⟨(n.addr : Int), th, i + 1⟩
            (by simp [searchBody, natCast_ne_null, h.1, sliceOne_drop hk, byteToString_ascii hc,
              hkc, last_iff_of_drop hk, hr, Trie.addr])]
          exact hex
        · cases ex with
          | notFound => simpa [SearchOk, Trie.seek, hkc, hr2] using hok
          | found s e' =>
            intro fuelT hT
            have := hok fuelT (by simp [Trie.size] at hT; omega)
            simpa [Trie.seek, hkc, hr2] using this
    · refine ⟨SearchExit.notFound, runLoop_exit' _ _ _ _ ?_ (by omega), ?_⟩
      · simp only [Trie.Laid] at h
        simp [searchBody, natCast_ne_null, h.1, sliceOne_drop hk, byteToString_ascii hc, hkc,
          Trie.addr]
      · simp [SearchOk, Trie.seek, hkc]
  | X p c n ih =>
    intro th h ha hnd hth i k rest hk fuel hf
    obtain ⟨hc, han⟩ := ha.X
    simp only [Trie.size] at hf
    simp only [Trie.Laid] at h
    by_cases hkc : k = c
    · by_cases hr : rest = []
      · refine ⟨SearchExit.found (n.addr : Int) th, runLoop_exit' _ _ _ _ ?_ (by omega), ?_⟩
        · simp [searchBody, natCast_ne_null, h.1, sliceOne_drop hk, byteToString_ascii hc, hkc,
            last_iff_of_drop hk, hr, Trie.addr]
        · intro fuelT hT
          have := traverse_to_thread ix n th h.2 (fun a ha' => hth a (by simp [Trie.addrs, ha']))
            [] fuelT (by simp [Trie.size] at hT; omega)
          simpa [traverseAndCollect, Trie.seek, hkc, hr, Trie.elems, Trie.addr] using this
      · obtain ⟨k2, rest2, hr2⟩ : ∃ k2 rest2, rest = k2 :: rest2 := by
          cases rest with
          | nil => exact absurd rfl hr
          | cons a b => exact ⟨a, b, rfl⟩
        obtain ⟨m, rfl⟩ : ∃ m, fuel = m + 1 := ⟨fuel - 1, by omega⟩
        have hk2 : ks.drop (i + 1) = k2 :: rest2 := by rw [drop_succ_of_drop hk, hr2]
        obtain ⟨ex, hex, hok⟩ := ih th h.2 han (by simp [Trie.addrs] at hnd; exact hnd.2)
          (fun a ha' => hth a (by simp [Trie.addrs, ha'])) (i + 1) k2 rest2 hk2 m (by omega)
        refine ⟨ex, ?_, ?_⟩
        · rw [runLoop_next _ _ _ ⟨(n.addr : Int), th, i + 1⟩
            (by simp [searchBody, natCast_ne_null, h.1, sliceOne_drop hk, byteToString_ascii hc,
              hkc, last_iff_of_drop hk, hr, Trie.addr])]
          exact hex
        · cases ex with
          | notFound => simpa [SearchOk, Trie.seek, hkc, hr2] using hok
          | found s e' =>
            intro fuelT hT
            have := hok fuelT (by simp [Trie.size] at hT; omega)
            simpa [Trie.seek, hkc, hr2] using this
    · refine ⟨SearchExit.notFound, runLoop_exit' _ _ _ _ ?_ (by omega), ?_⟩
      · simp [searchBody, natCast_ne_null, h.1, sliceOne_drop hk, byteToString_ascii hc, hkc,
          Trie.addr]
      · simp [SearchOk, Trie.seek, hkc]
  | D p c l r ihl ihr =>
    intro th h ha hnd hth i k rest hk fuel hf
    obtain ⟨hc, hal, har⟩ := ha.D
    simp only [Trie.size] at hf
    simp only [Trie.Laid] at h
    have hnd' : p ∉ l.addrs ∧ l.addrs.Nodup ∧ r.addrs.Nodup := by
      simp [Trie.addrs, List.nodup_append] at hnd; exact ⟨hnd.1.1, hnd.2.1, hnd.2.2.1⟩
    obtain ⟨m, rfl⟩ : ∃ m, fuel = m + 1 := ⟨fuel - 1, by omega⟩
    by_cases hkc : k ≤ c
    · obtain ⟨ex, hex, hok⟩ := ihl _ h.2.1 hal hnd'.2.1
        (fun a ha' hc' => hnd'.1 (by have : a = p := by exact_mod_cast hc'
                                     rw [← this]; exact ha')) i k rest hk m (by omega)
      refine ⟨ex, ?_, ?_⟩
      · rw [runLoop_next _ _ _ ⟨(l.addr : Int), (p : Int), i⟩
          (by simp [searchBody, natCast_ne_null, h.1, sliceOne_drop hk, byteToString_ascii hc,
            hkc, strLe_single, Trie.addr])]
        exact hex
      · cases ex with
        | notFound => simpa [SearchOk, Trie.seek, hkc] using hok
        | found s e' =>
          intro fuelT hT
          have := hok fuelT (by simp [Trie.size] at hT; omega)
          simpa [Trie.seek, hkc] using this
    · obtain ⟨ex, hex, hok⟩ := ihr _ h.2.2 har hnd'.2.2
        (fun a ha' => hth a (by simp [Trie.addrs, ha'])) i k rest hk m (by omega)
      refine ⟨ex, ?_, ?_⟩
      · rw [runLoop_next _ _ _ ⟨(r.addr : Int), th, i⟩
          (by simp [searchBody, natCast_ne_null, h.1, sliceOne_drop hk, byteToString_ascii hc,
            hkc, strLe_single, Trie.addr])]
        exact hex
      · cases ex with
        | notFound => simpa [SearchOk, Trie.seek, hkc] using hok
        | found s e' =>
          intro fuelT hT
          have := hok fuelT (by simp [Trie.size] at hT; omega)
          simpa [Trie.seek, hkc] using this
  | L p c sub ih =>
    intro th h ha hnd hth i k rest hk fuel hf
    obtain ⟨hc, has⟩ := ha.L
    simp only [Trie.size] at hf
    simp only [Trie.Laid] at h
    by_cases hkc : k = c ∧ rest = []
    · refine ⟨SearchExit.found (sub.addr : Int) th, runLoop_exit' _ _ _ _ ?_ (by omega), ?_⟩
      · simp [searchBody, natCast_ne_null, h.1, sliceOne_drop hk, byteToString_ascii hc, hkc.1,
          last_iff_of_drop hk, hkc.2, Trie.addr]
      · intro fuelT hT
        simp only [Trie.size] at hT
        have hpth : (p : Int) ≠ th := hth p (by simp [Trie.addrs])
        have h0 : runLoop (traverseBody th ix) 2 ⟨right, (p : Int), [] ++ sub.elems⟩
            = some sub.elems := by
          apply runLoop_step _ _ ⟨right, th, sub.elems⟩ _ 1 2
            (by simp [traverseBody, hpth, natCast_ne_null, h.1]) _ (by omega)
          exact runLoop_exit' _ _ _ _ (by simp [traverseBody]) (by omega)
        have h1 := traverse_tree ix th sub (p : Int) h.2
          (fun a ha' => hth a (by simp [Trie.addrs, ha'])) [] 2 _ h0
        have h2 := runLoop_mono _ _ _ _ h1 fuelT (by omega)
        simpa [traverseAndCollect, Trie.seek, hkc] using h2
    · refine ⟨SearchExit.notFound, runLoop_exit' _ _ _ _ ?_ (by omega), ?_⟩
      · by_cases h1 : k = c
        · have h2 : rest ≠ [] := fun h2 => hkc ⟨h1, h2⟩
          simp [searchBody, natCast_ne_null, h.1, sliceOne_drop hk, byteToString_ascii hc, h1,
            last_iff_of_drop hk, h2, Trie.addr]
        · simp [searchBody, natCast_ne_null, h.1, sliceOne_drop hk, byteToString_ascii hc, h1,
            Trie.addr]
      · simp [SearchOk, Trie.seek, hkc]
  | K p c sub n ihs ihn =>
    intro th h ha hnd hth i k rest hk fuel hf
    obtain ⟨hc, has, han⟩ := ha.K
    simp only [Trie.size] at hf
    simp only [Trie.Laid] at h
    have hnd' : n.addrs.Nodup := by
      simp [Trie.addrs, List.nodup_append] at hnd; exact hnd.2.2.1
    by_cases hkc : k = c
    · by_cases hr : rest = []
      · refine ⟨SearchExit.found (sub.addr : Int) th, runLoop_exit' _ _ _ _ ?_ (by omega), ?_⟩
        · simp [searchBody, natCast_ne_null, h.1, sliceOne_drop hk, byteToString_ascii hc, hkc,
            last_iff_of_drop hk, hr, Trie.addr]
        · intro fuelT hT
          simp only [Trie.size] at hT
          have hpth : (p : Int) ≠ th := hth p (by simp [Trie.addrs])
          have h0 := traverse_to_thread ix n th h.2.2
            (fun a ha' => hth a (by simp [Trie.addrs, ha'])) ([] ++ sub.elems)
            (2 * n.size + 1) (by omega)
          have h0' : runLoop (traverseBody th ix) (2 * n.size + 2)
              ⟨right, (p : Int), [] ++ sub.elems⟩ = some ([] ++ sub.elems ++ n.elems) :=
            runLoop_step _ _ _ _ _ _ (by simp [traverseBody, hpth, natCast_ne_null, h.1]) h0
              (by omega)
          have h1 := traverse_tree ix th sub (p : Int) h.2.1
            (fun a ha' => hth a (by simp [Trie.addrs, ha'])) [] _ _ h0'
          have h2 := runLoop_mono _ _ _ _ h1 fuelT (by omega)
          simpa [traverseAndCollect, Trie.seek, hkc, hr] using h2
      · obtain ⟨k2, rest2, hr2⟩ : ∃ k2 rest2, rest = k2 :: rest2 := by
          cases rest with
          | nil => exact absurd rfl hr
          | cons a b => exact ⟨a, b, rfl⟩
        obtain ⟨m, rfl⟩ : ∃ m, fuel = m + 1 := ⟨fuel - 1, by omega⟩
        have hk2 : ks.drop (i + 1) = k2 :: rest2 := by rw [drop_succ_of_drop hk, hr2]
        obtain ⟨ex, hex, hok⟩ := ihn th h.2.2 han hnd'
          (fun a ha' => hth a (by simp [Trie.addrs, ha'])) (i + 1) k2 rest2 hk2 m (by omega)
        refine ⟨ex, ?_, ?_⟩
        · rw [runLoop_next _ _ _ ⟨(n.addr : Int), th, i + 1⟩
            (by simp [searchBody, natCast_ne_null, h.1, sliceOne_drop hk, byteToString_ascii hc,
              hkc, last_iff_of_drop hk, hr, Trie.addr])]
          exact hex
        · cases ex with
          | notFound => simpa [SearchOk, Trie.seek, hkc, hr2] using hok
          | found s e' =>
            intro fuelT hT
            have := hok fuelT (by simp [Trie.size] at hT; omega)
            simpa [Trie.seek, hkc, hr2] using this
    · refine ⟨SearchExit.notFound, runLoop_exit' _ _ _ _ ?_ (by omega), ?_⟩
      · simp [searchBody, natCast_ne_null, h.1, sliceOne_drop hk, byteToString_ascii hc, hkc,
          Trie.addr]
      · simp [SearchOk, Trie.seek, hkc]

/-! ## Paths: putting the subtree back -/

theorem Frame.addr_fill (f : Frame) (t : Trie) : (f.fill t).addr = f.addr := by
  cases f <;> rfl

theorem Frame.laid_fill (ns : List indexNode) (f : Frame) (t : Trie) (th : Int) :
    Trie.Laid ns (f.fill t) th ↔ f.Laid ns th (t.addr : Int) ∧ Trie.Laid ns t (f.thread th) := by
  cases f <;> simp [Frame.fill, Frame.Laid, Frame.thread, Trie.Laid] <;> tauto

theorem Path.laid_plug (ns : List indexNode) :
    ∀ (ctx : Path) (t : Trie) (th0 : Int),
      Trie.Laid ns (Path.plug ctx t) th0 ↔
        Path.Laid ns ctx th0 (t.addr : Int) ∧ Trie.Laid ns t (Path.thread ctx th0) := by
  intro ctx
  induction ctx with
  | nil => intro t th0; simp [Path.plug, Path.Laid, Path.thread]
  | cons f ctx ih =>
    intro t th0
    simp only [Path.plug, Path.Laid, Path.thread]
    rw [ih, Frame.laid_fill, Frame.addr_fill]
    tauto

theorem Frame.addrs_fill (f : Frame) (t : Trie) : (f.fill t).addrs.Perm (f.addrs ++ t.addrs) := by
  cases f with
  | Rf p c e => simp [Frame.fill, Frame.addrs, Trie.addrs]
  | Xf p c => simp [Frame.fill, Frame.addrs, Trie.addrs]
  | Kf p c sub => simp [Frame.fill, Frame.addrs, Trie.addrs]
  | Ks p c n =>
    simp only [Frame.fill, Frame.addrs, Trie.addrs, List.cons_append]
    exact List.Perm.cons _ List.perm_append_comm
  | Ls p c => simp [Frame.fill, Frame.addrs, Trie.addrs]
  | Dl p c r =>
    simp only [Frame.fill, Frame.addrs, Trie.addrs, List.cons_append]
    exact List.Perm.cons _ List.perm_append_comm
  | Dr p c l => simp [Frame.fill, Frame.addrs, Trie.addrs]

theorem Path.addrs_plug :
    ∀ (ctx : Path) (t : Trie), (Path.plug ctx t).addrs.Perm (Path.addrs ctx ++ t.addrs) := by
  intro ctx
  induction ctx with
  | nil => intro t; simp [Path.plug, Path.addrs]
  | cons f ctx ih =>
    intro t
    simp only [Path.plug, Path.addrs]
    refine (ih (f.fill t)).trans ?_
    refine ((Frame.addrs_fill f t).append_left (Path.addrs ctx)).trans ?_
    rw [← List.append_assoc]
    exact List.Perm.append_right _ List.perm_append_comm

theorem Path.addr_plug : ∀ (ctx : Path) (t : Trie), (Path.plug ctx t).addr = Path.rootAddr ctx t.addr := by
  intro ctx
  induction ctx with
  | nil => intro t; rfl
  | cons f ctx ih => intro t; simp [Path.plug, Path.rootAddr, ih, Frame.addr_fill]

theorem Path.rootAddr_cons (f : Frame) (ctx : Path) (a b : Nat) :
    Path.rootAddr (f :: ctx) a = Path.rootAddr (f :: ctx) b := rfl

/-! ### Frame property of paths -/

theorem Frame.Laid.frame_frame {ns ns' : List indexNode} (f : Frame) (th a : Int)
    (h : f.Laid ns th a) (hf : ∀ b ∈ f.addrs, ns'[b]? = ns[b]?) : f.Laid ns' th a := by
  cases f with
  | Rf p c e => simp only [Frame.Laid] at h ⊢; rw [hf p (by simp [Frame.addrs])]; exact h
  | Xf p c => simp only [Frame.Laid] at h ⊢; rw [hf p (by simp [Frame.addrs])]; exact h
  | Kf p c sub =>
    simp only [Frame.Laid] at h ⊢
    rw [hf p (by simp [Frame.addrs])]
    exact ⟨h.1, Trie.Laid.frame sub _ h.2 (fun b hb => hf b (by simp [Frame.addrs, hb]))⟩
  | Ks p c n =>
    simp only [Frame.Laid] at h ⊢
    rw [hf p (by simp [Frame.addrs])]
    exact ⟨h.1, Trie.Laid.frame n _ h.2 (fun b hb => hf b (by simp [Frame.addrs, hb]))⟩
  | Ls p c => simp only [Frame.Laid] at h ⊢; rw [hf p (by simp [Frame.addrs])]; exact h
  | Dl p c r =>
    simp only [Frame.Laid] at h ⊢
    rw [hf p (by simp [Frame.addrs])]
    exact ⟨h.1, Trie.Laid.frame r _ h.2 (fun b hb => hf b (by simp [Frame.addrs, hb]))⟩
  | Dr p c l =>
    simp only [Frame.Laid] at h ⊢
    rw [hf p (by simp [Frame.addrs])]
    exact ⟨h.1, Trie.Laid.frame l _ h.2 (fun b hb => hf b (by simp [Frame.addrs, hb]))⟩

theorem Path.Laid.frame_path {ns ns' : List indexNode} :
    ∀ (ctx : Path) (th0 a : Int), Path.Laid ns ctx th0 a →
      (∀ b ∈ Path.addrs ctx, ns'[b]? = ns[b]?) → Path.Laid ns' ctx th0 a := by
  intro ctx
  induction ctx with
  | nil => intro th0 a _ _; trivial
  | cons f ctx ih =>
    intro th0 a h hf
    simp only [Path.Laid] at h ⊢
    exact ⟨Frame.Laid.frame_frame f _ _ h.1 (fun b hb => hf b (by simp [Path.addrs, hb])),
      ih th0 _ h.2 (fun b hb => hf b (by simp [Path.addrs, hb]))⟩

/-! ## The free list -/

theorem FreeList.frame_free {ns ns' : List indexNode} :
    ∀ (fl : List Nat) (h : Int), FreeList ns h fl → (∀ a ∈ fl, ns'[a]? = ns[a]?) →
      FreeList ns' h fl := by
  intro fl
  induction fl with
  | nil => intro h hf _; exact hf
  | cons a fl ih =>
    intro h hf hfr
    obtain ⟨h1, nd, h2, h3⟩ := hf
    refine ⟨h1, nd, ?_, ih _ h3 (fun b hb => hfr b (by simp [hb]))⟩
    rw [hfr a (by simp)]; exact h2

theorem FreeList.lt_length_free {ns : List indexNode} :
    ∀ (fl : List Nat) (h : Int), FreeList ns h fl → ∀ a ∈ fl, a < ns.length := by
  intro fl
  induction fl with
  | nil => intro h _ a ha; cases ha
  | cons b fl ih =>
    intro h hf a ha
    obtain ⟨_, nd, h2, h3⟩ := hf
    rcases List.mem_cons.mp ha with rfl | ha
    · exact lt_length_of_getElem? h2
    · exact ih _ h3 a ha

theorem getElem?_append_one_lt (ns : List indexNode) (nd : indexNode) (b : Nat)
    (h : b < ns.length) : (ns ++ [nd])[b]? = ns[b]? := by
  rw [List.getElem?_append_left h]

theorem getElem?_append_one_self (ns : List indexNode) (nd : indexNode) :
    (ns ++ [nd])[ns.length]? = some nd := by
  simp

/-! ## Chains -/

theorem Trie.IsChain.ne_nil {t : Trie} {ks : List Nat} {e : Int} (h : t.IsChain ks e) :
    ks ≠ [] := by
  intro hk; subst hk
  cases t <;> simp [Trie.IsChain] at h

theorem Trie.IsChain.X_cons {a c : Nat} {t : Trie} {ks : List Nat} {e : Int}
    (h : t.IsChain ks e) : (Trie.X a c t).IsChain (c :: ks) e := by
  cases ks with
  | nil => exact absurd rfl h.ne_nil
  | cons k2 ks => exact ⟨rfl, h⟩

/-! ## `extend` -/

theorem Taken.none (len : Nat) (fl : List Nat) : Taken len len fl fl :=
  ⟨0, by simp, by simp⟩

theorem Taken.one_new (len : Nat) : Taken len (len + 1) [] [] :=
  ⟨1, by simp, by simp⟩

theorem Taken.one_free (len : Nat) (a : Nat) (fl : List Nat) : Taken len len (a :: fl) fl :=
  ⟨1, by simp, by simp⟩

theorem Taken.then {len len1 len2 : Nat} {fl fl1 fl2 : List Nat} (h1 : Taken len len1 fl fl1)
    (h2 : Taken len1 len2 fl1 fl2) : Taken len len2 fl fl2 := by
  obtain ⟨n1, ha, hb⟩ := h1
  obtain ⟨n2, hc, hd⟩ := h2
  refine ⟨n1 + n2, ?_, ?_⟩
  · rw [hc, ha, List.drop_drop]
  · rw [hd, hb, ha, List.length_drop]
    omega

theorem extendLoop_chain (ks : List Nat) (e : Int) (next : Int) :
    ∀ (i : Nat) (ix : Index) (fl : List Nat) (sofar : Trie), i < ks.length →
      FreeList ix.node ix.deletedRootPointer fl → fl.Nodup →
      (∀ a ∈ sofar.addrs, a < ix.node.length ∧ a ∉ fl) →
      Trie.Laid ix.node sofar next → sofar.IsChain (ks.drop i) e →
      ∃ res ix' fl', extendLoop ks e i (sofar.addr : Int) ix = some ((res.addr : Int), ix') ∧
        res.IsChain ks e ∧ Extended ix ix' fl fl' sofar.addrs res next := by
  intro i
  induction i with
  | zero =>
    intro ix fl sofar _ hfl hnd hso hl hc
    refine ⟨sofar, ix, fl, by simp [extendLoop], by simpa using hc, ?_⟩
    exact ⟨hl, hfl, hnd, by simp, le_refl _, fun _ _ _ => rfl, rfl, rfl, Taken.none _ _⟩
  | succ i ih =>
    intro ix fl sofar hi hfl hnd hso hl hc
    have hne : ¬ (i + 1 = ks.length) := by omega
    have hdrop : ks.drop i = ks.getD i 0 :: ks.drop (i + 1) := by
      have hi' : i < ks.length := by omega
      rw [List.drop_eq_getElem_cons hi']
      simp [List.getD, List.getElem?_eq_getElem hi']
    cases fl with
    | nil =>
      have hfree : ix.deletedRootPointer = nullIndexPointer := hfl
      have hso' : ∀ a ∈ sofar.addrs, a < ix.node.length := fun a ha => (hso a ha).1
      let nd : indexNode := ⟨characterNode, nullIndexPointer, ks.getD i 0, (sofar.addr : Int)⟩
      let ix1 : Index := { ix with node := ix.node ++ [nd] }
      let t1 : Trie := Trie.X ix.node.length (ks.getD i 0) sofar
      have hl1 : Trie.Laid ix1.node t1 next := by
        refine ⟨getElem?_append_one_self _ _, ?_⟩
        exact Trie.Laid.frame sofar next hl
          (fun a ha => getElem?_append_one_lt _ _ _ (hso' a ha))
      have hfl1 : FreeList ix1.node ix1.deletedRootPointer [] := hfree
      obtain ⟨res, ix', fl', hrun, hch, hex⟩ := ih ix1 [] t1 (by omega) hfl1 List.nodup_nil
        (by
          intro a ha
          simp only [t1, Trie.addrs, List.mem_cons] at ha
          refine ⟨?_, by simp⟩
          rcases ha with rfl | ha
          · simp [ix1]
          · have := hso' a ha; simp [ix1]; omega)
        hl1 (by rw [hdrop]; exact hc.X_cons)
      refine ⟨res, ix', fl', ?_, hch, ?_⟩
      · have hstep : extendLoop ks e (i + 1) (sofar.addr : Int) ix =
            extendLoop ks e i (ix.node.length : Int) ix1 := by
          simp only [extendLoop, hne, if_false]
          rw [if_pos hfree]
        rw [hstep]; exact hrun
      · have hlen1 : ix1.node.length = ix.node.length + 1 := by simp [ix1]
        refine ⟨hex.laid, hex.free, hex.nodup, ?_, by have := hex.len; omega, ?_, hex.root,
          hex.count, Taken.then (show Taken ix.node.length ix1.node.length [] [] by
            rw [hlen1]; exact Taken.one_new _) hex.taken⟩
        · refine hex.perm.trans ?_
          have hle := hex.len
          rw [hlen1] at hle ⊢
          have : ix'.node.length - ix.node.length = (ix'.node.length - (ix.node.length + 1)) + 1 := by
            omega
          rw [this, List.range'_succ]
          simp only [t1, Trie.addrs, List.append_nil, List.cons_append]
          exact List.perm_middle.symm
        · intro b hb hbf
          rw [hex.frame b (by omega) (by simp)]
          exact getElem?_append_one_lt _ _ _ hb
    | cons a fl1 =>
      obtain ⟨hhead, old, hold, hrest⟩ := hfl
      have ha_lt : a < ix.node.length := lt_length_of_getElem? hold
      have hnd1 : a ∉ fl1 ∧ fl1.Nodup := List.nodup_cons.mp hnd
      let nd : indexNode := ⟨characterNode, nullIndexPointer, ks.getD i 0, (sofar.addr : Int)⟩
      let ix1 : Index :=
        { ix with node := ix.node.set a nd, deletedRootPointer := old.rightPointer }
      let t1 : Trie := Trie.X a (ks.getD i 0) sofar
      have ha_so : a ∉ sofar.addrs := fun h => (hso a h).2 (by simp)
      have hl1 : Trie.Laid ix1.node t1 next := by
        refine ⟨getElem?_set_self' _ _ _ ha_lt, ?_⟩
        exact Trie.Laid.frame sofar next hl
          (fun b hb => getElem?_set_other _ _ _ _ (fun h => ha_so (h ▸ hb)))
      have hfl1 : FreeList ix1.node ix1.deletedRootPointer fl1 :=
        FreeList.frame_free fl1 _ hrest
          (fun b hb => getElem?_set_other _ _ _ _ (fun h => hnd1.1 (h ▸ hb)))
      obtain ⟨res, ix', fl', hrun, hch, hex⟩ := ih ix1 fl1 t1 (by omega) hfl1 hnd1.2
        (by
          intro b hb
          simp only [t1, Trie.addrs, List.mem_cons] at hb
          rcases hb with rfl | hb
          · exact ⟨by simp [ix1]; exact ha_lt, hnd1.1⟩
          · exact ⟨by simp [ix1]; exact (hso b hb).1, fun h => (hso b hb).2 (by simp [h])⟩)
        hl1 (by rw [hdrop]; exact hc.X_cons)
      refine ⟨res, ix', fl', ?_, hch, ?_⟩
      · have hne2 : ix.deletedRootPointer ≠ nullIndexPointer := by
          rw [hhead]; exact natCast_ne_null a
        have hstep : extendLoop ks e (i + 1) (sofar.addr : Int) ix =
            extendLoop ks e i (a : Int) ix1 := by
          simp only [extendLoop, hne, if_false]
          rw [if_neg hne2, hhead]
          simp only [getNode_natCast, hold, setNode_natCast _ _ _ ha_lt]
        rw [hstep]; exact hrun
      · have hlen1 : ix1.node.length = ix.node.length := by simp [ix1]
        refine ⟨hex.laid, hex.free, hex.nodup, ?_, by have := hex.len; omega, ?_, hex.root,
          hex.count, Taken.then (show Taken ix.node.length ix1.node.length (a :: fl1) fl1 by
            rw [hlen1]; exact Taken.one_free _ _ _) hex.taken⟩
        · refine hex.perm.trans ?_
          rw [hlen1]
          simp only [t1, Trie.addrs, List.cons_append, List.append_assoc]
          refine List.Perm.trans ?_ (List.perm_middle (a := a)).symm
          exact List.Perm.refl _
        · intro b hb hbf
          have hba : a ≠ b := fun h => hbf (by simp [h])
          rw [hex.frame b (by omega) (fun h => hbf (by simp [h]))]
          exact getElem?_set_other _ _ _ _ hba

theorem range'_split (a b c : Nat) (h1 : a ≤ b) (h2 : b ≤ c) :
    List.range' a (c - a) = List.range' a (b - a) ++ List.range' b (c - b) := by
  obtain ⟨m, rfl⟩ : ∃ m, b = a + m := ⟨b - a, by omega⟩
  obtain ⟨n, rfl⟩ : ∃ n, c = a + m + n := ⟨c - (a + m), by omega⟩
  rw [show a + m + n - a = n + m by omega, show a + m - a = m by omega,
    show a + m + n - (a + m) = n by omega, List.range'_append_1]

theorem allocNode_spec (nd : indexNode) (ix : Index) (fl : List Nat)
    (hfl : FreeList ix.node ix.deletedRootPointer fl) (hnd : fl.Nodup) :
    ∃ (a : Nat) (ix1 : Index) (fl1 : List Nat),
      allocNode nd ix = some ((a : Int), ix1) ∧ Allocated ix ix1 fl fl1 a nd := by
  cases fl with
  | nil =>
    have hfree : ix.deletedRootPointer = nullIndexPointer := hfl
    refine ⟨ix.node.length, { ix with node := ix.node ++ [nd] }, [], ?_, ?_⟩
    · simp only [allocNode]; rw [if_pos hfree]
    · refine ⟨getElem?_append_one_self _ _, hfree, List.nodup_nil, by simp, ?_, by simp,
        fun b hb _ => getElem?_append_one_lt _ _ _ hb, fun b hb _ => by omega, rfl, rfl,
        by simpa using Taken.one_new ix.node.length⟩
      simp
  | cons a fl1 =>
    obtain ⟨hhead, old, hold, hrest⟩ := hfl
    have ha_lt : a < ix.node.length := lt_length_of_getElem? hold
    have hnd1 : a ∉ fl1 ∧ fl1.Nodup := List.nodup_cons.mp hnd
    have hne2 : ix.deletedRootPointer ≠ nullIndexPointer := by
      rw [hhead]; exact natCast_ne_null a
    refine ⟨a, { ix with node := ix.node.set a nd, deletedRootPointer := old.rightPointer },
      fl1, ?_, ?_⟩
    · simp only [allocNode]
      rw [if_neg hne2, hhead]
      simp only [getNode_natCast, hold, setNode_natCast _ _ _ ha_lt]
    · refine ⟨getElem?_set_self' _ _ _ ha_lt, ?_, hnd1.2, hnd1.1, by simp, by simp, ?_, ?_,
        rfl, rfl, by simpa using Taken.one_free ix.node.length a fl1⟩
      · exact FreeList.frame_free fl1 _ hrest
          (fun b hb => getElem?_set_other _ _ _ _ (fun h => hnd1.1 (h ▸ hb)))
      · intro b _ hbf
        exact getElem?_set_other _ _ _ _ (fun h => hbf (by simp [h]))
      · intro b _ hbf h
        exact hbf (by simp [h])

theorem extendLoop_succ (ks : List Nat) (e : Int) (i : Nat) (ext : Int) (ix : Index) :
    extendLoop ks e (i + 1) ext ix =
      match allocNode (if i + 1 = ks.length then
          ⟨indexTerminalNode, e, ks.getD i 0, ext⟩
        else ⟨characterNode, nullIndexPointer, ks.getD i 0, ext⟩) ix with
      | none => none
      | some (a, ix1) => extendLoop ks e i a ix1 := by
  simp only [extendLoop, allocNode]
  split
  · rfl
  · cases getNode ix.node ix.deletedRootPointer with
    | none => rfl
    | some old =>
      simp only []
      cases setNode ix.node ix.deletedRootPointer _ with
      | none => rfl
      | some ns => rfl

theorem extend_spec (ks : List Nat) (e : Int) (next : Int) (ix : Index) (fl : List Nat)
    (hks : ks ≠ []) (hfl : FreeList ix.node ix.deletedRootPointer fl) (hnd : fl.Nodup) :
    ∃ res ix' fl', extend ks e next ix = some ((res.addr : Int), ix') ∧
      res.IsChain ks e ∧ Extended ix ix' fl fl' [] res next := by
  obtain ⟨m, hm⟩ : ∃ m, ks.length = m + 1 :=
    ⟨ks.length - 1, by have := List.length_pos.mpr hks; omega⟩
  obtain ⟨a, ix1, fl1, halloc, hA⟩ :=
    allocNode_spec ⟨indexTerminalNode, e, ks.getD m 0, next⟩ ix fl hfl hnd
  have hdrop : ks.drop m = [ks.getD m 0] := by
    have hi' : m < ks.length := by omega
    rw [List.drop_eq_getElem_cons hi']
    simp [List.getD, List.getElem?_eq_getElem hi', List.drop_eq_nil_of_le, hm]
  have ha_lt : a < ix1.node.length := lt_length_of_getElem? hA.node
  obtain ⟨res, ix', fl', hrun, hch, hex⟩ := extendLoop_chain ks e next m ix1 fl1
    (Trie.S a (ks.getD m 0) e) (by omega) hA.free hA.nodup
    (by intro b hb
        simp only [Trie.addrs, List.mem_singleton] at hb
        subst hb; exact ⟨ha_lt, hA.fresh⟩)
    hA.node (by rw [hdrop]; exact ⟨rfl, rfl⟩)
  refine ⟨res, ix', fl', ?_, hch, ?_⟩
  · simp only [extend, hm]
    rw [extendLoop_succ, if_pos hm.symm, halloc]
    exact hrun
  · refine ⟨hex.laid, hex.free, hex.nodup, ?_, le_trans hA.len hex.len, ?_,
      hex.root.trans hA.root, hex.count.trans hA.count, hA.taken.then hex.taken⟩
    · refine hex.perm.trans ?_
      simp only [Trie.addrs, List.nil_append, List.singleton_append]
      have h1 := hA.perm
      have hl1 := hA.len
      have hl2 := hex.len
      have hsplit : List.range' ix.node.length (ix'.node.length - ix.node.length) =
          List.range' ix.node.length (ix1.node.length - ix.node.length) ++
            List.range' ix1.node.length (ix'.node.length - ix1.node.length) := by
        exact range'_split _ _ _ hl1 hl2
      rw [hsplit, ← List.append_assoc]
      exact List.Perm.append_right _ h1
    · intro b hb hbf
      rw [hex.frame b (by have := hA.len; omega) ?_]
      · exact hA.frame b hb hbf
      · intro hb1
        have : b ∈ a :: fl1 := List.mem_cons_of_mem _ hb1
        have h2 := (hA.perm.mem_iff).mp this
        rcases List.mem_append.mp h2 with h3 | h3
        · exact hbf h3
        · have := (List.mem_range'_1.mp h3).1; omega

/-! ## Decimal rendering -/

theorem digitsValue_append_one (ds : List Nat) (d : Nat) :
    digitsValue (ds ++ [d]) = 10 * digitsValue ds + (d - 48) := by
  simp [digitsValue, List.foldl_append]

theorem natDigits_spec : ∀ (fuel n : Nat) (acc : List Nat), n < fuel →
    ∃ ds, natDigits fuel n acc = ds ++ acc ∧ ds ≠ [] ∧ (∀ d ∈ ds, 48 ≤ d ∧ d ≤ 57) ∧
      digitsValue ds = n := by
  intro fuel
  induction fuel with
  | zero => intro n acc h; omega
  | succ fuel ih =>
    intro n acc h
    by_cases hn : n < 10
    · refine ⟨[48 + n], by simp [natDigits, hn], by simp, ?_, ?_⟩
      · intro d hd; simp at hd; omega
      · simp [digitsValue]
    · obtain ⟨ds, h1, h2, h3, h4⟩ := ih (n / 10) ((48 + n % 10) :: acc) (by omega)
      refine ⟨ds ++ [48 + n % 10], by simp [natDigits, hn, h1], by simp, ?_, ?_⟩
      · intro d hd
        rcases List.mem_append.mp hd with hd | hd
        · exact h3 d hd
        · simp at hd; omega
      · rw [digitsValue_append_one, h4]; omega

theorem itoa_cases (e : Int) :
    ∃ ds, ds ≠ [] ∧ (∀ d ∈ ds, 48 ≤ d ∧ d ≤ 57) ∧ digitsValue ds = e.natAbs ∧
      itoa e = if e < 0 then 45 :: ds else ds := by
  obtain ⟨ds, h1, h2, h3, h4⟩ := natDigits_spec (e.natAbs + 1) e.natAbs [] (by omega)
  refine ⟨ds, h2, h3, h4, ?_⟩
  simp only [itoa, h1, List.append_nil]

theorem itoa_ne_nil (e : Int) : itoa e ≠ [] := by
  obtain ⟨ds, h1, _, _, h4⟩ := itoa_cases e
  rw [h4]; split
  · simp
  · exact h1

theorem itoa_ascii (e : Int) : ∀ b ∈ itoa e, b < 128 := by
  obtain ⟨ds, _, h2, _, h4⟩ := itoa_cases e
  rw [h4]
  intro b hb
  split at hb
  · rcases List.mem_cons.mp hb with rfl | hb
    · omega
    · have := h2 b hb; omega
  · have := h2 b hb; omega

theorem itoa_injective {e1 e2 : Int} (h : itoa e1 = itoa e2) : e1 = e2 := by
  obtain ⟨ds1, n1, r1, v1, h1⟩ := itoa_cases e1
  obtain ⟨ds2, n2, r2, v2, h2⟩ := itoa_cases e2
  rw [h1, h2] at h
  have hd1 : ∀ ds : List Nat, ds ≠ [] → (∀ d ∈ ds, 48 ≤ d ∧ d ≤ 57) → ∀ l, ds ≠ 45 :: l := by
    intro ds _ hr l hl
    have := hr 45 (by rw [hl]; simp)
    omega
  by_cases s1 : e1 < 0
  · by_cases s2 : e2 < 0
    · simp only [s1, s2, if_true] at h
      have hds : ds1 = ds2 := by simpa using h
      have : e1.natAbs = e2.natAbs := by rw [← v1, ← v2, hds]
      omega
    · simp only [s1, s2, if_true, if_false] at h
      exact absurd h.symm (hd1 ds2 n2 r2 ds1)
  · by_cases s2 : e2 < 0
    · simp only [s1, s2, if_true, if_false] at h
      exact absurd h (hd1 ds1 n1 r1 ds2)
    · simp only [s1, s2, if_false] at h
      have : e1.natAbs = e2.natAbs := by rw [← v1, ← v2, h]
      omega

/-! ## The descent of `Insert` -/

theorem ne_nil_cons {rest : List Nat} (hr : rest ≠ []) : ∃ k2 rest2, rest = k2 :: rest2 := by
  cases rest with
  | nil => exact absurd rfl hr
  | cons a b => exact ⟨a, b, rfl⟩

theorem insert_descend (e : Int) (ix : Index) :
    ∀ (t : Trie) (th : Int) (key : List Nat) (ctx : Path) (st : InsertState),
      Trie.Laid ix.node t th → t.Ascii → InsertAt ix st ctx t key → key ≠ [] →
      ∃ st', InsertAt ix st' (descend e t key ctx).1 (descend e t key ctx).2.1
          (descend e t key ctx).2.2 ∧
        ∀ fuel res, runLoop (insertBody e) fuel st' = some res →
          runLoop (insertBody e) (fuel + t.size) st = some res := by
  intro t
  induction t with
  | S p c e' =>
    intro th key ctx st _ _ hst hkey
    obtain ⟨k, rest, rfl⟩ := ne_nil_cons hkey
    exact ⟨st, by simpa [descend] using hst, fun fuel res h => runLoop_add _ _ _ _ _ h⟩
  | R p c e' n ih =>
    intro th key ctx st hl ha hst hkey
    obtain ⟨k, rest, rfl⟩ := ne_nil_cons hkey
    obtain ⟨hc, han⟩ := ha.R
    simp only [Trie.Laid] at hl
    by_cases hk : k = c ∧ rest ≠ []
    · obtain ⟨six, sks, skl, sprev, sptr, sdup, si⟩ := st
      obtain ⟨h1, h2, h3, h4, h5, h6⟩ := hst
      simp only at h1 h2 h3 h4 h5 h6
      subst h1 h3 h4 h5 h6
      have hst1 : InsertAt six ⟨six, sks, sks.length, (p : Int), (n.addr : Int), Path.inSub ctx, si + 1⟩
          (Frame.Rf p c e' :: ctx) n rest :=
        ⟨rfl, drop_succ_of_drop h2, rfl, rfl, rfl, rfl⟩
      obtain ⟨st', hst', hrun⟩ := ih th rest _ _ hl.2 han hst1 hk.2
      refine ⟨st', by simpa [descend, hk] using hst', ?_⟩
      intro fuel res hres
      have := hrun fuel res hres
      refine runLoop_step _ _ _ _ _ _ ?_ this (by simp [Trie.size])
      simp [insertBody, Trie.addr, hl.1, sliceOne_drop h2, byteToString_ascii hc, hk.1,
        last_iff_of_drop h2, hk.2]
    · exact ⟨st, by simpa [descend, hk] using hst, fun fuel res h => runLoop_add _ _ _ _ _ h⟩
  | X p c n ih =>
    intro th key ctx st hl ha hst hkey
    obtain ⟨k, rest, rfl⟩ := ne_nil_cons hkey
    obtain ⟨hc, han⟩ := ha.X
    simp only [Trie.Laid] at hl
    by_cases hk : k = c ∧ rest ≠ []
    · obtain ⟨six, sks, skl, sprev, sptr, sdup, si⟩ := st
      obtain ⟨h1, h2, h3, h4, h5, h6⟩ := hst
      simp only at h1 h2 h3 h4 h5 h6
      subst h1 h3 h4 h5 h6
      have hst1 : InsertAt six ⟨six, sks, sks.length, (p : Int), (n.addr : Int), Path.inSub ctx, si + 1⟩
          (Frame.Xf p c :: ctx) n rest :=
        ⟨rfl, drop_succ_of_drop h2, rfl, rfl, rfl, rfl⟩
      obtain ⟨st', hst', hrun⟩ := ih th rest _ _ hl.2 han hst1 hk.2
      refine ⟨st', by simpa [descend, hk] using hst', ?_⟩
      intro fuel res hres
      have := hrun fuel res hres
      refine runLoop_step _ _ _ _ _ _ ?_ this (by simp [Trie.size])
      simp [insertBody, Trie.addr, hl.1, sliceOne_drop h2, byteToString_ascii hc, hk.1,
        last_iff_of_drop h2, hk.2]
    · exact ⟨st, by simpa [descend, hk] using hst, fun fuel res h => runLoop_add _ _ _ _ _ h⟩
  | D p c l r ihl ihr =>
    intro th key ctx st hl ha hst hkey
    obtain ⟨k, rest, rfl⟩ := ne_nil_cons hkey
    obtain ⟨hc, hal, har⟩ := ha.D
    simp only [Trie.Laid] at hl
    obtain ⟨six, sks, skl, sprev, sptr, sdup, si⟩ := st
    obtain ⟨h1, h2, h3, h4, h5, h6⟩ := hst
    simp only at h1 h2 h3 h4 h5 h6
    subst h1 h3 h4 h5 h6
    by_cases hk : k ≤ c
    · have hst1 : InsertAt six ⟨six, sks, sks.length, (p : Int), (l.addr : Int), Path.inSub ctx, si⟩
          (Frame.Dl p c r :: ctx) l (k :: rest) :=
        ⟨rfl, h2, rfl, rfl, rfl, rfl⟩
      obtain ⟨st', hst', hrun⟩ := ihl _ (k :: rest) _ _ hl.2.1 hal hst1 hkey
      refine ⟨st', by simpa [descend, hk] using hst', ?_⟩
      intro fuel res hres
      have := hrun fuel res hres
      refine runLoop_step _ _ _ _ _ _ ?_ this (by simp [Trie.size]; omega)
      simp [insertBody, Trie.addr, hl.1, sliceOne_drop h2, byteToString_ascii hc, hk,
        strLe_single]
    · have hst1 : InsertAt six ⟨six, sks, sks.length, (p : Int), (r.addr : Int), Path.inSub ctx, si⟩
          (Frame.Dr p c l :: ctx) r (k :: rest) :=
        ⟨rfl, h2, rfl, rfl, rfl, rfl⟩
      obtain ⟨st', hst', hrun⟩ := ihr _ (k :: rest) _ _ hl.2.2 har hst1 hkey
      refine ⟨st', by simpa [descend, hk] using hst', ?_⟩
      intro fuel res hres
      have := hrun fuel res hres
      refine runLoop_step _ _ _ _ _ _ ?_ this (by simp [Trie.size]; omega)
      simp [insertBody, Trie.addr, hl.1, sliceOne_drop h2, byteToString_ascii hc, hk,
        strLe_single]
  | L p c sub ih =>
    intro th key ctx st hl ha hst hkey
    obtain ⟨k, rest, rfl⟩ := ne_nil_cons hkey
    obtain ⟨hc, has⟩ := ha.L
    simp only [Trie.Laid] at hl
    by_cases hk : k = c ∧ rest = []
    · obtain ⟨six, sks, skl, sprev, sptr, sdup, si⟩ := st
      obtain ⟨h1, h2, h3, h4, h5, h6⟩ := hst
      simp only at h1 h2 h3 h4 h5 h6
      subst h1 h3 h4 h5 h6
      have hst1 : InsertAt six ⟨six, itoa e, (itoa e).length, (p : Int), (sub.addr : Int), true, 0⟩
          (Frame.Ls p c :: ctx) sub (itoa e) :=
        ⟨rfl, rfl, rfl, rfl, rfl, rfl⟩
      obtain ⟨st', hst', hrun⟩ := ih _ (itoa e) _ _ hl.2 has hst1 (itoa_ne_nil e)
      refine ⟨st', by simpa [descend, hk] using hst', ?_⟩
      intro fuel res hres
      have := hrun fuel res hres
      refine runLoop_step _ _ _ _ _ _ ?_ this (by simp [Trie.size])
      simp [insertBody, Trie.addr, hl.1, sliceOne_drop h2, byteToString_ascii hc, hk.1,
        last_iff_of_drop h2, hk.2, decimaliseNumber]
    · exact ⟨st, by simpa [descend, hk] using hst, fun fuel res h => runLoop_add _ _ _ _ _ h⟩
  | K p c sub n ihs ihn =>
    intro th key ctx st hl ha hst hkey
    obtain ⟨k, rest, rfl⟩ := ne_nil_cons hkey
    obtain ⟨hc, has, han⟩ := ha.K
    simp only [Trie.Laid] at hl
    by_cases hk : k = c
    · obtain ⟨six, sks, skl, sprev, sptr, sdup, si⟩ := st
      obtain ⟨h1, h2, h3, h4, h5, h6⟩ := hst
      simp only at h1 h2 h3 h4 h5 h6
      subst h1 h3 h4 h5 h6
      by_cases hr : rest = []
      · have hst1 : InsertAt six ⟨six, itoa e, (itoa e).length, (p : Int), (sub.addr : Int), true, 0⟩
            (Frame.Ks p c n :: ctx) sub (itoa e) :=
          ⟨rfl, rfl, rfl, rfl, rfl, rfl⟩
        obtain ⟨st', hst', hrun⟩ := ihs _ (itoa e) _ _ hl.2.1 has hst1 (itoa_ne_nil e)
        refine ⟨st', by simpa [descend, hk, hr] using hst', ?_⟩
        intro fuel res hres
        have := hrun fuel res hres
        refine runLoop_step _ _ _ _ _ _ ?_ this (by simp [Trie.size]; omega)
        simp [insertBody, Trie.addr, hl.1, sliceOne_drop h2, byteToString_ascii hc, hk,
          last_iff_of_drop h2, hr, decimaliseNumber]
      · have hst1 : InsertAt six ⟨six, sks, sks.length, (p : Int), (n.addr : Int), Path.inSub ctx,
            si + 1⟩ (Frame.Kf p c sub :: ctx) n rest :=
          ⟨rfl, drop_succ_of_drop h2, rfl, rfl, rfl, rfl⟩
        obtain ⟨st', hst', hrun⟩ := ihn th rest _ _ hl.2.2 han hst1 hr
        refine ⟨st', by simpa [descend, hk, hr] using hst', ?_⟩
        intro fuel res hres
        have := hrun fuel res hres
        refine runLoop_step _ _ _ _ _ _ ?_ this (by simp [Trie.size]; omega)
        simp [insertBody, Trie.addr, hl.1, sliceOne_drop h2, byteToString_ascii hc, hk,
          last_iff_of_drop h2, hr]
    · exact ⟨st, by simpa [descend, hk] using hst, fun fuel res h => runLoop_add _ _ _ _ _ h⟩

/-! ## Well-formedness along a path -/

theorem Trie.elems_length_pos (t : Trie) : 0 < t.elems.length := by
  induction t with
  | S p c e => simp [Trie.elems]
  | R p c e n ih => simp [Trie.elems]
  | X p c n ih => simpa [Trie.elems] using ih
  | D p c l r ihl ihr => simp [Trie.elems]; omega
  | L p c sub ih => simpa [Trie.elems] using ih
  | K p c sub n ihs ihn => simp [Trie.elems]; omega

theorem Trie.extra_add_one (t : Trie) : t.extra + 1 = t.elems.length := by
  have := t.elems_length_pos
  simp only [Trie.extra]; omega

theorem Trie.WF.mono {mode : Option (List Nat)} :
    ∀ (t : Trie) (lo hi lo' hi' : Int), Trie.WF mode lo hi t → lo' ≤ lo → hi ≤ hi' →
      Trie.WF mode lo' hi' t := by
  intro t
  induction t generalizing mode with
  | S p c e =>
    intro lo hi lo' hi' h h1 h2
    simp only [Trie.WF] at h ⊢
    exact ⟨by omega, by omega, h.2.2⟩
  | R p c e n ih =>
    intro lo hi lo' hi' h h1 h2
    simp only [Trie.WF] at h ⊢
    exact ⟨by omega, by omega, h.2.2⟩
  | X p c n ih =>
    intro lo hi lo' hi' h h1 h2
    simp only [Trie.WF] at h ⊢
    exact ⟨by omega, by omega, h.2.2⟩
  | D p c l r ihl ihr =>
    intro lo hi lo' hi' h h1 h2
    simp only [Trie.WF] at h ⊢
    exact ⟨by omega, by omega, ihl _ _ _ _ h.2.2.1 h1 (le_refl _),
      ihr _ _ _ _ h.2.2.2 (le_refl _) h2⟩
  | L p c sub ih =>
    intro lo hi lo' hi' h h1 h2
    simp only [Trie.WF] at h ⊢
    exact ⟨h.1, by omega, by omega, h.2.2.2⟩
  | K p c sub n ihs ihn =>
    intro lo hi lo' hi' h h1 h2
    simp only [Trie.WF] at h ⊢
    exact ⟨h.1, by omega, by omega, h.2.2.2⟩

/-- Outside a duplicates branch the number of elements below the path plays no role. -/
theorem Path.WF.main :
    ∀ (ctx : Path) (a b : Nat), Path.WF ctx a → (Path.params ctx).1 = none → Path.WF ctx b := by
  intro ctx
  induction ctx with
  | nil => intro a b _ _; trivial
  | cons f ctx ih =>
    intro a b h hm
    cases f with
    | Rf p c e =>
      simp only [Path.WF, Path.params, Option.map_eq_none'] at h hm ⊢
      exact ⟨h.1, h.2.1, h.2.2.1, ih _ _ h.2.2.2 hm⟩
    | Xf p c =>
      simp only [Path.WF, Path.params, Option.map_eq_none'] at h hm ⊢
      exact ⟨h.1, h.2.1, ih _ _ h.2.2 hm⟩
    | Kf p c sub =>
      simp only [Path.WF, Path.params] at h hm ⊢
      exact ⟨h.1, h.2.1, h.2.2.1, h.2.2.2.1, h.2.2.2.2.1, ih _ _ h.2.2.2.2.2 h.1⟩
    | Ks p c n => simp [Path.params] at hm
    | Ls p c => simp [Path.params] at hm
    | Dl p c r =>
      simp only [Path.WF, Path.params] at h hm ⊢
      exact ⟨h.1, h.2.1, h.2.2.1, ih _ _ h.2.2.2 hm⟩
    | Dr p c l =>
      simp only [Path.WF, Path.params] at h hm ⊢
      exact ⟨h.1, h.2.1, h.2.2.1, ih _ _ h.2.2.2 hm⟩

theorem Path.WF.mono_path :
    ∀ (ctx : Path) (a b : Nat), Path.WF ctx a → a ≤ b → Path.WF ctx b := by
  intro ctx
  induction ctx with
  | nil => intro a b _ _; trivial
  | cons f ctx ih =>
    intro a b h hab
    cases f with
    | Rf p c e =>
      simp only [Path.WF] at h ⊢
      exact ⟨h.1, h.2.1, h.2.2.1, ih _ _ h.2.2.2 (by omega)⟩
    | Xf p c =>
      simp only [Path.WF] at h ⊢
      exact ⟨h.1, h.2.1, ih _ _ h.2.2 hab⟩
    | Kf p c sub =>
      simp only [Path.WF] at h ⊢
      exact ⟨h.1, h.2.1, h.2.2.1, h.2.2.2.1, h.2.2.2.2.1, ih _ _ h.2.2.2.2.2 hab⟩
    | Ks p c n =>
      simp only [Path.WF] at h ⊢
      exact ⟨h.1, h.2.1, h.2.2.1, by omega, h.2.2.2.2⟩
    | Ls p c =>
      simp only [Path.WF] at h ⊢
      exact ⟨h.1, h.2.1, h.2.2.1, by omega, h.2.2.2.2⟩
    | Dl p c r =>
      simp only [Path.WF] at h ⊢
      exact ⟨h.1, h.2.1, h.2.2.1, ih _ _ h.2.2.2 (by omega)⟩
    | Dr p c l =>
      simp only [Path.WF] at h ⊢
      exact ⟨h.1, h.2.1, h.2.2.1, ih _ _ h.2.2.2 (by omega)⟩

/-- The whole tree is well-formed when the subtree and the path are. -/
theorem Path.WF.plug :
    ∀ (ctx : Path) (t : Trie),
      Trie.WF (Path.params ctx).1 (Path.params ctx).2.1 (Path.params ctx).2.2 t →
      Path.WF ctx t.elems.length → Trie.WF none (-1) 127 (Path.plug ctx t) := by
  intro ctx
  induction ctx with
  | nil => intro t h _; simpa [Path.plug, Path.params] using h
  | cons f ctx ih =>
    intro t h hp
    simp only [Path.plug]
    cases f with
    | Rf p c e =>
      simp only [Path.WF, Path.params] at h hp
      refine ih _ ?_ (by simpa [Frame.fill, Trie.elems] using hp.2.2.2)
      exact ⟨hp.1, hp.2.1, hp.2.2.1, h⟩
    | Xf p c =>
      simp only [Path.WF, Path.params] at h hp
      refine ih _ ?_ (by simpa [Frame.fill, Trie.elems] using hp.2.2)
      exact ⟨hp.1, hp.2.1, h⟩
    | Kf p c sub =>
      simp only [Path.WF, Path.params] at h hp
      refine ih _ ?_ (Path.WF.main _ _ _ hp.2.2.2.2.2 hp.1)
      rw [hp.1]
      exact ⟨rfl, hp.2.1, hp.2.2.1, hp.2.2.2.1, hp.2.2.2.2.1, h⟩
    | Ks p c n =>
      simp only [Path.WF, Path.params] at h hp
      refine ih _ ?_ (Path.WF.main _ _ _ hp.2.2.2.2.2 hp.1)
      rw [hp.1]
      exact ⟨rfl, hp.2.1, hp.2.2.1, h, hp.2.2.2.1, hp.2.2.2.2.1⟩
    | Ls p c =>
      simp only [Path.WF, Path.params] at h hp
      refine ih _ ?_ (Path.WF.main _ _ _ hp.2.2.2.2 hp.1)
      rw [hp.1]
      exact ⟨rfl, hp.2.1, hp.2.2.1, h, hp.2.2.2.1⟩
    | Dl p c r =>
      simp only [Path.WF, Path.params] at h hp
      refine ih _ ?_ (by simpa [Frame.fill, Trie.elems] using hp.2.2.2)
      exact ⟨hp.1, hp.2.1, h, hp.2.2.1⟩
    | Dr p c l =>
      simp only [Path.WF, Path.params] at h hp
      refine ih _ ?_ (by simpa [Frame.fill, Trie.elems, Nat.add_comm] using hp.2.2.2)
      exact ⟨hp.1, hp.2.1, hp.2.2.1, h⟩

/-! ## What the descent preserves -/

theorem KeyOk.tail {e : Int} {ctx : Path} {k : Nat} {rest : List Nat} (f : Frame)
    (h : KeyOk e ctx (k :: rest)) (hr : rest ≠ [])
    (hp : Path.params (f :: ctx) = ((Path.params ctx).1.map (fun w => w ++ [k]), -1, 127)) :
    KeyOk e (f :: ctx) rest := by
  obtain ⟨h1, _, h3⟩ := h
  obtain ⟨k2, rest2, rfl⟩ := ne_nil_cons hr
  refine ⟨fun b hb => h1 b (by simp [hb]), ⟨k2, rest2, rfl, ?_, ?_⟩, ?_⟩
  · rw [hp]; simp only; omega
  · rw [hp]; simp only
    have := h1 k2 (by simp); omega
  · intro w hw
    rw [hp] at hw
    simp only [Option.map_eq_some'] at hw
    obtain ⟨w0, hw0, rfl⟩ := hw
    rw [← h3 w0 hw0]; simp

theorem KeyOk.enter {e : Int} (f : Frame) (ctx : Path)
    (hp : Path.params (f :: ctx) = (some [], -1, 127)) : KeyOk e (f :: ctx) (itoa e) := by
  obtain ⟨k, rest, hk⟩ := ne_nil_cons (itoa_ne_nil e)
  refine ⟨itoa_ascii e, ⟨k, rest, hk, ?_, ?_⟩, ?_⟩
  · rw [hp]; simp only; omega
  · rw [hp]; simp only
    have := itoa_ascii e k (by rw [hk]; simp); omega
  · intro w hw
    rw [hp] at hw
    simp only [Option.some.injEq] at hw
    subst hw; simp

theorem KeyOk.main_key {e : Int} (f : Frame) (ctx : Path) {k : Nat} {rest : List Nat}
    (h : KeyOk e ctx (k :: rest)) (hr : rest ≠ [])
    (hp : Path.params (f :: ctx) = (none, -1, 127)) : KeyOk e (f :: ctx) rest := by
  obtain ⟨h1, _, _⟩ := h
  obtain ⟨k2, rest2, rfl⟩ := ne_nil_cons hr
  refine ⟨fun b hb => h1 b (by simp [hb]), ⟨k2, rest2, rfl, ?_, ?_⟩, ?_⟩
  · rw [hp]; simp only; omega
  · rw [hp]; simp only
    have := h1 k2 (by simp); omega
  · intro w hw
    rw [hp] at hw
    cases hw

theorem descend_facts (e : Int) (d : Nat) (hd : 1 ≤ d) :
    ∀ (t : Trie) (key : List Nat) (ctx : Path),
      Trie.WF (Path.params ctx).1 (Path.params ctx).2.1 (Path.params ctx).2.2 t →
      Path.WF ctx (t.extra + d) → KeyOk e ctx key →
      Descended e d ctx t key (descend e t key ctx) := by
  intro t
  induction t with
  | S p c e' =>
    intro key ctx hw hp hk
    obtain ⟨k, rest, rfl, _, _⟩ := hk.2.1
    exact ⟨rfl, hw, hp, hk, rfl, trivial⟩
  | R p c e' n ih =>
    intro key ctx hw hp hk
    obtain ⟨k, rest, rfl, hlo, hhi⟩ := hk.2.1
    by_cases hkc : k = c ∧ rest ≠ []
    · have hd1 : descend e (Trie.R p c e' n) (k :: rest) ctx =
          descend e n rest (Frame.Rf p c e' :: ctx) := by simp [descend, hkc]
      rw [hd1]
      simp only [Trie.WF] at hw
      have hex : (Trie.R p c e' n).extra = n.extra + 1 := by
        simp [Trie.extra, Trie.elems]; exact (n.extra_add_one).symm
      obtain ⟨h1, h2, h3, h4, h5, h6⟩ := ih rest (Frame.Rf p c e' :: ctx)
        (by simpa [Path.params] using hw.2.2.2)
        (by simp only [Path.WF]
            refine ⟨hw.1, hw.2.1, hw.2.2.1, ?_⟩
            rw [hex] at hp
            rw [show n.extra + d + 1 = n.extra + 1 + d by omega]; exact hp)
        (KeyOk.tail _ hk hkc.2 (by simp [Path.params, hkc.1]))
      exact ⟨by rw [h1]; rfl, h2, h3, h4, by rw [h5]; simp [Path.lift, Frame.lift, hkc.1], h6⟩
    · have hd1 : descend e (Trie.R p c e' n) (k :: rest) ctx =
          (ctx, Trie.R p c e' n, k :: rest) := by simp [descend, hkc]
      rw [hd1]
      exact ⟨rfl, hw, hp, hk, rfl, hkc⟩
  | X p c n ih =>
    intro key ctx hw hp hk
    obtain ⟨k, rest, rfl, hlo, hhi⟩ := hk.2.1
    by_cases hkc : k = c ∧ rest ≠ []
    · have hd1 : descend e (Trie.X p c n) (k :: rest) ctx =
          descend e n rest (Frame.Xf p c :: ctx) := by simp [descend, hkc]
      rw [hd1]
      simp only [Trie.WF] at hw
      have hex : (Trie.X p c n).extra = n.extra := by simp [Trie.extra, Trie.elems]
      obtain ⟨h1, h2, h3, h4, h5, h6⟩ := ih rest (Frame.Xf p c :: ctx)
        (by simpa [Path.params] using hw.2.2)
        (by simp only [Path.WF]
            refine ⟨hw.1, hw.2.1, ?_⟩
            rw [hex] at hp; exact hp)
        (KeyOk.tail _ hk hkc.2 (by simp [Path.params, hkc.1]))
      exact ⟨by rw [h1]; rfl, h2, h3, h4, by rw [h5]; simp [Path.lift, Frame.lift, hkc.1], h6⟩
    · have hd1 : descend e (Trie.X p c n) (k :: rest) ctx =
          (ctx, Trie.X p c n, k :: rest) := by simp [descend, hkc]
      rw [hd1]
      exact ⟨rfl, hw, hp, hk, rfl, hkc⟩
  | D p c l r ihl ihr =>
    intro key ctx hw hp hk
    obtain ⟨k, rest, rfl, hlo, hhi⟩ := hk.2.1
    simp only [Trie.WF] at hw
    have hel := l.extra_add_one
    have her := r.extra_add_one
    have hex : (Trie.D p c l r).extra + 1 = l.elems.length + r.elems.length := by
      rw [Trie.extra_add_one]; simp [Trie.elems]
    by_cases hkc : k ≤ c
    · have hd1 : descend e (Trie.D p c l r) (k :: rest) ctx =
          descend e l (k :: rest) (Frame.Dl p c r :: ctx) := by simp [descend, hkc]
      rw [hd1]
      obtain ⟨h1, h2, h3, h4, h5, h6⟩ := ihl (k :: rest) (Frame.Dl p c r :: ctx)
        (by simpa [Path.params] using hw.2.2.1)
        (by simp only [Path.WF]
            refine ⟨hw.1, hw.2.1, hw.2.2.2, ?_⟩
            rw [show l.extra + d + r.elems.length = (Trie.D p c l r).extra + d by omega]
            exact hp)
        ⟨hk.1, ⟨k, rest, rfl, by simpa [Path.params] using hlo,
          by simp [Path.params]; exact_mod_cast hkc⟩,
          by simpa [Path.params] using hk.2.2⟩
      exact ⟨by rw [h1]; rfl, h2, h3, h4, by rw [h5]; simp [Path.lift, Frame.lift], h6⟩
    · have hd1 : descend e (Trie.D p c l r) (k :: rest) ctx =
          descend e r (k :: rest) (Frame.Dr p c l :: ctx) := by simp [descend, hkc]
      rw [hd1]
      obtain ⟨h1, h2, h3, h4, h5, h6⟩ := ihr (k :: rest) (Frame.Dr p c l :: ctx)
        (by simpa [Path.params] using hw.2.2.2)
        (by simp only [Path.WF]
            refine ⟨hw.1, hw.2.1, hw.2.2.1, ?_⟩
            rw [show r.extra + d + l.elems.length = (Trie.D p c l r).extra + d by omega]
            exact hp)
        ⟨hk.1, ⟨k, rest, rfl, by simp [Path.params]; omega,
          by simpa [Path.params] using hhi⟩,
          by simpa [Path.params] using hk.2.2⟩
      exact ⟨by rw [h1]; rfl, h2, h3, h4, by rw [h5]; simp [Path.lift, Frame.lift], h6⟩
  | L p c sub ih =>
    intro key ctx hw hp hk
    obtain ⟨k, rest, rfl, hlo, hhi⟩ := hk.2.1
    by_cases hkc : k = c ∧ rest = []
    · have hd1 : descend e (Trie.L p c sub) (k :: rest) ctx =
          descend e sub (itoa e) (Frame.Ls p c :: ctx) := by simp [descend, hkc]
      rw [hd1]
      simp only [Trie.WF] at hw
      have hes := sub.extra_add_one
      obtain ⟨h1, h2, h3, h4, h5, h6⟩ := ih (itoa e) (Frame.Ls p c :: ctx)
        (by simpa [Path.params] using hw.2.2.2.1)
        (by simp only [Path.WF]
            exact ⟨hw.1, hw.2.1, hw.2.2.1, by omega, Path.WF.main _ _ _ hp hw.1⟩)
        (KeyOk.enter _ _ (by simp [Path.params]))
      exact ⟨by rw [h1]; rfl, h2, h3, h4,
        by rw [h5]; simp [Path.lift, Frame.lift, hkc.1, hkc.2], h6⟩
    · have hd1 : descend e (Trie.L p c sub) (k :: rest) ctx =
          (ctx, Trie.L p c sub, k :: rest) := by simp [descend, hkc]
      rw [hd1]
      exact ⟨rfl, hw, hp, hk, rfl, hkc⟩
  | K p c sub n ihs ihn =>
    intro key ctx hw hp hk
    obtain ⟨k, rest, rfl, hlo, hhi⟩ := hk.2.1
    by_cases hkc : k = c
    · simp only [Trie.WF] at hw
      by_cases hr : rest = []
      · have hd1 : descend e (Trie.K p c sub n) (k :: rest) ctx =
            descend e sub (itoa e) (Frame.Ks p c n :: ctx) := by simp [descend, hkc, hr]
        rw [hd1]
        have hes := sub.extra_add_one
        obtain ⟨h1, h2, h3, h4, h5, h6⟩ := ihs (itoa e) (Frame.Ks p c n :: ctx)
          (by simpa [Path.params] using hw.2.2.2.1)
          (by simp only [Path.WF]
              exact ⟨hw.1, hw.2.1, hw.2.2.1, by omega, hw.2.2.2.2.2,
                Path.WF.main _ _ _ hp hw.1⟩)
          (KeyOk.enter _ _ (by simp [Path.params]))
        exact ⟨by rw [h1]; rfl, h2, h3, h4,
          by rw [h5]; simp [Path.lift, Frame.lift, hkc, hr], h6⟩
      · have hd1 : descend e (Trie.K p c sub n) (k :: rest) ctx =
            descend e n rest (Frame.Kf p c sub :: ctx) := by simp [descend, hkc, hr]
        rw [hd1]
        obtain ⟨h1, h2, h3, h4, h5, h6⟩ := ihn rest (Frame.Kf p c sub :: ctx)
          (by simpa [Path.params] using hw.2.2.2.2.2)
          (by simp only [Path.WF]
              exact ⟨hw.1, hw.2.1, hw.2.2.1, hw.2.2.2.1, hw.2.2.2.2.1,
                Path.WF.main _ _ _ hp hw.1⟩)
          (KeyOk.main_key _ _ hk hr (by simp [Path.params]))
        exact ⟨by rw [h1]; rfl, h2, h3, h4,
          by rw [h5]; simp [Path.lift, Frame.lift, hkc], h6⟩
    · have hd1 : descend e (Trie.K p c sub n) (k :: rest) ctx =
          (ctx, Trie.K p c sub n, k :: rest) := by simp [descend, hkc]
      rw [hd1]
      exact ⟨rfl, hw, hp, hk, rfl, hkc⟩

/-! ## Nodes of frames and trees -/

theorem Frame.Laid.node_frame {ns : List indexNode} {f : Frame} {th a : Int} (h : f.Laid ns th a) :
    ns[f.addr]? = some (f.node th a) := by
  cases f <;> simp only [Frame.Laid] at h <;> simp [Frame.addr, Frame.node, h]

theorem Trie.Laid.node {ns : List indexNode} {t : Trie} {th : Int} (h : Trie.Laid ns t th) :
    ns[t.addr]? = some (t.node th) := by
  cases t <;> simp only [Trie.Laid] at h <;> simp [Trie.addr, Trie.node, h]

theorem Frame.addr_mem_addrs_frame (f : Frame) : f.addr ∈ f.addrs := by
  cases f <;> simp [Frame.addr, Frame.addrs]

theorem Frame.node_setLeft (f : Frame) (th a a' : Int) (h : f.holeLeft = true) :
    { f.node th a with leftPointer := a' } = f.node th a' := by
  cases f <;> simp [Frame.holeLeft] at h <;> simp [Frame.node]

theorem Frame.node_setRight (f : Frame) (th a a' : Int) (h : f.holeLeft = false) :
    { f.node th a with rightPointer := a' } = f.node th a' := by
  cases f <;> simp [Frame.holeLeft] at h <;> simp [Frame.node]

/-- A frame stays laid out when its node is pointed at another subtree. -/
theorem Frame.Laid.relink_frame {ns ns' : List indexNode} (f : Frame) (th a a' : Int)
    (h : f.Laid ns th a) (hn : ns'[f.addr]? = some (f.node th a'))
    (hf : ∀ b ∈ f.addrs, b ≠ f.addr → ns'[b]? = ns[b]?) (hnd : f.addrs.Nodup) :
    f.Laid ns' th a' := by
  cases f with
  | Rf p c e => simpa [Frame.Laid, Frame.addr, Frame.node] using hn
  | Xf p c => simpa [Frame.Laid, Frame.addr, Frame.node] using hn
  | Kf p c sub =>
    simp only [Frame.Laid] at h ⊢
    simp only [Frame.addrs, List.nodup_cons] at hnd
    refine ⟨by simpa [Frame.addr, Frame.node] using hn, ?_⟩
    exact Trie.Laid.frame sub _ h.2 (fun b hb => hf b (by simp [Frame.addrs, hb])
      (fun hc => hnd.1 (by simp only [Frame.addr] at hc; rw [← hc]; exact hb)))
  | Ks p c n =>
    simp only [Frame.Laid] at h ⊢
    simp only [Frame.addrs, List.nodup_cons] at hnd
    refine ⟨by simpa [Frame.addr, Frame.node] using hn, ?_⟩
    exact Trie.Laid.frame n _ h.2 (fun b hb => hf b (by simp [Frame.addrs, hb])
      (fun hc => hnd.1 (by simp only [Frame.addr] at hc; rw [← hc]; exact hb)))
  | Ls p c => simpa [Frame.Laid, Frame.addr, Frame.node] using hn
  | Dl p c r =>
    simp only [Frame.Laid] at h ⊢
    simp only [Frame.addrs, List.nodup_cons] at hnd
    refine ⟨by simpa [Frame.addr, Frame.node] using hn, ?_⟩
    exact Trie.Laid.frame r _ h.2 (fun b hb => hf b (by simp [Frame.addrs, hb])
      (fun hc => hnd.1 (by simp only [Frame.addr] at hc; rw [← hc]; exact hb)))
  | Dr p c l =>
    simp only [Frame.Laid] at h ⊢
    simp only [Frame.addrs, List.nodup_cons] at hnd
    refine ⟨by simpa [Frame.addr, Frame.node] using hn, ?_⟩
    exact Trie.Laid.frame l _ h.2 (fun b hb => hf b (by simp [Frame.addrs, hb])
      (fun hc => hnd.1 (by simp only [Frame.addr] at hc; rw [← hc]; exact hb)))

/-- A path stays laid out when its innermost node is pointed at another subtree. -/
theorem Path.Laid.relink {ns ns' : List indexNode} (f : Frame) (ctx : Path) (th0 a a' : Int)
    (h : Path.Laid ns (f :: ctx) th0 a)
    (hn : ns'[f.addr]? = some (f.node (Path.thread ctx th0) a'))
    (hf : ∀ b ∈ Path.addrs (f :: ctx), b ≠ f.addr → ns'[b]? = ns[b]?)
    (hnd : (Path.addrs (f :: ctx)).Nodup) :
    Path.Laid ns' (f :: ctx) th0 a' := by
  simp only [Path.Laid] at h ⊢
  simp only [Path.addrs, List.nodup_append] at hnd
  refine ⟨Frame.Laid.relink_frame f _ _ _ h.1 hn
    (fun b hb hne => hf b (by simp [Path.addrs, hb]) hne) hnd.1, ?_⟩
  exact Path.Laid.frame_path ctx _ _ h.2 (fun b hb => hf b (by simp [Path.addrs, hb])
    (fun hc => hnd.2.2 f.addr_mem_addrs_frame (by rw [← hc]; exact hb)))

/-! ## The last terminal -/

theorem Trie.lastTerm_mem (t : Trie) : t.lastTerm ∈ t.addrs := by
  induction t with
  | S p c e => simp [Trie.lastTerm, Trie.addrs]
  | R p c e n ih => simp [Trie.lastTerm, Trie.addrs, ih]
  | X p c n ih => simp [Trie.lastTerm, Trie.addrs, ih]
  | D p c l r ihl ihr => simp [Trie.lastTerm, Trie.addrs, ihr]
  | L p c sub ih => simp [Trie.lastTerm, Trie.addrs]
  | K p c sub n ihs ihn => simp [Trie.lastTerm, Trie.addrs, ihn]

/-- The node of the last terminal is a terminal whose right pointer is the thread. -/
theorem Trie.Laid.lastTerm {ns : List indexNode} :
    ∀ (t : Trie) (th : Int), Trie.Laid ns t th →
      ∃ nd, ns[t.lastTerm]? = some nd ∧ nd.rightPointer = th ∧
        (nd.indexType = indexTerminalNode ∨ nd.indexType = duplicateTerminalNode) := by
  intro t
  induction t with
  | S p c e => intro th h; exact ⟨_, h, rfl, Or.inl rfl⟩
  | R p c e n ih => intro th h; exact ih th h.2
  | X p c n ih => intro th h; exact ih th h.2
  | D p c l r ihl ihr => intro th h; exact ihr th h.2.2
  | L p c sub ih => intro th h; exact ⟨_, h.1, rfl, Or.inr rfl⟩
  | K p c sub n ihs ihn => intro th h; exact ihn th h.2.2

/-- Changing the right pointer of the last terminal changes the thread of the tree. -/
theorem Trie.Laid.rethread {ns : List indexNode} :
    ∀ (t : Trie) (th th' : Int), Trie.Laid ns t th → t.addrs.Nodup →
      ∀ nd, ns[t.lastTerm]? = some nd →
        Trie.Laid (ns.set t.lastTerm { nd with rightPointer := th' }) t th' := by
  intro t
  induction t with
  | S p c e =>
    intro th th' h _ nd hnd
    simp only [Trie.Laid, Trie.lastTerm] at h hnd ⊢
    rw [h] at hnd
    cases hnd
    exact getElem?_set_self' _ _ _ (lt_length_of_getElem? h)
  | R p c e n ih =>
    intro th th' h hn nd hnd
    simp only [Trie.Laid, Trie.lastTerm] at h hnd ⊢
    simp only [Trie.addrs, List.nodup_cons] at hn
    refine ⟨?_, ih th th' h.2 hn.2 nd hnd⟩
    rw [getElem?_set_other _ _ _ _ (fun hc => hn.1 (by rw [← hc]; exact n.lastTerm_mem))]
    exact h.1
  | X p c n ih =>
    intro th th' h hn nd hnd
    simp only [Trie.Laid, Trie.lastTerm] at h hnd ⊢
    simp only [Trie.addrs, List.nodup_cons] at hn
    refine ⟨?_, ih th th' h.2 hn.2 nd hnd⟩
    rw [getElem?_set_other _ _ _ _ (fun hc => hn.1 (by rw [← hc]; exact n.lastTerm_mem))]
    exact h.1
  | D p c l r ihl ihr =>
    intro th th' h hn nd hnd
    simp only [Trie.Laid, Trie.lastTerm] at h hnd ⊢
    simp only [Trie.addrs, List.nodup_cons, List.nodup_append, List.mem_append, not_or] at hn
    refine ⟨?_, ?_, ihr th th' h.2.2 hn.2.2.1 nd hnd⟩
    · rw [getElem?_set_other _ _ _ _ (fun hc => hn.1.2 (by rw [← hc]; exact r.lastTerm_mem))]
      exact h.1
    · exact Trie.Laid.frame l _ h.2.1 (fun b hb =>
        getElem?_set_other _ _ _ _ (fun hc => hn.2.2.2 hb (by rw [← hc]; exact r.lastTerm_mem)))
  | L p c sub ih =>
    intro th th' h hn nd hnd
    simp only [Trie.Laid, Trie.lastTerm] at h hnd ⊢
    simp only [Trie.addrs, List.nodup_cons] at hn
    rw [h.1] at hnd
    cases hnd
    refine ⟨getElem?_set_self' _ _ _ (lt_length_of_getElem? h.1), ?_⟩
    exact Trie.Laid.frame sub _ h.2 (fun b hb =>
      getElem?_set_other _ _ _ _ (fun hc => hn.1 (by rw [hc]; exact hb)))
  | K p c sub n ihs ihn =>
    intro th th' h hn nd hnd
    simp only [Trie.Laid, Trie.lastTerm] at h hnd ⊢
    simp only [Trie.addrs, List.nodup_cons, List.nodup_append, List.mem_append, not_or] at hn
    refine ⟨?_, ?_, ihn th th' h.2.2 hn.2.2.1 nd hnd⟩
    · rw [getElem?_set_other _ _ _ _ (fun hc => hn.1.2 (by rw [← hc]; exact n.lastTerm_mem))]
      exact h.1
    · exact Trie.Laid.frame sub _ h.2.1 (fun b hb =>
        getElem?_set_other _ _ _ _ (fun hc => hn.2.2.2 hb (by rw [← hc]; exact n.lastTerm_mem)))

/-- The walk of `Insert` along right pointers ends at the last terminal. -/
theorem insertThread_walk (ns : List indexNode) :
    ∀ (t : Trie) (th : Int), Trie.Laid ns t th → ∀ fuel, t.rightDepth < fuel →
      runLoop (insertThreadBody ns) fuel (t.addr : Int) = some (t.lastTerm : Int) := by
  intro t
  induction t with
  | S p c e =>
    intro th h fuel hf
    exact runLoop_exit' _ _ _ _ (by simp [insertThreadBody, Trie.addr, Trie.lastTerm,
      show ns[p]? = _ from h]) (by omega)
  | R p c e n ih =>
    intro th h fuel hf
    simp only [Trie.rightDepth] at hf
    obtain ⟨m, rfl⟩ : ∃ m, fuel = m + 1 := ⟨fuel - 1, by omega⟩
    rw [runLoop_next _ _ _ (n.addr : Int) (by simp [insertThreadBody, Trie.addr,
      show ns[p]? = _ from h.1])]
    exact ih th h.2 m (by omega)
  | X p c n ih =>
    intro th h fuel hf
    simp only [Trie.rightDepth] at hf
    obtain ⟨m, rfl⟩ : ∃ m, fuel = m + 1 := ⟨fuel - 1, by omega⟩
    rw [runLoop_next _ _ _ (n.addr : Int) (by simp [insertThreadBody, Trie.addr,
      show ns[p]? = _ from h.1])]
    exact ih th h.2 m (by omega)
  | D p c l r ihl ihr =>
    intro th h fuel hf
    simp only [Trie.rightDepth] at hf
    obtain ⟨m, rfl⟩ : ∃ m, fuel = m + 1 := ⟨fuel - 1, by omega⟩
    rw [runLoop_next _ _ _ (r.addr : Int) (by simp [insertThreadBody, Trie.addr,
      show ns[p]? = _ from h.1])]
    exact ihr th h.2.2 m (by omega)
  | L p c sub ih =>
    intro th h fuel hf
    exact runLoop_exit' _ _ _ _ (by simp [insertThreadBody, Trie.addr, Trie.lastTerm,
      show ns[p]? = _ from h.1]) (by omega)
  | K p c sub n ihs ihn =>
    intro th h fuel hf
    simp only [Trie.rightDepth] at hf
    obtain ⟨m, rfl⟩ : ∃ m, fuel = m + 1 := ⟨fuel - 1, by omega⟩
    rw [runLoop_next _ _ _ (n.addr : Int) (by simp [insertThreadBody, Trie.addr,
      show ns[p]? = _ from h.1])]
    exact ihn th h.2.2 m (by omega)

theorem Trie.rightDepth_lt_size (t : Trie) : t.rightDepth < t.size := by
  induction t with
  | S p c e => simp [Trie.rightDepth, Trie.size]
  | R p c e n ih => simp [Trie.rightDepth, Trie.size, ih]
  | X p c n ih => simp [Trie.rightDepth, Trie.size, ih]
  | D p c l r ihl ihr => simp [Trie.rightDepth, Trie.size]; omega
  | L p c sub ih => simp [Trie.rightDepth, Trie.size]
  | K p c sub n ihs ihn => simp [Trie.rightDepth, Trie.size]; omega

/-! ## Slots of the whole tree -/

theorem AtFocus.nodup {ix : Index} {fl : List Nat} {ctx : Path} {t : Trie}
    (h : AtFocus ix fl ctx t) : (Path.addrs ctx ++ t.addrs ++ fl).Nodup :=
  h.perm.nodup_iff.mpr (List.nodup_range _)

theorem AtFocus.lt {ix : Index} {fl : List Nat} {ctx : Path} {t : Trie}
    (h : AtFocus ix fl ctx t) : ∀ a ∈ Path.addrs ctx ++ t.addrs ++ fl, a < ix.node.length :=
  fun _ ha => List.mem_range.mp (h.perm.mem_iff.mp ha)

/-! ## Insert: the new key ends at a character node -/

theorem AtFocus.fl_nodup {ix : Index} {fl : List Nat} {ctx : Path} {t : Trie}
    (h : AtFocus ix fl ctx t) : fl.Nodup :=
  (List.nodup_append.mp h.nodup).2.1

theorem AtFocus.tree_nodup {ix : Index} {fl : List Nat} {ctx : Path} {t : Trie}
    (h : AtFocus ix fl ctx t) : t.addrs.Nodup :=
  (List.nodup_append.mp (List.nodup_append.mp h.nodup).1).2.1

theorem AtFocus.path_nodup {ix : Index} {fl : List Nat} {ctx : Path} {t : Trie}
    (h : AtFocus ix fl ctx t) : (Path.addrs ctx).Nodup :=
  (List.nodup_append.mp (List.nodup_append.mp h.nodup).1).1

theorem AtFocus.tree_not_path {ix : Index} {fl : List Nat} {ctx : Path} {t : Trie}
    (h : AtFocus ix fl ctx t) {a : Nat} (ha : a ∈ t.addrs) : a ∉ Path.addrs ctx :=
  fun hc => (List.nodup_append.mp (List.nodup_append.mp h.nodup).1).2.2 hc ha

theorem AtFocus.tree_not_free {ix : Index} {fl : List Nat} {ctx : Path} {t : Trie}
    (h : AtFocus ix fl ctx t) {a : Nat} (ha : a ∈ t.addrs) : a ∉ fl :=
  fun hc => (List.nodup_append.mp h.nodup).2.2 (List.mem_append_right _ ha) hc

theorem AtFocus.path_not_free {ix : Index} {fl : List Nat} {ctx : Path} {t : Trie}
    (h : AtFocus ix fl ctx t) {a : Nat} (ha : a ∈ Path.addrs ctx) : a ∉ fl :=
  fun hc => (List.nodup_append.mp h.nodup).2.2 (List.mem_append_left _ ha) hc

theorem AtFocus.tree_lt {ix : Index} {fl : List Nat} {ctx : Path} {t : Trie}
    (h : AtFocus ix fl ctx t) {a : Nat} (ha : a ∈ t.addrs) : a < ix.node.length :=
  h.lt a (List.mem_append_left _ (List.mem_append_right _ ha))

theorem AtFocus.path_lt {ix : Index} {fl : List Nat} {ctx : Path} {t : Trie}
    (h : AtFocus ix fl ctx t) {a : Nat} (ha : a ∈ Path.addrs ctx) : a < ix.node.length :=
  h.lt a (List.mem_append_left _ (List.mem_append_left _ ha))

/-- The subtree at the end of the path may be replaced by one with the same
root slot, when the arena changes on the slots of the subtree only. -/
theorem AtFocus.replace_same {ix ix' : Index} {fl : List Nat} {ctx : Path} {t t' : Trie}
    (h : AtFocus ix fl ctx t) (haddr : t'.addr = t.addr)
    (hroot : ix'.indexRootPointer = ix.indexRootPointer)
    (hfree : ix'.deletedRootPointer = ix.deletedRootPointer)
    (hlen : ix'.node.length = ix.node.length)
    (hframe : ∀ b, b ∉ t.addrs → ix'.node[b]? = ix.node[b]?)
    (htree : Trie.Laid ix'.node t' (Path.thread ctx (-1)))
    (hperm : t'.addrs.Perm t.addrs) : AtFocus ix' fl ctx t' := by
  refine ⟨by rw [hroot, h.root]; cases ctx <;> simp [Path.rootAddr, haddr], ?_, htree, ?_, ?_⟩
  · rw [haddr]
    exact Path.Laid.frame_path ctx _ _ h.path
      (fun b hb => hframe b (fun hc => h.tree_not_path hc hb))
  · rw [hfree]
    exact FreeList.frame_free fl _ h.free (fun b hb => hframe b (fun hc => h.tree_not_free hc hb))
  · rw [hlen]
    exact ((hperm.append_left _).append_right _).trans h.perm

theorem insert_promote (e : Int) (ix : Index) (fl : List Nat) (ctx : Path) (st : InsertState)
    (p c : Nat) (n : Trie) (key : List Nat)
    (h : AtFocus ix fl ctx (Trie.X p c n)) (hst : InsertAt ix st ctx (Trie.X p c n) key)
    (hc : c < 128) (hkey : key = [c]) :
    ∃ ix', insertBody e st = some (LoopStep.exit (InsertExit.returned true ix')) ∧
      AtFocus ix' fl ctx (Trie.R p c e n) ∧ ix'.keyCount = ix.keyCount + 1 := by
  obtain ⟨six, sks, skl, sprev, sptr, sdup, si⟩ := st
  obtain ⟨h1, h2, h3, h4, h5, h6⟩ := hst
  simp only at h1 h2 h3 h4 h5 h6
  subst h1 h3 h4 h5 h6 hkey
  have hl := h.tree
  simp only [Trie.Laid] at hl
  have hp_lt : p < six.node.length := lt_length_of_getElem? hl.1
  let nd1 : indexNode := ⟨indexKeyNode, nullIndexPointer, c, (n.addr : Int)⟩
  let nd2 : indexNode := ⟨indexKeyNode, e, c, (n.addr : Int)⟩
  have hset1 : (six.node.set p nd1)[p]? = some nd1 := getElem?_set_self' _ _ _ hp_lt
  refine ⟨{ six with node := (six.node.set p nd1).set p nd2, keyCount := six.keyCount + 1 },
    ?_, ?_, rfl⟩
  · simp only [insertBody, Trie.addr_X, getNode_natCast, hl.1, sliceOne_drop h2,
      byteToString_ascii hc, (last_iff_of_drop h2).mpr rfl,
      setType_natCast _ _ _ _ hl.1]
    simp only [nd1] at hset1
    simp [setLeft_natCast _ _ _ _ hset1, nd1, nd2]
  · have hpn : p ∉ n.addrs := by
      have := h.tree_nodup
      simp only [Trie.addrs, List.nodup_cons] at this
      exact this.1
    refine h.replace_same rfl rfl rfl (by simp) ?_ ?_ (by simp [Trie.addrs])
    · intro b hb
      have hbp : p ≠ b := fun hc => hb (by simp [Trie.addrs, hc])
      simp only [List.set_set]
      exact getElem?_set_other _ _ _ _ hbp
    · simp only [List.set_set, Trie.Laid]
      refine ⟨getElem?_set_self' _ _ _ hp_lt, ?_⟩
      exact Trie.Laid.frame n _ hl.2
        (fun b hb => getElem?_set_other _ _ _ _ (fun hc => hpn (by rw [hc]; exact hb)))

/-! ## Insert: the new key runs past a terminal -/

theorem range_append_range' (a b : Nat) (h : a ≤ b) :
    List.range a ++ List.range' a (b - a) = List.range b := by
  rw [List.range_eq_range', List.range_eq_range']
  have := range'_split 0 a b (Nat.zero_le _) h
  simpa using this.symm

/-- A slot of the old arena outside the free list is not used by `extend`. -/
theorem Extended.fresh {ix ix1 : Index} {fl fl1 : List Nat} {res : Trie} {next : Int}
    (hex : Extended ix ix1 fl fl1 [] res next) {b : Nat} (hb : b < ix.node.length)
    (hbf : b ∉ fl) : b ∉ res.addrs ++ fl1 := by
  intro hc
  have h2 := (hex.perm.mem_iff).mp hc
  simp only [List.nil_append] at h2
  rcases List.mem_append.mp h2 with h3 | h3
  · exact hbf h3
  · have := (List.mem_range'_1.mp h3).1; omega

theorem AtFocus.replace_ext {ix ix1 ix' : Index} {fl fl1 : List Nat} {ctx : Path}
    {t t' res : Trie} {next : Int}
    (h : AtFocus ix fl ctx t) (hex : Extended ix ix1 fl fl1 [] res next)
    (haddr : t'.addr = t.addr)
    (hroot : ix'.indexRootPointer = ix1.indexRootPointer)
    (hfree : ix'.deletedRootPointer = ix1.deletedRootPointer)
    (hlen : ix'.node.length = ix1.node.length)
    (hframe : ∀ b, b ∉ t.addrs → ix'.node[b]? = ix1.node[b]?)
    (htree : Trie.Laid ix'.node t' (Path.thread ctx (-1)))
    (hperm : t'.addrs.Perm (t.addrs ++ res.addrs)) : AtFocus ix' fl1 ctx t' := by
  refine ⟨?_, ?_, htree, ?_, ?_⟩
  · rw [hroot, hex.root, h.root]; cases ctx <;> simp [Path.rootAddr, haddr]
  · rw [haddr]
    refine Path.Laid.frame_path ctx _ _ h.path (fun b hb => ?_)
    rw [hframe b (fun hc => h.tree_not_path hc hb)]
    exact hex.frame b (h.path_lt hb) (h.path_not_free hb)
  · rw [hfree]
    refine FreeList.frame_free fl1 _ hex.free (fun b hb => hframe b (fun hc => ?_))
    exact hex.fresh (h.tree_lt hc) (h.tree_not_free hc) (List.mem_append_right _ hb)
  · rw [hlen]
    have h1 : (Path.addrs ctx ++ t'.addrs ++ fl1).Perm
        (Path.addrs ctx ++ t.addrs ++ (res.addrs ++ fl1)) := by
      rw [List.append_assoc, List.append_assoc]
      refine List.Perm.append_left _ ?_
      rw [← List.append_assoc]
      exact hperm.append_right _
    refine h1.trans ?_
    have h2 := hex.perm
    simp only [List.nil_append] at h2
    refine (h2.append_left _).trans ?_
    rw [← List.append_assoc]
    refine (h.perm.append_right _).trans ?_
    rw [range_append_range' _ _ hex.len]

theorem insert_superset_S_gen (e : Int) (ix : Index) (fl : List Nat) (ctx : Path)
    (st : InsertState) (p c : Nat) (e0 : Int) (rest : List Nat)
    (h : AtFocus ix fl ctx (Trie.S p c e0))
    (hst : InsertAt ix st ctx (Trie.S p c e0) (c :: rest)) (hc : c < 128) (hr : rest ≠ []) :
    ∃ ix' fl' res, insertBody e st = some (LoopStep.exit (InsertExit.returned true ix')) ∧
      AtFocus ix' fl' ctx (Trie.R p c e0 res) ∧ res.IsChain rest e ∧
      ix'.keyCount = ix.keyCount + 1 ∧ Taken ix.node.length ix'.node.length fl fl' := by
  obtain ⟨six, sks, skl, sprev, sptr, sdup, si⟩ := st
  obtain ⟨h1, h2, h3, h4, h5, h6⟩ := hst
  simp only at h1 h2 h3 h4 h5 h6
  subst h1 h3 h4 h5 h6
  have hl : six.node[p]? = some ⟨indexTerminalNode, e0, c, Path.thread ctx (-1)⟩ := h.tree
  have hp_lt : p < six.node.length := lt_length_of_getElem? hl
  have hpt : p ∈ (Trie.S p c e0).addrs := by simp [Trie.addrs]
  obtain ⟨res, ix1, fl1, hrun, hch, hex⟩ :=
    extend_spec rest e (Path.thread ctx (-1)) six fl hr h.free h.fl_nodup
  have hp1 : ix1.node[p]? = some ⟨indexTerminalNode, e0, c, Path.thread ctx (-1)⟩ := by
    rw [hex.frame p hp_lt (h.tree_not_free hpt)]; exact hl
  have hp1_lt : p < ix1.node.length := lt_length_of_getElem? hp1
  have hfresh := hex.fresh hp_lt (h.tree_not_free hpt)
  let nd1 : indexNode := ⟨indexKeyNode, e0, c, Path.thread ctx (-1)⟩
  let nd2 : indexNode := ⟨indexKeyNode, e0, c, (res.addr : Int)⟩
  have hset1 : (ix1.node.set p nd1)[p]? = some nd1 := getElem?_set_self' _ _ _ hp1_lt
  refine ⟨{ ix1 with node := (ix1.node.set p nd1).set p nd2, keyCount := ix1.keyCount + 1 },
    fl1, res, ?_, ?_, hch, by simp [hex.count], by simpa using hex.taken⟩
  · have hne : ¬ (si + 1 = sks.length) := fun hh => hr ((last_iff_of_drop h2).mp hh)
    simp only [insertBody, Trie.addr_S, getNode_natCast, hl, sliceOne_drop h2,
      byteToString_ascii hc, hne, sliceFrom_drop h2, hrun, setType_natCast _ _ _ _ hp1]
    simp only [nd1] at hset1
    simp [setRight_natCast _ _ _ _ hset1, nd1, nd2]
  · refine h.replace_ext hex rfl rfl rfl (by simp) ?_ ?_ (by simp [Trie.addrs])
    · intro b hb
      have hbp : p ≠ b := fun hc => hb (by simp [Trie.addrs, hc])
      simp only [List.set_set]
      exact getElem?_set_other _ _ _ _ hbp
    · simp only [List.set_set, Trie.Laid]
      refine ⟨getElem?_set_self' _ _ _ hp1_lt, ?_⟩
      exact Trie.Laid.frame res _ hex.laid
        (fun b hb => getElem?_set_other _ _ _ _
          (fun hc => hfresh (List.mem_append_left _ (by rw [hc]; exact hb))))

theorem insert_superset_L_gen (e : Int) (ix : Index) (fl : List Nat) (ctx : Path)
    (st : InsertState) (p c : Nat) (sub : Trie) (rest : List Nat)
    (h : AtFocus ix fl ctx (Trie.L p c sub))
    (hst : InsertAt ix st ctx (Trie.L p c sub) (c :: rest)) (hc : c < 128) (hr : rest ≠ []) :
    ∃ ix' fl' res, insertBody e st = some (LoopStep.exit (InsertExit.returned true ix')) ∧
      AtFocus ix' fl' ctx (Trie.K p c sub res) ∧ res.IsChain rest e ∧
      ix'.keyCount = ix.keyCount + 1 ∧ Taken ix.node.length ix'.node.length fl fl' := by
  obtain ⟨six, sks, skl, sprev, sptr, sdup, si⟩ := st
  obtain ⟨h1, h2, h3, h4, h5, h6⟩ := hst
  simp only at h1 h2 h3 h4 h5 h6
  subst h1 h3 h4 h5 h6
  have hl := h.tree
  simp only [Trie.Laid] at hl
  have hp_lt : p < six.node.length := lt_length_of_getElem? hl.1
  have hpt : p ∈ (Trie.L p c sub).addrs := by simp [Trie.addrs]
  obtain ⟨res, ix1, fl1, hrun, hch, hex⟩ :=
    extend_spec rest e (Path.thread ctx (-1)) six fl hr h.free h.fl_nodup
  have hp1 : ix1.node[p]? =
      some ⟨duplicateTerminalNode, (sub.addr : Int), c, Path.thread ctx (-1)⟩ := by
    rw [hex.frame p hp_lt (h.tree_not_free hpt)]; exact hl.1
  have hp1_lt : p < ix1.node.length := lt_length_of_getElem? hp1
  have hfresh := hex.fresh hp_lt (h.tree_not_free hpt)
  let nd1 : indexNode := ⟨duplicateKeyNode, (sub.addr : Int), c, Path.thread ctx (-1)⟩
  let nd2 : indexNode := ⟨duplicateKeyNode, (sub.addr : Int), c, (res.addr : Int)⟩
  have hset1 : (ix1.node.set p nd1)[p]? = some nd1 := getElem?_set_self' _ _ _ hp1_lt
  have hpsub : p ∉ sub.addrs := by
    have := h.tree_nodup
    simp only [Trie.addrs, List.nodup_cons] at this
    exact this.1
  refine ⟨{ ix1 with node := (ix1.node.set p nd1).set p nd2, keyCount := ix1.keyCount + 1 },
    fl1, res, ?_, ?_, hch, by simp [hex.count], by simpa using hex.taken⟩
  · have hne : ¬ (si + 1 = sks.length) := fun hh => hr ((last_iff_of_drop h2).mp hh)
    simp only [insertBody, Trie.addr_L, getNode_natCast, hl.1, sliceOne_drop h2,
      byteToString_ascii hc, hne, sliceFrom_drop h2, hrun, setType_natCast _ _ _ _ hp1]
    simp only [nd1] at hset1
    simp [setRight_natCast _ _ _ _ hset1, nd1, nd2]
  · refine h.replace_ext hex rfl rfl rfl (by simp) ?_ ?_ (by simp [Trie.addrs])
    · intro b hb
      have hbp : p ≠ b := fun hc => hb (by simp [Trie.addrs, hc])
      simp only [List.set_set]
      exact getElem?_set_other _ _ _ _ hbp
    · simp only [List.set_set, Trie.Laid]
      refine ⟨getElem?_set_self' _ _ _ hp1_lt, ?_, ?_⟩
      · refine Trie.Laid.frame sub _ hl.2 (fun b hb => ?_)
        rw [getElem?_set_other _ _ _ _ (fun hc => hpsub (by rw [hc]; exact hb))]
        exact hex.frame b (h.tree_lt (by simp [Trie.addrs, hb]))
          (h.tree_not_free (by simp [Trie.addrs, hb]))
      · exact Trie.Laid.frame res _ hex.laid
          (fun b hb => getElem?_set_other _ _ _ _
            (fun hc => hfresh (List.mem_append_left _ (by rw [hc]; exact hb))))

theorem insert_superset_S (e : Int) (ix : Index) (fl : List Nat) (ctx : Path)
    (st : InsertState) (p c : Nat) (e0 : Int) (rest : List Nat)
    (h : AtFocus ix fl ctx (Trie.S p c e0))
    (hst : InsertAt ix st ctx (Trie.S p c e0) (c :: rest)) (hc : c < 128) (hr : rest ≠ []) :
    ∃ ix' fl' res, insertBody e st = some (LoopStep.exit (InsertExit.returned true ix')) ∧
      AtFocus ix' fl' ctx (Trie.R p c e0 res) ∧ res.IsChain rest e ∧
      ix'.keyCount = ix.keyCount + 1 := by
  obtain ⟨ix', fl', res, h1, h2, h3, h4, _⟩ :=
    insert_superset_S_gen e ix fl ctx st p c e0 rest h hst hc hr
  exact ⟨ix', fl', res, h1, h2, h3, h4⟩

theorem insert_superset_L (e : Int) (ix : Index) (fl : List Nat) (ctx : Path)
    (st : InsertState) (p c : Nat) (sub : Trie) (rest : List Nat)
    (h : AtFocus ix fl ctx (Trie.L p c sub))
    (hst : InsertAt ix st ctx (Trie.L p c sub) (c :: rest)) (hc : c < 128) (hr : rest ≠ []) :
    ∃ ix' fl' res, insertBody e st = some (LoopStep.exit (InsertExit.returned true ix')) ∧
      AtFocus ix' fl' ctx (Trie.K p c sub res) ∧ res.IsChain rest e ∧
      ix'.keyCount = ix.keyCount + 1 := by
  obtain ⟨ix', fl', res, h1, h2, h3, h4, _⟩ :=
    insert_superset_L_gen e ix fl ctx st p c sub rest h hst hc hr
  exact ⟨ix', fl', res, h1, h2, h3, h4⟩

/-! ## Moving the focus along the path -/

theorem AtFocus.plug_iff (ix : Index) (fl : List Nat) (ctx : Path) (t : Trie) :
    AtFocus ix fl [] (Path.plug ctx t) ↔ AtFocus ix fl ctx t := by
  have hperm : ((Path.plug ctx t).addrs ++ fl).Perm (Path.addrs ctx ++ t.addrs ++ fl) :=
    (Path.addrs_plug ctx t).append_right fl
  constructor
  · intro h
    have hl := (Path.laid_plug ix.node ctx t (-1)).mp (by simpa [Path.thread] using h.tree)
    refine ⟨?_, hl.1, hl.2, h.free, ?_⟩
    · rw [h.root]; simp [Path.rootAddr, Path.addr_plug]
    · have := h.perm
      simp only [Path.addrs, List.nil_append] at this
      exact hperm.symm.trans this
  · intro h
    refine ⟨?_, trivial, ?_, h.free, ?_⟩
    · rw [h.root]; simp [Path.rootAddr, Path.addr_plug]
    · simpa [Path.thread] using (Path.laid_plug ix.node ctx t (-1)).mpr ⟨h.path, h.tree⟩
    · simp only [Path.addrs, List.nil_append]
      exact hperm.trans h.perm

theorem AtFocus.down {ix : Index} {fl : List Nat} {ctx : Path} {t : Trie} (f : Frame)
    (h : AtFocus ix fl ctx (f.fill t)) : AtFocus ix fl (f :: ctx) t := by
  have h1 := (AtFocus.plug_iff ix fl ctx (f.fill t)).mpr h
  exact (AtFocus.plug_iff ix fl (f :: ctx) t).mp (by simpa [Path.plug] using h1)

/-! ## The side of the node above -/

theorem Path.WF.hi_le : ∀ (ctx : Path) (cnt : Nat), Path.WF ctx cnt →
    (Path.params ctx).2.2 ≤ 127 ∧ -1 ≤ (Path.params ctx).2.1 := by
  intro ctx
  induction ctx with
  | nil => intro cnt _; simp [Path.params]
  | cons f ctx ih =>
    intro cnt h
    cases f with
    | Rf p c e => simp [Path.params]
    | Xf p c => simp [Path.params]
    | Kf p c sub => simp [Path.params]
    | Ks p c n => simp [Path.params]
    | Ls p c => simp [Path.params]
    | Dl p c r =>
      simp only [Path.WF, Path.params] at h ⊢
      have := ih _ h.2.2.2
      exact ⟨by omega, this.2⟩
    | Dr p c l =>
      simp only [Path.WF, Path.params] at h ⊢
      have := ih _ h.2.2.2
      exact ⟨this.1, by omega⟩

theorem Path.WF.inSub_false : ∀ (ctx : Path) (cnt : Nat), Path.WF ctx cnt →
    (Path.params ctx).1 = none → Path.inSub ctx = false := by
  intro ctx
  induction ctx with
  | nil => intro cnt _ _; rfl
  | cons f ctx ih =>
    intro cnt h hm
    cases f with
    | Rf p c e =>
      simp only [Path.WF, Path.params, Option.map_eq_none'] at h hm
      simpa [Path.inSub] using ih _ h.2.2.2 hm
    | Xf p c =>
      simp only [Path.WF, Path.params, Option.map_eq_none'] at h hm
      simpa [Path.inSub] using ih _ h.2.2 hm
    | Kf p c sub =>
      simp only [Path.WF, Path.params] at h
      simpa [Path.inSub] using ih _ h.2.2.2.2.2 h.1
    | Ks p c n => simp [Path.params] at hm
    | Ls p c => simp [Path.params] at hm
    | Dl p c r =>
      simp only [Path.WF, Path.params] at h hm
      simpa [Path.inSub] using ih _ h.2.2.2 hm
    | Dr p c l =>
      simp only [Path.WF, Path.params] at h hm
      simpa [Path.inSub] using ih _ h.2.2.2 hm

/-- The test by which `Insert` picks the pointer of the node above that it
rewrites is true exactly when the subtree hangs on the left pointer. -/
theorem link_rule (e : Int) (f : Frame) (ctx : Path) (cnt : Nat) (k : Nat) (rest : List Nat)
    (th a : Int) (hwf : Path.WF (f :: ctx) cnt) (hk : KeyOk e (f :: ctx) (k :: rest)) :
    (((f.node th a).indexType = decisionNode ∧
        strLe [k] (byteToString (f.node th a).keyCharacter) = true) ∨
      (f.node th a).indexType = duplicateTerminalNode ∨
      ((f.node th a).indexType = duplicateKeyNode ∧ Path.inSub (f :: ctx) = true)) ↔
    f.holeLeft = true := by
  obtain ⟨_, ⟨k', rest', hkk, hlo, hhi⟩, _⟩ := hk
  cases hkk
  cases f with
  | Rf p c e' => simp [Frame.node, Frame.holeLeft]
  | Xf p c => simp [Frame.node, Frame.holeLeft]
  | Kf p c sub =>
    simp only [Path.WF] at hwf
    have := Path.WF.inSub_false ctx _ hwf.2.2.2.2.2 hwf.1
    simp [Frame.node, Frame.holeLeft, Path.inSub, this]
  | Ks p c n => simp [Frame.node, Frame.holeLeft, Path.inSub]
  | Ls p c => simp [Frame.node, Frame.holeLeft]
  | Dl p c r =>
    simp only [Path.WF] at hwf
    simp only [Path.params] at hlo hhi
    have hb := Path.WF.hi_le ctx _ hwf.2.2.2
    have hc : c < 128 := by omega
    have hkc : k ≤ c := by omega
    simp [Frame.node, Frame.holeLeft, byteToString_ascii hc, strLe_single, hkc]
  | Dr p c l =>
    simp only [Path.WF] at hwf
    simp only [Path.params] at hlo hhi
    have hb := Path.WF.hi_le ctx _ hwf.2.2.2
    have hc : c < 128 := by omega
    have hkc : ¬ k ≤ c := by omega
    simp [Frame.node, Frame.holeLeft, byteToString_ascii hc, strLe_single, hkc]

theorem link_rule_gen (f : Frame) (ctx : Path) (k : Nat) (th a : Int)
    (hl : Path.LinkOk (f :: ctx) k) :
    (((f.node th a).indexType = decisionNode ∧
        strLe [k] (byteToString (f.node th a).keyCharacter) = true) ∨
      (f.node th a).indexType = duplicateTerminalNode ∨
      ((f.node th a).indexType = duplicateKeyNode ∧ Path.inSub (f :: ctx) = true)) ↔
    f.holeLeft = true := by
  cases f with
  | Rf p c e' => simp [Frame.node, Frame.holeLeft]
  | Xf p c => simp [Frame.node, Frame.holeLeft]
  | Kf p c sub =>
    simp only [Path.LinkOk] at hl
    simp [Frame.node, Frame.holeLeft, Path.inSub, hl]
  | Ks p c n => simp [Frame.node, Frame.holeLeft, Path.inSub]
  | Ls p c => simp [Frame.node, Frame.holeLeft]
  | Dl p c r =>
    simp only [Path.LinkOk] at hl
    simp [Frame.node, Frame.holeLeft, hl]
  | Dr p c l =>
    simp only [Path.LinkOk] at hl
    simp [Frame.node, Frame.holeLeft, hl]

theorem Path.LinkOk.link_of_wf (e : Int) (ctx : Path) (cnt : Nat) (k : Nat) (rest : List Nat)
    (hwf : Path.WF ctx cnt) (hk : KeyOk e ctx (k :: rest)) : Path.LinkOk ctx k := by
  obtain ⟨_, ⟨k', rest', hkk, hlo, hhi⟩, _⟩ := hk
  cases hkk
  cases ctx with
  | nil => trivial
  | cons f ctx =>
    cases f with
    | Rf p c e' => trivial
    | Xf p c => trivial
    | Kf p c sub =>
      simp only [Path.WF] at hwf
      exact Path.WF.inSub_false ctx _ hwf.2.2.2.2.2 hwf.1
    | Ks p c n => trivial
    | Ls p c => trivial
    | Dl p c r =>
      simp only [Path.WF] at hwf
      simp only [Path.params] at hlo hhi
      have hb := Path.WF.hi_le ctx _ hwf.2.2.2
      have hc : c < 128 := by omega
      have hkc : k ≤ c := by omega
      simp [Path.LinkOk, byteToString_ascii hc, strLe_single, hkc]
    | Dr p c l =>
      simp only [Path.WF] at hwf
      simp only [Path.params] at hlo hhi
      have hb := Path.WF.hi_le ctx _ hwf.2.2.2
      have hc : c < 128 := by omega
      have hkc : ¬ k ≤ c := by omega
      simp [Path.LinkOk, byteToString_ascii hc, strLe_single, hkc]

/-! ## Comparisons of one key byte with the string of a node byte -/

theorem single_eq_byteToString (k c : Nat) : [k] = byteToString c ↔ c < 128 ∧ k = c := by
  unfold byteToString
  by_cases h : c < 128
  · simp [h]
  · simp [h]

theorem strLt_asymm : ∀ a b : List Nat, strLt a b = true → strLt b a = false := by
  intro a
  induction a with
  | nil =>
    intro b _
    cases b <;> rfl
  | cons x xs ih =>
    intro b h
    cases b with
    | nil => simp [strLt] at h
    | cons y ys =>
      simp only [strLt, Bool.or_eq_true, decide_eq_true_eq, Bool.and_eq_true] at h
      simp only [strLt, Bool.or_eq_false_iff, decide_eq_false_iff_not, Bool.and_eq_false_iff]
      rcases h with h | ⟨h1, h2⟩
      · exact ⟨by omega, Or.inl (by omega)⟩
      · exact ⟨by omega, Or.inr (ih ys h2)⟩

theorem strLt_total_single (k c : Nat) (hne : [k] ≠ byteToString c) :
    strLt [k] (byteToString c) = true ∨ strLt (byteToString c) [k] = true := by
  unfold byteToString at hne ⊢
  by_cases h : c < 128
  · simp only [h, if_true] at hne ⊢
    have hkc : k ≠ c := fun hc => hne (by rw [hc])
    simp only [strLt_single, decide_eq_true_eq]
    omega
  · simp only [h, if_false]
    simp only [strLt, Bool.and_false, Bool.or_false, Bool.and_true, decide_eq_true_eq,
      Bool.or_eq_true]
    omega

/-! ## Insert: the key diverges -/

theorem Trie.node_char (t : Trie) (th : Int) : (t.node th).keyCharacter = t.char := by
  cases t <;> rfl

theorem insert_diverge_exit_gen (e : Int) (ix : Index) (st : InsertState) (ctx : Path) (t : Trie)
    (th : Int) (k : Nat) (rest : List Nat) (hl : Trie.Laid ix.node t th)
    (hst : InsertAt ix st ctx t (k :: rest)) (hkc : [k] ≠ byteToString t.char)
    (hD : ∀ p c l r, t ≠ Trie.D p c l r) :
    insertBody e st = some (LoopStep.exit (InsertExit.diverged st)) := by
  obtain ⟨six, sks, skl, sprev, sptr, sdup, si⟩ := st
  obtain ⟨h1, h2, h3, h4, h5, h6⟩ := hst
  simp only at h1 h2 h3 h4 h5 h6
  subst h1 h3 h4 h5 h6
  cases t with
  | S p c e' =>
    simp only [Trie.char] at hkc
    simp [insertBody, show six.node[p]? = _ from hl, sliceOne_drop h2, hkc]
  | R p c e' n =>
    simp only [Trie.char] at hkc
    simp [insertBody, show six.node[p]? = _ from hl.1, sliceOne_drop h2, hkc]
  | X p c n =>
    simp only [Trie.char] at hkc
    simp [insertBody, show six.node[p]? = _ from hl.1, sliceOne_drop h2, hkc]
  | D p c l r => exact absurd rfl (hD p c l r)
  | L p c sub =>
    simp only [Trie.char] at hkc
    simp [insertBody, show six.node[p]? = _ from hl.1, sliceOne_drop h2, hkc]
  | K p c sub n =>
    simp only [Trie.char] at hkc
    simp [insertBody, show six.node[p]? = _ from hl.1, sliceOne_drop h2, hkc]

theorem insert_diverge_exit (e : Int) (ix : Index) (st : InsertState) (ctx : Path) (t : Trie)
    (th : Int) (k : Nat) (rest : List Nat) (hl : Trie.Laid ix.node t th)
    (hst : InsertAt ix st ctx t (k :: rest)) (_hc : t.char < 128) (hkc : k ≠ t.char)
    (hD : ∀ p c l r, t ≠ Trie.D p c l r) :
    insertBody e st = some (LoopStep.exit (InsertExit.diverged st)) :=
  insert_diverge_exit_gen e ix st ctx t th k rest hl hst
    (fun hc2 => hkc ((single_eq_byteToString k t.char).mp hc2).2) hD

/-! ## Insert: linking the new decision node -/

/-- The last step of `Insert`: the new decision node `dp`, root of the tree
`t'` that replaces `t`, is linked below the node above, or made the root. -/
theorem branch_link_gen (ix ix3 : Index) (fl fl3 : List Nat) (ctx : Path) (t t' : Trie)
    (dp : Nat) (ns4 : List indexNode) (k : Nat)
    (h : AtFocus ix fl ctx t) (hlk : Path.LinkOk ctx k)
    (haddr : t'.addr = dp)
    (htree : Trie.Laid ns4 t' (Path.thread ctx (-1)))
    (hpath : ∀ b ∈ Path.addrs ctx, ns4[b]? = ix.node[b]?)
    (hfree : FreeList ns4 ix3.deletedRootPointer fl3)
    (hroot : ix3.indexRootPointer = ix.indexRootPointer)
    (hlen : ix.node.length ≤ ns4.length)
    (hperm : (t'.addrs ++ fl3).Perm
      (t.addrs ++ fl ++ List.range' ix.node.length (ns4.length - ix.node.length))) :
    ∃ ix', (if Path.prev ctx = nullIndexPointer then
        some (true, { ix3 with node := ns4, indexRootPointer := (dp : Int),
                               keyCount := ix3.keyCount + 1 })
      else
        match getNode ns4 (Path.prev ctx) with
        | none => none
        | some pn =>
          match (if (pn.indexType = decisionNode ∧
                      strLe [k] (byteToString pn.keyCharacter) = true) ∨
                    pn.indexType = duplicateTerminalNode ∨
                    (pn.indexType = duplicateKeyNode ∧ Path.inSub ctx = true) then
                  setLeft ns4 (Path.prev ctx) (dp : Int)
                else setRight ns4 (Path.prev ctx) (dp : Int)) with
          | none => none
          | some ns5 =>
            some (true, { ix3 with node := ns5, keyCount := ix3.keyCount + 1 })) =
        some (true, ix') ∧
      AtFocus ix' fl3 ctx t' ∧ ix'.keyCount = ix3.keyCount + 1 ∧
      ix'.node.length = ns4.length := by
  have hdisj : ∀ b ∈ Path.addrs ctx, b ∉ t'.addrs ++ fl3 := by
    intro b hb hc
    have h2 := (hperm.mem_iff).mp hc
    rcases List.mem_append.mp h2 with h3 | h3
    · rcases List.mem_append.mp h3 with h4 | h4
      · exact h.tree_not_path h4 hb
      · exact h.path_not_free hb h4
    · have := (List.mem_range'_1.mp h3).1
      have := h.path_lt hb
      omega
  have hpermAll : (Path.addrs ctx ++ t'.addrs ++ fl3).Perm (List.range ns4.length) := by
    rw [List.append_assoc]
    refine (hperm.append_left _).trans ?_
    rw [← List.append_assoc, ← List.append_assoc]
    refine (h.perm.append_right _).trans ?_
    rw [range_append_range' _ _ hlen]
  cases ctx with
  | nil =>
    refine ⟨{ ix3 with node := ns4, indexRootPointer := (dp : Int),
                        keyCount := ix3.keyCount + 1 }, by simp [Path.prev], ?_, rfl, rfl⟩
    exact ⟨by simp [Path.rootAddr, haddr], trivial, htree, hfree, hpermAll⟩
  | cons f ctx' =>
    have hfa : f.addr ∈ Path.addrs (f :: ctx') := by
      simp [Path.addrs, f.addr_mem_addrs_frame]
    have hpn : ns4[f.addr]? = some (f.node (Path.thread ctx' (-1)) (t.addr : Int)) := by
      rw [hpath _ hfa]; exact h.path.1.node_frame
    have hlt : f.addr < ns4.length := lt_length_of_getElem? hpn
    have hrule := link_rule_gen f ctx' k (Path.thread ctx' (-1)) (t.addr : Int) hlk
    have hnn : Path.prev (f :: ctx') ≠ nullIndexPointer := natCast_ne_null _
    let ns5 := ns4.set f.addr (f.node (Path.thread ctx' (-1)) (dp : Int))
    have hcode : (if ((f.node (Path.thread ctx' (-1)) (t.addr : Int)).indexType = decisionNode ∧
          strLe [k] (byteToString (f.node (Path.thread ctx' (-1)) (t.addr : Int)).keyCharacter)
            = true) ∨
          (f.node (Path.thread ctx' (-1)) (t.addr : Int)).indexType = duplicateTerminalNode ∨
          ((f.node (Path.thread ctx' (-1)) (t.addr : Int)).indexType = duplicateKeyNode ∧
            Path.inSub (f :: ctx') = true) then
          setLeft ns4 (Path.prev (f :: ctx')) (dp : Int)
        else setRight ns4 (Path.prev (f :: ctx')) (dp : Int)) = some ns5 := by
      by_cases hh : f.holeLeft = true
      · rw [if_pos (hrule.mpr hh)]
        simp only [Path.prev, setLeft_natCast _ _ _ _ hpn, Frame.node_setLeft _ _ _ _ hh, ns5]
      · rw [if_neg (fun hc => hh (hrule.mp hc))]
        have hh' : f.holeLeft = false := by simpa using hh
        simp only [Path.prev, setRight_natCast _ _ _ _ hpn, Frame.node_setRight _ _ _ _ hh', ns5]
    refine ⟨{ ix3 with node := ns5, keyCount := ix3.keyCount + 1 }, ?_, ?_, rfl,
      by simp [ns5]⟩
    · rw [if_neg hnn]
      simp only [Path.prev, getNode_natCast, hpn]
      simp only [Path.prev] at hcode
      rw [hcode]
    · have hft : f.addr ∉ t'.addrs ++ fl3 := hdisj _ hfa
      refine ⟨by simp [hroot, h.root, Path.rootAddr], ?_, ?_, ?_, by simpa [ns5] using hpermAll⟩
      · rw [haddr]
        have hp4 : Path.Laid ns4 (f :: ctx') (-1) (t.addr : Int) :=
          Path.Laid.frame_path _ _ _ h.path (fun b hb => hpath b hb)
        refine Path.Laid.relink f ctx' (-1) (t.addr : Int) (dp : Int) hp4 ?_ ?_ h.path_nodup
        · exact getElem?_set_self' _ _ _ hlt
        · intro b hb hne
          rw [getElem?_set_other _ _ _ _ (fun hc => hne hc.symm)]
      · exact Trie.Laid.frame t' _ htree (fun b hb =>
          getElem?_set_other _ _ _ _ (fun hc => hft (List.mem_append_left _ (by rw [hc]; exact hb))))
      · exact FreeList.frame_free fl3 _ hfree (fun b hb =>
          getElem?_set_other _ _ _ _ (fun hc => hft (List.mem_append_right _ (by rw [hc]; exact hb))))

/-- The same with the well-formedness of the path in the place of what the
descent knows. -/
theorem branch_link (e : Int) (ix ix3 : Index) (fl fl3 : List Nat) (ctx : Path) (t t' : Trie)
    (dp : Nat) (ns4 : List indexNode) (k : Nat) (rest : List Nat) (cnt : Nat)
    (h : AtFocus ix fl ctx t) (hwf : Path.WF ctx cnt) (hk : KeyOk e ctx (k :: rest))
    (haddr : t'.addr = dp)
    (htree : Trie.Laid ns4 t' (Path.thread ctx (-1)))
    (hpath : ∀ b ∈ Path.addrs ctx, ns4[b]? = ix.node[b]?)
    (hfree : FreeList ns4 ix3.deletedRootPointer fl3)
    (hroot : ix3.indexRootPointer = ix.indexRootPointer)
    (hlen : ix.node.length ≤ ns4.length)
    (hperm : (t'.addrs ++ fl3).Perm
      (t.addrs ++ fl ++ List.range' ix.node.length (ns4.length - ix.node.length))) :
    ∃ ix', (if Path.prev ctx = nullIndexPointer then
        some (true, { ix3 with node := ns4, indexRootPointer := (dp : Int),
                               keyCount := ix3.keyCount + 1 })
      else
        match getNode ns4 (Path.prev ctx) with
        | none => none
        | some pn =>
          match (if (pn.indexType = decisionNode ∧
                      strLe [k] (byteToString pn.keyCharacter) = true) ∨
                    pn.indexType = duplicateTerminalNode ∨
                    (pn.indexType = duplicateKeyNode ∧ Path.inSub ctx = true) then
                  setLeft ns4 (Path.prev ctx) (dp : Int)
                else setRight ns4 (Path.prev ctx) (dp : Int)) with
          | none => none
          | some ns5 =>
            some (true, { ix3 with node := ns5, keyCount := ix3.keyCount + 1 })) =
        some (true, ix') ∧
      AtFocus ix' fl3 ctx t' ∧ ix'.keyCount = ix3.keyCount + 1 := by
  obtain ⟨ix', h1, h2, h3, _⟩ := branch_link_gen ix ix3 fl fl3 ctx t t' dp ns4 k h
    (Path.LinkOk.link_of_wf e ctx cnt k rest hwf hk) haddr htree hpath hfree hroot hlen hperm
  exact ⟨ix', h1, h2, h3⟩

/-! ## Insert: the new branch -/

theorem alloc_extend_perm {ix ix1 ix2 ix3 : Index} {fl fl1 fl3 : List Nat} {dp : Nat}
    {nd : indexNode} {res : Trie} {nb : Int} (hA : Allocated ix ix1 fl fl1 dp nd)
    (hex : Extended ix2 ix3 fl1 fl3 [] res nb) (hlen : ix2.node.length = ix1.node.length) :
    (dp :: (res.addrs ++ fl3)).Perm
      (fl ++ List.range' ix.node.length (ix3.node.length - ix.node.length)) := by
  have h1 := hex.perm
  simp only [List.nil_append] at h1
  rw [hlen] at h1
  have hl3 := hex.len
  rw [hlen] at hl3
  refine (h1.cons dp).trans ?_
  rw [← List.cons_append]
  refine (hA.perm.append_right _).trans ?_
  rw [List.append_assoc, ← range'_split _ _ _ hA.len hl3]

theorem Allocated.not_mem {ix ix1 : Index} {fl fl1 : List Nat} {dp : Nat} {nd : indexNode}
    (hA : Allocated ix ix1 fl fl1 dp nd) {b : Nat} (hb : b < ix.node.length) (hbf : b ∉ fl) :
    b ∉ fl1 := by
  intro hc
  have h2 := (hA.perm.mem_iff).mp (List.mem_cons_of_mem _ hc)
  rcases List.mem_append.mp h2 with h3 | h3
  · exact hbf h3
  · have := (List.mem_range'_1.mp h3).1; omega

theorem insert_branch_lt_gen (e : Int) (ix : Index) (fl : List Nat) (ctx : Path)
    (st : InsertState) (t : Trie) (k : Nat) (rest : List Nat)
    (h : AtFocus ix fl ctx t) (hst : InsertAt ix st ctx t (k :: rest))
    (hlk : Path.LinkOk ctx k)
    (hlt : strLt [k] (byteToString t.char) = true) :
    ∃ ix' fl' res dp, (∀ fuel, insertBranch fuel e st = some (true, ix')) ∧
      res.IsChain (k :: rest) e ∧
      AtFocus ix' fl' ctx (Trie.D dp k res t) ∧ ix'.keyCount = ix.keyCount + 1 ∧
      Taken ix.node.length ix'.node.length fl fl' := by
  obtain ⟨six, sks, skl, sprev, sptr, sdup, si⟩ := st
  obtain ⟨h1, h2, h3, h4, h5, h6⟩ := hst
  simp only at h1 h2 h3 h4 h5 h6
  subst h1 h3 h4 h5 h6
  obtain ⟨dp, ix1, fl1, halloc, hA⟩ :=
    allocNode_spec ⟨decisionNode, 0, 0, 0⟩ six fl h.free h.fl_nodup
  have hdp1 : dp < ix1.node.length := lt_length_of_getElem? hA.node
  have hnode1 : ix1.node[t.addr]? = some (t.node (Path.thread ctx (-1))) := by
    rw [hA.frame _ (h.tree_lt t.addr_mem_addrs) (h.tree_not_free t.addr_mem_addrs)]
    exact h.tree.node
  obtain ⟨res, ix3, fl3, hrun, hch, hex⟩ :=
    extend_spec (k :: rest) e (dp : Int) ix1 fl1 (by simp) hA.free hA.nodup
  have hold : ∀ b, b < six.node.length → b ∉ fl → ix3.node[b]? = six.node[b]? := by
    intro b hb hbf
    rw [hex.frame b (by have := hA.len; omega) (hA.not_mem hb hbf)]
    exact hA.frame b hb hbf
  have hnode3 : ix3.node[t.addr]? = some (t.node (Path.thread ctx (-1))) := by
    rw [hold _ (h.tree_lt t.addr_mem_addrs) (h.tree_not_free t.addr_mem_addrs)]
    exact h.tree.node
  have hdp3 : ix3.node[dp]? = some ⟨decisionNode, 0, 0, 0⟩ := by
    rw [hex.frame dp hdp1 hA.fresh]; exact hA.node
  have hdp3_lt : dp < ix3.node.length := lt_length_of_getElem? hdp3
  have hdpfresh := hex.fresh hdp1 hA.fresh
  let ns4 := ix3.node.set dp ⟨decisionNode, (res.addr : Int), k, (t.addr : Int)⟩
  have hne4 : ∀ b, b < six.node.length → b ∉ fl → ns4[b]? = six.node[b]? := by
    intro b hb hbf
    rw [getElem?_set_other _ _ _ _ (fun hc => hA.other b hb hbf hc.symm)]
    exact hold b hb hbf
  obtain ⟨ix', hlink, hfoc, hcnt, hlen'⟩ := branch_link_gen six ix3 fl fl3 ctx t
    (Trie.D dp k res t) dp ns4 k h hlk rfl
    (by
      refine ⟨getElem?_set_self' _ _ _ hdp3_lt, ?_, ?_⟩
      · exact Trie.Laid.frame res _ hex.laid (fun b hb =>
          getElem?_set_other _ _ _ _
            (fun hc => hdpfresh (List.mem_append_left _ (by rw [hc]; exact hb))))
      · exact Trie.Laid.frame t _ h.tree (fun b hb =>
          hne4 b (h.tree_lt hb) (h.tree_not_free hb)))
    (fun b hb => hne4 b (h.path_lt hb) (h.path_not_free hb))
    (FreeList.frame_free fl3 _ hex.free (fun b hb =>
      getElem?_set_other _ _ _ _
        (fun hc => hdpfresh (List.mem_append_right _ (by rw [hc]; exact hb)))))
    (hex.root.trans hA.root)
    (by simp only [ns4, List.length_set]; exact le_trans hA.len hex.len)
    (by
      simp only [ns4, List.length_set, Trie.addrs, List.cons_append, List.append_assoc]
      have hp := alloc_extend_perm hA hex rfl
      refine List.Perm.trans ?_ (hp.append_left t.addrs)
      refine List.Perm.trans ?_ List.perm_middle.symm
      refine List.Perm.cons _ ?_
      rw [← List.append_assoc, ← List.append_assoc]
      exact List.Perm.append_right _ List.perm_append_comm)
  simp only [ns4, List.length_set] at hlen'
  refine ⟨ix', fl3, res, dp, ?_, hch, hfoc, by rw [hcnt, hex.count, hA.count],
    by rw [hlen']; exact hA.taken.then hex.taken⟩
  intro fuel
  rw [← hlink]
  unfold insertBranch
  simp only []
  split
  · rename_i heq
    exact absurd (heq.symm.trans halloc) (by simp)
  rename_i dp' ix1' heq
  have hinj : some (dp', ix1') = some ((dp : Int), ix1) := heq.symm.trans halloc
  simp only [Option.some.injEq, Prod.mk.injEq] at hinj
  obtain ⟨hdp', hix1'⟩ := hinj
  subst hdp' hix1'
  have hgt : strGt [k] (byteToString (t.node (Path.thread ctx (-1))).keyCharacter) = false := by
    rw [Trie.node_char]; exact strLt_asymm _ _ hlt
  have hltb : strLt [k] (byteToString (t.node (Path.thread ctx (-1))).keyCharacter) = true := by
    rw [Trie.node_char]; exact hlt
  have hset1 : (ix3.node.set dp ⟨decisionNode, (res.addr : Int), 0, 0⟩)[dp]? =
      some ⟨decisionNode, (res.addr : Int), 0, 0⟩ := getElem?_set_self' _ _ _ hdp3_lt
  have hset2 : (ix3.node.set dp ⟨decisionNode, (res.addr : Int), k, 0⟩)[dp]? =
      some ⟨decisionNode, (res.addr : Int), k, 0⟩ := getElem?_set_self' _ _ _ hdp3_lt
  simp only [sliceOne_drop h2, getNode_natCast, hnode1, hgt, sliceFrom_drop_self h2, hrun,
    hnode3, hltb, if_true, setLeft_natCast _ _ _ _ hdp3, setChar_natCast _ _ _ _ hset1,
    getD_of_drop h2, List.set_set, Bool.false_eq_true, if_false]
  rw [setRight_natCast _ _ _ _ hset2]
  simp only [List.set_set]
  try rfl

theorem insert_branch_lt (e : Int) (ix : Index) (fl : List Nat) (ctx : Path)
    (st : InsertState) (t : Trie) (k : Nat) (rest : List Nat) (cnt : Nat)
    (h : AtFocus ix fl ctx t) (hst : InsertAt ix st ctx t (k :: rest))
    (hwf : Path.WF ctx cnt) (hk : KeyOk e ctx (k :: rest))
    (hc : t.char < 128) (hlt : k < t.char) :
    ∃ ix' fl' res dp, (∀ fuel, insertBranch fuel e st = some (true, ix')) ∧
      res.IsChain (k :: rest) e ∧
      AtFocus ix' fl' ctx (Trie.D dp k res t) ∧ ix'.keyCount = ix.keyCount + 1 := by
  obtain ⟨ix', fl', res, dp, h1, h2, h3, h4, _⟩ :=
    insert_branch_lt_gen e ix fl ctx st t k rest h hst (Path.LinkOk.link_of_wf e ctx cnt k rest hwf hk)
      (by rw [byteToString_ascii hc, strLt_single]; simpa using hlt)
  exact ⟨ix', fl', res, dp, h1, h2, h3, h4⟩

theorem insert_branch_gt_gen (e : Int) (ix : Index) (fl : List Nat) (ctx : Path)
    (st : InsertState) (t : Trie) (k : Nat) (rest : List Nat)
    (h : AtFocus ix fl ctx t) (hst : InsertAt ix st ctx t (k :: rest))
    (hlk : Path.LinkOk ctx k)
    (hgt : strLt (byteToString t.char) [k] = true) :
    ∃ ix' fl' res dp, (∀ fuel, t.size ≤ fuel → insertBranch fuel e st = some (true, ix')) ∧
      res.IsChain (k :: rest) e ∧
      AtFocus ix' fl' ctx (Trie.D dp t.char t res) ∧ ix'.keyCount = ix.keyCount + 1 ∧
      Taken ix.node.length ix'.node.length fl fl' := by
  obtain ⟨six, sks, skl, sprev, sptr, sdup, si⟩ := st
  obtain ⟨h1, h2, h3, h4, h5, h6⟩ := hst
  simp only at h1 h2 h3 h4 h5 h6
  subst h1 h3 h4 h5 h6
  obtain ⟨dp, ix1, fl1, halloc, hA⟩ :=
    allocNode_spec ⟨decisionNode, 0, 0, 0⟩ six fl h.free h.fl_nodup
  have hdp1 : dp < ix1.node.length := lt_length_of_getElem? hA.node
  have hl1 : Trie.Laid ix1.node t (Path.thread ctx (-1)) :=
    Trie.Laid.frame t _ h.tree (fun b hb => hA.frame b (h.tree_lt hb) (h.tree_not_free hb))
  have hnode1 : ix1.node[t.addr]? = some (t.node (Path.thread ctx (-1))) := hl1.node
  obtain ⟨tn, htn, htnr, _⟩ := Trie.Laid.lastTerm t _ hl1
  have hlt_mem := t.lastTerm_mem
  have hlt_ne : t.lastTerm ≠ dp :=
    hA.other _ (h.tree_lt hlt_mem) (h.tree_not_free hlt_mem)
  let ns2 := ix1.node.set t.lastTerm { tn with rightPointer := (dp : Int) }
  let ix2 : Index := { ix1 with node := ns2 }
  have hl2 : Trie.Laid ns2 t (dp : Int) := Trie.Laid.rethread t _ _ hl1 h.tree_nodup tn htn
  have hfl2 : FreeList ix2.node ix2.deletedRootPointer fl1 :=
    FreeList.frame_free fl1 _ hA.free (fun b hb => getElem?_set_other _ _ _ _
      (fun hc => hA.not_mem (h.tree_lt hlt_mem) (h.tree_not_free hlt_mem) (by rw [hc]; exact hb)))
  have hlen2 : ix2.node.length = ix1.node.length := by simp [ix2, ns2]
  obtain ⟨res, ix3, fl3, hrun, hch, hex⟩ :=
    extend_spec (k :: rest) e (Path.thread ctx (-1)) ix2 fl1 (by simp) hfl2 hA.nodup
  have hold : ∀ b, b < six.node.length → b ∉ fl → ix3.node[b]? = ns2[b]? := by
    intro b hb hbf
    exact hex.frame b (by rw [hlen2]; have := hA.len; omega) (hA.not_mem hb hbf)
  have hl3 : Trie.Laid ix3.node t (dp : Int) :=
    Trie.Laid.frame t _ hl2 (fun b hb => hold b (h.tree_lt hb) (h.tree_not_free hb))
  have hnode3 : ix3.node[t.addr]? = some (t.node (dp : Int)) := hl3.node
  have hdp3 : ix3.node[dp]? = some ⟨decisionNode, 0, 0, 0⟩ := by
    rw [hex.frame dp (by rw [hlen2]; exact hdp1) hA.fresh]
    simp only [ix2, ns2]
    rw [getElem?_set_other _ _ _ _ hlt_ne]; exact hA.node
  have hdp3_lt : dp < ix3.node.length := lt_length_of_getElem? hdp3
  have hdpfresh := hex.fresh (by rw [hlen2]; exact hdp1) hA.fresh
  have hdpt : dp ∉ t.addrs := fun hc =>
    hA.other _ (h.tree_lt hc) (h.tree_not_free hc) rfl
  let ns4 := ix3.node.set dp ⟨decisionNode, (t.addr : Int), t.char, (res.addr : Int)⟩
  obtain ⟨ix', hlink, hfoc, hcnt, hlen'⟩ := branch_link_gen six ix3 fl fl3 ctx t
    (Trie.D dp t.char t res) dp ns4 k h hlk rfl
    (by
      refine ⟨getElem?_set_self' _ _ _ hdp3_lt, ?_, ?_⟩
      · exact Trie.Laid.frame t _ hl3 (fun b hb =>
          getElem?_set_other _ _ _ _ (fun hc => hdpt (by rw [hc]; exact hb)))
      · exact Trie.Laid.frame res _ hex.laid (fun b hb =>
          getElem?_set_other _ _ _ _
            (fun hc => hdpfresh (List.mem_append_left _ (by rw [hc]; exact hb)))))
    (by
      intro b hb
      rw [getElem?_set_other _ _ _ _
        (fun hc => hA.other b (h.path_lt hb) (h.path_not_free hb) hc.symm),
        hold b (h.path_lt hb) (h.path_not_free hb)]
      simp only [ns2]
      rw [getElem?_set_other _ _ _ _ (fun hc => h.tree_not_path hlt_mem (by rw [hc]; exact hb))]
      exact hA.frame b (h.path_lt hb) (h.path_not_free hb))
    (FreeList.frame_free fl3 _ hex.free (fun b hb =>
      getElem?_set_other _ _ _ _
        (fun hc => hdpfresh (List.mem_append_right _ (by rw [hc]; exact hb)))))
    (hex.root.trans hA.root)
    (by simp only [ns4, List.length_set]
        have := hex.len; rw [hlen2] at this; exact le_trans hA.len this)
    (by
      simp only [ns4, List.length_set, Trie.addrs, List.cons_append, List.append_assoc]
      have hp := alloc_extend_perm hA hex hlen2
      refine List.Perm.trans ?_ (hp.append_left t.addrs)
      exact List.perm_middle.symm)
  simp only [ns4, List.length_set] at hlen'
  refine ⟨ix', fl3, res, dp, ?_, hch, hfoc, by rw [hcnt, hex.count]; exact congrArg (· + 1) hA.count,
    by rw [hlen']; exact hA.taken.then (by rw [← hlen2]; exact hex.taken)⟩
  have hrun' : extend (k :: rest) e tn.rightPointer
      { indexRootPointer := ix1.indexRootPointer, node := ns2,
        deletedRootPointer := ix1.deletedRootPointer, keyCount := ix1.keyCount } =
      some ((res.addr : Int), ix3) := by rw [htnr]; exact hrun
  simp only [ns2] at hrun'
  intro fuel hfuel
  have hwalk := insertThread_walk ix1.node t _ hl1 fuel
    (by have := t.rightDepth_lt_size; omega)
  rw [← hlink]
  unfold insertBranch
  simp only []
  split
  · rename_i heq
    exact absurd (heq.symm.trans halloc) (by simp)
  rename_i dp' ix1' heq
  have hinj : some (dp', ix1') = some ((dp : Int), ix1) := heq.symm.trans halloc
  simp only [Option.some.injEq, Prod.mk.injEq] at hinj
  obtain ⟨hdp', hix1'⟩ := hinj
  subst hdp' hix1'
  have hgtb : strGt [k] (byteToString (t.node (Path.thread ctx (-1))).keyCharacter) = true := by
    rw [Trie.node_char]; exact hgt
  have hltb : strLt [k] (byteToString t.char) = false := strLt_asymm _ _ hgt
  have hset0 : (ix3.node.set dp ⟨decisionNode, (t.addr : Int), 0, 0⟩)[t.addr]? =
      some (t.node (dp : Int)) := by
    rw [getElem?_set_other _ _ _ _ (fun hc => hdpt (by rw [hc]; exact t.addr_mem_addrs))]
    exact hnode3
  have hset1 : (ix3.node.set dp ⟨decisionNode, (t.addr : Int), 0, 0⟩)[dp]? =
      some ⟨decisionNode, (t.addr : Int), 0, 0⟩ := getElem?_set_self' _ _ _ hdp3_lt
  have hset2 : (ix3.node.set dp ⟨decisionNode, (t.addr : Int), t.char, 0⟩)[dp]? =
      some ⟨decisionNode, (t.addr : Int), t.char, 0⟩ := getElem?_set_self' _ _ _ hdp3_lt
  simp only [sliceOne_drop h2, getNode_natCast, hnode1, hgtb, if_true, hwalk, htn,
    setRight_natCast _ _ _ _ htn, sliceFrom_drop_self h2]
  simp only [hrun', getNode_natCast, hnode3, hltb, Bool.false_eq_true, if_false,
    setLeft_natCast _ _ _ _ hdp3, hset0, setChar_natCast _ _ _ _ hset1, Trie.node_char,
    List.set_set]
  rw [setRight_natCast _ _ _ _ hset2]
  simp only [List.set_set]
  try rfl

theorem insert_branch_gt (e : Int) (ix : Index) (fl : List Nat) (ctx : Path)
    (st : InsertState) (t : Trie) (k : Nat) (rest : List Nat) (cnt : Nat)
    (h : AtFocus ix fl ctx t) (hst : InsertAt ix st ctx t (k :: rest))
    (hwf : Path.WF ctx cnt) (hk : KeyOk e ctx (k :: rest))
    (hc : t.char < 128) (hgt : t.char < k) :
    ∃ ix' fl' res dp, (∀ fuel, t.size ≤ fuel → insertBranch fuel e st = some (true, ix')) ∧
      res.IsChain (k :: rest) e ∧
      AtFocus ix' fl' ctx (Trie.D dp t.char t res) ∧ ix'.keyCount = ix.keyCount + 1 := by
  obtain ⟨ix', fl', res, dp, h1, h2, h3, h4, _⟩ :=
    insert_branch_gt_gen e ix fl ctx st t k rest h hst (Path.LinkOk.link_of_wf e ctx cnt k rest hwf hk)
      (by rw [byteToString_ascii hc, strLt_single]; simpa using hgt)
  exact ⟨ix', fl', res, dp, h1, h2, h3, h4⟩

theorem insert_dup_S_gen (e : Int) (ix : Index) (fl : List Nat) (ctx : Path)
    (st : InsertState) (p c : Nat) (e0 : Int)
    (h : AtFocus ix fl ctx (Trie.S p c e0))
    (hst : InsertAt ix st ctx (Trie.S p c e0) [c]) (hc : c < 128) (hne : e ≠ e0) :
    ∃ ix' fl' res st', insertBody e st = some (LoopStep.next st') ∧
      AtFocus ix' fl' (Frame.Ls p c :: ctx) res ∧ res.IsChain (itoa e0) e0 ∧
      InsertAt ix' st' (Frame.Ls p c :: ctx) res (itoa e) ∧
      ix'.keyCount = ix.keyCount ∧ Taken ix.node.length ix'.node.length fl fl' := by
  obtain ⟨six, sks, skl, sprev, sptr, sdup, si⟩ := st
  obtain ⟨h1, h2, h3, h4, h5, h6⟩ := hst
  simp only at h1 h2 h3 h4 h5 h6
  subst h1 h3 h4 h5 h6
  have hl : six.node[p]? = some ⟨indexTerminalNode, e0, c, Path.thread ctx (-1)⟩ := h.tree
  have hp_lt : p < six.node.length := lt_length_of_getElem? hl
  have hpt : p ∈ (Trie.S p c e0).addrs := by simp [Trie.addrs]
  obtain ⟨res, ix1, fl1, hrun, hch, hex⟩ :=
    extend_spec (itoa e0) e0 (p : Int) six fl (itoa_ne_nil e0) h.free h.fl_nodup
  have hp1 : ix1.node[p]? = some ⟨indexTerminalNode, e0, c, Path.thread ctx (-1)⟩ := by
    rw [hex.frame p hp_lt (h.tree_not_free hpt)]; exact hl
  have hp1_lt : p < ix1.node.length := lt_length_of_getElem? hp1
  have hfresh := hex.fresh hp_lt (h.tree_not_free hpt)
  let nd1 : indexNode := ⟨duplicateTerminalNode, e0, c, Path.thread ctx (-1)⟩
  let nd2 : indexNode := ⟨duplicateTerminalNode, (res.addr : Int), c, Path.thread ctx (-1)⟩
  have hset1 : (ix1.node.set p nd1)[p]? = some nd1 := getElem?_set_self' _ _ _ hp1_lt
  have hfoc : AtFocus { ix1 with node := (ix1.node.set p nd1).set p nd2 } fl1 ctx
      (Trie.L p c res) := by
    refine h.replace_ext hex rfl rfl rfl (by simp) ?_ ?_ (by simp [Trie.addrs])
    · intro b hb
      have hbp : p ≠ b := fun hc => hb (by simp [Trie.addrs, hc])
      simp only [List.set_set]
      exact getElem?_set_other _ _ _ _ hbp
    · simp only [List.set_set, Trie.Laid]
      refine ⟨getElem?_set_self' _ _ _ hp1_lt, ?_⟩
      exact Trie.Laid.frame res _ hex.laid
        (fun b hb => getElem?_set_other _ _ _ _
          (fun hc => hfresh (List.mem_append_left _ (by rw [hc]; exact hb))))
  refine ⟨{ ix1 with node := (ix1.node.set p nd1).set p nd2 }, fl1, res,
    { indexStructure := { ix1 with node := (ix1.node.set p nd1).set p nd2 },
      keyString := itoa e, keyLength := (itoa e).length,
      previousIndexPointer := (p : Int), indexPointer := (res.addr : Int),
      duplicateFlag := true, i := 0 }, ?_, AtFocus.down (Frame.Ls p c) hfoc, hch,
    ⟨rfl, rfl, rfl, rfl, rfl, rfl⟩, hex.count, by simpa using hex.taken⟩
  have hlast : si + 1 = sks.length := (last_iff_of_drop h2).mpr rfl
  have hne' : ¬ (e = e0) := hne
  simp only [insertBody, Trie.addr_S, getNode_natCast, hl, sliceOne_drop h2,
    byteToString_ascii hc, hlast, hne', decimaliseNumber, hrun, hp1,
    setType_natCast _ _ _ _ hp1]
  simp only [nd1] at hset1
  simp [setLeft_natCast _ _ _ _ hset1, nd1, nd2, indexTerminalNode, indexKeyNode]

theorem insert_dup_R_gen (e : Int) (ix : Index) (fl : List Nat) (ctx : Path)
    (st : InsertState) (p c : Nat) (e0 : Int) (n : Trie)
    (h : AtFocus ix fl ctx (Trie.R p c e0 n))
    (hst : InsertAt ix st ctx (Trie.R p c e0 n) [c]) (hc : c < 128) (hne : e ≠ e0) :
    ∃ ix' fl' res st', insertBody e st = some (LoopStep.next st') ∧
      AtFocus ix' fl' (Frame.Ks p c n :: ctx) res ∧ res.IsChain (itoa e0) e0 ∧
      InsertAt ix' st' (Frame.Ks p c n :: ctx) res (itoa e) ∧
      ix'.keyCount = ix.keyCount ∧ Taken ix.node.length ix'.node.length fl fl' := by
  obtain ⟨six, sks, skl, sprev, sptr, sdup, si⟩ := st
  obtain ⟨h1, h2, h3, h4, h5, h6⟩ := hst
  simp only at h1 h2 h3 h4 h5 h6
  subst h1 h3 h4 h5 h6
  have hl := h.tree
  simp only [Trie.Laid] at hl
  have hp_lt : p < six.node.length := lt_length_of_getElem? hl.1
  have hpt : p ∈ (Trie.R p c e0 n).addrs := by simp [Trie.addrs]
  obtain ⟨res, ix1, fl1, hrun, hch, hex⟩ :=
    extend_spec (itoa e0) e0 (p : Int) six fl (itoa_ne_nil e0) h.free h.fl_nodup
  have hp1 : ix1.node[p]? = some ⟨indexKeyNode, e0, c, (n.addr : Int)⟩ := by
    rw [hex.frame p hp_lt (h.tree_not_free hpt)]; exact hl.1
  have hp1_lt : p < ix1.node.length := lt_length_of_getElem? hp1
  have hfresh := hex.fresh hp_lt (h.tree_not_free hpt)
  let nd1 : indexNode := ⟨duplicateKeyNode, e0, c, (n.addr : Int)⟩
  let nd2 : indexNode := ⟨duplicateKeyNode, (res.addr : Int), c, (n.addr : Int)⟩
  have hset1 : (ix1.node.set p nd1)[p]? = some nd1 := getElem?_set_self' _ _ _ hp1_lt
  have hfoc : AtFocus { ix1 with node := (ix1.node.set p nd1).set p nd2 } fl1 ctx
      (Trie.K p c res n) := by
    refine h.replace_ext hex rfl rfl rfl (by simp) ?_ ?_ ?_
    · intro b hb
      have hbp : p ≠ b := fun hc => hb (by simp [Trie.addrs, hc])
      simp only [List.set_set]
      exact getElem?_set_other _ _ _ _ hbp
    · simp only [List.set_set, Trie.Laid]
      refine ⟨getElem?_set_self' _ _ _ hp1_lt, ?_, ?_⟩
      · exact Trie.Laid.frame res _ hex.laid
          (fun b hb => getElem?_set_other _ _ _ _
            (fun hc => hfresh (List.mem_append_left _ (by rw [hc]; exact hb))))
      · have hn1 : Trie.Laid ix1.node n (Path.thread ctx (-1)) :=
          Trie.Laid.frame n _ hl.2 (fun b hb =>
            hex.frame b (h.tree_lt (by simp [Trie.addrs, hb]))
              (h.tree_not_free (by simp [Trie.addrs, hb])))
        refine Trie.Laid.frame n _ hn1 (fun b hb => ?_)
        · have hbp : p ≠ b := by
            intro hc
            have := h.tree_nodup
            simp only [Trie.addrs, List.nodup_cons] at this
            exact this.1 (by rw [hc]; exact hb)
          exact getElem?_set_other _ _ _ _ hbp
    · simp only [Trie.addrs, List.cons_append]
      exact List.Perm.cons _ List.perm_append_comm
  refine ⟨{ ix1 with node := (ix1.node.set p nd1).set p nd2 }, fl1, res,
    { indexStructure := { ix1 with node := (ix1.node.set p nd1).set p nd2 },
      keyString := itoa e, keyLength := (itoa e).length,
      previousIndexPointer := (p : Int), indexPointer := (res.addr : Int),
      duplicateFlag := true, i := 0 }, ?_, AtFocus.down (Frame.Ks p c n) hfoc, hch,
    ⟨rfl, rfl, rfl, rfl, rfl, rfl⟩, hex.count, by simpa using hex.taken⟩
  have hlast : si + 1 = sks.length := (last_iff_of_drop h2).mpr rfl
  have hne' : ¬ (e = e0) := hne
  simp only [insertBody, Trie.addr_R, getNode_natCast, hl.1, sliceOne_drop h2,
    byteToString_ascii hc, hlast, hne', decimaliseNumber, hrun, hp1,
    setType_natCast _ _ _ _ hp1]
  simp only [nd1] at hset1
  simp [setLeft_natCast _ _ _ _ hset1, nd1, nd2, indexTerminalNode, indexKeyNode]

theorem insert_dup_S (e : Int) (ix : Index) (fl : List Nat) (ctx : Path)
    (st : InsertState) (p c : Nat) (e0 : Int)
    (h : AtFocus ix fl ctx (Trie.S p c e0))
    (hst : InsertAt ix st ctx (Trie.S p c e0) [c]) (hc : c < 128) (hne : e ≠ e0) :
    ∃ ix' fl' res st', insertBody e st = some (LoopStep.next st') ∧
      AtFocus ix' fl' (Frame.Ls p c :: ctx) res ∧ res.IsChain (itoa e0) e0 ∧
      InsertAt ix' st' (Frame.Ls p c :: ctx) res (itoa e) ∧
      ix'.keyCount = ix.keyCount := by
  obtain ⟨ix', fl', res, st', h1, h2, h3, h4, h5, _⟩ :=
    insert_dup_S_gen e ix fl ctx st p c e0 h hst hc hne
  exact ⟨ix', fl', res, st', h1, h2, h3, h4, h5⟩

theorem insert_dup_R (e : Int) (ix : Index) (fl : List Nat) (ctx : Path)
    (st : InsertState) (p c : Nat) (e0 : Int) (n : Trie)
    (h : AtFocus ix fl ctx (Trie.R p c e0 n))
    (hst : InsertAt ix st ctx (Trie.R p c e0 n) [c]) (hc : c < 128) (hne : e ≠ e0) :
    ∃ ix' fl' res st', insertBody e st = some (LoopStep.next st') ∧
      AtFocus ix' fl' (Frame.Ks p c n :: ctx) res ∧ res.IsChain (itoa e0) e0 ∧
      InsertAt ix' st' (Frame.Ks p c n :: ctx) res (itoa e) ∧
      ix'.keyCount = ix.keyCount := by
  obtain ⟨ix', fl', res, st', h1, h2, h3, h4, h5, _⟩ :=
    insert_dup_R_gen e ix fl ctx st p c e0 n h hst hc hne
  exact ⟨ix', fl', res, st', h1, h2, h3, h4, h5⟩

theorem Trie.elems_eq_ents : ∀ t : Trie, t.elems = t.ents.map Prod.snd := by
  intro t
  induction t with
  | S p c e => rfl
  | R p c e n ih => simp [Trie.elems, Trie.ents, ih, Function.comp_def]
  | X p c n ih => simp [Trie.elems, Trie.ents, ih, Function.comp_def]
  | D p c l r ihl ihr => simp [Trie.elems, Trie.ents, ihl, ihr]
  | L p c sub ih => simp [Trie.elems, Trie.ents, Function.comp_def]
  | K p c sub n ihs ihn => simp [Trie.elems, Trie.ents, ihn, Function.comp_def]

theorem Trie.IsChain.ents : ∀ (t : Trie) (ks : List Nat) (e : Int), t.IsChain ks e →
    t.ents = [(ks, e)] := by
  intro t
  induction t with
  | S p c e0 =>
    intro ks e h
    match ks, h with
    | [k], h => simp only [Trie.IsChain] at h; simp [Trie.ents, h.1, h.2]
  | X p c n ih =>
    intro ks e h
    match ks, h with
    | k :: k2 :: ks, h =>
      simp only [Trie.IsChain] at h
      simp [Trie.ents, ih _ _ h.2, h.1]
  | R p c e0 n _ => intro ks e h; simp [Trie.IsChain] at h
  | D p c l r _ _ => intro ks e h; simp [Trie.IsChain] at h
  | L p c sub _ => intro ks e h; simp [Trie.IsChain] at h
  | K p c sub n _ _ => intro ks e h; simp [Trie.IsChain] at h

theorem Trie.IsChain.size : ∀ (t : Trie) (ks : List Nat) (e : Int), t.IsChain ks e →
    t.size = ks.length := by
  intro t
  induction t with
  | S p c e0 =>
    intro ks e h
    match ks, h with
    | [k], h => simp [Trie.size]
  | X p c n ih =>
    intro ks e h
    match ks, h with
    | k :: k2 :: ks, h =>
      simp only [Trie.IsChain] at h
      simp [Trie.size, ih _ _ h.2]
  | R p c e0 n _ => intro ks e h; simp [Trie.IsChain] at h
  | D p c l r _ _ => intro ks e h; simp [Trie.IsChain] at h
  | L p c sub _ => intro ks e h; simp [Trie.IsChain] at h
  | K p c sub n _ _ => intro ks e h; simp [Trie.IsChain] at h

theorem Trie.IsChain.wf : ∀ (t : Trie) (ks : List Nat) (e : Int) (mode : Option (List Nat))
    (lo hi : Int), t.IsChain ks e → (∀ b ∈ ks, b < 128) →
    (∀ k rest, ks = k :: rest → lo < (k : Int) ∧ (k : Int) ≤ hi) →
    (∀ w, mode = some w → w ++ ks = itoa e) → Trie.WF mode lo hi t := by
  intro t
  induction t with
  | S p c e0 =>
    intro ks e mode lo hi h hb hk hm
    match ks, h with
    | [k], h =>
      simp only [Trie.IsChain] at h
      obtain ⟨rfl, rfl⟩ := h
      have := hk c [] rfl
      exact ⟨this.1, this.2, hm⟩
  | X p c n ih =>
    intro ks e mode lo hi h hb hk hm
    match ks, h with
    | k :: k2 :: ks, h =>
      simp only [Trie.IsChain] at h
      obtain ⟨rfl, h2⟩ := h
      have := hk c (k2 :: ks) rfl
      refine ⟨this.1, this.2, ih _ _ _ _ _ h2 (fun b hb' => hb b (by simp [hb'])) ?_ ?_⟩
      · intro k' rest' hkr
        simp only [List.cons.injEq] at hkr
        have := hb k2 (by simp)
        rw [← hkr.1]; omega
      · intro w hw
        simp only [Option.map_eq_some'] at hw
        obtain ⟨w0, hw0, rfl⟩ := hw
        rw [← hm w0 hw0]; simp
  | R p c e0 n _ => intro ks e mode lo hi h; simp [Trie.IsChain] at h
  | D p c l r _ _ => intro ks e mode lo hi h; simp [Trie.IsChain] at h
  | L p c sub _ => intro ks e mode lo hi h; simp [Trie.IsChain] at h
  | K p c sub n _ _ => intro ks e mode lo hi h; simp [Trie.IsChain] at h

/-- The bounds of a tree that is not a decision node are bounds of its key byte only. -/
theorem Trie.WF.rebound {mode : Option (List Nat)} (t : Trie) (lo hi lo' hi' : Int)
    (h : Trie.WF mode lo hi t) (hD : ∀ p c l r, t ≠ Trie.D p c l r)
    (hlo : lo' < (t.char : Int)) (hhi : (t.char : Int) ≤ hi') : Trie.WF mode lo' hi' t := by
  cases t with
  | S p c e => exact ⟨hlo, hhi, h.2.2⟩
  | R p c e n => exact ⟨hlo, hhi, h.2.2⟩
  | X p c n => exact ⟨hlo, hhi, h.2.2⟩
  | D p c l r => exact absurd rfl (hD p c l r)
  | L p c sub => exact ⟨h.1, hlo, hhi, h.2.2.2⟩
  | K p c sub n => exact ⟨h.1, hlo, hhi, h.2.2.2⟩

theorem Trie.WF.char_bounds {mode : Option (List Nat)} (t : Trie) (lo hi : Int)
    (h : Trie.WF mode lo hi t) : lo < (t.char : Int) ∧ (t.char : Int) ≤ hi := by
  cases t with
  | S p c e => exact ⟨h.1, h.2.1⟩
  | R p c e n => exact ⟨h.1, h.2.1⟩
  | X p c n => exact ⟨h.1, h.2.1⟩
  | D p c l r => exact ⟨h.1, h.2.1⟩
  | L p c sub => exact ⟨h.2.1, h.2.2.1⟩
  | K p c sub n => exact ⟨h.2.1, h.2.2.1⟩

theorem insert_same (e : Int) (ix : Index) (st : InsertState) (ctx : Path) (t : Trie)
    (th : Int) (c : Nat) (hl : Trie.Laid ix.node t th)
    (hst : InsertAt ix st ctx t [c]) (hc : c < 128)
    (ht : (∃ p, t = Trie.S p c e) ∨ (∃ p n, t = Trie.R p c e n)) :
    insertBody e st = some (LoopStep.exit (InsertExit.returned false ix)) := by
  obtain ⟨six, sks, skl, sprev, sptr, sdup, si⟩ := st
  obtain ⟨h1, h2, h3, h4, h5, h6⟩ := hst
  simp only at h1 h2 h3 h4 h5 h6
  subst h1 h3 h4 h5 h6
  have hlast : si + 1 = sks.length := (last_iff_of_drop h2).mpr rfl
  rcases ht with ⟨p, rfl⟩ | ⟨p, n, rfl⟩
  · have hl' : six.node[p]? = some ⟨indexTerminalNode, e, c, th⟩ := hl
    simp [insertBody, hl', sliceOne_drop h2, byteToString_ascii hc, hlast]
  · have hl' : six.node[p]? = some ⟨indexKeyNode, e, c, (n.addr : Int)⟩ := hl.1
    simp [insertBody, hl', sliceOne_drop h2, byteToString_ascii hc, hlast]

theorem KeyOk.bounds {e : Int} {ctx : Path} {k : Nat} {rest : List Nat}
    (hk : KeyOk e ctx (k :: rest)) :
    (Path.params ctx).2.1 < (k : Int) ∧ (k : Int) ≤ (Path.params ctx).2.2 := by
  obtain ⟨k', rest', heq, h1, h2⟩ := hk.2.1
  simp only [List.cons.injEq] at heq
  rw [heq.1]; exact ⟨h1, h2⟩

theorem KeyOk.chain_wf {e : Int} {ctx : Path} {k : Nat} {rest : List Nat} (res : Trie)
    (hk : KeyOk e ctx (k :: rest)) (hch : res.IsChain (k :: rest) e) (lo hi : Int)
    (hlo : lo < (k : Int)) (hhi : (k : Int) ≤ hi) :
    Trie.WF (Path.params ctx).1 lo hi res := by
  refine Trie.IsChain.wf res _ e _ lo hi hch hk.1 ?_ hk.2.2
  intro k' rest' heq
  simp only [List.cons.injEq] at heq
  rw [← heq.1]; exact ⟨hlo, hhi⟩

theorem KeyOk.rest_wf {e : Int} {ctx : Path} {k : Nat} {rest : List Nat} (res : Trie)
    (hk : KeyOk e ctx (k :: rest)) (hch : res.IsChain rest e) :
    Trie.WF ((Path.params ctx).1.map (fun w => w ++ [k])) (-1) 127 res := by
  refine Trie.IsChain.wf res _ e _ _ _ hch (fun b hb => hk.1 b (by simp [hb])) ?_ ?_
  · intro k' rest' heq
    have := hk.1 k' (by simp [heq])
    omega
  · intro w hw
    simp only [Option.map_eq_some'] at hw
    obtain ⟨w0, hw0, rfl⟩ := hw
    rw [← hk.2.2 w0 hw0]; simp

theorem KeyOk.rest_wf_none {e : Int} {ctx : Path} {k : Nat} {rest : List Nat} (res : Trie)
    (hk : KeyOk e ctx (k :: rest)) (hch : res.IsChain rest e) :
    Trie.WF none (-1) 127 res := by
  refine Trie.IsChain.wf res _ e _ _ _ hch (fun b hb => hk.1 b (by simp [hb])) ?_ ?_
  · intro k' rest' heq
    have := hk.1 k' (by simp [heq])
    omega
  · intro w hw; cases hw

theorem insert_stop_diverge (e : Int) (ix : Index) (fl : List Nat) (ctx : Path)
    (st : InsertState) (t : Trie) (k : Nat) (rest : List Nat)
    (h : AtFocus ix fl ctx t) (hst : InsertAt ix st ctx t (k :: rest))
    (hw : Trie.WF (Path.params ctx).1 (Path.params ctx).2.1 (Path.params ctx).2.2 t)
    (hp : Path.WF ctx (t.extra + 2)) (hk : KeyOk e ctx (k :: rest))
    (hD : ∀ p c l r, t ≠ Trie.D p c l r) (hkc : k ≠ t.char) :
    ∃ res out, insertBody e st = some (LoopStep.exit res) ∧
      (∀ f, t.size ≤ f → insertOutcome f e res = some out) ∧
      InsertedAt ix ctx t (k :: rest, e) out ∧ out.1 = true := by
  have hcb := hw.char_bounds
  have hhi := (Path.WF.hi_le ctx _ hp).1
  have hc : t.char < 128 := by omega
  have hkb := hk.bounds
  have hexit := insert_diverge_exit e ix st ctx t _ k rest h.tree hst hc hkc hD
  rcases Nat.lt_or_gt_of_ne hkc with hlt | hgt
  · obtain ⟨ix', fl', res, dp, hrun, hch, hfoc, hcnt⟩ :=
      insert_branch_lt e ix fl ctx st t k rest _ h hst hp hk hc hlt
    refine ⟨InsertExit.diverged st, (true, ix'), hexit, fun f _ => hrun f,
      Or.inr ⟨ix', fl', _, rfl, hfoc, ?_, ?_, hcnt⟩, rfl⟩
    · exact ⟨hkb.1, hkb.2, hk.chain_wf res hch _ _ hkb.1 (le_refl _),
        hw.rebound t _ _ _ _ hD (by omega) hcb.2⟩
    · simp [Trie.ents, hch.ents]
  · obtain ⟨ix', fl', res, dp, hrun, hch, hfoc, hcnt⟩ :=
      insert_branch_gt e ix fl ctx st t k rest _ h hst hp hk hc hgt
    refine ⟨InsertExit.diverged st, (true, ix'), hexit, hrun,
      Or.inr ⟨ix', fl', _, rfl, hfoc, ?_, ?_, hcnt⟩, rfl⟩
    · exact ⟨hcb.1, hcb.2, hw.rebound t _ _ _ _ hD hcb.1 (le_refl _),
        hk.chain_wf res hch _ _ (by omega) hkb.2⟩
    · simp only [Trie.ents, hch.ents]
      exact List.perm_append_comm

theorem insert_stop (e : Int) (ix : Index) (fl : List Nat) (ctx : Path)
    (st : InsertState) (t : Trie) (k : Nat) (rest : List Nat)
    (h : AtFocus ix fl ctx t) (hst : InsertAt ix st ctx t (k :: rest))
    (hw : Trie.WF (Path.params ctx).1 (Path.params ctx).2.1 (Path.params ctx).2.2 t)
    (hp : Path.WF ctx (t.extra + 2)) (hk : KeyOk e ctx (k :: rest))
    (hstop : Stops t (k :: rest))
    (hnd : ¬ ((Path.params ctx).1 = none ∧ rest = [] ∧
      ((∃ p e0, t = Trie.S p k e0 ∧ e ≠ e0) ∨ (∃ p e0 n, t = Trie.R p k e0 n ∧ e ≠ e0)))) :
    ∃ res out, insertBody e st = some (LoopStep.exit res) ∧
      (∀ f, t.size ≤ f → insertOutcome f e res = some out) ∧
      InsertedAt ix ctx t (k :: rest, e) out ∧
      (out.1 = false → (∃ p, t = Trie.S p k e) ∨ (∃ p n, t = Trie.R p k e n)) := by
  have hcb := hw.char_bounds
  have hhi := (Path.WF.hi_le ctx _ hp).1
  have hc : t.char < 128 := by omega
  by_cases hkc : k = t.char
  swap
  · obtain ⟨res, out, g1, g2, g3, g4⟩ :=
      insert_stop_diverge e ix fl ctx st t k rest h hst hw hp hk
        (by intro p c l r ht; subst ht; exact hstop) hkc
    exact ⟨res, out, g1, g2, g3, fun hf => by rw [g4] at hf; cases hf⟩
  have hsame : ∀ e0, (∀ w, (Path.params ctx).1 = some w → w ++ [k] = itoa e0) → rest = [] →
      ((∃ p, t = Trie.S p k e0) ∨ (∃ p n, t = Trie.R p k e0 n)) → e = e0 := by
    intro e0 hm hr ht
    by_contra hne
    cases hmode : (Path.params ctx).1 with
    | none =>
      refine hnd ⟨hmode, hr, ?_⟩
      rcases ht with ⟨p, rfl⟩ | ⟨p, n, rfl⟩
      · exact Or.inl ⟨p, e0, rfl, hne⟩
      · exact Or.inr ⟨p, e0, n, rfl, hne⟩
    | some w =>
      have h1 := hm w hmode
      have h2 := hk.2.2 w hmode
      rw [hr, h1] at h2
      exact hne (itoa_injective h2.symm)
  cases t with
  | S p c e0 =>
    simp only [Trie.char] at hkc hc
    subst hkc
    by_cases hr : rest = []
    · have he := hsame e0 hw.2.2 hr (Or.inl ⟨p, rfl⟩)
      subst he hr
      refine ⟨_, (false, ix), insert_same e ix st ctx _ _ k h.tree hst hc (Or.inl ⟨p, rfl⟩),
        fun f _ => rfl, Or.inl ⟨rfl, by simp [Trie.ents]⟩, fun _ => Or.inl ⟨p, rfl⟩⟩
    · obtain ⟨ix', fl', res, hrun, hfoc, hch, hcnt⟩ :=
        insert_superset_S e ix fl ctx st p k e0 rest h hst hc hr
      refine ⟨_, (true, ix'), hrun, fun f _ => rfl, Or.inr ⟨ix', fl', _, rfl, hfoc, ?_, ?_, hcnt⟩,
        fun hf => by cases hf⟩
      · exact ⟨hw.1, hw.2.1, hw.2.2, hk.rest_wf res hch⟩
      · simp only [Trie.ents, hch.ents, List.map_cons, List.map_nil]
        exact List.Perm.swap _ _ _
  | R p c e0 n =>
    simp only [Trie.char] at hkc hc
    subst hkc
    have hr : rest = [] := by
      by_contra hr
      exact hstop ⟨rfl, hr⟩
    have he := hsame e0 hw.2.2.1 hr (Or.inr ⟨p, n, rfl⟩)
    subst he hr
    refine ⟨_, (false, ix), insert_same e ix st ctx _ _ k h.tree hst hc (Or.inr ⟨p, n, rfl⟩),
      fun f _ => rfl, Or.inl ⟨rfl, by simp [Trie.ents]⟩, fun _ => Or.inr ⟨p, n, rfl⟩⟩
  | X p c n =>
    simp only [Trie.char] at hkc hc
    subst hkc
    have hr : rest = [] := by
      by_contra hr
      exact hstop ⟨rfl, hr⟩
    subst hr
    obtain ⟨ix', hrun, hfoc, hcnt⟩ := insert_promote e ix fl ctx st p k n _ h hst hc rfl
    refine ⟨_, (true, ix'), hrun, fun f _ => rfl, Or.inr ⟨ix', fl, _, rfl, hfoc, ?_, ?_, hcnt⟩,
      fun hf => by cases hf⟩
    · exact ⟨hw.1, hw.2.1, hk.2.2, hw.2.2⟩
    · simp [Trie.ents]
  | D p c l r => exact absurd hstop (by simp [Stops])
  | L p c sub =>
    simp only [Trie.char] at hkc hc
    subst hkc
    have hr : rest ≠ [] := fun hr => hstop ⟨rfl, hr⟩
    obtain ⟨ix', fl', res, hrun, hfoc, hch, hcnt⟩ :=
      insert_superset_L e ix fl ctx st p k sub rest h hst hc hr
    refine ⟨_, (true, ix'), hrun, fun f _ => rfl, Or.inr ⟨ix', fl', _, rfl, hfoc, ?_, ?_, hcnt⟩,
      fun hf => by cases hf⟩
    · exact ⟨hw.1, hw.2.1, hw.2.2.1, hw.2.2.2.1, hw.2.2.2.2, hk.rest_wf_none res hch⟩
    · simp only [Trie.ents, hch.ents, List.map_cons, List.map_nil]
      exact List.perm_append_comm
  | K p c sub n => exact absurd hkc hstop

theorem Frame.ents_fill (f : Frame) (t : Trie) : (f.fill t).ents = f.ents t.ents := by
  cases f <;> simp [Frame.fill, Frame.ents, Trie.ents, Trie.elems_eq_ents]

theorem Path.ents_plug : ∀ (ctx : Path) (t : Trie),
    (Path.plug ctx t).ents = Path.ents ctx t.ents := by
  intro ctx
  induction ctx with
  | nil => intro t; rfl
  | cons f ctx ih =>
    intro t
    simp only [Path.plug, Path.ents]
    rw [ih, Frame.ents_fill]

theorem Frame.ents_perm_frame (f : Frame) (x : List Nat × Int) (es es' : List (List Nat × Int))
    (h : es'.Perm (x :: es)) : (f.ents es').Perm (f.lift x :: f.ents es) := by
  cases f with
  | Rf p c e =>
    simp only [Frame.ents, Frame.lift]
    exact ((h.map _).cons _).trans (List.Perm.swap _ _ _)
  | Xf p c =>
    simp only [Frame.ents, Frame.lift]
    exact h.map _
  | Kf p c sub =>
    simp only [Frame.ents, Frame.lift]
    exact ((h.map _).append_left _).trans List.perm_middle
  | Ks p c n =>
    simp only [Frame.ents, Frame.lift]
    have := ((h.map Prod.snd).map (fun e => ([c], e))).append_right
      ((Trie.ents n).map (fun x => (c :: x.1, x.2)))
    simpa using this
  | Ls p c =>
    simp only [Frame.ents, Frame.lift]
    have := ((h.map Prod.snd).map (fun e => ([c], e)))
    simpa using this
  | Dl p c r =>
    simp only [Frame.ents, Frame.lift]
    exact h.append_right _
  | Dr p c l =>
    simp only [Frame.ents, Frame.lift]
    exact (h.append_left _).trans List.perm_middle

theorem Path.ents_perm : ∀ (ctx : Path) (x : List Nat × Int) (es es' : List (List Nat × Int)),
    es'.Perm (x :: es) → (Path.ents ctx es').Perm (Path.lift ctx x :: Path.ents ctx es) := by
  intro ctx
  induction ctx with
  | nil => intro x es es' h; exact h
  | cons f ctx ih =>
    intro x es es' h
    simp only [Path.ents, Path.lift]
    exact ih _ _ _ (f.ents_perm_frame x es es' h)

theorem Frame.ents_mem_frame (f : Frame) (x : List Nat × Int) (es : List (List Nat × Int))
    (h : x ∈ es) : f.lift x ∈ f.ents es := by
  cases f with
  | Rf p c e =>
    simp only [Frame.ents, Frame.lift, List.mem_cons, List.mem_map]
    exact Or.inr ⟨x, h, rfl⟩
  | Xf p c =>
    simp only [Frame.ents, Frame.lift, List.mem_map]
    exact ⟨x, h, rfl⟩
  | Kf p c sub =>
    simp only [Frame.ents, Frame.lift, List.mem_append, List.mem_map]
    exact Or.inr ⟨x, h, rfl⟩
  | Ks p c n =>
    simp only [Frame.ents, Frame.lift, List.mem_append, List.mem_map]
    exact Or.inl ⟨x.2, ⟨x, h, rfl⟩, rfl⟩
  | Ls p c =>
    simp only [Frame.ents, Frame.lift, List.mem_map]
    exact ⟨x.2, ⟨x, h, rfl⟩, rfl⟩
  | Dl p c r =>
    simp only [Frame.ents, Frame.lift, List.mem_append]
    exact Or.inl h
  | Dr p c l =>
    simp only [Frame.ents, Frame.lift, List.mem_append]
    exact Or.inr h

theorem Path.ents_mem : ∀ (ctx : Path) (x : List Nat × Int) (es : List (List Nat × Int)),
    x ∈ es → Path.lift ctx x ∈ Path.ents ctx es := by
  intro ctx
  induction ctx with
  | nil => intro x es h; exact h
  | cons f ctx ih =>
    intro x es h
    simp only [Path.ents, Path.lift]
    exact ih _ _ (f.ents_mem_frame x es h)

theorem Frame.size_fill (f : Frame) (t : Trie) : t.size ≤ (f.fill t).size := by
  cases f <;> simp [Frame.fill, Trie.size] <;> omega

theorem Path.size_plug : ∀ (ctx : Path) (t : Trie), t.size ≤ (Path.plug ctx t).size := by
  intro ctx
  induction ctx with
  | nil => intro t; exact le_refl _
  | cons f ctx ih =>
    intro t
    simp only [Path.plug]
    exact le_trans (f.size_fill t) (ih _)

theorem Trie.ents_length (t : Trie) : t.ents.length = t.extra + 1 := by
  rw [Trie.extra_add_one, Trie.elems_eq_ents]; simp

/-- An insertion at a subtree is an insertion at the whole tree. -/
theorem InsertedAt.plug_path {ix : Index} {ctx : Path} {t : Trie} {x : List Nat × Int}
    {out : Bool × Index} (h : InsertedAt ix ctx t x out) (hp : Path.WF ctx (t.extra + 2)) :
    InsertedAt ix [] (Path.plug ctx t) (Path.lift ctx x) out := by
  rcases h with ⟨h1, h2⟩ | ⟨ix', fl', t', h1, h2, h3, h4, h5⟩
  · refine Or.inl ⟨h1, ?_⟩
    rw [Path.ents_plug]
    exact Path.ents_mem ctx x _ h2
  · refine Or.inr ⟨ix', fl', Path.plug ctx t', h1, (AtFocus.plug_iff _ _ _ _).mpr h2, ?_, ?_, h5⟩
    · refine Path.WF.plug ctx t' h3 ?_
      have hl := h4.length_eq
      rw [Trie.ents_length] at hl
      simp only [List.length_cons, Trie.ents_length] at hl
      rw [← Trie.extra_add_one, hl]
      exact hp
    · rw [Path.ents_plug, Path.ents_plug]
      exact Path.ents_perm ctx x _ _ h4

theorem descend_mode (e : Int) : ∀ (t : Trie) (key : List Nat) (ctx : Path),
    (Path.params ctx).1 ≠ none →
    Trie.WF (Path.params ctx).1 (Path.params ctx).2.1 (Path.params ctx).2.2 t →
    (Path.params (descend e t key ctx).1).1 ≠ none := by
  intro t
  induction t with
  | S p c e' =>
    intro key ctx hm hw
    cases key <;> simpa [descend] using hm
  | R p c e' n ih =>
    intro key ctx hm hw
    cases key with
    | nil => simpa [descend] using hm
    | cons k rest =>
      simp only [descend]
      split
      · refine ih rest (Frame.Rf p c e' :: ctx) ?_ (by simpa [Path.params] using hw.2.2.2)
        simpa [Path.params] using hm
      · exact hm
  | X p c n ih =>
    intro key ctx hm hw
    cases key with
    | nil => simpa [descend] using hm
    | cons k rest =>
      simp only [descend]
      split
      · refine ih rest (Frame.Xf p c :: ctx) ?_ (by simpa [Path.params] using hw.2.2)
        simpa [Path.params] using hm
      · exact hm
  | D p c l r ihl ihr =>
    intro key ctx hm hw
    cases key with
    | nil => simpa [descend] using hm
    | cons k rest =>
      simp only [descend]
      split
      · exact ihl (k :: rest) (Frame.Dl p c r :: ctx) (by simpa [Path.params] using hm)
          (by simpa [Path.params] using hw.2.2.1)
      · exact ihr (k :: rest) (Frame.Dr p c l :: ctx) (by simpa [Path.params] using hm)
          (by simpa [Path.params] using hw.2.2.2)
  | L p c sub ih =>
    intro key ctx hm hw
    exact absurd hw.1 hm
  | K p c sub n ihs ihn =>
    intro key ctx hm hw
    exact absurd hw.1 hm

theorem Trie.WF.ascii : ∀ (t : Trie) (mode : Option (List Nat)) (lo hi : Int),
    Trie.WF mode lo hi t → hi ≤ 127 → t.Ascii := by
  intro t
  induction t with
  | S p c e =>
    intro mode lo hi h hh x hx
    simp only [Trie.chars, List.mem_singleton] at hx
    have := h.2.1
    subst hx; omega
  | R p c e n ih =>
    intro mode lo hi h hh x hx
    simp only [Trie.chars, List.mem_cons] at hx
    rcases hx with rfl | hx
    · have := h.2.1; omega
    · exact ih _ _ _ h.2.2.2 (le_refl _) x hx
  | X p c n ih =>
    intro mode lo hi h hh x hx
    simp only [Trie.chars, List.mem_cons] at hx
    rcases hx with rfl | hx
    · have := h.2.1; omega
    · exact ih _ _ _ h.2.2 (le_refl _) x hx
  | D p c l r ihl ihr =>
    intro mode lo hi h hh x hx
    simp only [Trie.chars, List.mem_cons, List.mem_append] at hx
    have h2 := h.2.1
    rcases hx with rfl | hx | hx
    · omega
    · exact ihl _ _ _ h.2.2.1 (by omega) x hx
    · exact ihr _ _ _ h.2.2.2 hh x hx
  | L p c sub ih =>
    intro mode lo hi h hh x hx
    simp only [Trie.chars, List.mem_cons] at hx
    rcases hx with rfl | hx
    · have := h.2.2.1; omega
    · exact ih _ _ _ h.2.2.2.1 (le_refl _) x hx
  | K p c sub n ihs ihn =>
    intro mode lo hi h hh x hx
    simp only [Trie.chars, List.mem_cons, List.mem_append] at hx
    rcases hx with rfl | hx | hx
    · have := h.2.2.1; omega
    · exact ihs _ _ _ h.2.2.2.1 (le_refl _) x hx
    · exact ihn _ _ _ h.2.2.2.2.2 (le_refl _) x hx

theorem KeyOk.ne_nil_key {e : Int} {ctx : Path} {key : List Nat} (hk : KeyOk e ctx key) :
    key ≠ [] := by
  obtain ⟨k, rest, rfl, _⟩ := hk.2.1
  simp

/-- The descent loop of `Insert` from a subtree, followed by the stop at the
node that the descent reaches, when no duplicates branch has to be created. -/
theorem insert_run (e : Int) (ix : Index) (fl : List Nat) (ctx : Path)
    (st : InsertState) (t : Trie) (key : List Nat)
    (h : AtFocus ix fl ctx t) (hst : InsertAt ix st ctx t key)
    (hw : Trie.WF (Path.params ctx).1 (Path.params ctx).2.1 (Path.params ctx).2.2 t)
    (hp : Path.WF ctx (t.extra + 2)) (hk : KeyOk e ctx key)
    (hnd : ¬ ((Path.params (descend e t key ctx).1).1 = none ∧
      ∃ k, (descend e t key ctx).2.2 = [k] ∧
        ((∃ p e0, (descend e t key ctx).2.1 = Trie.S p k e0 ∧ e ≠ e0) ∨
         (∃ p e0 n, (descend e t key ctx).2.1 = Trie.R p k e0 n ∧ e ≠ e0)))) :
    ∃ res out, (∀ f, (Path.plug ctx t).size + 1 ≤ f → runLoop (insertBody e) f st = some res) ∧
      (∀ f, (Path.plug ctx t).size ≤ f → insertOutcome f e res = some out) ∧
      InsertedAt ix [] (Path.plug ctx t) (Path.lift ctx (key, e)) out ∧
      (out.1 = false → ∃ k, (∃ p, (descend e t key ctx).2.1 = Trie.S p k e) ∨
        (∃ p n, (descend e t key ctx).2.1 = Trie.R p k e n)) := by
  have hfacts := descend_facts e 2 (by omega) t key ctx hw hp hk
  have hasc := hw.ascii t _ _ _ (Path.WF.hi_le ctx _ hp).1
  obtain ⟨st', hst', hfuel⟩ := insert_descend e ix t _ key ctx st h.tree hasc hst hk.ne_nil_key
  generalize descend e t key ctx = r at hfacts hst' hnd ⊢
  obtain ⟨rc, rt, rk⟩ := r
  obtain ⟨h1, h2, h3, h4, h5, h6⟩ := hfacts
  simp only at h1 h2 h3 h4 h5 h6 hst' hnd
  have hfoc : AtFocus ix fl rc rt := by
    rw [← AtFocus.plug_iff, h1, AtFocus.plug_iff]; exact h
  obtain ⟨k, rest, hkr⟩ := ne_nil_cons h4.ne_nil_key
  subst hkr
  obtain ⟨res, out, hbody, hout, hins, hfalse⟩ := insert_stop e ix fl rc st' rt k rest hfoc hst' h2 h3 h4 h6
    (by
      rintro ⟨hm, hr, hcase⟩
      subst hr
      exact hnd ⟨hm, k, rfl, hcase⟩)
  have hsz : rt.size ≤ (Path.plug ctx t).size := by
    rw [← h1]; exact Path.size_plug rc rt
  have htsz : t.size ≤ (Path.plug ctx t).size := Path.size_plug ctx t
  refine ⟨res, out, ?_, fun f hf => hout f (le_trans hsz hf), ?_, fun hf => ⟨k, hfalse hf⟩⟩
  · intro f hf
    have h0 := hfuel 1 res (runLoop_exit _ 0 st' res hbody)
    exact runLoop_mono _ _ _ _ h0 f (by omega)
  · have := hins.plug_path h3
    rw [h1, h5] at this
    exact this

theorem descend_chain (e : Int) : ∀ (t : Trie) (ks : List Nat) (e0 : Int), t.IsChain ks e0 →
    ∀ (key : List Nat) (ctx : Path),
      (∀ p c e', (descend e t key ctx).2.1 = Trie.S p c e' → e' = e0) ∧
      (∀ p c e' n, (descend e t key ctx).2.1 ≠ Trie.R p c e' n) := by
  intro t
  induction t with
  | S p c e1 =>
    intro ks e0 h key ctx
    match ks, h with
    | [k], h =>
      simp only [Trie.IsChain] at h
      cases key <;> simp [descend, h.2]
  | X p c n ih =>
    intro ks e0 h key ctx
    match ks, h with
    | k :: k2 :: ks, h =>
      simp only [Trie.IsChain] at h
      cases key with
      | nil => simp [descend]
      | cons k' rest =>
        simp only [descend]
        split
        · exact ih _ _ h.2 _ _
        · simp
  | R p c e1 n _ => intro ks e0 h; simp [Trie.IsChain] at h
  | D p c l r _ _ => intro ks e0 h; simp [Trie.IsChain] at h
  | L p c sub _ => intro ks e0 h; simp [Trie.IsChain] at h
  | K p c sub n _ _ => intro ks e0 h; simp [Trie.IsChain] at h

/-- The step of `Insert` that turns a key node into a duplicate node. -/
theorem insert_dup (e : Int) (ix : Index) (fl : List Nat) (ctx : Path) (st : InsertState)
    (t : Trie) (k : Nat) (h : AtFocus ix fl ctx t) (hst : InsertAt ix st ctx t [k])
    (hw : Trie.WF (Path.params ctx).1 (Path.params ctx).2.1 (Path.params ctx).2.2 t)
    (hp : Path.WF ctx (t.extra + 2)) (hm : (Path.params ctx).1 = none)
    (hcase : (∃ p e0, t = Trie.S p k e0 ∧ e ≠ e0) ∨ (∃ p e0 n, t = Trie.R p k e0 n ∧ e ≠ e0)) :
    ∃ ix1 fl1 f chain st1 e0, insertBody e st = some (LoopStep.next st1) ∧
      AtFocus ix1 fl1 (f :: ctx) chain ∧ chain.IsChain (itoa e0) e0 ∧ e ≠ e0 ∧
      InsertAt ix1 st1 (f :: ctx) chain (itoa e) ∧ ix1.keyCount = ix.keyCount ∧
      Path.params (f :: ctx) = (some [], -1, 127) ∧ Path.WF (f :: ctx) 2 ∧
      (f.fill chain).ents = t.ents ∧ f.lift (itoa e, e) = ([k], e) := by
  have hcb := hw.char_bounds
  have hhi := (Path.WF.hi_le ctx _ hp).1
  have hc : t.char < 128 := by omega
  have hp0 : Path.WF ctx 0 := Path.WF.main ctx _ _ hp hm
  rcases hcase with ⟨p, e0, rfl, hne⟩ | ⟨p, e0, n, rfl, hne⟩
  · obtain ⟨ix1, fl1, chain, st1, g1, g2, g3, g4, g5⟩ :=
      insert_dup_S e ix fl ctx st p k e0 h hst hc hne
    refine ⟨ix1, fl1, Frame.Ls p k, chain, st1, e0, g1, g2, g3, hne, g4, g5, rfl,
      ⟨hm, hw.1, hw.2.1, le_refl _, hp0⟩, ?_, rfl⟩
    simp [Frame.fill, Trie.ents, Trie.elems_eq_ents, g3.ents]
  · obtain ⟨ix1, fl1, chain, st1, g1, g2, g3, g4, g5⟩ :=
      insert_dup_R e ix fl ctx st p k e0 n h hst hc hne
    have hwn : Trie.WF none (-1) 127 n := by
      have := hw.2.2.2
      rw [hm] at this
      exact this
    refine ⟨ix1, fl1, Frame.Ks p k n, chain, st1, e0, g1, g2, g3, hne, g4, g5, rfl,
      ⟨hm, hw.1, hw.2.1, le_refl _, hwn, hp0⟩, ?_, rfl⟩
    simp [Frame.fill, Trie.ents, Trie.elems_eq_ents, g3.ents]

/-- The descent loop of `Insert` on a well-formed tree and what follows it:
for enough fuel the loop leaves with `res`, `Insert` returns `out`, and `out`
is the insertion of the pair into the tree. -/
theorem insert_tree (e : Int) (ix : Index) (fl : List Nat) (st : InsertState) (T : Trie)
    (key : List Nat) (h : AtFocus ix fl [] T) (hw : Trie.WF none (-1) 127 T)
    (hst : InsertAt ix st [] T key) (hkey : key ≠ []) (hasc : ∀ b ∈ key, b < 128) :
    ∃ N res out, (∀ f, N ≤ f → runLoop (insertBody e) f st = some res ∧
        insertOutcome f e res = some out) ∧ InsertedAt ix [] T (key, e) out := by
  have hk : KeyOk e [] key := by
    obtain ⟨k, rest, rfl⟩ := ne_nil_cons hkey
    refine ⟨hasc, ⟨k, rest, rfl, ?_, ?_⟩, ?_⟩
    · simp only [Path.params]; omega
    · simp only [Path.params]
      have := hasc k (by simp); omega
    · intro w hw'; cases hw'
  have hp : Path.WF [] (T.extra + 2) := trivial
  by_cases hnd : ((Path.params (descend e T key []).1).1 = none ∧
      ∃ k, (descend e T key []).2.2 = [k] ∧
        ((∃ p e0, (descend e T key []).2.1 = Trie.S p k e0 ∧ e ≠ e0) ∨
         (∃ p e0 n, (descend e T key []).2.1 = Trie.R p k e0 n ∧ e ≠ e0)))
  swap
  · obtain ⟨res, out, g1, g2, g3, _⟩ := insert_run e ix fl [] st T key h hst hw hp hk hnd
    exact ⟨T.size + 1, res, out, fun f hf => ⟨g1 f hf, g2 f (by simp only [Path.plug]; omega)⟩, g3⟩
  have hfacts := descend_facts e 2 (by omega) T key [] hw hp hk
  have hasc' := hw.ascii T _ _ _ (le_refl _)
  obtain ⟨st', hst', hfuel⟩ := insert_descend e ix T _ key [] st h.tree hasc' hst hkey
  generalize descend e T key [] = r at hfacts hst' hnd
  obtain ⟨rc, rt, rk⟩ := r
  obtain ⟨h1, h2, h3, h4, h5, h6⟩ := hfacts
  simp only at h1 h2 h3 h4 h5 h6 hst' hnd
  obtain ⟨hm, k, hrk, hcase⟩ := hnd
  subst hrk
  have hfoc : AtFocus ix fl rc rt := by
    rw [← AtFocus.plug_iff, h1, AtFocus.plug_iff]; exact h
  obtain ⟨ix1, fl1, f, chain, st1, e0, g1, g2, g3, hne, g4, g5, g6, g7, g8, g9⟩ :=
    insert_dup e ix fl rc st' rt k hfoc hst' h2 h3 hm hcase
  have hcw : Trie.WF (Path.params (f :: rc)).1 (Path.params (f :: rc)).2.1
      (Path.params (f :: rc)).2.2 chain := by
    rw [g6]
    refine Trie.IsChain.wf chain _ e0 _ _ _ g3 (itoa_ascii e0) ?_ (by intro w hw'; cases hw'; simp)
    intro k' rest' heq
    have := itoa_ascii e0 k' (by rw [heq]; simp)
    simp only
    omega
  have hce : chain.extra = 0 := by
    have := chain.ents_length
    rw [g3.ents] at this
    simp at this; omega
  have hmode : (Path.params (f :: rc)).1 ≠ none := by rw [g6]; simp
  obtain ⟨res, out, r1, r2, r3, r4⟩ := insert_run e ix1 fl1 (f :: rc) st1 chain (itoa e) g2 g4 hcw
    (by rw [hce]; exact g7) (KeyOk.enter f rc g6)
    (fun hh => descend_mode e chain (itoa e) (f :: rc) hmode hcw hh.1)
  refine ⟨(Path.plug (f :: rc) chain).size + 1 + 1 + T.size, res, out, ?_, ?_⟩
  · intro fu hfu
    refine ⟨?_, r2 fu (by omega)⟩
    have s1 := r1 ((Path.plug (f :: rc) chain).size + 1) (le_refl _)
    have s2 : runLoop (insertBody e) ((Path.plug (f :: rc) chain).size + 1 + 1) st' = some res := by
      rw [runLoop_next _ _ _ _ g1]; exact s1
    exact runLoop_mono _ _ _ _ (hfuel _ _ s2) fu (by omega)
  · rcases r3 with ⟨hout, _⟩ | ⟨ix', fl', T', o1, o2, o3, o4, o5⟩
    · exfalso
      obtain ⟨k', hS | hR⟩ := r4 (by rw [hout])
      · obtain ⟨p, hS⟩ := hS
        exact hne ((descend_chain e chain _ e0 g3 _ _).1 p k' e hS)
      · obtain ⟨p, n, hR⟩ := hR
        exact (descend_chain e chain _ e0 g3 _ _).2 p k' e n hR
    · refine Or.inr ⟨ix', fl', T', o1, o2, o3, ?_, by rw [o5, g5]⟩
      have e1 : (Path.plug (f :: rc) chain).ents = T.ents := by
        simp only [Path.plug]
        rw [Path.ents_plug, g8, ← Path.ents_plug, h1]; rfl
      have e2 : Path.lift (f :: rc) (itoa e, e) = (key, e) := by
        simp only [Path.lift]
        rw [g9, h5]; rfl
      rw [e1, e2] at o4
      exact o4

/-! ## The descent of `Delete` -/

theorem delete_descend (e : Int) (ix : Index) :
    ∀ (t : Trie) (th : Int) (key : List Nat) (ctx : Path) (st : DeleteState),
      Trie.Laid ix.node t th → t.Ascii → DeleteAt st ctx t key → key ≠ [] →
      ∃ st', DeleteAt st' (descend e t key ctx).1 (descend e t key ctx).2.1
          (descend e t key ctx).2.2 ∧
        ∀ fuel res, runLoop (deleteBody e ix) fuel st' = some res →
          runLoop (deleteBody e ix) (fuel + t.size) st = some res := by
  intro t
  induction t with
  | S p c e' =>
    intro th key ctx st _ _ hst hkey
    obtain ⟨k, rest, rfl⟩ := ne_nil_cons hkey
    exact ⟨st, by simpa [descend] using hst, fun fuel res h => runLoop_add _ _ _ _ _ h⟩
  | R p c e' n ih =>
    intro th key ctx st hl ha hst hkey
    obtain ⟨k, rest, rfl⟩ := ne_nil_cons hkey
    obtain ⟨hc, han⟩ := ha.R
    simp only [Trie.Laid] at hl
    by_cases hk : k = c ∧ rest ≠ []
    · obtain ⟨sks, skl, sprev, sdele, sdup, slprev, sptr, sbranch, si⟩ := st
      obtain ⟨h2, h3, h4, h5, h6, h7, h8, h9⟩ := hst
      simp only at h2 h3 h4 h5 h6 h7 h8 h9
      subst h3 h4 h5 h6 h7 h8 h9
      have hst1 : DeleteAt ⟨sks, sks.length, (p : Int), (p : Int), Path.dup ctx, Path.prev ctx,
          (n.addr : Int), Path.branch ctx, si + 1⟩ (Frame.Rf p c e' :: ctx) n rest :=
        ⟨drop_succ_of_drop h2, rfl, rfl, rfl, rfl, rfl, rfl, rfl⟩
      obtain ⟨st', hst', hrun⟩ := ih th rest _ _ hl.2 han hst1 hk.2
      refine ⟨st', by simpa [descend, hk] using hst', ?_⟩
      intro fuel res hres
      have := hrun fuel res hres
      refine runLoop_step _ _ _ _ _ _ ?_ this (by simp [Trie.size])
      simp [deleteBody, Trie.addr, hl.1, sliceOne_drop h2, byteToString_ascii hc, hk.1,
        last_iff_of_drop h2, hk.2]
    · exact ⟨st, by simpa [descend, hk] using hst, fun fuel res h => runLoop_add _ _ _ _ _ h⟩
  | X p c n ih =>
    intro th key ctx st hl ha hst hkey
    obtain ⟨k, rest, rfl⟩ := ne_nil_cons hkey
    obtain ⟨hc, han⟩ := ha.X
    simp only [Trie.Laid] at hl
    by_cases hk : k = c ∧ rest ≠ []
    · obtain ⟨sks, skl, sprev, sdele, sdup, slprev, sptr, sbranch, si⟩ := st
      obtain ⟨h2, h3, h4, h5, h6, h7, h8, h9⟩ := hst
      simp only at h2 h3 h4 h5 h6 h7 h8 h9
      subst h3 h4 h5 h6 h7 h8 h9
      have hst1 : DeleteAt ⟨sks, sks.length, (p : Int), Path.dele ctx, Path.dup ctx, Path.lprev ctx,
          (n.addr : Int), Path.branch ctx, si + 1⟩ (Frame.Xf p c :: ctx) n rest :=
        ⟨drop_succ_of_drop h2, rfl, rfl, rfl, rfl, rfl, rfl, rfl⟩
      obtain ⟨st', hst', hrun⟩ := ih th rest _ _ hl.2 han hst1 hk.2
      refine ⟨st', by simpa [descend, hk] using hst', ?_⟩
      intro fuel res hres
      have := hrun fuel res hres
      refine runLoop_step _ _ _ _ _ _ ?_ this (by simp [Trie.size])
      simp [deleteBody, Trie.addr, hl.1, sliceOne_drop h2, byteToString_ascii hc, hk.1,
        last_iff_of_drop h2, hk.2]
    · exact ⟨st, by simpa [descend, hk] using hst, fun fuel res h => runLoop_add _ _ _ _ _ h⟩
  | D p c l r ihl ihr =>
    intro th key ctx st hl ha hst hkey
    obtain ⟨k, rest, rfl⟩ := ne_nil_cons hkey
    obtain ⟨hc, hal, har⟩ := ha.D
    simp only [Trie.Laid] at hl
    obtain ⟨sks, skl, sprev, sdele, sdup, slprev, sptr, sbranch, si⟩ := st
    obtain ⟨h2, h3, h4, h5, h6, h7, h8, h9⟩ := hst
    simp only at h2 h3 h4 h5 h6 h7 h8 h9
    subst h3 h4 h5 h6 h7 h8 h9
    by_cases hk : k ≤ c
    · have hst1 : DeleteAt ⟨sks, sks.length, (p : Int), (p : Int), Path.dup ctx, Path.prev ctx,
          (l.addr : Int), left, si⟩ (Frame.Dl p c r :: ctx) l (k :: rest) :=
        ⟨h2, rfl, rfl, rfl, rfl, rfl, rfl, rfl⟩
      obtain ⟨st', hst', hrun⟩ := ihl _ (k :: rest) _ _ hl.2.1 hal hst1 hkey
      refine ⟨st', by simpa [descend, hk] using hst', ?_⟩
      intro fuel res hres
      have := hrun fuel res hres
      refine runLoop_step _ _ _ _ _ _ ?_ this (by simp [Trie.size]; omega)
      simp [deleteBody, Trie.addr, hl.1, sliceOne_drop h2, byteToString_ascii hc, hk,
        strLe_single]
    · have hst1 : DeleteAt ⟨sks, sks.length, (p : Int), (p : Int), Path.dup ctx, Path.prev ctx,
          (r.addr : Int), right, si⟩ (Frame.Dr p c l :: ctx) r (k :: rest) :=
        ⟨h2, rfl, rfl, rfl, rfl, rfl, rfl, rfl⟩
      obtain ⟨st', hst', hrun⟩ := ihr _ (k :: rest) _ _ hl.2.2 har hst1 hkey
      refine ⟨st', by simpa [descend, hk] using hst', ?_⟩
      intro fuel res hres
      have := hrun fuel res hres
      refine runLoop_step _ _ _ _ _ _ ?_ this (by simp [Trie.size]; omega)
      simp [deleteBody, Trie.addr, hl.1, sliceOne_drop h2, byteToString_ascii hc, hk,
        strLe_single]
  | L p c sub ih =>
    intro th key ctx st hl ha hst hkey
    obtain ⟨k, rest, rfl⟩ := ne_nil_cons hkey
    obtain ⟨hc, has⟩ := ha.L
    simp only [Trie.Laid] at hl
    by_cases hk : k = c ∧ rest = []
    · obtain ⟨sks, skl, sprev, sdele, sdup, slprev, sptr, sbranch, si⟩ := st
      obtain ⟨h2, h3, h4, h5, h6, h7, h8, h9⟩ := hst
      simp only at h2 h3 h4 h5 h6 h7 h8 h9
      subst h3 h4 h5 h6 h7 h8 h9
      have hst1 : DeleteAt ⟨itoa e, (itoa e).length, (p : Int), Path.dele ctx, (p : Int),
          Path.lprev ctx, (sub.addr : Int), Path.branch ctx, 0⟩ (Frame.Ls p c :: ctx) sub (itoa e) :=
        ⟨rfl, rfl, rfl, rfl, rfl, rfl, rfl, rfl⟩
      obtain ⟨st', hst', hrun⟩ := ih _ (itoa e) _ _ hl.2 has hst1 (itoa_ne_nil e)
      refine ⟨st', by simpa [descend, hk] using hst', ?_⟩
      intro fuel res hres
      have := hrun fuel res hres
      refine runLoop_step _ _ _ _ _ _ ?_ this (by simp [Trie.size])
      simp [deleteBody, Trie.addr, hl.1, sliceOne_drop h2, byteToString_ascii hc, hk.1,
        last_iff_of_drop h2, hk.2, decimaliseNumber]
    · exact ⟨st, by simpa [descend, hk] using hst, fun fuel res h => runLoop_add _ _ _ _ _ h⟩
  | K p c sub n ihs ihn =>
    intro th key ctx st hl ha hst hkey
    obtain ⟨k, rest, rfl⟩ := ne_nil_cons hkey
    obtain ⟨hc, has, han⟩ := ha.K
    simp only [Trie.Laid] at hl
    by_cases hk : k = c
    · obtain ⟨sks, skl, sprev, sdele, sdup, slprev, sptr, sbranch, si⟩ := st
      obtain ⟨h2, h3, h4, h5, h6, h7, h8, h9⟩ := hst
      simp only at h2 h3 h4 h5 h6 h7 h8 h9
      subst h3 h4 h5 h6 h7 h8 h9
      by_cases hr : rest = []
      · have hst1 : DeleteAt ⟨itoa e, (itoa e).length, (p : Int), (p : Int), (p : Int),
            Path.prev ctx, (sub.addr : Int), Path.branch ctx, 0⟩ (Frame.Ks p c n :: ctx) sub
            (itoa e) :=
          ⟨rfl, rfl, rfl, rfl, rfl, rfl, rfl, rfl⟩
        obtain ⟨st', hst', hrun⟩ := ihs _ (itoa e) _ _ hl.2.1 has hst1 (itoa_ne_nil e)
        refine ⟨st', by simpa [descend, hk, hr] using hst', ?_⟩
        intro fuel res hres
        have := hrun fuel res hres
        refine runLoop_step _ _ _ _ _ _ ?_ this (by simp [Trie.size]; omega)
        simp [deleteBody, Trie.addr, hl.1, sliceOne_drop h2, byteToString_ascii hc, hk,
          last_iff_of_drop h2, hr, decimaliseNumber]
      · have hst1 : DeleteAt ⟨sks, sks.length, (p : Int), (p : Int), Path.dup ctx, Path.prev ctx,
            (n.addr : Int), Path.branch ctx, si + 1⟩ (Frame.Kf p c sub :: ctx) n rest :=
          ⟨drop_succ_of_drop h2, rfl, rfl, rfl, rfl, rfl, rfl, rfl⟩
        obtain ⟨st', hst', hrun⟩ := ihn th rest _ _ hl.2.2 han hst1 hr
        refine ⟨st', by simpa [descend, hk, hr] using hst', ?_⟩
        intro fuel res hres
        have := hrun fuel res hres
        refine runLoop_step _ _ _ _ _ _ ?_ this (by simp [Trie.size]; omega)
        simp [deleteBody, Trie.addr, hl.1, sliceOne_drop h2, byteToString_ascii hc, hk,
          last_iff_of_drop h2, hr]
    · exact ⟨st, by simpa [descend, hk] using hst, fun fuel res h => runLoop_add _ _ _ _ _ h⟩

/-- The pass of the descent loop of `Delete` at the node where the descent stops. -/
theorem delete_stop (e : Int) (ix : Index) (st : DeleteState) (ctx : Path) (t : Trie)
    (th : Int) (k : Nat) (rest : List Nat) (hl : Trie.Laid ix.node t th)
    (hst : DeleteAt st ctx t (k :: rest)) (hc : t.char < 128) (hstop : Stops t (k :: rest)) :
    (∃ p, t = Trie.S p k e ∧ rest = [] ∧
      deleteBody e ix st = some (LoopStep.exit (DeleteExit.matched st))) ∨
    (∃ p n, t = Trie.R p k e n ∧ rest = [] ∧
      deleteBody e ix st = some (LoopStep.exit (DeleteExit.matched
        { st with deleteIndexPointer := st.indexPointer,
                  linkPreviousPointer := st.previousIndexPointer }))) ∨
    ((¬ ∃ p, t = Trie.S p k e ∧ rest = []) ∧ (¬ ∃ p n, t = Trie.R p k e n ∧ rest = []) ∧
      deleteBody e ix st = some (LoopStep.exit DeleteExit.notFound)) := by
  obtain ⟨sks, skl, sprev, sdele, sdup, slprev, sptr, sbranch, si⟩ := st
  obtain ⟨h2, h3, h4, h5, h6, h7, h8, h9⟩ := hst
  simp only at h2 h3 h4 h5 h6 h7 h8 h9
  subst h3 h4 h5 h6 h7 h8 h9
  have hlast := last_iff_of_drop h2
  cases t with
  | S p c e' =>
    simp only [Trie.char] at hc
    have hl' : ix.node[p]? = some ⟨indexTerminalNode, e', c, th⟩ := hl
    by_cases hk : k = c
    · subst hk
      by_cases hr : rest = []
      · by_cases he : e' = e
        · subst he
          refine Or.inl ⟨p, rfl, hr, ?_⟩
          simp [deleteBody, hl', sliceOne_drop h2, byteToString_ascii hc, hlast, hr,
            indexTerminalNode, decisionNode, duplicateKeyNode, indexKeyNode]
        · refine Or.inr (Or.inr ⟨?_, by simp, ?_⟩)
          · rintro ⟨p', h1, _⟩
            simp only [Trie.S.injEq] at h1
            exact he h1.2.2
          · simp [deleteBody, hl', sliceOne_drop h2, byteToString_ascii hc, hlast, hr, he,
              indexTerminalNode, decisionNode, duplicateKeyNode, indexKeyNode]
      · refine Or.inr (Or.inr ⟨fun ⟨_, _, h1⟩ => hr h1, by simp, ?_⟩)
        simp [deleteBody, hl', sliceOne_drop h2, byteToString_ascii hc, hlast, hr,
          indexTerminalNode, decisionNode, duplicateKeyNode, indexKeyNode]
    · refine Or.inr (Or.inr ⟨?_, by simp, ?_⟩)
      · rintro ⟨p', h1, _⟩
        simp only [Trie.S.injEq] at h1
        exact hk h1.2.1.symm
      · simp [deleteBody, hl', sliceOne_drop h2, byteToString_ascii hc, hk,
          indexTerminalNode, decisionNode, duplicateKeyNode, indexKeyNode]
  | R p c e' n =>
    simp only [Trie.char] at hc
    have hl' : ix.node[p]? = some ⟨indexKeyNode, e', c, (n.addr : Int)⟩ := hl.1
    by_cases hk : k = c
    · subst hk
      have hr : rest = [] := by
        by_contra hr
        exact hstop ⟨rfl, hr⟩
      by_cases he : e' = e
      · subst he
        refine Or.inr (Or.inl ⟨p, n, rfl, hr, ?_⟩)
        simp [deleteBody, hl', sliceOne_drop h2, byteToString_ascii hc, hlast, hr]
      · refine Or.inr (Or.inr ⟨by simp, ?_, ?_⟩)
        · rintro ⟨p', n', h1, _⟩
          simp only [Trie.R.injEq] at h1
          exact he h1.2.2.1
        · simp [deleteBody, hl', sliceOne_drop h2, byteToString_ascii hc, hlast, hr, he]
    · refine Or.inr (Or.inr ⟨by simp, ?_, ?_⟩)
      · rintro ⟨p', n', h1, _⟩
        simp only [Trie.R.injEq] at h1
        exact hk h1.2.1.symm
      · simp [deleteBody, hl', sliceOne_drop h2, byteToString_ascii hc, hk]
  | X p c n =>
    simp only [Trie.char] at hc
    have hl' : ix.node[p]? = some ⟨characterNode, nullIndexPointer, c, (n.addr : Int)⟩ := hl.1
    refine Or.inr (Or.inr ⟨by simp, by simp, ?_⟩)
    by_cases hk : k = c
    · subst hk
      have hr : rest = [] := by
        by_contra hr
        exact hstop ⟨rfl, hr⟩
      simp [deleteBody, hl', sliceOne_drop h2, byteToString_ascii hc, hlast, hr,
        characterNode, indexTerminalNode, decisionNode, duplicateKeyNode, indexKeyNode,
        duplicateTerminalNode]
    · simp [deleteBody, hl', sliceOne_drop h2, byteToString_ascii hc, hk,
        characterNode, indexTerminalNode, decisionNode, duplicateKeyNode, indexKeyNode,
        duplicateTerminalNode]
  | D p c l r => exact absurd hstop (by simp [Stops])
  | L p c sub =>
    simp only [Trie.char] at hc
    have hl' : ix.node[p]? = some ⟨duplicateTerminalNode, (sub.addr : Int), c, th⟩ := hl.1
    refine Or.inr (Or.inr ⟨by simp, by simp, ?_⟩)
    by_cases hk : k = c
    · subst hk
      have hr : rest ≠ [] := fun hr => hstop ⟨rfl, hr⟩
      simp [deleteBody, hl', sliceOne_drop h2, byteToString_ascii hc, hlast, hr,
        characterNode, indexTerminalNode, decisionNode, duplicateKeyNode, indexKeyNode,
        duplicateTerminalNode]
    · simp [deleteBody, hl', sliceOne_drop h2, byteToString_ascii hc, hk,
        characterNode, indexTerminalNode, decisionNode, duplicateKeyNode, indexKeyNode,
        duplicateTerminalNode]
  | K p c sub n =>
    simp only [Trie.char] at hc
    have hl' : ix.node[p]? = some ⟨duplicateKeyNode, (sub.addr : Int), c, (n.addr : Int)⟩ := hl.1
    have hk : k ≠ c := hstop
    refine Or.inr (Or.inr ⟨by simp, by simp, ?_⟩)
    simp [deleteBody, hl', sliceOne_drop h2, byteToString_ascii hc, hk,
      characterNode, indexTerminalNode, decisionNode, duplicateKeyNode, indexKeyNode,
      duplicateTerminalNode]

/-! ## Delete: the count of a duplicates branch -/

theorem count_full (ns : List indexNode) (dupP : Int) (c : Nat) (d : Nat) (p : Int)
    (hc : 3 ≤ c) (fuel : Nat) :
    runLoop (deleteCountBody ns dupP) (fuel + 1) ⟨c, d, p⟩ = some c := by
  apply runLoop_exit
  have : ¬ c < 3 := by omega
  simp [deleteCountBody, this]

theorem count_full_inv (ns : List indexNode) (dupP : Int) (c : Nat) (d : Nat) (p : Int)
    (hc : 3 ≤ c) (fuel : Nat) (res : Nat)
    (h : runLoop (deleteCountBody ns dupP) fuel ⟨c, d, p⟩ = some res) : res = c := by
  cases fuel with
  | zero => simp [runLoop] at h
  | succ n =>
    rw [count_full ns dupP c d p hc n] at h
    exact (Option.some.inj h).symm

theorem count_tree (ns : List indexNode) (dupP : Int) :
    ∀ (t : Trie) (th : Int) (w : List Nat) (lo hi : Int), Trie.Laid ns t th →
      Trie.WF (some w) lo hi t → (∀ a ∈ t.addrs, (a : Int) ≠ dupP) →
      ∀ (c0 fuel res : Nat), c0 ≤ 3 →
        runLoop (deleteCountBody ns dupP) fuel ⟨min 3 (c0 + t.elems.length), right, th⟩
          = some res →
        runLoop (deleteCountBody ns dupP) (fuel + 2 * t.size) ⟨c0, left, (t.addr : Int)⟩
          = some res := by
  have hfull : ∀ (t : Trie) (th : Int) (c0 fuel res : Nat), c0 = 3 →
      runLoop (deleteCountBody ns dupP) fuel ⟨min 3 (c0 + t.elems.length), right, th⟩
          = some res →
      runLoop (deleteCountBody ns dupP) (fuel + 2 * t.size) ⟨c0, left, (t.addr : Int)⟩
          = some res := by
    intro t th c0 fuel res hc h
    subst hc
    have hm : min 3 (3 + t.elems.length) = 3 := by omega
    rw [hm] at h
    have := count_full_inv ns dupP 3 _ _ (le_refl _) fuel res h
    subst this
    have hs : 0 < t.size := by cases t <;> simp [Trie.size]
    obtain ⟨m, hm'⟩ : ∃ m, fuel + 2 * t.size = m + 1 := ⟨fuel + 2 * t.size - 1, by omega⟩
    rw [hm']
    exact count_full ns dupP 3 _ _ (le_refl _) m
  intro t
  induction t with
  | S p c e =>
    intro th w lo hi hl hw hne c0 fuel res hc0 h
    rcases Nat.lt_or_ge c0 3 with hlt | hge
    swap
    · exact hfull _ th c0 fuel res (by omega) h
    have hl' : ns[p]? = some ⟨indexTerminalNode, e, c, th⟩ := hl
    have hp := hne p (by simp [Trie.addrs])
    have hm : min 3 (c0 + (Trie.S p c e).elems.length) = c0 + 1 := by
      simp [Trie.elems]; omega
    rw [hm] at h
    refine runLoop_step _ _ _ _ _ _ ?_ h (by simp [Trie.size])
    simp [deleteCountBody, Trie.addr, hp, natCast_ne_null, hlt, hl', indexTerminalNode,
      indexKeyNode]
  | R p c e n ih =>
    intro th w lo hi hl hw hne c0 fuel res hc0 h
    rcases Nat.lt_or_ge c0 3 with hlt | hge
    swap
    · exact hfull _ th c0 fuel res (by omega) h
    simp only [Trie.Laid] at hl
    have hp := hne p (by simp [Trie.addrs])
    have hm : min 3 (c0 + (Trie.R p c e n).elems.length) = min 3 (c0 + 1 + n.elems.length) := by
      simp [Trie.elems]; omega
    rw [hm] at h
    have h2 := ih th (w ++ [c]) (-1) 127 hl.2 (by simpa using hw.2.2.2)
      (fun a ha => hne a (by simp [Trie.addrs, ha])) (c0 + 1) fuel res (by omega) h
    refine runLoop_step _ _ _ _ _ _ ?_ h2 (by simp [Trie.size])
    simp [deleteCountBody, Trie.addr, hp, natCast_ne_null, hlt, hl.1]
  | X p c n ih =>
    intro th w lo hi hl hw hne c0 fuel res hc0 h
    rcases Nat.lt_or_ge c0 3 with hlt | hge
    swap
    · exact hfull _ th c0 fuel res (by omega) h
    simp only [Trie.Laid] at hl
    have hp := hne p (by simp [Trie.addrs])
    have hm : (Trie.X p c n).elems.length = n.elems.length := by simp [Trie.elems]
    rw [hm] at h
    have h2 := ih th (w ++ [c]) (-1) 127 hl.2 (by simpa using hw.2.2)
      (fun a ha => hne a (by simp [Trie.addrs, ha])) c0 fuel res hc0 h
    refine runLoop_step _ _ _ _ _ _ ?_ h2 (by simp [Trie.size])
    simp [deleteCountBody, Trie.addr, hp, natCast_ne_null, hlt, hl.1, characterNode,
      indexTerminalNode, indexKeyNode, decisionNode]
  | D p c l r ihl ihr =>
    intro th w lo hi hl hw hne c0 fuel res hc0 h
    rcases Nat.lt_or_ge c0 3 with hlt | hge
    swap
    · exact hfull _ th c0 fuel res (by omega) h
    simp only [Trie.Laid] at hl
    have hp := hne p (by simp [Trie.addrs])
    have hm : (Trie.D p c l r).elems.length = l.elems.length + r.elems.length := by
      simp [Trie.elems]
    rw [hm] at h
    have hmid : runLoop (deleteCountBody ns dupP) (fuel + 2 * r.size + 1)
        ⟨min 3 (c0 + l.elems.length), right, (p : Int)⟩ = some res := by
      rcases Nat.lt_or_ge (c0 + l.elems.length) 3 with hlt2 | hge2
      · have hm2 : min 3 (c0 + l.elems.length) = c0 + l.elems.length := by omega
        rw [hm2]
        have h3 := ihr th w c hi hl.2.2 hw.2.2.2
          (fun a ha => hne a (by simp [Trie.addrs, ha])) (c0 + l.elems.length) fuel res
          (by omega) (by rw [← Nat.add_assoc] at h; exact h)
        refine runLoop_step _ _ _ _ _ _ ?_ h3 (by omega)
        simp [deleteCountBody, hp, natCast_ne_null, hlt2, hl.1, right, left, decisionNode,
          indexTerminalNode, indexKeyNode]
      · have hm2 : min 3 (c0 + l.elems.length) = 3 := by omega
        have hm3 : min 3 (c0 + (l.elems.length + r.elems.length)) = 3 := by omega
        rw [hm3] at h
        have := count_full_inv ns dupP 3 _ _ (le_refl _) fuel res h
        subst this
        rw [hm2]
        exact count_full ns dupP 3 _ _ (le_refl _) _
    have h2 := ihl (p : Int) w lo c hl.2.1 hw.2.2.1
      (fun a ha => hne a (by simp [Trie.addrs, ha])) c0 _ res hc0 hmid
    refine runLoop_step _ _ _ _ _ _ ?_ h2 (by simp [Trie.size]; omega)
    simp [deleteCountBody, Trie.addr, hp, natCast_ne_null, hlt, hl.1, left, decisionNode,
      indexTerminalNode, indexKeyNode]
  | L p c sub ih =>
    intro th w lo hi hl hw
    exact absurd hw.1 (by simp)
  | K p c sub n ihs ihn =>
    intro th w lo hi hl hw
    exact absurd hw.1 (by simp)

/-- The count loop of `Delete` on a duplicates branch gives the number of its
elements, or three if there are more. -/
theorem count_sub (ns : List indexNode) (p : Nat) (sub : Trie) (hl : Trie.Laid ns sub (p : Int))
    (hw : Trie.WF (some []) (-1) 127 sub) (hp : p ∉ sub.addrs) (fuel : Nat)
    (hf : 2 * sub.size + 1 ≤ fuel) :
    runLoop (deleteCountBody ns (p : Int)) fuel ⟨0, left, (sub.addr : Int)⟩ =
      some (min 3 sub.elems.length) := by
  have hend : runLoop (deleteCountBody ns (p : Int)) 1
      ⟨min 3 (0 + sub.elems.length), right, (p : Int)⟩ = some (min 3 sub.elems.length) := by
    apply runLoop_exit
    simp [deleteCountBody]
  have := count_tree ns (p : Int) sub (p : Int) [] (-1) 127 hl hw
    (fun a ha hc => hp (by have : a = p := by exact_mod_cast hc
                           rw [← this]; exact ha)) 0 1 _ (by omega) hend
  exact runLoop_mono _ _ _ _ this fuel (by omega)

theorem AtFocus.up {ix : Index} {fl : List Nat} {ctx : Path} {t : Trie} (f : Frame)
    (h : AtFocus ix fl (f :: ctx) t) : AtFocus ix fl ctx (f.fill t) := by
  have h1 := (AtFocus.plug_iff ix fl (f :: ctx) t).mpr h
  exact (AtFocus.plug_iff ix fl ctx (f.fill t)).mp (by simpa [Path.plug] using h1)

theorem Path.WF.up_path (f : Frame) (ctx : Path) (t : Trie)
    (h : Trie.WF (Path.params (f :: ctx)).1 (Path.params (f :: ctx)).2.1
      (Path.params (f :: ctx)).2.2 t)
    (hp : Path.WF (f :: ctx) t.elems.length) :
    Trie.WF (Path.params ctx).1 (Path.params ctx).2.1 (Path.params ctx).2.2 (f.fill t) ∧
      Path.WF ctx (f.fill t).elems.length := by
  cases f with
  | Rf p c e =>
    simp only [Path.WF, Path.params] at h hp
    exact ⟨⟨hp.1, hp.2.1, hp.2.2.1, h⟩, by simpa [Frame.fill, Trie.elems] using hp.2.2.2⟩
  | Xf p c =>
    simp only [Path.WF, Path.params] at h hp
    exact ⟨⟨hp.1, hp.2.1, h⟩, by simpa [Frame.fill, Trie.elems] using hp.2.2⟩
  | Kf p c sub =>
    simp only [Path.WF, Path.params] at h hp
    refine ⟨?_, Path.WF.main _ _ _ hp.2.2.2.2.2 hp.1⟩
    rw [hp.1]
    exact ⟨rfl, hp.2.1, hp.2.2.1, hp.2.2.2.1, hp.2.2.2.2.1, h⟩
  | Ks p c n =>
    simp only [Path.WF, Path.params] at h hp
    refine ⟨?_, Path.WF.main _ _ _ hp.2.2.2.2.2 hp.1⟩
    rw [hp.1]
    exact ⟨rfl, hp.2.1, hp.2.2.1, h, hp.2.2.2.1, hp.2.2.2.2.1⟩
  | Ls p c =>
    simp only [Path.WF, Path.params] at h hp
    refine ⟨?_, Path.WF.main _ _ _ hp.2.2.2.2 hp.1⟩
    rw [hp.1]
    exact ⟨rfl, hp.2.1, hp.2.2.1, h, hp.2.2.2.1⟩
  | Dl p c r =>
    simp only [Path.WF, Path.params] at h hp
    exact ⟨⟨hp.1, hp.2.1, h, hp.2.2.1⟩, by simpa [Frame.fill, Trie.elems] using hp.2.2.2⟩
  | Dr p c l =>
    simp only [Path.WF, Path.params] at h hp
    exact ⟨⟨hp.1, hp.2.1, hp.2.2.1, h⟩,
      by simpa [Frame.fill, Trie.elems, Nat.add_comm] using hp.2.2.2⟩

theorem Path.plug_append : ∀ (a b : Path) (t : Trie),
    Path.plug (a ++ b) t = Path.plug b (Path.plug a t) := by
  intro a
  induction a with
  | nil => intro b t; rfl
  | cons f a ih => intro b t; simp only [List.cons_append, Path.plug]; exact ih b _

/-- The focus moves up from the end of `a ++ b` to the end of `b`. -/
theorem AtFocus.up_append {ix : Index} {fl : List Nat} : ∀ (a b : Path) (t : Trie),
    AtFocus ix fl (a ++ b) t →
    Trie.WF (Path.params (a ++ b)).1 (Path.params (a ++ b)).2.1 (Path.params (a ++ b)).2.2 t →
    Path.WF (a ++ b) t.elems.length →
    AtFocus ix fl b (Path.plug a t) ∧
      Trie.WF (Path.params b).1 (Path.params b).2.1 (Path.params b).2.2 (Path.plug a t) ∧
      Path.WF b (Path.plug a t).elems.length := by
  intro a
  induction a with
  | nil => intro b t h hw hp; exact ⟨h, hw, hp⟩
  | cons f a ih =>
    intro b t h hw hp
    simp only [List.cons_append] at h hw hp
    have := Path.WF.up_path f (a ++ b) t hw hp
    exact ih b (f.fill t) (AtFocus.up f h) this.1 this.2

theorem Path.IsX.nil : Path.IsX [] := fun f hf => by cases hf

theorem Path.split_x : ∀ ctx : Path, ∃ xp rest, ctx = xp ++ rest ∧ Path.IsX xp ∧
    ∀ p c r, rest ≠ Frame.Xf p c :: r := by
  intro ctx
  induction ctx with
  | nil => exact ⟨[], [], rfl, Path.IsX.nil, by simp⟩
  | cons f ctx ih =>
    obtain ⟨xp, rest, h1, h2, h3⟩ := ih
    cases f with
    | Xf p c =>
      refine ⟨Frame.Xf p c :: xp, rest, by simp [h1], ?_, h3⟩
      intro f hf
      rcases List.mem_cons.mp hf with rfl | hf
      · exact ⟨p, c, rfl⟩
      · exact h2 f hf
    | Rf p c e => exact ⟨[], _, rfl, Path.IsX.nil, by simp⟩
    | Kf p c sub => exact ⟨[], _, rfl, Path.IsX.nil, by simp⟩
    | Ks p c n => exact ⟨[], _, rfl, Path.IsX.nil, by simp⟩
    | Ls p c => exact ⟨[], _, rfl, Path.IsX.nil, by simp⟩
    | Dl p c r => exact ⟨[], _, rfl, Path.IsX.nil, by simp⟩
    | Dr p c l => exact ⟨[], _, rfl, Path.IsX.nil, by simp⟩

theorem Path.IsX.tail_x {f : Frame} {xp : Path} (h : Path.IsX (f :: xp)) : Path.IsX xp :=
  fun g hg => h g (List.mem_cons_of_mem _ hg)

theorem Path.IsX.head {f : Frame} {xp : Path} (h : Path.IsX (f :: xp)) :
    ∃ p c, f = Frame.Xf p c := h f (List.mem_cons_self _ _)

/-- What a path of character nodes on top of `rest` keeps. -/
theorem Path.IsX.regs : ∀ (xp rest : Path), Path.IsX xp →
    Path.dele (xp ++ rest) = Path.dele rest ∧ Path.lprev (xp ++ rest) = Path.lprev rest ∧
    Path.branch (xp ++ rest) = Path.branch rest ∧ Path.dup (xp ++ rest) = Path.dup rest ∧
    (∀ th0, Path.thread (xp ++ rest) th0 = Path.thread rest th0) := by
  intro xp
  induction xp with
  | nil => intro rest _; exact ⟨rfl, rfl, rfl, rfl, fun _ => rfl⟩
  | cons f xp ih =>
    intro rest h
    obtain ⟨p, c, rfl⟩ := h.head
    obtain ⟨h1, h2, h3, h4, h5⟩ := ih rest h.tail_x
    exact ⟨by simpa [Path.dele] using h1, by simpa [Path.lprev] using h2,
      by simpa [Path.branch] using h3, by simpa [Path.dup] using h4,
      fun th0 => by simpa [Path.thread, Frame.thread] using h5 th0⟩

/-- What a path of character nodes keeps of the tree at its end. -/
theorem Path.IsX.tree : ∀ (xp : Path) (t : Trie), Path.IsX xp →
    (Path.plug xp t).lastTerm = t.lastTerm ∧ (Path.plug xp t).elems = t.elems ∧
    (t.Linear → (Path.plug xp t).Linear) ∧
    (∀ ks e, t.IsChain ks e → ∃ ks', (Path.plug xp t).IsChain ks' e) := by
  intro xp
  induction xp with
  | nil => intro t _; exact ⟨rfl, rfl, id, fun ks e h => ⟨ks, h⟩⟩
  | cons f xp ih =>
    intro t h
    obtain ⟨p, c, rfl⟩ := h.head
    obtain ⟨h1, h2, h3, h4⟩ := ih (Trie.X p c t) h.tail_x
    simp only [Path.plug, Frame.fill]
    refine ⟨by rw [h1]; rfl, by rw [h2]; rfl, fun hl => h3 hl, ?_⟩
    intro ks e hc
    exact h4 (c :: ks) e hc.X_cons

theorem Trie.IsChain.linear : ∀ (t : Trie) (ks : List Nat) (e : Int), t.IsChain ks e →
    t.Linear := by
  intro t
  induction t with
  | S p c e0 => intro ks e _; trivial
  | X p c n ih =>
    intro ks e h
    match ks, h with
    | k :: k2 :: ks, h =>
      simp only [Trie.IsChain] at h
      exact ih _ _ h.2
  | R p c e0 n _ => intro ks e h; simp [Trie.IsChain] at h
  | D p c l r _ _ => intro ks e h; simp [Trie.IsChain] at h
  | L p c sub _ => intro ks e h; simp [Trie.IsChain] at h
  | K p c sub n _ _ => intro ks e h; simp [Trie.IsChain] at h

/-- The slots of a linear tree, in order, continue a free list that starts at its thread. -/
theorem Trie.Linear.free_linear {ns : List indexNode} : ∀ (t : Trie) (th : Int) (fl : List Nat),
    t.Linear → Trie.Laid ns t th → FreeList ns th fl →
    FreeList ns (t.addr : Int) (t.addrs ++ fl) := by
  intro t
  induction t with
  | S p c e =>
    intro th fl _ hl hf
    exact ⟨rfl, _, hl, hf⟩
  | R p c e n ih =>
    intro th fl hlin hl hf
    exact ⟨rfl, _, hl.1, ih th fl hlin hl.2 hf⟩
  | X p c n ih =>
    intro th fl hlin hl hf
    exact ⟨rfl, _, hl.1, ih th fl hlin hl.2 hf⟩
  | D p c l r _ _ => intro th fl hlin; exact absurd hlin (by simp [Trie.Linear])
  | L p c sub _ => intro th fl hlin; exact absurd hlin (by simp [Trie.Linear])
  | K p c sub n _ _ => intro th fl hlin; exact absurd hlin (by simp [Trie.Linear])

/-- The slots of a path of character nodes, from the top, continue a free
list that starts where the path ends. -/
theorem Path.IsX.free_x {ns : List indexNode} : ∀ (xp : Path) (th0 : Int) (a : Nat)
    (fl : List Nat), Path.IsX xp → Path.Laid ns xp th0 (a : Int) → FreeList ns (a : Int) fl →
    FreeList ns (Path.rootAddr xp a : Int) ((Path.addrs xp).reverse ++ fl) := by
  intro xp
  induction xp with
  | nil => intro th0 a fl _ _ hf; exact hf
  | cons f xp ih =>
    intro th0 a fl h hl hf
    obtain ⟨p, c, rfl⟩ := h.head
    simp only [Path.Laid, Frame.Laid, Frame.addr] at hl
    have := ih th0 p (p :: fl) h.tail_x hl.2 ⟨rfl, _, hl.1, hf⟩
    simpa [Path.rootAddr, Path.addrs, Frame.addrs, Frame.addr] using this

/-- A subtree is replaced by one with the same root slot, slots going to or
coming from the free list. -/
theorem AtFocus.replace_free {ix ix' : Index} {fl fl' : List Nat} {ctx : Path} {t t' : Trie}
    (h : AtFocus ix fl ctx t) (haddr : t'.addr = t.addr)
    (hroot : ix'.indexRootPointer = ix.indexRootPointer)
    (hlen : ix'.node.length = ix.node.length)
    (hframe : ∀ b, b ∉ t.addrs → b ∉ fl → ix'.node[b]? = ix.node[b]?)
    (htree : Trie.Laid ix'.node t' (Path.thread ctx (-1)))
    (hfree : FreeList ix'.node ix'.deletedRootPointer fl')
    (hperm : (t'.addrs ++ fl').Perm (t.addrs ++ fl)) : AtFocus ix' fl' ctx t' := by
  refine ⟨by rw [hroot, h.root, haddr], ?_, htree, hfree, ?_⟩
  · rw [haddr]
    exact Path.Laid.frame_path ctx _ _ h.path
      (fun b hb => hframe b (fun hc => h.tree_not_path hc hb) (h.path_not_free hb))
  · rw [hlen, List.append_assoc]
    refine (hperm.append_left _).trans ?_
    rw [← List.append_assoc]
    exact h.perm

theorem Trie.node_type_D (t : Trie) (th : Int) :
    (t.node th).indexType = decisionNode ↔ t.isD = true := by
  cases t <;> simp [Trie.node, Trie.isD, decisionNode, indexTerminalNode, indexKeyNode,
    characterNode, duplicateTerminalNode, duplicateKeyNode]

theorem Path.WF.dup_null : ∀ (ctx : Path) (cnt : Nat), Path.WF ctx cnt →
    (Path.params ctx).1 = none → Path.dup ctx = nullIndexPointer := by
  intro ctx
  induction ctx with
  | nil => intro cnt _ _; rfl
  | cons f ctx ih =>
    intro cnt h hm
    cases f with
    | Rf p c e =>
      simp only [Path.WF, Path.params, Option.map_eq_none'] at h hm
      simpa [Path.dup] using ih _ h.2.2.2 hm
    | Xf p c =>
      simp only [Path.WF, Path.params, Option.map_eq_none'] at h hm
      simpa [Path.dup] using ih _ h.2.2 hm
    | Kf p c sub =>
      simp only [Path.WF, Path.params] at h
      simpa [Path.dup] using ih _ h.2.2.2.2.2 h.1
    | Ks p c n => simp [Path.params] at hm
    | Ls p c => simp [Path.params] at hm
    | Dl p c r =>
      simp only [Path.WF, Path.params] at h hm
      simpa [Path.dup] using ih _ h.2.2.2 hm
    | Dr p c l =>
      simp only [Path.WF, Path.params] at h hm
      simpa [Path.dup] using ih _ h.2.2.2 hm

theorem Path.SideOk.side_of_wf (ctx0 : Path) (cq cnt : Nat)
    (hwf : Path.WF ctx0 cnt) (hlo : (Path.params ctx0).2.1 < (cq : Int))
    (hhi : (cq : Int) ≤ (Path.params ctx0).2.2) : Path.SideOk ctx0 cq := by
  cases ctx0 with
  | nil => trivial
  | cons f ctx1 =>
    cases f with
    | Rf p c e => trivial
    | Xf p c => trivial
    | Kf p c sub =>
      simp only [Path.WF] at hwf
      exact Path.WF.dup_null ctx1 _ hwf.2.2.2.2.2 hwf.1
    | Ks p c n => trivial
    | Ls p c => trivial
    | Dr p c l =>
      simp only [Path.params] at hlo
      simp only [Path.SideOk]; omega
    | Dl p c r =>
      simp only [Path.params] at hhi
      simp only [Path.SideOk]; omega

/-- The write of `Delete` that puts the tree at `a` in the place of the
decision node `q` below the node above, or makes it the root. -/
theorem delete_relink_gen (ix1 : Index) (st : DeleteState) (ctx0 : Path) (q a : Nat) (t' : Trie)
    (th' : Int) (en : indexNode) (cq : Nat) (reset : Bool)
    (hp : Path.Laid ix1.node ctx0 (-1) (q : Int))
    (hq : ix1.node[q]? = some en) (hqc : en.keyCharacter = cq)
    (hql : reset = true → en.leftPointer = (a : Int))
    (hrn : reset = true → ix1.node[a]? = some (t'.node th'))
    (hside : Path.SideOk ctx0 cq)
    (h1 : st.linkPreviousPointer = Path.prev ctx0) (h2 : st.deleteIndexPointer = (q : Int))
    (h3 : st.duplicateNodePointer = Path.dup ctx0)
    (hnd : (Path.addrs ctx0).Nodup) (hqn : q ∉ Path.addrs ctx0)
    (hroot : ix1.indexRootPointer = (Path.rootAddr ctx0 q : Int)) :
    ∃ ix2, deleteRelink ix1 st (a : Int) reset = some ix2 ∧
      ix2.deletedRootPointer = ix1.deletedRootPointer ∧ ix2.keyCount = ix1.keyCount ∧
      ix2.node.length = ix1.node.length ∧
      (∀ b, b ∉ Path.addrs ctx0 → ix2.node[b]? = ix1.node[b]?) ∧
      Path.Laid ix2.node (if reset then Path.reset ctx0 t' else ctx0) (-1) (a : Int) ∧
      ix2.indexRootPointer = (Path.rootAddr (if reset then Path.reset ctx0 t' else ctx0) a : Int) := by
  cases ctx0 with
  | nil =>
    refine ⟨{ ix1 with indexRootPointer := (a : Int) }, ?_, rfl, rfl, rfl, fun b _ => rfl, ?_, ?_⟩
    · simp [deleteRelink, h1, Path.prev]
    · cases reset <;> simp [Path.reset, Path.Laid]
    · cases reset <;> simp [Path.reset, Path.rootAddr]
  | cons f ctx1 =>
    have hfa : f.addr ∈ Path.addrs (f :: ctx1) := by simp [Path.addrs, f.addr_mem_addrs_frame]
    have hqf : q ≠ f.addr := fun hc => hqn (by rw [hc]; exact hfa)
    have hpn : ix1.node[f.addr]? = some (f.node (Path.thread ctx1 (-1)) (q : Int)) := hp.1.node_frame
    have hlt : f.addr < ix1.node.length := lt_length_of_getElem? hpn
    have hnn : Path.prev (f :: ctx1) ≠ nullIndexPointer := natCast_ne_null _
    -- the result for a plain rewrite of the pointer of the node above
    have plain : ∀ (ns2 : List indexNode),
        ns2 = ix1.node.set f.addr (f.node (Path.thread ctx1 (-1)) (a : Int)) →
        ({ ix1 with node := ns2 } : Index).node.length = ix1.node.length ∧
        (∀ b, b ∉ Path.addrs (f :: ctx1) → ns2[b]? = ix1.node[b]?) ∧
        Path.Laid ns2 (f :: ctx1) (-1) (a : Int) := by
      intro ns2 hns
      subst hns
      refine ⟨by simp, ?_, ?_⟩
      · intro b hb
        exact getElem?_set_other _ _ _ _ (fun hc => hb (by rw [← hc]; exact hfa))
      · refine Path.Laid.relink f ctx1 (-1) (q : Int) (a : Int) hp ?_ ?_ hnd
        · exact getElem?_set_self' _ _ _ hlt
        · intro b hb hne
          rw [getElem?_set_other _ _ _ _ (fun hc => hne hc.symm)]
    have fin : ∀ (ns2 : List indexNode),
        ns2 = ix1.node.set f.addr (f.node (Path.thread ctx1 (-1)) (a : Int)) →
        (reset = true → Path.reset (f :: ctx1) t' = f :: ctx1) →
        deleteRelink ix1 st (a : Int) reset = some { ix1 with node := ns2 } →
        ∃ ix2, deleteRelink ix1 st (a : Int) reset = some ix2 ∧
          ix2.deletedRootPointer = ix1.deletedRootPointer ∧ ix2.keyCount = ix1.keyCount ∧
          ix2.node.length = ix1.node.length ∧
          (∀ b, b ∉ Path.addrs (f :: ctx1) → ix2.node[b]? = ix1.node[b]?) ∧
          Path.Laid ix2.node (if reset then Path.reset (f :: ctx1) t' else f :: ctx1) (-1)
            (a : Int) ∧
          ix2.indexRootPointer =
            (Path.rootAddr (if reset then Path.reset (f :: ctx1) t' else f :: ctx1) a : Int) := by
      intro ns2 hns hres hrun
      obtain ⟨g1, g2, g3⟩ := plain ns2 hns
      refine ⟨_, hrun, rfl, rfl, g1, g2, ?_, ?_⟩
      · by_cases hr : reset = true
        · rw [if_pos hr, hres hr]; exact g3
        · rw [if_neg hr]; exact g3
      · by_cases hr : reset = true
        · rw [if_pos hr, hres hr, hroot]; rfl
        · rw [if_neg hr, hroot]; rfl
    have hcode : deleteRelink ix1 st (a : Int) reset =
        (if (f.node (Path.thread ctx1 (-1)) (q : Int)).indexType = decisionNode then
             if en.keyCharacter ≤ (f.node (Path.thread ctx1 (-1)) (q : Int)).keyCharacter then
               if reset then
                 match getNode ix1.node en.leftPointer with
                 | none => none
                 | some rn =>
                   match (if rn.indexType ≠ decisionNode then
                       setChar ix1.node (f.addr : Int) rn.keyCharacter
                     else some ix1.node) with
                   | none => none
                   | some ns1 =>
                     match getNode ns1 (q : Int) with
                     | none => none
                     | some en1 =>
                       match setLeft ns1 (f.addr : Int) en1.leftPointer with
                       | none => none
                       | some ns2 => some { ix1 with node := ns2 }
               else
                 match setLeft ix1.node (f.addr : Int) (a : Int) with
                 | none => none
                 | some ns1 => some { ix1 with node := ns1 }
             else
               match setRight ix1.node (f.addr : Int) (a : Int) with
               | none => none
               | some ns1 => some { ix1 with node := ns1 }
           else if (f.node (Path.thread ctx1 (-1)) (q : Int)).indexType = duplicateTerminalNode then
             match setLeft ix1.node (f.addr : Int) (a : Int) with
             | none => none
             | some ns1 => some { ix1 with node := ns1 }
           else if (f.node (Path.thread ctx1 (-1)) (q : Int)).indexType = duplicateKeyNode then
             if Path.dup (f :: ctx1) ≠ nullIndexPointer then
               match setLeft ix1.node (f.addr : Int) (a : Int) with
               | none => none
               | some ns1 => some { ix1 with node := ns1 }
             else
               match setRight ix1.node (f.addr : Int) (a : Int) with
               | none => none
               | some ns1 => some { ix1 with node := ns1 }
           else if (f.node (Path.thread ctx1 (-1)) (q : Int)).indexType = characterNode ∨ (f.node (Path.thread ctx1 (-1)) (q : Int)).indexType = indexKeyNode then
             match setRight ix1.node (f.addr : Int) (a : Int) with
             | none => none
             | some ns1 => some { ix1 with node := ns1 }
           else some ix1) := by
      unfold deleteRelink
      rw [if_pos (by rw [h1]; exact hnn)]
      simp only [h1, h2, h3, Path.prev, getNode_natCast, hpn, hq]
      try rfl
    have hsl : f.holeLeft = true → setLeft ix1.node (f.addr : Int) (a : Int) =
        some (ix1.node.set f.addr (f.node (Path.thread ctx1 (-1)) (a : Int))) := by
      intro hh
      rw [setLeft_natCast _ _ _ _ hpn, Frame.node_setLeft _ _ _ _ hh]
    have hsr : f.holeLeft = false → setRight ix1.node (f.addr : Int) (a : Int) =
        some (ix1.node.set f.addr (f.node (Path.thread ctx1 (-1)) (a : Int))) := by
      intro hh
      rw [setRight_natCast _ _ _ _ hpn, Frame.node_setRight _ _ _ _ hh]
    cases f with
    | Rf p c e =>
      refine fin _ rfl (fun _ => rfl) ?_
      rw [hcode, hsr rfl]
      simp [Frame.node, decisionNode, indexKeyNode, duplicateTerminalNode,
        duplicateKeyNode, characterNode]
    | Xf p c =>
      refine fin _ rfl (fun _ => rfl) ?_
      rw [hcode, hsr rfl]
      simp [Frame.node, decisionNode, indexKeyNode, duplicateTerminalNode,
        duplicateKeyNode, characterNode]
    | Kf p c sub =>
      refine fin _ rfl (fun _ => rfl) ?_
      rw [hcode]
      have hd : Path.dup (Frame.Kf p c sub :: ctx1) = nullIndexPointer := by
        simp only [Path.SideOk] at hside
        simpa [Path.dup] using hside
      rw [hsr rfl]
      simp [Frame.node, hd, decisionNode, indexKeyNode, duplicateTerminalNode,
        duplicateKeyNode, characterNode]
    | Ks p c n =>
      refine fin _ rfl (fun _ => rfl) ?_
      rw [hcode]
      have hd : Path.dup (Frame.Ks p c n :: ctx1) ≠ nullIndexPointer := by
        simpa [Path.dup] using natCast_ne_null p
      rw [hsl rfl]
      simp [Frame.node, hd, decisionNode, indexKeyNode, duplicateTerminalNode,
        duplicateKeyNode, characterNode]
    | Ls p c =>
      refine fin _ rfl (fun _ => rfl) ?_
      rw [hcode, hsl rfl]
      simp [Frame.node, decisionNode, indexKeyNode, duplicateTerminalNode,
        duplicateKeyNode, characterNode]
    | Dr p c l =>
      refine fin _ rfl (fun _ => rfl) ?_
      rw [hcode]
      have hcc : ¬ en.keyCharacter ≤ c := by
        simp only [Path.SideOk] at hside
        rw [hqc]; omega
      rw [hsr rfl]
      simp [Frame.node, hcc]
    | Dl p c r =>
      have hcc : en.keyCharacter ≤ c := by
        simp only [Path.SideOk] at hside
        rw [hqc]; exact hside
      cases reset with
      | false =>
        refine fin _ rfl (fun hc => by cases hc) ?_
        rw [hcode, hsl rfl]
        simp [Frame.node, hcc]
      | true =>
        have hqa := hql rfl
        have hra := hrn rfl
        simp only [if_true]
        simp only [Path.Laid, Frame.Laid, Frame.addr] at hp
        simp only [Frame.addr] at hpn hlt hqf
        simp only [Path.addrs, Frame.addrs, List.cons_append, List.nodup_cons,
          List.mem_append, not_or] at hnd
        have hl_r : ∀ nd, Trie.Laid (ix1.node.set p nd) r (Path.thread ctx1 (-1)) :=
          fun nd => Trie.Laid.frame r _ hp.1.2 (fun b hb =>
            getElem?_set_other _ _ _ _ (fun hc => hnd.1.1 (by rw [hc]; exact hb)))
        have hl_c : ∀ nd, Path.Laid (ix1.node.set p nd) ctx1 (-1) (p : Int) :=
          fun nd => Path.Laid.frame_path ctx1 _ _ hp.2 (fun b hb =>
            getElem?_set_other _ _ _ _ (fun hc => hnd.1.2 (by rw [hc]; exact hb)))
        have hoth : ∀ nd b, b ∉ Path.addrs (Frame.Dl p c r :: ctx1) →
            (ix1.node.set p nd)[b]? = ix1.node[b]? := by
          intro nd b hb
          exact getElem?_set_other _ _ _ _ (fun hc => hb (by rw [← hc]; exact hfa))
        by_cases hD : t'.isD = true
        · have hty : (t'.node th').indexType = decisionNode := (t'.node_type_D th').mpr hD
          refine ⟨{ ix1 with node := ix1.node.set p ⟨decisionNode, (a : Int), c, (r.addr : Int)⟩ },
            ?_, rfl, rfl, by simp, hoth _, ?_, ?_⟩
          · rw [hcode]
            simp [Frame.node, Frame.addr, hcc, hqa, hra, hty, hq, setLeft_natCast _ _ _ _ hpn]
          · simp only [Path.reset, hD, if_true, Path.Laid, Frame.Laid, Frame.addr]
            exact ⟨⟨getElem?_set_self' _ _ _ hlt, hl_r _⟩, hl_c _⟩
          · simp only [Path.reset, hD, if_true]
            rw [hroot]; rfl
        · have hty : ¬ (t'.node th').indexType = decisionNode :=
            fun hc => hD ((t'.node_type_D th').mp hc)
          have hD' : t'.isD = false := by simpa using hD
          have hs1 : (ix1.node.set p ⟨decisionNode, (q : Int), t'.char, (r.addr : Int)⟩)[p]? =
              some ⟨decisionNode, (q : Int), t'.char, (r.addr : Int)⟩ :=
            getElem?_set_self' _ _ _ hlt
          have hs2 : (ix1.node.set p ⟨decisionNode, (q : Int), t'.char, (r.addr : Int)⟩)[q]? =
              some en := by
            rw [getElem?_set_other _ _ _ _ (fun hc => hqf hc.symm)]; exact hq
          refine ⟨{ ix1 with
              node := ix1.node.set p ⟨decisionNode, (a : Int), t'.char, (r.addr : Int)⟩ },
            ?_, rfl, rfl, by simp, hoth _, ?_, ?_⟩
          · rw [hcode]
            simp only [Frame.node, Frame.addr, hcc, if_true, hqa, getNode_natCast, hra, hty,
              ne_eq, not_false_eq_true, setChar_natCast _ _ _ _ hpn, Trie.node_char, hs2,
              setLeft_natCast _ _ _ _ hs1, List.set_set]
          · simp only [Path.reset, hD', Path.Laid, Frame.Laid, Frame.addr]
            exact ⟨⟨getElem?_set_self' _ _ _ hlt, hl_r _⟩, hl_c _⟩
          · simp only [Path.reset, hD']
            rw [hroot]; rfl

/-- The same with the well-formedness of the path in the place of what the
descent knows. -/
theorem delete_relink (ix1 : Index) (st : DeleteState) (ctx0 : Path) (q a : Nat) (t' : Trie)
    (th' : Int) (en : indexNode) (cq cnt : Nat) (reset : Bool)
    (hp : Path.Laid ix1.node ctx0 (-1) (q : Int))
    (hq : ix1.node[q]? = some en) (hqc : en.keyCharacter = cq)
    (hql : reset = true → en.leftPointer = (a : Int))
    (hrn : reset = true → ix1.node[a]? = some (t'.node th'))
    (hwf : Path.WF ctx0 cnt) (hlo : (Path.params ctx0).2.1 < (cq : Int))
    (hhi : (cq : Int) ≤ (Path.params ctx0).2.2)
    (h1 : st.linkPreviousPointer = Path.prev ctx0) (h2 : st.deleteIndexPointer = (q : Int))
    (h3 : st.duplicateNodePointer = Path.dup ctx0)
    (hnd : (Path.addrs ctx0).Nodup) (hqn : q ∉ Path.addrs ctx0)
    (hroot : ix1.indexRootPointer = (Path.rootAddr ctx0 q : Int)) :
    ∃ ix2, deleteRelink ix1 st (a : Int) reset = some ix2 ∧
      ix2.deletedRootPointer = ix1.deletedRootPointer ∧ ix2.keyCount = ix1.keyCount ∧
      ix2.node.length = ix1.node.length ∧
      (∀ b, b ∉ Path.addrs ctx0 → ix2.node[b]? = ix1.node[b]?) ∧
      Path.Laid ix2.node (if reset then Path.reset ctx0 t' else ctx0) (-1) (a : Int) ∧
      ix2.indexRootPointer = (Path.rootAddr (if reset then Path.reset ctx0 t' else ctx0) a : Int) :=
  delete_relink_gen ix1 st ctx0 q a t' th' en cq reset hp hq hqc hql hrn
    (Path.SideOk.side_of_wf ctx0 cq cnt hwf hlo hhi) h1 h2 h3 hnd hqn hroot

/-! ## Delete: removal of a single element -/

theorem Trie.IsChain.last_node {ns : List indexNode} : ∀ (t : Trie) (ks : List Nat) (e : Int)
    (th : Int), t.IsChain ks e → Trie.Laid ns t th →
    ∃ c, ns[t.lastTerm]? = some ⟨indexTerminalNode, e, c, th⟩ := by
  intro t
  induction t with
  | S p c e0 =>
    intro ks e th h hl
    match ks, h with
    | [k], h =>
      simp only [Trie.IsChain] at h
      exact ⟨c, by rw [← h.2]; exact hl⟩
  | X p c n ih =>
    intro ks e th h hl
    match ks, h with
    | k :: k2 :: ks, h =>
      simp only [Trie.IsChain] at h
      exact ih _ _ th h.2 hl.2
  | R p c e0 n _ => intro ks e th h; simp [Trie.IsChain] at h
  | D p c l r _ _ => intro ks e th h; simp [Trie.IsChain] at h
  | L p c sub _ => intro ks e th h; simp [Trie.IsChain] at h
  | K p c sub n _ _ => intro ks e th h; simp [Trie.IsChain] at h

/-- The key node that holds the pair becomes a character node. -/
theorem delete_single_R (fuel : Nat) (ix : Index) (fl : List Nat) (ctx : Path)
    (st : DeleteState) (p c : Nat) (e : Int) (n : Trie)
    (h : AtFocus ix fl ctx (Trie.R p c e n)) (hptr : st.indexPointer = (p : Int)) :
    ∃ ix', deleteSingle fuel ix st = some (true, ix') ∧ AtFocus ix' fl ctx (Trie.X p c n) ∧
      ix'.keyCount = ix.keyCount - 1 := by
  have hl := h.tree
  simp only [Trie.Laid] at hl
  have hp_lt : p < ix.node.length := lt_length_of_getElem? hl.1
  let nd1 : indexNode := ⟨characterNode, e, c, (n.addr : Int)⟩
  let nd2 : indexNode := ⟨characterNode, nullIndexPointer, c, (n.addr : Int)⟩
  have hset1 : (ix.node.set p nd1)[p]? = some nd1 := getElem?_set_self' _ _ _ hp_lt
  refine ⟨{ ix with node := (ix.node.set p nd1).set p nd2, keyCount := ix.keyCount - 1 },
    ?_, ?_, rfl⟩
  · simp only [deleteSingle, hptr, getNode_natCast, hl.1, if_true,
      setType_natCast _ _ _ _ hl.1]
    simp only [nd1] at hset1
    simp [setLeft_natCast _ _ _ _ hset1, nd1, nd2]
  · have hpn : p ∉ n.addrs := by
      have := h.tree_nodup
      simp only [Trie.addrs, List.nodup_cons] at this
      exact this.1
    refine h.replace_same rfl rfl rfl (by simp) ?_ ?_ (by simp [Trie.addrs])
    · intro b hb
      have hbp : p ≠ b := fun hc => hb (by simp [Trie.addrs, hc])
      simp only [List.set_set]
      exact getElem?_set_other _ _ _ _ hbp
    · simp only [List.set_set, Trie.Laid]
      refine ⟨getElem?_set_self' _ _ _ hp_lt, ?_⟩
      exact Trie.Laid.frame n _ hl.2
        (fun b hb => getElem?_set_other _ _ _ _ (fun hc => hpn (by rw [hc]; exact hb)))

/-- The chain that ends in the terminal node with the pair, after the right
pointer of that node has been set to the head of the free list, continues the
free list. -/
theorem chain_freed {ix : Index} {fl : List Nat} {ctx : Path} {t chain : Trie} {th : Int}
    {ks : List Nat} {e : Int} (h : AtFocus ix fl ctx t) (hsub : ∀ a ∈ chain.addrs, a ∈ t.addrs)
    (hnd : chain.addrs.Nodup)
    (hch : chain.IsChain ks e) (hl : Trie.Laid ix.node chain th) :
    ∃ c, ix.node[chain.lastTerm]? = some ⟨indexTerminalNode, e, c, th⟩ ∧
      Trie.Laid (ix.node.set chain.lastTerm ⟨indexTerminalNode, e, c, ix.deletedRootPointer⟩)
        chain ix.deletedRootPointer ∧
      FreeList (ix.node.set chain.lastTerm ⟨indexTerminalNode, e, c, ix.deletedRootPointer⟩)
        (chain.addr : Int) (chain.addrs ++ fl) := by
  obtain ⟨c, hc⟩ := hch.last_node chain ks e th hl
  have hl2 := Trie.Laid.rethread chain th ix.deletedRootPointer hl hnd _ hc
  refine ⟨c, hc, hl2, ?_⟩
  refine Trie.Linear.free_linear chain _ fl (hch.linear chain ks e) hl2 ?_
  exact FreeList.frame_free fl _ h.free (fun b hb => getElem?_set_other _ _ _ _
    (fun hcc => h.tree_not_free (hsub _ chain.lastTerm_mem) (by rw [hcc]; exact hb)))

/-- The only key of the index is removed: the index becomes empty. -/
theorem delete_single_all (fuel : Nat) (ix : Index) (fl : List Nat) (st : DeleteState)
    (chain : Trie) (ks : List Nat) (e : Int)
    (h : AtFocus ix fl [] chain) (hch : chain.IsChain ks e)
    (hptr : st.indexPointer = (chain.lastTerm : Int))
    (hdele : st.deleteIndexPointer = nullIndexPointer) :
    ∃ ix', deleteSingle fuel ix st = some (true, ix') ∧
      ix'.indexRootPointer = nullIndexPointer ∧
      FreeList ix'.node ix'.deletedRootPointer (chain.addrs ++ fl) ∧
      (chain.addrs ++ fl).Perm (List.range ix'.node.length) ∧
      ix'.keyCount = ix.keyCount - 1 := by
  obtain ⟨c, hc, hl2, hf2⟩ := chain_freed h (fun a ha => ha) h.tree_nodup hch h.tree
  refine ⟨{ ix with
      node := ix.node.set chain.lastTerm ⟨indexTerminalNode, e, c, ix.deletedRootPointer⟩,
      deletedRootPointer := ix.indexRootPointer, indexRootPointer := nullIndexPointer,
      keyCount := ix.keyCount - 1 }, ?_, rfl, ?_, ?_, rfl⟩
  · simp [deleteSingle, hptr, hdele, hc, setRight_natCast _ _ _ _ hc, indexTerminalNode,
      indexKeyNode]
  · simp only [h.root, Path.rootAddr]
    exact hf2
  · have := h.perm
    simpa [Path.addrs] using this

/-- The chain below a key node is removed: the key node becomes a terminal node. -/
theorem delete_single_Rf (fuel : Nat) (ix : Index) (fl : List Nat) (ctx0 : Path)
    (st : DeleteState) (p' c' : Nat) (e' : Int) (chain : Trie) (ks : List Nat) (e : Int)
    (h : AtFocus ix fl (Frame.Rf p' c' e' :: ctx0) chain) (hch : chain.IsChain ks e)
    (hptr : st.indexPointer = (chain.lastTerm : Int))
    (hdele : st.deleteIndexPointer = (p' : Int)) :
    ∃ ix', deleteSingle fuel ix st = some (true, ix') ∧
      AtFocus ix' (chain.addrs ++ fl) ctx0 (Trie.S p' c' e') ∧
      ix'.keyCount = ix.keyCount - 1 := by
  have hup := AtFocus.up _ h
  simp only [Frame.fill] at hup
  have hnd := hup.tree_nodup
  simp only [Trie.addrs, List.nodup_cons] at hnd
  obtain ⟨c, hc, hl2, hf2⟩ := chain_freed hup (fun a ha => by simp [Trie.addrs, ha]) hnd.2
    hch h.tree
  have hpn : ix.node[p']? = some ⟨indexKeyNode, e', c', (chain.addr : Int)⟩ := h.path.1
  have hlne : chain.lastTerm ≠ p' := fun hcc => hnd.1 (by rw [← hcc]; exact chain.lastTerm_mem)
  have hp_lt : p' < ix.node.length := lt_length_of_getElem? hpn
  have hth : Path.thread (Frame.Rf p' c' e' :: ctx0) (-1) = Path.thread ctx0 (-1) := rfl
  rw [hth] at hc
  let nd1 : indexNode := ⟨indexKeyNode, e', c', Path.thread ctx0 (-1)⟩
  let nd2 : indexNode := ⟨indexTerminalNode, e', c', Path.thread ctx0 (-1)⟩
  let nd3 : indexNode := ⟨indexTerminalNode, e, c, ix.deletedRootPointer⟩
  have hs1 : (ix.node.set p' nd1)[p']? = some nd1 := getElem?_set_self' _ _ _ hp_lt
  have hs2 : (ix.node.set p' nd2)[chain.lastTerm]? =
      some ⟨indexTerminalNode, e, c, Path.thread ctx0 (-1)⟩ := by
    rw [getElem?_set_other _ _ _ _ hlne.symm]; exact hc
  have hcomm : ((ix.node.set p' nd1).set p' nd2).set chain.lastTerm nd3 =
      (ix.node.set chain.lastTerm nd3).set p' nd2 := by
    rw [List.set_set, List.set_comm _ _ _ hlne.symm]
  refine ⟨{ ix with node := ((ix.node.set p' nd1).set p' nd2).set chain.lastTerm nd3,
                     deletedRootPointer := (chain.addr : Int),
                     keyCount := ix.keyCount - 1 }, ?_, ?_, rfl⟩
  · simp only [nd1] at hs1
    simp only [nd2] at hs2
    simp [deleteSingle, hptr, hdele, hc, hpn, natCast_ne_null, setRight_natCast _ _ _ _ hpn,
      hs1, setType_natCast _ _ _ _ hs1, setRight_natCast _ _ _ _ hs2, indexTerminalNode,
      indexKeyNode, nd1, nd2, nd3]
  · have hpf : p' ∉ chain.addrs ++ fl := by
      intro hcc
      rcases List.mem_append.mp hcc with h1 | h1
      · exact hnd.1 h1
      · exact hup.tree_not_free (by simp [Trie.addrs]) h1
    refine hup.replace_free rfl rfl (by simp) ?_ ?_ ?_ (by simp [Trie.addrs])
    · intro b hb _
      simp only [Trie.addrs, List.mem_cons, not_or] at hb
      simp only [hcomm]
      rw [getElem?_set_other _ _ _ _ (fun hcc => hb.1 hcc.symm),
        getElem?_set_other _ _ _ _ (fun hcc => hb.2 (by rw [← hcc]; exact chain.lastTerm_mem))]
    · simp only [hcomm, Trie.Laid]
      exact getElem?_set_self' _ _ _ (by simpa using hp_lt)
    · simp only [hcomm]
      exact FreeList.frame_free _ _ hf2 (fun b hb => getElem?_set_other _ _ _ _
        (fun hcc => hpf (by rw [hcc]; exact hb)))

/-- The chain below a duplicate key node is removed: the node becomes a
duplicate terminal node. -/
theorem delete_single_Kf (fuel : Nat) (ix : Index) (fl : List Nat) (ctx0 : Path)
    (st : DeleteState) (p' c' : Nat) (sub : Trie) (chain : Trie) (ks : List Nat) (e : Int)
    (h : AtFocus ix fl (Frame.Kf p' c' sub :: ctx0) chain) (hch : chain.IsChain ks e)
    (hptr : st.indexPointer = (chain.lastTerm : Int))
    (hdele : st.deleteIndexPointer = (p' : Int)) :
    ∃ ix', deleteSingle fuel ix st = some (true, ix') ∧
      AtFocus ix' (chain.addrs ++ fl) ctx0 (Trie.L p' c' sub) ∧
      ix'.keyCount = ix.keyCount - 1 := by
  have hup := AtFocus.up _ h
  simp only [Frame.fill] at hup
  have hnd := hup.tree_nodup
  simp only [Trie.addrs, List.nodup_cons, List.mem_append, not_or, List.nodup_append] at hnd
  obtain ⟨c, hc, hl2, hf2⟩ := chain_freed hup (fun a ha => by simp [Trie.addrs, ha]) hnd.2.2.1
    hch h.tree
  have hpn : ix.node[p']? = some ⟨duplicateKeyNode, (sub.addr : Int), c', (chain.addr : Int)⟩ :=
    h.path.1.1
  have hsub : Trie.Laid ix.node sub (p' : Int) := h.path.1.2
  have hlne : chain.lastTerm ≠ p' := fun hcc => hnd.1.2 (by rw [← hcc]; exact chain.lastTerm_mem)
  have hp_lt : p' < ix.node.length := lt_length_of_getElem? hpn
  have hth : Path.thread (Frame.Kf p' c' sub :: ctx0) (-1) = Path.thread ctx0 (-1) := rfl
  rw [hth] at hc
  let nd1 : indexNode := ⟨duplicateKeyNode, (sub.addr : Int), c', Path.thread ctx0 (-1)⟩
  let nd2 : indexNode := ⟨duplicateTerminalNode, (sub.addr : Int), c', Path.thread ctx0 (-1)⟩
  let nd3 : indexNode := ⟨indexTerminalNode, e, c, ix.deletedRootPointer⟩
  have hs1 : (ix.node.set p' nd1)[p']? = some nd1 := getElem?_set_self' _ _ _ hp_lt
  have hs2 : (ix.node.set p' nd2)[chain.lastTerm]? =
      some ⟨indexTerminalNode, e, c, Path.thread ctx0 (-1)⟩ := by
    rw [getElem?_set_other _ _ _ _ hlne.symm]; exact hc
  have hcomm : ((ix.node.set p' nd1).set p' nd2).set chain.lastTerm nd3 =
      (ix.node.set chain.lastTerm nd3).set p' nd2 := by
    rw [List.set_set, List.set_comm _ _ _ hlne.symm]
  refine ⟨{ ix with node := ((ix.node.set p' nd1).set p' nd2).set chain.lastTerm nd3,
                     deletedRootPointer := (chain.addr : Int),
                     keyCount := ix.keyCount - 1 }, ?_, ?_, rfl⟩
  · simp only [nd1] at hs1
    simp only [nd2] at hs2
    simp [deleteSingle, hptr, hdele, hc, hpn, natCast_ne_null, setRight_natCast _ _ _ _ hpn,
      hs1, setType_natCast _ _ _ _ hs1, setRight_natCast _ _ _ _ hs2, indexTerminalNode,
      indexKeyNode, duplicateKeyNode, nd1, nd2, nd3]
  · have hpf : p' ∉ chain.addrs ++ fl := by
      intro hcc
      rcases List.mem_append.mp hcc with h1 | h1
      · exact hnd.1.2 h1
      · exact hup.tree_not_free (by simp [Trie.addrs]) h1
    refine hup.replace_free rfl rfl (by simp) ?_ ?_ ?_ ?_
    · intro b hb _
      simp only [Trie.addrs, List.mem_cons, List.mem_append, not_or] at hb
      simp only [hcomm]
      rw [getElem?_set_other _ _ _ _ (fun hcc => hb.1 hcc.symm),
        getElem?_set_other _ _ _ _ (fun hcc => hb.2.2 (by rw [← hcc]; exact chain.lastTerm_mem))]
    · simp only [hcomm, Trie.Laid]
      refine ⟨getElem?_set_self' _ _ _ (by simpa using hp_lt), ?_⟩
      refine Trie.Laid.frame sub _ hsub (fun b hb => ?_)
      rw [getElem?_set_other _ _ _ _ (fun hcc => hnd.1.1 (by rw [hcc]; exact hb)),
        getElem?_set_other _ _ _ _
          (fun hcc => hnd.2.2.2 hb (by rw [← hcc]; exact chain.lastTerm_mem))]
    · simp only [hcomm]
      exact FreeList.frame_free _ _ hf2 (fun b hb => getElem?_set_other _ _ _ _
        (fun hcc => hpf (by rw [hcc]; exact hb)))
    · simp only [Trie.addrs, List.cons_append, List.append_assoc]
      exact List.Perm.refl _

theorem chain_freed_gen {ns : List indexNode} {fl : List Nat} {chain : Trie} {th hd : Int}
    {ks : List Nat} {e : Int} (hnd : chain.addrs.Nodup)
    (hch : chain.IsChain ks e) (hl : Trie.Laid ns chain th) (hf : FreeList ns hd fl)
    (hdisj : chain.lastTerm ∉ fl) :
    ∃ c, ns[chain.lastTerm]? = some ⟨indexTerminalNode, e, c, th⟩ ∧
      Trie.Laid (ns.set chain.lastTerm ⟨indexTerminalNode, e, c, hd⟩) chain hd ∧
      FreeList (ns.set chain.lastTerm ⟨indexTerminalNode, e, c, hd⟩)
        (chain.addr : Int) (chain.addrs ++ fl) := by
  obtain ⟨c, hc⟩ := hch.last_node chain ks e th hl
  have hl2 := Trie.Laid.rethread chain th hd hl hnd _ hc
  refine ⟨c, hc, hl2, ?_⟩
  refine Trie.Linear.free_linear chain _ fl (hch.linear chain ks e) hl2 ?_
  exact FreeList.frame_free fl _ hf (fun b hb => getElem?_set_other _ _ _ _
    (fun hcc => hdisj (by rw [hcc]; exact hb)))

/-- The chain on the left of a decision node is removed with the decision
node: the tree on the right takes the place of the decision node. -/
theorem delete_single_Dl_gen (fuel : Nat) (ix : Index) (fl : List Nat) (ctx0 : Path)
    (st : DeleteState) (q cq : Nat) (r : Trie) (chain : Trie) (ks : List Nat) (e : Int)
    (h : AtFocus ix fl (Frame.Dl q cq r :: ctx0) chain) (hch : chain.IsChain ks e)
    (hptr : st.indexPointer = (chain.lastTerm : Int))
    (hdele : st.deleteIndexPointer = (q : Int))
    (hlprev : st.linkPreviousPointer = Path.prev ctx0)
    (hdup : st.duplicateNodePointer = Path.dup ctx0)
    (hbr : st.deleteBranch = left)
    (hside : Path.SideOk ctx0 cq) :
    ∃ ix', deleteSingle fuel ix st = some (true, ix') ∧
      AtFocus ix' (q :: (chain.addrs ++ fl)) ctx0 r ∧
      ix'.keyCount = ix.keyCount - 1 := by
  have hup := AtFocus.up _ h
  simp only [Frame.fill] at hup
  have hnd := hup.tree_nodup
  simp only [Trie.addrs, List.nodup_cons, List.mem_append, not_or, List.nodup_append] at hnd
  obtain ⟨⟨hq1, hq2⟩, hcn, hrn, hcr⟩ := hnd
  have hqn : ix.node[q]? = some ⟨decisionNode, (chain.addr : Int), cq, (r.addr : Int)⟩ :=
    h.path.1.1
  have hrl : Trie.Laid ix.node r (Path.thread ctx0 (-1)) := h.path.1.2
  have hqp : q ∉ Path.addrs ctx0 := hup.tree_not_path (by simp [Trie.addrs])
  have hcp : ∀ b ∈ chain.addrs, b ∉ Path.addrs ctx0 :=
    fun b hb => hup.tree_not_path (by simp [Trie.addrs, hb])
  have hrp : ∀ b ∈ r.addrs, b ∉ Path.addrs ctx0 :=
    fun b hb => hup.tree_not_path (by simp [Trie.addrs, hb])
  have hfp : ∀ b ∈ fl, b ∉ Path.addrs ctx0 := fun b hb hc => hup.path_not_free hc hb
  obtain ⟨ix1, hrel, g1, g2, g3, g4, g5, g6⟩ := delete_relink_gen ix st ctx0 q r.addr r 0 _ cq
    false hup.path hqn rfl (fun hc => by cases hc) (fun hc => by cases hc) hside hlprev
    hdele hdup hup.path_nodup hqp hup.root
  simp only [Bool.false_eq_true, if_false] at g5 g6
  have hth : Path.thread (Frame.Dl q cq r :: ctx0) (-1) = (q : Int) := rfl
  have hl1 : Trie.Laid ix1.node chain (q : Int) := by
    have := h.tree
    rw [hth] at this
    exact Trie.Laid.frame chain _ this (fun b hb => g4 b (hcp b hb))
  have hf1 : FreeList ix1.node ix.deletedRootPointer fl :=
    FreeList.frame_free fl _ h.free (fun b hb => g4 b (hfp b hb))
  obtain ⟨c, hc, hl2, hf2⟩ := chain_freed_gen hcn hch hl1 hf1
    (hup.tree_not_free (by simp [Trie.addrs, chain.lastTerm_mem]))
  have hlq : chain.lastTerm ≠ q := fun hcc => hq1 (by rw [← hcc]; exact chain.lastTerm_mem)
  let nd3 : indexNode := ⟨indexTerminalNode, e, c, ix.deletedRootPointer⟩
  let ndq : indexNode := ⟨decisionNode, (chain.addr : Int), cq, (chain.addr : Int)⟩
  have hq1' : ix1.node[q]? = some ⟨decisionNode, (chain.addr : Int), cq, (r.addr : Int)⟩ := by
    rw [g4 q hqp]; exact hqn
  have hq2' : (ix1.node.set chain.lastTerm nd3)[q]? =
      some ⟨decisionNode, (chain.addr : Int), cq, (r.addr : Int)⟩ := by
    rw [getElem?_set_other _ _ _ _ hlq]; exact hq1'
  have hq_lt : q < (ix1.node.set chain.lastTerm nd3).length := lt_length_of_getElem? hq2'
  have hpn0 : ix.node[chain.lastTerm]? = some ⟨indexTerminalNode, e, c, (q : Int)⟩ :=
    (g4 _ (hcp _ chain.lastTerm_mem)).symm.trans hc
  refine ⟨{ ix1 with node := (ix1.node.set chain.lastTerm nd3).set q ndq,
                      deletedRootPointer := (q : Int),
                      keyCount := ix1.keyCount - 1 }, ?_, ?_, by simp [g2]⟩
  · simp only [nd3] at hq2'
    simp [deleteSingle, hptr, hdele, hpn0, hqn, natCast_ne_null, hbr, hrel, hc, g1,
      setRight_natCast _ _ _ _ hc, hq2', setRight_natCast _ _ _ _ hq2', indexTerminalNode,
      indexKeyNode, decisionNode, duplicateKeyNode, nd3, ndq]
  · have hoth : ∀ b, b ≠ chain.lastTerm → b ≠ q →
        ((ix1.node.set chain.lastTerm nd3).set q ndq)[b]? = ix1.node[b]? := by
      intro b h1 h2
      rw [getElem?_set_other _ _ _ _ h2.symm, getElem?_set_other _ _ _ _ h1.symm]
    refine ⟨g6, ?_, ?_, ?_, ?_⟩
    · exact Path.Laid.frame_path ctx0 _ _ g5 (fun b hb => hoth b
        (fun hcc => hcp _ chain.lastTerm_mem (by rw [← hcc]; exact hb))
        (fun hcc => hqp (by rw [← hcc]; exact hb)))
    · refine Trie.Laid.frame r _ hrl (fun b hb => ?_)
      rw [hoth b (fun hcc => hcr (show b ∈ chain.addrs by rw [hcc]; exact chain.lastTerm_mem) hb)
        (fun hcc => hq2 (by rw [← hcc]; exact hb))]
      exact g4 b (hrp b hb)
    · refine ⟨rfl, ndq, getElem?_set_self' _ _ _ hq_lt, ?_⟩
      refine FreeList.frame_free _ _ hf2 (fun b hb => getElem?_set_other _ _ _ _ (fun hcc => ?_))
      have hqfl : q ∉ fl :=
        hup.tree_not_free (show q ∈ (Trie.D q cq chain r).addrs by simp [Trie.addrs])
      rcases List.mem_append.mp hb with h1 | h1
      · exact hq1 (by rw [hcc]; exact h1)
      · exact hqfl (by rw [hcc]; exact h1)
    · simp only [List.length_set, g3]
      refine List.Perm.trans ?_ hup.perm
      simp only [Trie.addrs, List.append_assoc, List.cons_append]
      refine List.Perm.append_left _ ?_
      refine List.perm_middle.trans (List.Perm.cons _ ?_)
      rw [← List.append_assoc, ← List.append_assoc]
      exact List.perm_append_comm.append_right _

theorem delete_single_Dl (fuel : Nat) (ix : Index) (fl : List Nat) (ctx0 : Path)
    (st : DeleteState) (q cq : Nat) (r : Trie) (chain : Trie) (ks : List Nat) (e : Int)
    (cnt : Nat)
    (h : AtFocus ix fl (Frame.Dl q cq r :: ctx0) chain) (hch : chain.IsChain ks e)
    (hptr : st.indexPointer = (chain.lastTerm : Int))
    (hdele : st.deleteIndexPointer = (q : Int))
    (hlprev : st.linkPreviousPointer = Path.prev ctx0)
    (hdup : st.duplicateNodePointer = Path.dup ctx0)
    (hbr : st.deleteBranch = left)
    (hwf : Path.WF ctx0 cnt) (hlo : (Path.params ctx0).2.1 < (cq : Int))
    (hhi : (cq : Int) ≤ (Path.params ctx0).2.2) :
    ∃ ix', deleteSingle fuel ix st = some (true, ix') ∧
      AtFocus ix' (q :: (chain.addrs ++ fl)) ctx0 r ∧
      ix'.keyCount = ix.keyCount - 1 :=
  delete_single_Dl_gen fuel ix fl ctx0 st q cq r chain ks e h hch hptr hdele hlprev hdup hbr (Path.SideOk.side_of_wf ctx0 cq cnt hwf hlo hhi)

theorem deleteThread_walk (ns : List indexNode) (q : Nat) :
    ∀ (t : Trie), Trie.Laid ns t (q : Int) → q ∉ t.addrs → ∀ fuel, t.rightDepth < fuel →
      runLoop (deleteThreadBody ns (q : Int)) fuel (t.addr : Int) = some (t.lastTerm : Int) := by
  intro t
  induction t with
  | S p c e =>
    intro h _ fuel hf
    exact runLoop_exit' _ _ _ _ (by simp [deleteThreadBody, Trie.addr, Trie.lastTerm,
      show ns[p]? = _ from h]) (by omega)
  | R p c e n ih =>
    intro h hq fuel hf
    simp only [Trie.rightDepth] at hf
    have hne : n.addr ≠ q := fun hc => hq (by simp [Trie.addrs, ← hc, n.addr_mem_addrs])
    obtain ⟨m, rfl⟩ : ∃ m, fuel = m + 1 := ⟨fuel - 1, by omega⟩
    have hne' : ¬ ((n.addr : Int) = (q : Int)) := by exact_mod_cast hne
    rw [runLoop_next _ _ _ (n.addr : Int) (by simp [deleteThreadBody, Trie.addr_R, Trie.addr_X,
      Trie.addr_K, show ns[p]? = _ from h.1, hne'])]
    exact ih h.2 (fun hc => hq (by simp [Trie.addrs, hc])) m (by omega)
  | X p c n ih =>
    intro h hq fuel hf
    simp only [Trie.rightDepth] at hf
    have hne : n.addr ≠ q := fun hc => hq (by simp [Trie.addrs, ← hc, n.addr_mem_addrs])
    obtain ⟨m, rfl⟩ : ∃ m, fuel = m + 1 := ⟨fuel - 1, by omega⟩
    have hne' : ¬ ((n.addr : Int) = (q : Int)) := by exact_mod_cast hne
    rw [runLoop_next _ _ _ (n.addr : Int) (by simp [deleteThreadBody, Trie.addr_R, Trie.addr_X,
      Trie.addr_K, show ns[p]? = _ from h.1, hne'])]
    exact ih h.2 (fun hc => hq (by simp [Trie.addrs, hc])) m (by omega)
  | D p c l r ihl ihr =>
    intro h hq fuel hf
    simp only [Trie.rightDepth] at hf
    have hne : r.addr ≠ q := fun hc => hq (by simp [Trie.addrs, ← hc, r.addr_mem_addrs])
    obtain ⟨m, rfl⟩ : ∃ m, fuel = m + 1 := ⟨fuel - 1, by omega⟩
    have hne' : ¬ ((r.addr : Int) = (q : Int)) := by exact_mod_cast hne
    rw [runLoop_next _ _ _ (r.addr : Int) (by simp [deleteThreadBody, Trie.addr_D,
      show ns[p]? = _ from h.1, hne'])]
    exact ihr h.2.2 (fun hc => hq (by simp [Trie.addrs, hc])) m (by omega)
  | L p c sub ih =>
    intro h _ fuel hf
    exact runLoop_exit' _ _ _ _ (by simp [deleteThreadBody, Trie.addr, Trie.lastTerm,
      show ns[p]? = _ from h.1]) (by omega)
  | K p c sub n ihs ihn =>
    intro h hq fuel hf
    simp only [Trie.rightDepth] at hf
    have hne : n.addr ≠ q := fun hc => hq (by simp [Trie.addrs, ← hc, n.addr_mem_addrs])
    obtain ⟨m, rfl⟩ : ∃ m, fuel = m + 1 := ⟨fuel - 1, by omega⟩
    have hne' : ¬ ((n.addr : Int) = (q : Int)) := by exact_mod_cast hne
    rw [runLoop_next _ _ _ (n.addr : Int) (by simp [deleteThreadBody, Trie.addr_R, Trie.addr_X,
      Trie.addr_K, show ns[p]? = _ from h.1, hne'])]
    exact ihn h.2.2 (fun hc => hq (by simp [Trie.addrs, hc])) m (by omega)

theorem Path.reset_addrs (ctx : Path) (t : Trie) :
    Path.addrs (Path.reset ctx t) = Path.addrs ctx := by
  cases ctx with
  | nil => rfl
  | cons f ctx => cases f <;> rfl

theorem Path.reset_thread (ctx : Path) (t : Trie) (th0 : Int) :
    Path.thread (Path.reset ctx t) th0 = Path.thread ctx th0 := by
  cases ctx with
  | nil => rfl
  | cons f ctx => cases f <;> rfl

/-- The chain on the right of a decision node is removed with the decision
node: the tree on the left takes the place of the decision node. -/
theorem delete_single_Dr_gen (fuel : Nat) (ix : Index) (fl : List Nat) (ctx0 : Path)
    (st : DeleteState) (q cq : Nat) (l : Trie) (chain : Trie) (ks : List Nat) (e : Int)
    (h : AtFocus ix fl (Frame.Dr q cq l :: ctx0) chain) (hch : chain.IsChain ks e)
    (hptr : st.indexPointer = (chain.lastTerm : Int))
    (hdele : st.deleteIndexPointer = (q : Int))
    (hlprev : st.linkPreviousPointer = Path.prev ctx0)
    (hdup : st.duplicateNodePointer = Path.dup ctx0)
    (hbr : st.deleteBranch = right)
    (hside : Path.SideOk ctx0 cq) (hfuel : l.size ≤ fuel) :
    ∃ ix', deleteSingle fuel ix st = some (true, ix') ∧
      AtFocus ix' (q :: (chain.addrs ++ fl)) (Path.reset ctx0 l) l ∧
      ix'.keyCount = ix.keyCount - 1 := by
  have hup := AtFocus.up _ h
  simp only [Frame.fill] at hup
  have hnd := hup.tree_nodup
  simp only [Trie.addrs, List.nodup_cons, List.mem_append, not_or, List.nodup_append] at hnd
  obtain ⟨⟨hq1, hq2⟩, hln, hcn, hlc⟩ := hnd
  have hqn : ix.node[q]? = some ⟨decisionNode, (l.addr : Int), cq, (chain.addr : Int)⟩ :=
    h.path.1.1
  have hll : Trie.Laid ix.node l (q : Int) := h.path.1.2
  have hqp : q ∉ Path.addrs ctx0 := hup.tree_not_path (by simp [Trie.addrs])
  have hcp : ∀ b ∈ chain.addrs, b ∉ Path.addrs ctx0 :=
    fun b hb => hup.tree_not_path (by simp [Trie.addrs, hb])
  have hlp : ∀ b ∈ l.addrs, b ∉ Path.addrs ctx0 :=
    fun b hb => hup.tree_not_path (by simp [Trie.addrs, hb])
  have hfp : ∀ b ∈ fl, b ∉ Path.addrs ctx0 := fun b hb hc => hup.path_not_free hc hb
  have hqfl : q ∉ fl :=
    hup.tree_not_free (show q ∈ (Trie.D q cq l chain).addrs by simp [Trie.addrs])
  have hlfl : ∀ b ∈ l.addrs, b ∉ fl := fun b hb => hup.tree_not_free (by simp [Trie.addrs, hb])
  have hcfl : ∀ b ∈ chain.addrs, b ∉ fl :=
    fun b hb => hup.tree_not_free (by simp [Trie.addrs, hb])
  have hth : Path.thread (Frame.Dr q cq l :: ctx0) (-1) = Path.thread ctx0 (-1) := rfl
  -- the terminal with the pair
  obtain ⟨c, hc0⟩ := hch.last_node chain ks e _ h.tree
  rw [hth] at hc0
  -- the walk to the last terminal of the tree on the left
  have hwalk := deleteThread_walk ix.node q l hll hq1 fuel
    (by have := l.rightDepth_lt_size; omega)
  obtain ⟨tn, htn, htnr, _⟩ := Trie.Laid.lastTerm l _ hll
  let ns1 := ix.node.set l.lastTerm { tn with rightPointer := Path.thread ctx0 (-1) }
  have hl1 : Trie.Laid ns1 l (Path.thread ctx0 (-1)) := Trie.Laid.rethread l _ _ hll hln tn htn
  have hlq : l.lastTerm ≠ q := fun hcc => hq1 (by rw [← hcc]; exact l.lastTerm_mem)
  have hlc' : l.lastTerm ≠ chain.lastTerm :=
    fun hcc => hlc l.lastTerm_mem (by rw [hcc]; exact chain.lastTerm_mem)
  have hq1' : ns1[q]? = some ⟨decisionNode, (l.addr : Int), cq, (chain.addr : Int)⟩ := by
    rw [getElem?_set_other _ _ _ _ hlq]; exact hqn
  have hp1 : Path.Laid ns1 ctx0 (-1) (q : Int) :=
    Path.Laid.frame_path ctx0 _ _ hup.path (fun b hb => getElem?_set_other _ _ _ _
      (fun hcc => hlp _ l.lastTerm_mem (by rw [hcc]; exact hb)))
  obtain ⟨ix2, hrel, g1, g2, g3, g4, g5, g6⟩ := delete_relink_gen { ix with node := ns1 } st ctx0 q
    l.addr l (Path.thread ctx0 (-1)) _ cq true hp1 hq1' rfl (fun _ => rfl)
    (fun _ => hl1.node) hside hlprev hdele hdup hup.path_nodup hqp hup.root
  simp only [if_true] at g5 g6
  simp only [Path.reset_addrs] at g4
  have hc2 : ix2.node[chain.lastTerm]? =
      some ⟨indexTerminalNode, e, c, Path.thread ctx0 (-1)⟩ := by
    rw [g4 _ (hcp _ chain.lastTerm_mem)]
    simp only [ns1]
    rw [getElem?_set_other _ _ _ _ hlc']; exact hc0
  have hl2 : Trie.Laid ix2.node chain (Path.thread ctx0 (-1)) := by
    refine Trie.Laid.frame chain _ h.tree (fun b hb => ?_)
    rw [g4 b (hcp b hb)]
    simp only [ns1]
    exact getElem?_set_other _ _ _ _ (fun hcc => hlc l.lastTerm_mem (by rw [hcc]; exact hb))
  have hf2 : FreeList ix2.node ix.deletedRootPointer fl := by
    refine FreeList.frame_free fl _ h.free (fun b hb => ?_)
    rw [g4 b (hfp b hb)]
    simp only [ns1]
    exact getElem?_set_other _ _ _ _ (fun hcc => hlfl _ l.lastTerm_mem (by rw [hcc]; exact hb))
  obtain ⟨c', hc', hl3, hf3⟩ := chain_freed_gen hcn hch hl2 hf2 (hcfl _ chain.lastTerm_mem)
  have hcc' : c' = c := by
    have := hc'.symm.trans hc2
    simp only [Option.some.injEq, indexNode.mk.injEq] at this
    exact this.2.2.1
  subst hcc'
  let nd3 : indexNode := ⟨indexTerminalNode, e, c', ix.deletedRootPointer⟩
  have hqc : chain.lastTerm ≠ q := fun hcc => hq2 (by rw [← hcc]; exact chain.lastTerm_mem)
  have hq3 : (ix2.node.set chain.lastTerm nd3)[q]? =
      some ⟨decisionNode, (l.addr : Int), cq, (chain.addr : Int)⟩ := by
    rw [getElem?_set_other _ _ _ _ hqc, g4 q hqp]; exact hq1'
  refine ⟨{ ix2 with node := ix2.node.set chain.lastTerm nd3,
                      deletedRootPointer := (q : Int),
                      keyCount := ix2.keyCount - 1 }, ?_, ?_, by simp [g2]⟩
  · have hbr' : ¬ (st.deleteBranch = left) := by rw [hbr]; decide
    simp only [deleteSingle, hptr, hdele, getNode_natCast, hc0, hqn, hbr', if_false]
    simp only [hwalk, setRight_natCast _ _ _ _ htn]
    simp only [ns1] at hq1' hrel
    simp [hq1', hrel, hc2, g1, setRight_natCast _ _ _ _ hc2, natCast_ne_null,
      indexTerminalNode, indexKeyNode, decisionNode, duplicateKeyNode, nd3]
  · refine ⟨g6, ?_, ?_, ?_, ?_⟩
    · refine Path.Laid.frame_path _ _ _ g5 (fun b hb => getElem?_set_other _ _ _ _ (fun hcc => ?_))
      rw [Path.reset_addrs] at hb
      exact hcp _ chain.lastTerm_mem (by rw [hcc]; exact hb)
    · rw [Path.reset_thread]
      refine Trie.Laid.frame l _ hl1 (fun b hb => ?_)
      rw [getElem?_set_other _ _ _ _
        (fun hcc => hlc hb (by rw [← hcc]; exact chain.lastTerm_mem))]
      exact g4 b (hlp b hb)
    · refine ⟨rfl, _, hq3, ?_⟩
      exact hf3
    · simp only [List.length_set, g3, Path.reset_addrs, ns1]
      refine List.Perm.trans ?_ hup.perm
      simp only [Trie.addrs, List.append_assoc, List.cons_append]
      refine List.Perm.append_left _ ?_
      exact List.perm_middle

theorem delete_single_Dr (fuel : Nat) (ix : Index) (fl : List Nat) (ctx0 : Path)
    (st : DeleteState) (q cq : Nat) (l : Trie) (chain : Trie) (ks : List Nat) (e : Int)
    (cnt : Nat)
    (h : AtFocus ix fl (Frame.Dr q cq l :: ctx0) chain) (hch : chain.IsChain ks e)
    (hptr : st.indexPointer = (chain.lastTerm : Int))
    (hdele : st.deleteIndexPointer = (q : Int))
    (hlprev : st.linkPreviousPointer = Path.prev ctx0)
    (hdup : st.duplicateNodePointer = Path.dup ctx0)
    (hbr : st.deleteBranch = right)
    (hwf : Path.WF ctx0 cnt) (hlo : (Path.params ctx0).2.1 < (cq : Int))
    (hhi : (cq : Int) ≤ (Path.params ctx0).2.2) (hfuel : l.size ≤ fuel) :
    ∃ ix', deleteSingle fuel ix st = some (true, ix') ∧
      AtFocus ix' (q :: (chain.addrs ++ fl)) (Path.reset ctx0 l) l ∧
      ix'.keyCount = ix.keyCount - 1 :=
  delete_single_Dr_gen fuel ix fl ctx0 st q cq l chain ks e h hch hptr hdele hlprev hdup hbr (Path.SideOk.side_of_wf ctx0 cq cnt hwf hlo hhi) hfuel

/-! ## Delete: a duplicates branch of two elements -/

theorem Frame.isDup_thread {g : Frame} (hg : g.isDup = true) (th : Int) :
    g.thread th = (g.addr : Int) := by
  cases g <;> simp [Frame.isDup] at hg <;> rfl

theorem Frame.isDup_node {g : Frame} (hg : g.isDup = true) (th a : Int) (e : Int) :
    ({ g.node th a with
        indexType := if (g.node th a).indexType = duplicateKeyNode then indexKeyNode
                     else indexTerminalNode,
        leftPointer := e } : indexNode) = (g.collapse e).node th := by
  cases g <;> simp [Frame.isDup] at hg <;>
    simp [Frame.node, Frame.collapse, Trie.node, duplicateKeyNode, duplicateTerminalNode]

theorem Frame.isDup_left {g : Frame} (hg : g.isDup = true) (th a : Int) :
    (g.node th a).leftPointer = a := by
  cases g <;> simp [Frame.isDup] at hg <;> rfl

theorem Frame.isDup_addrs {g : Frame} (hg : g.isDup = true) (e : Int) :
    (g.collapse e).addrs = g.addrs ∧ (g.collapse e).addr = g.addr := by
  cases g <;> simp [Frame.isDup] at hg <;> exact ⟨rfl, rfl⟩

theorem Frame.isDup_laid {g : Frame} (hg : g.isDup = true) {ns ns' : List indexNode}
    {th a : Int} (e : Int) (h : g.Laid ns th a)
    (hn : ns'[g.addr]? = some ((g.collapse e).node th))
    (hf : ∀ b ∈ g.addrs, b ≠ g.addr → ns'[b]? = ns[b]?) (hnd : g.addrs.Nodup) :
    Trie.Laid ns' (g.collapse e) th := by
  cases g with
  | Ks p c n =>
    simp only [Frame.addrs, List.nodup_cons] at hnd
    refine ⟨hn, Trie.Laid.frame n _ h.2 (fun b hb => hf b (by simp [Frame.addrs, hb]) ?_)⟩
    intro hc
    exact hnd.1 (by rw [← show b = p from hc]; exact hb)
  | Ls p c => exact hn
  | Rf p c e' => simp [Frame.isDup] at hg
  | Xf p c => simp [Frame.isDup] at hg
  | Kf p c sub => simp [Frame.isDup] at hg
  | Dl p c r => simp [Frame.isDup] at hg
  | Dr p c l => simp [Frame.isDup] at hg

theorem deleteScan_walk (ns : List indexNode) : ∀ (t : Trie) (ks : List Nat) (e : Int)
    (th : Int), t.IsChain ks e → Trie.Laid ns t th → ∀ fuel, t.size ≤ fuel →
    runLoop (deleteScanBody ns) fuel (t.addr : Int) = some (t.lastTerm : Int) := by
  intro t
  induction t with
  | S p c e0 =>
    intro ks e th h hl fuel hf
    simp only [Trie.size] at hf
    exact runLoop_exit' _ _ _ _ (by simp [deleteScanBody, Trie.addr, Trie.lastTerm,
      show ns[p]? = _ from hl]) (by omega)
  | X p c n ih =>
    intro ks e th h hl fuel hf
    match ks, h with
    | k :: k2 :: ks, h =>
      simp only [Trie.IsChain] at h
      simp only [Trie.size] at hf
      obtain ⟨m, rfl⟩ : ∃ m, fuel = m + 1 := ⟨fuel - 1, by omega⟩
      rw [runLoop_next _ _ _ (n.addr : Int) (by simp [deleteScanBody, Trie.addr_X,
        show ns[p]? = _ from hl.1, characterNode, indexTerminalNode])]
      exact ih _ _ th h.2 hl.2 m (by omega)
  | R p c e0 n _ => intro ks e th h; simp [Trie.IsChain] at h
  | D p c l r _ _ => intro ks e th h; simp [Trie.IsChain] at h
  | L p c sub _ => intro ks e th h; simp [Trie.IsChain] at h
  | K p c sub n _ _ => intro ks e th h; simp [Trie.IsChain] at h

/-- The state of the index after a duplicates branch that is a single line
has been given up. -/
theorem collapse_linear {ix : Index} {fl : List Nat} {ctx0 : Path} {g : Frame} {sub : Trie}
    (hg : g.isDup = true) (h : AtFocus ix fl (g :: ctx0) sub) (hlin : sub.Linear)
    (tn : indexNode) (htn : ix.node[sub.lastTerm]? = some tn) (e' : Int) (cnt : Int)
    (nd1 : indexNode) :
    AtFocus { ix with
        node := ((ix.node.set g.addr nd1).set sub.lastTerm
                  { tn with rightPointer := ix.deletedRootPointer }).set g.addr
                    ((g.collapse e').node (Path.thread ctx0 (-1))),
        deletedRootPointer := (sub.addr : Int), keyCount := cnt }
      (sub.addrs ++ fl) ctx0 (g.collapse e') := by
  have hup := AtFocus.up _ h
  have hperm := g.addrs_fill sub
  have hnd : (g.addrs ++ sub.addrs).Nodup := hperm.nodup_iff.mp hup.tree_nodup
  have hgs : g.addr ∉ sub.addrs :=
    fun hc => (List.nodup_append.mp hnd).2.2 g.addr_mem_addrs_frame hc
  have hlg : sub.lastTerm ≠ g.addr := fun hc => hgs (by rw [← hc]; exact sub.lastTerm_mem)
  have hg_lt : g.addr < ix.node.length := lt_length_of_getElem? h.path.1.node_frame
  have hth : Path.thread (g :: ctx0) (-1) = (g.addr : Int) := Frame.isDup_thread hg _
  have hsl : Trie.Laid ix.node sub (g.addr : Int) := by rw [← hth]; exact h.tree
  have hcomm : ((ix.node.set g.addr nd1).set sub.lastTerm
        { tn with rightPointer := ix.deletedRootPointer }).set g.addr
          ((g.collapse e').node (Path.thread ctx0 (-1))) =
      (ix.node.set sub.lastTerm { tn with rightPointer := ix.deletedRootPointer }).set g.addr
          ((g.collapse e').node (Path.thread ctx0 (-1))) := by
    rw [List.set_comm _ _ _ hlg.symm, List.set_set]
  have hgf : g.addr ∉ fl :=
    hup.tree_not_free (hperm.mem_iff.mpr (List.mem_append_left _ g.addr_mem_addrs_frame))
  refine hup.replace_free ?_ rfl (by simp) ?_ ?_ ?_ ?_
  · rw [(Frame.isDup_addrs hg e').2, Frame.addr_fill]
  · intro b hb _
    have hb' : b ∉ g.addrs ++ sub.addrs := fun hc => hb (hperm.mem_iff.mpr hc)
    simp only [List.mem_append, not_or] at hb'
    simp only [hcomm]
    rw [getElem?_set_other _ _ _ _ (fun hc => hb'.1 (by rw [← hc]; exact g.addr_mem_addrs_frame)),
      getElem?_set_other _ _ _ _ (fun hc => hb'.2 (by rw [← hc]; exact sub.lastTerm_mem))]
  · simp only [hcomm]
    refine Frame.isDup_laid hg e' h.path.1 (getElem?_set_self' _ _ _ (by simpa using hg_lt)) ?_
      (List.nodup_append.mp hnd).1
    intro b hb hne
    rw [getElem?_set_other _ _ _ _ hne.symm, getElem?_set_other _ _ _ _
      (fun hc => (List.nodup_append.mp hnd).2.2 hb (by rw [← hc]; exact sub.lastTerm_mem))]
  · simp only [hcomm]
    have hl2 := Trie.Laid.rethread sub _ ix.deletedRootPointer hsl
      (List.nodup_append.mp hnd).2.1 tn htn
    have hf2 : FreeList (ix.node.set sub.lastTerm
        { tn with rightPointer := ix.deletedRootPointer }) ix.deletedRootPointer fl :=
      FreeList.frame_free fl _ h.free (fun b hb => getElem?_set_other _ _ _ _
        (fun hc => hup.tree_not_free (hperm.mem_iff.mpr (List.mem_append_right _
          sub.lastTerm_mem)) (by rw [hc]; exact hb)))
    have hf3 := Trie.Linear.free_linear sub _ fl hlin hl2 hf2
    refine FreeList.frame_free _ _ hf3 (fun b hb => getElem?_set_other _ _ _ _ (fun hc => ?_))
    rcases List.mem_append.mp hb with h1 | h1
    · exact hgs (by rw [hc]; exact h1)
    · exact hgf (by rw [hc]; exact h1)
  · rw [(Frame.isDup_addrs hg e').1, ← List.append_assoc]
    exact (hperm.symm).append_right fl

theorem Path.addrs_append : ∀ (a b : Path), Path.addrs (a ++ b) = Path.addrs a ++ Path.addrs b := by
  intro a
  induction a with
  | nil => intro b; rfl
  | cons f a ih => intro b; simp [Path.addrs, ih]

theorem AtFocus.append_iff (ix : Index) (fl : List Nat) (a b : Path) (t : Trie) :
    AtFocus ix fl (a ++ b) t ↔ AtFocus ix fl b (Path.plug a t) := by
  rw [← AtFocus.plug_iff ix fl (a ++ b) t, ← AtFocus.plug_iff ix fl b (Path.plug a t),
    Path.plug_append]

/-- Facts about the duplicates branch `sub` that `Delete` gives up, common to
all its shapes: the node of the branch, the node after the change of type. -/
theorem collapse_start {ix : Index} {fl : List Nat} {ctx0 : Path} {g : Frame} {sub : Trie}
    (hg : g.isDup = true) (h : AtFocus ix fl (g :: ctx0) sub) :
    ix.node[g.addr]? = some (g.node (Path.thread ctx0 (-1)) (sub.addr : Int)) ∧
    g.addr ∉ sub.addrs ∧ g.addr ∉ fl ∧ Trie.Laid ix.node sub (g.addr : Int) ∧
    sub.addrs.Nodup := by
  have hup := AtFocus.up _ h
  have hperm := g.addrs_fill sub
  have hnd : (g.addrs ++ sub.addrs).Nodup := hperm.nodup_iff.mp hup.tree_nodup
  have hth : Path.thread (g :: ctx0) (-1) = (g.addr : Int) := Frame.isDup_thread hg _
  refine ⟨h.path.1.node_frame, fun hc => (List.nodup_append.mp hnd).2.2 g.addr_mem_addrs_frame hc,
    hup.tree_not_free (hperm.mem_iff.mpr (List.mem_append_left _ g.addr_mem_addrs_frame)),
    by rw [← hth]; exact h.tree, (List.nodup_append.mp hnd).2.1⟩

/-- A duplicates branch of two elements, the second below the first on one
line, loses the second: the terminal node that ends the line. -/
theorem delete_collapse_a (fuel : Nat) (ix : Index) (fl : List Nat) (ctx0 xp2 : Path)
    (g : Frame) (st : DeleteState) (q c1 : Nat) (e' : Int) (chain1 : Trie) (ks : List Nat)
    (e : Int) (hg : g.isDup = true) (hx : Path.IsX xp2)
    (h : AtFocus ix fl (Frame.Rf q c1 e' :: (xp2 ++ g :: ctx0)) chain1)
    (hch : chain1.IsChain ks e)
    (hptr : st.indexPointer = (chain1.lastTerm : Int))
    (hdele : st.deleteIndexPointer = (q : Int))
    (hdup : st.duplicateNodePointer = (g.addr : Int)) :
    ∃ ix', deleteCollapse fuel ix st = some (true, ix') ∧
      AtFocus ix' ((Path.plug xp2 (Trie.R q c1 e' chain1)).addrs ++ fl) ctx0 (g.collapse e') ∧
      ix'.keyCount = ix.keyCount - 1 := by
  have h1 := AtFocus.up _ h
  simp only [Frame.fill] at h1
  have h2 := (AtFocus.append_iff ix fl xp2 (g :: ctx0) _).mp h1
  obtain ⟨hgn, hgs, hgf, hsl, hsn⟩ := collapse_start hg h2
  obtain ⟨t1, t2, t3, _⟩ := hx.tree xp2 (Trie.R q c1 e' chain1)
  have hlin := t3 (by simpa [Trie.Linear] using hch.linear chain1 ks e)
  have hlast : (Path.plug xp2 (Trie.R q c1 e' chain1)).lastTerm = chain1.lastTerm := by
    rw [t1]; rfl
  have hth : Path.thread (Frame.Rf q c1 e' :: (xp2 ++ g :: ctx0)) (-1) = (g.addr : Int) := by
    have := (hx.regs xp2 (g :: ctx0)).2.2.2.2 (-1)
    simp only [Path.thread, Frame.thread] at this ⊢
    rw [this]; exact Frame.isDup_thread hg _
  obtain ⟨c, hc⟩ := hch.last_node chain1 ks e _ h.tree
  rw [hth] at hc
  have hqn : ix.node[q]? = some ⟨indexKeyNode, e', c1, (chain1.addr : Int)⟩ := h.path.1
  have hq_sub : q ∈ (Path.plug xp2 (Trie.R q c1 e' chain1)).addrs :=
    (Path.addrs_plug xp2 _).mem_iff.mpr (List.mem_append_right _ (by simp [Trie.addrs]))
  have hm_sub : chain1.lastTerm ∈ (Path.plug xp2 (Trie.R q c1 e' chain1)).addrs := by
    rw [← hlast]; exact Trie.lastTerm_mem _
  have hqg : q ≠ g.addr := fun hcc => hgs (by rw [← hcc]; exact hq_sub)
  have hmg : chain1.lastTerm ≠ g.addr := fun hcc => hgs (by rw [← hcc]; exact hm_sub)
  have hqm : q ≠ chain1.lastTerm := by
    intro hcc
    have := h1.tree_nodup
    simp only [Trie.addrs, List.nodup_cons] at this
    exact this.1 (by rw [hcc]; exact chain1.lastTerm_mem)
  let T : Nat := if (g.node (Path.thread ctx0 (-1))
      ((Path.plug xp2 (Trie.R q c1 e' chain1)).addr : Int)).indexType = duplicateKeyNode
    then indexKeyNode else indexTerminalNode
  let nd1 : indexNode := { g.node (Path.thread ctx0 (-1))
      ((Path.plug xp2 (Trie.R q c1 e' chain1)).addr : Int) with indexType := T }
  have hfin := collapse_linear hg h2 hlin ⟨indexTerminalNode, e, c, (g.addr : Int)⟩
    (by rw [hlast]; exact hc) e' (ix.keyCount - 1) nd1
  rw [hlast] at hfin
  refine ⟨_, ?_, hfin, rfl⟩
  have hg_lt : g.addr < ix.node.length := lt_length_of_getElem? hgn
  have r1 : (ix.node.set g.addr nd1)[chain1.lastTerm]? =
      some ⟨indexTerminalNode, e, c, (g.addr : Int)⟩ := by
    rw [getElem?_set_other _ _ _ _ hmg.symm]; exact hc
  have r2 : (ix.node.set g.addr nd1)[q]? = some ⟨indexKeyNode, e', c1, (chain1.addr : Int)⟩ := by
    rw [getElem?_set_other _ _ _ _ hqg.symm]; exact hqn
  have r3 : ((ix.node.set g.addr nd1).set chain1.lastTerm
      ⟨indexTerminalNode, e, c, ix.deletedRootPointer⟩)[g.addr]? = some nd1 := by
    rw [getElem?_set_other _ _ _ _ hmg]
    exact getElem?_set_self' _ _ _ hg_lt
  have r4 : ((ix.node.set g.addr nd1).set chain1.lastTerm
      ⟨indexTerminalNode, e, c, ix.deletedRootPointer⟩)[q]? =
      some ⟨indexKeyNode, e', c1, (chain1.addr : Int)⟩ := by
    rw [getElem?_set_other _ _ _ _ hqm.symm]; exact r2
  have hnode := Frame.isDup_node hg (Path.thread ctx0 (-1))
    ((Path.plug xp2 (Trie.R q c1 e' chain1)).addr : Int) e'
  have hleft := Frame.isDup_left hg (Path.thread ctx0 (-1))
    ((Path.plug xp2 (Trie.R q c1 e' chain1)).addr : Int)
  unfold deleteCollapse
  simp only [hdup, hptr, hdele, getNode_natCast, hgn, setType_natCast _ _ _ _ hgn, r1, r2,
    if_true, decide_True, setRight_natCast _ _ _ _ r1, r3, r4,
    setLeft_natCast _ _ _ _ r3]
  simp only [nd1, T, hnode, hleft]

/-- A duplicates branch of two elements, the second below the first on one
line, loses the first: the key node on the line. -/
theorem delete_collapse_b (fuel : Nat) (ix : Index) (fl : List Nat) (ctx0 xp2 : Path)
    (g : Frame) (st : DeleteState) (q c1 : Nat) (e e' : Int) (n2 : Trie) (ks : List Nat)
    (hg : g.isDup = true) (hx : Path.IsX xp2)
    (h : AtFocus ix fl (xp2 ++ g :: ctx0) (Trie.R q c1 e n2))
    (hch : n2.IsChain ks e')
    (hptr : st.indexPointer = (q : Int))
    (hdup : st.duplicateNodePointer = (g.addr : Int)) (hfuel : n2.size ≤ fuel) :
    ∃ ix', deleteCollapse fuel ix st = some (true, ix') ∧
      AtFocus ix' ((Path.plug xp2 (Trie.R q c1 e n2)).addrs ++ fl) ctx0 (g.collapse e') ∧
      ix'.keyCount = ix.keyCount - 1 := by
  have h2 := (AtFocus.append_iff ix fl xp2 (g :: ctx0) _).mp h
  obtain ⟨hgn, hgs, hgf, hsl, hsn⟩ := collapse_start hg h2
  obtain ⟨t1, t2, t3, _⟩ := hx.tree xp2 (Trie.R q c1 e n2)
  have hlin := t3 (by simpa [Trie.Linear] using hch.linear n2 ks e')
  have hlast : (Path.plug xp2 (Trie.R q c1 e n2)).lastTerm = n2.lastTerm := by
    rw [t1]; rfl
  have hth : Path.thread (xp2 ++ g :: ctx0) (-1) = (g.addr : Int) := by
    rw [(hx.regs xp2 (g :: ctx0)).2.2.2.2 (-1)]; exact Frame.isDup_thread hg _
  have hR := h.tree
  rw [hth] at hR
  obtain ⟨c, hc⟩ := hch.last_node n2 ks e' _ hR.2
  have hqn : ix.node[q]? = some ⟨indexKeyNode, e, c1, (n2.addr : Int)⟩ := hR.1
  have hq_sub : q ∈ (Path.plug xp2 (Trie.R q c1 e n2)).addrs :=
    (Path.addrs_plug xp2 _).mem_iff.mpr (List.mem_append_right _ (by simp [Trie.addrs]))
  have hm_sub : n2.lastTerm ∈ (Path.plug xp2 (Trie.R q c1 e n2)).addrs := by
    rw [← hlast]; exact Trie.lastTerm_mem _
  have hn_sub : ∀ b ∈ n2.addrs, b ∈ (Path.plug xp2 (Trie.R q c1 e n2)).addrs := fun b hb =>
    (Path.addrs_plug xp2 _).mem_iff.mpr (List.mem_append_right _ (by simp [Trie.addrs, hb]))
  have hqg : q ≠ g.addr := fun hcc => hgs (by rw [← hcc]; exact hq_sub)
  have hmg : n2.lastTerm ≠ g.addr := fun hcc => hgs (by rw [← hcc]; exact hm_sub)
  let T : Nat := if (g.node (Path.thread ctx0 (-1))
      ((Path.plug xp2 (Trie.R q c1 e n2)).addr : Int)).indexType = duplicateKeyNode
    then indexKeyNode else indexTerminalNode
  let nd1 : indexNode := { g.node (Path.thread ctx0 (-1))
      ((Path.plug xp2 (Trie.R q c1 e n2)).addr : Int) with indexType := T }
  have hfin := collapse_linear hg h2 hlin ⟨indexTerminalNode, e', c, (g.addr : Int)⟩
    (by rw [hlast]; exact hc) e' (ix.keyCount - 1) nd1
  rw [hlast] at hfin
  refine ⟨_, ?_, hfin, rfl⟩
  have hg_lt : g.addr < ix.node.length := lt_length_of_getElem? hgn
  have hl1 : Trie.Laid (ix.node.set g.addr nd1) n2 (g.addr : Int) :=
    Trie.Laid.frame n2 _ hR.2 (fun b hb => getElem?_set_other _ _ _ _
      (fun hcc => hgs (by rw [hcc]; exact hn_sub b hb)))
  have hwalk := deleteScan_walk (ix.node.set g.addr nd1) n2 ks e' _ hch hl1 fuel hfuel
  have r1 : (ix.node.set g.addr nd1)[n2.lastTerm]? =
      some ⟨indexTerminalNode, e', c, (g.addr : Int)⟩ := by
    rw [getElem?_set_other _ _ _ _ hmg.symm]; exact hc
  have r2 : (ix.node.set g.addr nd1)[q]? = some ⟨indexKeyNode, e, c1, (n2.addr : Int)⟩ := by
    rw [getElem?_set_other _ _ _ _ hqg.symm]; exact hqn
  have r3 : ((ix.node.set g.addr nd1).set n2.lastTerm
      ⟨indexTerminalNode, e', c, ix.deletedRootPointer⟩)[g.addr]? = some nd1 := by
    rw [getElem?_set_other _ _ _ _ hmg]
    exact getElem?_set_self' _ _ _ hg_lt
  have r4 : ((ix.node.set g.addr nd1).set n2.lastTerm
      ⟨indexTerminalNode, e', c, ix.deletedRootPointer⟩)[n2.lastTerm]? =
      some ⟨indexTerminalNode, e', c, ix.deletedRootPointer⟩ :=
    getElem?_set_self' _ _ _ (lt_length_of_getElem? r1)
  have hnode := Frame.isDup_node hg (Path.thread ctx0 (-1))
    ((Path.plug xp2 (Trie.R q c1 e n2)).addr : Int) e'
  have hleft := Frame.isDup_left hg (Path.thread ctx0 (-1))
    ((Path.plug xp2 (Trie.R q c1 e n2)).addr : Int)
  have hty : ¬ (indexKeyNode = indexTerminalNode) := by decide
  unfold deleteCollapse
  simp only [hdup, hptr, getNode_natCast, hgn, setType_natCast _ _ _ _ hgn, r2, hty,
    if_false, if_true, hwalk, setRight_natCast _ _ _ _ r1, r3, r4,
    setLeft_natCast _ _ _ _ r3]
  simp only [nd1, T, hnode, hleft]

theorem Path.thread_append : ∀ (a b : Path) (th0 : Int),
    Path.thread (a ++ b) th0 = Path.thread a (Path.thread b th0) := by
  intro a
  induction a with
  | nil => intro b th0; rfl
  | cons f a ih => intro b th0; simp [Path.thread, ih]

theorem Path.laid_append_left {ns : List indexNode} : ∀ (a b : Path) (th0 x : Int),
    Path.Laid ns (a ++ b) th0 x → Path.Laid ns a (Path.thread b th0) x := by
  intro a
  induction a with
  | nil => intro b th0 x _; trivial
  | cons f a ih =>
    intro b th0 x h
    obtain ⟨h1, h2⟩ := h
    refine ⟨?_, ih b th0 _ h2⟩
    rw [← Path.thread_append]; exact h1

/-- The state of the index after a duplicates branch that forks into two
lines has been given up. -/
theorem collapse_D {ix : Index} {fl : List Nat} {ctx0 xp2 : Path} {g : Frame} {q c1 : Nat}
    {A B : Trie} (hg : g.isDup = true) (hx : Path.IsX xp2)
    (h1 : AtFocus ix fl (xp2 ++ g :: ctx0) (Trie.D q c1 A B)) (hA : A.Linear) (hB : B.Linear)
    (tnA tnB : indexNode) (htnA : ix.node[A.lastTerm]? = some tnA)
    (htnB : ix.node[B.lastTerm]? = some tnB) (e' : Int) (cnt : Int) (nd1 : indexNode) :
    AtFocus { ix with
        node := (((ix.node.set g.addr nd1).set B.lastTerm
                  { tnB with rightPointer := ix.deletedRootPointer }).set A.lastTerm
                  { tnA with rightPointer :=
                      ((Path.plug xp2 (Trie.D q c1 A B)).addr : Int) }).set g.addr
                    ((g.collapse e').node (Path.thread ctx0 (-1))),
        deletedRootPointer := (A.addr : Int), keyCount := cnt }
      (A.addrs ++ ((Path.addrs xp2).reverse ++ (q :: (B.addrs ++ fl)))) ctx0
      (g.collapse e') := by
  have h2 := (AtFocus.append_iff ix fl xp2 (g :: ctx0) _).mp h1
  have hup := AtFocus.up _ h2
  obtain ⟨hgn, hgs, hgf, hsl, hsn⟩ := collapse_start hg h2
  have hpermg := g.addrs_fill (Path.plug xp2 (Trie.D q c1 A B))
  have hperms := Path.addrs_plug xp2 (Trie.D q c1 A B)
  have hndg : (g.addrs ++ (Path.plug xp2 (Trie.D q c1 A B)).addrs).Nodup :=
    hpermg.nodup_iff.mp hup.tree_nodup
  have hnds : (Path.addrs xp2 ++ (Trie.D q c1 A B).addrs).Nodup := hperms.nodup_iff.mp hsn
  have hndD := (List.nodup_append.mp hnds).2.1
  simp only [Trie.addrs, List.nodup_cons, List.mem_append, not_or, List.nodup_append] at hndD
  obtain ⟨⟨hqA, hqB⟩, hAn, hBn, hAB⟩ := hndD
  -- membership in the branch
  have inA : ∀ b ∈ A.addrs, b ∈ (Path.plug xp2 (Trie.D q c1 A B)).addrs := fun b hb =>
    hperms.mem_iff.mpr (List.mem_append_right _ (by simp [Trie.addrs, hb]))
  have inB : ∀ b ∈ B.addrs, b ∈ (Path.plug xp2 (Trie.D q c1 A B)).addrs := fun b hb =>
    hperms.mem_iff.mpr (List.mem_append_right _ (by simp [Trie.addrs, hb]))
  have inq : q ∈ (Path.plug xp2 (Trie.D q c1 A B)).addrs :=
    hperms.mem_iff.mpr (List.mem_append_right _ (by simp [Trie.addrs]))
  have inX : ∀ b ∈ Path.addrs xp2, b ∈ (Path.plug xp2 (Trie.D q c1 A B)).addrs := fun b hb =>
    hperms.mem_iff.mpr (List.mem_append_left _ hb)
  have hXD : ∀ b ∈ Path.addrs xp2, b ∉ (Trie.D q c1 A B).addrs :=
    fun b hb hc => (List.nodup_append.mp hnds).2.2 hb hc
  have hsub_fl : ∀ b ∈ (Path.plug xp2 (Trie.D q c1 A B)).addrs, b ∉ fl := fun b hb =>
    hup.tree_not_free (hpermg.mem_iff.mpr (List.mem_append_right _ hb))
  have hmA := A.lastTerm_mem
  have hmB := B.lastTerm_mem
  have hAg : A.lastTerm ≠ g.addr := fun hc => hgs (by rw [← hc]; exact inA _ hmA)
  have hBg : B.lastTerm ≠ g.addr := fun hc => hgs (by rw [← hc]; exact inB _ hmB)
  have hAB' : A.lastTerm ≠ B.lastTerm := fun hc => hAB hmA (by rw [hc]; exact hmB)
  -- normal form of the arena
  let x : indexNode := { tnB with rightPointer := ix.deletedRootPointer }
  let y : indexNode := { tnA with rightPointer := ((Path.plug xp2 (Trie.D q c1 A B)).addr : Int) }
  have hcomm : (((ix.node.set g.addr nd1).set B.lastTerm x).set A.lastTerm y).set g.addr
        ((g.collapse e').node (Path.thread ctx0 (-1))) =
      ((ix.node.set B.lastTerm x).set A.lastTerm y).set g.addr
        ((g.collapse e').node (Path.thread ctx0 (-1))) := by
    rw [List.set_comm _ _ _ hBg.symm, List.set_comm _ _ _ hAg.symm, List.set_set]
  have hoth : ∀ b, b ≠ g.addr → b ≠ A.lastTerm → b ≠ B.lastTerm →
      (((ix.node.set B.lastTerm x).set A.lastTerm y).set g.addr
        ((g.collapse e').node (Path.thread ctx0 (-1))))[b]? = ix.node[b]? := by
    intro b hb1 hb2 hb3
    rw [getElem?_set_other _ _ _ _ hb1.symm, getElem?_set_other _ _ _ _ hb2.symm,
      getElem?_set_other _ _ _ _ hb3.symm]
  -- the two lines
  have hD := h1.tree
  have hth : Path.thread (g :: ctx0) (-1) = (g.addr : Int) := Frame.isDup_thread hg _
  rw [(hx.regs xp2 (g :: ctx0)).2.2.2.2 (-1), hth] at hD
  have hB1 : Trie.Laid (ix.node.set B.lastTerm x) B ix.deletedRootPointer :=
    Trie.Laid.rethread B _ _ hD.2.2 hBn tnB htnB
  have hA1 : Trie.Laid (ix.node.set B.lastTerm x) A (q : Int) :=
    Trie.Laid.frame A _ hD.2.1 (fun b hb => getElem?_set_other _ _ _ _
      (fun hc => hAB hb (by rw [← hc]; exact hmB)))
  have htnA1 : (ix.node.set B.lastTerm x)[A.lastTerm]? = some tnA := by
    rw [getElem?_set_other _ _ _ _ hAB'.symm]; exact htnA
  have hA2 : Trie.Laid ((ix.node.set B.lastTerm x).set A.lastTerm y) A
      ((Path.plug xp2 (Trie.D q c1 A B)).addr : Int) :=
    Trie.Laid.rethread A _ _ hA1 hAn tnA htnA1
  have hB2 : Trie.Laid ((ix.node.set B.lastTerm x).set A.lastTerm y) B ix.deletedRootPointer :=
    Trie.Laid.frame B _ hB1 (fun b hb => getElem?_set_other _ _ _ _
      (fun hc => hAB hmA (by rw [hc]; exact hb)))
  have hg_lt : g.addr < ((ix.node.set B.lastTerm x).set A.lastTerm y).length := by
    simpa using lt_length_of_getElem? hgn
  have hpg : g.addrs.Nodup := (List.nodup_append.mp hndg).1
  have hgsub : ∀ b ∈ g.addrs, b ∉ (Path.plug xp2 (Trie.D q c1 A B)).addrs :=
    fun b hb hc => (List.nodup_append.mp hndg).2.2 hb hc
  refine hup.replace_free ?_ rfl (by simp) ?_ ?_ ?_ ?_
  · rw [(Frame.isDup_addrs hg e').2, Frame.addr_fill]
  · intro b hb _
    have hb' : b ∉ g.addrs ++ (Path.plug xp2 (Trie.D q c1 A B)).addrs :=
      fun hc => hb (hpermg.mem_iff.mpr hc)
    simp only [List.mem_append, not_or] at hb'
    simp only [hcomm]
    exact hoth b (fun hc => hb'.1 (by rw [hc]; exact g.addr_mem_addrs_frame))
      (fun hc => hb'.2 (by rw [hc]; exact inA _ hmA))
      (fun hc => hb'.2 (by rw [hc]; exact inB _ hmB))
  · simp only [hcomm]
    refine Frame.isDup_laid hg e' h2.path.1 (getElem?_set_self' _ _ _ hg_lt) ?_ hpg
    intro b hb hne
    exact hoth b hne (fun hc => hgsub b hb (by rw [hc]; exact inA _ hmA))
      (fun hc => hgsub b hb (by rw [hc]; exact inB _ hmB))
  · simp only [hcomm]
    -- the free list, from its end
    have f0 : FreeList (((ix.node.set B.lastTerm x).set A.lastTerm y).set g.addr
        ((g.collapse e').node (Path.thread ctx0 (-1)))) ix.deletedRootPointer fl :=
      FreeList.frame_free fl _ h1.free (fun b hb => hoth b
        (fun hc => hgf (by rw [← hc]; exact hb))
        (fun hc => hsub_fl _ (inA _ hmA) (by rw [← hc]; exact hb))
        (fun hc => hsub_fl _ (inB _ hmB) (by rw [← hc]; exact hb)))
    have hB3 : Trie.Laid (((ix.node.set B.lastTerm x).set A.lastTerm y).set g.addr
        ((g.collapse e').node (Path.thread ctx0 (-1)))) B ix.deletedRootPointer :=
      Trie.Laid.frame B _ hB2 (fun b hb => getElem?_set_other _ _ _ _
        (fun hc => hgs (by rw [hc]; exact inB b hb)))
    have hA3 : Trie.Laid (((ix.node.set B.lastTerm x).set A.lastTerm y).set g.addr
        ((g.collapse e').node (Path.thread ctx0 (-1)))) A
        ((Path.plug xp2 (Trie.D q c1 A B)).addr : Int) :=
      Trie.Laid.frame A _ hA2 (fun b hb => getElem?_set_other _ _ _ _
        (fun hc => hgs (by rw [hc]; exact inA b hb)))
    have f1 := Trie.Linear.free_linear B _ fl hB hB3 f0
    have hq4 : (((ix.node.set B.lastTerm x).set A.lastTerm y).set g.addr
        ((g.collapse e').node (Path.thread ctx0 (-1))))[q]? =
        some ⟨decisionNode, (A.addr : Int), c1, (B.addr : Int)⟩ := by
      rw [hoth q (fun hc => hgs (by rw [← hc]; exact inq))
        (fun hc => hqA (by rw [hc]; exact hmA)) (fun hc => hqB (by rw [hc]; exact hmB))]
      exact hD.1
    have f2 : FreeList (((ix.node.set B.lastTerm x).set A.lastTerm y).set g.addr
        ((g.collapse e').node (Path.thread ctx0 (-1)))) (q : Int) (q :: (B.addrs ++ fl)) :=
      ⟨rfl, _, hq4, f1⟩
    have hX : Path.Laid (((ix.node.set B.lastTerm x).set A.lastTerm y).set g.addr
        ((g.collapse e').node (Path.thread ctx0 (-1)))) xp2
        (Path.thread (g :: ctx0) (-1)) (q : Int) := by
      refine Path.Laid.frame_path xp2 _ _ (Path.laid_append_left xp2 (g :: ctx0) (-1) _ h1.path)
        (fun b hb => hoth b (fun hc => hgs (by rw [← hc]; exact inX b hb))
          (fun hc => hXD b hb (by simp [Trie.addrs, hc, hmA]))
          (fun hc => hXD b hb (by simp [Trie.addrs, hc, hmB])))
    have f3 := Path.IsX.free_x xp2 _ q _ hx hX f2
    have hra : Path.rootAddr xp2 q = (Path.plug xp2 (Trie.D q c1 A B)).addr :=
      (Path.addr_plug xp2 (Trie.D q c1 A B)).symm
    rw [hra] at f3
    exact Trie.Linear.free_linear A _ _ hA hA3 f3
  · rw [(Frame.isDup_addrs hg e').1]
    refine List.Perm.trans ?_ (hpermg.symm.append_right fl)
    rw [List.append_assoc]
    refine List.Perm.append_left _ ?_
    refine List.Perm.trans ?_ (hperms.symm.append_right fl)
    simp only [Trie.addrs, List.append_assoc, List.cons_append]
    refine List.perm_append_comm_assoc _ _ _ |>.trans ?_
    refine (List.reverse_perm _).append_right _ |>.trans ?_
    refine List.Perm.append_left _ ?_
    exact List.perm_middle

/-- A duplicates branch of two elements on the two sides of a decision node
loses the element on the left. -/
theorem delete_collapse_c (fuel : Nat) (ix : Index) (fl : List Nat) (ctx0 xp2 : Path)
    (g : Frame) (st : DeleteState) (q c1 : Nat) (r : Trie) (chain1 : Trie) (ks ks' : List Nat)
    (e e' : Int) (hg : g.isDup = true) (hx : Path.IsX xp2)
    (h : AtFocus ix fl (Frame.Dl q c1 r :: (xp2 ++ g :: ctx0)) chain1)
    (hch : chain1.IsChain ks e) (hr : r.IsChain ks' e')
    (hptr : st.indexPointer = (chain1.lastTerm : Int))
    (hdele : st.deleteIndexPointer = (q : Int))
    (hdup : st.duplicateNodePointer = (g.addr : Int))
    (hbr : st.deleteBranch = left) (hfuel : r.size ≤ fuel) :
    ∃ ix', deleteCollapse fuel ix st = some (true, ix') ∧
      AtFocus ix' (chain1.addrs ++ ((Path.addrs xp2).reverse ++ (q :: (r.addrs ++ fl)))) ctx0
        (g.collapse e') ∧
      ix'.keyCount = ix.keyCount - 1 := by
  have h1 := AtFocus.up _ h
  simp only [Frame.fill] at h1
  have h2 := (AtFocus.append_iff ix fl xp2 (g :: ctx0) _).mp h1
  obtain ⟨hgn, hgs, hgf, hsl, hsn⟩ := collapse_start hg h2
  have hperms := Path.addrs_plug xp2 (Trie.D q c1 chain1 r)
  have hnds : (Path.addrs xp2 ++ (Trie.D q c1 chain1 r).addrs).Nodup := hperms.nodup_iff.mp hsn
  have hndD := (List.nodup_append.mp hnds).2.1
  simp only [Trie.addrs, List.nodup_cons, List.mem_append, not_or, List.nodup_append] at hndD
  obtain ⟨⟨hqA, hqB⟩, hAn, hBn, hAB⟩ := hndD
  have inA : ∀ b ∈ chain1.addrs, b ∈ (Path.plug xp2 (Trie.D q c1 chain1 r)).addrs := fun b hb =>
    hperms.mem_iff.mpr (List.mem_append_right _ (by simp [Trie.addrs, hb]))
  have inB : ∀ b ∈ r.addrs, b ∈ (Path.plug xp2 (Trie.D q c1 chain1 r)).addrs := fun b hb =>
    hperms.mem_iff.mpr (List.mem_append_right _ (by simp [Trie.addrs, hb]))
  have inq : q ∈ (Path.plug xp2 (Trie.D q c1 chain1 r)).addrs :=
    hperms.mem_iff.mpr (List.mem_append_right _ (by simp [Trie.addrs]))
  have hmA := chain1.lastTerm_mem
  have hmB := r.lastTerm_mem
  have hAg : chain1.lastTerm ≠ g.addr := fun hc => hgs (by rw [← hc]; exact inA _ hmA)
  have hBg : r.lastTerm ≠ g.addr := fun hc => hgs (by rw [← hc]; exact inB _ hmB)
  have hqg : q ≠ g.addr := fun hc => hgs (by rw [← hc]; exact inq)
  have hAB' : chain1.lastTerm ≠ r.lastTerm := fun hc => hAB hmA (by rw [hc]; exact hmB)
  have hqA' : q ≠ chain1.lastTerm := fun hc => hqA (by rw [hc]; exact hmA)
  have hqB' : q ≠ r.lastTerm := fun hc => hqB (by rw [hc]; exact hmB)
  have hD := h1.tree
  have hth : Path.thread (g :: ctx0) (-1) = (g.addr : Int) := Frame.isDup_thread hg _
  rw [(hx.regs xp2 (g :: ctx0)).2.2.2.2 (-1), hth] at hD
  obtain ⟨cA, hcA⟩ := hch.last_node chain1 ks e _ hD.2.1
  obtain ⟨cB, hcB⟩ := hr.last_node r ks' e' _ hD.2.2
  have hqn : ix.node[q]? = some ⟨decisionNode, (chain1.addr : Int), c1, (r.addr : Int)⟩ := hD.1
  let T : Nat := if (g.node (Path.thread ctx0 (-1))
      ((Path.plug xp2 (Trie.D q c1 chain1 r)).addr : Int)).indexType = duplicateKeyNode
    then indexKeyNode else indexTerminalNode
  let nd1 : indexNode := { g.node (Path.thread ctx0 (-1))
      ((Path.plug xp2 (Trie.D q c1 chain1 r)).addr : Int) with indexType := T }
  have hfin := collapse_D hg hx h1 (hch.linear chain1 ks e) (hr.linear r ks' e')
    _ _ hcA hcB e' (ix.keyCount - 1) nd1
  refine ⟨_, ?_, hfin, rfl⟩
  have hg_lt : g.addr < ix.node.length := lt_length_of_getElem? hgn
  have hl1 : Trie.Laid (ix.node.set g.addr nd1) r (g.addr : Int) :=
    Trie.Laid.frame r _ hD.2.2 (fun b hb => getElem?_set_other _ _ _ _
      (fun hcc => hgs (by rw [hcc]; exact inB b hb)))
  have hwalk := deleteScan_walk (ix.node.set g.addr nd1) r ks' e' _ hr hl1 fuel hfuel
  have r1 : ∀ nd, (ix.node.set g.addr nd)[chain1.lastTerm]? =
      some ⟨indexTerminalNode, e, cA, (q : Int)⟩ := by
    intro nd; rw [getElem?_set_other _ _ _ _ hAg.symm]; exact hcA
  have r2 : ∀ nd, (ix.node.set g.addr nd)[q]? =
      some ⟨decisionNode, (chain1.addr : Int), c1, (r.addr : Int)⟩ := by
    intro nd; rw [getElem?_set_other _ _ _ _ hqg.symm]; exact hqn
  have r3 : ∀ nd, (ix.node.set g.addr nd)[r.lastTerm]? =
      some ⟨indexTerminalNode, e', cB, (g.addr : Int)⟩ := by
    intro nd; rw [getElem?_set_other _ _ _ _ hBg.symm]; exact hcB
  have r4 : ∀ nd x, ((ix.node.set g.addr nd).set r.lastTerm x)[g.addr]? = some nd := by
    intro nd x
    rw [getElem?_set_other _ _ _ _ hBg]
    exact getElem?_set_self' _ _ _ hg_lt
  have r5 : ∀ nd x, ((ix.node.set g.addr nd).set r.lastTerm x)[chain1.lastTerm]? =
      some ⟨indexTerminalNode, e, cA, (q : Int)⟩ := by
    intro nd x; rw [getElem?_set_other _ _ _ _ hAB'.symm]; exact r1 nd
  have r6 : ∀ nd x y, (((ix.node.set g.addr nd).set r.lastTerm x).set chain1.lastTerm y)[q]? =
      some ⟨decisionNode, (chain1.addr : Int), c1, (r.addr : Int)⟩ := by
    intro nd x y
    rw [getElem?_set_other _ _ _ _ hqA'.symm, getElem?_set_other _ _ _ _ hqB'.symm]; exact r2 nd
  have r7 : ∀ nd x y,
      (((ix.node.set g.addr nd).set r.lastTerm x).set chain1.lastTerm y)[r.lastTerm]? =
      some x := by
    intro nd x y
    rw [getElem?_set_other _ _ _ _ hAB']
    exact getElem?_set_self' _ _ _ (lt_length_of_getElem? (r3 nd))
  have r8 : ∀ nd x y,
      (((ix.node.set g.addr nd).set r.lastTerm x).set chain1.lastTerm y)[g.addr]? =
      some nd := by
    intro nd x y
    rw [getElem?_set_other _ _ _ _ hAg]; exact r4 nd x
  have hnode := Frame.isDup_node hg (Path.thread ctx0 (-1))
    ((Path.plug xp2 (Trie.D q c1 chain1 r)).addr : Int) e'
  have hleft := Frame.isDup_left hg (Path.thread ctx0 (-1))
    ((Path.plug xp2 (Trie.D q c1 chain1 r)).addr : Int)
  have hty1 : ¬ (decisionNode = indexKeyNode) := by decide
  have hty2 : ¬ (indexTerminalNode = indexKeyNode) := by decide
  unfold deleteCollapse
  simp only [hdup, hptr, hdele, hbr, getNode_natCast, hgn, setType_natCast _ _ _ _ hgn, r1, r2,
    hty1, hty2, if_true, if_false, decide_False, hwalk, setRight_natCast _ _ _ _ (r3 _), r4,
    setRight_natCast _ _ _ _ (r5 _ _), r6, r7, r8, setLeft_natCast _ _ _ _ (r8 _ _ _)]
  rw [← hnode]
  simp only [nd1, T, hleft]

/-- A duplicates branch of two elements on the two sides of a decision node
loses the element on the right. -/
theorem delete_collapse_d (fuel : Nat) (ix : Index) (fl : List Nat) (ctx0 xp2 : Path)
    (g : Frame) (st : DeleteState) (q c1 : Nat) (l : Trie) (chain1 : Trie) (ks ks' : List Nat)
    (e e' : Int) (hg : g.isDup = true) (hx : Path.IsX xp2)
    (h : AtFocus ix fl (Frame.Dr q c1 l :: (xp2 ++ g :: ctx0)) chain1)
    (hch : chain1.IsChain ks e) (hr : l.IsChain ks' e')
    (hptr : st.indexPointer = (chain1.lastTerm : Int))
    (hdele : st.deleteIndexPointer = (q : Int))
    (hdup : st.duplicateNodePointer = (g.addr : Int))
    (hbr : st.deleteBranch = right) (hfuel : l.size ≤ fuel) :
    ∃ ix', deleteCollapse fuel ix st = some (true, ix') ∧
      AtFocus ix' (l.addrs ++ ((Path.addrs xp2).reverse ++ (q :: (chain1.addrs ++ fl)))) ctx0
        (g.collapse e') ∧
      ix'.keyCount = ix.keyCount - 1 := by
  have h1 := AtFocus.up _ h
  simp only [Frame.fill] at h1
  have h2 := (AtFocus.append_iff ix fl xp2 (g :: ctx0) _).mp h1
  obtain ⟨hgn, hgs, hgf, hsl, hsn⟩ := collapse_start hg h2
  have hperms := Path.addrs_plug xp2 (Trie.D q c1 l chain1)
  have hnds : (Path.addrs xp2 ++ (Trie.D q c1 l chain1).addrs).Nodup := hperms.nodup_iff.mp hsn
  have hndD := (List.nodup_append.mp hnds).2.1
  simp only [Trie.addrs, List.nodup_cons, List.mem_append, not_or, List.nodup_append] at hndD
  obtain ⟨⟨hqB, hqA⟩, hBn, hAn, hBA⟩ := hndD
  have inA : ∀ b ∈ chain1.addrs, b ∈ (Path.plug xp2 (Trie.D q c1 l chain1)).addrs := fun b hb =>
    hperms.mem_iff.mpr (List.mem_append_right _ (by simp [Trie.addrs, hb]))
  have inB : ∀ b ∈ l.addrs, b ∈ (Path.plug xp2 (Trie.D q c1 l chain1)).addrs := fun b hb =>
    hperms.mem_iff.mpr (List.mem_append_right _ (by simp [Trie.addrs, hb]))
  have inq : q ∈ (Path.plug xp2 (Trie.D q c1 l chain1)).addrs :=
    hperms.mem_iff.mpr (List.mem_append_right _ (by simp [Trie.addrs]))
  have hmA := chain1.lastTerm_mem
  have hmB := l.lastTerm_mem
  have hAg : chain1.lastTerm ≠ g.addr := fun hc => hgs (by rw [← hc]; exact inA _ hmA)
  have hBg : l.lastTerm ≠ g.addr := fun hc => hgs (by rw [← hc]; exact inB _ hmB)
  have hqg : q ≠ g.addr := fun hc => hgs (by rw [← hc]; exact inq)
  have hAB' : chain1.lastTerm ≠ l.lastTerm := fun hc => hBA hmB (by rw [← hc]; exact hmA)
  have hqA' : q ≠ chain1.lastTerm := fun hc => hqA (by rw [hc]; exact hmA)
  have hqB' : q ≠ l.lastTerm := fun hc => hqB (by rw [hc]; exact hmB)
  have hD := h1.tree
  have hth : Path.thread (g :: ctx0) (-1) = (g.addr : Int) := Frame.isDup_thread hg _
  rw [(hx.regs xp2 (g :: ctx0)).2.2.2.2 (-1), hth] at hD
  obtain ⟨cA, hcA⟩ := hch.last_node chain1 ks e _ hD.2.2
  obtain ⟨cB, hcB⟩ := hr.last_node l ks' e' _ hD.2.1
  have hqn : ix.node[q]? = some ⟨decisionNode, (l.addr : Int), c1, (chain1.addr : Int)⟩ := hD.1
  let T : Nat := if (g.node (Path.thread ctx0 (-1))
      ((Path.plug xp2 (Trie.D q c1 l chain1)).addr : Int)).indexType = duplicateKeyNode
    then indexKeyNode else indexTerminalNode
  let nd1 : indexNode := { g.node (Path.thread ctx0 (-1))
      ((Path.plug xp2 (Trie.D q c1 l chain1)).addr : Int) with indexType := T }
  have hfin := collapse_D hg hx h1 (hr.linear l ks' e') (hch.linear chain1 ks e)
    _ _ hcB hcA e' (ix.keyCount - 1) nd1
  refine ⟨_, ?_, hfin, rfl⟩
  have hg_lt : g.addr < ix.node.length := lt_length_of_getElem? hgn
  have hl1 : Trie.Laid (ix.node.set g.addr nd1) l (q : Int) :=
    Trie.Laid.frame l _ hD.2.1 (fun b hb => getElem?_set_other _ _ _ _
      (fun hcc => hgs (by rw [hcc]; exact inB b hb)))
  have hwalk := deleteScan_walk (ix.node.set g.addr nd1) l ks' e' _ hr hl1 fuel hfuel
  have r1 : ∀ nd, (ix.node.set g.addr nd)[chain1.lastTerm]? =
      some ⟨indexTerminalNode, e, cA, (g.addr : Int)⟩ := by
    intro nd; rw [getElem?_set_other _ _ _ _ hAg.symm]; exact hcA
  have r2 : ∀ nd, (ix.node.set g.addr nd)[q]? =
      some ⟨decisionNode, (l.addr : Int), c1, (chain1.addr : Int)⟩ := by
    intro nd; rw [getElem?_set_other _ _ _ _ hqg.symm]; exact hqn
  have r3 : ∀ nd, (ix.node.set g.addr nd)[l.lastTerm]? =
      some ⟨indexTerminalNode, e', cB, (q : Int)⟩ := by
    intro nd; rw [getElem?_set_other _ _ _ _ hBg.symm]; exact hcB
  have r4 : ∀ nd x, ((ix.node.set g.addr nd).set chain1.lastTerm x)[g.addr]? = some nd := by
    intro nd x
    rw [getElem?_set_other _ _ _ _ hAg]
    exact getElem?_set_self' _ _ _ hg_lt
  have r5 : ∀ nd x, ((ix.node.set g.addr nd).set chain1.lastTerm x)[l.lastTerm]? =
      some ⟨indexTerminalNode, e', cB, (q : Int)⟩ := by
    intro nd x; rw [getElem?_set_other _ _ _ _ hAB']; exact r3 nd
  have r6 : ∀ nd x y, (((ix.node.set g.addr nd).set chain1.lastTerm x).set l.lastTerm y)[q]? =
      some ⟨decisionNode, (l.addr : Int), c1, (chain1.addr : Int)⟩ := by
    intro nd x y
    rw [getElem?_set_other _ _ _ _ hqB'.symm, getElem?_set_other _ _ _ _ hqA'.symm]; exact r2 nd
  have r7 : ∀ nd x y,
      (((ix.node.set g.addr nd).set chain1.lastTerm x).set l.lastTerm y)[l.lastTerm]? =
      some y := by
    intro nd x y
    exact getElem?_set_self' _ _ _ (by simpa using lt_length_of_getElem? (r3 nd))
  have r8 : ∀ nd x y,
      (((ix.node.set g.addr nd).set chain1.lastTerm x).set l.lastTerm y)[g.addr]? =
      some nd := by
    intro nd x y
    rw [getElem?_set_other _ _ _ _ hBg]; exact r4 nd x
  have hnode := Frame.isDup_node hg (Path.thread ctx0 (-1))
    ((Path.plug xp2 (Trie.D q c1 l chain1)).addr : Int) e'
  have hleft := Frame.isDup_left hg (Path.thread ctx0 (-1))
    ((Path.plug xp2 (Trie.D q c1 l chain1)).addr : Int)
  have hty1 : ¬ (decisionNode = indexKeyNode) := by decide
  have hty2 : ¬ (indexTerminalNode = indexKeyNode) := by decide
  have hbr' : ¬ (right = left) := by decide
  unfold deleteCollapse
  simp only [hdup, hptr, hdele, hbr, hbr', getNode_natCast, hgn, setType_natCast _ _ _ _ hgn,
    r1, r2, hty1, hty2, if_true, if_false, decide_False, hwalk,
    setRight_natCast _ _ _ _ (r1 _), r4,
    setRight_natCast _ _ _ _ (r5 _ _), r6, r7, r8, setLeft_natCast _ _ _ _ (r8 _ _ _)]
  rw [← hnode]
  simp only [nd1, T, hleft]

theorem Path.lift_append : ∀ (a b : Path) (x : List Nat × Int),
    Path.lift (a ++ b) x = Path.lift b (Path.lift a x) := by
  intro a
  induction a with
  | nil => intro b x; rfl
  | cons f a ih => intro b x; simp [Path.lift, ih]

theorem Path.ents_append : ∀ (a b : Path) (es : List (List Nat × Int)),
    Path.ents (a ++ b) es = Path.ents b (Path.ents a es) := by
  intro a
  induction a with
  | nil => intro b es; rfl
  | cons f a ih => intro b es; simp [Path.ents, ih]

theorem Path.IsX.ents_x : ∀ (xp : Path) (es : List (List Nat × Int)), Path.IsX xp →
    Path.ents xp es = es.map (Path.lift xp) := by
  intro xp
  induction xp with
  | nil => intro es _; simp [Path.ents, Path.lift]
  | cons f xp ih =>
    intro es h
    obtain ⟨p, c, rfl⟩ := h.head
    simp only [Path.ents, Frame.ents]
    rw [ih _ h.tail_x]
    simp [Path.lift, Frame.lift, Function.comp_def]

theorem Path.IsX.lift_snd : ∀ (xp : Path) (x : List Nat × Int), Path.IsX xp →
    (Path.lift xp x).2 = x.2 := by
  intro xp
  induction xp with
  | nil => intro x _; rfl
  | cons f xp ih =>
    intro x h
    obtain ⟨p, c, rfl⟩ := h.head
    simp only [Path.lift, Frame.lift]
    rw [ih _ h.tail_x]

theorem Path.IsX.subCount : ∀ (xp rest : Path) (n : Nat), Path.IsX xp →
    Path.subCount (xp ++ rest) n = Path.subCount rest n := by
  intro xp
  induction xp with
  | nil => intro rest n _; rfl
  | cons f xp ih =>
    intro rest n h
    obtain ⟨p, c, rfl⟩ := h.head
    simp only [List.cons_append, Path.subCount]
    exact ih rest n h.tail_x

theorem Path.IsX.wf_x : ∀ (xp rest : Path) (n : Nat), Path.IsX xp →
    Path.WF (xp ++ rest) n → Path.WF rest n := by
  intro xp
  induction xp with
  | nil => intro rest n _ h; exact h
  | cons f xp ih =>
    intro rest n h hw
    obtain ⟨p, c, rfl⟩ := h.head
    simp only [List.cons_append, Path.WF] at hw
    exact ih rest n h.tail_x hw.2.2

theorem Path.le_subCount : ∀ (ctx : Path) (n : Nat), n ≤ Path.subCount ctx n := by
  intro ctx
  induction ctx with
  | nil => intro n; exact le_refl _
  | cons f ctx ih =>
    intro n
    cases f with
    | Rf p c e => exact le_trans (by omega) (ih (n + 1))
    | Xf p c => exact ih n
    | Kf p c sub => exact le_trans (by omega) (ih (n + sub.elems.length))
    | Ks p c n' => exact le_refl _
    | Ls p c => exact le_refl _
    | Dl p c r => exact le_trans (by omega) (ih (n + r.elems.length))
    | Dr p c l => exact le_trans (by omega) (ih (n + l.elems.length))

theorem Path.subCount_mono : ∀ (ctx : Path) (a b : Nat), a ≤ b →
    Path.subCount ctx a ≤ Path.subCount ctx b := by
  intro ctx
  induction ctx with
  | nil => intro a b h; exact h
  | cons f ctx ih =>
    intro a b h
    cases f with
    | Rf p c e => exact ih _ _ (by omega)
    | Xf p c => exact ih _ _ h
    | Kf p c sub => exact ih _ _ (by omega)
    | Ks p c n' => exact h
    | Ls p c => exact h
    | Dl p c r => exact ih _ _ (by omega)
    | Dr p c l => exact ih _ _ (by omega)

/-- The subtree at the end of the path may lose an element when the
duplicates branch around it keeps two. -/
theorem Path.WF.shrink : ∀ (ctx : Path) (a : Nat), Path.WF ctx (a + 1) →
    ((Path.params ctx).1 ≠ none → 3 ≤ Path.subCount ctx (a + 1)) → Path.WF ctx a := by
  intro ctx
  induction ctx with
  | nil => intro a _ _; trivial
  | cons f ctx ih =>
    intro a h hc
    cases f with
    | Rf p c e =>
      simp only [Path.WF] at h ⊢
      refine ⟨h.1, h.2.1, h.2.2.1, ih (a + 1) h.2.2.2 (fun hm => hc ?_)⟩
      simpa [Path.params] using hm
    | Xf p c =>
      simp only [Path.WF] at h ⊢
      refine ⟨h.1, h.2.1, ih a h.2.2 (fun hm => hc ?_)⟩
      simpa [Path.params] using hm
    | Kf p c sub =>
      simp only [Path.WF] at h ⊢
      exact ⟨h.1, h.2.1, h.2.2.1, h.2.2.2.1, h.2.2.2.2.1, Path.WF.main _ _ _ h.2.2.2.2.2 h.1⟩
    | Ks p c n =>
      simp only [Path.WF] at h ⊢
      have := hc (by simp [Path.params])
      simp only [Path.subCount] at this
      exact ⟨h.1, h.2.1, h.2.2.1, by omega, h.2.2.2.2⟩
    | Ls p c =>
      simp only [Path.WF] at h ⊢
      have := hc (by simp [Path.params])
      simp only [Path.subCount] at this
      exact ⟨h.1, h.2.1, h.2.2.1, by omega, h.2.2.2.2⟩
    | Dl p c r =>
      simp only [Path.WF] at h ⊢
      refine ⟨h.1, h.2.1, h.2.2.1, ?_⟩
      have h3 := h.2.2.2
      rw [show a + 1 + r.elems.length = (a + r.elems.length) + 1 by omega] at h3
      refine ih _ h3 (fun hm => ?_)
      have := hc (by simpa [Path.params] using hm)
      simp only [Path.subCount] at this
      rw [show a + 1 + r.elems.length = (a + r.elems.length) + 1 by omega] at this
      exact this
    | Dr p c l =>
      simp only [Path.WF] at h ⊢
      refine ⟨h.1, h.2.1, h.2.2.1, ?_⟩
      have h3 := h.2.2.2
      rw [show a + 1 + l.elems.length = (a + l.elems.length) + 1 by omega] at h3
      refine ih _ h3 (fun hm => ?_)
      have := hc (by simpa [Path.params] using hm)
      simp only [Path.subCount] at this
      rw [show a + 1 + l.elems.length = (a + l.elems.length) + 1 by omega] at this
      exact this

/-- A tree inside a duplicates branch that holds one element is a chain. -/
theorem Trie.WF.chain_of_one : ∀ (t : Trie) (w : List Nat) (lo hi : Int),
    Trie.WF (some w) lo hi t → t.elems.length = 1 → ∃ ks e, t.IsChain ks e := by
  intro t
  induction t with
  | S p c e => intro w lo hi _ _; exact ⟨[c], e, rfl, rfl⟩
  | R p c e n ih =>
    intro w lo hi _ h1
    have := n.elems_length_pos
    simp only [Trie.elems, List.length_cons] at h1
    omega
  | X p c n ih =>
    intro w lo hi hw h1
    obtain ⟨ks, e, hc⟩ := ih (w ++ [c]) (-1) 127 (by simpa using hw.2.2)
      (by simpa [Trie.elems] using h1)
    exact ⟨c :: ks, e, hc.X_cons⟩
  | D p c l r _ _ =>
    intro w lo hi _ h1
    have := l.elems_length_pos
    have := r.elems_length_pos
    simp only [Trie.elems, List.length_append] at h1
    omega
  | L p c sub _ => intro w lo hi hw; exact absurd hw.1 (by simp)
  | K p c sub n _ _ => intro w lo hi hw; exact absurd hw.1 (by simp)

theorem Path.inner_outer : ∀ ctx : Path, Path.inner ctx ++ Path.outer ctx = ctx := by
  intro ctx
  induction ctx with
  | nil => rfl
  | cons f ctx ih => cases f <;> simp [Path.inner, Path.outer, ih]

theorem Path.outer_cases : ∀ ctx : Path, Path.outer ctx = [] ∨
    ∃ g ctx0, Path.outer ctx = g :: ctx0 ∧ g.isDup = true := by
  intro ctx
  induction ctx with
  | nil => exact Or.inl rfl
  | cons f ctx ih =>
    cases f with
    | Ks p c n => exact Or.inr ⟨_, _, rfl, rfl⟩
    | Ls p c => exact Or.inr ⟨_, _, rfl, rfl⟩
    | Rf p c e => exact ih
    | Xf p c => exact ih
    | Kf p c sub => exact ih
    | Dl p c r => exact ih
    | Dr p c l => exact ih

theorem Path.dup_outer : ∀ ctx : Path, Path.dup ctx = Path.dup (Path.outer ctx) := by
  intro ctx
  induction ctx with
  | nil => rfl
  | cons f ctx ih => cases f <;> simp [Path.dup, Path.outer, ih]

theorem Frame.isDup_dup {g : Frame} (hg : g.isDup = true) (ctx0 : Path) :
    Path.dup (g :: ctx0) = (g.addr : Int) := by
  cases g <;> simp [Frame.isDup] at hg <;> rfl

theorem Path.subCount_inner : ∀ (ctx : Path) (t : Trie),
    (Path.plug (Path.inner ctx) t).elems.length = Path.subCount ctx t.elems.length := by
  intro ctx
  induction ctx with
  | nil => intro t; rfl
  | cons f ctx ih =>
    intro t
    cases f with
    | Ks p c n => rfl
    | Ls p c => rfl
    | Rf p c e =>
      simp only [Path.inner, Path.plug, Path.subCount]
      rw [ih]; simp [Frame.fill, Trie.elems]
    | Xf p c =>
      simp only [Path.inner, Path.plug, Path.subCount]
      rw [ih]; simp [Frame.fill, Trie.elems]
    | Kf p c sub =>
      simp only [Path.inner, Path.plug, Path.subCount]
      rw [ih]; simp [Frame.fill, Trie.elems, Nat.add_comm]
    | Dl p c r =>
      simp only [Path.inner, Path.plug, Path.subCount]
      rw [ih]; simp [Frame.fill, Trie.elems]
    | Dr p c l =>
      simp only [Path.inner, Path.plug, Path.subCount]
      rw [ih]; simp [Frame.fill, Trie.elems, Nat.add_comm]

theorem Path.mode_some_dup : ∀ ctx : Path, (Path.params ctx).1 ≠ none →
    Path.dup ctx ≠ nullIndexPointer := by
  intro ctx
  induction ctx with
  | nil => intro h; simp [Path.params] at h
  | cons f ctx ih =>
    intro h
    cases f with
    | Ks p c n => simpa [Path.dup] using natCast_ne_null p
    | Ls p c => simpa [Path.dup] using natCast_ne_null p
    | Rf p c e => exact ih (by simpa [Path.params] using h)
    | Xf p c => exact ih (by simpa [Path.params] using h)
    | Kf p c sub => simp [Path.params] at h
    | Dl p c r => exact ih (by simpa [Path.params] using h)
    | Dr p c l => exact ih (by simpa [Path.params] using h)

/-- Inside a duplicates branch the branch holds at least two elements. -/
theorem Path.WF.two_le : ∀ (ctx : Path) (n : Nat), Path.WF ctx n →
    (Path.params ctx).1 ≠ none → 2 ≤ Path.subCount ctx n := by
  intro ctx
  induction ctx with
  | nil => intro n _ h; simp [Path.params] at h
  | cons f ctx ih =>
    intro n hw h
    cases f with
    | Ks p c n' => simp only [Path.WF] at hw; exact hw.2.2.2.1
    | Ls p c => simp only [Path.WF] at hw; exact hw.2.2.2.1
    | Rf p c e =>
      simp only [Path.WF] at hw
      exact ih _ hw.2.2.2 (by simpa [Path.params] using h)
    | Xf p c =>
      simp only [Path.WF] at hw
      exact ih _ hw.2.2 (by simpa [Path.params] using h)
    | Kf p c sub => simp [Path.params] at h
    | Dl p c r =>
      simp only [Path.WF] at hw
      exact ih _ hw.2.2.2 (by simpa [Path.params] using h)
    | Dr p c l =>
      simp only [Path.WF] at hw
      exact ih _ hw.2.2.2 (by simpa [Path.params] using h)

theorem Path.reset_ents (ctx : Path) (t : Trie) (es : List (List Nat × Int)) :
    Path.ents (Path.reset ctx t) es = Path.ents ctx es := by
  cases ctx with
  | nil => rfl
  | cons f ctx => cases f <;> rfl

/-- The tree that has taken the place of a subtree, with the path, is a
well-formed whole tree. -/
theorem Inv.of_focus {ix : Index} {fl : List Nat} {ctx : Path} {t : Trie}
    (h : AtFocus ix fl ctx t)
    (hw : Trie.WF (Path.params ctx).1 (Path.params ctx).2.1 (Path.params ctx).2.2 t)
    (hp : Path.WF ctx t.elems.length) : Inv ix fl (some (Path.plug ctx t)) :=
  ⟨(AtFocus.plug_iff ix fl ctx t).mpr h, Path.WF.plug ctx t hw hp⟩

theorem Path.IsX.mode : ∀ (xp rest : Path), Path.IsX xp →
    ((Path.params rest).1 ≠ none → (Path.params (xp ++ rest)).1 ≠ none) := by
  intro xp
  induction xp with
  | nil => intro rest _ h; exact h
  | cons f xp ih =>
    intro rest h hm
    obtain ⟨p, c, rfl⟩ := h.head
    have := ih rest h.tail_x hm
    simpa [Path.params] using this

theorem Path.reset_wf (ctx0 : Path) (l : Trie) (n : Nat)
    (hw : Trie.WF (Path.params ctx0).1 (Path.params ctx0).2.1 (Path.params ctx0).2.2 l)
    (hp : Path.WF ctx0 n) :
    Trie.WF (Path.params (Path.reset ctx0 l)).1 (Path.params (Path.reset ctx0 l)).2.1
      (Path.params (Path.reset ctx0 l)).2.2 l ∧ Path.WF (Path.reset ctx0 l) n := by
  cases ctx0 with
  | nil => exact ⟨hw, hp⟩
  | cons f ctx1 =>
    cases f with
    | Rf p c e => exact ⟨hw, hp⟩
    | Xf p c => exact ⟨hw, hp⟩
    | Kf p c sub => exact ⟨hw, hp⟩
    | Ks p c n' => exact ⟨hw, hp⟩
    | Ls p c => exact ⟨hw, hp⟩
    | Dr p c l' => exact ⟨hw, hp⟩
    | Dl p c r =>
      by_cases hD : l.isD = true
      · simp only [Path.reset, hD, if_true]
        exact ⟨hw, hp⟩
      · have hD' : l.isD = false := by simpa using hD
        simp only [Path.reset, hD', Bool.false_eq_true, if_false]
        simp only [Path.params] at hw
        simp only [Path.WF] at hp
        have hcb := hw.char_bounds
        have hnD : ∀ p' c' l' r', l ≠ Trie.D p' c' l' r' := by
          intro p' c' l' r' hc
          rw [hc] at hD'
          simp [Trie.isD] at hD'
        refine ⟨?_, ?_⟩
        · simp only [Path.params]
          exact hw.rebound l _ _ _ _ hnD hcb.1 (le_refl _)
        · simp only [Path.WF]
          exact ⟨hcb.1, le_trans hcb.2 hp.2.1,
            Trie.WF.mono r _ _ _ _ hp.2.2.1 hcb.2 (le_refl _), hp.2.2.2⟩

/-- Removal of the single element at a terminal node, outside a duplicates
branch or inside one that keeps two elements. -/
theorem delete_single_S (fuel : Nat) (ix : Index) (fl : List Nat) (rc : Path)
    (st : DeleteState) (p k : Nat) (e : Int)
    (h : AtFocus ix fl rc (Trie.S p k e))
    (hw : Trie.WF (Path.params rc).1 (Path.params rc).2.1 (Path.params rc).2.2 (Trie.S p k e))
    (hp : Path.WF rc 1) (hst : DeleteAt st rc (Trie.S p k e) [k])
    (hs : (Path.params rc).1 ≠ none → 3 ≤ Path.subCount rc 1)
    (hfuel : (Path.plug rc (Trie.S p k e)).size ≤ fuel) :
    ∃ ix' fl' oT', deleteSingle fuel ix st = some (true, ix') ∧ Inv ix' fl' oT' ∧
      (Path.plug rc (Trie.S p k e)).ents.Perm (Path.lift rc ([k], e) :: entsOf oT') ∧
      ix'.keyCount = ix.keyCount - 1 := by
  obtain ⟨xp, rest, rfl, hx, hhead⟩ := Path.split_x rc
  obtain ⟨t1, t2, _, t4⟩ := hx.tree xp (Trie.S p k e)
  obtain ⟨ks, hch⟩ := t4 [k] e ⟨rfl, rfl⟩
  obtain ⟨hf, hwc, hpc⟩ := AtFocus.up_append xp rest _ h hw hp
  obtain ⟨g1, g2, g3, g4, _⟩ := hx.regs xp rest
  have hptr : st.indexPointer = ((Path.plug xp (Trie.S p k e)).lastTerm : Int) := by
    rw [t1]; exact hst.pointer
  have hdele := hst.dele.trans g1
  have hlprev := hst.lprev.trans g2
  have hbranch := hst.branch.trans g3
  have hdup := hst.dup.trans g4
  have hcnt : (Path.plug xp (Trie.S p k e)).elems.length = 1 := by rw [t2]; rfl
  rw [hcnt] at hpc
  have hents : (Path.plug xp (Trie.S p k e)).ents = [Path.lift xp ([k], e)] := by
    rw [Path.ents_plug, hx.ents_x]; rfl
  have hsz : ∀ t' : Trie, t'.size ≤ (Path.plug rest t').size := fun t' => Path.size_plug rest t'
  rw [Path.plug_append] at hfuel ⊢
  rw [Path.lift_append, Path.ents_plug rest, hents]
  generalize hx0 : Path.lift xp ([k], e) = x0
  generalize hchain : Path.plug xp (Trie.S p k e) = chain at *
  have hs' : (Path.params rest).1 ≠ none → 3 ≤ Path.subCount rest 1 := by
    intro hm
    have := hs (hx.mode xp rest hm)
    rwa [hx.subCount] at this
  -- what remains when the chain is taken out of the frame above it
  have wrap : ∀ (f : Frame) (ctx0 ctx0' : Path) (t' : Trie) (ix' : Index) (fl' : List Nat),
      rest = f :: ctx0 → AtFocus ix' fl' ctx0' t' →
      Trie.WF (Path.params ctx0').1 (Path.params ctx0').2.1 (Path.params ctx0').2.2 t' →
      Path.WF ctx0' t'.elems.length → f.ents [] = t'.ents →
      (∀ es, Path.ents ctx0' es = Path.ents ctx0 es) →
      Inv ix' fl' (some (Path.plug ctx0' t')) ∧
      (Path.ents rest [x0]).Perm (Path.lift rest x0 :: entsOf (some (Path.plug ctx0' t'))) := by
    intro f ctx0 ctx0' t' ix' fl' hr hfoc hwt hpt hfe hce
    refine ⟨Inv.of_focus hfoc hwt hpt, ?_⟩
    subst hr
    simp only [entsOf, Path.ents, Path.lift]
    rw [Path.ents_plug, hce, ← hfe]
    exact Path.ents_perm ctx0 (f.lift x0) (f.ents []) (f.ents [x0])
      (f.ents_perm_frame x0 [] [x0] (List.Perm.refl _))
  cases rest with
  | nil =>
    obtain ⟨ix', r1, r2, r3, r4, r5⟩ := delete_single_all fuel ix fl st chain ks e hf hch hptr
      (by rw [hdele]; rfl)
    exact ⟨ix', _, none, r1, ⟨r2, r3, r4⟩, by simp [Path.ents, Path.lift, entsOf], r5⟩
  | cons f ctx0 =>
    cases f with
    | Xf p' c' => exact absurd rfl (hhead p' c' ctx0)
    | Ks p' c' n =>
      simp only [Path.WF] at hpc
      omega
    | Ls p' c' =>
      simp only [Path.WF] at hpc
      omega
    | Rf p' c' e' =>
      obtain ⟨ix', r1, r2, r3⟩ := delete_single_Rf fuel ix fl ctx0 st p' c' e' chain ks e hf hch
        hptr (by rw [hdele]; rfl)
      simp only [Path.WF] at hpc
      have hsh := Path.WF.shrink ctx0 1 hpc.2.2.2 (fun hm => by
        have := hs' (by simpa [Path.params] using hm)
        simpa [Path.subCount] using this)
      obtain ⟨w1, w2⟩ := wrap _ ctx0 ctx0 (Trie.S p' c' e') ix' _ rfl r2
        ⟨hpc.1, hpc.2.1, hpc.2.2.1⟩ hsh rfl (fun _ => rfl)
      exact ⟨ix', _, _, r1, w1, w2, r3⟩
    | Kf p' c' sub =>
      obtain ⟨ix', r1, r2, r3⟩ := delete_single_Kf fuel ix fl ctx0 st p' c' sub chain ks e hf hch
        hptr (by rw [hdele]; rfl)
      simp only [Path.WF] at hpc
      obtain ⟨w1, w2⟩ := wrap _ ctx0 ctx0 (Trie.L p' c' sub) ix' _ rfl r2
        (by rw [hpc.1]; exact ⟨rfl, hpc.2.1, hpc.2.2.1, hpc.2.2.2.1, hpc.2.2.2.2.1⟩)
        (Path.WF.main _ _ _ hpc.2.2.2.2.2 hpc.1)
        (by simp [Frame.ents, Trie.ents]) (fun _ => rfl)
      exact ⟨ix', _, _, r1, w1, w2, r3⟩
    | Dl q cq r =>
      simp only [Path.WF] at hpc
      obtain ⟨ix', r1, r2, r3⟩ := delete_single_Dl fuel ix fl ctx0 st q cq r chain ks e _ hf hch
        hptr (by rw [hdele]; rfl) (by rw [hlprev]; rfl) (by rw [hdup]; rfl)
        (by rw [hbranch]; rfl) hpc.2.2.2 hpc.1 hpc.2.1
      have hsh := Path.WF.shrink ctx0 r.elems.length
        (by rw [Nat.add_comm]; exact hpc.2.2.2) (fun hm => by
        have := hs' (by simpa [Path.params] using hm)
        simpa [Path.subCount, Nat.add_comm] using this)
      obtain ⟨w1, w2⟩ := wrap _ ctx0 ctx0 r ix' _ rfl r2
        (Trie.WF.mono r _ _ _ _ hpc.2.2.1 (le_of_lt hpc.1) (le_refl _)) hsh
        (by simp [Frame.ents]) (fun _ => rfl)
      exact ⟨ix', _, _, r1, w1, w2, r3⟩
    | Dr q cq l =>
      simp only [Path.WF] at hpc
      have hlsz : l.size ≤ fuel := by
        have h1 := Path.size_plug ctx0 (Trie.D q cq l chain)
        simp only [Path.plug, Frame.fill] at hfuel
        simp only [Trie.size] at h1
        omega
      obtain ⟨ix', r1, r2, r3⟩ := delete_single_Dr fuel ix fl ctx0 st q cq l chain ks e _ hf hch
        hptr (by rw [hdele]; rfl) (by rw [hlprev]; rfl) (by rw [hdup]; rfl)
        (by rw [hbranch]; rfl) hpc.2.2.2 hpc.1 hpc.2.1 hlsz
      have hsh := Path.WF.shrink ctx0 l.elems.length
        (by rw [Nat.add_comm]; exact hpc.2.2.2) (fun hm => by
        have := hs' (by simpa [Path.params] using hm)
        simpa [Path.subCount, Nat.add_comm] using this)
      obtain ⟨v1, v2⟩ := Path.reset_wf ctx0 l _
        (Trie.WF.mono l _ _ _ _ hpc.2.2.1 (le_refl _) hpc.2.1) hsh
      obtain ⟨w1, w2⟩ := wrap _ ctx0 (Path.reset ctx0 l) l ix' _ rfl r2 v1 v2
        (by simp [Frame.ents]) (fun es => Path.reset_ents ctx0 l es)
      exact ⟨ix', _, _, r1, w1, w2, r3⟩

/-- Removal of the element of a key node, outside a duplicates branch or
inside one that keeps two elements. -/
theorem delete_single_Rw (fuel : Nat) (ix : Index) (fl : List Nat) (rc : Path)
    (st : DeleteState) (p k : Nat) (e : Int) (n : Trie)
    (h : AtFocus ix fl rc (Trie.R p k e n))
    (hw : Trie.WF (Path.params rc).1 (Path.params rc).2.1 (Path.params rc).2.2
      (Trie.R p k e n))
    (hp : Path.WF rc (n.elems.length + 1)) (hptr : st.indexPointer = (p : Int))
    (hs : (Path.params rc).1 ≠ none → 3 ≤ Path.subCount rc (n.elems.length + 1)) :
    ∃ ix' fl' oT', deleteSingle fuel ix st = some (true, ix') ∧ Inv ix' fl' oT' ∧
      (Path.plug rc (Trie.R p k e n)).ents.Perm (Path.lift rc ([k], e) :: entsOf oT') ∧
      ix'.keyCount = ix.keyCount - 1 := by
  obtain ⟨ix', r1, r2, r3⟩ := delete_single_R fuel ix fl rc st p k e n h hptr
  have hsh := Path.WF.shrink rc _ hp hs
  refine ⟨ix', fl, some (Path.plug rc (Trie.X p k n)), r1,
    Inv.of_focus r2 ⟨hw.1, hw.2.1, hw.2.2.2⟩ (by simpa [Trie.elems] using hsh), ?_, r3⟩
  simp only [entsOf]
  rw [Path.ents_plug, Path.ents_plug]
  exact Path.ents_perm rc _ _ _ (by simp [Trie.ents])

theorem Frame.isDup_params {g : Frame} (hg : g.isDup = true) (ctx0 : Path) :
    Path.params (g :: ctx0) = (some [], -1, 127) := by
  cases g <;> simp [Frame.isDup] at hg <;> rfl

/-- The count loop of `Delete`, for a descent that has entered a duplicates branch. -/
theorem count_path (fuel : Nat) (ix : Index) (fl : List Nat) (rc : Path) (rt : Trie)
    (h : AtFocus ix fl rc rt)
    (hw : Trie.WF (Path.params rc).1 (Path.params rc).2.1 (Path.params rc).2.2 rt)
    (hp : Path.WF rc rt.elems.length) (hd : Path.dup rc ≠ nullIndexPointer)
    (hfuel : 2 * (Path.plug rc rt).size + 1 ≤ fuel) :
    ∃ dn, getNode ix.node (Path.dup rc) = some dn ∧
      runLoop (deleteCountBody ix.node (Path.dup rc)) fuel ⟨0, left, dn.leftPointer⟩ =
        some (min 3 (Path.subCount rc rt.elems.length)) := by
  have hio := Path.inner_outer rc
  rcases Path.outer_cases rc with ho | ⟨g, ctx0, ho, hg⟩
  · rw [Path.dup_outer, ho] at hd
    exact absurd rfl hd
  rw [ho] at hio
  rw [← hio] at h hw hp hfuel
  obtain ⟨hf, hws, _⟩ := AtFocus.up_append (Path.inner rc) (g :: ctx0) rt h hw hp
  obtain ⟨hgn, hgs, _, hsl, _⟩ := collapse_start hg hf
  rw [Frame.isDup_params hg] at hws
  have hdup : Path.dup rc = (g.addr : Int) := by
    rw [Path.dup_outer, ho]; exact Frame.isDup_dup hg ctx0
  rw [hdup]
  refine ⟨_, by rw [getNode_natCast]; exact hgn, ?_⟩
  rw [Frame.isDup_left hg, ← Path.subCount_inner]
  refine count_sub ix.node g.addr _ hsl hws hgs fuel ?_
  rw [Path.plug_append] at hfuel
  have := Path.size_plug (g :: ctx0) (Path.plug (Path.inner rc) rt)
  omega

theorem collapse_wf {g : Frame} (hg : g.isDup = true) (ctx0 : Path) (cnt : Nat)
    (hp : Path.WF (g :: ctx0) cnt) (e' : Int) (m : Nat) :
    Trie.WF (Path.params ctx0).1 (Path.params ctx0).2.1 (Path.params ctx0).2.2
      (g.collapse e') ∧ Path.WF ctx0 m := by
  cases g with
  | Ks p c n =>
    simp only [Path.WF] at hp
    refine ⟨?_, Path.WF.main _ _ _ hp.2.2.2.2.2 hp.1⟩
    rw [hp.1]
    exact ⟨hp.2.1, hp.2.2.1, (fun w hw => by cases hw), hp.2.2.2.2.1⟩
  | Ls p c =>
    simp only [Path.WF] at hp
    refine ⟨?_, Path.WF.main _ _ _ hp.2.2.2.2 hp.1⟩
    rw [hp.1]
    exact ⟨hp.2.1, hp.2.2.1, (fun w hw => by cases hw)⟩
  | Rf p c e => simp [Frame.isDup] at hg
  | Xf p c => simp [Frame.isDup] at hg
  | Kf p c sub => simp [Frame.isDup] at hg
  | Dl p c r => simp [Frame.isDup] at hg
  | Dr p c l => simp [Frame.isDup] at hg

theorem collapse_ents {g : Frame} (hg : g.isDup = true) (es : List (List Nat × Int))
    (e' : Int) (hes : es.map Prod.snd = [e']) : g.ents es = (g.collapse e').ents := by
  cases g <;> simp [Frame.isDup] at hg <;> simp [Frame.ents, Frame.collapse, Trie.ents, hes]

/-- The frame above a subtree that holds all the elements of its duplicates
branch is the duplicate node. -/
theorem dup_head (rest : Path) (m : Nat) (hhead : ∀ p c r, rest ≠ Frame.Xf p c :: r)
    (hd : Path.dup rest ≠ nullIndexPointer) (hc : Path.subCount rest m ≤ m) :
    ∃ g ctx0, rest = g :: ctx0 ∧ g.isDup = true := by
  cases rest with
  | nil => exact absurd rfl hd
  | cons f ctx =>
    cases f with
    | Ks p c n => exact ⟨_, _, rfl, rfl⟩
    | Ls p c => exact ⟨_, _, rfl, rfl⟩
    | Xf p c => exact absurd rfl (hhead p c ctx)
    | Rf p c e =>
      have := Path.le_subCount ctx (m + 1)
      simp only [Path.subCount] at hc
      omega
    | Kf p c sub =>
      have := Path.le_subCount ctx (m + sub.elems.length)
      have := sub.elems_length_pos
      simp only [Path.subCount] at hc
      omega
    | Dl p c r =>
      have := Path.le_subCount ctx (m + r.elems.length)
      have := r.elems_length_pos
      simp only [Path.subCount] at hc
      omega
    | Dr p c l =>
      have := Path.le_subCount ctx (m + l.elems.length)
      have := l.elems_length_pos
      simp only [Path.subCount] at hc
      omega

theorem split_dup (ctx1 : Path) (m : Nat) (hd : Path.dup ctx1 ≠ nullIndexPointer)
    (hc : Path.subCount ctx1 m ≤ m) :
    ∃ xp2 g ctx0, ctx1 = xp2 ++ g :: ctx0 ∧ Path.IsX xp2 ∧ g.isDup = true ∧
      Path.dup ctx1 = (g.addr : Int) := by
  obtain ⟨xp2, rest2, rfl, hx, hhead⟩ := Path.split_x ctx1
  rw [hx.subCount] at hc
  have hdr := (hx.regs xp2 rest2).2.2.2.1
  rw [hdr] at hd
  obtain ⟨g, ctx0, rfl, hg⟩ := dup_head rest2 m hhead hd hc
  exact ⟨xp2, g, ctx0, rfl, hx, hg, by rw [hdr]; exact Frame.isDup_dup hg ctx0⟩

theorem collapse_ents_path {xp2 : Path} {g : Frame} (ctx0 : Path) (hx : Path.IsX xp2)
    (hg : g.isDup = true) (es : List (List Nat × Int)) (e' : Int)
    (hes : es.map Prod.snd = [e']) :
    Path.ents (xp2 ++ g :: ctx0) es = (Path.plug ctx0 (g.collapse e')).ents := by
  rw [Path.ents_append, Path.ents_plug]
  simp only [Path.ents]
  rw [collapse_ents hg _ e']
  rw [hx.ents_x, List.map_map]
  have : (Prod.snd ∘ Path.lift xp2) = Prod.snd := by
    funext x
    exact hx.lift_snd xp2 x
  rw [this, hes]

theorem collapse_inv {ix' : Index} {fl' : List Nat} {xp2 : Path} {g : Frame} {ctx0 : Path}
    (hx : Path.IsX xp2) (hg : g.isDup = true) (e' : Int) (cnt : Nat)
    (h : AtFocus ix' fl' ctx0 (g.collapse e')) (hp : Path.WF (xp2 ++ g :: ctx0) cnt) :
    Inv ix' fl' (some (Path.plug ctx0 (g.collapse e'))) := by
  obtain ⟨w1, w2⟩ := collapse_wf hg ctx0 cnt (hx.wf_x xp2 _ _ hp) e' (g.collapse e').elems.length
  exact Inv.of_focus h w1 w2

/-- A duplicates branch of two elements loses the element of a terminal node. -/
theorem delete_collapse_S (fuel : Nat) (ix : Index) (fl : List Nat) (rc : Path)
    (st : DeleteState) (p k : Nat) (e : Int)
    (h : AtFocus ix fl rc (Trie.S p k e))
    (hw : Trie.WF (Path.params rc).1 (Path.params rc).2.1 (Path.params rc).2.2 (Trie.S p k e))
    (hp : Path.WF rc 1) (hst : DeleteAt st rc (Trie.S p k e) [k])
    (hd : Path.dup rc ≠ nullIndexPointer) (hc : Path.subCount rc 1 = 2)
    (hfuel : (Path.plug rc (Trie.S p k e)).size ≤ fuel) :
    ∃ ix' fl' oT', deleteCollapse fuel ix st = some (true, ix') ∧ Inv ix' fl' oT' ∧
      (Path.plug rc (Trie.S p k e)).ents.Perm (Path.lift rc ([k], e) :: entsOf oT') ∧
      ix'.keyCount = ix.keyCount - 1 := by
  have hperm0 : (Path.plug rc (Trie.S p k e)).ents.Perm
      (Path.lift rc ([k], e) :: Path.ents rc []) := by
    rw [Path.ents_plug]
    exact Path.ents_perm rc _ [] _ (List.Perm.refl _)
  obtain ⟨xp, rest, rfl, hx, hhead⟩ := Path.split_x rc
  obtain ⟨t1, t2, _, t4⟩ := hx.tree xp (Trie.S p k e)
  obtain ⟨ks, hch⟩ := t4 [k] e ⟨rfl, rfl⟩
  obtain ⟨hf, hwc, hpc⟩ := AtFocus.up_append xp rest _ h hw hp
  obtain ⟨g1, g2, g3, g4, _⟩ := hx.regs xp rest
  have hptr : st.indexPointer = ((Path.plug xp (Trie.S p k e)).lastTerm : Int) := by
    rw [t1]; exact hst.pointer
  have hdele := hst.dele.trans g1
  have hbranch := hst.branch.trans g3
  have hdup := hst.dup.trans g4
  rw [g4] at hd
  rw [hx.subCount] at hc
  have hcnt : (Path.plug xp (Trie.S p k e)).elems.length = 1 := by rw [t2]; rfl
  rw [hcnt] at hpc
  have he0 : Path.ents (xp ++ rest) [] = Path.ents rest [] := by
    rw [Path.ents_append, hx.ents_x]; rfl
  rw [he0] at hperm0
  rw [Path.plug_append] at hfuel
  generalize hchain : Path.plug xp (Trie.S p k e) = chain at *
  cases rest with
  | nil => exact absurd rfl hd
  | cons f ctx1 =>
    cases f with
    | Xf p' c' => exact absurd rfl (hhead p' c' ctx1)
    | Ks p' c' n =>
      simp only [Path.WF] at hpc
      omega
    | Ls p' c' =>
      simp only [Path.WF] at hpc
      omega
    | Kf p' c' sub =>
      simp only [Path.WF] at hpc
      have := Path.le_subCount ctx1 (1 + sub.elems.length)
      simp only [Path.subCount] at hc
      omega
    | Rf q c1 e' =>
      simp only [Path.WF] at hpc
      simp only [Path.subCount] at hc
      obtain ⟨xp2, g, ctx0, rfl, hx2, hg, hdg⟩ := split_dup ctx1 2 hd (le_of_eq hc)
      obtain ⟨ix', r1, r2, r3⟩ := delete_collapse_a fuel ix fl ctx0 xp2 g st q c1 e' chain ks e
        hg hx2 hf hch hptr (by rw [hdele]; rfl) (by rw [hdup]; exact hdg)
      refine ⟨ix', _, _, r1, collapse_inv hx2 hg e' _ r2 hpc.2.2.2, ?_, r3⟩
      refine hperm0.trans (List.Perm.cons _ ?_)
      simp only [entsOf, Path.ents, Frame.ents, List.map_nil]
      rw [collapse_ents_path ctx0 hx2 hg [([c1], e')] e' rfl]
    | Dl q c1 r =>
      simp only [Path.WF] at hpc
      simp only [Path.subCount] at hc
      have hr1 : r.elems.length = 1 := by
        have := Path.le_subCount ctx1 (1 + r.elems.length)
        have := r.elems_length_pos
        omega
      have hmode : (Path.params ctx1).1 ≠ none := fun hm =>
        hd (Path.WF.dup_null ctx1 _ hpc.2.2.2 hm)
      obtain ⟨w, hw'⟩ := Option.ne_none_iff_exists'.mp hmode
      have hrw := hpc.2.2.1
      rw [hw'] at hrw
      obtain ⟨ks', e', hr⟩ := hrw.chain_of_one r w _ _ hr1
      rw [hr1] at hc hpc
      obtain ⟨xp2, g, ctx0, rfl, hx2, hg, hdg⟩ := split_dup ctx1 2 hd (le_of_eq hc)
      have hrsz : r.size ≤ fuel := by
        have h1 := Path.size_plug (xp2 ++ g :: ctx0) (Trie.D q c1 chain r)
        simp only [Path.plug, Frame.fill] at hfuel
        simp only [Trie.size] at h1
        omega
      obtain ⟨ix', r1, r2, r3⟩ := delete_collapse_c fuel ix fl ctx0 xp2 g st q c1 r chain ks ks'
        e e' hg hx2 hf hch hr hptr (by rw [hdele]; rfl) (by rw [hdup]; exact hdg)
        (by rw [hbranch]; rfl) hrsz
      refine ⟨ix', _, _, r1, collapse_inv hx2 hg e' _ r2 hpc.2.2.2, ?_, r3⟩
      refine hperm0.trans (List.Perm.cons _ ?_)
      simp only [entsOf, Path.ents, Frame.ents, List.nil_append]
      rw [collapse_ents_path ctx0 hx2 hg _ e' (by rw [hr.ents]; rfl)]
    | Dr q c1 l =>
      simp only [Path.WF] at hpc
      simp only [Path.subCount] at hc
      have hr1 : l.elems.length = 1 := by
        have := Path.le_subCount ctx1 (1 + l.elems.length)
        have := l.elems_length_pos
        omega
      have hmode : (Path.params ctx1).1 ≠ none := fun hm =>
        hd (Path.WF.dup_null ctx1 _ hpc.2.2.2 hm)
      obtain ⟨w, hw'⟩ := Option.ne_none_iff_exists'.mp hmode
      have hrw := hpc.2.2.1
      rw [hw'] at hrw
      obtain ⟨ks', e', hr⟩ := hrw.chain_of_one l w _ _ hr1
      rw [hr1] at hc hpc
      obtain ⟨xp2, g, ctx0, rfl, hx2, hg, hdg⟩ := split_dup ctx1 2 hd (le_of_eq hc)
      have hrsz : l.size ≤ fuel := by
        have h1 := Path.size_plug (xp2 ++ g :: ctx0) (Trie.D q c1 l chain)
        simp only [Path.plug, Frame.fill] at hfuel
        simp only [Trie.size] at h1
        omega
      obtain ⟨ix', r1, r2, r3⟩ := delete_collapse_d fuel ix fl ctx0 xp2 g st q c1 l chain ks ks'
        e e' hg hx2 hf hch hr hptr (by rw [hdele]; rfl) (by rw [hdup]; exact hdg)
        (by rw [hbranch]; rfl) hrsz
      refine ⟨ix', _, _, r1, collapse_inv hx2 hg e' _ r2 hpc.2.2.2, ?_, r3⟩
      refine hperm0.trans (List.Perm.cons _ ?_)
      simp only [entsOf, Path.ents, Frame.ents, List.append_nil]
      rw [collapse_ents_path ctx0 hx2 hg _ e' (by rw [hr.ents]; rfl)]

/-- A duplicates branch of two elements loses the element of its key node. -/
theorem delete_collapse_Rw (fuel : Nat) (ix : Index) (fl : List Nat) (rc : Path)
    (st : DeleteState) (q c1 : Nat) (e : Int) (n : Trie)
    (h : AtFocus ix fl rc (Trie.R q c1 e n))
    (hw : Trie.WF (Path.params rc).1 (Path.params rc).2.1 (Path.params rc).2.2
      (Trie.R q c1 e n))
    (hp : Path.WF rc (n.elems.length + 1)) (hptr : st.indexPointer = (q : Int))
    (hdup : st.duplicateNodePointer = Path.dup rc)
    (hd : Path.dup rc ≠ nullIndexPointer) (hc : Path.subCount rc (n.elems.length + 1) = 2)
    (hfuel : (Path.plug rc (Trie.R q c1 e n)).size ≤ fuel) :
    ∃ ix' fl' oT', deleteCollapse fuel ix st = some (true, ix') ∧ Inv ix' fl' oT' ∧
      (Path.plug rc (Trie.R q c1 e n)).ents.Perm (Path.lift rc ([c1], e) :: entsOf oT') ∧
      ix'.keyCount = ix.keyCount - 1 := by
  have hn1 : n.elems.length = 1 := by
    have := Path.le_subCount rc (n.elems.length + 1)
    have := n.elems_length_pos
    omega
  have hmode : (Path.params rc).1 ≠ none := fun hm => hd (Path.WF.dup_null rc _ hp hm)
  obtain ⟨w, hw'⟩ := Option.ne_none_iff_exists'.mp hmode
  have hnw := hw.2.2.2
  rw [hw'] at hnw
  obtain ⟨ks', e', hr⟩ := Trie.WF.chain_of_one n (w ++ [c1]) _ _ (by simpa using hnw) hn1
  rw [hn1] at hc hp
  obtain ⟨xp2, g, ctx0, rfl, hx2, hg, hdg⟩ := split_dup rc 2 hd (le_of_eq hc)
  have hnsz : n.size ≤ fuel := by
    have h1 := Path.size_plug (xp2 ++ g :: ctx0) (Trie.R q c1 e n)
    simp only [Trie.size] at h1
    omega
  obtain ⟨ix', r1, r2, r3⟩ := delete_collapse_b fuel ix fl ctx0 xp2 g st q c1 e e' n ks' hg hx2
    h hr hptr (by rw [hdup]; exact hdg) hnsz
  refine ⟨ix', _, _, r1, collapse_inv hx2 hg e' _ r2 hp, ?_, r3⟩
  rw [Path.ents_plug]
  refine (Path.ents_perm (xp2 ++ g :: ctx0) ([c1], e) ((n.ents).map (fun x => (c1 :: x.1, x.2)))
    _ (by simp [Trie.ents])).trans (List.Perm.cons _ ?_)
  simp only [entsOf]
  rw [collapse_ents_path ctx0 hx2 hg _ e' (by rw [hr.ents]; rfl)]

/-! ## More fuel never changes a result -/

theorem deleteSingle_mono (f f' : Nat) (ix : Index) (st : DeleteState) (out : Bool × Index)
    (hle : f ≤ f') (h : deleteSingle f ix st = some out) : deleteSingle f' ix st = some out := by
  unfold deleteSingle at h ⊢
  cases h1 : getNode ix.node st.indexPointer with
  | none => rw [h1] at h; cases h
  | some pn =>
    rw [h1] at h
    simp only at h ⊢
    by_cases c1 : pn.indexType = indexKeyNode
    · simp only [c1, if_true] at h ⊢; exact h
    simp only [c1, if_false] at h ⊢
    by_cases c2 : st.deleteIndexPointer = nullIndexPointer
    · simp only [c2, if_true] at h ⊢; exact h
    simp only [c2, if_false] at h ⊢
    cases h2 : getNode ix.node st.deleteIndexPointer with
    | none => rw [h2] at h; cases h
    | some en =>
      rw [h2] at h
      simp only at h ⊢
      by_cases c3 : en.indexType = indexKeyNode ∨ en.indexType = duplicateKeyNode
      · simp only [c3, if_true] at h ⊢; exact h
      simp only [c3, if_false] at h ⊢
      by_cases c4 : st.deleteBranch = left
      · simp only [c4, if_true] at h ⊢; exact h
      simp only [c4, if_false] at h ⊢
      cases hr : runLoop (deleteThreadBody ix.node st.deleteIndexPointer) f en.leftPointer with
      | none => rw [hr] at h; cases h
      | some th =>
        rw [hr] at h
        rw [runLoop_mono _ _ _ _ hr f' hle]
        exact h

theorem deleteCollapse_mono (f f' : Nat) (ix : Index) (st : DeleteState) (out : Bool × Index)
    (hle : f ≤ f') (h : deleteCollapse f ix st = some out) :
    deleteCollapse f' ix st = some out := by
  unfold deleteCollapse at h ⊢
  cases h1 : getNode ix.node st.duplicateNodePointer with
  | none => rw [h1] at h; cases h
  | some dn0 =>
    rw [h1] at h
    simp only at h ⊢
    cases h2 : setType ix.node st.duplicateNodePointer
        (if dn0.indexType = duplicateKeyNode then indexKeyNode else indexTerminalNode) with
    | none => rw [h2] at h; cases h
    | some ns1 =>
      rw [h2] at h
      simp only at h ⊢
      cases h3 : getNode ns1 st.indexPointer with
      | none => rw [h3] at h; cases h
      | some pn =>
        rw [h3] at h
        simp only at h ⊢
        split at h
        · cases h
        · exact h
        ·
          by_cases c1 : pn.indexType = indexKeyNode
          · simp only [c1, if_true] at h ⊢
            cases hr : runLoop (deleteScanBody ns1) f pn.rightPointer with
            | none => rw [hr] at h; cases h
            | some sp =>
              rw [hr] at h
              rw [runLoop_mono _ _ _ _ hr f' hle]
              exact h
          simp only [c1, if_false] at h ⊢
          cases h4 : getNode ns1 st.deleteIndexPointer with
          | none => rw [h4] at h; cases h
          | some en =>
            rw [h4] at h
            simp only at h ⊢
            by_cases c2 : st.deleteBranch = left
            · simp only [c2, if_true] at h ⊢
              cases hr : runLoop (deleteScanBody ns1) f en.rightPointer with
              | none => rw [hr] at h; cases h
              | some sp =>
                rw [hr] at h
                rw [runLoop_mono _ _ _ _ hr f' hle]
                exact h
            · simp only [c2, if_false] at h ⊢
              cases hr : runLoop (deleteScanBody ns1) f en.leftPointer with
              | none => rw [hr] at h; cases h
              | some sp =>
                rw [hr] at h
                rw [runLoop_mono _ _ _ _ hr f' hle]
                exact h

theorem deleteOutcome_mono (f f' : Nat) (ix : Index) (res : DeleteExit) (out : Bool × Index)
    (hle : f ≤ f') (h : deleteOutcome f ix res = some out) :
    deleteOutcome f' ix res = some out := by
  cases res with
  | notFound => exact h
  | matched st =>
    simp only [deleteOutcome] at h ⊢
    by_cases c1 : st.duplicateNodePointer ≠ nullIndexPointer
    · rw [if_pos c1] at h ⊢
      cases h1 : getNode ix.node st.duplicateNodePointer with
      | none => rw [h1] at h; cases h
      | some dn =>
        rw [h1] at h
        simp only at h ⊢
        cases hr : runLoop (deleteCountBody ix.node st.duplicateNodePointer) f
            ⟨0, left, dn.leftPointer⟩ with
        | none => rw [hr] at h; cases h
        | some cnt =>
          rw [hr] at h
          rw [runLoop_mono _ _ _ _ hr f' hle]
          simp only at h ⊢
          by_cases c2 : cnt < 3
          · simp only [c2, if_true] at h ⊢
            exact deleteCollapse_mono f f' ix st out hle h
          · simp only [c2, if_false] at h ⊢
            exact deleteSingle_mono f f' ix st out hle h
    · rw [if_neg c1] at h ⊢
      exact deleteSingle_mono f f' ix st out hle h

theorem insertBranch_mono (f f' : Nat) (e : Int) (st : InsertState) (out : Bool × Index)
    (hle : f ≤ f') (h : insertBranch f e st = some out) : insertBranch f' e st = some out := by
  unfold insertBranch at h ⊢
  simp only at h ⊢
  split at h
  · cases h
  · split at h
    · rename_i dp ix1 _ _ _ k nd _ _
      by_cases c1 : strGt k (byteToString nd.keyCharacter) = true
      · simp only [c1, if_true] at h ⊢
        cases hr : runLoop (insertThreadBody ix1.node) f st.indexPointer with
        | none => rw [hr] at h; cases h
        | some tp =>
          rw [hr] at h
          rw [runLoop_mono _ _ _ _ hr f' hle]
          exact h
      · simp only [c1] at h ⊢
        exact h
    · cases h

theorem insertOutcome_mono (f f' : Nat) (e : Int) (res : InsertExit) (out : Bool × Index)
    (hle : f ≤ f') (h : insertOutcome f e res = some out) :
    insertOutcome f' e res = some out := by
  cases res with
  | returned b ix => exact h
  | diverged st => exact insertBranch_mono f f' e st out hle h

/-! ## The pairs of a well-formed tree -/

/-- The first byte of every key of a well-formed tree lies within the bounds. -/
theorem Trie.WF.ents_first : ∀ (t : Trie) (mode : Option (List Nat)) (lo hi : Int),
    Trie.WF mode lo hi t → ∀ x ∈ t.ents, ∃ k rest, x.1 = k :: rest ∧ lo < (k : Int) ∧
      (k : Int) ≤ hi := by
  intro t
  induction t with
  | S p c e =>
    intro mode lo hi hw x hx
    simp only [Trie.ents, List.mem_singleton] at hx
    subst hx
    exact ⟨c, [], rfl, hw.1, hw.2.1⟩
  | R p c e n ih =>
    intro mode lo hi hw x hx
    simp only [Trie.ents, List.mem_cons, List.mem_map] at hx
    rcases hx with rfl | ⟨y, _, rfl⟩
    · exact ⟨c, [], rfl, hw.1, hw.2.1⟩
    · exact ⟨c, y.1, rfl, hw.1, hw.2.1⟩
  | X p c n ih =>
    intro mode lo hi hw x hx
    simp only [Trie.ents, List.mem_map] at hx
    obtain ⟨y, _, rfl⟩ := hx
    exact ⟨c, y.1, rfl, hw.1, hw.2.1⟩
  | D p c l r ihl ihr =>
    intro mode lo hi hw x hx
    simp only [Trie.ents, List.mem_append] at hx
    rcases hx with hx | hx
    · obtain ⟨k, rest, h1, h2, h3⟩ := ihl mode lo c hw.2.2.1 x hx
      exact ⟨k, rest, h1, h2, le_trans h3 hw.2.1⟩
    · obtain ⟨k, rest, h1, h2, h3⟩ := ihr mode c hi hw.2.2.2 x hx
      exact ⟨k, rest, h1, lt_trans hw.1 h2, h3⟩
  | L p c sub ih =>
    intro mode lo hi hw x hx
    simp only [Trie.ents, List.mem_map] at hx
    obtain ⟨y, _, rfl⟩ := hx
    exact ⟨c, [], rfl, hw.2.1, hw.2.2.1⟩
  | K p c sub n ihs ihn =>
    intro mode lo hi hw x hx
    simp only [Trie.ents, List.mem_append, List.mem_map] at hx
    rcases hx with ⟨y, _, rfl⟩ | ⟨y, _, rfl⟩
    · exact ⟨c, [], rfl, hw.2.1, hw.2.2.1⟩
    · exact ⟨c, y.1, rfl, hw.2.1, hw.2.2.1⟩

theorem Trie.WF.ents_ne_nil {t : Trie} {mode : Option (List Nat)} {lo hi : Int}
    (hw : Trie.WF mode lo hi t) {x : List Nat × Int} (hx : x ∈ t.ents) : x.1 ≠ [] := by
  obtain ⟨k, rest, h1, _, _⟩ := Trie.WF.ents_first t mode lo hi hw x hx
  rw [h1]; simp

/-- In a duplicates branch every element is stored under its decimal rendering. -/
theorem Trie.WF.ents_itoa : ∀ (t : Trie) (w : List Nat) (lo hi : Int),
    Trie.WF (some w) lo hi t → ∀ x ∈ t.ents, w ++ x.1 = itoa x.2 := by
  intro t
  induction t with
  | S p c e =>
    intro w lo hi hw x hx
    simp only [Trie.ents, List.mem_singleton] at hx
    subst hx
    exact hw.2.2 w rfl
  | R p c e n ih =>
    intro w lo hi hw x hx
    simp only [Trie.ents, List.mem_cons, List.mem_map] at hx
    rcases hx with rfl | ⟨y, hy, rfl⟩
    · exact hw.2.2.1 w rfl
    · have := ih (w ++ [c]) (-1) 127 (by simpa using hw.2.2.2) y hy
      simpa using this
  | X p c n ih =>
    intro w lo hi hw x hx
    simp only [Trie.ents, List.mem_map] at hx
    obtain ⟨y, hy, rfl⟩ := hx
    have := ih (w ++ [c]) (-1) 127 (by simpa using hw.2.2) y hy
    simpa using this
  | D p c l r ihl ihr =>
    intro w lo hi hw x hx
    simp only [Trie.ents, List.mem_append] at hx
    rcases hx with hx | hx
    · exact ihl w lo c hw.2.2.1 x hx
    · exact ihr w c hi hw.2.2.2 x hx
  | L p c sub ih =>
    intro w lo hi hw x hx
    cases hw.1
  | K p c sub n ihs ihn =>
    intro w lo hi hw x hx
    cases hw.1

/-- An element is in a duplicates branch exactly when the branch holds it under
its decimal rendering. -/
theorem Trie.WF.mem_elems {t : Trie} {lo hi : Int} (hw : Trie.WF (some []) lo hi t) (e : Int) :
    e ∈ t.elems ↔ (itoa e, e) ∈ t.ents := by
  rw [Trie.elems_eq_ents]
  simp only [List.mem_map]
  constructor
  · rintro ⟨x, hx, rfl⟩
    have := Trie.WF.ents_itoa t [] lo hi hw x hx
    simp only [List.nil_append] at this
    rw [← this]; exact hx
  · intro h
    exact ⟨_, h, rfl⟩

/-- The pair is in the tree exactly when the descent for it stops at a node
that holds it. -/
theorem descend_mem (e : Int) :
    ∀ (t : Trie) (key : List Nat) (ctx : Path),
      Trie.WF (Path.params ctx).1 (Path.params ctx).2.1 (Path.params ctx).2.2 t →
      KeyOk e ctx key → ((key, e) ∈ t.ents ↔ Found e (descend e t key ctx)) := by
  intro t
  induction t with
  | S p c e' =>
    intro key ctx hw hk
    obtain ⟨k, rest, rfl, _, _⟩ := hk.2.1
    simp only [descend, Found, Trie.ents, List.mem_singleton, Prod.mk.injEq, List.cons.injEq,
      Trie.S.injEq, reduceCtorEq, and_false, exists_false, or_false, exists_const]
    constructor
    · rintro ⟨⟨rfl, rfl⟩, rfl⟩
      exact ⟨k, ⟨rfl, rfl⟩, p, rfl, rfl, rfl⟩
    · rintro ⟨k', ⟨rfl, rfl⟩, p', rfl, rfl, rfl⟩
      exact ⟨⟨rfl, rfl⟩, rfl⟩
  | R p c e' n ih =>
    intro key ctx hw hk
    obtain ⟨k, rest, rfl, hlo, hhi⟩ := hk.2.1
    simp only [Trie.WF] at hw
    have hnn : ∀ x ∈ n.ents, x.1 ≠ [] := fun x hx => Trie.WF.ents_ne_nil hw.2.2.2 hx
    by_cases hkc : k = c ∧ rest ≠ []
    · have hd1 : descend e (Trie.R p c e' n) (k :: rest) ctx =
          descend e n rest (Frame.Rf p c e' :: ctx) := by simp [descend, hkc]
      rw [hd1, ← ih rest (Frame.Rf p c e' :: ctx) (by simpa [Path.params] using hw.2.2.2)
        (KeyOk.tail _ hk hkc.2 (by simp [Path.params, hkc.1]))]
      simp only [Trie.ents, List.mem_cons, List.mem_map, Prod.mk.injEq, List.cons.injEq]
      constructor
      · rintro (⟨⟨_, h2⟩, _⟩ | ⟨x, hx, ⟨_, rfl⟩, rfl⟩)
        · exact absurd h2 hkc.2
        · exact hx
      · intro h
        exact Or.inr ⟨_, h, ⟨hkc.1.symm, rfl⟩, rfl⟩
    · have hd1 : descend e (Trie.R p c e' n) (k :: rest) ctx =
          (ctx, Trie.R p c e' n, k :: rest) := by simp [descend, hkc]
      rw [hd1]
      simp only [Found, Trie.ents, List.mem_cons, List.mem_map, Prod.mk.injEq, List.cons.injEq,
        Trie.R.injEq, reduceCtorEq, exists_false, false_or]
      constructor
      · rintro (⟨⟨rfl, rfl⟩, rfl⟩ | ⟨x, hx, ⟨rfl, rfl⟩, rfl⟩)
        · exact ⟨k, ⟨rfl, rfl⟩, p, n, rfl, rfl, rfl, rfl⟩
        · exact absurd ⟨rfl, hnn x hx⟩ hkc
      · rintro ⟨k', ⟨rfl, rfl⟩, p', n', rfl, rfl, rfl, rfl⟩
        exact Or.inl ⟨⟨rfl, rfl⟩, rfl⟩
  | X p c n ih =>
    intro key ctx hw hk
    obtain ⟨k, rest, rfl, hlo, hhi⟩ := hk.2.1
    simp only [Trie.WF] at hw
    have hnn : ∀ x ∈ n.ents, x.1 ≠ [] := fun x hx => Trie.WF.ents_ne_nil hw.2.2 hx
    by_cases hkc : k = c ∧ rest ≠ []
    · have hd1 : descend e (Trie.X p c n) (k :: rest) ctx =
          descend e n rest (Frame.Xf p c :: ctx) := by simp [descend, hkc]
      rw [hd1, ← ih rest (Frame.Xf p c :: ctx) (by simpa [Path.params] using hw.2.2)
        (KeyOk.tail _ hk hkc.2 (by simp [Path.params, hkc.1]))]
      simp only [Trie.ents, List.mem_map, Prod.mk.injEq, List.cons.injEq]
      constructor
      · rintro ⟨x, hx, ⟨_, rfl⟩, rfl⟩
        exact hx
      · intro h
        exact ⟨_, h, ⟨hkc.1.symm, rfl⟩, rfl⟩
    · have hd1 : descend e (Trie.X p c n) (k :: rest) ctx =
          (ctx, Trie.X p c n, k :: rest) := by simp [descend, hkc]
      rw [hd1]
      simp only [Found, Trie.ents, List.mem_map, Prod.mk.injEq, List.cons.injEq,
        reduceCtorEq, exists_false, or_false, and_false]
      constructor
      · rintro ⟨x, hx, ⟨rfl, rfl⟩, rfl⟩
        exact absurd ⟨rfl, hnn x hx⟩ hkc
      · intro h; exact h.elim
  | D p c l r ihl ihr =>
    intro key ctx hw hk
    obtain ⟨k, rest, rfl, hlo, hhi⟩ := hk.2.1
    simp only [Trie.WF] at hw
    by_cases hkc : k ≤ c
    · have hd1 : descend e (Trie.D p c l r) (k :: rest) ctx =
          descend e l (k :: rest) (Frame.Dl p c r :: ctx) := by simp [descend, hkc]
      rw [hd1, ← ihl (k :: rest) (Frame.Dl p c r :: ctx)
        (by simpa [Path.params] using hw.2.2.1)
        ⟨hk.1, ⟨k, rest, rfl, by simpa [Path.params] using hlo,
          by simp [Path.params]; exact_mod_cast hkc⟩,
          by simpa [Path.params] using hk.2.2⟩]
      simp only [Trie.ents, List.mem_append]
      constructor
      · rintro (h | h)
        · exact h
        · obtain ⟨k', rest', h1, h2, _⟩ := Trie.WF.ents_first r _ _ _ hw.2.2.2 _ h
          simp only [List.cons.injEq] at h1
          obtain ⟨rfl, _⟩ := h1
          omega
      · exact Or.inl
    · have hd1 : descend e (Trie.D p c l r) (k :: rest) ctx =
          descend e r (k :: rest) (Frame.Dr p c l :: ctx) := by simp [descend, hkc]
      rw [hd1, ← ihr (k :: rest) (Frame.Dr p c l :: ctx)
        (by simpa [Path.params] using hw.2.2.2)
        ⟨hk.1, ⟨k, rest, rfl, by simp [Path.params]; omega,
          by simpa [Path.params] using hhi⟩,
          by simpa [Path.params] using hk.2.2⟩]
      simp only [Trie.ents, List.mem_append]
      constructor
      · rintro (h | h)
        · obtain ⟨k', rest', h1, _, h3⟩ := Trie.WF.ents_first l _ _ _ hw.2.2.1 _ h
          simp only [List.cons.injEq] at h1
          obtain ⟨rfl, _⟩ := h1
          omega
        · exact h
      · exact Or.inr
  | L p c sub ih =>
    intro key ctx hw hk
    obtain ⟨k, rest, rfl, hlo, hhi⟩ := hk.2.1
    simp only [Trie.WF] at hw
    by_cases hkc : k = c ∧ rest = []
    · have hd1 : descend e (Trie.L p c sub) (k :: rest) ctx =
          descend e sub (itoa e) (Frame.Ls p c :: ctx) := by simp [descend, hkc]
      rw [hd1, ← ih (itoa e) (Frame.Ls p c :: ctx)
        (by simpa [Path.params] using hw.2.2.2.1) (KeyOk.enter _ _ (by simp [Path.params])),
        ← Trie.WF.mem_elems hw.2.2.2.1]
      simp [Trie.ents, hkc.1, hkc.2]
    · have hd1 : descend e (Trie.L p c sub) (k :: rest) ctx =
          (ctx, Trie.L p c sub, k :: rest) := by simp [descend, hkc]
      rw [hd1]
      simp only [Found, Trie.ents, List.mem_map, Prod.mk.injEq, List.cons.injEq,
        reduceCtorEq, exists_false, or_false, and_false]
      constructor
      · rintro ⟨x, hx, ⟨rfl, rfl⟩, rfl⟩
        exact absurd ⟨rfl, rfl⟩ hkc
      · intro h; exact h.elim
  | K p c sub n ihs ihn =>
    intro key ctx hw hk
    obtain ⟨k, rest, rfl, hlo, hhi⟩ := hk.2.1
    simp only [Trie.WF] at hw
    have hnn : ∀ x ∈ n.ents, x.1 ≠ [] := fun x hx => Trie.WF.ents_ne_nil hw.2.2.2.2.2 hx
    by_cases hkc : k = c
    · by_cases hr : rest = []
      · have hd1 : descend e (Trie.K p c sub n) (k :: rest) ctx =
            descend e sub (itoa e) (Frame.Ks p c n :: ctx) := by simp [descend, hkc, hr]
        rw [hd1, ← ihs (itoa e) (Frame.Ks p c n :: ctx)
          (by simpa [Path.params] using hw.2.2.2.1) (KeyOk.enter _ _ (by simp [Path.params])),
          ← Trie.WF.mem_elems hw.2.2.2.1]
        subst hr
        simp only [Trie.ents, List.mem_append, List.mem_map, Prod.mk.injEq, List.cons.injEq]
        constructor
        · rintro (⟨x, hx, _, rfl⟩ | ⟨x, hx, ⟨_, h2⟩, _⟩)
          · exact hx
          · exact absurd h2 (hnn x hx)
        · intro h
          exact Or.inl ⟨e, h, ⟨hkc.symm, trivial⟩, rfl⟩
      · have hd1 : descend e (Trie.K p c sub n) (k :: rest) ctx =
            descend e n rest (Frame.Kf p c sub :: ctx) := by simp [descend, hkc, hr]
        rw [hd1, ← ihn rest (Frame.Kf p c sub :: ctx)
          (by simpa [Path.params] using hw.2.2.2.2.2)
          (KeyOk.main_key _ _ hk hr (by simp [Path.params]))]
        simp only [Trie.ents, List.mem_append, List.mem_map, Prod.mk.injEq, List.cons.injEq]
        constructor
        · rintro (⟨x, hx, ⟨_, h2⟩, _⟩ | ⟨x, hx, ⟨_, rfl⟩, rfl⟩)
          · exact absurd h2.symm hr
          · exact hx
        · intro h
          exact Or.inr ⟨_, h, ⟨hkc.symm, rfl⟩, rfl⟩
    · have hd1 : descend e (Trie.K p c sub n) (k :: rest) ctx =
          (ctx, Trie.K p c sub n, k :: rest) := by simp [descend, hkc]
      rw [hd1]
      simp only [Found, Trie.ents, List.mem_append, List.mem_map, Prod.mk.injEq,
        List.cons.injEq, reduceCtorEq, exists_false, or_false, and_false]
      constructor
      · rintro (⟨x, hx, ⟨rfl, _⟩, _⟩ | ⟨x, hx, ⟨rfl, _⟩, _⟩)
        · exact hkc rfl
        · exact hkc rfl
      · intro h; exact h.elim

/-- Which of the two removals `Delete` runs after a match. -/
theorem deleteOutcome_eq (fuel : Nat) (ix : Index) (fl : List Nat) (rc : Path) (rt : Trie)
    (st : DeleteState) (h : AtFocus ix fl rc rt)
    (hw : Trie.WF (Path.params rc).1 (Path.params rc).2.1 (Path.params rc).2.2 rt)
    (hp : Path.WF rc rt.elems.length) (hdup : st.duplicateNodePointer = Path.dup rc)
    (hfuel : 2 * (Path.plug rc rt).size + 1 ≤ fuel) :
    (Path.subCount rc rt.elems.length = 2 ∧ Path.dup rc ≠ nullIndexPointer ∧
      deleteOutcome fuel ix (DeleteExit.matched st) = deleteCollapse fuel ix st) ∨
    (((Path.params rc).1 ≠ none → 3 ≤ Path.subCount rc rt.elems.length) ∧
      deleteOutcome fuel ix (DeleteExit.matched st) = deleteSingle fuel ix st) := by
  by_cases hd : Path.dup rc = nullIndexPointer
  · refine Or.inr ⟨fun hm => absurd hd (Path.mode_some_dup rc hm), ?_⟩
    simp only [deleteOutcome]
    rw [if_neg (by rw [hdup]; exact not_not.mpr hd)]
  · obtain ⟨dn, hget, hcount⟩ := count_path fuel ix fl rc rt h hw hp hd hfuel
    have hmode : (Path.params rc).1 ≠ none := fun hm => hd (Path.WF.dup_null rc _ hp hm)
    have h2 := Path.WF.two_le rc _ hp hmode
    have hcode : deleteOutcome fuel ix (DeleteExit.matched st) =
        if min 3 (Path.subCount rc rt.elems.length) < 3 then deleteCollapse fuel ix st
        else deleteSingle fuel ix st := by
      simp only [deleteOutcome]
      rw [if_pos (by rw [hdup]; exact hd), hdup, hget]
      simp only
      rw [hcount]
    by_cases hc : Path.subCount rc rt.elems.length = 2
    · refine Or.inl ⟨hc, hd, ?_⟩
      rw [hcode, if_pos (by rw [hc]; decide)]
    · refine Or.inr ⟨fun _ => by omega, ?_⟩
      rw [hcode, if_neg (by omega)]

theorem delete_tree (e : Int) (ix : Index) (fl : List Nat) (st : DeleteState) (T : Trie)
    (key : List Nat) (h : AtFocus ix fl [] T) (hw : Trie.WF none (-1) 127 T)
    (hst : DeleteAt st [] T key) (hkey : key ≠ []) (hasc : ∀ b ∈ key, b < 128) :
    ∃ N res out, (∀ f, N ≤ f → runLoop (deleteBody e ix) f st = some res ∧
        deleteOutcome f ix res = some out) ∧ DeletedAt ix T (key, e) out := by
  have hk : KeyOk e [] key := by
    obtain ⟨k, rest, rfl⟩ := ne_nil_cons hkey
    refine ⟨hasc, ⟨k, rest, rfl, ?_, ?_⟩, ?_⟩
    · simp only [Path.params]; omega
    · simp only [Path.params]
      have := hasc k (by simp); omega
    · intro w hw'; cases hw'
  have hp : Path.WF [] (T.extra + 1) := trivial
  have hfacts := descend_facts e 1 (le_refl _) T key [] hw hp hk
  have hmem := descend_mem e T key [] hw hk
  have hasc' := hw.ascii T _ _ _ (le_refl _)
  obtain ⟨st', hst', hfuel⟩ := delete_descend e ix T _ key [] st h.tree hasc' hst hkey
  generalize descend e T key [] = r at hfacts hst' hmem
  obtain ⟨rc, rt, rk⟩ := r
  obtain ⟨h1, h2, h3, h4, h5, h6⟩ := hfacts
  simp only at h1 h2 h3 h4 h5 h6 hst'
  simp only [Path.plug] at h1
  simp only [Path.lift] at h5
  have hfoc : AtFocus ix fl rc rt := by
    rw [← AtFocus.plug_iff, h1]; exact h
  obtain ⟨k, rest, hkr⟩ := ne_nil_cons h4.ne_nil_key
  subst hkr
  have hc : rt.char < 128 := by
    have := (Trie.WF.char_bounds rt _ _ h2).2
    have := (Path.WF.hi_le rc _ h3).1
    omega
  rw [Trie.extra_add_one] at h3
  have hrun : ∀ res, deleteBody e ix st' = some (LoopStep.exit res) →
      ∀ f, 2 * T.size + 1 ≤ f → runLoop (deleteBody e ix) f st = some res := by
    intro res hbody f hf
    have h0 := hfuel 1 res (runLoop_exit _ 0 st' res hbody)
    exact runLoop_mono _ _ _ _ h0 f (by omega)
  have hfin : ∀ (st2 : DeleteState) (out : Option (Bool × Index)),
      deleteOutcome (2 * T.size + 1) ix (DeleteExit.matched st2) = out →
      (∃ ix' fl' oT', out = some (true, ix') ∧ Inv ix' fl' oT' ∧
        (Path.plug rc rt).ents.Perm (Path.lift rc ([k], e) :: entsOf oT') ∧
        ix'.keyCount = ix.keyCount - 1) → rest = [] →
      deleteBody e ix st' = some (LoopStep.exit (DeleteExit.matched st2)) →
      ∃ N res out, (∀ f, N ≤ f → runLoop (deleteBody e ix) f st = some res ∧
        deleteOutcome f ix res = some out) ∧ DeletedAt ix T (key, e) out := by
    rintro st2 out hcode ⟨ix', fl', oT', rfl, g1, g2, g3⟩ hr hbody
    subst hr
    refine ⟨2 * T.size + 1, _, (true, ix'), fun f hf => ⟨hrun _ hbody f hf,
      deleteOutcome_mono _ f ix _ _ hf hcode⟩, Or.inr ⟨ix', fl', oT', rfl, g1, ?_, g3⟩⟩
    rw [h1, h5] at g2
    exact g2
  have hsz : 2 * (Path.plug rc rt).size + 1 ≤ 2 * T.size + 1 := by rw [h1]
  have hsz' : (Path.plug rc rt).size ≤ 2 * T.size + 1 := by rw [h1]; omega
  rcases delete_stop e ix st' rc rt _ k rest hfoc.tree hst' hc h6 with
    ⟨p, rfl, hr, hbody⟩ | ⟨p, n, rfl, hr, hbody⟩ | ⟨hn1, hn2, hbody⟩
  · subst hr
    refine hfin st' _ rfl ?_ rfl hbody
    have h3' : Path.WF rc 1 := h3
    rcases deleteOutcome_eq (2 * T.size + 1) ix fl rc _ st' hfoc h2 h3 hst'.dup hsz with
      ⟨hc2, hd, hcode⟩ | ⟨hs, hcode⟩
    · rw [hcode]
      exact delete_collapse_S _ ix fl rc st' p k e hfoc h2 h3' hst' hd hc2 hsz'
    · rw [hcode]
      exact delete_single_S _ ix fl rc st' p k e hfoc h2 h3' hst' hs hsz'
  · subst hr
    refine hfin _ _ rfl ?_ rfl hbody
    have h3' : Path.WF rc (n.elems.length + 1) := h3
    have hptr : st'.indexPointer = (p : Int) := hst'.pointer
    rcases deleteOutcome_eq (2 * T.size + 1) ix fl rc _
      { st' with deleteIndexPointer := st'.indexPointer,
                 linkPreviousPointer := st'.previousIndexPointer } hfoc h2 h3 hst'.dup hsz with
      ⟨hc2, hd, hcode⟩ | ⟨hs, hcode⟩
    · rw [hcode]
      exact delete_collapse_Rw _ ix fl rc _ p k e n hfoc h2 h3' hptr hst'.dup hd hc2 hsz'
    · rw [hcode]
      exact delete_single_Rw _ ix fl rc _ p k e n hfoc h2 h3' hptr hs
  · refine ⟨2 * T.size + 1, _, (false, ix), fun f hf => ⟨hrun _ hbody f hf, rfl⟩,
      Or.inl ⟨rfl, ?_⟩⟩
    rw [hmem]
    rintro ⟨k', hk', hS | hR⟩
    · simp only [List.cons.injEq] at hk'
      obtain ⟨p, hS⟩ := hS
      exact hn1 ⟨p, by rw [hk'.1]; exact hS, hk'.2⟩
    · simp only [List.cons.injEq] at hk'
      obtain ⟨p, n, hR⟩ := hR
      exact hn2 ⟨p, n, by rw [hk'.1]; exact hR, hk'.2⟩

/-! ## Key normalization -/

theorem trimLeftSpace_mem : ∀ (fuel : Nat) (s : List Nat) (b : Nat),
    b ∈ trimLeftSpace fuel s → b ∈ s := by
  intro fuel
  induction fuel with
  | zero => intro s b h; exact h
  | succ n ih =>
    intro s b h
    cases s with
    | nil => simp [trimLeftSpace] at h
    | cons a rest =>
      simp only [trimLeftSpace] at h
      split at h
      · exact List.mem_of_mem_drop (ih _ b h)
      · exact h

theorem trimRightSpace_mem (s : List Nat) (b : Nat) (h : b ∈ trimRightSpace s) : b ∈ s := by
  simp only [trimRightSpace] at h
  split at h <;> exact List.mem_of_mem_take h

theorem trimSpace_mem (s : List Nat) (b : Nat) (h : b ∈ trimSpace s) : b ∈ s :=
  trimLeftSpace_mem _ s b (trimRightSpace_mem _ b h)

/-- The bytes of the normalized key are bytes of the key. -/
theorem validate_mem (k : List Nat) (b : Nat) (h : b ∈ (validate k).1) : b ∈ k := by
  simp only [validate] at h
  split at h
  · exact trimSpace_mem k b (List.mem_of_mem_take h)
  · exact trimSpace_mem k b h

theorem validate_snd (k : List Nat) : (validate k).2 = (validate k).1.length := rfl

theorem validate_ascii (k : List Nat) (h : ∀ b ∈ k, b < 128) : ∀ b ∈ (validate k).1, b < 128 :=
  fun b hb => h b (validate_mem k b hb)

theorem validate_length_le (k : List Nat) : (validate k).1.length ≤ maxKeyLength := by
  simp only [validate]
  split
  · simp
  · omega

/-! ## The operations in terms of their loops -/

theorem Insert_eq (f : Nat) (k : List Nat) (e : Int) (ix : Index) :
    Insert f k e ix =
      if (validate k).2 = 0 then some (false, ix)
      else if ix.indexRootPointer = nullIndexPointer then
        match extend (validate k).1 e nullIndexPointer ix with
        | none => none
        | some (extensionPointer, ix1) =>
          some (true, { ix1 with indexRootPointer := extensionPointer,
                                 keyCount := ix1.keyCount + 1 })
      else
        match runLoop (insertBody e) f
            ⟨ix, (validate k).1, (validate k).2, nullIndexPointer, ix.indexRootPointer,
              false, 0⟩ with
        | none => none
        | some res => insertOutcome f e res := by
  unfold Insert
  rcases hv : validate k with ⟨ks, kl⟩
  simp only
  split_ifs
  · rfl
  · rfl
  · cases runLoop (insertBody e) f ⟨ix, ks, kl, nullIndexPointer, ix.indexRootPointer, false, 0⟩
      with
    | none => rfl
    | some res => cases res <;> rfl

theorem Delete_eq (f : Nat) (k : List Nat) (e : Int) (ix : Index) :
    Delete f k e ix =
      if (validate k).2 = 0 then some (false, ix)
      else if ix.indexRootPointer = nullIndexPointer then some (false, ix)
      else
        match runLoop (deleteBody e ix) f
            ⟨(validate k).1, (validate k).2, nullIndexPointer, nullIndexPointer,
              nullIndexPointer, nullIndexPointer, ix.indexRootPointer, null, 0⟩ with
        | none => none
        | some res => deleteOutcome f ix res := by
  unfold Delete
  rcases hv : validate k with ⟨ks, kl⟩
  simp only
  split_ifs
  · rfl
  · rfl
  · cases runLoop (deleteBody e ix) f ⟨ks, kl, nullIndexPointer, nullIndexPointer,
        nullIndexPointer, nullIndexPointer, ix.indexRootPointer, null, 0⟩ with
    | none => rfl
    | some res => cases res <;> rfl

/-- A result of `Insert` does not depend on the fuel. -/
theorem Insert_mono (f f' : Nat) (k : List Nat) (e : Int) (ix : Index) (out : Bool × Index)
    (hle : f ≤ f') (h : Insert f k e ix = some out) : Insert f' k e ix = some out := by
  rw [Insert_eq] at h ⊢
  split_ifs at h ⊢
  · exact h
  · exact h
  · cases hr : runLoop (insertBody e) f ⟨ix, (validate k).1, (validate k).2, nullIndexPointer,
        ix.indexRootPointer, false, 0⟩ with
    | none => rw [hr] at h; cases h
    | some res =>
      rw [hr] at h
      rw [runLoop_mono _ _ _ _ hr f' hle]
      exact insertOutcome_mono f f' e res out hle h

/-- A result of `Delete` does not depend on the fuel. -/
theorem Delete_mono (f f' : Nat) (k : List Nat) (e : Int) (ix : Index) (out : Bool × Index)
    (hle : f ≤ f') (h : Delete f k e ix = some out) : Delete f' k e ix = some out := by
  rw [Delete_eq] at h ⊢
  split_ifs at h ⊢
  · exact h
  · exact h
  · cases hr : runLoop (deleteBody e ix) f ⟨(validate k).1, (validate k).2, nullIndexPointer,
        nullIndexPointer, nullIndexPointer, nullIndexPointer, ix.indexRootPointer, null, 0⟩ with
    | none => rw [hr] at h; cases h
    | some res =>
      rw [hr] at h
      rw [runLoop_mono _ _ _ _ hr f' hle]
      exact deleteOutcome_mono f f' ix res out hle h

/-! ## `Insert` and `Delete` on a represented index -/

theorem Inv.nodup_free {ix : Index} {fl : List Nat} {oT : Option Trie} (h : Inv ix fl oT) :
    fl.Nodup := by
  cases oT with
  | none => exact h.2.2.nodup_iff.mpr (List.nodup_range _)
  | some T =>
    have := h.1.perm.nodup_iff.mpr (List.nodup_range _)
    exact (List.nodup_append.mp this).2.1

theorem Inv.free_list {ix : Index} {fl : List Nat} {oT : Option Trie} (h : Inv ix fl oT) :
    FreeList ix.node ix.deletedRootPointer fl := by
  cases oT with
  | none => exact h.2.1
  | some T => exact h.1.free

theorem insert_inv (ix : Index) (fl : List Nat) (oT : Option Trie) (k : List Nat) (e : Int)
    (h : Inv ix fl oT) (hasc : ∀ b ∈ k, b < 128) :
    ∃ N out, (∀ f, N ≤ f → Insert f k e ix = some out) ∧
      ((out = (false, ix) ∧ ((validate k).1 = [] ∨ ((validate k).1, e) ∈ entsOf oT)) ∨
       ((validate k).1 ≠ [] ∧ ∃ ix' fl' T', out = (true, ix') ∧ Inv ix' fl' (some T') ∧
          T'.ents.Perm (((validate k).1, e) :: entsOf oT) ∧
          ix'.keyCount = ix.keyCount + 1)) := by
  have hka := validate_ascii k hasc
  by_cases hnil : (validate k).1 = []
  · refine ⟨0, (false, ix), fun f _ => ?_, Or.inl ⟨rfl, Or.inl hnil⟩⟩
    rw [Insert_eq, if_pos (by rw [validate_snd, hnil]; rfl)]
  have hlen : (validate k).2 ≠ 0 := by
    rw [validate_snd]
    exact fun hc => hnil (List.length_eq_zero.mp hc)
  cases oT with
  | none =>
    obtain ⟨hroot, hfree, hperm⟩ := h
    obtain ⟨res, ix', fl', hext, hchain, hE⟩ := extend_spec (validate k).1 e nullIndexPointer ix fl
      hnil hfree (hperm.nodup_iff.mpr (List.nodup_range _))
    refine ⟨0, (true, { ix' with indexRootPointer := (res.addr : Int),
                                 keyCount := ix'.keyCount + 1 }), fun f _ => ?_,
      Or.inr ⟨hnil, _, fl', res, rfl, ⟨⟨?_, trivial, hE.laid, hE.free, ?_⟩, ?_⟩, ?_, ?_⟩⟩
    · rw [Insert_eq, if_neg hlen, if_pos hroot, hext]
    · rfl
    · have h1 := hE.perm
      simp only [List.nil_append] at h1
      simp only [Path.addrs, List.nil_append]
      refine h1.trans ?_
      rw [← range_append_range' _ _ hE.len]
      exact List.Perm.append_right _ hperm
    · refine Trie.IsChain.wf res _ e _ _ _ hchain hka ?_ (by intro w hw; cases hw)
      intro k' rest' heq
      have := hka k' (by rw [heq]; simp)
      constructor <;> omega
    · rw [hchain.ents]; rfl
    · simp only; rw [hE.count]
  | some T =>
    obtain ⟨hfoc, hw⟩ := h
    have hroot : ix.indexRootPointer ≠ nullIndexPointer := by
      rw [hfoc.root]; exact natCast_ne_null _
    obtain ⟨N, res, out, hrun, hout⟩ := insert_tree e ix fl
      ⟨ix, (validate k).1, (validate k).2, nullIndexPointer, ix.indexRootPointer, false, 0⟩
      T (validate k).1 hfoc hw ⟨rfl, rfl, rfl, rfl, hfoc.root, rfl⟩ hnil hka
    refine ⟨N, out, fun f hf => ?_, ?_⟩
    · rw [Insert_eq, if_neg hlen, if_neg hroot, (hrun f hf).1]
      exact (hrun f hf).2
    · rcases hout with ⟨h1, h2⟩ | ⟨ix', fl', T', h1, h2, h3, h4, h5⟩
      · exact Or.inl ⟨h1, Or.inr h2⟩
      · exact Or.inr ⟨hnil, ix', fl', T', h1, ⟨h2, h3⟩, h4, h5⟩

theorem delete_inv (ix : Index) (fl : List Nat) (oT : Option Trie) (k : List Nat) (e : Int)
    (h : Inv ix fl oT) (hasc : ∀ b ∈ k, b < 128) :
    ∃ N out, (∀ f, N ≤ f → Delete f k e ix = some out) ∧
      ((out = (false, ix) ∧ ((validate k).1, e) ∉ entsOf oT) ∨
       (∃ ix' fl' oT', out = (true, ix') ∧ Inv ix' fl' oT' ∧
          (entsOf oT).Perm (((validate k).1, e) :: entsOf oT') ∧
          ix'.keyCount = ix.keyCount - 1)) := by
  have hka := validate_ascii k hasc
  cases oT with
  | none =>
    refine ⟨0, (false, ix), fun f _ => ?_, Or.inl ⟨rfl, by simp [entsOf]⟩⟩
    rw [Delete_eq]
    split_ifs
    · rfl
    · rfl
    · exact absurd h.1 (by assumption)
  | some T =>
    obtain ⟨hfoc, hw⟩ := h
    by_cases hnil : (validate k).1 = []
    · refine ⟨0, (false, ix), fun f _ => ?_, Or.inl ⟨rfl, ?_⟩⟩
      · rw [Delete_eq, if_pos (by rw [validate_snd, hnil]; rfl)]
      · intro hm
        exact Trie.WF.ents_ne_nil hw hm hnil
    have hlen : (validate k).2 ≠ 0 := by
      rw [validate_snd]
      exact fun hc => hnil (List.length_eq_zero.mp hc)
    have hroot : ix.indexRootPointer ≠ nullIndexPointer := by
      rw [hfoc.root]; exact natCast_ne_null _
    obtain ⟨N, res, out, hrun, hout⟩ := delete_tree e ix fl
      ⟨(validate k).1, (validate k).2, nullIndexPointer, nullIndexPointer,
        nullIndexPointer, nullIndexPointer, ix.indexRootPointer, null, 0⟩
      T (validate k).1 hfoc hw ⟨rfl, rfl, rfl, rfl, rfl, rfl, hfoc.root, rfl⟩ hnil hka
    refine ⟨N, out, fun f hf => ?_, hout⟩
    rw [Delete_eq, if_neg hlen, if_neg hroot, (hrun f hf).1]
    exact (hrun f hf).2

/-! ## The order of the pairs of a tree -/

theorem strLt_irrefl : ∀ a : List Nat, strLt a a = false := by
  intro a
  induction a with
  | nil => rfl
  | cons x xs ih => simp [strLt, ih]

theorem strLt_cons_same (c : Nat) (a b : List Nat) : strLt (c :: a) (c :: b) = strLt a b := by
  simp [strLt]

theorem strLt_head_lt {a b : Nat} (as bs : List Nat) (h : a < b) :
    strLt (a :: as) (b :: bs) = true := by
  simp [strLt, h]

theorem strLt_single_cons (c : Nat) {x : List Nat} (h : x ≠ []) : strLt [c] (c :: x) = true := by
  cases x with
  | nil => exact absurd rfl h
  | cons a b => simp [strLt]

theorem pairLt_irrefl (x : List Nat × Int) : ¬ pairLt x x := by
  rintro (h | ⟨_, h⟩)
  · rw [strLt_irrefl] at h; cases h
  · rw [strLt_irrefl] at h; cases h

theorem pairLt_cons (c : Nat) (x y : List Nat × Int) :
    pairLt (c :: x.1, x.2) (c :: y.1, y.2) ↔ pairLt x y := by
  simp only [pairLt, strLt_cons_same, List.cons.injEq, true_and]

theorem pairwise_map_cons (c : Nat) (l : List (List Nat × Int)) (h : l.Pairwise pairLt) :
    (l.map (fun x => (c :: x.1, x.2))).Pairwise pairLt := by
  rw [List.pairwise_map]
  exact h.imp (fun {a b} hab => (pairLt_cons c a b).mpr hab)

/-- The elements of a duplicates branch are in ascending order of their
decimal renderings, given that its pairs are in order. -/
theorem sub_elems_sorted {t : Trie} {lo hi : Int} (hw : Trie.WF (some []) lo hi t)
    (h : t.ents.Pairwise pairLt) :
    t.elems.Pairwise (fun a b => strLt (itoa a) (itoa b) = true) := by
  rw [Trie.elems_eq_ents, List.pairwise_map]
  have hk := Trie.WF.ents_itoa t [] lo hi hw
  refine (List.Pairwise.and_mem.mp h).imp ?_
  rintro a b ⟨ha, hb, hab⟩
  have h1 := hk a ha
  have h2 := hk b hb
  simp only [List.nil_append] at h1 h2
  rcases hab with hab | ⟨_, hab⟩
  · rw [← h1, ← h2]; exact hab
  · exact hab

theorem pairwise_map_leaf (c : Nat) (es : List Int)
    (h : es.Pairwise (fun a b => strLt (itoa a) (itoa b) = true)) :
    (es.map (fun e => (([c] : List Nat), e))).Pairwise pairLt := by
  rw [List.pairwise_map]
  exact h.imp (fun {a b} hab => Or.inr ⟨rfl, hab⟩)

/-- The pairs of a well-formed tree are in strictly ascending order. -/
theorem Trie.WF.sorted : ∀ (t : Trie) (mode : Option (List Nat)) (lo hi : Int),
    Trie.WF mode lo hi t → t.ents.Pairwise pairLt := by
  intro t
  induction t with
  | S p c e =>
    intro mode lo hi hw
    simp [Trie.ents]
  | R p c e n ih =>
    intro mode lo hi hw
    simp only [Trie.ents, List.pairwise_cons]
    refine ⟨?_, pairwise_map_cons c _ (ih _ _ _ hw.2.2.2)⟩
    intro y hy
    simp only [List.mem_map] at hy
    obtain ⟨x, hx, rfl⟩ := hy
    exact Or.inl (strLt_single_cons c (Trie.WF.ents_ne_nil hw.2.2.2 hx))
  | X p c n ih =>
    intro mode lo hi hw
    exact pairwise_map_cons c _ (ih _ _ _ hw.2.2)
  | D p c l r ihl ihr =>
    intro mode lo hi hw
    simp only [Trie.ents, List.pairwise_append]
    refine ⟨ihl _ _ _ hw.2.2.1, ihr _ _ _ hw.2.2.2, ?_⟩
    intro x hx y hy
    obtain ⟨k1, r1, h1, _, h1b⟩ := Trie.WF.ents_first l _ _ _ hw.2.2.1 x hx
    obtain ⟨k2, r2, h2, h2a, _⟩ := Trie.WF.ents_first r _ _ _ hw.2.2.2 y hy
    refine Or.inl ?_
    rw [h1, h2]
    exact strLt_head_lt _ _ (by omega)
  | L p c sub ih =>
    intro mode lo hi hw
    exact pairwise_map_leaf c _ (sub_elems_sorted hw.2.2.2.1 (ih _ _ _ hw.2.2.2.1))
  | K p c sub n ihs ihn =>
    intro mode lo hi hw
    simp only [Trie.ents, List.pairwise_append]
    refine ⟨pairwise_map_leaf c _ (sub_elems_sorted hw.2.2.2.1 (ihs _ _ _ hw.2.2.2.1)),
      pairwise_map_cons c _ (ihn _ _ _ hw.2.2.2.2.2), ?_⟩
    intro x hx y hy
    simp only [List.mem_map] at hx hy
    obtain ⟨a, _, rfl⟩ := hx
    obtain ⟨b, hb, rfl⟩ := hy
    exact Or.inl (strLt_single_cons c (Trie.WF.ents_ne_nil hw.2.2.2.2.2 hb))

theorem pairwise_pairLt_nodup {l : List (List Nat × Int)} (h : l.Pairwise pairLt) : l.Nodup :=
  h.imp (fun {a b} hab => show a ≠ b from fun heq => pairLt_irrefl a (by rw [← heq] at hab; exact hab))

/-- No pair occurs twice in a well-formed tree. -/
theorem Trie.WF.ents_nodup {t : Trie} {mode : Option (List Nat)} {lo hi : Int}
    (hw : Trie.WF mode lo hi t) : t.ents.Nodup :=
  pairwise_pairLt_nodup (Trie.WF.sorted t mode lo hi hw)

/-! ## `find` and `seek` as selections of the pairs -/

theorem underKey_append (a b : List (List Nat × Int)) (key : List Nat) :
    underKey (a ++ b) key = underKey a key ++ underKey b key := by
  simp [underKey]

theorem underStart_append (a b : List (List Nat × Int)) (key : List Nat) :
    underStart (a ++ b) key = underStart a key ++ underStart b key := by
  simp [underStart]

theorem underKey_none (es : List (List Nat × Int)) (key : List Nat)
    (h : ∀ x ∈ es, x.1 ≠ key) : underKey es key = [] := by
  simp only [underKey, List.map_eq_nil_iff, List.filter_eq_nil_iff]
  intro x hx
  simpa using h x hx

theorem underStart_none (es : List (List Nat × Int)) (key : List Nat)
    (h : ∀ x ∈ es, key.isPrefixOf x.1 = false) : underStart es key = [] := by
  simp only [underStart, List.map_eq_nil_iff, List.filter_eq_nil_iff]
  intro x hx
  simp [h x hx]

theorem underKey_map_cons (c k : Nat) (rest : List Nat) (es : List (List Nat × Int)) :
    underKey (es.map (fun x => (c :: x.1, x.2))) (k :: rest) =
      if k = c then underKey es rest else [] := by
  induction es with
  | nil => simp [underKey]
  | cons x xs ih =>
    simp only [underKey, List.map_cons, List.filter_cons] at ih ⊢
    by_cases hk : k = c
    · subst hk
      simp only [if_true] at ih ⊢
      by_cases hx : x.1 = rest
      · simp [hx, ih]
      · simp [hx, ih]
    · simp only [hk, if_false] at ih ⊢
      have : ¬ (c :: x.1 = k :: rest) := fun h => hk (by injection h with h1 _; exact h1.symm)
      simp [this, ih]

theorem underStart_map_cons (c k : Nat) (rest : List Nat) (es : List (List Nat × Int)) :
    underStart (es.map (fun x => (c :: x.1, x.2))) (k :: rest) =
      if k = c then (if rest = [] then es.map Prod.snd else underStart es rest) else [] := by
  induction es with
  | nil => simp [underStart]
  | cons x xs ih =>
    simp only [underStart, List.map_cons, List.filter_cons, List.isPrefixOf] at ih ⊢
    by_cases hk : k = c
    · subst hk
      simp only [if_true, beq_self_eq_true, Bool.true_and] at ih ⊢
      by_cases hr : rest = []
      · subst hr
        simp only [if_true] at ih ⊢
        simp [List.isPrefixOf, ih]
      · simp only [hr, if_false] at ih ⊢
        by_cases hx : rest.isPrefixOf x.1 = true
        · simp [hx, ih]
        · simp [hx, ih]
    · simp only [hk, if_false] at ih ⊢
      have : (k == c) = false := by simpa using hk
      simp [this, ih]

theorem underKey_map_leaf (c k : Nat) (rest : List Nat) (es : List Int) :
    underKey (es.map (fun e => (([c] : List Nat), e))) (k :: rest) =
      if k = c ∧ rest = [] then es else [] := by
  induction es with
  | nil => simp [underKey]
  | cons x xs ih =>
    simp only [underKey, List.map_cons, List.filter_cons] at ih ⊢
    by_cases hk : k = c ∧ rest = []
    · obtain ⟨rfl, rfl⟩ := hk
      simp only [and_self, if_true] at ih ⊢
      simp [ih]
    · simp only [hk, if_false] at ih ⊢
      have : ¬ ([c] = k :: rest) := fun h => hk (by
        injection h with h1 h2; exact ⟨h1.symm, h2.symm⟩)
      simp [this, ih]

theorem underStart_map_leaf (c k : Nat) (rest : List Nat) (es : List Int) :
    underStart (es.map (fun e => (([c] : List Nat), e))) (k :: rest) =
      if k = c ∧ rest = [] then es else [] := by
  induction es with
  | nil => simp [underStart]
  | cons x xs ih =>
    simp only [underStart, List.map_cons, List.filter_cons] at ih ⊢
    by_cases hk : k = c ∧ rest = []
    · obtain ⟨rfl, rfl⟩ := hk
      simp only [and_self, if_true] at ih ⊢
      simp [List.isPrefixOf, ih]
    · simp only [hk, if_false] at ih ⊢
      have : (k :: rest).isPrefixOf [c] = false := by
        cases rest with
        | nil =>
          have : k ≠ c := fun h => hk ⟨h, rfl⟩
          simp [List.isPrefixOf, this]
        | cons a b => simp [List.isPrefixOf]
      simp [this, ih]

theorem underKey_first_gt (es : List (List Nat × Int)) (k : Nat) (rest : List Nat)
    (h : ∀ x ∈ es, ∃ k' rest', x.1 = k' :: rest' ∧ k' ≠ k) : underKey es (k :: rest) = [] := by
  refine underKey_none es _ (fun x hx heq => ?_)
  obtain ⟨k', rest', h1, h2⟩ := h x hx
  rw [h1] at heq
  injection heq with h3 _
  exact h2 h3

theorem underStart_first_gt (es : List (List Nat × Int)) (k : Nat) (rest : List Nat)
    (h : ∀ x ∈ es, ∃ k' rest', x.1 = k' :: rest' ∧ k' ≠ k) : underStart es (k :: rest) = [] := by
  refine underStart_none es _ (fun x hx => ?_)
  obtain ⟨k', rest', h1, h2⟩ := h x hx
  rw [h1]
  have : (k == k') = false := by simpa using fun h => h2 h.symm
  simp [List.isPrefixOf, this]

theorem underKey_nil_key (t : Trie) (mode : Option (List Nat)) (lo hi : Int)
    (hw : Trie.WF mode lo hi t) : underKey t.ents [] = [] :=
  underKey_none _ _ (fun _ hx => Trie.WF.ents_ne_nil hw hx)

/-- What `Select` reads off a well-formed tree: the elements of the pairs with the key. -/
theorem Trie.WF.find_eq : ∀ (t : Trie) (mode : Option (List Nat)) (lo hi : Int),
    Trie.WF mode lo hi t → ∀ key, t.find key = underKey t.ents key := by
  intro t
  induction t with
  | S p c e =>
    intro mode lo hi hw key
    cases key with
    | nil => simp [Trie.find, underKey, Trie.ents]
    | cons k rest =>
      have := underKey_map_leaf c k rest [e]
      simp only [List.map_cons, List.map_nil] at this
      simp only [Trie.find, Trie.ents, this]
  | R p c e n ih =>
    intro mode lo hi hw key
    cases key with
    | nil => rw [underKey_nil_key _ _ _ _ hw]; rfl
    | cons k rest =>
      have h1 := underKey_map_leaf c k rest [e]
      simp only [List.map_cons, List.map_nil] at h1
      have h2 := underKey_append [([c], e)] ((n.ents).map (fun x => (c :: x.1, x.2))) (k :: rest)
      simp only [List.singleton_append] at h2
      simp only [Trie.find, Trie.ents]
      rw [h2, h1, underKey_map_cons, ← ih _ _ _ hw.2.2.2]
      by_cases hk : k = c
      · by_cases hr : rest = []
        · subst hr
          simp only [hk, and_self, if_true, List.singleton_append, List.cons.injEq, true_and]
          cases n <;> rfl
        · simp [hk, hr]
      · simp [hk]
  | X p c n ih =>
    intro mode lo hi hw key
    cases key with
    | nil => rw [underKey_nil_key _ _ _ _ hw]; rfl
    | cons k rest =>
      simp only [Trie.find, Trie.ents]
      rw [underKey_map_cons, ← ih _ _ _ hw.2.2]
      by_cases hk : k = c
      · by_cases hr : rest = []
        · subst hr
          simp only [hk, if_true]
          cases n <;> rfl
        · simp [hk, hr]
      · simp [hk]
  | D p c l r ihl ihr =>
    intro mode lo hi hw key
    cases key with
    | nil => rw [underKey_nil_key _ _ _ _ hw]; rfl
    | cons k rest =>
      simp only [Trie.find, Trie.ents]
      rw [underKey_append, ← ihl _ _ _ hw.2.2.1, ← ihr _ _ _ hw.2.2.2]
      by_cases hk : k ≤ c
      · simp only [hk, if_true]
        rw [ihr _ _ _ hw.2.2.2, underKey_first_gt, List.append_nil]
        intro x hx
        obtain ⟨k', rest', h1, h2, _⟩ := Trie.WF.ents_first r _ _ _ hw.2.2.2 x hx
        exact ⟨k', rest', h1, by omega⟩
      · simp only [hk, if_false]
        rw [ihl _ _ _ hw.2.2.1, underKey_first_gt, List.nil_append]
        intro x hx
        obtain ⟨k', rest', h1, _, h3⟩ := Trie.WF.ents_first l _ _ _ hw.2.2.1 x hx
        exact ⟨k', rest', h1, by omega⟩
  | L p c sub ih =>
    intro mode lo hi hw key
    cases key with
    | nil => rw [underKey_nil_key _ _ _ _ hw]; rfl
    | cons k rest =>
      simp only [Trie.find, Trie.ents]
      rw [underKey_map_leaf]
  | K p c sub n ihs ihn =>
    intro mode lo hi hw key
    cases key with
    | nil => rw [underKey_nil_key _ _ _ _ hw]; rfl
    | cons k rest =>
      simp only [Trie.find, Trie.ents]
      rw [underKey_append, underKey_map_leaf, underKey_map_cons, ← ihn _ _ _ hw.2.2.2.2.2]
      by_cases hk : k = c
      · by_cases hr : rest = []
        · subst hr
          simp only [hk, and_self, if_true]
          have : n.find [] = [] := by cases n <;> rfl
          rw [this, List.append_nil]
        · simp [hk, hr]
      · simp [hk]

/-- What `Search` reads off a well-formed tree: the elements of the pairs whose
key starts with the given bytes. -/
theorem Trie.WF.seek_eq : ∀ (t : Trie) (mode : Option (List Nat)) (lo hi : Int),
    Trie.WF mode lo hi t → ∀ key, key ≠ [] → t.seek key = underStart t.ents key := by
  intro t
  induction t with
  | S p c e =>
    intro mode lo hi hw key hkey
    obtain ⟨k, rest, rfl⟩ := ne_nil_cons hkey
    have := underStart_map_leaf c k rest [e]
    simp only [List.map_cons, List.map_nil] at this
    simp only [Trie.seek, Trie.ents, this]
  | R p c e n ih =>
    intro mode lo hi hw key hkey
    obtain ⟨k, rest, rfl⟩ := ne_nil_cons hkey
    have h1 := underStart_map_leaf c k rest [e]
    simp only [List.map_cons, List.map_nil] at h1
    have h2 := underStart_append [([c], e)] ((n.ents).map (fun x => (c :: x.1, x.2))) (k :: rest)
    simp only [List.singleton_append] at h2
    simp only [Trie.seek, Trie.ents]
    rw [h2, h1, underStart_map_cons, ← Trie.elems_eq_ents]
    by_cases hk : k = c
    · by_cases hr : rest = []
      · simp [hk, hr]
      · rw [← ih _ _ _ hw.2.2.2 rest hr]
        simp [hk, hr]
    · simp [hk]
  | X p c n ih =>
    intro mode lo hi hw key hkey
    obtain ⟨k, rest, rfl⟩ := ne_nil_cons hkey
    simp only [Trie.seek, Trie.ents]
    rw [underStart_map_cons, ← Trie.elems_eq_ents]
    by_cases hk : k = c
    · by_cases hr : rest = []
      · simp [hk, hr]
      · rw [← ih _ _ _ hw.2.2 rest hr]
    · simp [hk]
  | D p c l r ihl ihr =>
    intro mode lo hi hw key hkey
    obtain ⟨k, rest, rfl⟩ := ne_nil_cons hkey
    simp only [Trie.seek, Trie.ents]
    rw [underStart_append]
    by_cases hk : k ≤ c
    · simp only [hk, if_true]
      rw [ihl _ _ _ hw.2.2.1 _ hkey, underStart_first_gt r.ents, List.append_nil]
      intro x hx
      obtain ⟨k', rest', h1, h2, _⟩ := Trie.WF.ents_first r _ _ _ hw.2.2.2 x hx
      exact ⟨k', rest', h1, by omega⟩
    · simp only [hk, if_false]
      rw [ihr _ _ _ hw.2.2.2 _ hkey, underStart_first_gt l.ents, List.nil_append]
      intro x hx
      obtain ⟨k', rest', h1, _, h3⟩ := Trie.WF.ents_first l _ _ _ hw.2.2.1 x hx
      exact ⟨k', rest', h1, by omega⟩
  | L p c sub ih =>
    intro mode lo hi hw key hkey
    obtain ⟨k, rest, rfl⟩ := ne_nil_cons hkey
    simp only [Trie.seek, Trie.ents]
    rw [underStart_map_leaf]
  | K p c sub n ihs ihn =>
    intro mode lo hi hw key hkey
    obtain ⟨k, rest, rfl⟩ := ne_nil_cons hkey
    simp only [Trie.seek, Trie.ents]
    rw [underStart_append, underStart_map_leaf, underStart_map_cons, ← Trie.elems_eq_ents]
    by_cases hk : k = c
    · by_cases hr : rest = []
      · simp [hk, hr]
      · rw [← ihn _ _ _ hw.2.2.2.2.2 rest hr]
        simp [hk, hr]
    · simp [hk]

/-! ## The read operations on a represented index -/

theorem Inv.tree_nodup_inv {ix : Index} {fl : List Nat} {T : Trie} (h : Inv ix fl (some T)) :
    T.addrs.Nodup := by
  have := h.1.perm.nodup_iff.mpr (List.nodup_range _)
  simp only [Path.addrs, List.nil_append] at this
  exact (List.nodup_append.mp this).1

theorem scan_inv (ix : Index) (fl : List Nat) (oT : Option Trie) (h : Inv ix fl oT) :
    ∃ N, ∀ f, N ≤ f → Scan f ix =
      some (decide (((entsOf oT).map Prod.snd).length > 0), (entsOf oT).map Prod.snd) := by
  cases oT with
  | none =>
    refine ⟨1, fun f hf => ?_⟩
    obtain ⟨m, rfl⟩ : ∃ m, f = m + 1 := ⟨f - 1, by omega⟩
    simp [Scan, traverseAndCollect, runLoop, traverseBody, h.1, entsOf]
  | some T =>
    refine ⟨1 + 2 * T.size, fun f hf => ?_⟩
    have h0 : runLoop (traverseBody nullIndexPointer ix) 1 ⟨right, -1, [] ++ T.elems⟩ =
        some T.elems := by
      simp [runLoop, traverseBody]
    have h1 := traverse_tree ix nullIndexPointer T (-1) h.1.tree
      (fun a _ => natCast_ne_null a) [] 1 T.elems h0
    have h2 := runLoop_mono _ _ _ _ h1 f hf
    have hroot : ix.indexRootPointer = (T.addr : Int) := h.1.root
    simp only [Scan, traverseAndCollect, hroot, h2, entsOf, ← Trie.elems_eq_ents]

theorem select_inv (ix : Index) (fl : List Nat) (oT : Option Trie) (k : List Nat)
    (h : Inv ix fl oT) :
    ∃ N, ∀ f, N ≤ f → Select f k ix =
      some (decide ((underKey (entsOf oT) (validate k).1).length > 0),
        underKey (entsOf oT) (validate k).1) := by
  by_cases hnil : (validate k).1 = []
  · refine ⟨0, fun f _ => ?_⟩
    have hu : underKey (entsOf oT) [] = [] := by
      cases oT with
      | none => rfl
      | some T => exact underKey_nil_key T _ _ _ h.2
    have hv : (validate k).2 = 0 := by rw [validate_snd, hnil]; rfl
    rw [hnil, hu]
    unfold Select
    rcases hval : validate k with ⟨ks, kl⟩
    rw [hval] at hv
    simp only at hv ⊢
    rw [if_pos hv]
    rfl
  have hlen : (validate k).2 ≠ 0 := by
    rw [validate_snd]
    exact fun hc => hnil (List.length_eq_zero.mp hc)
  have hcode : ∀ f, Select f k ix =
      runLoop (selectBody f (validate k).1 (validate k).1.length ix) f
        ⟨ix.indexRootPointer, 0⟩ := by
    intro f
    unfold Select
    rcases hval : validate k with ⟨ks, kl⟩
    have hkl : kl = ks.length := by
      have := validate_snd k
      rw [hval] at this; exact this
    rw [hval] at hlen
    simp only at hlen ⊢
    rw [if_neg hlen, hkl]
  cases oT with
  | none =>
    refine ⟨1, fun f hf => ?_⟩
    obtain ⟨m, rfl⟩ : ∃ m, f = m + 1 := ⟨f - 1, by omega⟩
    rw [hcode]
    simp [runLoop, selectBody, h.1, entsOf, underKey]
  | some T =>
    obtain ⟨k0, rest, hk⟩ := ne_nil_cons hnil
    refine ⟨2 * T.size + 1, fun f hf => ?_⟩
    rw [hcode, h.1.root]
    have := select_tree ix (validate k).1 f T (-1) h.1.tree
      (Trie.WF.ascii T _ _ _ h.2 (le_refl _)) (Inv.tree_nodup_inv h) hf 0 k0 rest
      (by rw [List.drop_zero]; exact hk) f (by omega)
    simp only [Path.rootAddr]
    rw [this, ← hk, Trie.WF.find_eq T _ _ _ h.2]
    rfl

theorem search_inv (ix : Index) (fl : List Nat) (oT : Option Trie) (k : List Nat)
    (h : Inv ix fl oT) (hnil : (validate k).1 ≠ []) :
    ∃ N, ∀ f, N ≤ f → Search f k ix =
      some (decide ((underStart (entsOf oT) (validate k).1).length > 0),
        underStart (entsOf oT) (validate k).1) := by
  have hlen : (validate k).2 ≠ 0 := by
    rw [validate_snd]
    exact fun hc => hnil (List.length_eq_zero.mp hc)
  have hcode : ∀ f, Search f k ix =
      match runLoop (searchBody (validate k).1 (validate k).1.length ix) f
        ⟨ix.indexRootPointer, nullIndexPointer, 0⟩ with
      | none => none
      | some SearchExit.notFound => some (false, [])
      | some (SearchExit.found startPointer endPointer) =>
        match traverseAndCollect f startPointer endPointer ix with
        | none => none
        | some results => some (decide (results.length > 0), results) := by
    intro f
    unfold Search
    rcases hval : validate k with ⟨ks, kl⟩
    have hkl : kl = ks.length := by
      have := validate_snd k
      rw [hval] at this; exact this
    rw [hval] at hlen
    simp only at hlen ⊢
    rw [if_neg hlen]
    subst hkl
    generalize runLoop (searchBody ks ks.length ix) f
      ⟨ix.indexRootPointer, nullIndexPointer, 0⟩ = r
    cases r with
    | none => rfl
    | some res => cases res <;> rfl
  cases oT with
  | none =>
    refine ⟨1, fun f hf => ?_⟩
    obtain ⟨m, rfl⟩ : ∃ m, f = m + 1 := ⟨f - 1, by omega⟩
    rw [hcode]
    simp [runLoop, searchBody, h.1, entsOf, underStart]
  | some T =>
    obtain ⟨k0, rest, hk⟩ := ne_nil_cons hnil
    refine ⟨2 * T.size + 2, fun f hf => ?_⟩
    rw [hcode, h.1.root]
    obtain ⟨ex, hrun, hok⟩ := search_tree ix (validate k).1 T (-1) h.1.tree
      (Trie.WF.ascii T _ _ _ h.2 (le_refl _)) (Inv.tree_nodup_inv h)
      (fun a _ => natCast_ne_null a) 0 k0 rest
      (by rw [List.drop_zero]; exact hk) f (by omega)
    simp only [Path.rootAddr]
    have hrun' : runLoop (searchBody (validate k).1 (validate k).1.length ix) f
        ⟨(T.addr : Int), nullIndexPointer, 0⟩ = some ex := hrun
    rw [hrun']
    have hseek := Trie.WF.seek_eq T _ _ _ h.2 (validate k).1 hnil
    rw [← hk] at hok
    cases ex with
    | notFound =>
      simp only [SearchOk] at hok
      have hu : underStart T.ents (validate k).1 = [] := by rw [← hseek]; exact hok
      simp only [entsOf, hu]
      rfl
    | found s e =>
      simp only [SearchOk] at hok
      have hu : underStart T.ents (validate k).1 = T.seek (validate k).1 := hseek.symm
      simp only [entsOf, hu, hok f hf]

/-! ## The reachable indexes -/

theorem Inv.ents_nodup_inv {ix : Index} {fl : List Nat} {oT : Option Trie} (h : Inv ix fl oT) :
    (entsOf oT).Nodup := by
  cases oT with
  | none => exact List.nodup_nil
  | some T => exact Trie.WF.ents_nodup h.2

theorem Good.nodup_stored {ix : Index} {m : List (List Nat × Int)} (h : Good ix m) : m.Nodup := by
  obtain ⟨fl, oT, hinv, hperm, _⟩ := h
  exact hperm.nodup_iff.mp hinv.ents_nodup_inv

theorem good_init : Good (Initialise zeroIndex) [] :=
  ⟨[], none, ⟨rfl, rfl, List.Perm.refl _⟩, List.Perm.refl _, rfl⟩

/-- What `Insert` does to a good index. -/
theorem insert_good (ix : Index) (m : List (List Nat × Int)) (k : List Nat) (e : Int)
    (h : Good ix m) (hasc : AsciiKey k) :
    ∃ N out, (∀ f, N ≤ f → Insert f k e ix = some out) ∧
      ((out = (false, ix) ∧ (normalize k = [] ∨ (normalize k, e) ∈ m)) ∨
       (normalize k ≠ [] ∧ (normalize k, e) ∉ m ∧ ∃ ix', out = (true, ix') ∧
          Good ix' ((normalize k, e) :: m) ∧ ix'.keyCount = ix.keyCount + 1)) := by
  obtain ⟨fl, oT, hinv, hperm, hcount⟩ := h
  obtain ⟨N, out, hrun, hout⟩ := insert_inv ix fl oT k e hinv hasc
  refine ⟨N, out, hrun, ?_⟩
  rcases hout with ⟨h1, h2⟩ | ⟨hne, ix', fl', T', h1, h2, h3, h4⟩
  · refine Or.inl ⟨h1, h2.imp id (fun hm => hperm.mem_iff.mp hm)⟩
  · have hnd : (((validate k).1, e) :: entsOf oT).Nodup :=
      h3.nodup_iff.mp (Trie.WF.ents_nodup h2.2)
    refine Or.inr ⟨hne, fun hm => (List.nodup_cons.mp hnd).1 (hperm.mem_iff.mpr hm), ix', h1,
      ⟨fl', some T', h2, h3.trans (List.Perm.cons _ hperm), ?_⟩, h4⟩
    rw [h4, hcount]; simp

/-- What `Delete` does to a good index. -/
theorem delete_good (ix : Index) (m : List (List Nat × Int)) (k : List Nat) (e : Int)
    (h : Good ix m) (hasc : AsciiKey k) :
    ∃ N out, (∀ f, N ≤ f → Delete f k e ix = some out) ∧
      ((out = (false, ix) ∧ (normalize k, e) ∉ m) ∨
       ((normalize k, e) ∈ m ∧ ∃ ix', out = (true, ix') ∧
          Good ix' (removePair (normalize k, e) m) ∧ ix'.keyCount = ix.keyCount - 1)) := by
  have hmnd := h.nodup_stored
  obtain ⟨fl, oT, hinv, hperm, hcount⟩ := h
  obtain ⟨N, out, hrun, hout⟩ := delete_inv ix fl oT k e hinv hasc
  refine ⟨N, out, hrun, ?_⟩
  rcases hout with ⟨h1, h2⟩ | ⟨ix', fl', oT', h1, h2, h3, h4⟩
  · exact Or.inl ⟨h1, fun hm => h2 (hperm.mem_iff.mpr hm)⟩
  · have hp : (((validate k).1, e) :: entsOf oT').Perm m := h3.symm.trans hperm
    have hnd : (((validate k).1, e) :: entsOf oT').Nodup := hp.nodup_iff.mpr hmnd
    have hnot := (List.nodup_cons.mp hnd).1
    have hfil : (entsOf oT').Perm (removePair (normalize k, e) m) := by
      have h5 := (hp.filter (fun y => decide (y ≠ ((validate k).1, e))))
      simp only [List.filter_cons, ne_eq, not_true_eq_false, decide_False,
        Bool.false_eq_true, if_false] at h5
      rw [List.filter_eq_self.mpr (fun y hy => by
        simp only [decide_eq_true_eq]
        exact fun heq => hnot (heq ▸ hy))] at h5
      exact h5
    refine Or.inr ⟨hp.mem_iff.mp (List.mem_cons_self _ _), ix', h1,
      ⟨fl', oT', h2, hfil, ?_⟩, h4⟩
    rw [h4, hcount, ← hfil.length_eq, ← hp.length_eq]
    simp

/-- Every reachable index is good for the pairs stored according to its log. -/
theorem reach_good {ix : Index} {log : List Call} (h : Reach ix log) : Good ix (stored log) := by
  induction h with
  | init => exact good_init
  | insert fuel k e b s s' log _ hasc hrun ih =>
    obtain ⟨N, out, hN, hout⟩ := insert_good s (stored log) k e ih hasc
    have h1 := Insert_mono fuel (max fuel N) k e s _ (le_max_left _ _) hrun
    rw [hN _ (le_max_right _ _)] at h1
    injection h1 with h1
    subst h1
    rcases hout with ⟨h2, _⟩ | ⟨_, _, ix', h2, h3, _⟩
    · injection h2 with hb hs
      subst hb; subst hs
      exact ih
    · injection h2 with hb hs
      subst hb; subst hs
      exact h3
  | delete fuel k e b s s' log _ hasc hrun ih =>
    obtain ⟨N, out, hN, hout⟩ := delete_good s (stored log) k e ih hasc
    have h1 := Delete_mono fuel (max fuel N) k e s _ (le_max_left _ _) hrun
    rw [hN _ (le_max_right _ _)] at h1
    injection h1 with h1
    subst h1
    rcases hout with ⟨h2, _⟩ | ⟨_, ix', h2, h3, _⟩
    · injection h2 with hb hs
      subst hb; subst hs
      exact ih
    · injection h2 with hb hs
      subst hb; subst hs
      exact h3

/-- The number of stored pairs is the number of successful inserts less the
number of successful deletes. -/
theorem reach_count {ix : Index} {log : List Call} (h : Reach ix log) :
    (stored log).length + deletedCount log = insertedCount log := by
  induction h with
  | init => rfl
  | insert fuel k e b s s' log hr hasc hrun ih =>
    cases b with
    | true =>
      simp only [stored, insertedCount, deletedCount, List.filter_cons, if_true,
        Bool.and_self, Bool.not_true, Bool.false_and, List.length_cons, Bool.false_eq_true,
        if_false] at ih ⊢
      omega
    | false =>
      simp only [stored, insertedCount, deletedCount, List.filter_cons,
        Bool.and_false, Bool.false_eq_true, if_false] at ih ⊢
      exact ih
  | delete fuel k e b s s' log hr hasc hrun ih =>
    cases b with
    | true =>
      obtain ⟨N, out, hN, hout⟩ := delete_good s (stored log) k e (reach_good hr) hasc
      have h1 := Delete_mono fuel (max fuel N) k e s _ (le_max_left _ _) hrun
      rw [hN _ (le_max_right _ _)] at h1
      injection h1 with h1
      subst h1
      rcases hout with ⟨h2, _⟩ | ⟨hmem, ix', h2, h3, _⟩
      · injection h2 with hb _
        cases hb
      · have hg := reach_good hr
        have hl : (removePair (normalize k, e) (stored log)).length + 1 =
            (stored log).length := by
          obtain ⟨_, _, _, _, c1⟩ := hg
          obtain ⟨_, _, _, _, c2⟩ := h3
          injection h2 with _ hs
          subst hs
          have : (s'.keyCount : Int) = s.keyCount - 1 := by assumption
          omega
        simp only [stored, insertedCount, deletedCount, List.filter_cons, if_true,
          Bool.false_and, Bool.not_false, Bool.and_self, List.length_cons,
          Bool.false_eq_true, if_false] at ih ⊢
        omega
    | false =>
      simp only [stored, insertedCount, deletedCount, List.filter_cons,
        Bool.and_false, Bool.false_eq_true, if_false] at ih ⊢
      exact ih

/-! ## What the read operations return on a good index -/

theorem mem_underKey (es : List (List Nat × Int)) (key : List Nat) (e : Int) :
    e ∈ underKey es key ↔ (key, e) ∈ es := by
  simp only [underKey, List.mem_map, List.mem_filter, decide_eq_true_eq]
  constructor
  · rintro ⟨x, ⟨hx, rfl⟩, rfl⟩
    exact hx
  · intro h
    exact ⟨(key, e), ⟨h, rfl⟩, rfl⟩

theorem underKey_nodup (es : List (List Nat × Int)) (key : List Nat) (h : es.Nodup) :
    (underKey es key).Nodup := by
  refine List.Nodup.map_on ?_ (h.filter _)
  intro x hx y hy hxy
  simp only [List.mem_filter, decide_eq_true_eq] at hx hy
  exact Prod.ext (hx.2.trans hy.2.symm) hxy

theorem mem_underStart (es : List (List Nat × Int)) (key : List Nat) (e : Int) :
    e ∈ underStart es key ↔ ∃ x ∈ es, key <+: x.1 ∧ x.2 = e := by
  simp only [underStart, List.mem_map, List.mem_filter, List.isPrefixOf_iff_prefix]
  constructor
  · rintro ⟨x, ⟨hx, hp⟩, rfl⟩
    exact ⟨x, hx, hp, rfl⟩
  · rintro ⟨x, hx, hp, rfl⟩
    exact ⟨x, ⟨hx, hp⟩, rfl⟩

theorem underStart_sublist (es : List (List Nat × Int)) (key : List Nat) :
    (underStart es key).Sublist (es.map Prod.snd) :=
  (List.filter_sublist es).map _

theorem decide_length_pos (L : List Int) : decide (L.length > 0) = decide (L ≠ []) := by
  cases L <;> simp

theorem validate_eq_of_normalize {k k' : List Nat} (h : normalize k' = normalize k) :
    validate k' = validate k :=
  Prod.ext h (by rw [validate_snd, validate_snd]; exact congrArg List.length h)

theorem Select_congr (fuel : Nat) (k k' : List Nat) (s : Index)
    (h : normalize k' = normalize k) : Select fuel k' s = Select fuel k s := by
  unfold Select
  rw [validate_eq_of_normalize h]

theorem entsOf_eq_nil {ix : Index} {fl : List Nat} {oT : Option Trie} (h : Inv ix fl oT)
    (he : entsOf oT = []) : ix.indexRootPointer = nullIndexPointer := by
  cases oT with
  | none => exact h.1
  | some T =>
    have := T.ents_length
    simp only [entsOf] at he
    rw [he] at this
    simp at this

/-- The results of the read operations on a good index, in terms of the list
`es` of its pairs in the order of the tree. -/
theorem good_queries (s : Index) (m : List (List Nat × Int)) (h : Good s m) :
    ∃ es : List (List Nat × Int), es.Perm m ∧ es.Pairwise pairLt ∧
      (es = [] → s.indexRootPointer = nullIndexPointer) ∧
      (∃ N, ∀ f, N ≤ f → Scan f s = some (decide (es.map Prod.snd ≠ []), es.map Prod.snd)) ∧
      (∀ k, ∃ N, ∀ f, N ≤ f → Select f k s =
        some (decide (underKey es (normalize k) ≠ []), underKey es (normalize k))) ∧
      (∀ k, normalize k ≠ [] → ∃ N, ∀ f, N ≤ f → Search f k s =
        some (decide (underStart es (normalize k) ≠ []), underStart es (normalize k))) := by
  obtain ⟨fl, oT, hinv, hperm, _⟩ := h
  refine ⟨entsOf oT, hperm, ?_, entsOf_eq_nil hinv, ?_, ?_, ?_⟩
  · cases oT with
    | none => exact List.Pairwise.nil
    | some T => exact Trie.WF.sorted T _ _ _ hinv.2
  · obtain ⟨N, hN⟩ := scan_inv s fl oT hinv
    exact ⟨N, fun f hf => by rw [hN f hf, decide_length_pos]⟩
  · intro k
    obtain ⟨N, hN⟩ := select_inv s fl oT k hinv
    exact ⟨N, fun f hf => by rw [hN f hf, decide_length_pos]; rfl⟩
  · intro k hk
    obtain ⟨N, hN⟩ := search_inv s fl oT k hinv hk
    exact ⟨N, fun f hf => by rw [hN f hf, decide_length_pos]; rfl⟩

/-! ## Normalization of ASCII keys -/

theorem decodeRune_ascii (b : Nat) (rest : List Nat) (h : b < 128) :
    decodeRune (b :: rest) = (b, 1) := by
  simp [decodeRune, h]

theorem trimLeftSpace_ascii : ∀ (fuel : Nat) (s : List Nat), AsciiKey s → s.length < fuel →
    trimLeftSpace fuel s = s.dropWhile isSpaceRune := by
  intro fuel
  induction fuel with
  | zero => intro s _ h; omega
  | succ n ih =>
    intro s hs hl
    cases s with
    | nil => simp [trimLeftSpace]
    | cons b rest =>
      have hb : b < 128 := hs b (by simp)
      have hr : AsciiKey rest := fun x hx => hs x (by simp [hx])
      simp only [trimLeftSpace, decodeRune_ascii b rest hb, List.drop_succ_cons, List.drop_zero,
        List.dropWhile_cons]
      by_cases hsp : isSpaceRune b = true
      · simp only [hsp, if_true]
        exact ih rest hr (by simp at hl; omega)
      · simp [hsp]

theorem decodeLastRune_ascii (l : List Nat) (c : Nat) (h : c < 128) :
    decodeLastRune (l ++ [c]) = (c, 1) := by
  simp [decodeLastRune, List.getD, h]

theorem lastIndexNotSpace_ascii (s : List Nat) (hs : AsciiKey s) :
    ∀ (fuel i : Nat), i ≤ s.length → i < fuel →
      s.take ((lastIndexNotSpace s fuel i) + 1).toNat = (s.take i).rdropWhile isSpaceRune := by
  intro fuel
  induction fuel with
  | zero => intro i _ h; omega
  | succ n ih =>
    intro i hi hf
    cases i with
    | zero => simp [lastIndexNotSpace]
    | succ j =>
      have hj : j < s.length := by omega
      have htake : s.take (j + 1) = s.take j ++ [s[j]] := by
        rw [List.take_succ, List.getElem?_eq_getElem hj]; rfl
      have hc : s[j] < 128 := hs _ (List.getElem_mem hj)
      simp only [lastIndexNotSpace]
      rw [if_neg (by omega), htake, decodeLastRune_ascii _ _ hc, List.rdropWhile_concat]
      simp only [Nat.add_sub_cancel]
      by_cases hsp : isSpaceRune s[j] = true
      · simp only [hsp, if_true]
        exact ih j (by omega) (by omega)
      · simp only [hsp, Bool.false_eq_true, if_false]
        have : ((j : Int) + 1).toNat = j + 1 := by omega
        rw [this, htake]

theorem trimRightSpace_ascii (s : List Nat) (hs : AsciiKey s) :
    trimRightSpace s = s.rdropWhile isSpaceRune := by
  have h := lastIndexNotSpace_ascii s hs (s.length + 1) s.length (le_refl _) (by omega)
  rw [List.take_length] at h
  simp only [trimRightSpace]
  have hget : ∀ i : Nat, ¬ 128 ≤ s.getD i 0 := by
    intro i
    by_cases hi : i < s.length
    · have := hs _ (List.getElem_mem hi)
      simp [List.getD, List.getElem?_eq_getElem hi]; omega
    · simp [List.getD, List.getElem?_eq_none (by omega : s.length ≤ i)]
  rw [if_neg (fun hc => hget _ hc.2)]
  exact h

/-- The normalized form of an ASCII key: ASCII white space off both ends, then
the first 32 bytes. -/
theorem normalize_ascii (s : List Nat) (hs : AsciiKey s) :
    normalize s = (((s.dropWhile isSpaceRune).rdropWhile isSpaceRune).take maxKeyLength) := by
  have h1 : trimSpace s = (s.dropWhile isSpaceRune).rdropWhile isSpaceRune := by
    simp only [trimSpace]
    rw [trimLeftSpace_ascii _ s hs (by omega)]
    exact trimRightSpace_ascii _ (fun b hb => hs b ((List.dropWhile_sublist _).subset hb))
  simp only [normalize, validate, h1]
  split
  · rfl
  · rw [List.take_of_length_le (by omega)]

theorem dropWhile_append_of_ne_nil (p : Nat → Bool) :
    ∀ (l x : List Nat), l.dropWhile p ≠ [] → (l ++ x).dropWhile p = l.dropWhile p ++ x := by
  intro l
  induction l with
  | nil => intro x h; simp at h
  | cons a l ih =>
    intro x h
    simp only [List.cons_append, List.dropWhile_cons] at h ⊢
    by_cases ha : p a = true
    · simp only [ha, if_true] at h ⊢
      exact ih x h
    · simp [ha]

theorem rdropWhile_start (p : Nat → Bool) (a : List Nat) :
    ∀ x : List Nat, a.rdropWhile p <+: (a ++ x).rdropWhile p := by
  intro x
  induction x using List.reverseRecOn with
  | nil => simp
  | append_singleton y c ih =>
    rw [← List.append_assoc, List.rdropWhile_concat]
    by_cases hc : p c = true
    · simp only [hc, if_true]; exact ih
    · simp only [hc, Bool.false_eq_true, if_false]
      exact ( List.rdropWhile_prefix p a).trans (by simp [List.append_assoc])

/-- Normalization keeps the initial segments of ASCII keys, as long as the
normalized form of the segment is not empty. -/
theorem normalize_start (p1 p2 : List Nat) (h2 : AsciiKey p2) (hp : p1 <+: p2)
    (hne : normalize p1 ≠ []) : normalize p1 <+: normalize p2 := by
  obtain ⟨x, rfl⟩ := hp
  have h1 : AsciiKey p1 := fun b hb => h2 b (by simp [hb])
  rw [normalize_ascii _ h1] at hne ⊢
  rw [normalize_ascii _ h2]
  have hd : p1.dropWhile isSpaceRune ≠ [] := by
    intro hc
    rw [hc] at hne
    simp at hne
  rw [dropWhile_append_of_ne_nil _ _ _ hd]
  exact List.IsPrefix.take (rdropWhile_start _ _ _) _

/-! ## Runs of several calls -/

theorem insertAll_good : ∀ (ps : List (List Nat × Int)) (s : Index)
    (m : List (List Nat × Int)), Good s m →
    (∀ p ∈ ps, AsciiKey p.1 ∧ normalize p.1 ≠ []) →
    ((ps.map normPair).reverse ++ m).Nodup →
    ∃ N s1, (∀ fuel, N ≤ fuel →
        insertAll fuel ps s = some (List.replicate ps.length true, s1)) ∧
      Good s1 ((ps.map normPair).reverse ++ m) := by
  intro ps
  induction ps with
  | nil =>
    intro s m hg _ _
    exact ⟨0, s, fun _ _ => rfl, hg⟩
  | cons p ps ih =>
    intro s m hg hps hnd
    have heq : ((p :: ps).map normPair).reverse ++ m =
        (ps.map normPair).reverse ++ (normPair p :: m) := by
      simp [List.map_cons, List.reverse_cons, List.append_assoc]
    rw [heq] at hnd ⊢
    have hpm : normPair p ∉ m := by
      have := (List.nodup_append.mp hnd).2.1
      exact (List.nodup_cons.mp this).1
    obtain ⟨hasc, hne⟩ := hps p (by simp)
    obtain ⟨N1, out, hrun, hout⟩ := insert_good s m p.1 p.2 hg hasc
    rcases hout with ⟨_, h2⟩ | ⟨_, _, s', h2, h3, _⟩
    · rcases h2 with h2 | h2
      · exact absurd h2 hne
      · exact absurd h2 hpm
    · subst h2
      obtain ⟨N2, s1, hrun2, hg2⟩ := ih s' (normPair p :: m) h3
        (fun q hq => hps q (by simp [hq])) hnd
      refine ⟨max N1 N2, s1, fun fuel hf => ?_, hg2⟩
      simp only [insertAll, hrun fuel (le_trans (le_max_left _ _) hf),
        hrun2 fuel (le_trans (le_max_right _ _) hf), List.length_cons, List.replicate_succ]

theorem removePair_cons_self (x : List Nat × Int) (l : List (List Nat × Int)) (h : x ∉ l) :
    removePair x (x :: l) = l := by
  simp only [removePair, List.filter_cons, ne_eq, not_true_eq_false, decide_False,
    Bool.false_eq_true, if_false]
  exact List.filter_eq_self.mpr (fun y hy => by
    simp only [decide_eq_true_eq]
    exact fun heq => h (heq ▸ hy))

theorem deleteAll_good : ∀ (qs : List (List Nat × Int)) (s : Index)
    (m : List (List Nat × Int)), Good s m → (∀ q ∈ qs, AsciiKey q.1) →
    (qs.map normPair).Perm m →
    ∃ N s2, (∀ fuel, N ≤ fuel →
        deleteAll fuel qs s = some (List.replicate qs.length true, s2)) ∧ Good s2 [] := by
  intro qs
  induction qs with
  | nil =>
    intro s m hg _ hperm
    have : m = [] := by simpa using hperm.symm
    subst this
    exact ⟨0, s, fun _ _ => rfl, hg⟩
  | cons q qs ih =>
    intro s m hg hqs hperm
    have hmnd := hg.nodup_stored
    have hnd : (normPair q :: qs.map normPair).Nodup := hperm.nodup_iff.mpr hmnd
    have hmem : normPair q ∈ m := hperm.mem_iff.mp (by simp)
    obtain ⟨N1, out, hrun, hout⟩ := delete_good s m q.1 q.2 hg (hqs q (by simp))
    rcases hout with ⟨_, h2⟩ | ⟨_, s', h2, h3, _⟩
    · exact absurd hmem h2
    · subst h2
      have hp2 : (qs.map normPair).Perm (removePair (normPair q) m) := by
        have := hperm.filter (fun y => decide (y ≠ normPair q))
        have h5 := removePair_cons_self (normPair q) (qs.map normPair) (List.nodup_cons.mp hnd).1
        simp only [removePair] at h5
        simp only [List.map_cons] at this
        rw [h5] at this
        exact this
      obtain ⟨N2, s2, hrun2, hg2⟩ := ih s' _ h3 (fun x hx => hqs x (by simp [hx])) hp2
      refine ⟨max N1 N2, s2, fun fuel hf => ?_, hg2⟩
      simp only [deleteAll, hrun fuel (le_trans (le_max_left _ _) hf),
        hrun2 fuel (le_trans (le_max_right _ _) hf), List.length_cons, List.replicate_succ]

/-! ## A failed `Delete` changes nothing -/

theorem deleteSingle_true (f : Nat) (ix : Index) (st : DeleteState) (out : Bool × Index)
    (h : deleteSingle f ix st = some out) : out.1 = true := by
  unfold deleteSingle at h
  repeat' split at h
  all_goals (cases h <;> rfl)

theorem deleteCollapse_true (f : Nat) (ix : Index) (st : DeleteState) (out : Bool × Index)
    (h : deleteCollapse f ix st = some out) : out.1 = true := by
  unfold deleteCollapse at h
  simp only at h
  repeat' split at h
  all_goals (cases h <;> rfl)

theorem deleteOutcome_false (f : Nat) (ix : Index) (res : DeleteExit) (s' : Index)
    (h : deleteOutcome f ix res = some (false, s')) : s' = ix := by
  cases res with
  | notFound =>
    simp only [deleteOutcome] at h
    injection h with h
    injection h with _ h2
    exact h2.symm
  | matched st =>
    simp only [deleteOutcome] at h
    repeat' split at h
    all_goals first
      | cases h
      | exact absurd (deleteCollapse_true _ _ _ _ h) (by simp)
      | exact absurd (deleteSingle_true _ _ _ _ h) (by simp)

/-- A `Delete` that returns false leaves the index as it was, on every index
state whatever, for every key and element. -/
theorem Delete_false_unchanged (fuel : Nat) (k : List Nat) (e : Int) (s s' : Index)
    (h : Delete fuel k e s = some (false, s')) : s' = s := by
  rw [Delete_eq] at h
  split_ifs at h
  · injection h with h; injection h with _ h2; exact h2.symm
  · injection h with h; injection h with _ h2; exact h2.symm
  · split at h
    · cases h
    · exact deleteOutcome_false _ _ _ _ h

/-! ## The function `Statistics` -/

/-! ## The stack of `Statistics` -/

theorem take_set_succ {α : Type} : ∀ (l : List α) (n : Nat) (x : α), n < l.length →
    (l.set n x).take (n + 1) = l.take n ++ [x] := by
  intro l
  induction l with
  | nil => intro n x h; simp at h
  | cons a l ih =>
    intro n x h
    cases n with
    | zero => simp
    | succ m =>
      simp only [List.set_cons_succ, List.take_succ_cons, List.cons_append, List.cons.injEq,
        true_and]
      exact ih m x (by simpa using h)

/-- A push on a stack whose live part is `anc` makes the live part `anc ++ [p]`. -/
theorem pushStack_spec (stack anc : List Int) (p : Int) (sp : Nat) (hsp : sp = anc.length)
    (htake : stack.take sp = anc) :
    (pushStack stack p sp).2 = sp + 1 ∧ (pushStack stack p sp).1.take (sp + 1) = anc ++ [p] := by
  have hlen : sp ≤ stack.length := by
    have h := congrArg List.length htake
    simp only [List.length_take] at h
    omega
  by_cases hc : stack.length ≤ sp
  · have hs : stack = anc := by
      rw [← htake, List.take_of_length_le hc]
    simp only [pushStack, if_pos hc, true_and]
    rw [List.take_of_length_le (by simp; omega), hs]
  · simp only [pushStack, if_neg hc, true_and]
    rw [take_set_succ _ _ _ (by omega), htake]

theorem take_of_take_succ (stack anc : List Int) (p : Int)
    (h : stack.take (anc.length + 1) = anc ++ [p]) : stack.take anc.length = anc := by
  have h2 : stack.take anc.length = (stack.take (anc.length + 1)).take anc.length := by
    rw [List.take_take]; simp
  rw [h2, h]
  simp

theorem stackSeek_append : ∀ (anc rest : List Int) (th : Int), th ∈ anc →
    stackSeek (anc ++ rest) th = some (anc.indexOf th) := by
  intro anc
  induction anc with
  | nil => intro rest th h; simp at h
  | cons a anc ih =>
    intro rest th h
    by_cases ha : a = th
    · simp [stackSeek, ha]
    · have h2 : th ∈ anc := by
        rcases List.mem_cons.mp h with h3 | h3
        · exact absurd h3.symm ha
        · exact h3
      rw [List.cons_append, stackSeek, if_neg ha, ih rest th h2, List.indexOf_cons_ne _ ha]

theorem stackSeek_take (stack anc : List Int) (th : Int) (n : Nat) (htake : stack.take n = anc)
    (h : th ∈ anc) : stackSeek stack th = some (anc.indexOf th) := by
  have hs : stack = anc ++ stack.drop n := by
    rw [← htake, List.take_append_drop]
  rw [hs]
  exact stackSeek_append anc _ th h

/-- The reset of the stack to a node of its live part. -/
theorem resetStack_spec (stack anc : List Int) (th : Int) (n sp : Nat)
    (htake : stack.take n = anc) (h : th = nullIndexPointer ∨ th ∈ anc) :
    ∃ sp', resetStack stack th sp = some sp' ∧
      (th ≠ nullIndexPointer → sp' = anc.indexOf th + 1) := by
  by_cases hth : th = nullIndexPointer
  · exact ⟨sp, by simp [resetStack, hth], fun hc => absurd hth hc⟩
  · have hm : th ∈ anc := h.resolve_left hth
    refine ⟨anc.indexOf th + 1, ?_, fun _ => rfl⟩
    simp [resetStack, hth, stackSeek_take stack anc th n htake hm]

/-! ## The counts of a tree -/

theorem Trie.types_length (t : Trie) : t.types.length = t.size := by
  induction t with
  | S p c e => rfl
  | R p c e n ih => simp [Trie.types, Trie.size, ih]
  | X p c n ih => simp [Trie.types, Trie.size, ih]
  | D p c l r ihl ihr => simp [Trie.types, Trie.size, ihl, ihr]
  | L p c sub ih => simp [Trie.types, Trie.size, ih]
  | K p c sub n ihs ihn => simp [Trie.types, Trie.size, ihs, ihn]

/-! ## The scanning loop of `Statistics` on a tree -/

theorem stat_child_ctx (anc : List Int) (p : Nat) (as : List Nat) (hnd : anc.Nodup)
    (hdisj : ∀ a ∈ p :: as, (a : Int) ∉ anc) (hno : (p :: as).Nodup) :
    (anc ++ [(p : Int)]).Nodup ∧ (∀ a ∈ as, (a : Int) ∉ anc ++ [(p : Int)]) ∧
      (p : Int) ∈ anc ++ [(p : Int)] ∧ (anc ++ [(p : Int)]).indexOf (p : Int) = anc.length := by
  have hp : (p : Int) ∉ anc := hdisj p (by simp)
  refine ⟨?_, ?_, by simp, ?_⟩
  · rw [List.nodup_append]
    refine ⟨hnd, by simp, ?_⟩
    intro a ha hb
    rw [List.mem_singleton] at hb
    exact hp (hb ▸ ha)
  · intro a ha hc
    rcases List.mem_append.mp hc with h1 | h1
    · exact hdisj a (by simp [ha]) h1
    · rw [List.mem_singleton] at h1
      have h2 : a = p := by exact_mod_cast h1
      rw [h2] at ha
      exact (List.nodup_cons.mp hno).1 ha
  · rw [List.indexOf_append_of_not_mem hp]
    simp

theorem stat_index_left (anc : List Int) (p th : Int) (h : th ∈ anc) :
    (anc ++ [p]).indexOf th = anc.indexOf th :=
  List.indexOf_append_of_mem h

/-- From the root of a tree, entered from above, the scanning loop of
`Statistics` counts every node of the tree once and leaves along the thread
of its last terminal, with the stack reset to the node of the thread. -/
theorem stats_tree (ix : Index) :
    ∀ (t : Trie) (th : Int), Trie.Laid ix.node t th → t.addrs.Nodup →
      ∀ (anc : List Int) (st : StatState), st.indexPointer = (t.addr : Int) →
        st.direction = left → st.stackPointer = anc.length → st.stack.take anc.length = anc →
        anc.Nodup → (∀ a ∈ t.addrs, (a : Int) ∉ anc) → (th = nullIndexPointer ∨ th ∈ anc) →
        ∃ st', st'.indexPointer = th ∧ st'.direction = right ∧
          st'.result = t.types.foldl bump st.result ∧
          st'.stack.take anc.length = anc ∧
          (th ≠ nullIndexPointer → st'.stackPointer = anc.indexOf th + 1) ∧
          ∀ fuel r, runLoop (statsBody ix) fuel st' = some r →
            runLoop (statsBody ix) (fuel + 2 * t.size) st = some r := by
  intro t
  induction t with
  | S p c e =>
    intro th hl _ anc st hptr hdir hsp htake hnd hdisj hth
    obtain ⟨stack, sp, dir, res, ptr⟩ := st
    simp only at hptr hdir hsp htake
    subst hptr hdir hsp
    simp only [Trie.Laid] at hl
    obtain ⟨hp2, hp1⟩ := pushStack_spec stack anc (p : Int) anc.length rfl htake
    have htk := take_of_take_succ _ _ _ hp1
    obtain ⟨sp', hrs, hsp'⟩ := resetStack_spec (pushStack stack (p : Int) anc.length).1 anc th
      anc.length (pushStack stack (p : Int) anc.length).2 htk hth
    refine ⟨⟨(pushStack stack (p : Int) anc.length).1, sp', right,
      { res with IndexTerminalNodeCount := res.IndexTerminalNodeCount + 1 }, th⟩,
      rfl, rfl, ?_, htk, hsp', ?_⟩
    · simp [Trie.types, bump]
    · intro fuel r hr
      refine runLoop_step _ _ _ r fuel _ ?_ hr (by simp [Trie.size])
      simp [statsBody, natCast_ne_null, hl, hrs]
  | R p c e n ih =>
    intro th hl hno anc st hptr hdir hsp htake hnd hdisj hth
    obtain ⟨stack, sp, dir, res, ptr⟩ := st
    simp only at hptr hdir hsp htake
    subst hptr hdir hsp
    simp only [Trie.Laid] at hl
    simp only [Trie.addrs] at hno hdisj
    obtain ⟨hp2, hp1⟩ := pushStack_spec stack anc (p : Int) anc.length rfl htake
    obtain ⟨hnd1, hdisj1, _, _⟩ := stat_child_ctx anc p n.addrs hnd hdisj hno
    obtain ⟨st', h1, h2, h3, h4, h5, h6⟩ := ih th hl.2 (List.nodup_cons.mp hno).2
      (anc ++ [(p : Int)])
      ⟨(pushStack stack (p : Int) anc.length).1, (pushStack stack (p : Int) anc.length).2, left,
        { res with IndexKeyNodeCount := res.IndexKeyNodeCount + 1 }, (n.addr : Int)⟩
      rfl rfl (by simp [hp2]) (by simpa using hp1) hnd1 hdisj1
      (hth.imp id (fun h => List.mem_append_left _ h))
    refine ⟨st', h1, h2, ?_, ?_, ?_, ?_⟩
    · rw [h3]; simp [Trie.types, bump]
    · exact take_of_take_succ _ _ _ (by simpa using h4)
    · intro hne
      rw [h5 hne, stat_index_left _ _ _ (hth.resolve_left hne)]
    · intro fuel r hr
      refine runLoop_step _ _ _ r (fuel + 2 * n.size) _ ?_ (h6 fuel r hr)
        (by simp [Trie.size])
      simp [statsBody, natCast_ne_null, hl.1]
  | X p c n ih =>
    intro th hl hno anc st hptr hdir hsp htake hnd hdisj hth
    obtain ⟨stack, sp, dir, res, ptr⟩ := st
    simp only at hptr hdir hsp htake
    subst hptr hdir hsp
    simp only [Trie.Laid] at hl
    simp only [Trie.addrs] at hno hdisj
    obtain ⟨hp2, hp1⟩ := pushStack_spec stack anc (p : Int) anc.length rfl htake
    obtain ⟨hnd1, hdisj1, _, _⟩ := stat_child_ctx anc p n.addrs hnd hdisj hno
    obtain ⟨st', h1, h2, h3, h4, h5, h6⟩ := ih th hl.2 (List.nodup_cons.mp hno).2
      (anc ++ [(p : Int)])
      ⟨(pushStack stack (p : Int) anc.length).1, (pushStack stack (p : Int) anc.length).2, left,
        { res with CharacterNodeCount := res.CharacterNodeCount + 1 }, (n.addr : Int)⟩
      rfl rfl (by simp [hp2]) (by simpa using hp1) hnd1 hdisj1
      (hth.imp id (fun h => List.mem_append_left _ h))
    refine ⟨st', h1, h2, ?_, ?_, ?_, ?_⟩
    · rw [h3]; simp [Trie.types, bump]
    · exact take_of_take_succ _ _ _ (by simpa using h4)
    · intro hne
      rw [h5 hne, stat_index_left _ _ _ (hth.resolve_left hne)]
    · intro fuel r hr
      refine runLoop_step _ _ _ r (fuel + 2 * n.size) _ ?_ (h6 fuel r hr)
        (by simp [Trie.size])
      simp [statsBody, natCast_ne_null, hl.1]
  | D p c l r ihl ihr =>
    intro th hl hno anc st hptr hdir hsp htake hnd hdisj hth
    obtain ⟨stack, sp, dir, res, ptr⟩ := st
    simp only at hptr hdir hsp htake
    subst hptr hdir hsp
    simp only [Trie.Laid] at hl
    simp only [Trie.addrs] at hno hdisj
    obtain ⟨hp2, hp1⟩ := pushStack_spec stack anc (p : Int) anc.length rfl htake
    obtain ⟨hnd1, hdisj1, hmem1, hidx1⟩ :=
      stat_child_ctx anc p (l.addrs ++ r.addrs) hnd hdisj hno
    have hno2 := (List.nodup_cons.mp hno).2
    obtain ⟨st2, h1, h2, h3, h4, h5, h6⟩ := ihl (p : Int) hl.2.1 (List.nodup_append.mp hno2).1
      (anc ++ [(p : Int)])
      ⟨(pushStack stack (p : Int) anc.length).1, (pushStack stack (p : Int) anc.length).2, left,
        { res with DecisionNodeCount := res.DecisionNodeCount + 1 }, (l.addr : Int)⟩
      rfl rfl (by simp [hp2]) (by simpa using hp1) hnd1
      (fun a ha => hdisj1 a (List.mem_append_left _ ha)) (Or.inr hmem1)
    obtain ⟨stack2, sp2, dir2, res2, ptr2⟩ := st2
    simp only at h1 h2 h3 h4 h5
    subst h1 h2
    have hsp2 : sp2 = (anc ++ [(p : Int)]).length := by
      rw [h5 (natCast_ne_null p), hidx1]; simp
    obtain ⟨st', k1, k2, k3, k4, k5, k6⟩ := ihr th hl.2.2 (List.nodup_append.mp hno2).2.1
      (anc ++ [(p : Int)]) ⟨stack2, sp2, left, res2, (r.addr : Int)⟩
      rfl rfl hsp2 h4 hnd1
      (fun a ha => hdisj1 a (List.mem_append_right _ ha))
      (hth.imp id (fun h => List.mem_append_left _ h))
    refine ⟨st', k1, k2, ?_, ?_, ?_, ?_⟩
    · rw [k3]
      simp only at h3 ⊢
      rw [h3]; simp [Trie.types, bump, List.foldl_append]
    · exact take_of_take_succ _ _ _ (by simpa using k4)
    · intro hne
      rw [k5 hne, stat_index_left _ _ _ (hth.resolve_left hne)]
    · intro fuel r0 hr
      have s3 := k6 fuel r0 hr
      have s2 : runLoop (statsBody ix) (fuel + 2 * r.size + 1)
          ⟨stack2, sp2, right, res2, (p : Int)⟩ = some r0 := by
        refine runLoop_step _ _ _ r0 (fuel + 2 * r.size) _ ?_ s3 (by omega)
        simp [statsBody, natCast_ne_null, hl.1]
      have s1 := h6 _ r0 s2
      refine runLoop_step _ _ _ r0 _ _ ?_ s1 (by simp [Trie.size]; omega)
      simp [statsBody, natCast_ne_null, hl.1]
  | L p c sub ih =>
    intro th hl hno anc st hptr hdir hsp htake hnd hdisj hth
    obtain ⟨stack, sp, dir, res, ptr⟩ := st
    simp only at hptr hdir hsp htake
    subst hptr hdir hsp
    simp only [Trie.Laid] at hl
    simp only [Trie.addrs] at hno hdisj
    obtain ⟨hp2, hp1⟩ := pushStack_spec stack anc (p : Int) anc.length rfl htake
    obtain ⟨hnd1, hdisj1, hmem1, hidx1⟩ := stat_child_ctx anc p sub.addrs hnd hdisj hno
    obtain ⟨st2, h1, h2, h3, h4, h5, h6⟩ := ih (p : Int) hl.2 (List.nodup_cons.mp hno).2
      (anc ++ [(p : Int)])
      ⟨(pushStack stack (p : Int) anc.length).1, (pushStack stack (p : Int) anc.length).2, left,
        { res with DuplicateTerminalNodeCount := res.DuplicateTerminalNodeCount + 1 },
        (sub.addr : Int)⟩
      rfl rfl (by simp [hp2]) (by simpa using hp1) hnd1 hdisj1 (Or.inr hmem1)
    obtain ⟨stack2, sp2, dir2, res2, ptr2⟩ := st2
    simp only at h1 h2 h3 h4 h5
    subst h1 h2
    have htk2 : stack2.take anc.length = anc := take_of_take_succ _ _ _ (by simpa using h4)
    obtain ⟨sp', hrs, hsp'⟩ := resetStack_spec stack2 anc th anc.length sp2 htk2 hth
    refine ⟨⟨stack2, sp', right, res2, th⟩, rfl, rfl, ?_, htk2, hsp', ?_⟩
    · simp only
      rw [h3]; simp [Trie.types, bump]
    · intro fuel r0 hr
      have s2 : runLoop (statsBody ix) (fuel + 1) ⟨stack2, sp2, right, res2, (p : Int)⟩ =
          some r0 := by
        refine runLoop_step _ _ _ r0 fuel _ ?_ hr (by omega)
        simp [statsBody, natCast_ne_null, hl.1, hrs]
      have s1 := h6 _ r0 s2
      refine runLoop_step _ _ _ r0 _ _ ?_ s1 (by simp [Trie.size]; omega)
      simp [statsBody, natCast_ne_null, hl.1]
  | K p c sub n ihs ihn =>
    intro th hl hno anc st hptr hdir hsp htake hnd hdisj hth
    obtain ⟨stack, sp, dir, res, ptr⟩ := st
    simp only at hptr hdir hsp htake
    subst hptr hdir hsp
    simp only [Trie.Laid] at hl
    simp only [Trie.addrs] at hno hdisj
    obtain ⟨hp2, hp1⟩ := pushStack_spec stack anc (p : Int) anc.length rfl htake
    obtain ⟨hnd1, hdisj1, hmem1, hidx1⟩ :=
      stat_child_ctx anc p (sub.addrs ++ n.addrs) hnd hdisj hno
    have hno2 := (List.nodup_cons.mp hno).2
    obtain ⟨st2, h1, h2, h3, h4, h5, h6⟩ := ihs (p : Int) hl.2.1 (List.nodup_append.mp hno2).1
      (anc ++ [(p : Int)])
      ⟨(pushStack stack (p : Int) anc.length).1, (pushStack stack (p : Int) anc.length).2, left,
        { res with DuplicateKeyNodeCount := res.DuplicateKeyNodeCount + 1 }, (sub.addr : Int)⟩
      rfl rfl (by simp [hp2]) (by simpa using hp1) hnd1
      (fun a ha => hdisj1 a (List.mem_append_left _ ha)) (Or.inr hmem1)
    obtain ⟨stack2, sp2, dir2, res2, ptr2⟩ := st2
    simp only at h1 h2 h3 h4 h5
    subst h1 h2
    have hsp2 : sp2 = (anc ++ [(p : Int)]).length := by
      rw [h5 (natCast_ne_null p), hidx1]; simp
    obtain ⟨st', k1, k2, k3, k4, k5, k6⟩ := ihn th hl.2.2 (List.nodup_append.mp hno2).2.1
      (anc ++ [(p : Int)]) ⟨stack2, sp2, left, res2, (n.addr : Int)⟩
      rfl rfl hsp2 h4 hnd1
      (fun a ha => hdisj1 a (List.mem_append_right _ ha))
      (hth.imp id (fun h => List.mem_append_left _ h))
    refine ⟨st', k1, k2, ?_, ?_, ?_, ?_⟩
    · rw [k3]
      simp only at h3 ⊢
      rw [h3]; simp [Trie.types, bump, List.foldl_append]
    · exact take_of_take_succ _ _ _ (by simpa using k4)
    · intro hne
      rw [k5 hne, stat_index_left _ _ _ (hth.resolve_left hne)]
    · intro fuel r0 hr
      have s3 := k6 fuel r0 hr
      have s2 : runLoop (statsBody ix) (fuel + 2 * n.size + 1)
          ⟨stack2, sp2, right, res2, (p : Int)⟩ = some r0 := by
        refine runLoop_step _ _ _ r0 (fuel + 2 * n.size) _ ?_ s3 (by omega)
        simp [statsBody, natCast_ne_null, hl.1]
      have s1 := h6 _ r0 s2
      refine runLoop_step _ _ _ r0 _ _ ?_ s1 (by simp [Trie.size]; omega)
      simp [statsBody, natCast_ne_null, hl.1]

/-! ## The counts of `Statistics` -/

theorem bump_fold : ∀ (l : List Nat) (r : Statistic),
    (l.foldl bump r).Active = r.Active ∧ (l.foldl bump r).Deleted = r.Deleted ∧
    (l.foldl bump r).Depth = r.Depth ∧
    (l.foldl bump r).DecisionNodeCount = r.DecisionNodeCount + (l.count decisionNode : Int) ∧
    (l.foldl bump r).CharacterNodeCount = r.CharacterNodeCount + (l.count characterNode : Int) ∧
    (l.foldl bump r).IndexKeyNodeCount = r.IndexKeyNodeCount + (l.count indexKeyNode : Int) ∧
    (l.foldl bump r).IndexTerminalNodeCount =
      r.IndexTerminalNodeCount + (l.count indexTerminalNode : Int) ∧
    (l.foldl bump r).DuplicateKeyNodeCount =
      r.DuplicateKeyNodeCount + (l.count duplicateKeyNode : Int) ∧
    (l.foldl bump r).DuplicateTerminalNodeCount =
      r.DuplicateTerminalNodeCount + (l.count duplicateTerminalNode : Int) := by
  intro l
  induction l with
  | nil => intro r; simp
  | cons a l ih =>
    intro r
    obtain ⟨h1, h2, h3, h4, h5, h6, h7, h8, h9⟩ := ih (bump r a)
    simp only [List.foldl_cons, h1, h2, h3, h4, h5, h6, h7, h8, h9, List.count_cons]
    by_cases c1 : a = characterNode
    · subst c1; simp [bump]; omega
    by_cases c2 : a = indexKeyNode
    · subst c2; simp [bump]; omega
    by_cases c3 : a = decisionNode
    · subst c3; simp [bump]; omega
    by_cases c4 : a = duplicateKeyNode
    · subst c4; simp [bump]; omega
    by_cases c5 : a = indexTerminalNode
    · subst c5; simp [bump]; omega
    by_cases c6 : a = duplicateTerminalNode
    · subst c6; simp [bump]; omega
    simp [bump, c1, c2, c3, c4, c5, c6]

/-- Every node of a tree has one of the six tags. -/
theorem Trie.types_total (t : Trie) :
    t.types.count indexKeyNode + t.types.count indexTerminalNode +
      t.types.count characterNode + t.types.count duplicateKeyNode +
      t.types.count duplicateTerminalNode + t.types.count decisionNode = t.size := by
  induction t with
  | S p c e => simp [Trie.types, Trie.size]
  | R p c e n ih => simp [Trie.types, Trie.size, List.count_cons]; omega
  | X p c n ih => simp [Trie.types, Trie.size, List.count_cons]; omega
  | D p c l r ihl ihr => simp [Trie.types, Trie.size, List.count_cons, List.count_append]; omega
  | L p c sub ih => simp [Trie.types, Trie.size, List.count_cons]; omega
  | K p c sub n ihs ihn =>
    simp [Trie.types, Trie.size, List.count_cons, List.count_append]; omega

/-- The elements of a tree are its nodes with the tags `R` and `S`. -/
theorem Trie.types_elems (t : Trie) :
    t.types.count indexKeyNode + t.types.count indexTerminalNode = t.elems.length := by
  induction t with
  | S p c e => simp [Trie.types, Trie.elems]
  | R p c e n ih => simp [Trie.types, Trie.elems, List.count_cons]; omega
  | X p c n ih => simp [Trie.types, Trie.elems, List.count_cons]; omega
  | D p c l r ihl ihr => simp [Trie.types, Trie.elems, List.count_cons, List.count_append]; omega
  | L p c sub ih => simp [Trie.types, Trie.elems, List.count_cons]; omega
  | K p c sub n ihs ihn =>
    simp [Trie.types, Trie.elems, List.count_cons, List.count_append]; omega

/-- The loop of `Statistics` over the free list counts its slots. -/
theorem deleted_walk (ix : Index) : ∀ (fl : List Nat) (head : Int) (c : Int) (fuel : Nat),
    FreeList ix.node head fl → fl.length + 1 ≤ fuel →
    runLoop (deletedBody ix) fuel (head, c) = some (c + (fl.length : Int)) := by
  intro fl
  induction fl with
  | nil =>
    intro head c fuel h hf
    simp only [FreeList] at h
    obtain ⟨m, rfl⟩ : ∃ m, fuel = m + 1 := ⟨fuel - 1, by simp at hf; omega⟩
    rw [runLoop_exit _ m (head, c) c (by simp [deletedBody, h])]
    simp
  | cons a fl ih =>
    intro head c fuel h hf
    simp only [FreeList] at h
    obtain ⟨ha, nd, hnd, hrest⟩ := h
    obtain ⟨m, rfl⟩ : ∃ m, fuel = m + 1 := ⟨fuel - 1, by simp at hf; omega⟩
    rw [runLoop_next _ m (head, c) (nd.rightPointer, c + 1)
      (by simp [deletedBody, ha, natCast_ne_null, hnd])]
    rw [ih nd.rightPointer (c + 1) m hrest (by simp at hf; omega)]
    simp only [List.length_cons, Nat.cast_add, Nat.cast_one]
    congr 1
    omega

theorem typesOf_length (oT : Option Trie) : (typesOf oT).length = (addrsOf oT).length := by
  cases oT with
  | none => rfl
  | some T => simp [typesOf, addrsOf, Trie.types_length, Trie.size_eq_length]

theorem typesOf_total (oT : Option Trie) :
    (typesOf oT).count indexKeyNode + (typesOf oT).count indexTerminalNode +
      (typesOf oT).count characterNode + (typesOf oT).count duplicateKeyNode +
      (typesOf oT).count duplicateTerminalNode + (typesOf oT).count decisionNode =
      (addrsOf oT).length := by
  cases oT with
  | none => rfl
  | some T => simp only [typesOf, addrsOf, Trie.types_total, Trie.size_eq_length]

theorem typesOf_elems (oT : Option Trie) :
    (typesOf oT).count indexKeyNode + (typesOf oT).count indexTerminalNode =
      (entsOf oT).length := by
  cases oT with
  | none => rfl
  | some T => simp only [typesOf, entsOf, Trie.types_elems, Trie.elems_eq_ents, List.length_map]

/-- The scanning loop of `Statistics` on an index that holds a tree, or none. -/
theorem stats_scan (s : Index) (fl : List Nat) (oT : Option Trie) (h : Inv s fl oT) :
    ∃ st, st.result = (typesOf oT).foldl bump ⟨0, 0, 0, 0, 0, 0, 0, 0, 0⟩ ∧
      ∀ fuel, 2 * (addrsOf oT).length + 1 ≤ fuel →
        runLoop (statsBody s) fuel ⟨[], 0, left, ⟨0, 0, 0, 0, 0, 0, 0, 0, 0⟩,
          s.indexRootPointer⟩ = some st := by
  cases oT with
  | none =>
    obtain ⟨hroot, _, _⟩ := h
    refine ⟨⟨[], 0, left, ⟨0, 0, 0, 0, 0, 0, 0, 0, 0⟩, s.indexRootPointer⟩, rfl, ?_⟩
    intro fuel hf
    obtain ⟨m, rfl⟩ : ∃ m, fuel = m + 1 := ⟨fuel - 1, by omega⟩
    exact runLoop_exit _ m _ _ (by simp [statsBody, hroot])
  | some T =>
    obtain ⟨hf, _⟩ := h
    have hroot : s.indexRootPointer = (T.addr : Int) := by
      simpa [Path.rootAddr] using hf.root
    obtain ⟨st', h1, _, h3, _, _, h6⟩ := stats_tree s T (-1)
      (by simpa [Path.thread] using hf.tree) hf.tree_nodup []
      ⟨[], 0, left, ⟨0, 0, 0, 0, 0, 0, 0, 0, 0⟩, s.indexRootPointer⟩
      hroot rfl rfl rfl List.nodup_nil (by simp) (Or.inl rfl)
    refine ⟨st', h3, ?_⟩
    intro fuel hfu
    have hex : runLoop (statsBody s) 1 st' = some st' :=
      runLoop_exit _ 0 _ _ (by simp [statsBody, h1])
    have := h6 1 st' hex
    refine runLoop_mono _ _ _ _ this fuel ?_
    simp only [addrsOf, ← Trie.size_eq_length] at hfu
    omega

/-- The result of `Statistics` on an index that holds a tree, or none: the
counts of the tags, their sum and the length of the free list. -/
theorem stats_inv (s : Index) (fl : List Nat) (oT : Option Trie) (h : Inv s fl oT)
    (hfree : FreeList s.node s.deletedRootPointer fl) :
    ∃ N, ∀ fuel, N ≤ fuel → ∃ r, Statistics fuel s = some r ∧
      r.1.Active = ((addrsOf oT).length : Int) ∧ r.1.Deleted = (fl.length : Int) ∧
      r.1.IndexKeyNodeCount + r.1.IndexTerminalNodeCount = ((entsOf oT).length : Int) ∧
      r.1.DecisionNodeCount = ((typesOf oT).count decisionNode : Int) ∧
      r.1.CharacterNodeCount = ((typesOf oT).count characterNode : Int) ∧
      r.1.IndexKeyNodeCount = ((typesOf oT).count indexKeyNode : Int) ∧
      r.1.IndexTerminalNodeCount = ((typesOf oT).count indexTerminalNode : Int) ∧
      r.1.DuplicateKeyNodeCount = ((typesOf oT).count duplicateKeyNode : Int) ∧
      r.1.DuplicateTerminalNodeCount = ((typesOf oT).count duplicateTerminalNode : Int) ∧
      r.2 = marshalStatistic r.1 := by
  obtain ⟨st, hres, hrun⟩ := stats_scan s fl oT h
  obtain ⟨_, _, _, h4, h5, h6, h7, h8, h9⟩ :=
    bump_fold (typesOf oT) ⟨0, 0, 0, 0, 0, 0, 0, 0, 0⟩
  rw [← hres] at h4 h5 h6 h7 h8 h9
  simp only [zero_add] at h4 h5 h6 h7 h8 h9
  refine ⟨2 * (addrsOf oT).length + 1 + (fl.length + 1), fun fuel hfu => ?_⟩
  have hd := deleted_walk s fl s.deletedRootPointer (statsTotals st).Deleted fuel hfree
    (by omega)
  have h0 : (statsTotals st).Deleted = st.result.Deleted := rfl
  have hz : st.result.Deleted = 0 := by
    rw [hres]; exact (bump_fold (typesOf oT) ⟨0, 0, 0, 0, 0, 0, 0, 0, 0⟩).2.1
  refine ⟨({ statsTotals st with Deleted := (statsTotals st).Deleted + (fl.length : Int) },
    marshalStatistic
      { statsTotals st with Deleted := (statsTotals st).Deleted + (fl.length : Int) }),
    ?_, ?_, ?_, ?_, h4, h5, h6, h7, h8, h9, rfl⟩
  · simp only [Statistics, hrun fuel (by omega), hd]
  · have ht := typesOf_total oT
    simp only [statsTotals, h4, h5, h6, h7, h8, h9]
    rw [← ht]
    push_cast
    ring
  · simp only [h0, hz, zero_add]
  · have he := typesOf_elems oT
    simp only [statsTotals, h6, h7]
    rw [← he]
    push_cast
    ring

/-! ## The slots reachable from the root -/

/-- The links of the nodes of a tree stay in the tree. -/
theorem linked_closed (ns : List indexNode) : ∀ (t : Trie) (th : Int), Trie.Laid ns t th →
    ∀ p ∈ t.addrs, ∀ q : Int, Linked ns (p : Int) q → ∃ b ∈ t.addrs, q = (b : Int) := by
  intro t
  induction t with
  | S p c e =>
    intro th hl a ha q hq
    simp only [Trie.addrs, List.mem_singleton] at ha
    subst ha
    simp only [Trie.Laid] at hl
    cases hq with
    | onRight nd hn ht =>
      rw [getNode_natCast, hl] at hn
      cases hn
      simp at ht
    | onLeft nd hn ht =>
      rw [getNode_natCast, hl] at hn
      cases hn
      simp at ht
  | R p c e n ih =>
    intro th hl a ha q hq
    simp only [Trie.Laid] at hl
    simp only [Trie.addrs, List.mem_cons] at ha
    rcases ha with ha | ha
    · subst ha
      cases hq with
      | onRight nd hn ht =>
        rw [getNode_natCast, hl.1] at hn
        cases hn
        exact ⟨n.addr, by simp [Trie.addrs, Trie.addr_mem_addrs], rfl⟩
      | onLeft nd hn ht =>
        rw [getNode_natCast, hl.1] at hn
        cases hn
        simp at ht
    · obtain ⟨b, hb, rfl⟩ := ih th hl.2 a ha q hq
      exact ⟨b, by simp [Trie.addrs, hb], rfl⟩
  | X p c n ih =>
    intro th hl a ha q hq
    simp only [Trie.Laid] at hl
    simp only [Trie.addrs, List.mem_cons] at ha
    rcases ha with ha | ha
    · subst ha
      cases hq with
      | onRight nd hn ht =>
        rw [getNode_natCast, hl.1] at hn
        cases hn
        exact ⟨n.addr, by simp [Trie.addrs, Trie.addr_mem_addrs], rfl⟩
      | onLeft nd hn ht =>
        rw [getNode_natCast, hl.1] at hn
        cases hn
        simp at ht
    · obtain ⟨b, hb, rfl⟩ := ih th hl.2 a ha q hq
      exact ⟨b, by simp [Trie.addrs, hb], rfl⟩
  | D p c l r ihl ihr =>
    intro th hl a ha q hq
    simp only [Trie.Laid] at hl
    simp only [Trie.addrs, List.mem_cons, List.mem_append] at ha
    rcases ha with ha | ha | ha
    · subst ha
      cases hq with
      | onRight nd hn ht =>
        rw [getNode_natCast, hl.1] at hn
        cases hn
        exact ⟨r.addr, by simp [Trie.addrs, Trie.addr_mem_addrs], rfl⟩
      | onLeft nd hn ht =>
        rw [getNode_natCast, hl.1] at hn
        cases hn
        exact ⟨l.addr, by simp [Trie.addrs, Trie.addr_mem_addrs], rfl⟩
    · obtain ⟨b, hb, rfl⟩ := ihl _ hl.2.1 a ha q hq
      exact ⟨b, by simp [Trie.addrs, hb], rfl⟩
    · obtain ⟨b, hb, rfl⟩ := ihr th hl.2.2 a ha q hq
      exact ⟨b, by simp [Trie.addrs, hb], rfl⟩
  | L p c sub ih =>
    intro th hl a ha q hq
    simp only [Trie.Laid] at hl
    simp only [Trie.addrs, List.mem_cons] at ha
    rcases ha with ha | ha
    · subst ha
      cases hq with
      | onRight nd hn ht =>
        rw [getNode_natCast, hl.1] at hn
        cases hn
        simp at ht
      | onLeft nd hn ht =>
        rw [getNode_natCast, hl.1] at hn
        cases hn
        exact ⟨sub.addr, by simp [Trie.addrs, Trie.addr_mem_addrs], rfl⟩
    · obtain ⟨b, hb, rfl⟩ := ih _ hl.2 a ha q hq
      exact ⟨b, by simp [Trie.addrs, hb], rfl⟩
  | K p c sub n ihs ihn =>
    intro th hl a ha q hq
    simp only [Trie.Laid] at hl
    simp only [Trie.addrs, List.mem_cons, List.mem_append] at ha
    rcases ha with ha | ha | ha
    · subst ha
      cases hq with
      | onRight nd hn ht =>
        rw [getNode_natCast, hl.1] at hn
        cases hn
        exact ⟨n.addr, by simp [Trie.addrs, Trie.addr_mem_addrs], rfl⟩
      | onLeft nd hn ht =>
        rw [getNode_natCast, hl.1] at hn
        cases hn
        exact ⟨sub.addr, by simp [Trie.addrs, Trie.addr_mem_addrs], rfl⟩
    · obtain ⟨b, hb, rfl⟩ := ihs _ hl.2.1 a ha q hq
      exact ⟨b, by simp [Trie.addrs, hb], rfl⟩
    · obtain ⟨b, hb, rfl⟩ := ihn th hl.2.2 a ha q hq
      exact ⟨b, by simp [Trie.addrs, hb], rfl⟩

/-- Every node of a tree is reached from its root by links. -/
theorem linked_all (ns : List indexNode) : ∀ (t : Trie) (th : Int), Trie.Laid ns t th →
    ∀ b ∈ t.addrs, Relation.ReflTransGen (Linked ns) (t.addr : Int) (b : Int) := by
  intro t
  induction t with
  | S p c e =>
    intro th hl b hb
    simp only [Trie.addrs, List.mem_singleton] at hb
    subst hb
    exact Relation.ReflTransGen.refl
  | R p c e n ih =>
    intro th hl b hb
    simp only [Trie.Laid] at hl
    simp only [Trie.addrs, List.mem_cons] at hb
    rcases hb with hb | hb
    · subst hb; exact Relation.ReflTransGen.refl
    · exact Relation.ReflTransGen.head
        (Linked.onRight _ _ (by rw [getNode_natCast]; exact hl.1) (by simp)) (ih th hl.2 b hb)
  | X p c n ih =>
    intro th hl b hb
    simp only [Trie.Laid] at hl
    simp only [Trie.addrs, List.mem_cons] at hb
    rcases hb with hb | hb
    · subst hb; exact Relation.ReflTransGen.refl
    · exact Relation.ReflTransGen.head
        (Linked.onRight _ _ (by rw [getNode_natCast]; exact hl.1) (by simp)) (ih th hl.2 b hb)
  | D p c l r ihl ihr =>
    intro th hl b hb
    simp only [Trie.Laid] at hl
    simp only [Trie.addrs, List.mem_cons, List.mem_append] at hb
    rcases hb with hb | hb | hb
    · subst hb; exact Relation.ReflTransGen.refl
    · exact Relation.ReflTransGen.head
        (Linked.onLeft _ _ (by rw [getNode_natCast]; exact hl.1) (by simp)) (ihl _ hl.2.1 b hb)
    · exact Relation.ReflTransGen.head
        (Linked.onRight _ _ (by rw [getNode_natCast]; exact hl.1) (by simp))
        (ihr th hl.2.2 b hb)
  | L p c sub ih =>
    intro th hl b hb
    simp only [Trie.Laid] at hl
    simp only [Trie.addrs, List.mem_cons] at hb
    rcases hb with hb | hb
    · subst hb; exact Relation.ReflTransGen.refl
    · exact Relation.ReflTransGen.head
        (Linked.onLeft _ _ (by rw [getNode_natCast]; exact hl.1) (by simp)) (ih _ hl.2 b hb)
  | K p c sub n ihs ihn =>
    intro th hl b hb
    simp only [Trie.Laid] at hl
    simp only [Trie.addrs, List.mem_cons, List.mem_append] at hb
    rcases hb with hb | hb | hb
    · subst hb; exact Relation.ReflTransGen.refl
    · exact Relation.ReflTransGen.head
        (Linked.onLeft _ _ (by rw [getNode_natCast]; exact hl.1) (by simp)) (ihs _ hl.2.1 b hb)
    · exact Relation.ReflTransGen.head
        (Linked.onRight _ _ (by rw [getNode_natCast]; exact hl.1) (by simp))
        (ihn th hl.2.2 b hb)

/-- The slots reachable from the root of an index are the slots of its tree. -/
theorem reachable_inv (s : Index) (fl : List Nat) (oT : Option Trie) (h : Inv s fl oT)
    (a : Int) : Reachable s a ↔ ∃ n ∈ addrsOf oT, a = (n : Int) := by
  cases oT with
  | none =>
    obtain ⟨hroot, _, _⟩ := h
    simp [Reachable, hroot, addrsOf]
  | some T =>
    obtain ⟨hf, _⟩ := h
    have hroot : s.indexRootPointer = (T.addr : Int) := by
      simpa [Path.rootAddr] using hf.root
    have hl : Trie.Laid s.node T (-1) := by simpa [Path.thread] using hf.tree
    simp only [Reachable, hroot, addrsOf]
    constructor
    · rintro ⟨_, hr⟩
      induction hr with
      | refl => exact ⟨T.addr, Trie.addr_mem_addrs T, rfl⟩
      | tail _ hq ih =>
        obtain ⟨b, hb, rfl⟩ := ih
        exact linked_closed s.node T (-1) hl b hb _ hq
    · rintro ⟨n, hn, rfl⟩
      exact ⟨natCast_ne_null _, linked_all s.node T (-1) hl n hn⟩

/-- The slots of the tree and of the free list share no slot and are all the
slots of the arena. -/
theorem Inv.partition {s : Index} {fl : List Nat} {oT : Option Trie} (h : Inv s fl oT) :
    (addrsOf oT ++ fl).Perm (List.range s.node.length) := by
  cases oT with
  | none => exact h.2.2
  | some T => simpa [addrsOf, Path.addrs] using h.1.perm

/-! ## The order at the decision nodes -/

theorem Trie.ents_nonempty (t : Trie) : t.ents ≠ [] := by
  intro h
  have := t.ents_length
  rw [h] at this
  simp at this

/-- A well-formed tree is ordered at its decision nodes. -/
theorem Trie.WF.decisionOrdered : ∀ (t : Trie) (mode : Option (List Nat)) (lo hi : Int),
    Trie.WF mode lo hi t → t.DecisionOrdered := by
  intro t
  induction t with
  | S p c e => intro mode lo hi _; trivial
  | R p c e n ih =>
    intro mode lo hi hw
    simp only [Trie.WF] at hw
    exact ih _ _ _ hw.2.2.2
  | X p c n ih =>
    intro mode lo hi hw
    simp only [Trie.WF] at hw
    exact ih _ _ _ hw.2.2
  | D p c l r ihl ihr =>
    intro mode lo hi hw
    simp only [Trie.WF] at hw
    obtain ⟨_, _, hl, hr⟩ := hw
    refine ⟨?_, ?_, l.ents_nonempty, r.ents_nonempty, ihl _ _ _ hl, ihr _ _ _ hr⟩
    · intro x hx
      obtain ⟨k, rest, h1, _, h3⟩ := Trie.WF.ents_first l _ _ _ hl x hx
      exact ⟨k, rest, h1, by exact_mod_cast h3⟩
    · intro x hx
      obtain ⟨k, rest, h1, h2, _⟩ := Trie.WF.ents_first r _ _ _ hr x hx
      exact ⟨k, rest, h1, by exact_mod_cast h2⟩
  | L p c sub ih =>
    intro mode lo hi hw
    simp only [Trie.WF] at hw
    exact ih _ _ _ hw.2.2.2.1
  | K p c sub n ihs ihn =>
    intro mode lo hi hw
    simp only [Trie.WF] at hw
    exact ⟨ihs _ _ _ hw.2.2.2.1, ihn _ _ _ hw.2.2.2.2.2⟩

theorem Inv.decision_inv {s : Index} {fl : List Nat} {oT : Option Trie} (h : Inv s fl oT) :
    DecisionOrderedOf oT := by
  cases oT with
  | none => trivial
  | some T => exact Trie.WF.decisionOrdered T _ _ _ h.2

/-! ## The threads of the terminals -/

/-- The arena holds the threads of the tree. -/
theorem Trie.Laid.threads_laid {ns : List indexNode} : ∀ (t : Trie) (th : Int), Trie.Laid ns t th →
    ∀ x ∈ t.threads th, ∃ nd, ns[x.1]? = some nd ∧
      (nd.indexType = indexTerminalNode ∨ nd.indexType = duplicateTerminalNode) ∧
      nd.rightPointer = x.2 := by
  intro t
  induction t with
  | S p c e =>
    intro th hl x hx
    simp only [Trie.threads, List.mem_singleton] at hx
    subst hx
    exact ⟨_, hl, Or.inl rfl, rfl⟩
  | R p c e n ih =>
    intro th hl x hx
    exact ih th hl.2 x hx
  | X p c n ih =>
    intro th hl x hx
    exact ih th hl.2 x hx
  | D p c l r ihl ihr =>
    intro th hl x hx
    simp only [Trie.threads, List.mem_append] at hx
    rcases hx with hx | hx
    · exact ihl _ hl.2.1 x hx
    · exact ihr th hl.2.2 x hx
  | L p c sub ih =>
    intro th hl x hx
    simp only [Trie.threads, List.mem_cons] at hx
    rcases hx with hx | hx
    · subst hx
      exact ⟨_, hl.1, Or.inr rfl, rfl⟩
    · exact ih _ hl.2 x hx
  | K p c sub n ihs ihn =>
    intro th hl x hx
    simp only [Trie.threads, List.mem_append] at hx
    rcases hx with hx | hx
    · exact ihs _ hl.2.1 x hx
    · exact ihn th hl.2.2 x hx

/-- Every terminal of the tree is listed with its thread. -/
theorem Trie.Laid.threads_all {ns : List indexNode} : ∀ (t : Trie) (th : Int),
    Trie.Laid ns t th → ∀ a ∈ t.addrs, ∀ nd, ns[a]? = some nd →
      (nd.indexType = indexTerminalNode ∨ nd.indexType = duplicateTerminalNode) →
      (a, nd.rightPointer) ∈ t.threads th := by
  intro t
  induction t with
  | S p c e =>
    intro th hl a ha nd hn _
    simp only [Trie.addrs, List.mem_singleton] at ha
    subst ha
    simp only [Trie.Laid] at hl
    rw [hl] at hn
    cases hn
    simp [Trie.threads]
  | R p c e n ih =>
    intro th hl a ha nd hn ht
    simp only [Trie.Laid] at hl
    simp only [Trie.addrs, List.mem_cons] at ha
    rcases ha with ha | ha
    · subst ha
      rw [hl.1] at hn
      cases hn
      simp at ht
    · exact ih th hl.2 a ha nd hn ht
  | X p c n ih =>
    intro th hl a ha nd hn ht
    simp only [Trie.Laid] at hl
    simp only [Trie.addrs, List.mem_cons] at ha
    rcases ha with ha | ha
    · subst ha
      rw [hl.1] at hn
      cases hn
      simp at ht
    · exact ih th hl.2 a ha nd hn ht
  | D p c l r ihl ihr =>
    intro th hl a ha nd hn ht
    simp only [Trie.Laid] at hl
    simp only [Trie.addrs, List.mem_cons, List.mem_append] at ha
    simp only [Trie.threads, List.mem_append]
    rcases ha with ha | ha | ha
    · subst ha
      rw [hl.1] at hn
      cases hn
      simp at ht
    · exact Or.inl (ihl _ hl.2.1 a ha nd hn ht)
    · exact Or.inr (ihr th hl.2.2 a ha nd hn ht)
  | L p c sub ih =>
    intro th hl a ha nd hn ht
    simp only [Trie.Laid] at hl
    simp only [Trie.addrs, List.mem_cons] at ha
    simp only [Trie.threads, List.mem_cons]
    rcases ha with ha | ha
    · subst ha
      rw [hl.1] at hn
      cases hn
      exact Or.inl rfl
    · exact Or.inr (ih _ hl.2 a ha nd hn ht)
  | K p c sub n ihs ihn =>
    intro th hl a ha nd hn ht
    simp only [Trie.Laid] at hl
    simp only [Trie.addrs, List.mem_cons, List.mem_append] at ha
    simp only [Trie.threads, List.mem_append]
    rcases ha with ha | ha | ha
    · subst ha
      rw [hl.1] at hn
      cases hn
      simp at ht
    · exact Or.inl (ihs _ hl.2.1 a ha nd hn ht)
    · exact Or.inr (ihn th hl.2.2 a ha nd hn ht)

/-- The terminals listed are nodes of the tree, and a thread is the thread of
the tree or a slot of the tree. -/
theorem Trie.threads_mem : ∀ (t : Trie) (th : Int), ∀ x ∈ t.threads th,
    x.1 ∈ t.addrs ∧ (x.2 = th ∨ ∃ n ∈ t.addrs, x.2 = (n : Int)) := by
  intro t
  induction t with
  | S p c e =>
    intro th x hx
    simp only [Trie.threads, List.mem_singleton] at hx
    subst hx
    exact ⟨by simp [Trie.addrs], Or.inl rfl⟩
  | R p c e n ih =>
    intro th x hx
    obtain ⟨h1, h2⟩ := ih th x hx
    refine ⟨by simp [Trie.addrs, h1], h2.imp id ?_⟩
    rintro ⟨m, hm, h⟩
    exact ⟨m, by simp [Trie.addrs, hm], h⟩
  | X p c n ih =>
    intro th x hx
    obtain ⟨h1, h2⟩ := ih th x hx
    refine ⟨by simp [Trie.addrs, h1], h2.imp id ?_⟩
    rintro ⟨m, hm, h⟩
    exact ⟨m, by simp [Trie.addrs, hm], h⟩
  | D p c l r ihl ihr =>
    intro th x hx
    simp only [Trie.threads, List.mem_append] at hx
    rcases hx with hx | hx
    · obtain ⟨h1, h2⟩ := ihl _ x hx
      refine ⟨by simp [Trie.addrs, h1], Or.inr ?_⟩
      rcases h2 with h2 | ⟨m, hm, h⟩
      · exact ⟨p, by simp [Trie.addrs], h2⟩
      · exact ⟨m, by simp [Trie.addrs, hm], h⟩
    · obtain ⟨h1, h2⟩ := ihr th x hx
      refine ⟨by simp [Trie.addrs, h1], h2.imp id ?_⟩
      rintro ⟨m, hm, h⟩
      exact ⟨m, by simp [Trie.addrs, hm], h⟩
  | L p c sub ih =>
    intro th x hx
    simp only [Trie.threads, List.mem_cons] at hx
    rcases hx with hx | hx
    · subst hx
      exact ⟨by simp [Trie.addrs], Or.inl rfl⟩
    · obtain ⟨h1, h2⟩ := ih _ x hx
      refine ⟨by simp [Trie.addrs, h1], Or.inr ?_⟩
      rcases h2 with h2 | ⟨m, hm, h⟩
      · exact ⟨p, by simp [Trie.addrs], h2⟩
      · exact ⟨m, by simp [Trie.addrs, hm], h⟩
  | K p c sub n ihs ihn =>
    intro th x hx
    simp only [Trie.threads, List.mem_append] at hx
    rcases hx with hx | hx
    · obtain ⟨h1, h2⟩ := ihs _ x hx
      refine ⟨by simp [Trie.addrs, h1], Or.inr ?_⟩
      rcases h2 with h2 | ⟨m, hm, h⟩
      · exact ⟨p, by simp [Trie.addrs], h2⟩
      · exact ⟨m, by simp [Trie.addrs, hm], h⟩
    · obtain ⟨h1, h2⟩ := ihn th x hx
      refine ⟨by simp [Trie.addrs, h1], h2.imp id ?_⟩
      rintro ⟨m, hm, h⟩
      exact ⟨m, by simp [Trie.addrs, hm], h⟩

/-- Among the terminals of a tree only the last one carries the thread of the tree. -/
theorem Trie.threads_last : ∀ (t : Trie) (th : Int), (∀ n : Nat, th ≠ (n : Int)) →
    t.addrs.Nodup → ∀ x ∈ t.threads th, (x.2 = th ↔ x.1 = t.lastTerm) := by
  intro t
  induction t with
  | S p c e =>
    intro th _ _ x hx
    simp only [Trie.threads, List.mem_singleton] at hx
    subst hx
    simp [Trie.lastTerm]
  | R p c e n ih =>
    intro th hth hno x hx
    simp only [Trie.addrs] at hno
    exact ih th hth (List.nodup_cons.mp hno).2 x hx
  | X p c n ih =>
    intro th hth hno x hx
    simp only [Trie.addrs] at hno
    exact ih th hth (List.nodup_cons.mp hno).2 x hx
  | D p c l r ihl ihr =>
    intro th hth hno x hx
    simp only [Trie.addrs] at hno
    have hno2 := (List.nodup_cons.mp hno).2
    simp only [Trie.threads, List.mem_append] at hx
    simp only [Trie.lastTerm]
    rcases hx with hx | hx
    · obtain ⟨h1, h2⟩ := Trie.threads_mem l _ x hx
      have hne : x.2 ≠ th := by
        rcases h2 with h2 | ⟨m, _, h2⟩
        · rw [h2]; exact (hth p).symm
        · rw [h2]; exact (hth m).symm
      have hne2 : x.1 ≠ r.lastTerm := by
        intro hc
        exact (List.nodup_append.mp hno2).2.2 h1 (hc ▸ r.lastTerm_mem)
      exact ⟨fun h => absurd h hne, fun h => absurd h hne2⟩
    · exact ihr th hth (List.nodup_append.mp hno2).2.1 x hx
  | L p c sub ih =>
    intro th hth hno x hx
    simp only [Trie.addrs] at hno
    simp only [Trie.threads, List.mem_cons] at hx
    simp only [Trie.lastTerm]
    rcases hx with hx | hx
    · subst hx; simp
    · obtain ⟨h1, h2⟩ := Trie.threads_mem sub _ x hx
      have hne : x.2 ≠ th := by
        rcases h2 with h2 | ⟨m, _, h2⟩
        · rw [h2]; exact (hth p).symm
        · rw [h2]; exact (hth m).symm
      have hne2 : x.1 ≠ p := by
        intro hc
        exact (List.nodup_cons.mp hno).1 (hc ▸ h1)
      exact ⟨fun h => absurd h hne, fun h => absurd h hne2⟩
  | K p c sub n ihs ihn =>
    intro th hth hno x hx
    simp only [Trie.addrs] at hno
    have hno2 := (List.nodup_cons.mp hno).2
    simp only [Trie.threads, List.mem_append] at hx
    simp only [Trie.lastTerm]
    rcases hx with hx | hx
    · obtain ⟨h1, h2⟩ := Trie.threads_mem sub _ x hx
      have hne : x.2 ≠ th := by
        rcases h2 with h2 | ⟨m, _, h2⟩
        · rw [h2]; exact (hth p).symm
        · rw [h2]; exact (hth m).symm
      have hne2 : x.1 ≠ n.lastTerm := by
        intro hc
        exact (List.nodup_append.mp hno2).2.2 h1 (hc ▸ n.lastTerm_mem)
      exact ⟨fun h => absurd h hne, fun h => absurd h hne2⟩
    · exact ihn th hth (List.nodup_append.mp hno2).2.1 x hx

/-! ## The duplicates branches -/

theorem Trie.WF.plain_sub : ∀ (t : Trie) (w : List Nat) (lo hi : Int),
    Trie.WF (some w) lo hi t → t.plain := by
  intro t
  induction t with
  | S p c e => intro w lo hi _; trivial
  | R p c e n ih =>
    intro w lo hi hw
    simp only [Trie.WF, Option.map_some'] at hw
    exact ih _ _ _ hw.2.2.2
  | X p c n ih =>
    intro w lo hi hw
    simp only [Trie.WF, Option.map_some'] at hw
    exact ih _ _ _ hw.2.2
  | D p c l r ihl ihr =>
    intro w lo hi hw
    simp only [Trie.WF] at hw
    exact ⟨ihl _ _ _ hw.2.2.1, ihr _ _ _ hw.2.2.2⟩
  | L p c sub ih =>
    intro w lo hi hw
    simp only [Trie.WF] at hw
    cases hw.1
  | K p c sub n ihs ihn =>
    intro w lo hi hw
    simp only [Trie.WF] at hw
    cases hw.1

theorem Trie.WF.branch {sub : Trie} {lo hi : Int} (hw : Trie.WF (some []) lo hi sub)
    (h2 : 2 ≤ sub.elems.length) : sub.Branch := by
  have hents : sub.ents = sub.elems.map (fun e => (itoa e, e)) := by
    rw [Trie.elems_eq_ents, List.map_map]
    conv_lhs => rw [← List.map_id sub.ents]
    refine List.map_congr_left ?_
    intro x hx
    have := Trie.WF.ents_itoa sub [] lo hi hw x hx
    simp only [List.nil_append] at this
    simp [Function.comp, ← this]
  refine ⟨Trie.WF.plain_sub sub _ _ _ hw, h2, ?_, hents⟩
  have hnd := Trie.WF.ents_nodup hw
  rw [hents] at hnd
  exact List.Nodup.of_map _ hnd

theorem Trie.WF.duplicatesOk : ∀ (t : Trie) (mode : Option (List Nat)) (lo hi : Int),
    Trie.WF mode lo hi t → t.DuplicatesOk := by
  intro t
  induction t with
  | S p c e => intro mode lo hi _; trivial
  | R p c e n ih =>
    intro mode lo hi hw
    simp only [Trie.WF] at hw
    exact ih _ _ _ hw.2.2.2
  | X p c n ih =>
    intro mode lo hi hw
    simp only [Trie.WF] at hw
    exact ih _ _ _ hw.2.2
  | D p c l r ihl ihr =>
    intro mode lo hi hw
    simp only [Trie.WF] at hw
    exact ⟨ihl _ _ _ hw.2.2.1, ihr _ _ _ hw.2.2.2⟩
  | L p c sub ih =>
    intro mode lo hi hw
    simp only [Trie.WF] at hw
    exact Trie.WF.branch hw.2.2.2.1 hw.2.2.2.2
  | K p c sub n ihs ihn =>
    intro mode lo hi hw
    simp only [Trie.WF] at hw
    exact ⟨Trie.WF.branch hw.2.2.2.1 hw.2.2.2.2.1, ihn _ _ _ hw.2.2.2.2.2⟩

/-- A key that a duplicate node stands for holds at least two elements; a key
that an index node stands for holds one. -/
theorem Trie.WF.typeAt_find : ∀ (t : Trie) (mode : Option (List Nat)) (lo hi : Int),
    Trie.WF mode lo hi t → ∀ key,
      ((t.typeAt key = some duplicateKeyNode ∨ t.typeAt key = some duplicateTerminalNode) →
        2 ≤ (t.find key).length) ∧
      ((t.typeAt key = some indexKeyNode ∨ t.typeAt key = some indexTerminalNode) →
        (t.find key).length = 1) ∧
      ((t.typeAt key = some characterNode ∨ t.typeAt key = none) → t.find key = []) := by
  intro t
  induction t with
  | S p c e =>
    intro mode lo hi hw key
    cases key with
    | nil => simp [Trie.typeAt, Trie.find]
    | cons k rest =>
      by_cases h : k = c ∧ rest = []
      · simp [Trie.typeAt, Trie.find, h]
      · simp [Trie.typeAt, Trie.find, h]
  | R p c e n ih =>
    intro mode lo hi hw key
    simp only [Trie.WF] at hw
    cases key with
    | nil => simp [Trie.typeAt, Trie.find]
    | cons k rest =>
      by_cases h : k = c
      · by_cases h2 : rest = []
        · simp [Trie.typeAt, Trie.find, h, h2]
        · simp only [Trie.typeAt, Trie.find, h, h2, if_true, if_false]
          exact ih _ _ _ hw.2.2.2 rest
      · simp [Trie.typeAt, Trie.find, h]
  | X p c n ih =>
    intro mode lo hi hw key
    simp only [Trie.WF] at hw
    cases key with
    | nil => simp [Trie.typeAt, Trie.find]
    | cons k rest =>
      by_cases h : k = c
      · by_cases h2 : rest = []
        · simp [Trie.typeAt, Trie.find, h, h2]
        · simp only [Trie.typeAt, Trie.find, h, h2, if_true, if_false]
          exact ih _ _ _ hw.2.2 rest
      · simp [Trie.typeAt, Trie.find, h]
  | D p c l r ihl ihr =>
    intro mode lo hi hw key
    simp only [Trie.WF] at hw
    cases key with
    | nil => simp [Trie.typeAt, Trie.find]
    | cons k rest =>
      by_cases h : k ≤ c
      · simp only [Trie.typeAt, Trie.find, h, if_true]
        exact ihl _ _ _ hw.2.2.1 (k :: rest)
      · simp only [Trie.typeAt, Trie.find, h, if_false]
        exact ihr _ _ _ hw.2.2.2 (k :: rest)
  | L p c sub ih =>
    intro mode lo hi hw key
    simp only [Trie.WF] at hw
    cases key with
    | nil => simp [Trie.typeAt, Trie.find]
    | cons k rest =>
      by_cases h : k = c ∧ rest = []
      · simp only [Trie.typeAt, Trie.find, h, and_self, if_true]
        simp [hw.2.2.2.2]
      · simp [Trie.typeAt, Trie.find, h]
  | K p c sub n ihs ihn =>
    intro mode lo hi hw key
    simp only [Trie.WF] at hw
    cases key with
    | nil => simp [Trie.typeAt, Trie.find]
    | cons k rest =>
      by_cases h : k = c
      · by_cases h2 : rest = []
        · simp only [Trie.typeAt, Trie.find, h, h2, if_true]
          simp [hw.2.2.2.2.1]
        · simp only [Trie.typeAt, Trie.find, h, h2, if_true, if_false]
          exact ihn _ _ _ hw.2.2.2.2.2 rest
      · simp [Trie.typeAt, Trie.find, h]

/-! ## The key count -/

theorem Trie.keys_total (t : Trie) : t.mainKeys + t.branchEntries = t.elems.length := by
  induction t with
  | S p c e => rfl
  | R p c e n ih => simp [Trie.mainKeys, Trie.branchEntries, Trie.elems]; omega
  | X p c n ih => simp [Trie.mainKeys, Trie.branchEntries, Trie.elems]; omega
  | D p c l r ihl ihr => simp [Trie.mainKeys, Trie.branchEntries, Trie.elems]; omega
  | L p c sub ih => simp [Trie.mainKeys, Trie.branchEntries, Trie.elems]
  | K p c sub n ihs ihn => simp [Trie.mainKeys, Trie.branchEntries, Trie.elems]; omega

/-! ## Normalization as the specification words it -/

theorem isSpaceRune_ascii (b : Nat) (h : b < 128) : isSpaceRune b = isAsciiSpace b := by
  have h1 : b ≤ 255 := by omega
  have h2 : (b == 133) = false := by simp; omega
  have h3 : (b == 160) = false := by simp; omega
  simp [isSpaceRune, isAsciiSpace, h1, h2, h3]

theorem dropWhile_congr_mem (p q : Nat → Bool) : ∀ (s : List Nat), (∀ b ∈ s, p b = q b) →
    s.dropWhile p = s.dropWhile q := by
  intro s
  induction s with
  | nil => intro _; rfl
  | cons a s ih =>
    intro h
    simp only [List.dropWhile_cons, h a (by simp)]
    split
    · exact ih (fun b hb => h b (by simp [hb]))
    · rfl

theorem rdropWhile_congr_mem (p q : Nat → Bool) (s : List Nat) (h : ∀ b ∈ s, p b = q b) :
    s.rdropWhile p = s.rdropWhile q := by
  simp only [List.rdropWhile]
  rw [dropWhile_congr_mem p q s.reverse (fun b hb => h b (List.mem_reverse.mp hb))]

/-- On ASCII input `validate` is the normalization of the specification. -/
theorem validate_spec_ascii (s : List Nat) (hs : AsciiKey s) : validate s = specValidate s := by
  have h1 := normalize_ascii s hs
  have h2 : s.dropWhile isSpaceRune = s.dropWhile isAsciiSpace :=
    dropWhile_congr_mem _ _ s (fun b hb => isSpaceRune_ascii b (hs b hb))
  have h3 : (s.dropWhile isAsciiSpace).rdropWhile isSpaceRune =
      (s.dropWhile isAsciiSpace).rdropWhile isAsciiSpace :=
    rdropWhile_congr_mem _ _ _ (fun b hb =>
      isSpaceRune_ascii b (hs b ((List.dropWhile_sublist _).subset hb)))
  rw [h2, h3] at h1
  have h4 : validate s = ((validate s).1, (validate s).1.length) := rfl
  rw [h4]
  simp only [normalize] at h1
  simp only [specValidate, h1]

theorem trimLeftSpace_drop : ∀ (fuel : Nat) (s : List Nat), ∃ j, trimLeftSpace fuel s = s.drop j := by
  intro fuel
  induction fuel with
  | zero => intro s; exact ⟨0, rfl⟩
  | succ n ih =>
    intro s
    cases s with
    | nil => exact ⟨0, rfl⟩
    | cons a rest =>
      simp only [trimLeftSpace]
      split
      · obtain ⟨j, hj⟩ := ih ((a :: rest).drop (decodeRune (a :: rest)).2)
        exact ⟨(decodeRune (a :: rest)).2 + j, by rw [hj, List.drop_drop]⟩
      · exact ⟨0, rfl⟩

theorem trimRightSpace_take (s : List Nat) : ∃ j, trimRightSpace s = s.take j := by
  simp only [trimRightSpace]
  split
  · exact ⟨_, rfl⟩
  · exact ⟨_, rfl⟩

/-- For every input the normalized key is a run of consecutive bytes of the
input, of length at most 32, and it goes with its length. -/
theorem validate_part (s : List Nat) :
    (validate s).2 = (validate s).1.length ∧ (validate s).1.length ≤ maxKeyLength ∧
      ∃ a b, s = a ++ (validate s).1 ++ b := by
  refine ⟨rfl, validate_length_le s, ?_⟩
  obtain ⟨j1, h1⟩ := trimLeftSpace_drop (s.length + 1) s
  obtain ⟨j2, h2⟩ := trimRightSpace_take (trimLeftSpace (s.length + 1) s)
  have h3 : ∃ j3, (validate s).1 = (s.drop j1).take j3 := by
    simp only [validate, trimSpace]
    rw [h2, h1]
    split
    · exact ⟨min maxKeyLength j2, by rw [List.take_take]⟩
    · exact ⟨j2, rfl⟩
  obtain ⟨j3, h3⟩ := h3
  refine ⟨s.take j1, (s.drop j1).drop j3, ?_⟩
  rw [h3, List.append_assoc, List.take_append_drop, List.take_append_drop]

/-! ## The order of the elements of one key -/

theorem underKey_perm {es m : List (List Nat × Int)} (h : es.Perm m) (key : List Nat) :
    (underKey es key).Perm (underKey m key) :=
  (h.filter _).map _

/-- A reachable index holds a well-formed tree, or none, with the stored pairs. -/
theorem reach_tree {s : Index} {log : List Call} (hr : Reach s log) :
    ∃ fl oT, Inv s fl oT ∧ (entsOf oT).Perm (stored log) ∧
      s.keyCount = ((stored log).length : Int) := by
  obtain ⟨fl, oT, h1, h2, h3⟩ := reach_good hr
  exact ⟨fl, oT, h1, h2, h3⟩

theorem reach_decision {s : Index} {log : List Call} (hr : Reach s log) :
    DecisionInvariant s := by
  obtain ⟨fl, oT, h1, _, _⟩ := reach_tree hr
  exact ⟨fl, oT, h1, reachable_inv s fl oT h1, h1.decision_inv⟩

theorem Inv.threads_inv {s : Index} {fl : List Nat} {oT : Option Trie} (h : Inv s fl oT) :
    ThreadsOk s oT := by
  cases oT with
  | none => trivial
  | some T =>
    have hl : Trie.Laid s.node T (-1) := by simpa [Path.thread] using h.1.tree
    refine ⟨?_, Trie.Laid.threads_all T _ hl⟩
    intro x hx
    obtain ⟨nd, h1, h2, h3⟩ := Trie.Laid.threads_laid T _ hl x hx
    exact ⟨nd, h1, h2, h3,
      Trie.threads_last T _ (fun n => (natCast_ne_null n).symm) h.tree_nodup_inv x hx⟩

theorem reach_thread {s : Index} {log : List Call} (hr : Reach s log) : ThreadInvariant s := by
  obtain ⟨fl, oT, h1, _, _⟩ := reach_tree hr
  exact ⟨fl, oT, h1, reachable_inv s fl oT h1, h1.threads_inv⟩

/-- The tag of the node that stands for a key is one of five, if there is one. -/
theorem Trie.typeAt_cases : ∀ (t : Trie) (key : List Nat),
    t.typeAt key = some duplicateKeyNode ∨ t.typeAt key = some duplicateTerminalNode ∨
      t.typeAt key = some indexKeyNode ∨ t.typeAt key = some indexTerminalNode ∨
      t.typeAt key = some characterNode ∨ t.typeAt key = none := by
  intro t
  induction t with
  | S p c e =>
    intro key
    cases key with
    | nil => simp [Trie.typeAt]
    | cons k rest => by_cases h : k = c ∧ rest = [] <;> simp [Trie.typeAt, h]
  | R p c e n ih =>
    intro key
    cases key with
    | nil => simp [Trie.typeAt]
    | cons k rest =>
      by_cases h : k = c
      · by_cases h2 : rest = []
        · simp [Trie.typeAt, h, h2]
        · simp only [Trie.typeAt, h, h2, if_true, if_false]
          exact ih rest
      · simp [Trie.typeAt, h]
  | X p c n ih =>
    intro key
    cases key with
    | nil => simp [Trie.typeAt]
    | cons k rest =>
      by_cases h : k = c
      · by_cases h2 : rest = []
        · simp [Trie.typeAt, h, h2]
        · simp only [Trie.typeAt, h, h2, if_true, if_false]
          exact ih rest
      · simp [Trie.typeAt, h]
  | D p c l r ihl ihr =>
    intro key
    cases key with
    | nil => simp [Trie.typeAt]
    | cons k rest =>
      by_cases h : k ≤ c
      · simp only [Trie.typeAt, h, if_true]
        exact ihl (k :: rest)
      · simp only [Trie.typeAt, h, if_false]
        exact ihr (k :: rest)
  | L p c sub ih =>
    intro key
    cases key with
    | nil => simp [Trie.typeAt]
    | cons k rest => by_cases h : k = c ∧ rest = [] <;> simp [Trie.typeAt, h]
  | K p c sub n ihs ihn =>
    intro key
    cases key with
    | nil => simp [Trie.typeAt]
    | cons k rest =>
      by_cases h : k = c
      · by_cases h2 : rest = []
        · simp [Trie.typeAt, h, h2]
        · simp only [Trie.typeAt, h, h2, if_true, if_false]
          exact ihn rest
      · simp [Trie.typeAt, h]

theorem Inv.branches_inv {s : Index} {fl : List Nat} {oT : Option Trie}
    {m : List (List Nat × Int)} (h : Inv s fl oT) (hp : (entsOf oT).Perm m) :
    BranchesOk m oT := by
  cases oT with
  | none => trivial
  | some T =>
    refine ⟨Trie.WF.duplicatesOk T _ _ _ h.2, ?_⟩
    intro key
    have hp : T.ents.Perm m := hp
    have h1 := Trie.WF.typeAt_find T _ _ _ h.2 key
    rw [Trie.WF.find_eq T _ _ _ h.2 key, (underKey_perm hp key).length_eq] at h1
    refine ⟨h1.1, fun hone => ?_⟩
    rcases Trie.typeAt_cases T key with c | c | c | c | c | c
    · have := h1.1 (Or.inl c); omega
    · have := h1.1 (Or.inr c); omega
    · exact Or.inl c
    · exact Or.inr c
    · have h3 := h1.2.2 (Or.inl c)
      have h4 := (underKey_perm hp key).length_eq
      rw [h3] at h4
      simp at h4
      omega
    · have h3 := h1.2.2 (Or.inr c)
      have h4 := (underKey_perm hp key).length_eq
      rw [h3] at h4
      simp at h4
      omega

theorem reach_duplicates {s : Index} {log : List Call} (hr : Reach s log) :
    DuplicatesInvariant s (stored log) := by
  obtain ⟨fl, oT, h1, h2, _⟩ := reach_tree hr
  exact ⟨fl, oT, h1, reachable_inv s fl oT h1, h1.branches_inv h2⟩

theorem keysOf_total (oT : Option Trie) :
    mainKeysOf oT + branchEntriesOf oT = (entsOf oT).length := by
  cases oT with
  | none => rfl
  | some T =>
    simp only [mainKeysOf, branchEntriesOf, entsOf, Trie.keys_total, Trie.elems_eq_ents,
      List.length_map]

/-! ## Trees with arbitrary key bytes

The comparisons of the descent are made on strings: the string of one key
byte against the string that the conversion of the key byte of a node gives.
For a node byte of 128 or more that string has two bytes and equals no
string of one byte, so that no key matches such a node.  The trees that
`Insert` and `Delete` build from keys of arbitrary bytes are described by
`Trie.WFg`. -/

/-! ### Strings of one byte -/

theorem strLe_lo (k : Nat) {c : Nat} (h : c < 128) :
    strLe [k] (byteToString c) = decide (k ≤ c) := by
  rw [byteToString_ascii h, strLe_single]

theorem strLe_hi (k : Nat) {c : Nat} (h : ¬ c < 128) :
    strLe [k] (byteToString c) = decide (k ≤ 192 + c / 64) := by
  unfold byteToString strLe
  simp only [h, if_false, strLt]
  by_cases h2 : k ≤ 192 + c / 64
  · simp only [h2, decide_True]
    simp
    omega
  · simp only [h2, decide_False]
    simp
    omega

theorem strLt_lo (k : Nat) {c : Nat} (h : c < 128) :
    strLt [k] (byteToString c) = decide (k < c) := by
  rw [byteToString_ascii h, strLt_single]

theorem strLt_hi (k : Nat) {c : Nat} (h : ¬ c < 128) :
    strLt [k] (byteToString c) = decide (k ≤ 192 + c / 64) := by
  unfold byteToString
  simp only [h, if_false, strLt]
  by_cases h2 : k ≤ 192 + c / 64
  · simp only [h2, decide_True]
    simp
    omega
  · simp only [h2, decide_False]
    simp
    omega

theorem strGt_lo (k : Nat) {c : Nat} (h : c < 128) :
    strLt (byteToString c) [k] = decide (c < k) := by
  rw [byteToString_ascii h, strLt_single]

theorem strGt_hi (k : Nat) {c : Nat} (h : ¬ c < 128) :
    strLt (byteToString c) [k] = decide (192 + c / 64 < k) := by
  unfold byteToString
  simp only [h, if_false, strLt]
  by_cases h2 : 192 + c / 64 < k
  · simp [h2]
  · simp [h2]

/-! ### The bytes at the top of a tree -/

theorem Trie.tops_of_not_D (t : Trie) (hD : t.isD = false) : t.tops = [t.char] := by
  cases t <;> first | rfl | simp [Trie.isD] at hD

theorem Trie.char_mem_tops (t : Trie) : t.char ∈ t.tops := by
  cases t <;> simp [Trie.tops, Trie.char]

theorem Trie.IsChain.tops_chain : ∀ (t : Trie) (ks : List Nat) (e : Int), t.IsChain ks e →
    ∃ k rest, ks = k :: rest ∧ t.tops = [k] ∧ t.char = k ∧ t.isD = false := by
  intro t ks e h
  cases t with
  | S p c e0 =>
    match ks, h with
    | [k], h =>
      simp only [Trie.IsChain] at h
      exact ⟨k, [], rfl, by simp [Trie.tops, h.1], h.1, rfl⟩
  | X p c n =>
    match ks, h with
    | k :: k2 :: ks, h =>
      simp only [Trie.IsChain] at h
      exact ⟨k, k2 :: ks, rfl, by simp [Trie.tops, h.1], h.1, rfl⟩
  | R p c e0 n => simp [Trie.IsChain] at h
  | D p c l r => simp [Trie.IsChain] at h
  | L p c sub => simp [Trie.IsChain] at h
  | K p c sub n => simp [Trie.IsChain] at h

theorem Trie.IsChain.chain_wfg : ∀ (t : Trie) (ks : List Nat) (e : Int), t.IsChain ks e → t.WFg := by
  intro t
  induction t with
  | S p c e0 => intro ks e _; trivial
  | X p c n ih =>
    intro ks e h
    match ks, h with
    | k :: k2 :: ks, h =>
      simp only [Trie.IsChain] at h
      exact ih _ _ h.2
  | R p c e0 n _ => intro ks e h; simp [Trie.IsChain] at h
  | D p c l r _ _ => intro ks e h; simp [Trie.IsChain] at h
  | L p c sub _ => intro ks e h; simp [Trie.IsChain] at h
  | K p c sub n _ _ => intro ks e h; simp [Trie.IsChain] at h

theorem Trie.WF.tops_bounds : ∀ (t : Trie) (mode : Option (List Nat)) (lo hi : Int),
    Trie.WF mode lo hi t → ∀ x ∈ t.tops, lo < (x : Int) ∧ (x : Int) ≤ hi := by
  intro t
  induction t with
  | S p c e =>
    intro mode lo hi h x hx
    simp only [Trie.tops, List.mem_singleton] at hx
    subst hx; exact ⟨h.1, h.2.1⟩
  | R p c e n _ =>
    intro mode lo hi h x hx
    simp only [Trie.tops, List.mem_singleton] at hx
    subst hx; exact ⟨h.1, h.2.1⟩
  | X p c n _ =>
    intro mode lo hi h x hx
    simp only [Trie.tops, List.mem_singleton] at hx
    subst hx; exact ⟨h.1, h.2.1⟩
  | D p c l r ihl ihr =>
    intro mode lo hi h x hx
    simp only [Trie.WF] at h
    simp only [Trie.tops, List.mem_cons, List.mem_append] at hx
    rcases hx with rfl | hx | hx
    · exact ⟨h.1, h.2.1⟩
    · have := ihl _ _ _ h.2.2.1 x hx
      exact ⟨this.1, le_trans this.2 h.2.1⟩
    · have := ihr _ _ _ h.2.2.2 x hx
      exact ⟨lt_trans h.1 this.1, this.2⟩
  | L p c sub _ =>
    intro mode lo hi h x hx
    simp only [Trie.tops, List.mem_singleton] at hx
    subst hx; exact ⟨h.2.1, h.2.2.1⟩
  | K p c sub n _ _ =>
    intro mode lo hi h x hx
    simp only [Trie.tops, List.mem_singleton] at hx
    subst hx; exact ⟨h.2.1, h.2.2.1⟩

/-- A tree that is well-formed for ASCII keys is well-formed in the general sense. -/
theorem Trie.WF.to_wfg : ∀ (t : Trie) (mode : Option (List Nat)) (lo hi : Int),
    Trie.WF mode lo hi t → hi ≤ 127 → t.WFg := by
  intro t
  induction t with
  | S p c e => intro mode lo hi _ _; trivial
  | R p c e n ih =>
    intro mode lo hi h _
    exact ih _ _ _ h.2.2.2 (le_refl _)
  | X p c n ih =>
    intro mode lo hi h _
    exact ih _ _ _ h.2.2 (le_refl _)
  | D p c l r ihl ihr =>
    intro mode lo hi h hhi
    simp only [Trie.WF] at h
    have hc : c < 128 := by omega
    refine ⟨ihl _ _ _ h.2.2.1 (by omega), ihr _ _ _ h.2.2.2 hhi, ?_⟩
    rw [if_pos hc]
    refine ⟨fun x hx => ?_, fun x hx => ?_⟩
    · have := (Trie.WF.tops_bounds l _ _ _ h.2.2.1 x hx).2
      omega
    · have := (Trie.WF.tops_bounds r _ _ _ h.2.2.2 x hx).1
      omega
  | L p c sub _ =>
    intro mode lo hi h hhi
    simp only [Trie.WF] at h
    exact ⟨by omega, h.2.2.2.1, h.2.2.2.2⟩
  | K p c sub n _ ihn =>
    intro mode lo hi h hhi
    simp only [Trie.WF] at h
    exact ⟨by omega, h.2.2.2.1, h.2.2.2.2.1, ihn _ _ _ h.2.2.2.2.2 (le_refl _)⟩

theorem Inv.invG {ix : Index} {fl : List Nat} {oT : Option Trie} (h : Inv ix fl oT) :
    InvG ix fl oT := by
  cases oT with
  | none => exact h
  | some T => exact ⟨h.1, Trie.WF.to_wfg T _ _ _ h.2 (le_refl _)⟩

/-! ### Paths in the main part of the tree -/

theorem Path.Main.main_nil : Path.Main [] := fun f hf => by cases hf

theorem Path.Main.tail_main {f : Frame} {ctx : Path} (h : Path.Main (f :: ctx)) :
    Path.Main ctx := fun g hg => h g (List.mem_cons_of_mem _ hg)

theorem Path.Main.head_main {f : Frame} {ctx : Path} (h : Path.Main (f :: ctx)) :
    f.isDup = false := h f (List.mem_cons_self _ _)

theorem Path.Main.cons_main {f : Frame} {ctx : Path} (hf : f.isDup = false)
    (h : Path.Main ctx) : Path.Main (f :: ctx) := by
  intro g hg
  rcases List.mem_cons.mp hg with rfl | hg
  · exact hf
  · exact h g hg

theorem Path.Main.inSub_main : ∀ (ctx : Path), Path.Main ctx → Path.inSub ctx = false := by
  intro ctx
  induction ctx with
  | nil => intro _; rfl
  | cons f ctx ih =>
    intro h
    have hf := h.head_main
    have := ih h.tail_main
    cases f <;> first | simpa [Path.inSub] using this | simp [Frame.isDup] at hf

theorem Path.Main.dup_main : ∀ (ctx : Path), Path.Main ctx →
    Path.dup ctx = nullIndexPointer := by
  intro ctx
  induction ctx with
  | nil => intro _; rfl
  | cons f ctx ih =>
    intro h
    have hf := h.head_main
    have := ih h.tail_main
    cases f <;> first | simpa [Path.dup] using this | simp [Frame.isDup] at hf

theorem Path.Hist.fits : ∀ (ctx : Path) (k : Nat), Path.Hist ctx k → Path.Fits ctx k := by
  intro ctx
  induction ctx with
  | nil => intro k _; trivial
  | cons f ctx ih =>
    intro k h
    cases f with
    | Rf p c e => trivial
    | Xf p c => trivial
    | Kf p c sub => trivial
    | Ks p c n => trivial
    | Ls p c => trivial
    | Dl p c r =>
      simp only [Path.Hist] at h
      refine ⟨fun hc => ?_, ih k h.2⟩
      have := h.1
      rw [strLe_lo k hc] at this
      simpa using this
    | Dr p c l =>
      simp only [Path.Hist] at h
      refine ⟨?_, ih k h.2⟩
      have := h.1
      by_cases hc : c < 128
      · rw [strLe_lo k hc] at this
        rw [if_pos hc]
        simp only [decide_eq_false_iff_not] at this
        omega
      · rw [strLe_hi k hc] at this
        rw [if_neg hc]
        simp only [decide_eq_false_iff_not] at this
        omega

theorem Path.Hist.linkOk (ctx : Path) (k : Nat) (h : Path.Hist ctx k) (hm : Path.Main ctx) :
    Path.LinkOk ctx k := by
  cases ctx with
  | nil => trivial
  | cons f ctx =>
    cases f with
    | Rf p c e => trivial
    | Xf p c => trivial
    | Kf p c sub => exact Path.Main.inSub_main ctx hm.tail_main
    | Ks p c n => trivial
    | Ls p c => trivial
    | Dl p c r => exact h.1
    | Dr p c l => exact h.1

/-! ### Replacing the subtree at the end of a path -/

theorem Trie.WFg.of_fill {f : Frame} {t : Trie} (hf : f.isDup = false) (h : (f.fill t).WFg) :
    t.WFg := by
  cases f with
  | Rf p c e => exact h
  | Xf p c => exact h
  | Kf p c sub => exact h.2.2.2
  | Ks p c n => simp [Frame.isDup] at hf
  | Ls p c => simp [Frame.isDup] at hf
  | Dl p c r => exact h.1
  | Dr p c l => exact h.2.1

theorem Trie.WFg.of_plug : ∀ (ctx : Path) (t : Trie), Path.Main ctx → (Path.plug ctx t).WFg →
    t.WFg := by
  intro ctx
  induction ctx with
  | nil => intro t _ h; exact h
  | cons f ctx ih =>
    intro t hm h
    exact Trie.WFg.of_fill hm.head_main (ih (f.fill t) hm.tail_main h)

/-- The whole tree stays well-formed when the subtree at the end of a path in
its main part is replaced by a well-formed one whose top bytes are old ones
or fit the path, and which has a byte of 128 or more at its top if the old
one had. -/
theorem Trie.WFg.replace : ∀ (ctx : Path) (t t' : Trie), Path.Main ctx →
    (Path.plug ctx t).WFg → t'.WFg →
    (∀ x ∈ t'.tops, x ∈ t.tops ∨ Path.Fits ctx x) →
    ((∃ x ∈ t.tops, 128 ≤ x) → ∃ x ∈ t'.tops, 128 ≤ x) → (Path.plug ctx t').WFg := by
  intro ctx
  induction ctx with
  | nil => intro t t' _ _ h _ _; exact h
  | cons f ctx ih =>
    intro t t' hm h ht' htops hhigh
    have hold : (f.fill t).WFg := Trie.WFg.of_plug ctx _ hm.tail_main h
    have hf := hm.head_main
    have same : ∀ c, (f.fill t).tops = [c] → (f.fill t').tops = [c] → (f.fill t').WFg →
        (Path.plug (f :: ctx) t').WFg := by
      intro c h1 h2 h3
      refine ih (f.fill t) (f.fill t') hm.tail_main h h3 ?_ ?_
      · intro x hx; rw [h2] at hx; rw [h1]; exact Or.inl hx
      · intro hx; rw [h2]; rw [h1] at hx; exact hx
    cases f with
    | Rf p c e => exact same c rfl rfl ht'
    | Xf p c => exact same c rfl rfl ht'
    | Kf p c sub => exact same c rfl rfl ⟨hold.1, hold.2.1, hold.2.2.1, ht'⟩
    | Ks p c n => simp [Frame.isDup] at hf
    | Ls p c => simp [Frame.isDup] at hf
    | Dl p c r =>
      simp only [Frame.fill, Trie.WFg] at hold
      refine ih (Trie.D p c t r) (Trie.D p c t' r) hm.tail_main h ?_ ?_ ?_
      · refine ⟨ht', hold.2.1, ?_⟩
        by_cases hc : c < 128
        · rw [if_pos hc] at hold ⊢
          refine ⟨fun x hx => ?_, hold.2.2.2⟩
          rcases htops x hx with h1 | h1
          · exact hold.2.2.1 x h1
          · exact h1.1 hc
        · rw [if_neg hc] at hold ⊢
          exact ⟨hhigh hold.2.2.1, hold.2.2.2⟩
      · intro x hx
        simp only [Trie.tops, List.mem_cons, List.mem_append] at hx ⊢
        rcases hx with h1 | h1 | h1
        · exact Or.inl (Or.inl h1)
        · rcases htops x h1 with h2 | h2
          · exact Or.inl (Or.inr (Or.inl h2))
          · exact Or.inr h2.2
        · exact Or.inl (Or.inr (Or.inr h1))
      · rintro ⟨x, hx, hx2⟩
        simp only [Trie.tops, List.mem_cons, List.mem_append] at hx
        rcases hx with h1 | h1 | h1
        · exact ⟨x, by simp [Trie.tops, h1], hx2⟩
        · obtain ⟨y, hy, hy2⟩ := hhigh ⟨x, h1, hx2⟩
          exact ⟨y, by simp [Trie.tops, hy], hy2⟩
        · exact ⟨x, by simp [Trie.tops, h1], hx2⟩
    | Dr p c l =>
      simp only [Frame.fill, Trie.WFg] at hold
      refine ih (Trie.D p c l t) (Trie.D p c l t') hm.tail_main h ?_ ?_ ?_
      · refine ⟨hold.1, ht', ?_⟩
        by_cases hc : c < 128
        · rw [if_pos hc] at hold ⊢
          refine ⟨hold.2.2.1, fun x hx => ?_⟩
          rcases htops x hx with h1 | h1
          · exact hold.2.2.2 x h1
          · have := h1.1
            rw [if_pos hc] at this
            exact this
        · rw [if_neg hc] at hold ⊢
          refine ⟨hold.2.2.1, fun x hx => ?_⟩
          rcases htops x hx with h1 | h1
          · exact hold.2.2.2 x h1
          · have := h1.1
            rw [if_neg hc] at this
            exact this
      · intro x hx
        simp only [Trie.tops, List.mem_cons, List.mem_append] at hx ⊢
        rcases hx with h1 | h1 | h1
        · exact Or.inl (Or.inl h1)
        · exact Or.inl (Or.inr (Or.inl h1))
        · rcases htops x h1 with h2 | h2
          · exact Or.inl (Or.inr (Or.inr h2))
          · exact Or.inr h2.2
      · rintro ⟨x, hx, hx2⟩
        simp only [Trie.tops, List.mem_cons, List.mem_append] at hx
        rcases hx with h1 | h1 | h1
        · exact ⟨x, by simp [Trie.tops, h1], hx2⟩
        · exact ⟨x, by simp [Trie.tops, h1], hx2⟩
        · obtain ⟨y, hy, hy2⟩ := hhigh ⟨x, h1, hx2⟩
          exact ⟨y, by simp [Trie.tops, hy], hy2⟩

/-- The replacement of a subtree by one with the same bytes at its top. -/
theorem Trie.WFg.replace_tops (ctx : Path) (t t' : Trie) (hm : Path.Main ctx)
    (h : (Path.plug ctx t).WFg) (ht' : t'.WFg) (htops : t'.tops = t.tops) :
    (Path.plug ctx t').WFg :=
  Trie.WFg.replace ctx t t' hm h ht' (fun x hx => Or.inl (htops ▸ hx))
    (fun hx => by rw [htops]; exact hx)

/-! ## The descent through the main part of the tree, in the code -/

theorem insert_descendM (e : Int) (ix : Index) :
    ∀ (t : Trie) (th : Int) (key : List Nat) (ctx : Path) (st : InsertState),
      Trie.Laid ix.node t th → InsertAt ix st ctx t key → key ≠ [] →
      ∃ st', InsertAt ix st' (descendM t key ctx).1 (descendM t key ctx).2.1
          (descendM t key ctx).2.2 ∧
        ∀ fuel res, runLoop (insertBody e) fuel st' = some res →
          runLoop (insertBody e) (fuel + t.size) st = some res := by
  intro t
  induction t with
  | S p c e' =>
    intro th key ctx st _ hst hkey
    obtain ⟨k, rest, rfl⟩ := ne_nil_cons hkey
    exact ⟨st, by simpa [descendM] using hst, fun fuel res h => runLoop_add _ _ _ _ _ h⟩
  | R p c e' n ih =>
    intro th key ctx st hl hst hkey
    obtain ⟨k, rest, rfl⟩ := ne_nil_cons hkey
    simp only [Trie.Laid] at hl
    by_cases hk : (k = c ∧ c < 128) ∧ rest ≠ []
    · obtain ⟨six, sks, skl, sprev, sptr, sdup, si⟩ := st
      obtain ⟨h1, h2, h3, h4, h5, h6⟩ := hst
      simp only at h1 h2 h3 h4 h5 h6
      subst h1 h3 h4 h5 h6
      have hst1 : InsertAt six ⟨six, sks, sks.length, (p : Int), (n.addr : Int), Path.inSub ctx, si + 1⟩
          (Frame.Rf p c e' :: ctx) n rest :=
        ⟨rfl, drop_succ_of_drop h2, rfl, rfl, rfl, rfl⟩
      obtain ⟨st', hst', hrun⟩ := ih th rest _ _ hl.2 hst1 hk.2
      refine ⟨st', by simpa [descendM, hk] using hst', ?_⟩
      intro fuel res hres
      have := hrun fuel res hres
      refine runLoop_step _ _ _ _ _ _ ?_ this (by simp [Trie.size])
      simp [insertBody, Trie.addr, hl.1, sliceOne_drop h2, byteToString_ascii hk.1.2, hk.1.1,
        last_iff_of_drop h2, hk.2]
    · exact ⟨st, by simpa [descendM, hk] using hst, fun fuel res h => runLoop_add _ _ _ _ _ h⟩
  | X p c n ih =>
    intro th key ctx st hl hst hkey
    obtain ⟨k, rest, rfl⟩ := ne_nil_cons hkey
    simp only [Trie.Laid] at hl
    by_cases hk : (k = c ∧ c < 128) ∧ rest ≠ []
    · obtain ⟨six, sks, skl, sprev, sptr, sdup, si⟩ := st
      obtain ⟨h1, h2, h3, h4, h5, h6⟩ := hst
      simp only at h1 h2 h3 h4 h5 h6
      subst h1 h3 h4 h5 h6
      have hst1 : InsertAt six ⟨six, sks, sks.length, (p : Int), (n.addr : Int), Path.inSub ctx, si + 1⟩
          (Frame.Xf p c :: ctx) n rest :=
        ⟨rfl, drop_succ_of_drop h2, rfl, rfl, rfl, rfl⟩
      obtain ⟨st', hst', hrun⟩ := ih th rest _ _ hl.2 hst1 hk.2
      refine ⟨st', by simpa [descendM, hk] using hst', ?_⟩
      intro fuel res hres
      have := hrun fuel res hres
      refine runLoop_step _ _ _ _ _ _ ?_ this (by simp [Trie.size])
      simp [insertBody, Trie.addr, hl.1, sliceOne_drop h2, byteToString_ascii hk.1.2, hk.1.1,
        last_iff_of_drop h2, hk.2]
    · exact ⟨st, by simpa [descendM, hk] using hst, fun fuel res h => runLoop_add _ _ _ _ _ h⟩
  | D p c l r ihl ihr =>
    intro th key ctx st hl hst hkey
    obtain ⟨k, rest, rfl⟩ := ne_nil_cons hkey
    simp only [Trie.Laid] at hl
    obtain ⟨six, sks, skl, sprev, sptr, sdup, si⟩ := st
    obtain ⟨h1, h2, h3, h4, h5, h6⟩ := hst
    simp only at h1 h2 h3 h4 h5 h6
    subst h1 h3 h4 h5 h6
    by_cases hk : strLe [k] (byteToString c) = true
    · have hst1 : InsertAt six ⟨six, sks, sks.length, (p : Int), (l.addr : Int), Path.inSub ctx, si⟩
          (Frame.Dl p c r :: ctx) l (k :: rest) :=
        ⟨rfl, h2, rfl, rfl, rfl, rfl⟩
      obtain ⟨st', hst', hrun⟩ := ihl _ (k :: rest) _ _ hl.2.1 hst1 hkey
      refine ⟨st', by simpa [descendM, hk] using hst', ?_⟩
      intro fuel res hres
      have := hrun fuel res hres
      refine runLoop_step _ _ _ _ _ _ ?_ this (by simp [Trie.size]; omega)
      simp [insertBody, Trie.addr, hl.1, sliceOne_drop h2, hk]
    · have hst1 : InsertAt six ⟨six, sks, sks.length, (p : Int), (r.addr : Int), Path.inSub ctx, si⟩
          (Frame.Dr p c l :: ctx) r (k :: rest) :=
        ⟨rfl, h2, rfl, rfl, rfl, rfl⟩
      have hk' : strLe [k] (byteToString c) = false := by simpa using hk
      obtain ⟨st', hst', hrun⟩ := ihr _ (k :: rest) _ _ hl.2.2 hst1 hkey
      refine ⟨st', by simpa [descendM, hk'] using hst', ?_⟩
      intro fuel res hres
      have := hrun fuel res hres
      refine runLoop_step _ _ _ _ _ _ ?_ this (by simp [Trie.size]; omega)
      simp [insertBody, Trie.addr, hl.1, sliceOne_drop h2, hk']
  | L p c sub _ =>
    intro th key ctx st _ hst hkey
    obtain ⟨k, rest, rfl⟩ := ne_nil_cons hkey
    exact ⟨st, by simpa [descendM] using hst, fun fuel res h => runLoop_add _ _ _ _ _ h⟩
  | K p c sub n _ ih =>
    intro th key ctx st hl hst hkey
    obtain ⟨k, rest, rfl⟩ := ne_nil_cons hkey
    simp only [Trie.Laid] at hl
    by_cases hk : (k = c ∧ c < 128) ∧ rest ≠ []
    · obtain ⟨six, sks, skl, sprev, sptr, sdup, si⟩ := st
      obtain ⟨h1, h2, h3, h4, h5, h6⟩ := hst
      simp only at h1 h2 h3 h4 h5 h6
      subst h1 h3 h4 h5 h6
      have hst1 : InsertAt six ⟨six, sks, sks.length, (p : Int), (n.addr : Int), Path.inSub ctx, si + 1⟩
          (Frame.Kf p c sub :: ctx) n rest :=
        ⟨rfl, drop_succ_of_drop h2, rfl, rfl, rfl, rfl⟩
      obtain ⟨st', hst', hrun⟩ := ih th rest _ _ hl.2.2 hst1 hk.2
      refine ⟨st', by simpa [descendM, hk] using hst', ?_⟩
      intro fuel res hres
      have := hrun fuel res hres
      refine runLoop_step _ _ _ _ _ _ ?_ this (by simp [Trie.size]; omega)
      simp [insertBody, Trie.addr, hl.1, sliceOne_drop h2, byteToString_ascii hk.1.2, hk.1.1,
        last_iff_of_drop h2, hk.2]
    · exact ⟨st, by simpa [descendM, hk] using hst, fun fuel res h => runLoop_add _ _ _ _ _ h⟩

theorem delete_descendM (e : Int) (ix : Index) :
    ∀ (t : Trie) (th : Int) (key : List Nat) (ctx : Path) (st : DeleteState),
      Trie.Laid ix.node t th → DeleteAt st ctx t key → key ≠ [] →
      ∃ st', DeleteAt st' (descendM t key ctx).1 (descendM t key ctx).2.1
          (descendM t key ctx).2.2 ∧
        ∀ fuel res, runLoop (deleteBody e ix) fuel st' = some res →
          runLoop (deleteBody e ix) (fuel + t.size) st = some res := by
  intro t
  induction t with
  | S p c e' =>
    intro th key ctx st _ hst hkey
    obtain ⟨k, rest, rfl⟩ := ne_nil_cons hkey
    exact ⟨st, by simpa [descendM] using hst, fun fuel res h => runLoop_add _ _ _ _ _ h⟩
  | R p c e' n ih =>
    intro th key ctx st hl hst hkey
    obtain ⟨k, rest, rfl⟩ := ne_nil_cons hkey
    simp only [Trie.Laid] at hl
    by_cases hk : (k = c ∧ c < 128) ∧ rest ≠ []
    · obtain ⟨sks, skl, sprev, sdele, sdup, slprev, sptr, sbranch, si⟩ := st
      obtain ⟨h2, h3, h4, h5, h6, h7, h8, h9⟩ := hst
      simp only at h2 h3 h4 h5 h6 h7 h8 h9
      subst h3 h4 h5 h6 h7 h8 h9
      have hst1 : DeleteAt ⟨sks, sks.length, (p : Int), (p : Int), Path.dup ctx, Path.prev ctx,
          (n.addr : Int), Path.branch ctx, si + 1⟩ (Frame.Rf p c e' :: ctx) n rest :=
        ⟨drop_succ_of_drop h2, rfl, rfl, rfl, rfl, rfl, rfl, rfl⟩
      obtain ⟨st', hst', hrun⟩ := ih th rest _ _ hl.2 hst1 hk.2
      refine ⟨st', by simpa [descendM, hk] using hst', ?_⟩
      intro fuel res hres
      have := hrun fuel res hres
      refine runLoop_step _ _ _ _ _ _ ?_ this (by simp [Trie.size])
      simp [deleteBody, Trie.addr, hl.1, sliceOne_drop h2, byteToString_ascii hk.1.2, hk.1.1,
        last_iff_of_drop h2, hk.2]
    · exact ⟨st, by simpa [descendM, hk] using hst, fun fuel res h => runLoop_add _ _ _ _ _ h⟩
  | X p c n ih =>
    intro th key ctx st hl hst hkey
    obtain ⟨k, rest, rfl⟩ := ne_nil_cons hkey
    simp only [Trie.Laid] at hl
    by_cases hk : (k = c ∧ c < 128) ∧ rest ≠ []
    · obtain ⟨sks, skl, sprev, sdele, sdup, slprev, sptr, sbranch, si⟩ := st
      obtain ⟨h2, h3, h4, h5, h6, h7, h8, h9⟩ := hst
      simp only at h2 h3 h4 h5 h6 h7 h8 h9
      subst h3 h4 h5 h6 h7 h8 h9
      have hst1 : DeleteAt ⟨sks, sks.length, (p : Int), Path.dele ctx, Path.dup ctx, Path.lprev ctx,
          (n.addr : Int), Path.branch ctx, si + 1⟩ (Frame.Xf p c :: ctx) n rest :=
        ⟨drop_succ_of_drop h2, rfl, rfl, rfl, rfl, rfl, rfl, rfl⟩
      obtain ⟨st', hst', hrun⟩ := ih th rest _ _ hl.2 hst1 hk.2
      refine ⟨st', by simpa [descendM, hk] using hst', ?_⟩
      intro fuel res hres
      have := hrun fuel res hres
      refine runLoop_step _ _ _ _ _ _ ?_ this (by simp [Trie.size])
      simp [deleteBody, Trie.addr, hl.1, sliceOne_drop h2, byteToString_ascii hk.1.2, hk.1.1,
        last_iff_of_drop h2, hk.2]
    · exact ⟨st, by simpa [descendM, hk] using hst, fun fuel res h => runLoop_add _ _ _ _ _ h⟩
  | D p c l r ihl ihr =>
    intro th key ctx st hl hst hkey
    obtain ⟨k, rest, rfl⟩ := ne_nil_cons hkey
    simp only [Trie.Laid] at hl
    obtain ⟨sks, skl, sprev, sdele, sdup, slprev, sptr, sbranch, si⟩ := st
    obtain ⟨h2, h3, h4, h5, h6, h7, h8, h9⟩ := hst
    simp only at h2 h3 h4 h5 h6 h7 h8 h9
    subst h3 h4 h5 h6 h7 h8 h9
    by_cases hk : strLe [k] (byteToString c) = true
    · have hst1 : DeleteAt ⟨sks, sks.length, (p : Int), (p : Int), Path.dup ctx, Path.prev ctx,
          (l.addr : Int), left, si⟩ (Frame.Dl p c r :: ctx) l (k :: rest) :=
        ⟨h2, rfl, rfl, rfl, rfl, rfl, rfl, rfl⟩
      obtain ⟨st', hst', hrun⟩ := ihl _ (k :: rest) _ _ hl.2.1 hst1 hkey
      refine ⟨st', by simpa [descendM, hk] using hst', ?_⟩
      intro fuel res hres
      have := hrun fuel res hres
      refine runLoop_step _ _ _ _ _ _ ?_ this (by simp [Trie.size]; omega)
      simp [deleteBody, Trie.addr, hl.1, sliceOne_drop h2, hk]
    · have hst1 : DeleteAt ⟨sks, sks.length, (p : Int), (p : Int), Path.dup ctx, Path.prev ctx,
          (r.addr : Int), right, si⟩ (Frame.Dr p c l :: ctx) r (k :: rest) :=
        ⟨h2, rfl, rfl, rfl, rfl, rfl, rfl, rfl⟩
      have hk' : strLe [k] (byteToString c) = false := by simpa using hk
      obtain ⟨st', hst', hrun⟩ := ihr _ (k :: rest) _ _ hl.2.2 hst1 hkey
      refine ⟨st', by simpa [descendM, hk'] using hst', ?_⟩
      intro fuel res hres
      have := hrun fuel res hres
      refine runLoop_step _ _ _ _ _ _ ?_ this (by simp [Trie.size]; omega)
      simp [deleteBody, Trie.addr, hl.1, sliceOne_drop h2, hk']
  | L p c sub _ =>
    intro th key ctx st _ hst hkey
    obtain ⟨k, rest, rfl⟩ := ne_nil_cons hkey
    exact ⟨st, by simpa [descendM] using hst, fun fuel res h => runLoop_add _ _ _ _ _ h⟩
  | K p c sub n _ ih =>
    intro th key ctx st hl hst hkey
    obtain ⟨k, rest, rfl⟩ := ne_nil_cons hkey
    simp only [Trie.Laid] at hl
    by_cases hk : (k = c ∧ c < 128) ∧ rest ≠ []
    · obtain ⟨sks, skl, sprev, sdele, sdup, slprev, sptr, sbranch, si⟩ := st
      obtain ⟨h2, h3, h4, h5, h6, h7, h8, h9⟩ := hst
      simp only at h2 h3 h4 h5 h6 h7 h8 h9
      subst h3 h4 h5 h6 h7 h8 h9
      have hst1 : DeleteAt ⟨sks, sks.length, (p : Int), (p : Int), Path.dup ctx, Path.prev ctx,
          (n.addr : Int), Path.branch ctx, si + 1⟩ (Frame.Kf p c sub :: ctx) n rest :=
        ⟨drop_succ_of_drop h2, rfl, rfl, rfl, rfl, rfl, rfl, rfl⟩
      obtain ⟨st', hst', hrun⟩ := ih th rest _ _ hl.2.2 hst1 hk.2
      refine ⟨st', by simpa [descendM, hk] using hst', ?_⟩
      intro fuel res hres
      have := hrun fuel res hres
      refine runLoop_step _ _ _ _ _ _ ?_ this (by simp [Trie.size]; omega)
      simp [deleteBody, Trie.addr, hl.1, sliceOne_drop h2, byteToString_ascii hk.1.2, hk.1.1,
        last_iff_of_drop h2, hk.2]
    · exact ⟨st, by simpa [descendM, hk] using hst, fun fuel res h => runLoop_add _ _ _ _ _ h⟩

/-! ## What the descent through the main part preserves -/

theorem Path.Matched.matched_nil : Path.Matched [] := fun f hf => by cases hf

theorem Path.Matched.cons_matched {f : Frame} {ctx : Path} (h : Path.Matched ctx)
    (hf : (∀ p c e, f = Frame.Rf p c e → c < 128) ∧ (∀ p c, f = Frame.Xf p c → c < 128) ∧
      (∀ p c sub, f = Frame.Kf p c sub → c < 128)) : Path.Matched (f :: ctx) := by
  intro g hg
  rcases List.mem_cons.mp hg with rfl | hg
  · exact hf
  · exact h g hg

theorem Path.HistK.of_not_D {f : Frame} (ctx : Path) (key : List Nat)
    (h1 : ∀ p c r, f ≠ Frame.Dl p c r) (h2 : ∀ p c l, f ≠ Frame.Dr p c l) :
    Path.HistK (f :: ctx) key := by
  intro k rest _
  cases f with
  | Rf p c e => trivial
  | Xf p c => trivial
  | Kf p c sub => trivial
  | Ks p c n => trivial
  | Ls p c => trivial
  | Dl p c r => exact absurd rfl (h1 p c r)
  | Dr p c l => exact absurd rfl (h2 p c l)

theorem descendM_facts : ∀ (t : Trie) (key : List Nat) (ctx : Path), key ≠ [] →
    Path.HistK ctx key → DescendedM ctx t (descendM t key ctx) := by
  intro t
  induction t with
  | S p c e' =>
    intro key ctx hkey hh
    obtain ⟨k, rest, rfl⟩ := ne_nil_cons hkey
    exact ⟨rfl, fun h => h, hh, fun h => h, trivial⟩
  | R p c e' n ih =>
    intro key ctx hkey hh
    obtain ⟨k, rest, rfl⟩ := ne_nil_cons hkey
    by_cases hk : (k = c ∧ c < 128) ∧ rest ≠ []
    · have := ih rest (Frame.Rf p c e' :: ctx) hk.2
        (Path.HistK.of_not_D ctx rest (by intros; simp) (by intros; simp))
      simp only [descendM, hk, and_self, ne_eq, not_false_eq_true, if_true]
      refine ⟨this.plug, fun h => this.main (Path.Main.cons_main rfl h), this.hist,
        fun h => this.matched (h.cons_matched ⟨?_, ?_, ?_⟩), this.stops⟩
      · intro p' c' e0 heq
        simp only [Frame.Rf.injEq] at heq
        rw [← heq.2.1]; exact hk.1.2
      · intro p' c' heq; cases heq
      · intro p' c' sub heq; cases heq
    · simp only [descendM, hk, if_false]
      exact ⟨rfl, fun h => h, hh, fun h => h, hk⟩
  | X p c n ih =>
    intro key ctx hkey hh
    obtain ⟨k, rest, rfl⟩ := ne_nil_cons hkey
    by_cases hk : (k = c ∧ c < 128) ∧ rest ≠ []
    · have := ih rest (Frame.Xf p c :: ctx) hk.2
        (Path.HistK.of_not_D ctx rest (by intros; simp) (by intros; simp))
      simp only [descendM, hk, and_self, ne_eq, not_false_eq_true, if_true]
      refine ⟨this.plug, fun h => this.main (Path.Main.cons_main rfl h), this.hist,
        fun h => this.matched (h.cons_matched ⟨?_, ?_, ?_⟩), this.stops⟩
      · intro p' c' e0 heq; cases heq
      · intro p' c' heq
        simp only [Frame.Xf.injEq] at heq
        rw [← heq.2]; exact hk.1.2
      · intro p' c' sub heq; cases heq
    · simp only [descendM, hk, if_false]
      exact ⟨rfl, fun h => h, hh, fun h => h, hk⟩
  | D p c l r ihl ihr =>
    intro key ctx hkey hh
    obtain ⟨k, rest, rfl⟩ := ne_nil_cons hkey
    have hk0 := hh k rest rfl
    by_cases hk : strLe [k] (byteToString c) = true
    · have := ihl (k :: rest) (Frame.Dl p c r :: ctx) hkey (by
        intro k' rest' heq
        simp only [List.cons.injEq] at heq
        rw [← heq.1]
        exact ⟨hk, hk0⟩)
      simp only [descendM, hk, if_true]
      refine ⟨this.plug, fun h => this.main (Path.Main.cons_main rfl h), this.hist,
        fun h => this.matched (h.cons_matched ⟨?_, ?_, ?_⟩), this.stops⟩
      · intro p' c' e0 heq; cases heq
      · intro p' c' heq; cases heq
      · intro p' c' sub heq; cases heq
    · have hk' : strLe [k] (byteToString c) = false := by simpa using hk
      have := ihr (k :: rest) (Frame.Dr p c l :: ctx) hkey (by
        intro k' rest' heq
        simp only [List.cons.injEq] at heq
        rw [← heq.1]
        exact ⟨hk', hk0⟩)
      simp only [descendM, hk', Bool.false_eq_true, if_false]
      refine ⟨this.plug, fun h => this.main (Path.Main.cons_main rfl h), this.hist,
        fun h => this.matched (h.cons_matched ⟨?_, ?_, ?_⟩), this.stops⟩
      · intro p' c' e0 heq; cases heq
      · intro p' c' heq; cases heq
      · intro p' c' sub heq; cases heq
  | L p c sub _ =>
    intro key ctx hkey hh
    obtain ⟨k, rest, rfl⟩ := ne_nil_cons hkey
    exact ⟨rfl, fun h => h, hh, fun h => h, trivial⟩
  | K p c sub n _ ih =>
    intro key ctx hkey hh
    obtain ⟨k, rest, rfl⟩ := ne_nil_cons hkey
    by_cases hk : (k = c ∧ c < 128) ∧ rest ≠ []
    · have := ih rest (Frame.Kf p c sub :: ctx) hk.2
        (Path.HistK.of_not_D ctx rest (by intros; simp) (by intros; simp))
      simp only [descendM, hk, and_self, ne_eq, not_false_eq_true, if_true]
      refine ⟨this.plug, fun h => this.main (Path.Main.cons_main rfl h), this.hist,
        fun h => this.matched (h.cons_matched ⟨?_, ?_, ?_⟩), this.stops⟩
      · intro p' c' e0 heq; cases heq
      · intro p' c' heq; cases heq
      · intro p' c' sub' heq
        simp only [Frame.Kf.injEq] at heq
        rw [← heq.2.1]; exact hk.1.2
    · simp only [descendM, hk, if_false]
      exact ⟨rfl, fun h => h, hh, fun h => h, hk⟩

theorem StopsM.ne_nil_stops {t : Trie} {key : List Nat} (h : StopsM t key) : key ≠ [] := by
  intro hk; subst hk
  cases t <;> exact h

theorem StopsM.stops_not_D {t : Trie} {key : List Nat} (h : StopsM t key) : t.isD = false := by
  cases t with
  | D p c l r =>
    cases key with
    | nil => exact absurd h (by simp [StopsM])
    | cons k rest => exact absurd h (by simp [StopsM])
  | S p c e => rfl
  | R p c e n => rfl
  | X p c n => rfl
  | L p c sub => rfl
  | K p c sub n => rfl

/-! ## Insert: what happens where the descent stops -/

theorem InsStops.not_D {e : Int} {t : Trie} {k : Nat} {rest : List Nat}
    (h : InsStops e t k rest) : t.isD = false := by
  cases t <;> first | rfl | exact absurd h (by simp [InsStops])

theorem Trie.isD_false_ne {t : Trie} (h : t.isD = false) : ∀ p c l r, t ≠ Trie.D p c l r := by
  intro p c l r hc
  rw [hc] at h
  simp [Trie.isD] at h

theorem insert_stop_gen (e : Int) (ix : Index) (fl : List Nat) (ctx : Path)
    (st : InsertState) (t : Trie) (k : Nat) (rest : List Nat)
    (h : AtFocus ix fl ctx t) (hst : InsertAt ix st ctx t (k :: rest))
    (hlk : Path.LinkOk ctx k) (hstop : InsStops e t k rest) :
    ∃ res out, insertBody e st = some (LoopStep.exit res) ∧
      (∀ f, t.size ≤ f → insertOutcome f e res = some out) ∧
      ((out = (false, ix) ∧ rest = [] ∧ k < 128 ∧
          ((∃ p, t = Trie.S p k e) ∨ ∃ p n, t = Trie.R p k e n)) ∨
       ∃ ix' fl' t', out = (true, ix') ∧ AtFocus ix' fl' ctx t' ∧ Inserted e k rest t t' ∧
         ix'.keyCount = ix.keyCount + 1 ∧ Taken ix.node.length ix'.node.length fl fl') := by
  have hD := hstop.not_D
  by_cases hm : k = t.char ∧ t.char < 128
  swap
  · have hne : [k] ≠ byteToString t.char := fun hc => hm ((single_eq_byteToString k t.char).mp hc).symm
    have hexit := insert_diverge_exit_gen e ix st ctx t _ k rest h.tree hst hne
      (Trie.isD_false_ne hD)
    rcases strLt_total_single k t.char hne with hlt | hgt
    · obtain ⟨ix', fl', res, dp, hrun, hch, hfoc, hcnt, htk⟩ :=
        insert_branch_lt_gen e ix fl ctx st t k rest h hst hlk hlt
      exact ⟨InsertExit.diverged st, (true, ix'), hexit, fun f _ => hrun f,
        Or.inr ⟨ix', fl', _, rfl, hfoc, Inserted.lt t dp res hD hlt hch, hcnt, htk⟩⟩
    · obtain ⟨ix', fl', res, dp, hrun, hch, hfoc, hcnt, htk⟩ :=
        insert_branch_gt_gen e ix fl ctx st t k rest h hst hlk hgt
      exact ⟨InsertExit.diverged st, (true, ix'), hexit, hrun,
        Or.inr ⟨ix', fl', _, rfl, hfoc, Inserted.gt t dp res hD hgt hch, hcnt, htk⟩⟩
  obtain ⟨hkc, hc⟩ := hm
  cases t with
  | S p c e0 =>
    simp only [Trie.char] at hkc hc
    subst hkc
    by_cases hr : rest = []
    · have he : e = e0 := by
        by_contra hne
        exact hstop ⟨⟨rfl, hc⟩, hr, hne⟩
      subst he hr
      exact ⟨_, (false, ix), insert_same e ix st ctx _ _ k h.tree hst hc (Or.inl ⟨p, rfl⟩),
        fun f _ => rfl, Or.inl ⟨rfl, rfl, hc, Or.inl ⟨p, rfl⟩⟩⟩
    · obtain ⟨ix', fl', res, hrun, hfoc, hch, hcnt, htk⟩ :=
        insert_superset_S_gen e ix fl ctx st p k e0 rest h hst hc hr
      exact ⟨_, (true, ix'), hrun, fun f _ => rfl,
        Or.inr ⟨ix', fl', _, rfl, hfoc, Inserted.supS p k e0 res rfl hc hr hch, hcnt, htk⟩⟩
  | R p c e0 n =>
    simp only [Trie.char] at hkc hc
    subst hkc
    obtain ⟨hr, he⟩ := hstop ⟨rfl, hc⟩
    subst he hr
    exact ⟨_, (false, ix), insert_same e ix st ctx _ _ k h.tree hst hc (Or.inr ⟨p, n, rfl⟩),
      fun f _ => rfl, Or.inl ⟨rfl, rfl, hc, Or.inr ⟨p, n, rfl⟩⟩⟩
  | X p c n =>
    simp only [Trie.char] at hkc hc
    subst hkc
    have hr : rest = [] := by
      by_contra hr
      exact hstop ⟨⟨rfl, hc⟩, hr⟩
    subst hr
    obtain ⟨ix', hrun, hfoc, hcnt⟩ := insert_promote e ix fl ctx st p k n _ h hst hc rfl
    have hlen : ix'.node.length = ix.node.length := by
      have h1 := hfoc.perm.length_eq
      have h2 := h.perm.length_eq
      simp only [List.length_range, List.length_append, Trie.addrs, List.length_cons] at h1 h2
      omega
    exact ⟨_, (true, ix'), hrun, fun f _ => rfl,
      Or.inr ⟨ix', fl, _, rfl, hfoc, Inserted.promote p k n rfl hc rfl, hcnt,
        by rw [hlen]; exact Taken.none _ _⟩⟩
  | D p c l r => exact absurd hstop (by simp [InsStops])
  | L p c sub =>
    simp only [Trie.char] at hkc hc
    subst hkc
    have hr : rest ≠ [] := fun hr => hstop ⟨⟨rfl, hc⟩, hr⟩
    obtain ⟨ix', fl', res, hrun, hfoc, hch, hcnt, htk⟩ :=
      insert_superset_L_gen e ix fl ctx st p k sub rest h hst hc hr
    exact ⟨_, (true, ix'), hrun, fun f _ => rfl,
      Or.inr ⟨ix', fl', _, rfl, hfoc, Inserted.supL p k sub res rfl hc hr hch, hcnt, htk⟩⟩
  | K p c sub n =>
    simp only [Trie.char] at hkc hc
    exact absurd ⟨hkc, hc⟩ hstop

/-- The number of elements grows by one. -/
theorem Inserted.elems_length {e : Int} {k : Nat} {rest : List Nat} {t t' : Trie}
    (h : Inserted e k rest t t') : t'.elems.length = t.elems.length + 1 := by
  have hch : ∀ (res : Trie) (ks : List Nat), res.IsChain ks e → res.elems.length = 1 := by
    intro res ks hc
    have := congrArg List.length (Trie.elems_eq_ents res)
    rw [hc.ents] at this
    simpa using this
  cases h with
  | supS p c e0 res h1 h2 h3 h4 => simp [Trie.elems, hch res rest h4]
  | supL p c sub res h1 h2 h3 h4 => simp [Trie.elems, hch res rest h4]
  | promote p c n h1 h2 h3 => simp [Trie.elems]
  | lt t dp res h1 h2 h3 => simp [Trie.elems, hch res _ h3]; omega
  | gt t dp res h1 h2 h3 => simp [Trie.elems, hch res _ h3]

/-- The bytes at the top of the new tree are those of the old one and the
first byte of the key. -/
theorem Inserted.tops_sub {e : Int} {k : Nat} {rest : List Nat} {t t' : Trie}
    (h : Inserted e k rest t t') :
    (∀ x ∈ t'.tops, x ∈ t.tops ∨ x = k) ∧ (∀ x ∈ t.tops, x ∈ t'.tops) := by
  cases h with
  | supS p c e0 res h1 h2 h3 h4 => simp [Trie.tops]
  | supL p c sub res h1 h2 h3 h4 => simp [Trie.tops]
  | promote p c n h1 h2 h3 => simp [Trie.tops]
  | lt t dp res h1 h2 h3 =>
    obtain ⟨k', rest', heq, ht, _, _⟩ := h3.tops_chain
    simp only [List.cons.injEq] at heq
    simp only [Trie.tops, ht, ← heq.1, List.mem_cons, List.mem_append, List.mem_singleton,
      List.not_mem_nil, or_false]
    refine ⟨fun x hx => ?_, fun x hx => Or.inr (Or.inr hx)⟩
    rcases hx with hx | hx | hx
    · exact Or.inr hx
    · exact Or.inr hx
    · exact Or.inl hx
  | gt t dp res h1 h2 h3 =>
    obtain ⟨k', rest', heq, ht, _, _⟩ := h3.tops_chain
    simp only [List.cons.injEq] at heq
    simp only [Trie.tops, ht, ← heq.1, List.mem_cons, List.mem_append, List.mem_singleton,
      List.not_mem_nil, or_false]
    refine ⟨fun x hx => ?_, fun x hx => Or.inr (Or.inl hx)⟩
    rcases hx with hx | hx | hx
    · exact Or.inl (by rw [hx]; exact t.char_mem_tops)
    · exact Or.inl hx
    · exact Or.inr hx

/-- The new tree is well-formed in the general sense if the old one is. -/
theorem Inserted.wfg {e : Int} {k : Nat} {rest : List Nat} {t t' : Trie}
    (h : Inserted e k rest t t') (hw : t.WFg) : t'.WFg := by
  cases h with
  | supS p c e0 res h1 h2 h3 h4 => exact h4.chain_wfg
  | supL p c sub res h1 h2 h3 h4 => exact ⟨hw.1, hw.2.1, hw.2.2, h4.chain_wfg⟩
  | promote p c n h1 h2 h3 => exact hw
  | lt t dp res h1 h2 h3 =>
    obtain ⟨k', rest', heq, ht, _, _⟩ := h3.tops_chain
    simp only [List.cons.injEq] at heq
    refine ⟨h3.chain_wfg, hw, ?_⟩
    rw [ht, t.tops_of_not_D h1, ← heq.1]
    by_cases hc : t.char < 128
    · rw [strLt_lo k hc] at h2
      simp only [decide_eq_true_eq] at h2
      rw [if_pos (by omega)]
      simp only [List.mem_singleton, forall_eq]
      exact ⟨le_refl _, h2⟩
    · rw [strLt_hi k hc] at h2
      simp only [decide_eq_true_eq] at h2
      by_cases hk : k < 128
      · rw [if_pos hk]
        simp only [List.mem_singleton, forall_eq]
        exact ⟨le_refl _, by omega⟩
      · rw [if_neg hk]
        simp only [List.mem_singleton, forall_eq, exists_eq_left]
        exact ⟨by omega, by omega⟩
  | gt t dp res h1 h2 h3 =>
    obtain ⟨k', rest', heq, ht, _, _⟩ := h3.tops_chain
    simp only [List.cons.injEq] at heq
    refine ⟨hw, h3.chain_wfg, ?_⟩
    rw [ht, t.tops_of_not_D h1, ← heq.1]
    by_cases hc : t.char < 128
    · rw [strGt_lo k hc] at h2
      simp only [decide_eq_true_eq] at h2
      rw [if_pos hc]
      simp only [List.mem_singleton, forall_eq]
      exact ⟨le_refl _, h2⟩
    · rw [strGt_hi k hc] at h2
      simp only [decide_eq_true_eq] at h2
      rw [if_neg hc]
      simp only [List.mem_singleton, forall_eq, exists_eq_left]
      exact ⟨by omega, by omega⟩

/-! ## Inside a duplicates branch

A duplicates branch holds decimal renderings, ASCII bytes only, whatever the
bytes of the main part of the tree are.  The descent inside the branch is
followed on the path of the whole tree; its well-formedness is told on the
path cut above the base of the branch, where the base stands as a
duplicate-terminal node at the root. -/

/-- The frames that the descent adds to a path do not depend on the path. -/
theorem descend_app (e : Int) : ∀ (t : Trie) (key : List Nat) (a b : Path),
    descend e t key (a ++ b) = ((descend e t key a).1 ++ b, (descend e t key a).2) := by
  intro t
  induction t with
  | S p c e' =>
    intro key a b
    cases key <;> simp [descend]
  | R p c e' n ih =>
    intro key a b
    cases key with
    | nil => simp [descend]
    | cons k rest =>
      simp only [descend]
      split
      · exact ih rest (Frame.Rf p c e' :: a) b
      · rfl
  | X p c n ih =>
    intro key a b
    cases key with
    | nil => simp [descend]
    | cons k rest =>
      simp only [descend]
      split
      · exact ih rest (Frame.Xf p c :: a) b
      · rfl
  | D p c l r ihl ihr =>
    intro key a b
    cases key with
    | nil => simp [descend]
    | cons k rest =>
      simp only [descend]
      split
      · exact ihl (k :: rest) (Frame.Dl p c r :: a) b
      · exact ihr (k :: rest) (Frame.Dr p c l :: a) b
  | L p c sub ih =>
    intro key a b
    cases key with
    | nil => simp [descend]
    | cons k rest =>
      simp only [descend]
      split
      · exact ih (itoa e) (Frame.Ls p c :: a) b
      · rfl
  | K p c sub n ihs ihn =>
    intro key a b
    cases key with
    | nil => simp [descend]
    | cons k rest =>
      simp only [descend]
      split
      · split
        · exact ihs (itoa e) (Frame.Ks p c n :: a) b
        · exact ihn rest (Frame.Kf p c sub :: a) b
      · rfl

theorem descend_base (e : Int) (t : Trie) (key : List Nat) (b : Path) :
    descend e t key b = ((descend e t key []).1 ++ b, (descend e t key []).2) := by
  have := descend_app e t key [] b
  simpa using this

theorem Frame.cut_params (g : Frame) : Path.params g.cut = (some [], -1, 127) := rfl

theorem Frame.cut_wf (g : Frame) (cnt : Nat) (hc : g.char < 128) (h2 : 2 ≤ cnt) :
    Path.WF g.cut cnt := by
  simp only [Frame.cut, Path.WF, Path.params]
  refine ⟨trivial, ?_, ?_, h2, trivial⟩
  · omega
  · omega

theorem Path.inSub_append_cut : ∀ (P : Path) (g : Frame), Path.inSub (P ++ g.cut) = true := by
  intro P
  induction P with
  | nil => intro g; rfl
  | cons f P ih =>
    intro g
    cases f <;> first | rfl | exact ih g

/-- What the descent knows of the frame above, told on the path cut above the
base of the branch, holds on the path of the whole tree. -/
theorem Path.LinkOk.of_cut (P : Path) (g : Frame) (outer : Path) (k : Nat)
    (hg : g.isDup = true) (h : Path.LinkOk (P ++ g.cut) k) :
    Path.LinkOk (P ++ g :: outer) k := by
  cases P with
  | nil =>
    cases g <;> trivial
  | cons f P =>
    cases f with
    | Rf p c e => trivial
    | Xf p c => trivial
    | Kf p c sub =>
      simp only [List.cons_append, Path.LinkOk] at h
      rw [Path.inSub_append_cut] at h
      cases h
    | Ks p c n => trivial
    | Ls p c => trivial
    | Dl p c r => exact h
    | Dr p c l => exact h

theorem Frame.elems_fill_mem (f : Frame) (t : Trie) (x : Int) (h : x ∈ t.elems) :
    x ∈ (f.fill t).elems := by
  cases f <;> simp [Frame.fill, Trie.elems, h]

theorem Path.elems_plug_mem : ∀ (P : Path) (t : Trie) (x : Int), x ∈ t.elems →
    x ∈ (Path.plug P t).elems := by
  intro P
  induction P with
  | nil => intro t x h; exact h
  | cons f P ih =>
    intro t x h
    exact ih _ x (f.elems_fill_mem t x h)

/-- Inside a duplicates branch the descent of `Insert` stops where the
descent through the tree stops: no duplicates branch is made or entered. -/
theorem InsStops.of_sub {e : Int} {cw : Path} {t : Trie} {k : Nat} {rest : List Nat}
    (hw : Trie.WF (Path.params cw).1 (Path.params cw).2.1 (Path.params cw).2.2 t)
    (hm : (Path.params cw).1 ≠ none) (hk : KeyOk e cw (k :: rest))
    (hs : Stops t (k :: rest)) : InsStops e t k rest := by
  obtain ⟨w, hw'⟩ := Option.ne_none_iff_exists'.mp hm
  have hkey := hk.2.2 w hw'
  cases t with
  | S p c e0 =>
    rintro ⟨⟨hkc, _⟩, hr, hne⟩
    have h1 := hw.2.2 w hw'
    rw [hr, hkc, h1] at hkey
    exact hne (itoa_injective hkey.symm)
  | R p c e0 n =>
    rintro ⟨hkc, _⟩
    have hr : rest = [] := by
      by_contra hr
      exact hs ⟨hkc, hr⟩
    refine ⟨hr, ?_⟩
    have h1 := hw.2.2.1 w hw'
    rw [hr, hkc, h1] at hkey
    exact itoa_injective hkey.symm
  | X p c n =>
    rintro ⟨⟨hkc, _⟩, hr⟩
    exact hs ⟨hkc, hr⟩
  | D p c l r => exact absurd hs (by simp [Stops])
  | L p c sub => exact absurd hw.1 hm
  | K p c sub n => exact absurd hw.1 hm

/-- The tree with the element put in is well-formed where the old one was. -/
theorem Inserted.wf_sub {e : Int} {cw : Path} {t t' : Trie} {k : Nat} {rest : List Nat}
    (h : Inserted e k rest t t')
    (hw : Trie.WF (Path.params cw).1 (Path.params cw).2.1 (Path.params cw).2.2 t)
    (hp : Path.WF cw (t.extra + 2)) (hk : KeyOk e cw (k :: rest)) :
    Trie.WF (Path.params cw).1 (Path.params cw).2.1 (Path.params cw).2.2 t' := by
  have hcb := hw.char_bounds
  have hhi := (Path.WF.hi_le cw _ hp).1
  have hc : t.char < 128 := by omega
  have hkb := hk.bounds
  cases h with
  | supS p c e0 res h1 h2 h3 h4 =>
    subst h1
    exact ⟨hw.1, hw.2.1, hw.2.2, hk.rest_wf res h4⟩
  | supL p c sub res h1 h2 h3 h4 =>
    subst h1
    exact ⟨hw.1, hw.2.1, hw.2.2.1, hw.2.2.2.1, hw.2.2.2.2, hk.rest_wf_none res h4⟩
  | promote p c n h1 h2 h3 =>
    subst h1 h3
    exact ⟨hw.1, hw.2.1, hk.2.2, hw.2.2⟩
  | lt t dp res h1 h2 h3 =>
    rw [strLt_lo k hc] at h2
    simp only [decide_eq_true_eq] at h2
    exact ⟨hkb.1, hkb.2, hk.chain_wf res h3 _ _ hkb.1 (le_refl _),
      hw.rebound t _ _ _ _ (Trie.isD_false_ne h1) (by omega) hcb.2⟩
  | gt t dp res h1 h2 h3 =>
    rw [strGt_lo k hc] at h2
    simp only [decide_eq_true_eq] at h2
    exact ⟨hcb.1, hcb.2, hw.rebound t _ _ _ _ (Trie.isD_false_ne h1) hcb.1 (le_refl _),
      hk.chain_wf res h3 _ _ (by omega) hkb.2⟩

/-! ## Insert inside a duplicates branch -/

theorem Path.plug_cut (P : Path) (g : Frame) (t : Trie) :
    Path.plug (P ++ g.cut) t = Trie.L g.addr g.char (Path.plug P t) := by
  rw [Path.plug_append]; rfl

/-- The run of `Insert` from the root of a duplicates branch, with the
decimal rendering of the element as the key: the element is in the branch
and nothing changes, or it is put in and the branch stays well-formed. -/
theorem insert_sub (e : Int) (ix : Index) (fl : List Nat) (g : Frame) (outer : Path)
    (sub : Trie) (st : InsertState) (hg : g.isDup = true) (hc : g.char < 128)
    (h : AtFocus ix fl (g :: outer) sub) (hst : InsertAt ix st (g :: outer) sub (itoa e))
    (hw : Trie.WF (some []) (-1) 127 sub) :
    ∃ res out, (∀ f, sub.size + 1 ≤ f → runLoop (insertBody e) f st = some res ∧
        insertOutcome f e res = some out) ∧
      ((out = (false, ix) ∧ e ∈ sub.elems) ∨
       ∃ ix' fl' sub', out = (true, ix') ∧ AtFocus ix' fl' (g :: outer) sub' ∧
         Trie.WF (some []) (-1) 127 sub' ∧ 2 ≤ sub'.elems.length ∧
         ix'.keyCount = ix.keyCount + 1 ∧ Taken ix.node.length ix'.node.length fl fl') := by
  have hpf : Path.WF g.cut (sub.extra + 2) := g.cut_wf _ hc (by omega)
  have hkf : KeyOk e g.cut (itoa e) := KeyOk.enter (Frame.Ls g.addr g.char) [] rfl
  have hwf : Trie.WF (Path.params g.cut).1 (Path.params g.cut).2.1 (Path.params g.cut).2.2 sub := hw
  have hfacts := descend_facts e 2 (by omega) sub (itoa e) g.cut hwf hpf hkf
  have hmode := descend_mode e sub (itoa e) g.cut (by simp [Frame.cut_params]) hwf
  have hasc := hw.ascii sub _ _ _ (le_refl _)
  obtain ⟨st', hst', hfuel⟩ :=
    insert_descend e ix sub _ (itoa e) (g :: outer) st h.tree hasc hst (itoa_ne_nil e)
  rw [descend_base e sub (itoa e) (g :: outer)] at hst'
  rw [descend_base e sub (itoa e) g.cut] at hfacts hmode
  generalize descend e sub (itoa e) [] = r at hfacts hst' hmode
  obtain ⟨P, rt, rk⟩ := r
  obtain ⟨h1, h2, h3, h4, _, h6⟩ := hfacts
  simp only at h1 h2 h3 h4 h6 hst' hmode
  have hplug : Path.plug P rt = sub := by
    rw [Path.plug_cut] at h1
    simp only [Frame.cut, Path.plug, Frame.fill, Trie.L.injEq] at h1
    exact h1.2.2
  have hfoc : AtFocus ix fl (P ++ g :: outer) rt := by
    rw [AtFocus.append_iff, hplug]; exact h
  obtain ⟨k, rest, hkr⟩ := ne_nil_cons h4.ne_nil_key
  subst hkr
  have hstop : InsStops e rt k rest := InsStops.of_sub h2 hmode h4 h6
  have hlk : Path.LinkOk (P ++ g :: outer) k :=
    Path.LinkOk.of_cut P g outer k hg (Path.LinkOk.link_of_wf e _ _ k rest h3 h4)
  obtain ⟨res, out, hbody, hout, hres⟩ :=
    insert_stop_gen e ix fl (P ++ g :: outer) st' rt k rest hfoc hst' hlk hstop
  have hsz : rt.size ≤ sub.size := by
    rw [← hplug]; exact Path.size_plug P rt
  refine ⟨res, out, fun f hf => ⟨?_, hout f (by omega)⟩, ?_⟩
  · have h0 := hfuel 1 res (runLoop_exit _ 0 st' res hbody)
    exact runLoop_mono _ _ _ _ h0 f (by omega)
  rcases hres with ⟨ho, _, _, ht⟩ | ⟨ix', fl', t', ho, hf', hins, hcnt, htk⟩
  · refine Or.inl ⟨ho, ?_⟩
    rw [← hplug]
    refine Path.elems_plug_mem P rt e ?_
    rcases ht with ⟨p, rfl⟩ | ⟨p, n, rfl⟩ <;> simp [Trie.elems]
  · have hw' := hins.wf_sub h2 h3 h4
    have hp' : Path.WF (P ++ g.cut) t'.elems.length := by
      rw [hins.elems_length, ← Trie.extra_add_one]
      exact h3
    have := Path.WF.plug (P ++ g.cut) t' hw' hp'
    rw [Path.plug_cut] at this
    exact Or.inr ⟨ix', fl', Path.plug P t', ho, (AtFocus.append_iff _ _ _ _ _).mp hf',
      this.2.2.2.1, this.2.2.2.2, hcnt, htk⟩

/-! ## Insert on a tree with arbitrary key bytes -/

/-- The pass of the loop of `Insert` that enters a duplicates branch. -/
theorem insert_enter (e : Int) (ix : Index) (st : InsertState) (ctx : Path) (t : Trie)
    (th : Int) (k : Nat) (hl : Trie.Laid ix.node t th) (hst : InsertAt ix st ctx t [k])
    (hc : k < 128) :
    (∀ p sub, t = Trie.L p k sub → ∃ st1, insertBody e st = some (LoopStep.next st1) ∧
      InsertAt ix st1 (Frame.Ls p k :: ctx) sub (itoa e)) ∧
    (∀ p sub n, t = Trie.K p k sub n → ∃ st1, insertBody e st = some (LoopStep.next st1) ∧
      InsertAt ix st1 (Frame.Ks p k n :: ctx) sub (itoa e)) := by
  obtain ⟨six, sks, skl, sprev, sptr, sdup, si⟩ := st
  obtain ⟨h1, h2, h3, h4, h5, h6⟩ := hst
  simp only at h1 h2 h3 h4 h5 h6
  subst h1 h3 h4 h5 h6
  have hlast : si + 1 = sks.length := (last_iff_of_drop h2).mpr rfl
  constructor
  · intro p sub ht
    subst ht
    simp only [Trie.Laid] at hl
    refine ⟨⟨six, itoa e, (itoa e).length, (p : Int), (sub.addr : Int), true, 0⟩, ?_,
      ⟨rfl, rfl, rfl, rfl, rfl, rfl⟩⟩
    simp [insertBody, Trie.addr, hl.1, sliceOne_drop h2, byteToString_ascii hc, hlast,
      decimaliseNumber]
  · intro p sub n ht
    subst ht
    simp only [Trie.Laid] at hl
    refine ⟨⟨six, itoa e, (itoa e).length, (p : Int), (sub.addr : Int), true, 0⟩, ?_,
      ⟨rfl, rfl, rfl, rfl, rfl, rfl⟩⟩
    simp [insertBody, Trie.addr, hl.1, sliceOne_drop h2, byteToString_ascii hc, hlast,
      decimaliseNumber]

theorem Frame.tops_fill_dup {g : Frame} (hg : g.isDup = true) (t : Trie) :
    (g.fill t).tops = [g.char] := by
  cases g <;> first | rfl | simp [Frame.isDup] at hg

/-- The run of `Insert` from the pass of its loop that enters or makes a
duplicates branch below a path in the main part of the tree. -/
theorem insert_via_sub (e : Int) (ix ix1 : Index) (fl fl1 : List Nat) (g : Frame) (rc : Path)
    (t0 sub : Trie) (st' st1 : InsertState)
    (hm : Path.Main rc) (hwT : (Path.plug rc t0).WFg) (ht0 : t0.tops = [g.char])
    (hg : g.isDup = true) (hc : g.char < 128)
    (hbody : insertBody e st' = some (LoopStep.next st1))
    (h1 : AtFocus ix1 fl1 (g :: rc) sub) (hst1 : InsertAt ix1 st1 (g :: rc) sub (itoa e))
    (hw : Trie.WF (some []) (-1) 127 sub)
    (hrest : ∀ sub', Trie.WF (some []) (-1) 127 sub' → 2 ≤ sub'.elems.length →
      (g.fill sub').WFg)
    (hcnt1 : ix1.keyCount = ix.keyCount)
    (htk1 : Taken ix.node.length ix1.node.length fl fl1) :
    ∃ res out, (∀ f, sub.size + 2 ≤ f → runLoop (insertBody e) f st' = some res ∧
        insertOutcome f e res = some out) ∧
      ((out = (false, ix1) ∧ e ∈ sub.elems) ∨
       ∃ ix' fl' T', out = (true, ix') ∧ AtFocus ix' fl' [] T' ∧ T'.WFg ∧
         ix'.keyCount = ix.keyCount + 1 ∧ Taken ix.node.length ix'.node.length fl fl') := by
  obtain ⟨res, out, hrun, hres⟩ := insert_sub e ix1 fl1 g rc sub st1 hg hc h1 hst1 hw
  refine ⟨res, out, fun f hf => ⟨?_, (hrun f (by omega)).2⟩, ?_⟩
  · exact runLoop_step _ _ _ _ (sub.size + 1) f hbody (hrun _ (le_refl _)).1 (by omega)
  rcases hres with hfalse | ⟨ix', fl', sub', ho, hf', hw', h2, hcnt, htk⟩
  · exact Or.inl hfalse
  · refine Or.inr ⟨ix', fl', Path.plug rc (g.fill sub'), ho,
      (AtFocus.plug_iff _ _ _ _).mpr (AtFocus.up g hf'), ?_, by rw [hcnt, hcnt1],
      htk1.then htk⟩
    exact Trie.WFg.replace_tops rc t0 (g.fill sub') hm hwT (hrest sub' hw' h2)
      (by rw [g.tops_fill_dup hg, ht0])

theorem chain_wf_sub (chain : Trie) (e0 : Int) (h : chain.IsChain (itoa e0) e0) :
    Trie.WF (some []) (-1) 127 chain := by
  refine Trie.IsChain.wf chain _ e0 _ _ _ h (itoa_ascii e0) ?_ (by intro w hw'; cases hw'; simp)
  intro k' rest' heq
  have := itoa_ascii e0 k' (by rw [heq]; simp)
  constructor <;> omega

theorem chain_elems (chain : Trie) (ks : List Nat) (e0 : Int) (h : chain.IsChain ks e0) :
    chain.elems = [e0] := by
  rw [Trie.elems_eq_ents, h.ents]; rfl

/-- The descent loop of `Insert` on a tree that is well-formed in the general
sense, and what follows it: for enough fuel the loop leaves with `res` and
`Insert` returns `out`; either nothing has changed, or the index holds a
well-formed tree again, the slots of the new nodes taken from the free list
in its order and then from the end of the arena. -/
theorem insert_treeG (e : Int) (ix : Index) (fl : List Nat) (st : InsertState) (T : Trie)
    (key : List Nat) (h : AtFocus ix fl [] T) (hw : T.WFg)
    (hst : InsertAt ix st [] T key) (hkey : key ≠ []) :
    ∃ N res out, (∀ f, N ≤ f → runLoop (insertBody e) f st = some res ∧
        insertOutcome f e res = some out) ∧
      (out = (false, ix) ∨
       ∃ ix' fl' T', out = (true, ix') ∧ AtFocus ix' fl' [] T' ∧ T'.WFg ∧
         ix'.keyCount = ix.keyCount + 1 ∧ Taken ix.node.length ix'.node.length fl fl') := by
  have hfacts := descendM_facts T key [] hkey (fun _ _ _ => trivial)
  obtain ⟨st', hst', hfuel⟩ := insert_descendM e ix T _ key [] st h.tree hst hkey
  generalize descendM T key [] = r at hfacts hst'
  obtain ⟨rc, rt, rk⟩ := r
  obtain ⟨h1, h2, h3, _, h5⟩ := hfacts
  simp only at h1 h2 h3 h5 hst'
  simp only [Path.plug] at h1
  have hmain := h2 Path.Main.main_nil
  have hfoc : AtFocus ix fl rc rt := by
    rw [← AtFocus.plug_iff, h1]; exact h
  obtain ⟨k, rest, hkr⟩ := ne_nil_cons h5.ne_nil_stops
  subst hkr
  have hhist := h3 k rest rfl
  have hlk := Path.Hist.linkOk rc k hhist hmain
  have hwT : (Path.plug rc rt).WFg := by rw [h1]; exact hw
  have hwt : rt.WFg := Trie.WFg.of_plug rc rt hmain hwT
  have hsz : rt.size ≤ T.size := by rw [← h1]; exact Path.size_plug rc rt
  -- the result of the passes of the loop from the node where the descent stops
  have fin : ∀ (n : Nat) (res : InsertExit) (out : Bool × Index),
      (∀ f, n ≤ f → runLoop (insertBody e) f st' = some res ∧
        insertOutcome f e res = some out) →
      ∀ f, n + T.size ≤ f → runLoop (insertBody e) f st = some res ∧
        insertOutcome f e res = some out := by
    intro n res out hrun f hf
    refine ⟨?_, (hrun f (by omega)).2⟩
    exact runLoop_mono _ _ _ _ (hfuel n res (hrun n (le_refl _)).1) f (by omega)
  by_cases hstop : InsStops e rt k rest
  · obtain ⟨res, out, hbody, hout, hres⟩ :=
      insert_stop_gen e ix fl rc st' rt k rest hfoc hst' hlk hstop
    refine ⟨rt.size + 1 + T.size, res, out, fin (rt.size + 1) res out (fun f hf =>
      ⟨runLoop_exit' _ _ _ f hbody (by omega), hout f (by omega)⟩), ?_⟩
    rcases hres with ⟨ho, _⟩ | ⟨ix', fl', t', ho, hf', hins, hcnt, htk⟩
    · exact Or.inl ho
    · refine Or.inr ⟨ix', fl', Path.plug rc t', ho, (AtFocus.plug_iff _ _ _ _).mpr hf', ?_,
        hcnt, htk⟩
      refine Trie.WFg.replace rc rt t' hmain hwT (hins.wfg hwt) ?_ ?_
      · intro x hx
        rcases hins.tops_sub.1 x hx with hx1 | hx1
        · exact Or.inl hx1
        · exact Or.inr (by rw [hx1]; exact Path.Hist.fits rc k hhist)
      · rintro ⟨x, hx, hx2⟩
        exact ⟨x, hins.tops_sub.2 x hx, hx2⟩
  -- a duplicates branch is made or entered
  cases rt with
  | S p c e0 =>
    have hcase : (k = c ∧ c < 128) ∧ rest = [] ∧ e ≠ e0 := by
      by_contra hc
      exact hstop hc
    obtain ⟨⟨hkc, hc⟩, hr, hne⟩ := hcase
    subst hkc hr
    obtain ⟨ix1, fl1, chain, st1, g1, g2, g3, g4, g5, g6⟩ :=
      insert_dup_S_gen e ix fl rc st' p k e0 hfoc hst' hc hne
    obtain ⟨res, out, hrun, hres⟩ := insert_via_sub e ix ix1 fl fl1 (Frame.Ls p k) rc
      (Trie.S p k e0) chain st' st1 hmain hwT rfl rfl hc g1 g2 g4 (chain_wf_sub chain e0 g3)
      (fun sub' hw' h2' => ⟨hc, hw', h2'⟩) g5 g6
    refine ⟨chain.size + 2 + T.size, res, out, fin _ res out hrun, ?_⟩
    rcases hres with ⟨_, hmem⟩ | hres
    · rw [chain_elems chain _ e0 g3] at hmem
      exact absurd (List.mem_singleton.mp hmem) hne
    · exact Or.inr hres
  | R p c e0 n =>
    have hcase : (k = c ∧ c < 128) ∧ ¬ (rest = [] ∧ e = e0) := by
      by_contra hc
      apply hstop
      intro hm
      by_contra hc2
      exact hc ⟨hm, hc2⟩
    obtain ⟨⟨hkc, hc⟩, hne⟩ := hcase
    have hr : rest = [] := by
      by_contra hr
      exact h5 ⟨⟨hkc, hc⟩, hr⟩
    subst hkc hr
    have hne' : e ≠ e0 := fun he => hne ⟨rfl, he⟩
    obtain ⟨ix1, fl1, chain, st1, g1, g2, g3, g4, g5, g6⟩ :=
      insert_dup_R_gen e ix fl rc st' p k e0 n hfoc hst' hc hne'
    obtain ⟨res, out, hrun, hres⟩ := insert_via_sub e ix ix1 fl fl1 (Frame.Ks p k n) rc
      (Trie.R p k e0 n) chain st' st1 hmain hwT rfl rfl hc g1 g2 g4 (chain_wf_sub chain e0 g3)
      (fun sub' hw' h2' => ⟨hc, hw', h2', hwt⟩) g5 g6
    refine ⟨chain.size + 2 + T.size, res, out, fin _ res out hrun, ?_⟩
    rcases hres with ⟨_, hmem⟩ | hres
    · rw [chain_elems chain _ e0 g3] at hmem
      exact absurd (List.mem_singleton.mp hmem) hne'
    · exact Or.inr hres
  | X p c n => exact absurd h5 hstop
  | D p c l r => exact absurd h5 (by simp [StopsM])
  | L p c sub =>
    have hcase : (k = c ∧ c < 128) ∧ rest = [] := by
      by_contra hc
      exact hstop hc
    obtain ⟨⟨hkc, hc⟩, hr⟩ := hcase
    subst hkc hr
    obtain ⟨st1, g1, g4⟩ := (insert_enter e ix st' rc _ _ k hfoc.tree hst' hc).1 p sub rfl
    obtain ⟨res, out, hrun, hres⟩ := insert_via_sub e ix ix fl fl (Frame.Ls p k) rc
      (Trie.L p k sub) sub st' st1 hmain hwT rfl rfl hc g1 (AtFocus.down (Frame.Ls p k) hfoc)
      g4 hwt.2.1 (fun sub' hw' h2' => ⟨hc, hw', h2'⟩) rfl (Taken.none _ _)
    refine ⟨sub.size + 2 + T.size, res, out, fin _ res out hrun, ?_⟩
    rcases hres with ⟨ho, _⟩ | hres
    · exact Or.inl ho
    · exact Or.inr hres
  | K p c sub n =>
    have hcase : k = c ∧ c < 128 := by
      by_contra hc
      exact hstop hc
    obtain ⟨hkc, hc⟩ := hcase
    have hr : rest = [] := by
      by_contra hr
      exact h5 ⟨⟨hkc, hc⟩, hr⟩
    subst hkc hr
    obtain ⟨st1, g1, g4⟩ := (insert_enter e ix st' rc _ _ k hfoc.tree hst' hc).2 p sub n rfl
    obtain ⟨res, out, hrun, hres⟩ := insert_via_sub e ix ix fl fl (Frame.Ks p k n) rc
      (Trie.K p k sub n) sub st' st1 hmain hwT rfl rfl hc g1
      (AtFocus.down (Frame.Ks p k n) hfoc) g4 hwt.2.1
      (fun sub' hw' h2' => ⟨hc, hw', h2', hwt.2.2.2⟩) rfl (Taken.none _ _)
    refine ⟨sub.size + 2 + T.size, res, out, fin _ res out hrun, ?_⟩
    rcases hres with ⟨ho, _⟩ | hres
    · exact Or.inl ho
    · exact Or.inr hres

/-! ## Insert on an index with arbitrary key bytes -/

theorem InvG.free_list_g {ix : Index} {fl : List Nat} {oT : Option Trie} (h : InvG ix fl oT) :
    FreeList ix.node ix.deletedRootPointer fl := by
  cases oT with
  | none => exact h.2.1
  | some T => exact h.1.free

/-- Every call of `Insert` on an index that holds a well-formed tree, with a
key of arbitrary bytes, returns for enough fuel; either it returns false and
the index is unchanged, or it returns true and the index holds a well-formed
tree again, with one key more, the slots of the new nodes taken from the free
list in its order and then from the end of the arena. -/
theorem insert_invG (ix : Index) (fl : List Nat) (oT : Option Trie) (k : List Nat) (e : Int)
    (h : InvG ix fl oT) :
    ∃ N out, (∀ f, N ≤ f → Insert f k e ix = some out) ∧
      (out = (false, ix) ∨
       ∃ ix' fl' T', out = (true, ix') ∧ InvG ix' fl' (some T') ∧
          ix'.keyCount = ix.keyCount + 1 ∧
          Taken ix.node.length ix'.node.length fl fl') := by
  by_cases hnil : (validate k).1 = []
  · refine ⟨0, (false, ix), fun f _ => ?_, Or.inl rfl⟩
    rw [Insert_eq, if_pos (by rw [validate_snd, hnil]; rfl)]
  have hlen : (validate k).2 ≠ 0 := by
    rw [validate_snd]
    exact fun hc => hnil (List.length_eq_zero.mp hc)
  cases oT with
  | none =>
    obtain ⟨hroot, hfree, hperm⟩ := h
    obtain ⟨res, ix', fl', hext, hchain, hE⟩ := extend_spec (validate k).1 e nullIndexPointer ix fl
      hnil hfree (hperm.nodup_iff.mpr (List.nodup_range _))
    refine ⟨0, (true, { ix' with indexRootPointer := (res.addr : Int),
                                 keyCount := ix'.keyCount + 1 }), fun f _ => ?_,
      Or.inr ⟨_, fl', res, rfl, ⟨⟨?_, trivial, hE.laid, hE.free, ?_⟩, hchain.chain_wfg⟩, ?_, hE.taken⟩⟩
    · rw [Insert_eq, if_neg hlen, if_pos hroot, hext]
    · rfl
    · have h1 := hE.perm
      simp only [List.nil_append] at h1
      simp only [Path.addrs, List.nil_append]
      refine h1.trans ?_
      rw [← range_append_range' _ _ hE.len]
      exact List.Perm.append_right _ hperm
    · simp only; rw [hE.count]
  | some T =>
    obtain ⟨hfoc, hw⟩ := h
    have hroot : ix.indexRootPointer ≠ nullIndexPointer := by
      rw [hfoc.root]; exact natCast_ne_null _
    obtain ⟨N, res, out, hrun, hout⟩ := insert_treeG e ix fl
      ⟨ix, (validate k).1, (validate k).2, nullIndexPointer, ix.indexRootPointer, false, 0⟩
      T (validate k).1 hfoc hw ⟨rfl, rfl, rfl, rfl, hfoc.root, rfl⟩ hnil
    refine ⟨N, out, fun f hf => ?_, ?_⟩
    · rw [Insert_eq, if_neg hlen, if_neg hroot, (hrun f hf).1]
      exact (hrun f hf).2
    · rcases hout with h1 | ⟨ix', fl', T', h1, h2, h3, h4, h5⟩
      · exact Or.inl h1
      · exact Or.inr ⟨ix', fl', T', h1, ⟨h2, h3⟩, h4, h5⟩

/-! ## Delete: where the descent through the main part stops -/

/-- The pass of the descent loop of `Delete` at the node where the descent
through the main part of the tree stops: the key and the element are matched
at a terminal or a key node, or a duplicates branch is entered, or the pair
is not in the tree. -/
theorem delete_stop_gen (e : Int) (ix : Index) (st : DeleteState) (ctx : Path) (t : Trie)
    (th : Int) (k : Nat) (rest : List Nat) (hl : Trie.Laid ix.node t th)
    (hst : DeleteAt st ctx t (k :: rest)) (hstop : StopsM t (k :: rest)) :
    (∃ p, t = Trie.S p k e ∧ rest = [] ∧ k < 128 ∧
      deleteBody e ix st = some (LoopStep.exit (DeleteExit.matched st))) ∨
    (∃ p n, t = Trie.R p k e n ∧ rest = [] ∧ k < 128 ∧
      deleteBody e ix st = some (LoopStep.exit (DeleteExit.matched
        { st with deleteIndexPointer := st.indexPointer,
                  linkPreviousPointer := st.previousIndexPointer }))) ∨
    (∃ p sub st1, t = Trie.L p k sub ∧ rest = [] ∧ k < 128 ∧
      deleteBody e ix st = some (LoopStep.next st1) ∧
      DeleteAt st1 (Frame.Ls p k :: ctx) sub (itoa e)) ∨
    (∃ p sub n st1, t = Trie.K p k sub n ∧ rest = [] ∧ k < 128 ∧
      deleteBody e ix st = some (LoopStep.next st1) ∧
      DeleteAt st1 (Frame.Ks p k n :: ctx) sub (itoa e)) ∨
    deleteBody e ix st = some (LoopStep.exit DeleteExit.notFound) := by
  obtain ⟨sks, skl, sprev, sdele, sdup, slprev, sptr, sbranch, si⟩ := st
  obtain ⟨h2, h3, h4, h5, h6, h7, h8, h9⟩ := hst
  simp only at h2 h3 h4 h5 h6 h7 h8 h9
  subst h3 h4 h5 h6 h7 h8 h9
  have hlast := last_iff_of_drop h2
  by_cases hm : k = t.char ∧ t.char < 128
  swap
  · have hne : [k] ≠ byteToString t.char :=
      fun hc => hm ((single_eq_byteToString k t.char).mp hc).symm
    refine Or.inr (Or.inr (Or.inr (Or.inr ?_)))
    cases t with
    | S p c e' =>
      have hl' : ix.node[p]? = some ⟨indexTerminalNode, e', c, th⟩ := hl
      simp only [Trie.char] at hne
      simp [deleteBody, hl', sliceOne_drop h2, hne,
        indexTerminalNode, decisionNode, duplicateKeyNode, indexKeyNode]
    | R p c e' n =>
      have hl' : ix.node[p]? = some ⟨indexKeyNode, e', c, (n.addr : Int)⟩ := hl.1
      simp only [Trie.char] at hne
      simp [deleteBody, hl', sliceOne_drop h2, hne]
    | X p c n =>
      have hl' : ix.node[p]? = some ⟨characterNode, nullIndexPointer, c, (n.addr : Int)⟩ := hl.1
      simp only [Trie.char] at hne
      simp [deleteBody, hl', sliceOne_drop h2, hne,
        characterNode, indexTerminalNode, decisionNode, duplicateKeyNode, indexKeyNode,
        duplicateTerminalNode]
    | D p c l r => exact absurd hstop (by simp [StopsM])
    | L p c sub =>
      have hl' : ix.node[p]? = some ⟨duplicateTerminalNode, (sub.addr : Int), c, th⟩ := hl.1
      simp only [Trie.char] at hne
      simp [deleteBody, hl', sliceOne_drop h2, hne,
        characterNode, indexTerminalNode, decisionNode, duplicateKeyNode, indexKeyNode,
        duplicateTerminalNode]
    | K p c sub n =>
      have hl' : ix.node[p]? = some ⟨duplicateKeyNode, (sub.addr : Int), c, (n.addr : Int)⟩ :=
        hl.1
      simp only [Trie.char] at hne
      simp [deleteBody, hl', sliceOne_drop h2, hne,
        characterNode, indexTerminalNode, decisionNode, duplicateKeyNode, indexKeyNode,
        duplicateTerminalNode]
  obtain ⟨hkc, hc⟩ := hm
  cases t with
  | S p c e' =>
    simp only [Trie.char] at hkc hc
    subst hkc
    have hl' : ix.node[p]? = some ⟨indexTerminalNode, e', k, th⟩ := hl
    by_cases hr : rest = []
    · by_cases he : e' = e
      · subst he
        refine Or.inl ⟨p, rfl, hr, hc, ?_⟩
        simp [deleteBody, hl', sliceOne_drop h2, byteToString_ascii hc, hlast, hr,
          indexTerminalNode, decisionNode, duplicateKeyNode, indexKeyNode]
      · refine Or.inr (Or.inr (Or.inr (Or.inr ?_)))
        simp [deleteBody, hl', sliceOne_drop h2, byteToString_ascii hc, hlast, hr, he,
          indexTerminalNode, decisionNode, duplicateKeyNode, indexKeyNode]
    · refine Or.inr (Or.inr (Or.inr (Or.inr ?_)))
      simp [deleteBody, hl', sliceOne_drop h2, byteToString_ascii hc, hlast, hr,
        indexTerminalNode, decisionNode, duplicateKeyNode, indexKeyNode]
  | R p c e' n =>
    simp only [Trie.char] at hkc hc
    subst hkc
    have hl' : ix.node[p]? = some ⟨indexKeyNode, e', k, (n.addr : Int)⟩ := hl.1
    have hr : rest = [] := by
      by_contra hr
      exact hstop ⟨⟨rfl, hc⟩, hr⟩
    by_cases he : e' = e
    · subst he
      refine Or.inr (Or.inl ⟨p, n, rfl, hr, hc, ?_⟩)
      simp [deleteBody, hl', sliceOne_drop h2, byteToString_ascii hc, hlast, hr]
    · refine Or.inr (Or.inr (Or.inr (Or.inr ?_)))
      simp [deleteBody, hl', sliceOne_drop h2, byteToString_ascii hc, hlast, hr, he]
  | X p c n =>
    simp only [Trie.char] at hkc hc
    subst hkc
    have hl' : ix.node[p]? = some ⟨characterNode, nullIndexPointer, k, (n.addr : Int)⟩ := hl.1
    have hr : rest = [] := by
      by_contra hr
      exact hstop ⟨⟨rfl, hc⟩, hr⟩
    refine Or.inr (Or.inr (Or.inr (Or.inr ?_)))
    simp [deleteBody, hl', sliceOne_drop h2, byteToString_ascii hc, hlast, hr,
      characterNode, indexTerminalNode, decisionNode, duplicateKeyNode, indexKeyNode,
      duplicateTerminalNode]
  | D p c l r => exact absurd hstop (by simp [StopsM])
  | L p c sub =>
    simp only [Trie.char] at hkc hc
    subst hkc
    have hl' : ix.node[p]? = some ⟨duplicateTerminalNode, (sub.addr : Int), k, th⟩ := hl.1
    by_cases hr : rest = []
    · refine Or.inr (Or.inr (Or.inl ⟨p, sub,
        ⟨itoa e, (itoa e).length, (p : Int), Path.dele ctx, (p : Int),
          Path.lprev ctx, (sub.addr : Int), Path.branch ctx, 0⟩, rfl, hr, hc, ?_,
        ⟨rfl, rfl, rfl, rfl, rfl, rfl, rfl, rfl⟩⟩))
      simp [deleteBody, Trie.addr, hl', sliceOne_drop h2, byteToString_ascii hc, hlast, hr,
        decimaliseNumber, characterNode, indexTerminalNode, decisionNode, duplicateKeyNode,
        indexKeyNode, duplicateTerminalNode]
    · refine Or.inr (Or.inr (Or.inr (Or.inr ?_)))
      simp [deleteBody, hl', sliceOne_drop h2, byteToString_ascii hc, hlast, hr,
        characterNode, indexTerminalNode, decisionNode, duplicateKeyNode, indexKeyNode,
        duplicateTerminalNode]
  | K p c sub n =>
    simp only [Trie.char] at hkc hc
    subst hkc
    have hl' : ix.node[p]? = some ⟨duplicateKeyNode, (sub.addr : Int), k, (n.addr : Int)⟩ :=
      hl.1
    have hr : rest = [] := by
      by_contra hr
      exact hstop ⟨⟨rfl, hc⟩, hr⟩
    refine Or.inr (Or.inr (Or.inr (Or.inl ⟨p, sub, n,
      ⟨itoa e, (itoa e).length, (p : Int), (p : Int), (p : Int),
        Path.prev ctx, (sub.addr : Int), Path.branch ctx, 0⟩, rfl, hr, hc, ?_,
      ⟨rfl, rfl, rfl, rfl, rfl, rfl, rfl, rfl⟩⟩)))
    simp [deleteBody, Trie.addr, hl', sliceOne_drop h2, byteToString_ascii hc, hlast, hr,
      decimaliseNumber]

/-! ## Delete in the main part of a tree with arbitrary key bytes -/

theorem AtFocus.length_eq {ix : Index} {fl : List Nat} {ctx : Path} {t : Trie}
    (h : AtFocus ix fl ctx t) :
    (Path.addrs ctx).length + t.addrs.length + fl.length = ix.node.length := by
  have := h.perm.length_eq
  simp only [List.length_append, List.length_range] at this
  omega

/-- A chain of matched character nodes has an ASCII byte at its top. -/
theorem Path.IsX.tops_x : ∀ (xp : Path) (t : Trie), Path.IsX xp → Path.Matched xp →
    (∀ x ∈ t.tops, x < 128) → ∀ x ∈ (Path.plug xp t).tops, x < 128 := by
  intro xp
  induction xp with
  | nil => intro t _ _ h; exact h
  | cons f xp ih =>
    intro t hx hm ht
    obtain ⟨p, c, rfl⟩ := hx.head
    refine ih _ hx.tail_x (fun g hg => hm g (List.mem_cons_of_mem _ hg)) ?_
    intro x hx'
    simp only [Frame.fill, Trie.tops, List.mem_singleton] at hx'
    subst hx'
    exact (hm _ (List.mem_cons_self _ _)).2.1 p x rfl

theorem Path.Matched.matched_append {a b : Path} (h : Path.Matched (a ++ b)) :
    Path.Matched a ∧ Path.Matched b :=
  ⟨fun f hf => h f (List.mem_append_left _ hf), fun f hf => h f (List.mem_append_right _ hf)⟩

theorem Path.Main.main_append {a b : Path} (h : Path.Main (a ++ b)) :
    Path.Main a ∧ Path.Main b :=
  ⟨fun f hf => h f (List.mem_append_left _ hf), fun f hf => h f (List.mem_append_right _ hf)⟩

theorem Trie.WFg.D_ascii_left {q cq : Nat} {l r : Trie} (h : (Trie.D q cq l r).WFg)
    (hl : ∀ x ∈ l.tops, x < 128) : cq < 128 := by
  by_contra hc
  have := h.2.2
  rw [if_neg hc] at this
  obtain ⟨x, hx, hx2⟩ := this.1
  have := hl x hx
  omega

theorem Trie.WFg.D_ascii_right {q cq : Nat} {l r : Trie} (h : (Trie.D q cq l r).WFg)
    (hr : ∃ x ∈ r.tops, x < 128) : cq < 128 := by
  by_contra hc
  have := h.2.2
  rw [if_neg hc] at this
  obtain ⟨x, hx, hx2⟩ := hr
  have := this.2 x hx
  omega

/-- Below a decision node the byte of a decision node with an ASCII byte
tells the side on which it hangs. -/
theorem Path.SideOk.of_wfg (ctx0 : Path) (q cq : Nat) (a b : Trie) (hm : Path.Main ctx0)
    (h : (Path.plug ctx0 (Trie.D q cq a b)).WFg) (hc : cq < 128) : Path.SideOk ctx0 cq := by
  cases ctx0 with
  | nil => trivial
  | cons f ctx1 =>
    have hf : (f.fill (Trie.D q cq a b)).WFg := Trie.WFg.of_plug ctx1 _ hm.tail_main h
    cases f with
    | Rf p c e => trivial
    | Xf p c => trivial
    | Kf p c sub => exact Path.Main.dup_main ctx1 hm.tail_main
    | Ks p c n => trivial
    | Ls p c => trivial
    | Dl p c r =>
      simp only [Frame.fill, Trie.WFg] at hf
      simp only [Path.SideOk]
      by_cases hcp : c < 128
      · have := hf.2.2
        rw [if_pos hcp] at this
        exact this.1 cq (by simp [Trie.tops])
      · omega
    | Dr p c l =>
      simp only [Frame.fill, Trie.WFg] at hf
      simp only [Path.SideOk]
      by_cases hcp : c < 128
      · have := hf.2.2
        rw [if_pos hcp] at this
        exact this.2 cq (by simp [Trie.tops])
      · have := hf.2.2
        rw [if_neg hcp] at this
        have := this.2 cq (by simp [Trie.tops])
        omega

/-- The tree stays well-formed when a decision node and the chain on its left
are taken out. -/
theorem Trie.WFg.cut_left (ctx0 : Path) (q cq : Nat) (chain r : Trie) (hm : Path.Main ctx0)
    (h : (Path.plug ctx0 (Trie.D q cq chain r)).WFg) (hch : ∀ x ∈ chain.tops, x < 128) :
    (Path.plug ctx0 r).WFg := by
  have hD : (Trie.D q cq chain r).WFg := Trie.WFg.of_plug ctx0 _ hm h
  have hc := hD.D_ascii_left hch
  refine Trie.WFg.replace ctx0 _ r hm h hD.2.1 (fun x hx => Or.inl (by simp [Trie.tops, hx])) ?_
  rintro ⟨x, hx, hx2⟩
  simp only [Trie.tops, List.mem_cons, List.mem_append] at hx
  rcases hx with rfl | hx | hx
  · omega
  · have := hch x hx; omega
  · exact ⟨x, hx, hx2⟩

/-- The tree stays well-formed when a decision node and the chain on its
right are taken out, the decision node above taking the byte of the subtree
that moves up if it hangs on the left and is no decision node. -/
theorem Trie.WFg.cut_right (ctx0 : Path) (q cq : Nat) (l chain : Trie) (hm : Path.Main ctx0)
    (h : (Path.plug ctx0 (Trie.D q cq l chain)).WFg) (hch : ∀ x ∈ chain.tops, x < 128) :
    (Path.plug (Path.reset ctx0 l) l).WFg := by
  have hD : (Trie.D q cq l chain).WFg := Trie.WFg.of_plug ctx0 _ hm h
  have hc := hD.D_ascii_right ⟨chain.char, chain.char_mem_tops, hch _ chain.char_mem_tops⟩
  have plain : (Path.plug ctx0 l).WFg := by
    refine Trie.WFg.replace ctx0 _ l hm h hD.1 (fun x hx => Or.inl (by simp [Trie.tops, hx])) ?_
    rintro ⟨x, hx, hx2⟩
    simp only [Trie.tops, List.mem_cons, List.mem_append] at hx
    rcases hx with rfl | hx | hx
    · omega
    · exact ⟨x, hx, hx2⟩
    · have := hch x hx; omega
  cases ctx0 with
  | nil => exact plain
  | cons f ctx1 =>
    cases f with
    | Rf p c e => exact plain
    | Xf p c => exact plain
    | Kf p c sub => exact plain
    | Ks p c n => exact plain
    | Ls p c => exact plain
    | Dr p c l' => exact plain
    | Dl p cp r' =>
      by_cases hDl : l.isD = true
      · simpa [Path.reset, hDl] using plain
      have hDl' : l.isD = false := by simpa using hDl
      simp only [Path.reset, hDl', Bool.false_eq_true, if_false, Path.plug, Frame.fill]
      have hold : (Trie.D p cp (Trie.D q cq l chain) r').WFg :=
        Trie.WFg.of_plug ctx1 _ hm.tail_main h
      have hlt := l.tops_of_not_D hDl'
      have hcond := hold.2.2
      refine Trie.WFg.replace ctx1 _ (Trie.D p l.char l r') hm.tail_main h ⟨hD.1, hold.2.1, ?_⟩
        ?_ ?_
      · rw [hlt]
        by_cases hlc : l.char < 128
        · rw [if_pos hlc]
          refine ⟨by simp, fun x hx => ?_⟩
          by_cases hcp : cp < 128
          · rw [if_pos hcp] at hcond
            have h1 := hcond.1 l.char (by simp [Trie.tops, hlt])
            have h2 := hcond.2 x hx
            omega
          · rw [if_neg hcp] at hcond
            have := hcond.2 x hx
            omega
        · rw [if_neg hlc]
          refine ⟨⟨l.char, by simp, by omega⟩, fun x hx => ?_⟩
          by_cases hcp : cp < 128
          · rw [if_pos hcp] at hcond
            have h1 := hcond.1 l.char (by simp [Trie.tops, hlt])
            omega
          · rw [if_neg hcp] at hcond
            exact hcond.2 x hx
      · intro x hx
        refine Or.inl ?_
        simp only [Trie.tops, hlt, List.mem_cons, List.mem_append, List.mem_singleton,
          List.not_mem_nil, or_false] at hx ⊢
        rcases hx with hx | hx | hx
        · exact Or.inr (Or.inl (Or.inr (Or.inl hx)))
        · exact Or.inr (Or.inl (Or.inr (Or.inl hx)))
        · exact Or.inr (Or.inr hx)
      · rintro ⟨x, hx, hx2⟩
        simp only [Trie.tops, hlt, List.mem_cons, List.mem_append, List.mem_singleton,
          List.not_mem_nil, or_false] at hx
        rcases hx with rfl | (rfl | rfl | hx) | hx
        · have hcp : ¬ x < 128 := by omega
          rw [if_neg hcp] at hcond
          exact ⟨r'.char, by simp [Trie.tops, r'.char_mem_tops],
            hcond.2 _ r'.char_mem_tops⟩
        · omega
        · exact ⟨l.char, by simp [Trie.tops], hx2⟩
        · have := hch x hx; omega
        · exact ⟨x, by simp [Trie.tops, hx], hx2⟩

/-! ## Delete: the removal of a terminal node in the main part -/

theorem Path.Main.not_dup_head {f : Frame} {ctx : Path} (h : Path.Main (f :: ctx))
    (hf : f.isDup = true) : False := by
  have := h.head_main
  rw [hf] at this
  cases this

/-- Removal of the single element at a terminal node in the main part of a
tree with arbitrary key bytes, the key matched by the descent. -/
theorem delete_single_main (fuel : Nat) (ix : Index) (fl : List Nat) (rc : Path)
    (st : DeleteState) (p k : Nat) (e : Int)
    (h : AtFocus ix fl rc (Trie.S p k e)) (hm : Path.Main rc)
    (hw : (Path.plug rc (Trie.S p k e)).WFg) (hmt : Path.Matched rc) (hk : k < 128)
    (hst : DeleteAt st rc (Trie.S p k e) [k])
    (hfuel : (Path.plug rc (Trie.S p k e)).size ≤ fuel) :
    ∃ ix' fl' oT', deleteSingle fuel ix st = some (true, ix') ∧ InvG ix' fl' oT' ∧
      ix'.keyCount = ix.keyCount - 1 ∧ ix'.node.length = ix.node.length := by
  obtain ⟨xp, rest, rfl, hx, hhead⟩ := Path.split_x rc
  obtain ⟨t1, _, _, t4⟩ := hx.tree xp (Trie.S p k e)
  obtain ⟨ks, hch⟩ := t4 [k] e ⟨rfl, rfl⟩
  have hf : AtFocus ix fl rest (Path.plug xp (Trie.S p k e)) := (AtFocus.append_iff _ _ _ _ _).mp h
  obtain ⟨g1, g2, g3, g4, _⟩ := hx.regs xp rest
  have hptr : st.indexPointer = ((Path.plug xp (Trie.S p k e)).lastTerm : Int) := by
    rw [t1]; exact hst.pointer
  have hdele := hst.dele.trans g1
  have hlprev := hst.lprev.trans g2
  have hbranch := hst.branch.trans g3
  have hdup := hst.dup.trans g4
  have htop : ∀ x ∈ (Path.plug xp (Trie.S p k e)).tops, x < 128 :=
    hx.tops_x xp _ hmt.matched_append.1 (by simp [Trie.tops, hk])
  have hmr := hm.main_append.2
  rw [Path.plug_append] at hfuel hw
  have hlen := hf.length_eq
  generalize hchain : Path.plug xp (Trie.S p k e) = chain at *
  have wrap : ∀ (ctx0 : Path) (t' : Trie) (ix' : Index) (fl' : List Nat),
      AtFocus ix' fl' ctx0 t' → (Path.plug ctx0 t').WFg →
      (Path.addrs ctx0).length + t'.addrs.length + fl'.length =
        (Path.addrs rest).length + chain.addrs.length + fl.length →
      InvG ix' fl' (some (Path.plug ctx0 t')) ∧ ix'.node.length = ix.node.length := by
    intro ctx0 t' ix' fl' hfoc hwt hl
    refine ⟨⟨(AtFocus.plug_iff _ _ _ _).mpr hfoc, hwt⟩, ?_⟩
    have := hfoc.length_eq
    omega
  cases rest with
  | nil =>
    obtain ⟨ix', r1, r2, r3, r4, r5⟩ := delete_single_all fuel ix fl st chain ks e hf hch hptr
      (by rw [hdele]; rfl)
    refine ⟨ix', _, none, r1, ⟨r2, r3, r4⟩, r5, ?_⟩
    have := r4.length_eq
    simp only [List.length_append, List.length_range, Path.addrs, List.length_nil] at this hlen
    omega
  | cons f ctx0 =>
    have hm0 := hmr.tail_main
    cases f with
    | Xf p' c' => exact absurd rfl (hhead p' c' ctx0)
    | Ks p' c' n => exact (hmr.not_dup_head rfl).elim
    | Ls p' c' => exact (hmr.not_dup_head rfl).elim
    | Rf p' c' e' =>
      obtain ⟨ix', r1, r2, r3⟩ := delete_single_Rf fuel ix fl ctx0 st p' c' e' chain ks e hf hch
        hptr (by rw [hdele]; rfl)
      obtain ⟨w1, w2⟩ := wrap ctx0 (Trie.S p' c' e') ix' _ r2
        (Trie.WFg.replace_tops ctx0 _ _ hm0 hw trivial rfl)
        (by simp only [Path.addrs, Frame.addrs, Trie.addrs, List.length_append,
              List.length_cons, List.length_nil]; omega)
      exact ⟨ix', _, _, r1, w1, r3, w2⟩
    | Kf p' c' sub =>
      obtain ⟨ix', r1, r2, r3⟩ := delete_single_Kf fuel ix fl ctx0 st p' c' sub chain ks e hf hch
        hptr (by rw [hdele]; rfl)
      have hK : (Trie.K p' c' sub chain).WFg := Trie.WFg.of_plug ctx0 _ hm0 hw
      obtain ⟨w1, w2⟩ := wrap ctx0 (Trie.L p' c' sub) ix' _ r2
        (Trie.WFg.replace_tops ctx0 _ _ hm0 hw ⟨hK.1, hK.2.1, hK.2.2.1⟩ rfl)
        (by simp only [Path.addrs, Frame.addrs, Trie.addrs, List.length_append,
              List.length_cons, List.length_nil]; omega)
      exact ⟨ix', _, _, r1, w1, r3, w2⟩
    | Dl q cq r =>
      have hD : (Trie.D q cq chain r).WFg := Trie.WFg.of_plug ctx0 _ hm0 hw
      obtain ⟨ix', r1, r2, r3⟩ := delete_single_Dl_gen fuel ix fl ctx0 st q cq r chain ks e hf
        hch hptr (by rw [hdele]; rfl) (by rw [hlprev]; rfl) (by rw [hdup]; rfl)
        (by rw [hbranch]; rfl)
        (Path.SideOk.of_wfg ctx0 q cq chain r hm0 hw (hD.D_ascii_left htop))
      obtain ⟨w1, w2⟩ := wrap ctx0 r ix' _ r2 (Trie.WFg.cut_left ctx0 q cq chain r hm0 hw htop)
        (by simp only [Path.addrs, Frame.addrs, List.length_append,
              List.length_cons]; omega)
      exact ⟨ix', _, _, r1, w1, r3, w2⟩
    | Dr q cq l =>
      have hD : (Trie.D q cq l chain).WFg := Trie.WFg.of_plug ctx0 _ hm0 hw
      have hlsz : l.size ≤ fuel := by
        have h1 := Path.size_plug ctx0 (Trie.D q cq l chain)
        simp only [Path.plug, Frame.fill] at hfuel
        simp only [Trie.size] at h1
        omega
      obtain ⟨ix', r1, r2, r3⟩ := delete_single_Dr_gen fuel ix fl ctx0 st q cq l chain ks e hf
        hch hptr (by rw [hdele]; rfl) (by rw [hlprev]; rfl) (by rw [hdup]; rfl)
        (by rw [hbranch]; rfl)
        (Path.SideOk.of_wfg ctx0 q cq l chain hm0 hw
          (hD.D_ascii_right ⟨chain.char, chain.char_mem_tops, htop _ chain.char_mem_tops⟩)) hlsz
      obtain ⟨w1, w2⟩ := wrap (Path.reset ctx0 l) l ix' _ r2
        (Trie.WFg.cut_right ctx0 q cq l chain hm0 hw htop)
        (by simp only [Path.addrs, Frame.addrs, List.length_append, Path.reset_addrs,
              List.length_cons]; omega)
      exact ⟨ix', _, _, r1, w1, r3, w2⟩

/-- Removal of the element of a key node in the main part of a tree with
arbitrary key bytes. -/
theorem delete_key_main (fuel : Nat) (ix : Index) (fl : List Nat) (rc : Path)
    (st : DeleteState) (p k : Nat) (e : Int) (n : Trie)
    (h : AtFocus ix fl rc (Trie.R p k e n)) (hm : Path.Main rc)
    (hw : (Path.plug rc (Trie.R p k e n)).WFg) (hptr : st.indexPointer = (p : Int)) :
    ∃ ix' fl' oT', deleteSingle fuel ix st = some (true, ix') ∧ InvG ix' fl' oT' ∧
      ix'.keyCount = ix.keyCount - 1 ∧ ix'.node.length = ix.node.length := by
  obtain ⟨ix', r1, r2, r3⟩ := delete_single_R fuel ix fl rc st p k e n h hptr
  refine ⟨ix', fl, some (Path.plug rc (Trie.X p k n)), r1,
    ⟨(AtFocus.plug_iff _ _ _ _).mpr r2, ?_⟩, r3, ?_⟩
  · have hR : (Trie.R p k e n).WFg := Trie.WFg.of_plug rc _ hm hw
    exact Trie.WFg.replace_tops rc _ (Trie.X p k n) hm hw hR rfl
  · have h1 := h.length_eq
    have h2 := r2.length_eq
    simp only [Trie.addrs, List.length_cons] at h1 h2
    omega

/-! ## Paths inside a duplicates branch, cut above its base -/

theorem Path.Plain.plain_nil : Path.Plain [] := fun f hf => by cases hf

theorem Path.Plain.tail_plain {f : Frame} {P : Path} (h : Path.Plain (f :: P)) : Path.Plain P :=
  fun g hg => h g (List.mem_cons_of_mem _ hg)

theorem Path.Plain.of_append_left {a b : Path} (h : Path.Plain (a ++ b)) : Path.Plain a :=
  fun f hf => h f (List.mem_append_left _ hf)

theorem Path.Plain.of_append_right {a b : Path} (h : Path.Plain (a ++ b)) : Path.Plain b :=
  fun f hf => h f (List.mem_append_right _ hf)

/-- A well-formed path that ends at the base of a duplicates branch, cut
there, has no duplicate node inside the branch. -/
theorem Path.WF.plain_cut (g : Frame) : ∀ (P : Path) (cnt : Nat), Path.WF (P ++ g.cut) cnt →
    Path.Plain P ∧ (Path.params (P ++ g.cut)).1 ≠ none := by
  intro P
  induction P with
  | nil => intro cnt _; exact ⟨Path.Plain.plain_nil, by simp [Frame.cut, Path.params]⟩
  | cons f P ih =>
    intro cnt h
    have cons : ∀ cnt', Path.WF (P ++ g.cut) cnt' → f.isDup = false →
        (∀ p c sub, f ≠ Frame.Kf p c sub) → Path.Plain (f :: P) := by
      intro cnt' h' h1 h2 f' hf'
      rcases List.mem_cons.mp hf' with rfl | hf'
      · exact ⟨h1, h2⟩
      · exact (ih cnt' h').1 f' hf'
    cases f with
    | Rf p c e =>
      simp only [List.cons_append, Path.WF] at h
      refine ⟨cons _ h.2.2.2 rfl (by intros; simp), ?_⟩
      have := (ih _ h.2.2.2).2
      simpa [Path.params] using this
    | Xf p c =>
      simp only [List.cons_append, Path.WF] at h
      refine ⟨cons _ h.2.2 rfl (by intros; simp), ?_⟩
      have := (ih _ h.2.2).2
      simpa [Path.params] using this
    | Kf p c sub =>
      simp only [List.cons_append, Path.WF] at h
      exact absurd h.1 (ih _ h.2.2.2.2.2).2
    | Ks p c n =>
      simp only [List.cons_append, Path.WF] at h
      exact absurd h.1 (ih _ h.2.2.2.2.2).2
    | Ls p c =>
      simp only [List.cons_append, Path.WF] at h
      exact absurd h.1 (ih _ h.2.2.2.2).2
    | Dl p c r =>
      simp only [List.cons_append, Path.WF] at h
      refine ⟨cons _ h.2.2.2 rfl (by intros; simp), ?_⟩
      have := (ih _ h.2.2.2).2
      simpa [Path.params] using this
    | Dr p c l =>
      simp only [List.cons_append, Path.WF] at h
      refine ⟨cons _ h.2.2.2 rfl (by intros; simp), ?_⟩
      have := (ih _ h.2.2.2).2
      simpa [Path.params] using this

theorem Path.Plain.dup_real (g : Frame) (outer : Path) (hg : g.isDup = true) :
    ∀ P : Path, Path.Plain P → Path.dup (P ++ g :: outer) = (g.addr : Int) := by
  intro P
  induction P with
  | nil => intro _; exact Frame.isDup_dup hg outer
  | cons f P ih =>
    intro h
    have := ih h.tail_plain
    have hf := (h f (List.mem_cons_self _ _)).1
    cases f <;> first | simpa [Path.dup] using this | simp [Frame.isDup] at hf

theorem Path.Plain.inner_cut (g : Frame) : ∀ P : Path, Path.Plain P →
    Path.inner (P ++ g.cut) = P := by
  intro P
  induction P with
  | nil => intro _; rfl
  | cons f P ih =>
    intro h
    have := ih h.tail_plain
    have hf := (h f (List.mem_cons_self _ _)).1
    cases f with
    | Rf p c e => simp [Path.inner, this]
    | Xf p c => simp [Path.inner, this]
    | Kf p c sub => simp [Path.inner, this]
    | Ks p c n => simp [Frame.isDup] at hf
    | Ls p c => simp [Frame.isDup] at hf
    | Dl p c r => simp [Path.inner, this]
    | Dr p c l => simp [Path.inner, this]

/-- The number of elements of the duplicates branch around a subtree. -/
theorem Path.Plain.count_cut (g : Frame) (P : Path) (h : Path.Plain P) (t : Trie) :
    (Path.plug P t).elems.length = Path.subCount (P ++ g.cut) t.elems.length := by
  have := Path.subCount_inner (P ++ g.cut) t
  rw [Path.Plain.inner_cut g P h] at this
  exact this

/-- A path inside a duplicates branch that adds no element to the subtree at
its end has character nodes only. -/
theorem Path.Plain.isX_of_count (g : Frame) : ∀ (P : Path) (m : Nat), Path.Plain P →
    Path.subCount (P ++ g.cut) m ≤ m → Path.IsX P := by
  intro P
  induction P with
  | nil => intro m _ _; exact Path.IsX.nil
  | cons f P ih =>
    intro m h hc
    have hf := h f (List.mem_cons_self _ _)
    cases f with
    | Xf p c =>
      rw [List.cons_append] at hc
      simp only [Path.subCount] at hc
      have := ih m h.tail_plain hc
      intro f' hf'
      rcases List.mem_cons.mp hf' with rfl | hf'
      · exact ⟨p, c, rfl⟩
      · exact this f' hf'
    | Rf p c e =>
      have := Path.le_subCount (P ++ g.cut) (m + 1)
      rw [List.cons_append] at hc
      simp only [Path.subCount] at hc
      omega
    | Kf p c sub => exact absurd rfl (hf.2 p c sub)
    | Ks p c n => simp [Frame.isDup] at hf
    | Ls p c => simp [Frame.isDup] at hf
    | Dl p c r =>
      have := Path.le_subCount (P ++ g.cut) (m + r.elems.length)
      have := r.elems_length_pos
      rw [List.cons_append] at hc
      simp only [Path.subCount] at hc
      omega
    | Dr p c l =>
      have := Path.le_subCount (P ++ g.cut) (m + l.elems.length)
      have := l.elems_length_pos
      rw [List.cons_append] at hc
      simp only [Path.subCount] at hc
      omega

/-- What `Delete` needs of the frame above a decision node, told on the path
cut above the base of the branch, holds on the path of the whole tree. -/
theorem Path.SideOk.side_of_cut (P : Path) (g : Frame) (outer : Path) (cq : Nat)
    (hg : g.isDup = true) (hP : Path.Plain P) (h : Path.SideOk (P ++ g.cut) cq) :
    Path.SideOk (P ++ g :: outer) cq := by
  cases P with
  | nil => cases g <;> trivial
  | cons f P =>
    have hf := hP f (List.mem_cons_self _ _)
    cases f with
    | Rf p c e => trivial
    | Xf p c => trivial
    | Kf p c sub => exact absurd rfl (hf.2 p c sub)
    | Ks p c n => trivial
    | Ls p c => trivial
    | Dl p c r => exact h
    | Dr p c l => exact h

theorem Path.reset_append_real (P : Path) (g : Frame) (outer : Path) (l : Trie)
    (hg : g.isDup = true) :
    Path.reset (P ++ g :: outer) l = Path.reset P l ++ g :: outer := by
  cases P with
  | nil => cases g <;> first | rfl | simp [Frame.isDup] at hg
  | cons f P => cases f <;> rfl

theorem Path.reset_append_cut (P : Path) (g : Frame) (l : Trie) :
    Path.reset (P ++ g.cut) l = Path.reset P l ++ g.cut := by
  cases P with
  | nil => rfl
  | cons f P => cases f <;> rfl

theorem Path.WF.up_path_append : ∀ (a b : Path) (t : Trie),
    Trie.WF (Path.params (a ++ b)).1 (Path.params (a ++ b)).2.1 (Path.params (a ++ b)).2.2 t →
    Path.WF (a ++ b) t.elems.length →
    Trie.WF (Path.params b).1 (Path.params b).2.1 (Path.params b).2.2 (Path.plug a t) ∧
      Path.WF b (Path.plug a t).elems.length := by
  intro a
  induction a with
  | nil => intro b t hw hp; exact ⟨hw, hp⟩
  | cons f a ih =>
    intro b t hw hp
    obtain ⟨h1, h2⟩ := Path.WF.up_path f (a ++ b) t hw hp
    exact ih b (f.fill t) h1 h2

/-- The duplicates branch around a well-formed subtree at the end of a
well-formed path is well-formed and holds two elements at least. -/
theorem Path.WF.branch_cut (g : Frame) (P : Path) (t : Trie)
    (hw : Trie.WF (Path.params (P ++ g.cut)).1 (Path.params (P ++ g.cut)).2.1
      (Path.params (P ++ g.cut)).2.2 t)
    (hp : Path.WF (P ++ g.cut) t.elems.length) :
    Trie.WF (some []) (-1) 127 (Path.plug P t) ∧ 2 ≤ (Path.plug P t).elems.length := by
  have := Path.WF.plug (P ++ g.cut) t hw hp
  rw [Path.plug_cut] at this
  exact ⟨this.2.2.2.1, this.2.2.2.2⟩

theorem Path.addrs_reset_length (P : Path) (l : Trie) :
    (Path.addrs (Path.reset P l)).length = (Path.addrs P).length := by
  rw [Path.reset_addrs]

/-! ## The elements of a tree under a path -/

theorem Frame.elems_fill_perm (f : Frame) (t t' : Trie) (e : Int)
    (h : t.elems.Perm (e :: t'.elems)) : (f.fill t).elems.Perm (e :: (f.fill t').elems) := by
  cases f with
  | Rf p c e0 =>
    simp only [Frame.fill, Trie.elems]
    exact (List.Perm.cons e0 h).trans (List.Perm.swap e e0 _)
  | Xf p c => exact h
  | Kf p c sub =>
    simp only [Frame.fill, Trie.elems]
    exact (List.Perm.append_left sub.elems h).trans List.perm_middle
  | Ks p c n =>
    simp only [Frame.fill, Trie.elems]
    exact List.Perm.append_right n.elems h
  | Ls p c => exact h
  | Dl p c r =>
    simp only [Frame.fill, Trie.elems]
    exact List.Perm.append_right r.elems h
  | Dr p c l =>
    simp only [Frame.fill, Trie.elems]
    exact (List.Perm.append_left l.elems h).trans List.perm_middle

/-- An element taken out of the tree at the end of a path is taken out of the
whole tree. -/
theorem Path.elems_plug_perm : ∀ (P : Path) (t t' : Trie) (e : Int),
    t.elems.Perm (e :: t'.elems) → (Path.plug P t).elems.Perm (e :: (Path.plug P t').elems) := by
  intro P
  induction P with
  | nil => intro t t' e h; exact h
  | cons f P ih =>
    intro t t' e h
    exact ih _ _ e (f.elems_fill_perm t t' e h)

theorem Path.elems_plug_congr : ∀ (P : Path) (t t' : Trie),
    t.elems = t'.elems → (Path.plug P t).elems = (Path.plug P t').elems := by
  intro P
  induction P with
  | nil => intro t t' h; exact h
  | cons f P ih =>
    intro t t' h
    refine ih _ _ ?_
    cases f <;> simp [Frame.fill, Trie.elems, h]

theorem Path.reset_plug_elems (P : Path) (l : Trie) :
    (Path.plug (Path.reset P l) l).elems = (Path.plug P l).elems := by
  cases P with
  | nil => rfl
  | cons f P =>
    cases f <;> first
      | rfl
      | exact Path.elems_plug_congr P _ _ (by simp [Frame.fill, Trie.elems])

/-! ## Delete inside a duplicates branch: one element of three or more -/

/-- Which of the two removals `Delete` runs after a match inside the
duplicates branch with the base `g`. -/
theorem deleteOutcome_sub (fuel : Nat) (ix : Index) (fl : List Nat) (P : Path) (g : Frame)
    (outer : Path) (rt : Trie) (st : DeleteState) (hg : g.isDup = true)
    (h : AtFocus ix fl (P ++ g :: outer) rt)
    (hw : Trie.WF (Path.params (P ++ g.cut)).1 (Path.params (P ++ g.cut)).2.1
      (Path.params (P ++ g.cut)).2.2 rt)
    (hp : Path.WF (P ++ g.cut) rt.elems.length)
    (hdup : st.duplicateNodePointer = (g.addr : Int))
    (hfuel : 2 * (Path.plug (P ++ g :: outer) rt).size + 1 ≤ fuel) :
    (Path.subCount (P ++ g.cut) rt.elems.length = 2 ∧
      deleteOutcome fuel ix (DeleteExit.matched st) = deleteCollapse fuel ix st) ∨
    (3 ≤ Path.subCount (P ++ g.cut) rt.elems.length ∧
      deleteOutcome fuel ix (DeleteExit.matched st) = deleteSingle fuel ix st) := by
  obtain ⟨hpl, hmode⟩ := Path.WF.plain_cut g P _ hp
  have hf : AtFocus ix fl (g :: outer) (Path.plug P rt) := (AtFocus.append_iff _ _ _ _ _).mp h
  obtain ⟨hgn, hgs, _, hsl, _⟩ := collapse_start hg hf
  obtain ⟨hws, _⟩ := Path.WF.branch_cut g P rt hw hp
  have hcnt := Path.Plain.count_cut g P hpl rt
  have h2 := Path.WF.two_le (P ++ g.cut) _ hp hmode
  have hcount := count_sub ix.node g.addr _ hsl hws hgs fuel (by
    rw [Path.plug_append] at hfuel
    have := Path.size_plug (g :: outer) (Path.plug P rt)
    omega)
  have hcode : deleteOutcome fuel ix (DeleteExit.matched st) =
      if min 3 (Path.subCount (P ++ g.cut) rt.elems.length) < 3 then deleteCollapse fuel ix st
      else deleteSingle fuel ix st := by
    simp only [deleteOutcome]
    rw [if_pos (by rw [hdup]; exact natCast_ne_null _), hdup, getNode_natCast, hgn]
    simp only
    rw [Frame.isDup_left hg, hcount, hcnt]
  by_cases hc : Path.subCount (P ++ g.cut) rt.elems.length = 2
  · refine Or.inl ⟨hc, ?_⟩
    rw [hcode, if_pos (by rw [hc]; decide)]
  · refine Or.inr ⟨by omega, ?_⟩
    rw [hcode, if_neg (by omega)]

/-- What remains of a duplicates branch after a removal inside it that keeps
two elements at least. -/
theorem sub_wrap (ix ix' : Index) (fl fl' : List Nat) (g : Frame) (outer P P' : Path)
    (t t' : Trie) (h : AtFocus ix fl (P ++ g :: outer) t)
    (hfoc : AtFocus ix' fl' (P' ++ g :: outer) t')
    (hw : Trie.WF (Path.params (P' ++ g.cut)).1 (Path.params (P' ++ g.cut)).2.1
      (Path.params (P' ++ g.cut)).2.2 t')
    (hp : Path.WF (P' ++ g.cut) t'.elems.length)
    (hlen : (Path.addrs P').length + t'.addrs.length + fl'.length =
      (Path.addrs P).length + t.addrs.length + fl.length) :
    AtFocus ix' fl' (g :: outer) (Path.plug P' t') ∧
      Trie.WF (some []) (-1) 127 (Path.plug P' t') ∧ 2 ≤ (Path.plug P' t').elems.length ∧
      ix'.node.length = ix.node.length := by
  obtain ⟨w1, w2⟩ := Path.WF.branch_cut g P' t' hw hp
  refine ⟨(AtFocus.append_iff _ _ _ _ _).mp hfoc, w1, w2, ?_⟩
  have h1 := h.length_eq
  have h2 := hfoc.length_eq
  simp only [Path.addrs_append, List.length_append] at h1 h2
  omega

/-- Removal of the single element at a terminal node inside a duplicates
branch that keeps two elements at least. -/
theorem delete_single_sub_S_el (fuel : Nat) (ix : Index) (fl : List Nat) (P : Path) (g : Frame)
    (outer : Path) (st : DeleteState) (p k : Nat) (e : Int) (hg : g.isDup = true)
    (h : AtFocus ix fl (P ++ g :: outer) (Trie.S p k e))
    (hw : Trie.WF (Path.params (P ++ g.cut)).1 (Path.params (P ++ g.cut)).2.1
      (Path.params (P ++ g.cut)).2.2 (Trie.S p k e))
    (hp : Path.WF (P ++ g.cut) 1)
    (hst : DeleteAt st (P ++ g :: outer) (Trie.S p k e) [k])
    (hs : 3 ≤ Path.subCount (P ++ g.cut) 1)
    (hfuel : (Path.plug (P ++ g :: outer) (Trie.S p k e)).size ≤ fuel) :
    ∃ ix' fl' sub', deleteSingle fuel ix st = some (true, ix') ∧
      AtFocus ix' fl' (g :: outer) sub' ∧ Trie.WF (some []) (-1) 127 sub' ∧
      2 ≤ sub'.elems.length ∧ ix'.keyCount = ix.keyCount - 1 ∧
      ix'.node.length = ix.node.length ∧
      (Path.plug P (Trie.S p k e)).elems.Perm (e :: sub'.elems) := by
  obtain ⟨hpl, _⟩ := Path.WF.plain_cut g P _ hp
  obtain ⟨xp, rest, rfl, hx, hhead⟩ := Path.split_x P
  obtain ⟨t1, t2, _, t4⟩ := hx.tree xp (Trie.S p k e)
  obtain ⟨ks, hch⟩ := t4 [k] e ⟨rfl, rfl⟩
  rw [List.append_assoc] at h hw hp hst hs hfuel
  have hf : AtFocus ix fl (rest ++ g :: outer) (Path.plug xp (Trie.S p k e)) :=
    (AtFocus.append_iff _ _ _ _ _).mp h
  obtain ⟨hwc, hpc⟩ := Path.WF.up_path_append xp (rest ++ g.cut) _ hw hp
  obtain ⟨g1, g2, g3, g4, _⟩ := hx.regs xp (rest ++ g :: outer)
  have hptr : st.indexPointer = ((Path.plug xp (Trie.S p k e)).lastTerm : Int) := by
    rw [t1]; exact hst.pointer
  have hdele := hst.dele.trans g1
  have hlprev := hst.lprev.trans g2
  have hbranch := hst.branch.trans g3
  have hdup := hst.dup.trans g4
  have hcnt : (Path.plug xp (Trie.S p k e)).elems.length = 1 := by rw [t2]; rfl
  rw [hcnt] at hpc
  rw [hx.subCount] at hs
  rw [Path.plug_append] at hfuel
  have hplr := hpl.of_append_right
  have hce : (Path.plug xp (Trie.S p k e)).elems = [e] := t2
  rw [Path.plug_append]
  clear h hw hp hst
  generalize hchain : Path.plug xp (Trie.S p k e) = chain at *
  cases rest with
  | nil =>
    simp only [List.nil_append, Frame.cut, Path.WF] at hpc
    omega
  | cons f P0 =>
    have hf0 := hplr f (List.mem_cons_self _ _)
    have hP0 := hplr.tail_plain
    rw [List.cons_append] at hf hpc hs hfuel hdele hlprev hbranch hdup
    cases f with
    | Xf p' c' => exact absurd rfl (hhead p' c' P0)
    | Ks p' c' n => simp [Frame.isDup] at hf0
    | Ls p' c' => simp [Frame.isDup] at hf0
    | Kf p' c' sub => exact absurd rfl (hf0.2 p' c' sub)
    | Rf p' c' e' =>
      obtain ⟨ix', r1, r2, r3⟩ := delete_single_Rf fuel ix fl (P0 ++ g :: outer) st p' c' e'
        chain ks e hf hch hptr (by rw [hdele]; rfl)
      simp only [Path.WF] at hpc
      simp only [Path.subCount] at hs
      have hsh := Path.WF.shrink (P0 ++ g.cut) 1 hpc.2.2.2 (fun _ => hs)
      obtain ⟨w1, w2, w3, w4⟩ := sub_wrap ix ix' fl _ g outer (Frame.Rf p' c' e' :: P0) P0
        chain (Trie.S p' c' e') hf r2 ⟨hpc.1, hpc.2.1, hpc.2.2.1⟩ hsh
        (by simp only [Path.addrs, Frame.addrs, Trie.addrs, List.length_append,
              List.length_cons, List.length_nil]; omega)
      exact ⟨ix', _, _, r1, w1, w2, w3, r3, w4, Path.elems_plug_perm P0 _ _ e (by
        simp only [Frame.fill, Trie.elems, hce]
        exact List.Perm.swap e e' [])⟩
    | Dl q cq r =>
      simp only [Path.WF] at hpc
      simp only [Path.subCount] at hs
      obtain ⟨ix', r1, r2, r3⟩ := delete_single_Dl_gen fuel ix fl (P0 ++ g :: outer) st q cq r
        chain ks e hf hch hptr (by rw [hdele]; rfl) (by rw [hlprev]; rfl) (by rw [hdup]; rfl)
        (by rw [hbranch]; rfl)
        (Path.SideOk.side_of_cut P0 g outer cq hg hP0
          (Path.SideOk.side_of_wf (P0 ++ g.cut) cq _ hpc.2.2.2 hpc.1 hpc.2.1))
      have hsh := Path.WF.shrink (P0 ++ g.cut) r.elems.length
        (by rw [Nat.add_comm]; exact hpc.2.2.2) (fun _ => by rw [Nat.add_comm]; exact hs)
      obtain ⟨w1, w2, w3, w4⟩ := sub_wrap ix ix' fl _ g outer (Frame.Dl q cq r :: P0) P0
        chain r hf r2 (Trie.WF.mono r _ _ _ _ hpc.2.2.1 (le_of_lt hpc.1) (le_refl _)) hsh
        (by simp only [Path.addrs, Frame.addrs, List.length_append,
              List.length_cons]; omega)
      exact ⟨ix', _, _, r1, w1, w2, w3, r3, w4, Path.elems_plug_perm P0 _ _ e (by
        simp only [Frame.fill, Trie.elems, hce]
        exact List.Perm.refl _)⟩
    | Dr q cq l =>
      simp only [Path.WF] at hpc
      simp only [Path.subCount] at hs
      have hlsz : l.size ≤ fuel := by
        have h1 := Path.size_plug (P0 ++ g :: outer) (Trie.D q cq l chain)
        simp only [Path.plug, Frame.fill] at hfuel
        simp only [Trie.size] at h1
        omega
      obtain ⟨ix', r1, r2, r3⟩ := delete_single_Dr_gen fuel ix fl (P0 ++ g :: outer) st q cq l
        chain ks e hf hch hptr (by rw [hdele]; rfl) (by rw [hlprev]; rfl) (by rw [hdup]; rfl)
        (by rw [hbranch]; rfl)
        (Path.SideOk.side_of_cut P0 g outer cq hg hP0
          (Path.SideOk.side_of_wf (P0 ++ g.cut) cq _ hpc.2.2.2 hpc.1 hpc.2.1)) hlsz
      have hsh := Path.WF.shrink (P0 ++ g.cut) l.elems.length
        (by rw [Nat.add_comm]; exact hpc.2.2.2) (fun _ => by rw [Nat.add_comm]; exact hs)
      obtain ⟨v1, v2⟩ := Path.reset_wf (P0 ++ g.cut) l _
        (Trie.WF.mono l _ _ _ _ hpc.2.2.1 (le_refl _) hpc.2.1) hsh
      rw [Path.reset_append_cut] at v1 v2
      rw [Path.reset_append_real P0 g outer l hg] at r2
      obtain ⟨w1, w2, w3, w4⟩ := sub_wrap ix ix' fl _ g outer (Frame.Dr q cq l :: P0)
        (Path.reset P0 l) chain l hf r2 v1 v2
        (by simp only [Path.addrs, Frame.addrs, List.length_append, Path.reset_addrs,
              List.length_cons]; omega)
      refine ⟨ix', _, _, r1, w1, w2, w3, r3, w4, ?_⟩
      rw [Path.reset_plug_elems]
      exact Path.elems_plug_perm P0 _ _ e (by
        simp only [Frame.fill, Trie.elems, hce]
        exact List.perm_append_singleton e l.elems)

theorem delete_single_sub_S (fuel : Nat) (ix : Index) (fl : List Nat) (P : Path) (g : Frame)
    (outer : Path) (st : DeleteState) (p k : Nat) (e : Int) (hg : g.isDup = true)
    (h : AtFocus ix fl (P ++ g :: outer) (Trie.S p k e))
    (hw : Trie.WF (Path.params (P ++ g.cut)).1 (Path.params (P ++ g.cut)).2.1
      (Path.params (P ++ g.cut)).2.2 (Trie.S p k e))
    (hp : Path.WF (P ++ g.cut) 1)
    (hst : DeleteAt st (P ++ g :: outer) (Trie.S p k e) [k])
    (hs : 3 ≤ Path.subCount (P ++ g.cut) 1)
    (hfuel : (Path.plug (P ++ g :: outer) (Trie.S p k e)).size ≤ fuel) :
    ∃ ix' fl' sub', deleteSingle fuel ix st = some (true, ix') ∧
      AtFocus ix' fl' (g :: outer) sub' ∧ Trie.WF (some []) (-1) 127 sub' ∧
      2 ≤ sub'.elems.length ∧ ix'.keyCount = ix.keyCount - 1 ∧
      ix'.node.length = ix.node.length := by
  obtain ⟨ix', fl', sub', r1, r2, r3, r4, r5, r6, _⟩ :=
    delete_single_sub_S_el fuel ix fl P g outer st p k e hg h hw hp hst hs hfuel
  exact ⟨ix', fl', sub', r1, r2, r3, r4, r5, r6⟩

/-- Removal of the element of a key node inside a duplicates branch that
keeps two elements at least. -/
theorem delete_single_sub_R_el (fuel : Nat) (ix : Index) (fl : List Nat) (P : Path) (g : Frame)
    (outer : Path) (st : DeleteState) (p k : Nat) (e : Int) (n : Trie)
    (h : AtFocus ix fl (P ++ g :: outer) (Trie.R p k e n))
    (hw : Trie.WF (Path.params (P ++ g.cut)).1 (Path.params (P ++ g.cut)).2.1
      (Path.params (P ++ g.cut)).2.2 (Trie.R p k e n))
    (hp : Path.WF (P ++ g.cut) (n.elems.length + 1))
    (hptr : st.indexPointer = (p : Int))
    (hs : 3 ≤ Path.subCount (P ++ g.cut) (n.elems.length + 1)) :
    ∃ ix' fl' sub', deleteSingle fuel ix st = some (true, ix') ∧
      AtFocus ix' fl' (g :: outer) sub' ∧ Trie.WF (some []) (-1) 127 sub' ∧
      2 ≤ sub'.elems.length ∧ ix'.keyCount = ix.keyCount - 1 ∧
      ix'.node.length = ix.node.length ∧
      (Path.plug P (Trie.R p k e n)).elems.Perm (e :: sub'.elems) := by
  obtain ⟨ix', r1, r2, r3⟩ := delete_single_R fuel ix fl (P ++ g :: outer) st p k e n h hptr
  have hsh := Path.WF.shrink (P ++ g.cut) _ hp (fun _ => hs)
  obtain ⟨w1, w2, w3, w4⟩ := sub_wrap ix ix' fl fl g outer P P (Trie.R p k e n) (Trie.X p k n)
    h r2 ⟨hw.1, hw.2.1, hw.2.2.2⟩ (by simpa [Trie.elems] using hsh)
    (by simp only [Trie.addrs, List.length_cons])
  exact ⟨ix', _, _, r1, w1, w2, w3, r3, w4,
    Path.elems_plug_perm P _ _ e (List.Perm.refl _)⟩

theorem delete_single_sub_R (fuel : Nat) (ix : Index) (fl : List Nat) (P : Path) (g : Frame)
    (outer : Path) (st : DeleteState) (p k : Nat) (e : Int) (n : Trie)
    (h : AtFocus ix fl (P ++ g :: outer) (Trie.R p k e n))
    (hw : Trie.WF (Path.params (P ++ g.cut)).1 (Path.params (P ++ g.cut)).2.1
      (Path.params (P ++ g.cut)).2.2 (Trie.R p k e n))
    (hp : Path.WF (P ++ g.cut) (n.elems.length + 1))
    (hptr : st.indexPointer = (p : Int))
    (hs : 3 ≤ Path.subCount (P ++ g.cut) (n.elems.length + 1)) :
    ∃ ix' fl' sub', deleteSingle fuel ix st = some (true, ix') ∧
      AtFocus ix' fl' (g :: outer) sub' ∧ Trie.WF (some []) (-1) 127 sub' ∧
      2 ≤ sub'.elems.length ∧ ix'.keyCount = ix.keyCount - 1 ∧
      ix'.node.length = ix.node.length := by
  obtain ⟨ix', fl', sub', r1, r2, r3, r4, r5, r6, _⟩ :=
    delete_single_sub_R_el fuel ix fl P g outer st p k e n h hw hp hptr hs
  exact ⟨ix', fl', sub', r1, r2, r3, r4, r5, r6⟩

/-! ## Delete inside a duplicates branch of two elements -/

/-- The arena keeps its length when a duplicates branch is given up. -/
theorem collapse_length {ix ix' : Index} {fl fl' : List Nat} {ctx outer : Path} {g : Frame}
    {t : Trie} {e' : Int} (hg : g.isDup = true) (h : AtFocus ix fl ctx t)
    (h' : AtFocus ix' fl' outer (g.collapse e'))
    (hlen : (Path.addrs outer).length + g.addrs.length + fl'.length =
      (Path.addrs ctx).length + t.addrs.length + fl.length) :
    ix'.node.length = ix.node.length := by
  have h1 := h.length_eq
  have h2 := h'.length_eq
  rw [(Frame.isDup_addrs hg e').1] at h2
  omega

/-- A duplicates branch of two elements loses the element of a terminal node. -/
theorem delete_collapse_sub_S_el (fuel : Nat) (ix : Index) (fl : List Nat) (P : Path) (g : Frame)
    (outer : Path) (st : DeleteState) (p k : Nat) (e : Int) (hg : g.isDup = true)
    (h : AtFocus ix fl (P ++ g :: outer) (Trie.S p k e))
    (hw : Trie.WF (Path.params (P ++ g.cut)).1 (Path.params (P ++ g.cut)).2.1
      (Path.params (P ++ g.cut)).2.2 (Trie.S p k e))
    (hp : Path.WF (P ++ g.cut) 1)
    (hst : DeleteAt st (P ++ g :: outer) (Trie.S p k e) [k])
    (hc : Path.subCount (P ++ g.cut) 1 = 2)
    (hfuel : (Path.plug (P ++ g :: outer) (Trie.S p k e)).size ≤ fuel) :
    ∃ ix' fl' e', deleteCollapse fuel ix st = some (true, ix') ∧
      AtFocus ix' fl' outer (g.collapse e') ∧ ix'.keyCount = ix.keyCount - 1 ∧
      ix'.node.length = ix.node.length ∧
      (Path.plug P (Trie.S p k e)).elems.Perm [e, e'] := by
  obtain ⟨hpl, _⟩ := Path.WF.plain_cut g P _ hp
  have hdup : st.duplicateNodePointer = (g.addr : Int) :=
    hst.dup.trans (Path.Plain.dup_real g outer hg P hpl)
  obtain ⟨xp, rest, rfl, hx, hhead⟩ := Path.split_x P
  obtain ⟨t1, t2, _, t4⟩ := hx.tree xp (Trie.S p k e)
  obtain ⟨ks, hch⟩ := t4 [k] e ⟨rfl, rfl⟩
  rw [List.append_assoc] at h hw hp hst hc hfuel
  have hf : AtFocus ix fl (rest ++ g :: outer) (Path.plug xp (Trie.S p k e)) :=
    (AtFocus.append_iff _ _ _ _ _).mp h
  obtain ⟨hwc, hpc⟩ := Path.WF.up_path_append xp (rest ++ g.cut) _ hw hp
  obtain ⟨g1, g2, g3, g4, _⟩ := hx.regs xp (rest ++ g :: outer)
  have hptr : st.indexPointer = ((Path.plug xp (Trie.S p k e)).lastTerm : Int) := by
    rw [t1]; exact hst.pointer
  have hdele := hst.dele.trans g1
  have hbranch := hst.branch.trans g3
  have hcnt : (Path.plug xp (Trie.S p k e)).elems.length = 1 := by rw [t2]; rfl
  rw [hcnt] at hpc
  rw [hx.subCount] at hc
  rw [Path.plug_append] at hfuel
  have hplr := hpl.of_append_right
  have hce : (Path.plug xp (Trie.S p k e)).elems = [e] := t2
  rw [Path.plug_append]
  clear h hw hp hst
  generalize hchain : Path.plug xp (Trie.S p k e) = chain at *
  cases rest with
  | nil =>
    simp only [List.nil_append, Frame.cut, Path.WF] at hpc
    omega
  | cons f P0 =>
    have hf0 := hplr f (List.mem_cons_self _ _)
    have hP0 := hplr.tail_plain
    rw [List.cons_append] at hf hpc hc hfuel hdele hbranch
    cases f with
    | Xf p' c' => exact absurd rfl (hhead p' c' P0)
    | Ks p' c' n => simp [Frame.isDup] at hf0
    | Ls p' c' => simp [Frame.isDup] at hf0
    | Kf p' c' sub => exact absurd rfl (hf0.2 p' c' sub)
    | Rf q c1 e' =>
      simp only [Path.WF] at hpc
      simp only [Path.subCount] at hc
      have hx2 := Path.Plain.isX_of_count g P0 2 hP0 (le_of_eq hc)
      obtain ⟨ix', r1, r2, r3⟩ := delete_collapse_a fuel ix fl outer P0 g st q c1 e' chain ks e
        hg hx2 hf hch hptr (by rw [hdele]; rfl) hdup
      refine ⟨ix', _, e', r1, r2, r3, collapse_length hg hf r2 ?_, ?_⟩
      · have := (Path.addrs_plug P0 (Trie.R q c1 e' chain)).length_eq
        simp only [Path.addrs, Path.addrs_append, Frame.addrs, Trie.addrs, List.length_append,
          List.length_cons, List.length_nil] at this ⊢
        omega
      · simp only [Path.plug]
        rw [(hx2.tree P0 _).2.1]
        simp only [Frame.fill, Trie.elems, hce]
        exact List.Perm.swap e e' []
    | Dl q c1 r =>
      simp only [Path.WF] at hpc
      simp only [Path.subCount] at hc
      have hr1 : r.elems.length = 1 := by
        have := Path.le_subCount (P0 ++ g.cut) (1 + r.elems.length)
        have := r.elems_length_pos
        omega
      obtain ⟨_, hmode⟩ := Path.WF.plain_cut g P0 _ hpc.2.2.2
      obtain ⟨w, hw'⟩ := Option.ne_none_iff_exists'.mp hmode
      have hrw := hpc.2.2.1
      rw [hw'] at hrw
      obtain ⟨ks', e', hr⟩ := hrw.chain_of_one r w _ _ hr1
      rw [hr1] at hc
      have hx2 := Path.Plain.isX_of_count g P0 2 hP0 (le_of_eq hc)
      have hrsz : r.size ≤ fuel := by
        have h1 := Path.size_plug (P0 ++ g :: outer) (Trie.D q c1 chain r)
        simp only [Path.plug, Frame.fill] at hfuel
        simp only [Trie.size] at h1
        omega
      obtain ⟨ix', r1, r2, r3⟩ := delete_collapse_c fuel ix fl outer P0 g st q c1 r chain ks ks'
        e e' hg hx2 hf hch hr hptr (by rw [hdele]; rfl) hdup (by rw [hbranch]; rfl) hrsz
      refine ⟨ix', _, e', r1, r2, r3, collapse_length hg hf r2 ?_, ?_⟩
      · simp only [Path.addrs, Path.addrs_append, Frame.addrs, List.length_append,
          List.length_cons, List.length_reverse]
        omega
      · simp only [Path.plug]
        rw [(hx2.tree P0 _).2.1]
        simp only [Frame.fill, Trie.elems, hce, chain_elems r ks' e' hr]
        exact List.Perm.refl _
    | Dr q c1 l =>
      simp only [Path.WF] at hpc
      simp only [Path.subCount] at hc
      have hr1 : l.elems.length = 1 := by
        have := Path.le_subCount (P0 ++ g.cut) (1 + l.elems.length)
        have := l.elems_length_pos
        omega
      obtain ⟨_, hmode⟩ := Path.WF.plain_cut g P0 _ hpc.2.2.2
      obtain ⟨w, hw'⟩ := Option.ne_none_iff_exists'.mp hmode
      have hrw := hpc.2.2.1
      rw [hw'] at hrw
      obtain ⟨ks', e', hr⟩ := hrw.chain_of_one l w _ _ hr1
      rw [hr1] at hc
      have hx2 := Path.Plain.isX_of_count g P0 2 hP0 (le_of_eq hc)
      have hrsz : l.size ≤ fuel := by
        have h1 := Path.size_plug (P0 ++ g :: outer) (Trie.D q c1 l chain)
        simp only [Path.plug, Frame.fill] at hfuel
        simp only [Trie.size] at h1
        omega
      obtain ⟨ix', r1, r2, r3⟩ := delete_collapse_d fuel ix fl outer P0 g st q c1 l chain ks ks'
        e e' hg hx2 hf hch hr hptr (by rw [hdele]; rfl) hdup (by rw [hbranch]; rfl) hrsz
      refine ⟨ix', _, e', r1, r2, r3, collapse_length hg hf r2 ?_, ?_⟩
      · simp only [Path.addrs, Path.addrs_append, Frame.addrs, List.length_append,
          List.length_cons, List.length_reverse]
        omega
      · simp only [Path.plug]
        rw [(hx2.tree P0 _).2.1]
        simp only [Frame.fill, Trie.elems, hce, chain_elems l ks' e' hr]
        exact List.Perm.swap e e' []

theorem delete_collapse_sub_S (fuel : Nat) (ix : Index) (fl : List Nat) (P : Path) (g : Frame)
    (outer : Path) (st : DeleteState) (p k : Nat) (e : Int) (hg : g.isDup = true)
    (h : AtFocus ix fl (P ++ g :: outer) (Trie.S p k e))
    (hw : Trie.WF (Path.params (P ++ g.cut)).1 (Path.params (P ++ g.cut)).2.1
      (Path.params (P ++ g.cut)).2.2 (Trie.S p k e))
    (hp : Path.WF (P ++ g.cut) 1)
    (hst : DeleteAt st (P ++ g :: outer) (Trie.S p k e) [k])
    (hc : Path.subCount (P ++ g.cut) 1 = 2)
    (hfuel : (Path.plug (P ++ g :: outer) (Trie.S p k e)).size ≤ fuel) :
    ∃ ix' fl' e', deleteCollapse fuel ix st = some (true, ix') ∧
      AtFocus ix' fl' outer (g.collapse e') ∧ ix'.keyCount = ix.keyCount - 1 ∧
      ix'.node.length = ix.node.length := by
  obtain ⟨ix', fl', e', r1, r2, r3, r4, _⟩ :=
    delete_collapse_sub_S_el fuel ix fl P g outer st p k e hg h hw hp hst hc hfuel
  exact ⟨ix', fl', e', r1, r2, r3, r4⟩

/-- A duplicates branch of two elements loses the element of its key node. -/
theorem delete_collapse_sub_R_el (fuel : Nat) (ix : Index) (fl : List Nat) (P : Path) (g : Frame)
    (outer : Path) (st : DeleteState) (q c1 : Nat) (e : Int) (n : Trie) (hg : g.isDup = true)
    (h : AtFocus ix fl (P ++ g :: outer) (Trie.R q c1 e n))
    (hw : Trie.WF (Path.params (P ++ g.cut)).1 (Path.params (P ++ g.cut)).2.1
      (Path.params (P ++ g.cut)).2.2 (Trie.R q c1 e n))
    (hp : Path.WF (P ++ g.cut) (n.elems.length + 1))
    (hptr : st.indexPointer = (q : Int))
    (hdup : st.duplicateNodePointer = (g.addr : Int))
    (hc : Path.subCount (P ++ g.cut) (n.elems.length + 1) = 2)
    (hfuel : (Path.plug (P ++ g :: outer) (Trie.R q c1 e n)).size ≤ fuel) :
    ∃ ix' fl' e', deleteCollapse fuel ix st = some (true, ix') ∧
      AtFocus ix' fl' outer (g.collapse e') ∧ ix'.keyCount = ix.keyCount - 1 ∧
      ix'.node.length = ix.node.length ∧
      (Path.plug P (Trie.R q c1 e n)).elems.Perm [e, e'] := by
  obtain ⟨hpl, hmode⟩ := Path.WF.plain_cut g P _ hp
  have hn1 : n.elems.length = 1 := by
    have := Path.le_subCount (P ++ g.cut) (n.elems.length + 1)
    have := n.elems_length_pos
    omega
  obtain ⟨w, hw'⟩ := Option.ne_none_iff_exists'.mp hmode
  have hnw := hw.2.2.2
  rw [hw'] at hnw
  obtain ⟨ks', e', hr⟩ := Trie.WF.chain_of_one n (w ++ [c1]) _ _ (by simpa using hnw) hn1
  rw [hn1] at hc
  have hx2 := Path.Plain.isX_of_count g P 2 hpl (le_of_eq hc)
  have hnsz : n.size ≤ fuel := by
    have h1 := Path.size_plug (P ++ g :: outer) (Trie.R q c1 e n)
    simp only [Trie.size] at h1
    omega
  obtain ⟨ix', r1, r2, r3⟩ := delete_collapse_b fuel ix fl outer P g st q c1 e e' n ks' hg hx2
    h hr hptr hdup hnsz
  refine ⟨ix', _, e', r1, r2, r3, collapse_length hg h r2 ?_, ?_⟩
  · have := (Path.addrs_plug P (Trie.R q c1 e n)).length_eq
    simp only [Path.addrs, Path.addrs_append, Trie.addrs, List.length_append,
      List.length_cons] at this ⊢
    omega
  · rw [(hx2.tree P _).2.1]
    simp only [Trie.elems, chain_elems n ks' e' hr]
    exact List.Perm.refl _

theorem delete_collapse_sub_R (fuel : Nat) (ix : Index) (fl : List Nat) (P : Path) (g : Frame)
    (outer : Path) (st : DeleteState) (q c1 : Nat) (e : Int) (n : Trie) (hg : g.isDup = true)
    (h : AtFocus ix fl (P ++ g :: outer) (Trie.R q c1 e n))
    (hw : Trie.WF (Path.params (P ++ g.cut)).1 (Path.params (P ++ g.cut)).2.1
      (Path.params (P ++ g.cut)).2.2 (Trie.R q c1 e n))
    (hp : Path.WF (P ++ g.cut) (n.elems.length + 1))
    (hptr : st.indexPointer = (q : Int))
    (hdup : st.duplicateNodePointer = (g.addr : Int))
    (hc : Path.subCount (P ++ g.cut) (n.elems.length + 1) = 2)
    (hfuel : (Path.plug (P ++ g :: outer) (Trie.R q c1 e n)).size ≤ fuel) :
    ∃ ix' fl' e', deleteCollapse fuel ix st = some (true, ix') ∧
      AtFocus ix' fl' outer (g.collapse e') ∧ ix'.keyCount = ix.keyCount - 1 ∧
      ix'.node.length = ix.node.length := by
  obtain ⟨ix', fl', e', r1, r2, r3, r4, _⟩ :=
    delete_collapse_sub_R_el fuel ix fl P g outer st q c1 e n hg h hw hp hptr hdup hc hfuel
  exact ⟨ix', fl', e', r1, r2, r3, r4⟩

/-! ## Delete from the root of a duplicates branch -/

theorem SubRemoved.sub_deleted {ix : Index} {g : Frame} {outer : Path} {sub : Trie} {e : Int}
    {out : Bool × Index} (h : SubRemoved ix g outer sub e out) : SubDeleted ix g outer out := by
  rcases h with ⟨ix1, fl1, sub1, r1, r2, r3, r4, r5, r6, _⟩ | ⟨ix1, fl1, e1, r1, r2, r3, r4, _⟩
  · exact Or.inl ⟨ix1, fl1, sub1, r1, r2, r3, r4, r5, r6⟩
  · exact Or.inr ⟨ix1, fl1, e1, r1, r2, r3, r4⟩

/-- The run of `Delete` from the root of a duplicates branch, with the
decimal rendering of the element as the key: for enough fuel the loop leaves
with `res` and `Delete` returns `out`; nothing changes, or the element is
taken out of the branch. -/
theorem delete_sub_el (e : Int) (ix : Index) (fl : List Nat) (g : Frame) (outer : Path)
    (sub : Trie) (st : DeleteState) (hg : g.isDup = true) (hc : g.char < 128)
    (h : AtFocus ix fl (g :: outer) sub) (hst : DeleteAt st (g :: outer) sub (itoa e))
    (hw : Trie.WF (some []) (-1) 127 sub) (h2 : 2 ≤ sub.elems.length) :
    ∃ res out, (∀ f, 2 * (Path.plug (g :: outer) sub).size + 1 ≤ f →
        runLoop (deleteBody e ix) f st = some res ∧ deleteOutcome f ix res = some out) ∧
      (out = (false, ix) ∨ SubRemoved ix g outer sub e out) := by
  have hpf : Path.WF g.cut (sub.extra + 1) :=
    g.cut_wf _ hc (by rw [Trie.extra_add_one]; exact h2)
  have hkf : KeyOk e g.cut (itoa e) := KeyOk.enter (Frame.Ls g.addr g.char) [] rfl
  have hwf : Trie.WF (Path.params g.cut).1 (Path.params g.cut).2.1 (Path.params g.cut).2.2 sub := hw
  have hfacts := descend_facts e 1 (le_refl _) sub (itoa e) g.cut hwf hpf hkf
  have hasc := hw.ascii sub _ _ _ (le_refl _)
  obtain ⟨st', hst', hfuel⟩ :=
    delete_descend e ix sub _ (itoa e) (g :: outer) st h.tree hasc hst (itoa_ne_nil e)
  rw [descend_base e sub (itoa e) (g :: outer)] at hst'
  rw [descend_base e sub (itoa e) g.cut] at hfacts
  generalize descend e sub (itoa e) [] = r at hfacts hst'
  obtain ⟨P, rt, rk⟩ := r
  obtain ⟨h1, hw2, h3, h4, _, h6⟩ := hfacts
  simp only at h1 hw2 h3 h4 h6 hst'
  have hplug : Path.plug P rt = sub := by
    rw [Path.plug_cut] at h1
    simp only [Frame.cut, Path.plug, Frame.fill, Trie.L.injEq] at h1
    exact h1.2.2
  have hfoc : AtFocus ix fl (P ++ g :: outer) rt := by
    rw [AtFocus.append_iff, hplug]; exact h
  obtain ⟨k, rest, hkr⟩ := ne_nil_cons h4.ne_nil_key
  subst hkr
  have hcr : rt.char < 128 := by
    have := (Trie.WF.char_bounds rt _ _ hw2).2
    have := (Path.WF.hi_le _ _ h3).1
    omega
  rw [Trie.extra_add_one] at h3
  obtain ⟨hpl, _⟩ := Path.WF.plain_cut g P _ h3
  have hdup : st'.duplicateNodePointer = (g.addr : Int) :=
    hst'.dup.trans (Path.Plain.dup_real g outer hg P hpl)
  have hsize : Path.plug (P ++ g :: outer) rt = Path.plug (g :: outer) sub := by
    rw [Path.plug_append, hplug]
  have hsub : sub.size ≤ (Path.plug (g :: outer) sub).size := Path.size_plug (g :: outer) sub
  generalize hM : (Path.plug (g :: outer) sub).size = M at hsize hsub ⊢
  have hsz : (Path.plug (P ++ g :: outer) rt).size = M := by rw [hsize, hM]
  have hrun : ∀ res, deleteBody e ix st' = some (LoopStep.exit res) →
      ∀ f, 2 * M + 1 ≤ f → runLoop (deleteBody e ix) f st = some res := by
    intro res hbody f hf
    have h0 := hfuel 1 res (runLoop_exit _ 0 st' res hbody)
    exact runLoop_mono _ _ _ _ h0 f (by omega)
  have hfin : ∀ (st2 : DeleteState),
      (∃ out, deleteOutcome (2 * M + 1) ix (DeleteExit.matched st2) = some out ∧
        SubRemoved ix g outer sub e out) →
      deleteBody e ix st' = some (LoopStep.exit (DeleteExit.matched st2)) →
      ∃ res out, (∀ f, 2 * M + 1 ≤ f →
        runLoop (deleteBody e ix) f st = some res ∧ deleteOutcome f ix res = some out) ∧
      (out = (false, ix) ∨ SubRemoved ix g outer sub e out) := by
    rintro st2 ⟨out, hcode, hout⟩ hbody
    exact ⟨_, out, fun f hf => ⟨hrun _ hbody f hf, deleteOutcome_mono _ f ix _ _ hf hcode⟩,
      Or.inr hout⟩
  rcases delete_stop e ix st' (P ++ g :: outer) rt _ k rest hfoc.tree hst' hcr h6 with
    ⟨p, rfl, hr, hbody⟩ | ⟨p, n, rfl, hr, hbody⟩ | ⟨_, _, hbody⟩
  · subst hr
    refine hfin st' ?_ hbody
    have h3' : Path.WF (P ++ g.cut) 1 := h3
    rcases deleteOutcome_sub (2 * M + 1) ix fl P g outer _ st' hg hfoc hw2 h3 hdup
      (by rw [hsz]) with ⟨hc2, hcode⟩ | ⟨hs, hcode⟩
    · obtain ⟨ix', fl', e', r1, r2, r3, r4, r5⟩ := delete_collapse_sub_S_el (2 * M + 1) ix fl P g outer
        st' p k e hg hfoc hw2 h3' hst' hc2 (by rw [hsz]; omega)
      exact ⟨(true, ix'), by rw [hcode]; exact r1, Or.inr ⟨ix', fl', e', rfl, r2, r3, r4, by rw [← hplug]; exact r5⟩⟩
    · obtain ⟨ix', fl', sub', r1, r2, r3, r4, r5, r6, r7⟩ := delete_single_sub_S_el (2 * M + 1) ix fl P
        g outer st' p k e hg hfoc hw2 h3' hst' hs (by rw [hsz]; omega)
      exact ⟨(true, ix'), by rw [hcode]; exact r1,
        Or.inl ⟨ix', fl', sub', rfl, r2, r3, r4, r5, r6, by rw [← hplug]; exact r7⟩⟩
  · subst hr
    have h3' : Path.WF (P ++ g.cut) (n.elems.length + 1) := h3
    have key : ∀ st2 : DeleteState, st2.indexPointer = (p : Int) →
        st2.duplicateNodePointer = (g.addr : Int) →
        ∃ out, deleteOutcome (2 * M + 1) ix (DeleteExit.matched st2) = some out ∧
          SubRemoved ix g outer sub e out := by
      intro st2 hptr hdup2
      rcases deleteOutcome_sub (2 * M + 1) ix fl P g outer _ st2 hg hfoc hw2 h3 hdup2
        (by rw [hsz]) with ⟨hc2, hcode⟩ | ⟨hs, hcode⟩
      · obtain ⟨ix', fl', e', r1, r2, r3, r4, r5⟩ := delete_collapse_sub_R_el (2 * M + 1) ix fl P g
          outer st2 p k e n hg hfoc hw2 h3' hptr hdup2 hc2 (by rw [hsz]; omega)
        exact ⟨(true, ix'), by rw [hcode]; exact r1, Or.inr ⟨ix', fl', e', rfl, r2, r3, r4, by rw [← hplug]; exact r5⟩⟩
      · obtain ⟨ix', fl', sub', r1, r2, r3, r4, r5, r6, r7⟩ := delete_single_sub_R_el (2 * M + 1) ix fl
          P g outer st2 p k e n hfoc hw2 h3' hptr hs
        exact ⟨(true, ix'), by rw [hcode]; exact r1,
          Or.inl ⟨ix', fl', sub', rfl, r2, r3, r4, r5, r6, by rw [← hplug]; exact r7⟩⟩
    refine hfin _ (key _ ?_ ?_) hbody
    · exact hst'.pointer
    · exact hdup
  · exact ⟨_, (false, ix), fun f hf => ⟨hrun _ hbody f hf, rfl⟩, Or.inl rfl⟩

theorem delete_sub (e : Int) (ix : Index) (fl : List Nat) (g : Frame) (outer : Path)
    (sub : Trie) (st : DeleteState) (hg : g.isDup = true) (hc : g.char < 128)
    (h : AtFocus ix fl (g :: outer) sub) (hst : DeleteAt st (g :: outer) sub (itoa e))
    (hw : Trie.WF (some []) (-1) 127 sub) (h2 : 2 ≤ sub.elems.length) :
    ∃ res out, (∀ f, 2 * (Path.plug (g :: outer) sub).size + 1 ≤ f →
        runLoop (deleteBody e ix) f st = some res ∧ deleteOutcome f ix res = some out) ∧
      (out = (false, ix) ∨ SubDeleted ix g outer out) := by
  obtain ⟨res, out, h1, h3⟩ := delete_sub_el e ix fl g outer sub st hg hc h hst hw h2
  exact ⟨res, out, h1, h3.imp id SubRemoved.sub_deleted⟩

/-! ## Delete on an index with arbitrary key bytes -/

/-- Outside a duplicates branch `Delete` removes one element after a match. -/
theorem deleteOutcome_main (f : Nat) (ix : Index) (st : DeleteState)
    (hd : st.duplicateNodePointer = nullIndexPointer) :
    deleteOutcome f ix (DeleteExit.matched st) = deleteSingle f ix st := by
  simp only [deleteOutcome]
  rw [if_neg (not_not.mpr hd)]

/-- The descent loop of `Delete` on a tree that is well-formed in the general
sense, and what follows it: for enough fuel the loop leaves with `res` and
`Delete` returns `out`; either nothing has changed, or the index holds a
well-formed tree or none, with one key less, in an arena of the same length. -/
theorem delete_treeG (e : Int) (ix : Index) (fl : List Nat) (st : DeleteState) (T : Trie)
    (key : List Nat) (h : AtFocus ix fl [] T) (hw : T.WFg)
    (hst : DeleteAt st [] T key) (hkey : key ≠ []) :
    ∃ N res out, (∀ f, N ≤ f → runLoop (deleteBody e ix) f st = some res ∧
        deleteOutcome f ix res = some out) ∧
      (out = (false, ix) ∨
       ∃ ix' fl' oT', out = (true, ix') ∧ InvG ix' fl' oT' ∧
         ix'.keyCount = ix.keyCount - 1 ∧ ix'.node.length = ix.node.length) := by
  have hfacts := descendM_facts T key [] hkey (fun _ _ _ => trivial)
  obtain ⟨st', hst', hfuel⟩ := delete_descendM e ix T _ key [] st h.tree hst hkey
  generalize descendM T key [] = r at hfacts hst'
  obtain ⟨rc, rt, rk⟩ := r
  obtain ⟨h1, h2, _, h4, h5⟩ := hfacts
  simp only at h1 h2 h4 h5 hst'
  simp only [Path.plug] at h1
  have hmain := h2 Path.Main.main_nil
  have hmt := h4 Path.Matched.matched_nil
  have hfoc : AtFocus ix fl rc rt := by
    rw [← AtFocus.plug_iff, h1]; exact h
  obtain ⟨k, rest, hkr⟩ := ne_nil_cons h5.ne_nil_stops
  subst hkr
  have hwT : (Path.plug rc rt).WFg := by rw [h1]; exact hw
  have hwt : rt.WFg := Trie.WFg.of_plug rc rt hmain hwT
  have hrun : ∀ res, deleteBody e ix st' = some (LoopStep.exit res) →
      ∀ f, 3 * T.size + 2 ≤ f → runLoop (deleteBody e ix) f st = some res := by
    intro res hbody f hf
    have h0 := hfuel 1 res (runLoop_exit _ 0 st' res hbody)
    exact runLoop_mono _ _ _ _ h0 f (by omega)
  have hdupn : st'.duplicateNodePointer = nullIndexPointer :=
    hst'.dup.trans (Path.Main.dup_main rc hmain)
  -- the run through a duplicates branch
  have via : ∀ (g : Frame) (sub : Trie) (st1 : DeleteState), g.isDup = true → g.char < 128 →
      g.fill sub = rt → deleteBody e ix st' = some (LoopStep.next st1) →
      DeleteAt st1 (g :: rc) sub (itoa e) → Trie.WF (some []) (-1) 127 sub →
      2 ≤ sub.elems.length →
      (∀ sub', Trie.WF (some []) (-1) 127 sub' → 2 ≤ sub'.elems.length →
        (g.fill sub').WFg ∧ (g.fill sub').tops = rt.tops) →
      (∀ e', (g.collapse e').WFg ∧ (g.collapse e').tops = rt.tops) →
      ∃ N res out, (∀ f, N ≤ f → runLoop (deleteBody e ix) f st = some res ∧
          deleteOutcome f ix res = some out) ∧
        (out = (false, ix) ∨
         ∃ ix' fl' oT', out = (true, ix') ∧ InvG ix' fl' oT' ∧
           ix'.keyCount = ix.keyCount - 1 ∧ ix'.node.length = ix.node.length) := by
    intro g sub st1 hg hc hfill hbody hst1 hws h2s hkeep hcol
    have hf1 : AtFocus ix fl (g :: rc) sub := AtFocus.down g (by rw [hfill]; exact hfoc)
    obtain ⟨res, out, hrun1, hres⟩ := delete_sub e ix fl g rc sub st1 hg hc hf1 hst1 hws h2s
    have hpl : Path.plug (g :: rc) sub = T := by
      simp only [Path.plug]; rw [hfill]; exact h1
    rw [hpl] at hrun1
    refine ⟨3 * T.size + 2, res, out, fun f hf => ⟨?_, (hrun1 f (by omega)).2⟩, ?_⟩
    · have hA := runLoop_step _ _ _ _ (2 * T.size + 1) (2 * T.size + 2) hbody
        (hrun1 _ (le_refl _)).1 (by omega)
      exact runLoop_mono _ _ _ _ (hfuel _ res hA) f (by omega)
    · rcases hres with ho | hsd
      · exact Or.inl ho
      rcases hsd with ⟨ix', fl', sub', ho, hf', hw', h2', hcnt, hlen⟩ |
        ⟨ix', fl', e', ho, hf', hcnt, hlen⟩
      · obtain ⟨k1, k2⟩ := hkeep sub' hw' h2'
        exact Or.inr ⟨ix', fl', some (Path.plug rc (g.fill sub')), ho,
          ⟨(AtFocus.plug_iff _ _ _ _).mpr (AtFocus.up _ hf'),
            Trie.WFg.replace_tops rc _ _ hmain hwT k1 k2⟩, hcnt, hlen⟩
      · obtain ⟨k1, k2⟩ := hcol e'
        exact Or.inr ⟨ix', fl', some (Path.plug rc (g.collapse e')), ho,
          ⟨(AtFocus.plug_iff _ _ _ _).mpr hf',
            Trie.WFg.replace_tops rc _ _ hmain hwT k1 k2⟩, hcnt, hlen⟩
  rcases delete_stop_gen e ix st' rc rt _ k rest hfoc.tree hst' h5 with
    ⟨p, rfl, hr, hk, hbody⟩ | ⟨p, n, rfl, hr, hk, hbody⟩ |
    ⟨p, sub, st1, rfl, hr, hk, hbody, hst1⟩ | ⟨p, sub, n, st1, rfl, hr, hk, hbody, hst1⟩ | hbody
  · subst hr
    obtain ⟨ix', fl', oT', r1, r2, r3, r4⟩ := delete_single_main (3 * T.size + 2) ix fl rc st'
      p k e hfoc hmain hwT hmt hk hst' (by rw [h1]; omega)
    exact ⟨3 * T.size + 2, _, (true, ix'), fun f hf => ⟨hrun _ hbody f hf, by
      rw [deleteOutcome_main _ _ _ hdupn]
      exact deleteSingle_mono _ f ix _ _ hf r1⟩, Or.inr ⟨ix', fl', oT', rfl, r2, r3, r4⟩⟩
  · subst hr
    have key : ∀ st2 : DeleteState, st2.indexPointer = (p : Int) →
        st2.duplicateNodePointer = nullIndexPointer →
        deleteBody e ix st' = some (LoopStep.exit (DeleteExit.matched st2)) →
        ∃ N res out, (∀ f, N ≤ f → runLoop (deleteBody e ix) f st = some res ∧
          deleteOutcome f ix res = some out) ∧
        (out = (false, ix) ∨
         ∃ ix' fl' oT', out = (true, ix') ∧ InvG ix' fl' oT' ∧
           ix'.keyCount = ix.keyCount - 1 ∧ ix'.node.length = ix.node.length) := by
      intro st2 hptr hd2 hbody2
      obtain ⟨ix', fl', oT', r1, r2, r3, r4⟩ := delete_key_main (3 * T.size + 2) ix fl rc st2
        p k e n hfoc hmain hwT hptr
      exact ⟨3 * T.size + 2, _, (true, ix'), fun f hf => ⟨hrun _ hbody2 f hf, by
        rw [deleteOutcome_main _ _ _ hd2]
        exact deleteSingle_mono _ f ix _ _ hf r1⟩, Or.inr ⟨ix', fl', oT', rfl, r2, r3, r4⟩⟩
    refine key _ ?_ ?_ hbody
    · exact hst'.pointer
    · exact hdupn
  · subst hr
    obtain ⟨_, hws, h2s⟩ := hwt
    exact via (Frame.Ls p k) sub st1 rfl hk rfl hbody hst1 hws h2s
      (fun sub' hw' h2' => ⟨⟨hk, hw', h2'⟩, rfl⟩) (fun e' => ⟨trivial, rfl⟩)
  · subst hr
    obtain ⟨_, hws, h2s, hn⟩ := hwt
    exact via (Frame.Ks p k n) sub st1 rfl hk rfl hbody hst1 hws h2s
      (fun sub' hw' h2' => ⟨⟨hk, hw', h2', hn⟩, rfl⟩) (fun e' => ⟨hn, rfl⟩)
  · exact ⟨3 * T.size + 2, _, (false, ix), fun f hf => ⟨hrun _ hbody f hf, rfl⟩, Or.inl rfl⟩

/-- Every call of `Delete` on an index that holds a well-formed tree or none,
with a key of arbitrary bytes, returns for enough fuel; either it returns
false and the index is unchanged, or it returns true and the index holds a
well-formed tree or none, with one key less, in an arena of the same
length. -/
theorem delete_invG (ix : Index) (fl : List Nat) (oT : Option Trie) (k : List Nat) (e : Int)
    (h : InvG ix fl oT) :
    ∃ N out, (∀ f, N ≤ f → Delete f k e ix = some out) ∧
      (out = (false, ix) ∨
       ∃ ix' fl' oT', out = (true, ix') ∧ InvG ix' fl' oT' ∧
         ix'.keyCount = ix.keyCount - 1 ∧ ix'.node.length = ix.node.length) := by
  cases oT with
  | none =>
    refine ⟨0, (false, ix), fun f _ => ?_, Or.inl rfl⟩
    rw [Delete_eq]
    split_ifs
    · rfl
    · rfl
    · exact absurd h.1 (by assumption)
  | some T =>
    obtain ⟨hfoc, hw⟩ := h
    by_cases hnil : (validate k).1 = []
    · refine ⟨0, (false, ix), fun f _ => ?_, Or.inl rfl⟩
      rw [Delete_eq, if_pos (by rw [validate_snd, hnil]; rfl)]
    have hlen : (validate k).2 ≠ 0 := by
      rw [validate_snd]
      exact fun hc => hnil (List.length_eq_zero.mp hc)
    have hroot : ix.indexRootPointer ≠ nullIndexPointer := by
      rw [hfoc.root]; exact natCast_ne_null _
    obtain ⟨N, res, out, hrun, hout⟩ := delete_treeG e ix fl
      ⟨(validate k).1, (validate k).2, nullIndexPointer, nullIndexPointer,
        nullIndexPointer, nullIndexPointer, ix.indexRootPointer, null, 0⟩
      T (validate k).1 hfoc hw ⟨rfl, rfl, rfl, rfl, rfl, rfl, hfoc.root, rfl⟩ hnil
    refine ⟨N, out, fun f hf => ?_, hout⟩
    rw [Delete_eq, if_neg hlen, if_neg hroot, (hrun f hf).1]
    exact (hrun f hf).2

/-! ## Indexes reached with keys of arbitrary bytes -/

theorem reachAny_of_reach {s : Index} {log : List Call} (h : Reach s log) : ReachAny s := by
  induction h with
  | init => exact ReachAny.init
  | insert fuel k e b s s' log _ _ hrun ih => exact ReachAny.insert fuel k e b s s' ih hrun
  | delete fuel k e b s s' log _ _ hrun ih => exact ReachAny.delete fuel k e b s s' ih hrun

/-- The result of `Insert` on enough fuel is its result on every fuel on
which it returns. -/
theorem Insert_result {N : Nat} {k : List Nat} {e : Int} {s : Index} {out : Bool × Index}
    (hrun : ∀ f, N ≤ f → Insert f k e s = some out) (fuel : Nat) (out' : Bool × Index)
    (h : Insert fuel k e s = some out') : out' = out := by
  have h1 := Insert_mono fuel (max fuel N) k e s _ (le_max_left _ _) h
  rw [hrun _ (le_max_right _ _)] at h1
  injection h1 with h1
  exact h1.symm

/-- The result of `Delete` on enough fuel is its result on every fuel on
which it returns. -/
theorem Delete_result {N : Nat} {k : List Nat} {e : Int} {s : Index} {out : Bool × Index}
    (hrun : ∀ f, N ≤ f → Delete f k e s = some out) (fuel : Nat) (out' : Bool × Index)
    (h : Delete fuel k e s = some out') : out' = out := by
  have h1 := Delete_mono fuel (max fuel N) k e s _ (le_max_left _ _) h
  rw [hrun _ (le_max_right _ _)] at h1
  injection h1 with h1
  exact h1.symm

/-- Every index reached with keys of arbitrary bytes holds a tree that is
well-formed in the general sense, or none, and a free list, which together
fill the arena. -/
theorem reachAny_invG {s : Index} (h : ReachAny s) : ∃ fl oT, InvG s fl oT := by
  induction h with
  | init => exact ⟨[], none, rfl, rfl, List.Perm.refl _⟩
  | insert fuel k e b s s' _ hrun ih =>
    obtain ⟨fl, oT, hinv⟩ := ih
    obtain ⟨N, out, hN, hout⟩ := insert_invG s fl oT k e hinv
    have := Insert_result hN fuel _ hrun
    subst this
    rcases hout with ho | ⟨ix', fl', T', ho, hinv', _⟩
    · have : s' = s := (Prod.mk.inj ho).2
      subst this
      exact ⟨fl, oT, hinv⟩
    · have : s' = ix' := (Prod.mk.inj ho).2
      subst this
      exact ⟨fl', some T', hinv'⟩
  | delete fuel k e b s s' _ hrun ih =>
    obtain ⟨fl, oT, hinv⟩ := ih
    obtain ⟨N, out, hN, hout⟩ := delete_invG s fl oT k e hinv
    have := Delete_result hN fuel _ hrun
    subst this
    rcases hout with ho | ⟨ix', fl', oT', ho, hinv', _⟩
    · have : s' = s := (Prod.mk.inj ho).2
      subst this
      exact ⟨fl, oT, hinv⟩
    · have : s' = ix' := (Prod.mk.inj ho).2
      subst this
      exact ⟨fl', oT', hinv'⟩

/-- The free list is no longer than the arena. -/
theorem InvG.free_le {ix : Index} {fl : List Nat} {oT : Option Trie} (h : InvG ix fl oT) :
    fl.length ≤ ix.node.length := by
  cases oT with
  | none =>
    have := h.2.2.length_eq
    simp only [List.length_range] at this
    omega
  | some T =>
    have := h.1.length_eq
    omega

/-- The free list of an arena, read from a head, is determined. -/
theorem FreeList.unique (ns : List indexNode) : ∀ (fl fl' : List Nat) (head : Int),
    FreeList ns head fl → FreeList ns head fl' → fl = fl' := by
  intro fl
  induction fl with
  | nil =>
    intro fl' head h h'
    cases fl' with
    | nil => rfl
    | cons a fl' =>
      have h1 : head = nullIndexPointer := h
      have h2 : head = (a : Int) := h'.1
      exact absurd (h2.symm.trans h1) (natCast_ne_null a)
  | cons a fl ih =>
    intro fl' head h h'
    cases fl' with
    | nil =>
      have h1 : head = nullIndexPointer := h'
      have h2 : head = (a : Int) := h.1
      exact absurd (h2.symm.trans h1) (natCast_ne_null a)
    | cons b fl' =>
      obtain ⟨h1, nd, h2, h3⟩ := h
      obtain ⟨h1', nd', h2', h3'⟩ := h'
      have hab : a = b := by
        have : (a : Int) = (b : Int) := h1.symm.trans h1'
        exact_mod_cast this
      subst hab
      rw [h2] at h2'
      injection h2' with h2'
      subst h2'
      rw [ih fl' _ h3 h3']

/-! ## The read operations do not depend on the fuel -/

/-- A loop whose body gives more on more fuel gives the same result on more fuel. -/
theorem runLoop_mono_body {σ ρ : Type} (b1 b2 : σ → Option (LoopStep σ ρ))
    (hb : ∀ s x, b1 s = some x → b2 s = some x) :
    ∀ (fuel : Nat) (s : σ) (r : ρ), runLoop b1 fuel s = some r →
      ∀ fuel', fuel ≤ fuel' → runLoop b2 fuel' s = some r := by
  intro fuel
  induction fuel with
  | zero => intro s r h; simp [runLoop] at h
  | succ n ih =>
    intro s r h fuel' hle
    obtain ⟨m, rfl⟩ : ∃ m, fuel' = m + 1 := ⟨fuel' - 1, by omega⟩
    cases hs : b1 s with
    | none => simp [runLoop, hs] at h
    | some st =>
      have hs2 := hb s st hs
      cases st with
      | next s' =>
        rw [runLoop_next b1 n s s' hs] at h
        rw [runLoop_next b2 m s s' hs2]
        exact ih s' r h m (by omega)
      | exit r' =>
        rw [runLoop_exit b1 n s r' hs] at h
        rw [runLoop_exit b2 m s r' hs2]
        exact h

theorem traverseAndCollect_mono (f f' : Nat) (a b : Int) (ix : Index) (r : List Int)
    (hle : f ≤ f') (h : traverseAndCollect f a b ix = some r) :
    traverseAndCollect f' a b ix = some r :=
  runLoop_mono _ _ _ _ h f' hle

/-- A result of `Scan` does not depend on the fuel. -/
theorem Scan_mono (f f' : Nat) (ix : Index) (out : Bool × List Int) (hle : f ≤ f')
    (h : Scan f ix = some out) : Scan f' ix = some out := by
  simp only [Scan] at h ⊢
  cases hr : traverseAndCollect f ix.indexRootPointer nullIndexPointer ix with
  | none => rw [hr] at h; cases h
  | some res =>
    rw [hr] at h
    rw [traverseAndCollect_mono f f' _ _ ix res hle hr]
    exact h

theorem selectBody_mono (f f' : Nat) (ks : List Nat) (kl : Nat) (ix : Index) (st : SelectState)
    (x : LoopStep SelectState (Bool × List Int)) (hle : f ≤ f')
    (h : selectBody f ks kl ix st = some x) : selectBody f' ks kl ix st = some x := by
  unfold selectBody at h ⊢
  by_cases c1 : st.indexPointer = nullIndexPointer
  · rw [if_pos c1] at h ⊢
    exact h
  · rw [if_neg c1] at h ⊢
    cases hn : getNode ix.node st.indexPointer with
    | none => rw [hn] at h; cases h
    | some nd =>
      rw [hn] at h
      simp only at h ⊢
      have ht := fun r => traverseAndCollect_mono f f' nd.leftPointer st.indexPointer ix r hle
      generalize traverseAndCollect f nd.leftPointer st.indexPointer ix = t at h ht
      generalize traverseAndCollect f' nd.leftPointer st.indexPointer ix = t' at ht ⊢
      cases hk : sliceOne ks st.i with
      | none =>
        rw [hk] at h
        simp only at h ⊢
        split_ifs at h ⊢
        all_goals exact h
      | some k =>
        rw [hk] at h
        simp only at h ⊢
        cases t with
        | none =>
          simp only at h
          split_ifs at h ⊢
          all_goals exact h
        | some res =>
          rw [ht res rfl]
          exact h

/-- A result of `Select` does not depend on the fuel. -/
theorem Select_mono (f f' : Nat) (k : List Nat) (ix : Index) (out : Bool × List Int)
    (hle : f ≤ f') (h : Select f k ix = some out) : Select f' k ix = some out := by
  simp only [Select] at h ⊢
  split_ifs at h ⊢
  · exact h
  · exact runLoop_mono_body _ _ (fun s x hs => selectBody_mono f f' _ _ ix s x hle hs) f _ _ h f' hle

/-- A result of `Search` does not depend on the fuel. -/
theorem Search_mono (f f' : Nat) (k : List Nat) (ix : Index) (out : Bool × List Int)
    (hle : f ≤ f') (h : Search f k ix = some out) : Search f' k ix = some out := by
  simp only [Search] at h ⊢
  split_ifs at h ⊢
  · exact h
  · cases hr : runLoop (searchBody (validate k).1 (validate k).2 ix) f
        ⟨ix.indexRootPointer, nullIndexPointer, 0⟩ with
    | none => rw [hr] at h; cases h
    | some res =>
      rw [hr] at h
      rw [runLoop_mono _ _ _ _ hr f' hle]
      cases res with
      | notFound => exact h
      | found a b =>
        simp only at h ⊢
        cases ht : traverseAndCollect f a b ix with
        | none => rw [ht] at h; cases h
        | some rs =>
          rw [ht] at h
          rw [traverseAndCollect_mono f f' _ _ ix rs hle ht]
          exact h

/-- A result of `Statistics` does not depend on the fuel. -/
theorem Statistics_mono (f f' : Nat) (ix : Index) (out : Statistic × List Nat)
    (hle : f ≤ f') (h : Statistics f ix = some out) : Statistics f' ix = some out := by
  simp only [Statistics] at h ⊢
  cases hr : runLoop (statsBody ix) f ⟨[], 0, left, ⟨0, 0, 0, 0, 0, 0, 0, 0, 0⟩,
      ix.indexRootPointer⟩ with
  | none => rw [hr] at h; cases h
  | some st =>
    rw [hr] at h
    rw [runLoop_mono _ _ _ _ hr f' hle]
    simp only at h ⊢
    cases hd : runLoop (deletedBody ix) f (ix.deletedRootPointer, (statsTotals st).Deleted) with
    | none => rw [hd] at h; cases h
    | some d =>
      rw [hd] at h
      rw [runLoop_mono _ _ _ _ hd f' hle]
      exact h

/-- On an index obtained from a fresh one by `Insert` and `Delete` calls with
ASCII keys the four read operations return, each with one result on all
fuels from some number on. -/
theorem reach_reads_return {s : Index} {log : List Call} (h : Reach s log) (k : List Nat) :
    ∃ (N : Nat) (r1 r2 r3 : Bool × List Int) (r4 : Statistic × List Nat), ∀ f, N ≤ f →
      Scan f s = some r1 ∧ Select f k s = some r2 ∧ Search f k s = some r3 ∧
      Statistics f s = some r4 := by
  obtain ⟨fl, oT, hinv, _, _⟩ := reach_tree h
  obtain ⟨N1, h1⟩ := scan_inv s fl oT hinv
  obtain ⟨N2, h2⟩ := select_inv s fl oT k hinv
  obtain ⟨N4, h4⟩ := stats_inv s fl oT hinv hinv.free_list
  obtain ⟨r4, hr4, _⟩ := h4 N4 (le_refl _)
  have h3 : ∃ N3 r3, ∀ f, N3 ≤ f → Search f k s = some r3 := by
    by_cases hnil : (validate k).1 = []
    · refine ⟨0, (false, []), fun f _ => ?_⟩
      have hv : (validate k).2 = 0 := by rw [validate_snd, hnil]; rfl
      unfold Search
      rcases hval : validate k with ⟨ks, kl⟩
      rw [hval] at hv
      simp only at hv ⊢
      rw [if_pos hv]
    · obtain ⟨N3, h3⟩ := search_inv s fl oT k hinv hnil
      exact ⟨N3, _, h3⟩
  obtain ⟨N3, r3, h3⟩ := h3
  refine ⟨max (max N1 N2) (max N3 N4), _, _, r3, r4, fun f hf => ⟨h1 f ?_, h2 f ?_, h3 f ?_,
    Statistics_mono N4 f s r4 ?_ hr4⟩⟩
  · exact le_trans (le_trans (le_max_left _ _) (le_max_left _ _)) hf
  · exact le_trans (le_trans (le_max_right _ _) (le_max_left _ _)) hf
  · exact le_trans (le_trans (le_max_left _ _) (le_max_right _ _)) hf
  · exact le_trans (le_trans (le_max_right _ _) (le_max_right _ _)) hf

/-! ## The free list has no slot twice -/

theorem FreeList.suffix {ns : List indexNode} : ∀ (l1 l2 : List Nat) (head : Int),
    FreeList ns head (l1 ++ l2) → ∃ h', FreeList ns h' l2 := by
  intro l1
  induction l1 with
  | nil => intro l2 head h; exact ⟨head, h⟩
  | cons a l1 ih =>
    intro l2 head h
    obtain ⟨_, nd, _, h3⟩ := h
    exact ih l2 _ h3

theorem FreeList.nodup_of {ns : List indexNode} : ∀ (fl : List Nat) (head : Int),
    FreeList ns head fl → fl.Nodup := by
  intro fl
  induction fl with
  | nil => intro _ _; exact List.nodup_nil
  | cons a fl ih =>
    intro head h
    obtain ⟨h1, nd, h2, h3⟩ := h
    refine List.nodup_cons.mpr ⟨fun ha => ?_, ih _ h3⟩
    obtain ⟨l1, l2, hsplit⟩ := List.append_of_mem ha
    have h3' := h3
    rw [hsplit] at h3'
    obtain ⟨h', hs⟩ := FreeList.suffix l1 (a :: l2) _ h3'
    obtain ⟨_, nd', h2', h4⟩ := hs
    rw [h2] at h2'
    injection h2' with h2'
    subst h2'
    have := FreeList.unique ns _ _ _ h4 h3
    have hl := congrArg List.length this
    rw [hsplit] at hl
    simp only [List.length_append, List.length_cons] at hl
    omega

/-! ## The slots that `extend` leaves alone -/

theorem allocNode_nil (nd : indexNode) (ix : Index)
    (h : FreeList ix.node ix.deletedRootPointer []) :
    allocNode nd ix = some ((ix.node.length : Int), { ix with node := ix.node ++ [nd] }) := by
  have hfree : ix.deletedRootPointer = nullIndexPointer := h
  simp only [allocNode]
  rw [if_pos hfree]

theorem allocNode_cons (nd : indexNode) (ix : Index) (a : Nat) (old : indexNode)
    (hhead : ix.deletedRootPointer = (a : Int)) (hold : ix.node[a]? = some old) :
    allocNode nd ix = some ((a : Int),
      { ix with node := ix.node.set a nd, deletedRootPointer := old.rightPointer }) := by
  have ha_lt : a < ix.node.length := lt_length_of_getElem? hold
  have hne2 : ix.deletedRootPointer ≠ nullIndexPointer := by
    rw [hhead]; exact natCast_ne_null a
  simp only [allocNode]
  rw [if_neg hne2, hhead]
  simp only [getNode_natCast, hold, setNode_natCast _ _ _ ha_lt]

/-- The loop of `extend` writes only to the first `i` slots of the free list
and to new slots: every other slot of the arena holds what it held. -/
theorem extendLoop_keep (ks : List Nat) (e : Int) : ∀ (i : Nat) (ext : Int) (ix : Index)
    (fl : List Nat) (p : Int) (ix' : Index), FreeList ix.node ix.deletedRootPointer fl →
    extendLoop ks e i ext ix = some (p, ix') →
    ∀ b, b < ix.node.length → b ∉ fl.take i → ix'.node[b]? = ix.node[b]? := by
  intro i
  induction i with
  | zero =>
    intro ext ix fl p ix' _ h b _ _
    simp only [extendLoop, Option.some.injEq, Prod.mk.injEq] at h
    rw [← h.2]
  | succ i ih =>
    intro ext ix fl p ix' hfl h b hb hbf
    rw [extendLoop_succ] at h
    have hnd := FreeList.nodup_of fl _ hfl
    cases fl with
    | nil =>
      rw [allocNode_nil _ ix hfl] at h
      simp only at h
      have hfree : ix.deletedRootPointer = nullIndexPointer := hfl
      have := ih _ _ [] p ix' (by exact hfree) h b
        (by simp only [List.length_append, List.length_singleton]; omega) (by simp)
      rw [this]
      exact getElem?_append_one_lt _ _ _ hb
    | cons a fl1 =>
      obtain ⟨hhead, old, hold, hrest⟩ := hfl
      have hnd1 : a ∉ fl1 ∧ fl1.Nodup := List.nodup_cons.mp hnd
      rw [allocNode_cons _ ix a old hhead hold] at h
      simp only at h
      simp only [List.take_succ_cons, List.mem_cons, not_or] at hbf
      have hfl1 : FreeList (ix.node.set a
          (if i + 1 = ks.length then ⟨indexTerminalNode, e, ks.getD i 0, ext⟩
            else ⟨characterNode, nullIndexPointer, ks.getD i 0, ext⟩)) old.rightPointer fl1 :=
        FreeList.frame_free fl1 _ hrest
          (fun c hc => getElem?_set_other _ _ _ _ (fun hh => hnd1.1 (hh ▸ hc)))
      have := ih _ _ fl1 p ix' hfl1 h b (by simp only [List.length_set]; exact hb) hbf.2
      rw [this]
      exact getElem?_set_other _ _ _ _ (fun hh => hbf.1 hh.symm)

theorem extend_keep (ks : List Nat) (e : Int) (next : Int) (ix : Index) (fl : List Nat)
    (p : Int) (ix' : Index) (hfl : FreeList ix.node ix.deletedRootPointer fl)
    (h : extend ks e next ix = some (p, ix')) :
    ∀ b, b < ix.node.length → b ∉ fl.take ks.length → ix'.node[b]? = ix.node[b]? :=
  extendLoop_keep ks e ks.length next ix fl p ix' hfl h

/-! ## The chain in the arena -/

theorem Trie.IsChain.addrs_cons : ∀ (t : Trie) (ks : List Nat) (e : Int), t.IsChain ks e →
    t.addrs = t.addr :: t.addrs.tail := by
  intro t ks e _
  cases t <;> rfl

theorem Trie.IsChain.chain_at {ns : List indexNode} : ∀ (t : Trie) (ks : List Nat) (e : Int)
    (next : Int), t.IsChain ks e → Trie.Laid ns t next → ChainAt ns t.addrs ks e next := by
  intro t
  induction t with
  | S p c e0 =>
    intro ks e next h hl
    match ks, h with
    | [k], h =>
      simp only [Trie.IsChain] at h
      simp only [Trie.Laid] at hl
      simp only [Trie.addrs, ChainAt]
      rw [hl, h.1, h.2]
  | X p c n ih =>
    intro ks e next h hl
    match ks, h with
    | k :: k2 :: ks, h =>
      simp only [Trie.IsChain] at h
      simp only [Trie.Laid] at hl
      have h1 := ih _ _ next h.2 hl.2
      simp only [Trie.addrs]
      rw [Trie.IsChain.addrs_cons n _ _ h.2] at h1 ⊢
      simp only [ChainAt]
      refine ⟨?_, h1⟩
      rw [hl.1, h.1]
  | R p c e0 n _ => intro ks e _ h; simp [Trie.IsChain] at h
  | D p c l r _ _ => intro ks e _ h; simp [Trie.IsChain] at h
  | L p c sub _ => intro ks e _ h; simp [Trie.IsChain] at h
  | K p c sub n _ _ => intro ks e _ h; simp [Trie.IsChain] at h

theorem Trie.IsChain.types_chain : ∀ (t : Trie) (ks : List Nat) (e : Int), t.IsChain ks e →
    t.types = List.replicate (ks.length - 1) characterNode ++ [indexTerminalNode] := by
  intro t
  induction t with
  | S p c e0 =>
    intro ks e h
    match ks, h with
    | [k], h => simp [Trie.types]
  | X p c n ih =>
    intro ks e h
    match ks, h with
    | k :: k2 :: ks, h =>
      simp only [Trie.IsChain] at h
      simp only [Trie.types, ih _ _ h.2, List.length_cons, Nat.add_sub_cancel]
      rfl
  | R p c e0 n _ => intro ks e h; simp [Trie.IsChain] at h
  | D p c l r _ _ => intro ks e h; simp [Trie.IsChain] at h
  | L p c sub _ => intro ks e h; simp [Trie.IsChain] at h
  | K p c sub n _ _ => intro ks e h; simp [Trie.IsChain] at h

theorem ChainAt.chain_length {ns : List indexNode} : ∀ (as ks : List Nat) (e next : Int),
    ChainAt ns as ks e next → as.length = ks.length := by
  intro as
  induction as with
  | nil => intro ks e next h; simp [ChainAt] at h
  | cons a as ih =>
    intro ks e next h
    match as, ks, h with
    | [], [c], _ => rfl
    | b :: as, c :: k :: ks, h =>
      simp only [ChainAt] at h
      have := ih (k :: ks) e next h.2
      simp only [List.length_cons] at this ⊢
      omega

/-- The slots taken by a call of `extend` for `n` bytes: the first `n` slots
of the free list, and new slots once the free list is used up. -/
theorem Extended.slots {ix ix' : Index} {fl fl' : List Nat} {res : Trie} {next : Int}
    (h : Extended ix ix' fl fl' [] res next) (n : Nat) (hn : res.addrs.length = n) :
    fl' = fl.drop n ∧ ix'.node.length = ix.node.length + (n - fl.length) ∧
      res.addrs.Perm (fl.take n ++ List.range' ix.node.length (n - fl.length)) := by
  obtain ⟨m, hfl', hlen'⟩ := h.taken
  have hp := h.perm
  have hl := hp.length_eq
  simp only [List.length_append, List.length_range', List.nil_append, hn] at hl
  have hd : fl'.length = fl.length - m := by rw [hfl', List.length_drop]
  have hmn : m = n := by omega
  subst hmn
  refine ⟨hfl', hlen', ?_⟩
  have h2 : (res.addrs ++ fl.drop m).Perm
      ((fl.take m ++ List.range' ix.node.length (m - fl.length)) ++ fl.drop m) := by
    rw [hfl'] at hp
    refine hp.trans ?_
    rw [hlen', show ix.node.length + (m - fl.length) - ix.node.length = m - fl.length by omega]
    simp only [List.nil_append]
    have e : ∀ R : List Nat, fl ++ R = fl.take m ++ (fl.drop m ++ R) := by
      intro R
      rw [← List.append_assoc, List.take_append_drop]
    rw [e, List.append_assoc]
    exact List.Perm.append_left _ List.perm_append_comm
  exact (List.perm_append_right_iff _).mp h2

/-- A call of `extend` for a key of `n ≥ 1` bytes returns; it takes exactly
`n` slots, the first `n` of the free list and new ones at the end of the
arena once the free list is used up, builds the chain of the key in them
and returns the slot of its first node; every other slot, the root pointer
and the key count are as before. -/
theorem extend_exact (ks : List Nat) (e : Int) (next : Int) (ix : Index) (fl : List Nat)
    (hks : ks ≠ []) (hfl : FreeList ix.node ix.deletedRootPointer fl) :
    ∃ (a : Nat) (as : List Nat) (ix' : Index),
      extend ks e next ix = some ((a : Int), ix') ∧
      ChainAt ix'.node (a :: as) ks e next ∧
      (a :: as).Perm (fl.take ks.length ++ List.range' ix.node.length (ks.length - fl.length)) ∧
      FreeList ix'.node ix'.deletedRootPointer (fl.drop ks.length) ∧
      ix'.node.length = ix.node.length + (ks.length - fl.length) ∧
      (∀ b, b < ix.node.length → b ∉ fl.take ks.length → ix'.node[b]? = ix.node[b]?) ∧
      ix'.indexRootPointer = ix.indexRootPointer ∧ ix'.keyCount = ix.keyCount := by
  obtain ⟨res, ix', fl', hrun, hch, hE⟩ :=
    extend_spec ks e next ix fl hks hfl (FreeList.nodup_of fl _ hfl)
  have hsz : res.addrs.length = ks.length := by
    rw [← Trie.size_eq_length, Trie.IsChain.size res ks e hch]
  obtain ⟨h1, h2, h3⟩ := hE.slots ks.length hsz
  have hc := Trie.IsChain.chain_at res ks e next hch hE.laid
  have hcons := Trie.IsChain.addrs_cons res ks e hch
  rw [hcons] at hc h3
  refine ⟨res.addr, res.addrs.tail, ix', hrun, hc, h3, ?_, h2,
    extend_keep ks e next ix fl _ ix' hfl hrun, hE.root, hE.count⟩
  rw [← h1]
  exact hE.free

/-! ## Statistics on an index that holds a tree -/

theorem stats_scan_holds (s : Index) (oT : Option Trie) (h : Holds s oT) :
    ∃ st, st.result = (typesOf oT).foldl bump ⟨0, 0, 0, 0, 0, 0, 0, 0, 0⟩ ∧
      ∀ fuel, 2 * (addrsOf oT).length + 1 ≤ fuel →
        runLoop (statsBody s) fuel ⟨[], 0, left, ⟨0, 0, 0, 0, 0, 0, 0, 0, 0⟩,
          s.indexRootPointer⟩ = some st := by
  cases oT with
  | none =>
    have hroot : s.indexRootPointer = nullIndexPointer := h
    refine ⟨⟨[], 0, left, ⟨0, 0, 0, 0, 0, 0, 0, 0, 0⟩, s.indexRootPointer⟩, rfl, ?_⟩
    intro fuel hf
    obtain ⟨m, rfl⟩ : ∃ m, fuel = m + 1 := ⟨fuel - 1, by omega⟩
    exact runLoop_exit _ m _ _ (by simp [statsBody, hroot])
  | some T =>
    obtain ⟨hroot, hl, hnd⟩ := h
    obtain ⟨st', h1, _, h3, _, _, h6⟩ := stats_tree s T (-1) hl hnd []
      ⟨[], 0, left, ⟨0, 0, 0, 0, 0, 0, 0, 0, 0⟩, s.indexRootPointer⟩
      hroot rfl rfl rfl List.nodup_nil (by simp) (Or.inl rfl)
    refine ⟨st', h3, ?_⟩
    intro fuel hfu
    have hex : runLoop (statsBody s) 1 st' = some st' :=
      runLoop_exit _ 0 _ _ (by simp [statsBody, h1])
    have := h6 1 st' hex
    refine runLoop_mono _ _ _ _ this fuel ?_
    simp only [addrsOf, ← Trie.size_eq_length] at hfu
    omega

/-- The result of `Statistics` on an index that holds a tree of any shape,
or none: the counts of the tags, their sum and the length of the free
list. -/
theorem stats_holds (s : Index) (fl : List Nat) (oT : Option Trie) (h : Holds s oT)
    (hfree : FreeList s.node s.deletedRootPointer fl) :
    ∃ N, ∀ fuel, N ≤ fuel → ∃ r, Statistics fuel s = some r ∧
      r.1.Active = ((addrsOf oT).length : Int) ∧ r.1.Deleted = (fl.length : Int) ∧
      r.1.DecisionNodeCount = ((typesOf oT).count decisionNode : Int) ∧
      r.1.CharacterNodeCount = ((typesOf oT).count characterNode : Int) ∧
      r.1.IndexKeyNodeCount = ((typesOf oT).count indexKeyNode : Int) ∧
      r.1.IndexTerminalNodeCount = ((typesOf oT).count indexTerminalNode : Int) ∧
      r.1.DuplicateKeyNodeCount = ((typesOf oT).count duplicateKeyNode : Int) ∧
      r.1.DuplicateTerminalNodeCount = ((typesOf oT).count duplicateTerminalNode : Int) ∧
      r.2 = marshalStatistic r.1 := by
  obtain ⟨st, hres, hrun⟩ := stats_scan_holds s oT h
  obtain ⟨_, _, _, h4, h5, h6, h7, h8, h9⟩ :=
    bump_fold (typesOf oT) ⟨0, 0, 0, 0, 0, 0, 0, 0, 0⟩
  rw [← hres] at h4 h5 h6 h7 h8 h9
  simp only [zero_add] at h4 h5 h6 h7 h8 h9
  refine ⟨2 * (addrsOf oT).length + 1 + (fl.length + 1), fun fuel hfu => ?_⟩
  have hd := deleted_walk s fl s.deletedRootPointer (statsTotals st).Deleted fuel hfree
    (by omega)
  have h0 : (statsTotals st).Deleted = st.result.Deleted := rfl
  have hz : st.result.Deleted = 0 := by
    rw [hres]; exact (bump_fold (typesOf oT) ⟨0, 0, 0, 0, 0, 0, 0, 0, 0⟩).2.1
  refine ⟨({ statsTotals st with Deleted := (statsTotals st).Deleted + (fl.length : Int) },
    marshalStatistic
      { statsTotals st with Deleted := (statsTotals st).Deleted + (fl.length : Int) }),
    ?_, ?_, ?_, h4, h5, h6, h7, h8, h9, rfl⟩
  · simp only [Statistics, hrun fuel (by omega), hd]
  · have ht := typesOf_total oT
    simp only [statsTotals, h4, h5, h6, h7, h8, h9]
    rw [← ht]
    push_cast
    ring
  · simp only [h0, hz, zero_add]

theorem InvG.holds {ix : Index} {fl : List Nat} {oT : Option Trie} (h : InvG ix fl oT) :
    Holds ix oT := by
  cases oT with
  | none => exact h.1
  | some T =>
    refine ⟨h.1.root, ?_, h.1.tree_nodup⟩
    simpa [Path.thread] using h.1.tree

/-! ## Insert into an empty index -/

/-- The slots of the chain that `extend` has built are distinct. -/
theorem Extended.nodup_res {ix ix' : Index} {fl fl' : List Nat} {res : Trie} {next : Int}
    (h : Extended ix ix' fl fl' [] res next) (hfl : FreeList ix.node ix.deletedRootPointer fl) :
    res.addrs.Nodup := by
  have hnd : (fl ++ List.range' ix.node.length (ix'.node.length - ix.node.length)).Nodup := by
    refine List.nodup_append.mpr ⟨FreeList.nodup_of fl _ hfl, List.nodup_range' _ _, ?_⟩
    intro a ha hb
    have h1 := FreeList.lt_length_free fl _ hfl a ha
    have h2 := (List.mem_range'_1.mp hb).1
    omega
  have hp := h.perm
  simp only [List.nil_append] at hp
  exact (List.nodup_append.mp (hp.nodup_iff.mpr hnd)).1

/-- A call of `Insert` on an index without a root, with a key whose
normalized form is not empty, returns true on every fuel: the index is the
one that `extend` leaves for the normalized key, the element and the thread
null, with the chain as the root and one key more. -/
theorem insert_empty_exact (k : List Nat) (e : Int) (ix : Index) (fl : List Nat)
    (hroot : ix.indexRootPointer = nullIndexPointer)
    (hfl : FreeList ix.node ix.deletedRootPointer fl) (hk : (validate k).1 ≠ []) :
    ∃ (res : Trie) (ix1 : Index) (fl' : List Nat),
      extend (validate k).1 e nullIndexPointer ix = some ((res.addr : Int), ix1) ∧
      res.IsChain (validate k).1 e ∧ Extended ix ix1 fl fl' [] res nullIndexPointer ∧
      ∀ fuel, Insert fuel k e ix = some (true,
        { ix1 with indexRootPointer := (res.addr : Int), keyCount := ix1.keyCount + 1 }) := by
  have hlen : (validate k).2 ≠ 0 := by
    rw [validate_snd]
    exact fun hc => hk (List.length_eq_zero.mp hc)
  obtain ⟨res, ix', fl', hext, hchain, hE⟩ := extend_spec (validate k).1 e nullIndexPointer ix fl
    hk hfl (FreeList.nodup_of fl _ hfl)
  refine ⟨res, ix', fl', hext, hchain, hE, fun fuel => ?_⟩
  rw [Insert_eq, if_neg hlen, if_pos hroot, hext]

theorem count_chain_character (n : Nat) :
    (List.replicate n characterNode ++ [indexTerminalNode]).count characterNode = n := by
  rw [List.count_append, List.count_replicate_self]
  simp [characterNode, indexTerminalNode]

theorem count_chain_terminal (n : Nat) :
    (List.replicate n characterNode ++ [indexTerminalNode]).count indexTerminalNode = 1 := by
  rw [List.count_append, List.count_replicate]
  simp [characterNode, indexTerminalNode]

/-! ## Delete of the only pair of the index -/

/-- A well-formed tree that holds one element is a chain. -/
theorem Trie.WF.chain_of_single : ∀ (t : Trie) (mode : Option (List Nat)) (lo hi : Int),
    Trie.WF mode lo hi t → t.elems.length = 1 → ∃ ks e, t.IsChain ks e := by
  intro t
  induction t with
  | S p c e => intro mode lo hi _ _; exact ⟨[c], e, rfl, rfl⟩
  | R p c e n ih =>
    intro mode lo hi _ h1
    have := n.elems_length_pos
    simp only [Trie.elems, List.length_cons] at h1
    omega
  | X p c n ih =>
    intro mode lo hi hw h1
    obtain ⟨ks, e, hc⟩ := ih _ (-1) 127 hw.2.2 (by simpa [Trie.elems] using h1)
    exact ⟨c :: ks, e, hc.X_cons⟩
  | D p c l r _ _ =>
    intro mode lo hi _ h1
    have := l.elems_length_pos
    have := r.elems_length_pos
    simp only [Trie.elems, List.length_append] at h1
    omega
  | L p c sub _ =>
    intro mode lo hi hw h1
    have := hw.2.2.2.2
    simp only [Trie.elems] at h1
    omega
  | K p c sub n _ _ =>
    intro mode lo hi hw h1
    have := hw.2.2.2.2.1
    simp only [Trie.elems, List.length_append] at h1
    omega

/-- The descent through a chain with the key of the chain, of ASCII bytes,
stops at the terminal of the chain with its byte as the last byte to match,
having passed character nodes only. -/
theorem descendM_chain : ∀ (t : Trie) (ks : List Nat) (e : Int) (ctx : Path),
    t.IsChain ks e → (∀ b ∈ ks, b < 128) →
    ∃ rc c, descendM t ks ctx = (rc, Trie.S t.lastTerm c e, [c]) ∧ c < 128 ∧
      Path.dele rc = Path.dele ctx ∧ Path.dup rc = Path.dup ctx ∧
      ∀ (ns : List indexNode) (th : Int), Trie.Laid ns t th →
        ns[t.lastTerm]? = some ⟨indexTerminalNode, e, c, th⟩ := by
  intro t
  induction t with
  | S p c e0 =>
    intro ks e ctx h hasc
    match ks, h with
    | [k], h =>
      simp only [Trie.IsChain] at h
      obtain ⟨h1, h2⟩ := h
      subst h1 h2
      exact ⟨ctx, c, rfl, hasc c (by simp), rfl, rfl, fun ns th hl => hl⟩
  | X p c n ih =>
    intro ks e ctx h hasc
    match ks, h with
    | k :: k2 :: ks, h =>
      simp only [Trie.IsChain] at h
      obtain ⟨h1, h2⟩ := h
      subst h1
      obtain ⟨rc, c', g1, g2, g3, g4, g5⟩ := ih (k2 :: ks) e (Frame.Xf p c :: ctx) h2
        (fun b hb => hasc b (List.mem_cons_of_mem _ hb))
      have hc : c < 128 := hasc c (by simp)
      refine ⟨rc, c', ?_, g2, g3, g4, fun ns th hl => g5 ns th hl.2⟩
      simp only [descendM, hc, and_self, ne_eq, not_false_eq_true, if_true, Trie.lastTerm]
      simpa using g1
  | R p c e0 n _ => intro ks e _ h; simp [Trie.IsChain] at h
  | D p c l r _ _ => intro ks e _ h; simp [Trie.IsChain] at h
  | L p c sub _ => intro ks e _ h; simp [Trie.IsChain] at h
  | K p c sub n _ _ => intro ks e _ h; simp [Trie.IsChain] at h

/-- The pass of the descent loop of `Delete` at an index terminal with the
last byte of the key, an ASCII byte, and the element of the call: the loop
leaves, the pair being matched. -/
theorem delete_body_S (e : Int) (ix : Index) (st : DeleteState) (ctx : Path) (p k : Nat)
    (th : Int) (hl : ix.node[p]? = some ⟨indexTerminalNode, e, k, th⟩)
    (hst : DeleteAt st ctx (Trie.S p k e) [k]) (hc : k < 128) :
    deleteBody e ix st = some (LoopStep.exit (DeleteExit.matched st)) := by
  obtain ⟨sks, skl, sprev, sdele, sdup, slprev, sptr, sbranch, si⟩ := st
  obtain ⟨h2, h3, h4, h5, h6, h7, h8, h9⟩ := hst
  simp only at h2 h3 h4 h5 h6 h7 h8 h9
  subst h3 h4 h5 h6 h7 h8 h9
  have hlast := last_iff_of_drop h2
  simp [deleteBody, hl, sliceOne_drop h2, byteToString_ascii hc, hlast,
    indexTerminalNode, decisionNode, duplicateKeyNode, indexKeyNode]

/-- A call of `Delete` for the pair of an index that holds one chain, the
key of ASCII bytes: it returns true, the root is null afterwards and the
slots of the chain are on the free list ahead of the slots that were on
it. -/
theorem delete_only_chain (k : List Nat) (e : Int) (ix : Index) (fl : List Nat) (chain : Trie)
    (h : AtFocus ix fl [] chain) (hch : chain.IsChain (validate k).1 e)
    (hasc : ∀ b ∈ (validate k).1, b < 128) :
    ∃ ix', (∀ f, chain.size + 1 ≤ f → Delete f k e ix = some (true, ix')) ∧
      ix'.indexRootPointer = nullIndexPointer ∧
      FreeList ix'.node ix'.deletedRootPointer (chain.addrs ++ fl) ∧
      ix'.keyCount = ix.keyCount - 1 ∧ ix'.node.length = ix.node.length := by
  have hkey : (validate k).1 ≠ [] := hch.ne_nil
  have hlen : (validate k).2 ≠ 0 := by
    rw [validate_snd]
    exact fun hc => hkey (List.length_eq_zero.mp hc)
  have hroot : ix.indexRootPointer ≠ nullIndexPointer := by
    rw [h.root]; exact natCast_ne_null _
  obtain ⟨st', hst', hfuel⟩ := delete_descendM e ix chain _ (validate k).1 []
    ⟨(validate k).1, (validate k).2, nullIndexPointer, nullIndexPointer,
      nullIndexPointer, nullIndexPointer, ix.indexRootPointer, null, 0⟩
    h.tree ⟨rfl, rfl, rfl, rfl, rfl, rfl, h.root, rfl⟩ hkey
  obtain ⟨rc, c, hd, hc, hdele, hdup, hnode⟩ := descendM_chain chain _ e [] hch hasc
  rw [hd] at hst'
  simp only at hst'
  have hbody := delete_body_S e ix st' rc chain.lastTerm c _ (hnode _ _ h.tree) hst' hc
  have hrun := hfuel 1 _ (runLoop_exit _ 0 st' _ hbody)
  have hdupn : st'.duplicateNodePointer = nullIndexPointer := hst'.dup.trans hdup
  obtain ⟨ix', r1, r2, r3, r4, r5⟩ := delete_single_all 0 ix fl st' chain _ e h hch
    hst'.pointer (hst'.dele.trans hdele)
  refine ⟨ix', fun f hf => ?_, r2, r3, r5, ?_⟩
  · rw [Delete_eq, if_neg hlen, if_neg hroot, runLoop_mono _ _ _ _ hrun f (by omega)]
    simp only
    rw [deleteOutcome_main _ _ _ hdupn]
    exact deleteSingle_mono 0 f ix _ _ (Nat.zero_le _) r1
  · have h1 := h.length_eq
    have h2 := r4.length_eq
    simp only [Path.addrs, List.length_nil, List.length_append, List.length_range] at h1 h2
    omega

/-- An index that holds the pairs `[(ks, e)]` and no other holds a chain for
the key `ks` and the element `e`. -/
theorem Inv.only_chain {ix : Index} {fl : List Nat} {oT : Option Trie} {ks : List Nat}
    {e : Int} (h : Inv ix fl oT) (hp : (entsOf oT).Perm [(ks, e)]) :
    ∃ chain, oT = some chain ∧ chain.IsChain ks e := by
  cases oT with
  | none =>
    have := hp.length_eq
    simp [entsOf] at this
  | some T =>
    have he : T.ents = [(ks, e)] := List.perm_singleton.mp hp
    have h1 : T.elems.length = 1 := by
      rw [Trie.elems_eq_ents, he]; rfl
    obtain ⟨ks', e', hch⟩ := Trie.WF.chain_of_single T _ _ _ h.2 h1
    have h2 := Trie.IsChain.ents T ks' e' hch
    rw [he] at h2
    simp only [List.cons.injEq, Prod.mk.injEq, and_true] at h2
    obtain ⟨rfl, rfl⟩ := h2
    exact ⟨T, rfl, hch⟩

/-! ## Delete at an index key node -/

/-- A loop that returns has left from some state. -/
theorem runLoop_exit_state {σ ρ : Type} (body : σ → Option (LoopStep σ ρ)) :
    ∀ (fuel : Nat) (s : σ) (r : ρ), runLoop body fuel s = some r →
      ∃ s1, body s1 = some (LoopStep.exit r) := by
  intro fuel
  induction fuel with
  | zero => intro s r h; simp [runLoop] at h
  | succ n ih =>
    intro s r h
    cases hs : body s with
    | none => simp [runLoop, hs] at h
    | some x =>
      cases x with
      | next s' =>
        rw [runLoop_next body n s s' hs] at h
        exact ih s' r h
      | exit r' =>
        rw [runLoop_exit body n s r' hs] at h
        injection h with h
        subst h
        exact ⟨s, hs⟩

/-- A loop that returns has started on a state where the body is defined. -/
theorem runLoop_body_some {σ ρ : Type} (body : σ → Option (LoopStep σ ρ)) (fuel : Nat) (s : σ)
    (r : ρ) (h : runLoop body fuel s = some r) : ∃ x, body s = some x := by
  cases fuel with
  | zero => simp [runLoop] at h
  | succ n =>
    cases hs : body s with
    | none => simp [runLoop, hs] at h
    | some x => exact ⟨x, rfl⟩

/-- The descent loop of `Delete` leaves with a match only at an index key or
index terminal node whose left pointer is the element of the call. -/
theorem deleteBody_matched (e : Int) (ix : Index) (st1 st2 : DeleteState)
    (h : deleteBody e ix st1 = some (LoopStep.exit (DeleteExit.matched st2))) :
    ∃ nd, getNode ix.node st2.indexPointer = some nd ∧ nd.leftPointer = e ∧
      (nd.indexType = indexKeyNode ∨ nd.indexType = indexTerminalNode) := by
  unfold deleteBody at h
  cases hn : getNode ix.node st1.indexPointer with
  | none => rw [hn] at h; cases h
  | some nd =>
    rw [hn] at h
    simp only at h
    generalize hst : (if nd.indexType = decisionNode ∨ nd.indexType = duplicateKeyNode ∨
        nd.indexType = indexKeyNode then
      ({ st1 with deleteIndexPointer := st1.indexPointer,
                  linkPreviousPointer := st1.previousIndexPointer } : DeleteState)
      else st1) = st at h
    have hptr : st.indexPointer = st1.indexPointer := by
      rw [← hst]
      split_ifs <;> rfl
    by_cases h1 : nd.indexType = indexKeyNode ∨ nd.indexType = indexTerminalNode
    · rw [if_pos h1] at h
      cases hk : sliceOne st.keyString st.i with
      | none => rw [hk] at h; cases h
      | some k =>
        rw [hk] at h
        simp only at h
        split_ifs at h with c1 c2 c3 c4
        all_goals first
          | (cases h; exact ⟨nd, by rw [hptr]; exact hn, not_not.mp (by assumption), h1⟩)
          | cases h
    · rw [if_neg h1] at h
      cases hk : sliceOne st.keyString st.i with
      | none =>
        rw [hk] at h
        simp only at h
        split_ifs at h
        all_goals cases h
      | some k =>
        rw [hk] at h
        simp only at h
        split_ifs at h
        all_goals cases h

/-- A free list is kept by a change of the arena that keeps the lengths and
all right pointers. -/
theorem FreeList.keep_right {ns ns' : List indexNode} :
    ∀ (fl : List Nat) (head : Int), FreeList ns head fl →
      (∀ (a : Nat) (nd : indexNode), ns[a]? = some nd →
        ∃ nd' : indexNode, ns'[a]? = some nd' ∧ nd'.rightPointer = nd.rightPointer) →
      FreeList ns' head fl := by
  intro fl
  induction fl with
  | nil => intro head h _; exact h
  | cons a fl ih =>
    intro head h hk
    obtain ⟨h1, nd, h2, h3⟩ := h
    obtain ⟨nd', g1, g2⟩ := hk a nd h2
    exact ⟨h1, nd', g1, by rw [g2]; exact ih _ h3 hk⟩

/-- The removal at an index key node: the node becomes a character node with
a null left pointer and the key count goes down by one. -/
theorem deleteSingle_key (fuel : Nat) (ix : Index) (st : DeleteState) (p : Nat) (nd : indexNode)
    (hp : st.indexPointer = (p : Int)) (hnd : ix.node[p]? = some nd)
    (hty : nd.indexType = indexKeyNode) :
    deleteSingle fuel ix st = some (true,
      ⟨ix.indexRootPointer,
        ix.node.set p ⟨characterNode, nullIndexPointer, nd.keyCharacter, nd.rightPointer⟩,
        ix.deletedRootPointer, ix.keyCount - 1⟩) := by
  have hp_lt : p < ix.node.length := lt_length_of_getElem? hnd
  have hset1 : (ix.node.set p { nd with indexType := characterNode })[p]? =
      some { nd with indexType := characterNode } := getElem?_set_self' _ _ _ hp_lt
  simp only [deleteSingle, hp, getNode_natCast, hnd, hty, if_true,
    setType_natCast _ _ _ _ hnd, setLeft_natCast _ _ _ _ hset1, List.set_set]

/-! ## Insert at a terminal node with key bytes left -/

theorem ChainAt.frame_chain {ns ns' : List indexNode} : ∀ (as ks : List Nat) (e next : Int),
    ChainAt ns as ks e next → (∀ a ∈ as, ns'[a]? = ns[a]?) → ChainAt ns' as ks e next := by
  intro as
  induction as with
  | nil => intro ks e next h _; simp [ChainAt] at h
  | cons a as ih =>
    intro ks e next h hf
    match as, ks, h with
    | [], [c], h =>
      simp only [ChainAt] at h ⊢
      rw [hf a (by simp)]; exact h
    | b :: as, c :: k :: ks, h =>
      simp only [ChainAt] at h ⊢
      refine ⟨by rw [hf a (by simp)]; exact h.1, ?_⟩
      exact ih (k :: ks) e next h.2 (fun x hx => hf x (List.mem_cons_of_mem _ hx))

/-- The facts about the index after the graft of a chain, from those about
the index that `extend` leaves. -/
theorem grafted_of_extend (ix ix1 : Index) (fl : List Nat) (p : Nat) (nd : indexNode)
    (promoted : Nat) (rest : List Nat) (e : Int) (a : Nat) (as : List Nat)
    (hnd : ix.node[p]? = some nd) (hpf : p ∉ fl)
    (h2 : ChainAt ix1.node (a :: as) rest e nd.rightPointer)
    (h3 : (a :: as).Perm
      (fl.take rest.length ++ List.range' ix.node.length (rest.length - fl.length)))
    (h4 : FreeList ix1.node ix1.deletedRootPointer (fl.drop rest.length))
    (h5 : ix1.node.length = ix.node.length + (rest.length - fl.length))
    (h6 : ∀ b, b < ix.node.length → b ∉ fl.take rest.length → ix1.node[b]? = ix.node[b]?)
    (h7 : ix1.indexRootPointer = ix.indexRootPointer) (h8 : ix1.keyCount = ix.keyCount) :
    Grafted ix ⟨ix1.indexRootPointer,
      ix1.node.set p ⟨promoted, nd.leftPointer, nd.keyCharacter, (a : Int)⟩,
      ix1.deletedRootPointer, ix1.keyCount + 1⟩ fl p nd promoted rest e a as := by
  have hp_lt : p < ix.node.length := lt_length_of_getElem? hnd
  have hp1_lt : p < ix1.node.length := by omega
  have hp_slots : p ∉ a :: as := by
    intro hm
    rcases List.mem_append.mp (h3.mem_iff.mp hm) with hm1 | hm1
    · exact hpf (List.mem_of_mem_take hm1)
    · have := (List.mem_range'_1.mp hm1).1
      omega
  refine ⟨getElem?_set_self' _ _ _ hp1_lt, ?_, h3, ?_, ?_, ?_, h7, ?_⟩
  · exact ChainAt.frame_chain _ _ _ _ h2
      (fun x hx => getElem?_set_other _ _ _ _ (fun hc => hp_slots (hc ▸ hx)))
  · intro b hb hbp hbf
    simp only
    rw [getElem?_set_other _ _ _ _ (fun hc => hbp hc.symm)]
    exact h6 b hb hbf
  · simp only [List.length_set]
    exact h5
  · exact FreeList.frame_free _ _ h4
      (fun b hb => getElem?_set_other _ _ _ _
        (fun hc => hpf (hc ▸ List.mem_of_mem_drop hb)))
  · simp only [h8]

/-- The pass of the descent loop of `Insert` at an index terminal whose byte
is the current byte of the key, with key bytes left: `extend` builds the
chain of the bytes left, with the right pointer of the terminal as its
thread, the terminal becomes an index key node with the chain to its right,
and `Insert` returns true. -/
theorem insertBody_graft_S (e : Int) (st : InsertState) (fl : List Nat) (p : Nat)
    (nd : indexNode) (rest : List Nat)
    (hfl : FreeList st.indexStructure.node st.indexStructure.deletedRootPointer fl)
    (hptr : st.indexPointer = (p : Int)) (hnd : st.indexStructure.node[p]? = some nd)
    (hty : nd.indexType = indexTerminalNode)
    (hkey : st.keyString.drop st.i = nd.keyCharacter :: rest)
    (hlen : st.keyLength = st.keyString.length) (hc : nd.keyCharacter < 128)
    (hr : rest ≠ []) (hpf : p ∉ fl) :
    ∃ (a : Nat) (as : List Nat) (ix' : Index),
      insertBody e st = some (LoopStep.exit (InsertExit.returned true ix')) ∧
      Grafted st.indexStructure ix' fl p nd indexKeyNode rest e a as := by
  obtain ⟨six, sks, skl, sprev, sptr, sdup, si⟩ := st
  simp only at hfl hptr hnd hkey hlen
  subst hptr hlen
  obtain ⟨a, as, ix1, h1, h2, h3, h4, h5, h6, h7, h8⟩ :=
    extend_exact rest e nd.rightPointer six fl hr hfl
  have hp_lt : p < six.node.length := lt_length_of_getElem? hnd
  have hp1 : ix1.node[p]? = some nd := by
    rw [h6 p hp_lt (fun hm => hpf (List.mem_of_mem_take hm))]; exact hnd
  have hp1_lt : p < ix1.node.length := lt_length_of_getElem? hp1
  have hset1 : (ix1.node.set p { nd with indexType := indexKeyNode })[p]? =
      some { nd with indexType := indexKeyNode } := getElem?_set_self' _ _ _ hp1_lt
  have hne : ¬ (si + 1 = sks.length) := fun hh => hr ((last_iff_of_drop hkey).mp hh)
  refine ⟨a, as, _, ?_, grafted_of_extend six ix1 fl p nd indexKeyNode rest e a as hnd hpf
    h2 h3 h4 h5 h6 h7 h8⟩
  simp only [insertBody, getNode_natCast, hnd, hty, sliceOne_drop hkey,
    byteToString_ascii hc, hne, sliceFrom_drop hkey, h1, setType_natCast _ _ _ _ hp1,
    setRight_natCast _ _ _ _ hset1, List.set_set]
  simp

/-- The pass of the descent loop of `Insert` at a duplicate terminal whose
byte is the current byte of the key, with key bytes left: the node becomes a
duplicate key node with the chain of the bytes left to its right. -/
theorem insertBody_graft_L (e : Int) (st : InsertState) (fl : List Nat) (p : Nat)
    (nd : indexNode) (rest : List Nat)
    (hfl : FreeList st.indexStructure.node st.indexStructure.deletedRootPointer fl)
    (hptr : st.indexPointer = (p : Int)) (hnd : st.indexStructure.node[p]? = some nd)
    (hty : nd.indexType = duplicateTerminalNode)
    (hkey : st.keyString.drop st.i = nd.keyCharacter :: rest)
    (hlen : st.keyLength = st.keyString.length) (hc : nd.keyCharacter < 128)
    (hr : rest ≠ []) (hpf : p ∉ fl) :
    ∃ (a : Nat) (as : List Nat) (ix' : Index),
      insertBody e st = some (LoopStep.exit (InsertExit.returned true ix')) ∧
      Grafted st.indexStructure ix' fl p nd duplicateKeyNode rest e a as := by
  obtain ⟨six, sks, skl, sprev, sptr, sdup, si⟩ := st
  simp only at hfl hptr hnd hkey hlen
  subst hptr hlen
  obtain ⟨a, as, ix1, h1, h2, h3, h4, h5, h6, h7, h8⟩ :=
    extend_exact rest e nd.rightPointer six fl hr hfl
  have hp_lt : p < six.node.length := lt_length_of_getElem? hnd
  have hp1 : ix1.node[p]? = some nd := by
    rw [h6 p hp_lt (fun hm => hpf (List.mem_of_mem_take hm))]; exact hnd
  have hp1_lt : p < ix1.node.length := lt_length_of_getElem? hp1
  have hset1 : (ix1.node.set p { nd with indexType := duplicateKeyNode })[p]? =
      some { nd with indexType := duplicateKeyNode } := getElem?_set_self' _ _ _ hp1_lt
  have hne : ¬ (si + 1 = sks.length) := fun hh => hr ((last_iff_of_drop hkey).mp hh)
  refine ⟨a, as, _, ?_, grafted_of_extend six ix1 fl p nd duplicateKeyNode rest e a as hnd hpf
    h2 h3 h4 h5 h6 h7 h8⟩
  simp only [insertBody, getNode_natCast, hnd, hty, sliceOne_drop hkey,
    byteToString_ascii hc, hne, sliceFrom_drop hkey, h1, setType_natCast _ _ _ _ hp1,
    setRight_natCast _ _ _ _ hset1, List.set_set]
  simp [duplicateTerminalNode, indexKeyNode, indexTerminalNode, decisionNode, duplicateKeyNode]

/-- A call of `Insert` whose descent through the tree of the index stops at a
terminal node `t` in the slot `p`, an index terminal or a duplicate
terminal, with its byte `c` matched and the bytes `rest` of the key left:
the call returns true and grafts the chain of `rest` on the node. -/
theorem insert_graft (s : Index) (fl : List Nat) (T : Trie) (k : List Nat) (e : Int)
    (rc : Path) (t : Trie) (p c : Nat) (rest : List Nat) (ty promoted : Nat)
    (hfoc : AtFocus s fl [] T)
    (hd : descendM T (validate k).1 [] = (rc, t, c :: rest))
    (ht : (ty = indexTerminalNode ∧ promoted = indexKeyNode ∧ ∃ e0, t = Trie.S p c e0) ∨
      (ty = duplicateTerminalNode ∧ promoted = duplicateKeyNode ∧ ∃ sub, t = Trie.L p c sub))
    (hc : c < 128) (hr : rest ≠ []) :
    ∃ (l th : Int) (a : Nat) (as : List Nat) (s' : Index),
      s.node[p]? = some ⟨ty, l, c, th⟩ ∧
      (∀ fuel, T.size + 1 ≤ fuel → Insert fuel k e s = some (true, s')) ∧
      Grafted s s' fl p ⟨ty, l, c, th⟩ promoted rest e a as := by
  have hkey : (validate k).1 ≠ [] := by
    intro hk
    rw [hk] at hd
    cases T <;> simp [descendM] at hd
  have hlen : (validate k).2 ≠ 0 := by
    rw [validate_snd]
    exact fun hc => hkey (List.length_eq_zero.mp hc)
  have hroot : s.indexRootPointer ≠ nullIndexPointer := by
    rw [hfoc.root]; exact natCast_ne_null _
  have hfacts := descendM_facts T (validate k).1 [] hkey (fun _ _ _ => trivial)
  obtain ⟨st', hst', hfuel⟩ := insert_descendM e s T _ (validate k).1 []
    ⟨s, (validate k).1, (validate k).2, nullIndexPointer, s.indexRootPointer, false, 0⟩
    hfoc.tree ⟨rfl, rfl, rfl, rfl, hfoc.root, rfl⟩ hkey
  rw [hd] at hfacts hst'
  obtain ⟨h1, _⟩ := hfacts
  simp only at h1 hst'
  simp only [Path.plug] at h1
  have hf : AtFocus s fl rc t := by
    rw [← AtFocus.plug_iff, h1]; exact hfoc
  obtain ⟨six, sks, skl, sprev, sptr, sdup, si⟩ := st'
  obtain ⟨g1, g2, g3, g4, g5, g6⟩ := hst'
  simp only at g1 g2 g3 g4 g5 g6
  subst g1
  have fin : ∀ (ix' : Index),
      insertBody e ⟨six, sks, skl, sprev, sptr, sdup, si⟩ =
        some (LoopStep.exit (InsertExit.returned true ix')) →
      ∀ fuel, T.size + 1 ≤ fuel → Insert fuel k e six = some (true, ix') := by
    intro ix' hbody fuel hfu
    have hrun := hfuel 1 _ (runLoop_exit _ 0 _ _ hbody)
    rw [Insert_eq, if_neg hlen, if_neg hroot, runLoop_mono _ _ _ _ hrun fuel (by omega)]
    rfl
  rcases ht with ⟨rfl, rfl, e0, rfl⟩ | ⟨rfl, rfl, sub, rfl⟩
  · have hl : six.node[p]? = some ⟨indexTerminalNode, e0, c, Path.thread rc (-1)⟩ := hf.tree
    obtain ⟨a, as, ix', hbody, hg⟩ := insertBody_graft_S e
      ⟨six, sks, skl, sprev, sptr, sdup, si⟩ fl p _ rest hf.free g5 hl rfl g2 g3 hc hr
      (hf.tree_not_free (by simp [Trie.addrs]))
    exact ⟨e0, _, a, as, ix', hl, fin ix' hbody, hg⟩
  · have hl := hf.tree
    simp only [Trie.Laid] at hl
    obtain ⟨a, as, ix', hbody, hg⟩ := insertBody_graft_L e
      ⟨six, sks, skl, sprev, sptr, sdup, si⟩ fl p _ rest hf.free g5 hl.1 rfl g2 g3 hc hr
      (hf.tree_not_free (by simp [Trie.addrs]))
    exact ⟨_, _, a, as, ix', hl.1, fin ix' hbody, hg⟩

/-! ## Loops with a record of their passes -/

theorem runLoopTrace_next {σ ρ : Type} (body : σ → Option (LoopStep σ ρ)) (fuel : Nat)
    (s s' : σ) (h : body s = some (LoopStep.next s')) :
    runLoopTrace body (fuel + 1) s =
      (runLoopTrace body fuel s').map (fun x => (s :: x.1, x.2)) := by
  simp [runLoopTrace, h]

theorem runLoopTrace_exit {σ ρ : Type} (body : σ → Option (LoopStep σ ρ)) (fuel : Nat)
    (s : σ) (r : ρ) (h : body s = some (LoopStep.exit r)) :
    runLoopTrace body (fuel + 1) s = some ([], r) := by
  simp [runLoopTrace, h]

/-- The loop with a record returns what the loop returns. -/
theorem runLoopTrace_result {σ ρ : Type} (body : σ → Option (LoopStep σ ρ)) :
    ∀ (fuel : Nat) (s : σ), (runLoopTrace body fuel s).map Prod.snd = runLoop body fuel s := by
  intro fuel
  induction fuel with
  | zero => intro s; rfl
  | succ n ih =>
    intro s
    cases hb : body s with
    | none => simp [runLoopTrace, runLoop, hb]
    | some x =>
      cases x with
      | next s' =>
        rw [runLoopTrace_next body n s s' hb, runLoop_next body n s s' hb, ← ih s']
        cases runLoopTrace body n s' <;> rfl
      | exit r =>
        rw [runLoopTrace_exit body n s r hb, runLoop_exit body n s r hb]
        rfl

theorem runLoopTrace_mono {σ ρ : Type} (body : σ → Option (LoopStep σ ρ)) :
    ∀ (fuel : Nat) (s : σ) (x : List σ × ρ), runLoopTrace body fuel s = some x →
      ∀ fuel', fuel ≤ fuel' → runLoopTrace body fuel' s = some x := by
  intro fuel
  induction fuel with
  | zero => intro s x h; simp [runLoopTrace] at h
  | succ n ih =>
    intro s x h fuel' hle
    obtain ⟨m, rfl⟩ : ∃ m, fuel' = m + 1 := ⟨fuel' - 1, by omega⟩
    cases hb : body s with
    | none => simp [runLoopTrace, hb] at h
    | some st =>
      cases st with
      | next s' =>
        rw [runLoopTrace_next body n s s' hb] at h
        rw [runLoopTrace_next body m s s' hb]
        cases hr : runLoopTrace body n s' with
        | none => rw [hr] at h; cases h
        | some y =>
          rw [hr] at h
          rw [ih s' y hr m (by omega)]
          exact h
      | exit r' =>
        rw [runLoopTrace_exit body n s r' hb] at h
        rw [runLoopTrace_exit body m s r' hb]
        exact h

theorem runLoopTrace_step {σ ρ : Type} (body : σ → Option (LoopStep σ ρ)) (s s' : σ)
    (tr : List σ) (r : ρ) (fuel fuel' : Nat) (hb : body s = some (LoopStep.next s'))
    (h : runLoopTrace body fuel s' = some (tr, r)) (hf : fuel < fuel') :
    runLoopTrace body fuel' s = some (s :: tr, r) := by
  obtain ⟨m, rfl⟩ : ∃ m, fuel' = m + 1 := ⟨fuel' - 1, by omega⟩
  rw [runLoopTrace_next body m s s' hb, runLoopTrace_mono body fuel s' _ h m (by omega)]
  rfl

/-- The record of the passes from a state of the record is the rest of the
record. -/
theorem runLoopTrace_rest {σ ρ : Type} (body : σ → Option (LoopStep σ ρ)) :
    ∀ (pre : List σ) (fuel : Nat) (s x : σ) (post : List σ) (r : ρ),
      runLoopTrace body fuel s = some (pre ++ x :: post, r) →
      runLoopTrace body fuel x = some (x :: post, r) := by
  intro pre
  induction pre with
  | nil =>
    intro fuel s x post r h
    cases fuel with
    | zero => simp [runLoopTrace] at h
    | succ n =>
      cases hb : body s with
      | none => simp [runLoopTrace, hb] at h
      | some st =>
        cases st with
        | next s' =>
          have h0 := h
          rw [runLoopTrace_next body n s s' hb] at h
          cases hr : runLoopTrace body n s' with
          | none => rw [hr] at h; cases h
          | some y =>
            rw [hr] at h
            simp only [Option.map_some', Option.some.injEq, Prod.mk.injEq, List.nil_append,
              List.cons.injEq] at h
            obtain ⟨⟨h1, _⟩, _⟩ := h
            subst h1
            exact h0
        | exit r' =>
          rw [runLoopTrace_exit body n s r' hb] at h
          simp at h
  | cons y pre ih =>
    intro fuel s x post r h
    cases fuel with
    | zero => simp [runLoopTrace] at h
    | succ n =>
      cases hb : body s with
      | none => simp [runLoopTrace, hb] at h
      | some st =>
        cases st with
        | next s' =>
          rw [runLoopTrace_next body n s s' hb] at h
          cases hr : runLoopTrace body n s' with
          | none => rw [hr] at h; cases h
          | some z =>
            rw [hr] at h
            simp only [Option.map_some', Option.some.injEq, Prod.mk.injEq, List.cons_append,
              List.cons.injEq] at h
            obtain ⟨⟨_, h2⟩, h3⟩ := h
            have hz : runLoopTrace body n s' = some (pre ++ x :: post, r) := by
              rw [hr, ← h2, ← h3]
            exact runLoopTrace_mono body n x _ (ih n s' x post r hz) (n + 1) (by omega)
        | exit r' =>
          rw [runLoopTrace_exit body n s r' hb] at h
          simp at h

/-! ## The passes of `traverseAndCollect` -/

theorem traverseBody_eq (endPointer : Int) (ix : Index) (st : TraverseState) :
    traverseBody endPointer ix st =
      if st.indexPointer ≠ endPointer ∧ st.indexPointer ≠ nullIndexPointer then
        (travStep ix st.direction st.indexPointer).map
          (fun x => LoopStep.next ⟨x.1, x.2.1, st.results ++ x.2.2⟩)
      else some (LoopStep.exit st.results) := by
  unfold traverseBody travStep
  by_cases h1 : st.indexPointer ≠ endPointer ∧ st.indexPointer ≠ nullIndexPointer
  · rw [if_pos h1, if_pos h1]
    cases getNode ix.node st.indexPointer with
    | none => rfl
    | some nd =>
      simp only
      split_ifs <;> simp
  · rw [if_neg h1, if_neg h1]

theorem travStep_emitted (ix : Index) (st : TraverseState) (x : Nat × Int × List Int)
    (h : travStep ix st.direction st.indexPointer = some x) : x.2.2 = emitted ix st := by
  unfold travStep at h
  unfold emitted
  cases hn : getNode ix.node st.indexPointer with
  | none => rw [hn] at h; cases h
  | some nd =>
    rw [hn] at h
    simp only at h ⊢
    split_ifs at h ⊢ <;>
      first
        | (injection h with h; subst h; rfl)
        | (exfalso; simp_all [indexKeyNode, indexTerminalNode, duplicateKeyNode,
            duplicateTerminalNode, decisionNode, characterNode])

/-- The results of `traverseAndCollect` are what its passes have emitted, in
the order of the passes. -/
theorem traverse_emits (endPointer : Int) (ix : Index) :
    ∀ (fuel : Nat) (st : TraverseState) (tr : List TraverseState) (r : List Int),
      runLoopTrace (traverseBody endPointer ix) fuel st = some (tr, r) →
      r = st.results ++ (tr.map (emitted ix)).flatten := by
  intro fuel
  induction fuel with
  | zero => intro st tr r h; simp [runLoopTrace] at h
  | succ n ih =>
    intro st tr r h
    have hb := traverseBody_eq endPointer ix st
    by_cases hc : st.indexPointer ≠ endPointer ∧ st.indexPointer ≠ nullIndexPointer
    · rw [if_pos hc] at hb
      cases hs : travStep ix st.direction st.indexPointer with
      | none =>
        rw [hs] at hb
        simp [runLoopTrace, hb] at h
      | some x =>
        rw [hs] at hb
        simp only [Option.map_some'] at hb
        rw [runLoopTrace_next _ n st _ hb] at h
        cases hr : runLoopTrace (traverseBody endPointer ix) n
            ⟨x.1, x.2.1, st.results ++ x.2.2⟩ with
        | none => rw [hr] at h; cases h
        | some y =>
          rw [hr] at h
          simp only [Option.map_some', Option.some.injEq, Prod.mk.injEq] at h
          obtain ⟨h1, h2⟩ := h
          have := ih _ y.1 y.2 hr
          subst h1 h2
          rw [this, travStep_emitted ix st x hs]
          simp
    · rw [if_neg hc] at hb
      rw [runLoopTrace_exit _ n st _ hb] at h
      simp only [Option.some.injEq, Prod.mk.injEq] at h
      obtain ⟨h1, h2⟩ := h
      subst h1 h2
      simp

/-- A traversal with an end pointer follows the traversal without one, from
the same slot in the same direction, and leaves no later: it returns on the
same fuel and the slots of its passes are the first of those of the
other. -/
theorem traverse_follows (ix : Index) (endPointer : Int) :
    ∀ (fuel : Nat) (st : TraverseState) (tr : List TraverseState) (r : List Int),
      runLoopTrace (traverseBody nullIndexPointer ix) fuel st = some (tr, r) →
      ∀ res' : List Int, ∃ (tr' : List TraverseState) (r' : List Int) (post : List Int),
        runLoopTrace (traverseBody endPointer ix) fuel
          ⟨st.direction, st.indexPointer, res'⟩ = some (tr', r') ∧
        tr.map (fun x => x.indexPointer) = tr'.map (fun x => x.indexPointer) ++ post := by
  intro fuel
  induction fuel with
  | zero => intro st tr r h; simp [runLoopTrace] at h
  | succ n ih =>
    intro st tr r h res'
    have hb := traverseBody_eq nullIndexPointer ix st
    have hb' := traverseBody_eq endPointer ix ⟨st.direction, st.indexPointer, res'⟩
    simp only at hb'
    by_cases hnull : st.indexPointer = nullIndexPointer
    · rw [if_neg (by simp [hnull])] at hb hb'
      rw [runLoopTrace_exit _ n st _ hb] at h
      simp only [Option.some.injEq, Prod.mk.injEq] at h
      refine ⟨[], res', [], runLoopTrace_exit _ n _ _ hb', ?_⟩
      rw [← h.1]
      rfl
    · by_cases hend : st.indexPointer = endPointer
      · rw [if_neg (by simp [hend])] at hb'
        exact ⟨[], res', tr.map (fun x : TraverseState => x.indexPointer),
          runLoopTrace_exit _ n _ _ hb', by simp⟩
      · rw [if_pos ⟨hnull, hnull⟩] at hb
        rw [if_pos ⟨hend, hnull⟩] at hb'
        cases hs : travStep ix st.direction st.indexPointer with
        | none =>
          rw [hs] at hb
          simp [runLoopTrace, hb] at h
        | some x =>
          rw [hs] at hb hb'
          simp only [Option.map_some'] at hb hb'
          rw [runLoopTrace_next _ n st _ hb] at h
          cases hr : runLoopTrace (traverseBody nullIndexPointer ix) n
              ⟨x.1, x.2.1, st.results ++ x.2.2⟩ with
          | none => rw [hr] at h; cases h
          | some y =>
            rw [hr] at h
            simp only [Option.map_some', Option.some.injEq, Prod.mk.injEq] at h
            obtain ⟨h1, _⟩ := h
            obtain ⟨tr', r', post, g1, g2⟩ := ih _ y.1 y.2 hr (res' ++ x.2.2)
            simp only at g1
            refine ⟨⟨st.direction, st.indexPointer, res'⟩ :: tr', r', post, ?_, ?_⟩
            · rw [runLoopTrace_next _ n _ _ hb', g1]
              rfl
            · rw [← h1]
              simp only [List.map_cons, List.cons_append, g2]

/-! ## The passes of the traversal of a tree -/

/-- The traversal of a tree laid out in the arena, entered from above: its
passes are those of `Trie.visits`, it emits the elements of the tree and
goes on at the thread with the direction `right`. -/
theorem traverse_tree_trace (ix : Index) (endPointer : Int) :
    ∀ (t : Trie) (th : Int), Trie.Laid ix.node t th → (∀ a ∈ t.addrs, (a : Int) ≠ endPointer) →
      ∀ (acc : List Int) (fuel : Nat) (tr : List TraverseState) (r : List Int),
        runLoopTrace (traverseBody endPointer ix) fuel ⟨right, th, acc ++ t.elems⟩ =
          some (tr, r) →
        ∃ pre, runLoopTrace (traverseBody endPointer ix) (fuel + 2 * t.size)
            ⟨left, (t.addr : Int), acc⟩ = some (pre ++ tr, r) ∧
          pre.map passOf = t.visits.map passAt := by
  intro t
  induction t with
  | S p c e =>
    intro th h hne acc fuel tr r hr
    simp only [Trie.Laid] at h
    have hp : (p : Int) ≠ endPointer := hne p (by simp [Trie.addrs])
    simp only [Trie.size, Trie.addr, Trie.elems] at hr ⊢
    exact ⟨[⟨left, (p : Int), acc⟩], runLoopTrace_step _ _ _ _ _ _ _
      (by simp [traverseBody, hp, h, natCast_ne_null]) hr (by omega), rfl⟩
  | R p c e n ih =>
    intro th h hne acc fuel tr r hr
    simp only [Trie.Laid] at h
    have hp : (p : Int) ≠ endPointer := hne p (by simp [Trie.addrs])
    simp only [Trie.size, Trie.addr, Trie.elems] at hr ⊢
    obtain ⟨pre, h1, h2⟩ := ih th h.2 (fun a ha => hne a (by simp [Trie.addrs, ha]))
      (acc ++ [e]) fuel tr r (by simpa using hr)
    refine ⟨⟨left, (p : Int), acc⟩ :: pre, runLoopTrace_step _ _ _ _ _ _ _
      (by simp [traverseBody, hp, h.1, natCast_ne_null]) h1 (by omega), ?_⟩
    simp only [List.map_cons, Trie.visits, h2]
    rfl
  | X p c n ih =>
    intro th h hne acc fuel tr r hr
    simp only [Trie.Laid] at h
    have hp : (p : Int) ≠ endPointer := hne p (by simp [Trie.addrs])
    simp only [Trie.size, Trie.addr, Trie.elems] at hr ⊢
    obtain ⟨pre, h1, h2⟩ := ih th h.2 (fun a ha => hne a (by simp [Trie.addrs, ha]))
      acc fuel tr r hr
    refine ⟨⟨left, (p : Int), acc⟩ :: pre, runLoopTrace_step _ _ _ _ _ _ _
      (by simp [traverseBody, hp, h.1, natCast_ne_null]) h1 (by omega), ?_⟩
    simp only [List.map_cons, Trie.visits, h2]
    rfl
  | D p c l r ihl ihr =>
    intro th h hne acc fuel tr res hr
    simp only [Trie.Laid] at h
    have hp : (p : Int) ≠ endPointer := hne p (by simp [Trie.addrs])
    simp only [Trie.size, Trie.addr, Trie.elems] at hr ⊢
    obtain ⟨pre1, h1, g1⟩ := ihr th h.2.2 (fun a ha => hne a (by simp [Trie.addrs, ha]))
      (acc ++ l.elems) fuel tr res (by simpa using hr)
    have h2 : runLoopTrace (traverseBody endPointer ix) (fuel + 2 * r.size + 1)
        ⟨right, (p : Int), acc ++ l.elems⟩ =
        some (⟨right, (p : Int), acc ++ l.elems⟩ :: (pre1 ++ tr), res) :=
      runLoopTrace_step _ _ _ _ _ _ _ (by simp [traverseBody, hp, h.1, natCast_ne_null]) h1
        (by omega)
    obtain ⟨pre2, h3, g2⟩ := ihl _ h.2.1 (fun a ha => hne a (by simp [Trie.addrs, ha]))
      acc _ _ res h2
    refine ⟨⟨left, (p : Int), acc⟩ :: (pre2 ++ ⟨right, (p : Int), acc ++ l.elems⟩ :: pre1), ?_, ?_⟩
    · have := runLoopTrace_step _ _ _ _ _ _ (fuel + 2 * (l.size + r.size + 1))
        (show traverseBody endPointer ix ⟨left, (p : Int), acc⟩ = _ by
          simp [traverseBody, hp, h.1, natCast_ne_null]) h3 (by omega)
      simpa using this
    · simp only [List.map_cons, List.map_append, Trie.visits, g1, g2]
      rfl
  | L p c sub ih =>
    intro th h hne acc fuel tr res hr
    simp only [Trie.Laid] at h
    have hp : (p : Int) ≠ endPointer := hne p (by simp [Trie.addrs])
    simp only [Trie.size, Trie.addr, Trie.elems] at hr ⊢
    have h2 : runLoopTrace (traverseBody endPointer ix) (fuel + 1)
        ⟨right, (p : Int), acc ++ sub.elems⟩ =
        some (⟨right, (p : Int), acc ++ sub.elems⟩ :: tr, res) :=
      runLoopTrace_step _ _ _ _ _ _ _ (by simp [traverseBody, hp, h.1, natCast_ne_null]) hr
        (by omega)
    obtain ⟨pre2, h3, g2⟩ := ih _ h.2 (fun a ha => hne a (by simp [Trie.addrs, ha]))
      acc _ _ res h2
    refine ⟨⟨left, (p : Int), acc⟩ :: (pre2 ++ [⟨right, (p : Int), acc ++ sub.elems⟩]), ?_, ?_⟩
    · have := runLoopTrace_step _ _ _ _ _ _ (fuel + 2 * (sub.size + 1))
        (show traverseBody endPointer ix ⟨left, (p : Int), acc⟩ = _ by
          simp [traverseBody, hp, h.1, natCast_ne_null]) h3 (by omega)
      simpa using this
    · simp only [List.map_cons, List.map_append, Trie.visits, g2]
      rfl
  | K p c sub n ihs ihn =>
    intro th h hne acc fuel tr res hr
    simp only [Trie.Laid] at h
    have hp : (p : Int) ≠ endPointer := hne p (by simp [Trie.addrs])
    simp only [Trie.size, Trie.addr, Trie.elems] at hr ⊢
    obtain ⟨pre1, h1, g1⟩ := ihn th h.2.2 (fun a ha => hne a (by simp [Trie.addrs, ha]))
      (acc ++ sub.elems) fuel tr res (by simpa using hr)
    have h2 : runLoopTrace (traverseBody endPointer ix) (fuel + 2 * n.size + 1)
        ⟨right, (p : Int), acc ++ sub.elems⟩ =
        some (⟨right, (p : Int), acc ++ sub.elems⟩ :: (pre1 ++ tr), res) :=
      runLoopTrace_step _ _ _ _ _ _ _ (by simp [traverseBody, hp, h.1, natCast_ne_null]) h1
        (by omega)
    obtain ⟨pre2, h3, g2⟩ := ihs _ h.2.1 (fun a ha => hne a (by simp [Trie.addrs, ha]))
      acc _ _ res h2
    refine ⟨⟨left, (p : Int), acc⟩ :: (pre2 ++ ⟨right, (p : Int), acc ++ sub.elems⟩ :: pre1),
      ?_, ?_⟩
    · have := runLoopTrace_step _ _ _ _ _ _ (fuel + 2 * (sub.size + n.size + 1))
        (show traverseBody endPointer ix ⟨left, (p : Int), acc⟩ = _ by
          simp [traverseBody, hp, h.1, natCast_ne_null]) h3 (by omega)
      simpa using this
    · simp only [List.map_cons, List.map_append, Trie.visits, g1, g2]
      rfl

/-! ## How often a slot is entered -/

theorem Trie.visits_mem_addrs : ∀ (t : Trie) (x : Nat × Nat), x ∈ t.visits → x.2 ∈ t.addrs := by
  intro t
  induction t with
  | S p c e => intro x hx; simp [Trie.visits] at hx; simp [Trie.addrs, hx]
  | R p c e n ih =>
    intro x hx
    simp only [Trie.visits, List.mem_cons] at hx
    rcases hx with rfl | hx
    · simp [Trie.addrs]
    · simp [Trie.addrs, ih x hx]
  | X p c n ih =>
    intro x hx
    simp only [Trie.visits, List.mem_cons] at hx
    rcases hx with rfl | hx
    · simp [Trie.addrs]
    · simp [Trie.addrs, ih x hx]
  | D p c l r ihl ihr =>
    intro x hx
    simp only [Trie.visits, List.mem_cons, List.mem_append] at hx
    rcases hx with rfl | hx | rfl | hx
    · simp [Trie.addrs]
    · simp [Trie.addrs, ihl x hx]
    · simp [Trie.addrs]
    · simp [Trie.addrs, ihr x hx]
  | L p c sub ih =>
    intro x hx
    simp only [Trie.visits, List.mem_cons, List.mem_append, List.mem_singleton,
      List.not_mem_nil, or_false] at hx
    rcases hx with rfl | hx | rfl
    · simp [Trie.addrs]
    · simp [Trie.addrs, ih x hx]
    · simp [Trie.addrs]
  | K p c sub n ihs ihn =>
    intro x hx
    simp only [Trie.visits, List.mem_cons, List.mem_append] at hx
    rcases hx with rfl | hx | rfl | hx
    · simp [Trie.addrs]
    · simp [Trie.addrs, ihs x hx]
    · simp [Trie.addrs]
    · simp [Trie.addrs, ihn x hx]

theorem Trie.visits_left : ∀ (t : Trie) (a : Nat), a ∈ t.addrs → (left, a) ∈ t.visits := by
  intro t
  induction t with
  | S p c e => intro a ha; simp [Trie.addrs] at ha; simp [Trie.visits, ha]
  | R p c e n ih =>
    intro a ha
    simp only [Trie.addrs, List.mem_cons] at ha
    rcases ha with rfl | ha
    · simp [Trie.visits]
    · simp [Trie.visits, ih a ha]
  | X p c n ih =>
    intro a ha
    simp only [Trie.addrs, List.mem_cons] at ha
    rcases ha with rfl | ha
    · simp [Trie.visits]
    · simp [Trie.visits, ih a ha]
  | D p c l r ihl ihr =>
    intro a ha
    simp only [Trie.addrs, List.mem_cons, List.mem_append] at ha
    rcases ha with rfl | ha | ha
    · simp [Trie.visits]
    · simp [Trie.visits, ihl a ha]
    · simp [Trie.visits, ihr a ha]
  | L p c sub ih =>
    intro a ha
    simp only [Trie.addrs, List.mem_cons] at ha
    rcases ha with rfl | ha
    · simp [Trie.visits]
    · simp [Trie.visits, ih a ha]
  | K p c sub n ihs ihn =>
    intro a ha
    simp only [Trie.addrs, List.mem_cons, List.mem_append] at ha
    rcases ha with rfl | ha | ha
    · simp [Trie.visits]
    · simp [Trie.visits, ihs a ha]
    · simp [Trie.visits, ihn a ha]

theorem Trie.passes_zero (t : Trie) (a : Nat) (h : a ∉ t.addrs) : t.passes a = 0 := by
  unfold Trie.passes
  rw [List.count_eq_zero]
  intro hm
  obtain ⟨x, hx, rfl⟩ := List.mem_map.mp hm
  exact h (t.visits_mem_addrs x hx)

/-- A slot of a tree laid out in the arena holds a node; a terminal, a key
node and a character node are entered once by the traversal, a decision node
and a duplicate node twice. -/
theorem Trie.passes_node {ns : List indexNode} : ∀ (t : Trie) (th : Int), Trie.Laid ns t th →
    t.addrs.Nodup → ∀ a ∈ t.addrs, ∃ nd, ns[a]? = some nd ∧
      (((nd.indexType = indexKeyNode ∨ nd.indexType = indexTerminalNode ∨
          nd.indexType = characterNode) ∧ t.passes a = 1) ∨
       ((nd.indexType = decisionNode ∨ nd.indexType = duplicateKeyNode ∨
          nd.indexType = duplicateTerminalNode) ∧ t.passes a = 2)) := by
  intro t
  induction t with
  | S p c e =>
    intro th hl _ a ha
    simp only [Trie.addrs, List.mem_singleton] at ha
    subst ha
    exact ⟨_, hl, Or.inl ⟨Or.inr (Or.inl rfl), by simp [Trie.passes, Trie.visits]⟩⟩
  | R p c e n ih =>
    intro th hl hnd a ha
    simp only [Trie.Laid] at hl
    simp only [Trie.addrs, List.nodup_cons] at hnd
    simp only [Trie.addrs, List.mem_cons] at ha
    rcases ha with rfl | ha
    · refine ⟨_, hl.1, Or.inl ⟨Or.inl rfl, ?_⟩⟩
      have := n.passes_zero a hnd.1
      simp only [Trie.passes] at this ⊢
      simp [Trie.visits, this]
    · obtain ⟨nd, h1, h2⟩ := ih th hl.2 hnd.2 a ha
      have hne : a ≠ p := fun hc => hnd.1 (hc ▸ ha)
      refine ⟨nd, h1, ?_⟩
      have e1 : (Trie.R p c e n).passes a = n.passes a := by
        simp only [Trie.passes, Trie.visits, List.map_cons]
        rw [List.count_cons_of_ne hne]
      rw [e1]; exact h2
  | X p c n ih =>
    intro th hl hnd a ha
    simp only [Trie.Laid] at hl
    simp only [Trie.addrs, List.nodup_cons] at hnd
    simp only [Trie.addrs, List.mem_cons] at ha
    rcases ha with rfl | ha
    · refine ⟨_, hl.1, Or.inl ⟨Or.inr (Or.inr rfl), ?_⟩⟩
      have := n.passes_zero a hnd.1
      simp only [Trie.passes] at this ⊢
      simp [Trie.visits, this]
    · obtain ⟨nd, h1, h2⟩ := ih th hl.2 hnd.2 a ha
      have hne : a ≠ p := fun hc => hnd.1 (hc ▸ ha)
      refine ⟨nd, h1, ?_⟩
      have e1 : (Trie.X p c n).passes a = n.passes a := by
        simp only [Trie.passes, Trie.visits, List.map_cons]
        rw [List.count_cons_of_ne hne]
      rw [e1]; exact h2
  | D p c l r ihl ihr =>
    intro th hl hnd a ha
    simp only [Trie.Laid] at hl
    simp only [Trie.addrs, List.nodup_cons, List.mem_append, not_or] at hnd
    obtain ⟨⟨hpl, hpr⟩, hlr⟩ := hnd
    obtain ⟨hndl, hndr, hdis⟩ := List.nodup_append.mp hlr
    have e1 : ∀ b, (Trie.D p c l r).passes b =
        (if b = p then 2 else 0) + l.passes b + r.passes b := by
      intro b
      simp only [Trie.passes, Trie.visits, List.map_cons, List.map_append, List.count_cons,
        List.count_append]
      by_cases hb : p = b
      · subst hb; simp; omega
      · have hb' : ¬ b = p := fun hc => hb hc.symm
        simp [hb, hb']
    simp only [Trie.addrs, List.mem_cons, List.mem_append] at ha
    rcases ha with rfl | ha | ha
    · refine ⟨_, hl.1, Or.inr ⟨Or.inl rfl, ?_⟩⟩
      rw [e1, l.passes_zero a hpl, r.passes_zero a hpr]
      simp
    · obtain ⟨nd, h1, h2⟩ := ihl _ hl.2.1 hndl a ha
      have hne : a ≠ p := fun hc => hpl (hc ▸ ha)
      refine ⟨nd, h1, ?_⟩
      rw [e1, r.passes_zero a (fun hc => hdis ha hc), if_neg hne]
      simpa using h2
    · obtain ⟨nd, h1, h2⟩ := ihr _ hl.2.2 hndr a ha
      have hne : a ≠ p := fun hc => hpr (hc ▸ ha)
      refine ⟨nd, h1, ?_⟩
      rw [e1, l.passes_zero a (fun hc => hdis hc ha), if_neg hne]
      simpa using h2
  | L p c sub ih =>
    intro th hl hnd a ha
    simp only [Trie.Laid] at hl
    simp only [Trie.addrs, List.nodup_cons] at hnd
    have e1 : ∀ b, (Trie.L p c sub).passes b = (if b = p then 2 else 0) + sub.passes b := by
      intro b
      simp only [Trie.passes, Trie.visits, List.map_cons, List.map_append, List.count_cons,
        List.count_append, List.map_nil, List.count_nil]
      by_cases hb : p = b
      · subst hb; simp; omega
      · have hb' : ¬ b = p := fun hc => hb hc.symm
        simp [hb, hb']
    simp only [Trie.addrs, List.mem_cons] at ha
    rcases ha with rfl | ha
    · refine ⟨_, hl.1, Or.inr ⟨Or.inr (Or.inr rfl), ?_⟩⟩
      rw [e1, sub.passes_zero a hnd.1]
      simp
    · obtain ⟨nd, h1, h2⟩ := ih _ hl.2 hnd.2 a ha
      have hne : a ≠ p := fun hc => hnd.1 (hc ▸ ha)
      refine ⟨nd, h1, ?_⟩
      rw [e1, if_neg hne]
      simpa using h2
  | K p c sub n ihs ihn =>
    intro th hl hnd a ha
    simp only [Trie.Laid] at hl
    simp only [Trie.addrs, List.nodup_cons, List.mem_append, not_or] at hnd
    obtain ⟨⟨hpl, hpr⟩, hlr⟩ := hnd
    obtain ⟨hndl, hndr, hdis⟩ := List.nodup_append.mp hlr
    have e1 : ∀ b, (Trie.K p c sub n).passes b =
        (if b = p then 2 else 0) + sub.passes b + n.passes b := by
      intro b
      simp only [Trie.passes, Trie.visits, List.map_cons, List.map_append, List.count_cons,
        List.count_append]
      by_cases hb : p = b
      · subst hb; simp; omega
      · have hb' : ¬ b = p := fun hc => hb hc.symm
        simp [hb, hb']
    simp only [Trie.addrs, List.mem_cons, List.mem_append] at ha
    rcases ha with rfl | ha | ha
    · refine ⟨_, hl.1, Or.inr ⟨Or.inr (Or.inl rfl), ?_⟩⟩
      rw [e1, sub.passes_zero a hpl, n.passes_zero a hpr]
      simp
    · obtain ⟨nd, h1, h2⟩ := ihs _ hl.2.1 hndl a ha
      have hne : a ≠ p := fun hc => hpl (hc ▸ ha)
      refine ⟨nd, h1, ?_⟩
      rw [e1, n.passes_zero a (fun hc => hdis ha hc), if_neg hne]
      simpa using h2
    · obtain ⟨nd, h1, h2⟩ := ihn _ hl.2.2 hndr a ha
      have hne : a ≠ p := fun hc => hpr (hc ▸ ha)
      refine ⟨nd, h1, ?_⟩
      rw [e1, sub.passes_zero a (fun hc => hdis hc ha), if_neg hne]
      simpa using h2

/-! ## The traversal of the whole index -/

theorem passes_count (tr : List TraverseState) (T : Trie)
    (h : tr.map passOf = T.visits.map passAt) (a : Nat) :
    (tr.map (fun x => x.indexPointer)).count (a : Int) = T.passes a := by
  have h1 : tr.map (fun x => x.indexPointer) = (tr.map passOf).map Prod.snd := by
    simp [passOf, List.map_map, Function.comp_def]
  have h2 : (T.visits.map passAt).map Prod.snd =
      (T.visits.map Prod.snd).map (fun n : Nat => (n : Int)) := by
    simp [passAt, List.map_map, Function.comp_def]
  rw [h1, h, h2]
  exact List.count_map_of_injective _ _ Nat.cast_injective a

theorem passes_slots (tr : List TraverseState) (T : Trie)
    (h : tr.map passOf = T.visits.map passAt) :
    ∀ x ∈ tr, ∃ a ∈ T.addrs, x.indexPointer = (a : Int) := by
  intro x hx
  have h1 : passOf x ∈ tr.map passOf := List.mem_map_of_mem _ hx
  rw [h] at h1
  obtain ⟨y, hy, hxy⟩ := List.mem_map.mp h1
  refine ⟨y.2, T.visits_mem_addrs y hy, ?_⟩
  have := congrArg Prod.snd hxy
  simpa [passOf, passAt] using this.symm

theorem passes_entry (tr : List TraverseState) (T : Trie)
    (h : tr.map passOf = T.visits.map passAt) (a : Nat) (ha : a ∈ T.addrs) :
    ∃ x ∈ tr, x.direction = left ∧ x.indexPointer = (a : Int) := by
  have h1 : passAt (left, a) ∈ T.visits.map passAt := List.mem_map_of_mem _ (T.visits_left a ha)
  rw [← h] at h1
  obtain ⟨x, hx, hxa⟩ := List.mem_map.mp h1
  refine ⟨x, hx, ?_, ?_⟩
  · have := congrArg Prod.fst hxa
    simpa [passOf, passAt] using this
  · have := congrArg Prod.snd hxa
    simpa [passOf, passAt] using this

/-- The traversal of the whole of an index that holds a tree: it returns,
with the elements of the tree, and its passes are those of `Trie.visits`. -/
theorem traverse_full (s : Index) (T : Trie) (hl : Trie.Laid s.node T (-1))
    (hroot : s.indexRootPointer = (T.addr : Int)) :
    ∃ tr, (∀ fuel, 2 * T.size + 1 ≤ fuel →
        runLoopTrace (traverseBody nullIndexPointer s) fuel ⟨left, s.indexRootPointer, []⟩ =
          some (tr, T.elems)) ∧
      tr.map passOf = T.visits.map passAt := by
  have h0 : runLoopTrace (traverseBody nullIndexPointer s) 1 ⟨right, -1, [] ++ T.elems⟩ =
      some ([], T.elems) :=
    runLoopTrace_exit _ 0 _ _ (by simp [traverseBody, nullIndexPointer])
  obtain ⟨pre, h1, h2⟩ := traverse_tree_trace s nullIndexPointer T (-1) hl
    (fun a _ => natCast_ne_null a) [] 1 [] T.elems h0
  refine ⟨pre, fun fuel hf => ?_, h2⟩
  rw [hroot]
  have := runLoopTrace_mono _ _ _ _ h1 fuel (by omega)
  simpa using this

theorem types_apart (nd : indexNode)
    (h1 : nd.indexType = indexKeyNode ∨ nd.indexType = indexTerminalNode ∨
      nd.indexType = characterNode)
    (h2 : nd.indexType = decisionNode ∨ nd.indexType = duplicateKeyNode ∨
      nd.indexType = duplicateTerminalNode) : False := by
  rcases h1 with h1 | h1 | h1 <;> rcases h2 with h2 | h2 | h2 <;>
    · rw [h1] at h2
      revert h2
      decide

/-- On an index that holds a well-formed tree, or none, the traversal of the
whole index returns. -/
theorem traversal_inv (s : Index) (fl : List Nat) (oT : Option Trie) (h : Inv s fl oT) :
    ∃ N tr res, Traversed s N tr res := by
  have hreach := reachable_inv s fl oT h
  cases oT with
  | none =>
    have hroot : s.indexRootPointer = nullIndexPointer := h.1
    have hno : ∀ a : Int, ¬ Reachable s a := fun a ha => ha.1 hroot
    refine ⟨1, [], [], ⟨fun fuel hf => ?_, rfl, (fun x hx => absurd hx (List.not_mem_nil x)),
      (fun a nd ha => absurd ha (hno _)), (fun a nd ha => absurd ha (hno _)),
      (fun a b ha => absurd ha (hno _))⟩⟩
    obtain ⟨m, rfl⟩ : ∃ m, fuel = m + 1 := ⟨fuel - 1, by omega⟩
    exact runLoopTrace_exit _ m _ _ (by simp [traverseBody, hroot])
  | some T =>
    have hl : Trie.Laid s.node T (-1) := by simpa [Path.thread] using h.1.tree
    have hnd : T.addrs.Nodup := h.tree_nodup_inv
    obtain ⟨tr, hrun, hv⟩ := traverse_full s T hl h.1.root
    have hmem : ∀ a : Nat, Reachable s (a : Int) → a ∈ T.addrs := by
      intro a ha
      obtain ⟨n, hn, han⟩ := (hreach _).mp ha
      have : a = n := by exact_mod_cast han
      rw [this]; exact hn
    refine ⟨2 * T.size + 1, tr, T.elems, hrun, ?_, ?_, ?_, ?_, ?_⟩
    · have := traverse_emits _ s _ _ _ _ (hrun _ (le_refl _))
      simpa using this
    · intro x hx
      obtain ⟨a, ha, hxa⟩ := passes_slots tr T hv x hx
      rw [hxa]
      exact (hreach _).mpr ⟨a, ha, rfl⟩
    · intro a nd ha hn hty
      obtain ⟨nd', g1, g2⟩ := Trie.passes_node T _ hl hnd a (hmem a ha)
      rw [hn] at g1
      injection g1 with g1
      subst g1
      rw [passes_count tr T hv a]
      rcases g2 with g2 | g2
      · exact g2.2
      · exact (types_apart nd hty g2.1).elim
    · intro a nd ha hn hty
      obtain ⟨nd', g1, g2⟩ := Trie.passes_node T _ hl hnd a (hmem a ha)
      rw [hn] at g1
      injection g1 with g1
      subst g1
      rw [passes_count tr T hv a]
      rcases g2 with g2 | g2
      · exact (types_apart nd g2.1 hty).elim
      · exact g2.2
    · intro a b ha
      obtain ⟨x, hx, hd, hp⟩ := passes_entry tr T hv a (hmem a ha)
      obtain ⟨pre, post, hsplit⟩ := List.append_of_mem hx
      have hrest := runLoopTrace_rest _ pre _ _ x post T.elems
        (by rw [← hsplit]; exact hrun _ (le_refl _))
      obtain ⟨tr', r', post', g1, g2⟩ := traverse_follows s b _ _ _ _ hrest []
      rw [hd, hp] at g1
      refine ⟨tr', r', pre.map (fun y => y.indexPointer), post',
        fun fuel hf => runLoopTrace_mono _ _ _ _ g1 fuel hf, ?_⟩
      rw [hsplit, List.map_append, g2, List.append_assoc]

/-! ## Delete on a key with a duplicates branch -/

/-- The run of `Delete` on a key whose descent through the main part of the
tree stops at a duplicates node with one byte left: for enough fuel `Delete`
returns `out`; nothing changes, or the element is taken out of the branch
`sub` under the node. -/
theorem delete_dup_el (e : Int) (ix : Index) (fl : List Nat) (T : Trie) (k : List Nat)
    (rc : Path) (g : Frame) (sub : Trie) (c : Nat) (h : AtFocus ix fl [] T) (hw : T.WFg)
    (hd : descendM T (validate k).1 [] = (rc, g.fill sub, [c])) (hg : g.isDup = true) :
    AtFocus ix fl (g :: rc) sub ∧ g.char < 128 ∧ 2 ≤ sub.elems.length ∧
    ∃ N out, (∀ f, N ≤ f → Delete f k e ix = some out) ∧
      (out = (false, ix) ∨ SubRemoved ix g rc sub e out) := by
  have hkey : (validate k).1 ≠ [] := by
    intro hnil
    rw [hnil] at hd
    cases T <;> simp [descendM] at hd
  have hlen : (validate k).2 ≠ 0 := by
    rw [validate_snd]
    exact fun hc => hkey (List.length_eq_zero.mp hc)
  have hroot : ix.indexRootPointer ≠ nullIndexPointer := by
    rw [h.root]; exact natCast_ne_null _
  have hst : DeleteAt ⟨(validate k).1, (validate k).2, nullIndexPointer, nullIndexPointer,
      nullIndexPointer, nullIndexPointer, ix.indexRootPointer, null, 0⟩ [] T (validate k).1 :=
    ⟨rfl, rfl, rfl, rfl, rfl, rfl, h.root, rfl⟩
  generalize hst0 : (⟨(validate k).1, (validate k).2, nullIndexPointer, nullIndexPointer,
      nullIndexPointer, nullIndexPointer, ix.indexRootPointer, null, 0⟩ : DeleteState) = st
    at hst
  have hfacts := descendM_facts T (validate k).1 [] hkey (fun _ _ _ => trivial)
  obtain ⟨st', hst', hfuel⟩ := delete_descendM e ix T _ (validate k).1 [] st h.tree hst hkey
  rw [hd] at hfacts hst'
  obtain ⟨h1, h2, _, h4, h5⟩ := hfacts
  simp only at h1 h2 h4 h5 hst'
  simp only [Path.plug] at h1
  have hmain := h2 Path.Main.main_nil
  have hfoc : AtFocus ix fl rc (g.fill sub) := by
    rw [← AtFocus.plug_iff, h1]; exact h
  have hwT : (Path.plug rc (g.fill sub)).WFg := by rw [h1]; exact hw
  have hwt : (g.fill sub).WFg := Trie.WFg.of_plug rc _ hmain hwT
  have hf1 : AtFocus ix fl (g :: rc) sub := AtFocus.down g hfoc
  have hgs : g.char < 128 ∧ Trie.WF (some []) (-1) 127 sub ∧ 2 ≤ sub.elems.length := by
    cases g with
    | Ls p0 c0 => exact hwt
    | Ks p0 c0 n0 => exact ⟨hwt.1, hwt.2.1, hwt.2.2.1⟩
    | Rf p0 c0 e0 => simp [Frame.isDup] at hg
    | Xf p0 c0 => simp [Frame.isDup] at hg
    | Kf p0 c0 s0 => simp [Frame.isDup] at hg
    | Dl p0 c0 r0 => simp [Frame.isDup] at hg
    | Dr p0 c0 l0 => simp [Frame.isDup] at hg
  refine ⟨hf1, hgs.1, hgs.2.2, ?_⟩
  have hrun : ∀ res, deleteBody e ix st' = some (LoopStep.exit res) →
      ∀ f, 3 * T.size + 2 ≤ f → runLoop (deleteBody e ix) f st = some res := by
    intro res hbody f hf
    have h0 := hfuel 1 res (runLoop_exit _ 0 st' res hbody)
    exact runLoop_mono _ _ _ _ h0 f (by omega)
  have fin : ∀ res out, (∀ f, 3 * T.size + 2 ≤ f →
      runLoop (deleteBody e ix) f st = some res ∧ deleteOutcome f ix res = some out) →
      ∀ f, 3 * T.size + 2 ≤ f → Delete f k e ix = some out := by
    intro res out hr f hf
    rw [Delete_eq, if_neg hlen, if_neg hroot, hst0, (hr f hf).1]
    exact (hr f hf).2
  have via : ∀ (st1 : DeleteState), deleteBody e ix st' = some (LoopStep.next st1) →
      DeleteAt st1 (g :: rc) sub (itoa e) →
      ∃ N out, (∀ f, N ≤ f → Delete f k e ix = some out) ∧
        (out = (false, ix) ∨ SubRemoved ix g rc sub e out) := by
    intro st1 hbody hst1
    obtain ⟨res, out, hrun1, hres⟩ :=
      delete_sub_el e ix fl g rc sub st1 hg hgs.1 hf1 hst1 hgs.2.1 hgs.2.2
    have hpl : Path.plug (g :: rc) sub = T := by
      simp only [Path.plug]; exact h1
    rw [hpl] at hrun1
    refine ⟨3 * T.size + 2, out, fin res out (fun f hf => ⟨?_, (hrun1 f (by omega)).2⟩), hres⟩
    have hA := runLoop_step _ _ _ _ (2 * T.size + 1) (2 * T.size + 2) hbody
      (hrun1 _ (le_refl _)).1 (by omega)
    exact runLoop_mono _ _ _ _ (hfuel _ res hA) f (by omega)
  rcases delete_stop_gen e ix st' rc (g.fill sub) _ c [] hfoc.tree hst' h5 with
    ⟨p, heq, _, _, _⟩ | ⟨p, n, heq, _, _, _⟩ |
    ⟨p, sub1, st1, heq, _, _, hbody, hst1⟩ | ⟨p, sub1, n, st1, heq, _, _, hbody, hst1⟩ | hbody
  · cases g <;> first | (simp [Frame.isDup] at hg; done) | cases heq
  · cases g <;> first | (simp [Frame.isDup] at hg; done) | cases heq
  · cases g with
    | Ls p0 c0 =>
      simp only [Frame.fill, Trie.L.injEq] at heq
      obtain ⟨rfl, rfl, rfl⟩ := heq
      exact via st1 hbody hst1
    | Ks p0 c0 n0 => cases heq
    | Rf p0 c0 e0 => simp [Frame.isDup] at hg
    | Xf p0 c0 => simp [Frame.isDup] at hg
    | Kf p0 c0 s0 => simp [Frame.isDup] at hg
    | Dl p0 c0 r0 => simp [Frame.isDup] at hg
    | Dr p0 c0 l0 => simp [Frame.isDup] at hg
  · cases g with
    | Ks p0 c0 n0 =>
      simp only [Frame.fill, Trie.K.injEq] at heq
      obtain ⟨rfl, rfl, rfl, rfl⟩ := heq
      exact via st1 hbody hst1
    | Ls p0 c0 => cases heq
    | Rf p0 c0 e0 => simp [Frame.isDup] at hg
    | Xf p0 c0 => simp [Frame.isDup] at hg
    | Kf p0 c0 s0 => simp [Frame.isDup] at hg
    | Dl p0 c0 r0 => simp [Frame.isDup] at hg
    | Dr p0 c0 l0 => simp [Frame.isDup] at hg
  · exact ⟨3 * T.size + 2, (false, ix),
      fin _ _ (fun f hf => ⟨hrun _ hbody f hf, rfl⟩), Or.inl rfl⟩

theorem AtFocus.holds_root {ix : Index} {fl : List Nat} {T : Trie} (h : AtFocus ix fl [] T) :
    Holds ix (some T) := by
  refine ⟨h.root, ?_, h.tree_nodup⟩
  simpa [Path.thread] using h.tree

/-- The run of `Delete` on a key whose descent through the main part of the
tree stops at a duplicates node with one byte left, and what it leaves when
it returns true: of a branch of two elements the node of the other element
in the place of the duplicates node, the slots of the branch on the free
list; of a branch of three elements or more the duplicates node with a
branch of the other elements. -/
theorem delete_dup_exact (e : Int) (ix : Index) (fl : List Nat) (T : Trie) (k : List Nat)
    (rc : Path) (g : Frame) (sub : Trie) (c : Nat) (h : AtFocus ix fl [] T) (hw : T.WFg)
    (hd : descendM T (validate k).1 [] = (rc, g.fill sub, [c])) (hg : g.isDup = true) :
    Trie.Laid ix.node (g.fill sub) (Path.thread rc (-1)) ∧ 2 ≤ sub.elems.length ∧
    ∃ (b : Bool) (ix' : Index), (∃ N, ∀ f, N ≤ f → Delete f k e ix = some (b, ix')) ∧
      (b = true →
        (sub.elems.length = 2 ∧ ∃ (e' : Int) (fl' : List Nat), sub.elems.Perm [e, e'] ∧
          Trie.Laid ix'.node (g.collapse e') (Path.thread rc (-1)) ∧
          FreeList ix'.node ix'.deletedRootPointer fl' ∧ fl'.Perm (sub.addrs ++ fl) ∧
          ∃ N, ∀ fuel, N ≤ fuel → ∃ st st', Statistics fuel ix = some st ∧
            Statistics fuel ix' = some st' ∧
            st'.1.Deleted = st.1.Deleted + (sub.addrs.length : Int)) ∨
        (3 ≤ sub.elems.length ∧ ∃ sub' : Trie,
          Trie.Laid ix'.node (g.fill sub') (Path.thread rc (-1)) ∧
          sub.elems.Perm (e :: sub'.elems) ∧
          sub'.elems.length = sub.elems.length - 1)) := by
  obtain ⟨hf1, _, h2, N, out, hrun, hout⟩ := delete_dup_el e ix fl T k rc g sub c h hw hd hg
  refine ⟨(AtFocus.up g hf1).tree, h2, out.1, out.2, ⟨N, hrun⟩, fun hb => ?_⟩
  rcases hout with ho | ⟨ix1, fl1, sub1, ho, hf', _, h2', _, hlen, hperm⟩ |
    ⟨ix1, fl1, e1, ho, hf', _, hlen, hperm⟩
  · rw [ho] at hb
    cases hb
  · subst ho
    have hl := hperm.length_eq
    simp only [List.length_cons] at hl
    exact Or.inr ⟨by omega, sub1, (AtFocus.up g hf').tree, hperm, by omega⟩
  · subst ho
    have hl := hperm.length_eq
    simp only [List.length_cons, List.length_nil] at hl
    have hfl : fl1.Perm (sub.addrs ++ fl) := by
      have p1 := hf1.perm
      have p2 := hf'.perm
      rw [(Frame.isDup_addrs hg e1).1] at p2
      simp only [Path.addrs] at p1
      have hlen' : ix1.node.length = ix.node.length := hlen
      rw [hlen'] at p2
      have p3 := p2.trans p1.symm
      have p4 : (Path.addrs rc ++ g.addrs ++ fl1).Perm
          (Path.addrs rc ++ g.addrs ++ (sub.addrs ++ fl)) := by
        refine p3.trans ?_
        rw [List.append_assoc (g.addrs ++ Path.addrs rc)]
        exact List.Perm.append_right _ List.perm_append_comm
      exact (List.perm_append_left_iff _).mp p4
    refine Or.inl ⟨by omega, e1, fl1, hperm, hf'.tree, hf'.free, hfl, ?_⟩
    have hT' : AtFocus ix1 fl1 [] (Path.plug rc (g.collapse e1)) :=
      (AtFocus.plug_iff _ _ _ _).mpr hf'
    obtain ⟨N1, hs1⟩ := stats_holds ix fl (some T) h.holds_root h.free
    obtain ⟨N2, hs2⟩ := stats_holds ix1 fl1 _ hT'.holds_root hf'.free
    refine ⟨max N1 N2, fun fuel hf => ?_⟩
    obtain ⟨st, a1, _, a3, _⟩ := hs1 fuel (le_trans (le_max_left _ _) hf)
    obtain ⟨st', b1, _, b3, _⟩ := hs2 fuel (le_trans (le_max_right _ _) hf)
    refine ⟨st, st', a1, b1, ?_⟩
    rw [a3, b3, hfl.length_eq, List.length_append]
    push_cast
    ring

/-! ## Accesses in range

In the embedding an access outside its range gives `none`, and every
operation hands a `none` on to its result.  The lemmas here say when the
accesses give a value. -/

/-- The read `node[p]` gives a node exactly when `0 ≤ p < len(node)`. -/
theorem getNode_isSome_iff (ns : List indexNode) (p : Int) :
    (getNode ns p).isSome = true ↔ (0 ≤ p ∧ p < (ns.length : Int)) := by
  unfold getNode
  by_cases h : 0 ≤ p
  · rw [if_pos h]
    obtain ⟨a, rfl⟩ := Int.eq_ofNat_of_zero_le h
    simp only [Int.toNat_ofNat, Nat.cast_lt, h, true_and]
    by_cases h2 : a < ns.length
    · simp [h2]
    · simp [h2, List.getElem?_eq_none (not_lt.mp h2)]
  · rw [if_neg h]
    simp [h]

/-- The write `node[p] = n` is made exactly when `0 ≤ p < len(node)`. -/
theorem setNode_isSome_iff (ns : List indexNode) (p : Int) (n : indexNode) :
    (setNode ns p n).isSome = true ↔ (0 ≤ p ∧ p < (ns.length : Int)) := by
  unfold setNode
  by_cases h : 0 ≤ p
  · obtain ⟨a, rfl⟩ := Int.eq_ofNat_of_zero_le h
    by_cases h2 : a < ns.length
    · simp [h2]
    · simp [h2]
  · have h3 : ¬ (0 ≤ p ∧ p.toNat < ns.length) := fun hc => h hc.1
    rw [if_neg h3]
    simp [h]

/-- The slice `s[i:i+1]` is taken exactly when `i < len(s)`. -/
theorem sliceOne_isSome_iff (ks : List Nat) (i : Nat) :
    (sliceOne ks i).isSome = true ↔ i < ks.length := by
  unfold sliceOne
  by_cases h : i + 1 ≤ ks.length
  · rw [if_pos h]
    simp only [Option.isSome_some, true_iff]
    omega
  · rw [if_neg h]
    simp only [Option.isSome_none, Bool.false_eq_true, false_iff]
    omega

/-- The slice `s[i:]` is taken exactly when `i ≤ len(s)`. -/
theorem sliceFrom_isSome_iff (ks : List Nat) (i : Nat) :
    (sliceFrom ks i).isSome = true ↔ i ≤ ks.length := by
  unfold sliceFrom
  by_cases h : i ≤ ks.length
  · rw [if_pos h]
    simp [h]
  · rw [if_neg h]
    simp [h]

/-- The stack-reset loop stops at a position of the stack that holds the
pointer it looks for. -/
theorem stackSeek_found : ∀ (stack : List Int) (p : Int) (n : Nat),
    stackSeek stack p = some n → n < stack.length ∧ stack[n]? = some p := by
  intro stack
  induction stack with
  | nil => intro p n h; simp [stackSeek] at h
  | cons a rest ih =>
    intro p n h
    by_cases ha : a = p
    · simp only [stackSeek, if_pos ha, Option.some.injEq] at h
      subst h
      simp [ha]
    · simp only [stackSeek, if_neg ha] at h
      cases hr : stackSeek rest p with
      | none => rw [hr] at h; cases h
      | some m =>
        rw [hr] at h
        simp only [Option.some.injEq] at h
        subst h
        obtain ⟨h1, h2⟩ := ih p m hr
        exact ⟨by simp only [List.length_cons]; omega, by simpa using h2⟩

/-- The stack-reset loop stops inside the stack exactly when the stack holds
the pointer it looks for. -/
theorem stackSeek_isSome_iff : ∀ (stack : List Int) (p : Int),
    (stackSeek stack p).isSome = true ↔ p ∈ stack := by
  intro stack
  induction stack with
  | nil => intro p; simp [stackSeek]
  | cons a rest ih =>
    intro p
    by_cases ha : a = p
    · simp [stackSeek, ha]
    · have := ih p
      simp only [stackSeek, if_neg ha, List.mem_cons]
      cases hr : stackSeek rest p with
      | none =>
        rw [hr] at this
        simp only [Option.isSome_none, Bool.false_eq_true, false_iff] at this ⊢
        exact fun hc => hc.elim (fun h => ha h.symm) this
      | some m =>
        rw [hr] at this
        simp only [Option.isSome_some, true_iff] at this ⊢
        exact Or.inr this

/-! ## The passes of a loop that returns -/

/-- A loop that returns has a record of its passes. -/
theorem runLoopTrace_of_result {σ ρ : Type} (body : σ → Option (LoopStep σ ρ)) (fuel : Nat)
    (s : σ) (r : ρ) (h : runLoop body fuel s = some r) :
    ∃ tr, runLoopTrace body fuel s = some (tr, r) := by
  rw [← runLoopTrace_result] at h
  cases hx : runLoopTrace body fuel s with
  | none => rw [hx] at h; cases h
  | some x =>
    rw [hx] at h
    simp only [Option.map_some', Option.some.injEq] at h
    exact ⟨x.1, by rw [← h]⟩

/-- In every pass of the record the body has given a value. -/
theorem runLoopTrace_pass {σ ρ : Type} (body : σ → Option (LoopStep σ ρ)) :
    ∀ (fuel : Nat) (s : σ) (tr : List σ) (r : ρ), runLoopTrace body fuel s = some (tr, r) →
      ∀ x ∈ tr, ∃ x', body x = some (LoopStep.next x') := by
  intro fuel
  induction fuel with
  | zero => intro s tr r h; simp [runLoopTrace] at h
  | succ n ih =>
    intro s tr r h x hx
    cases hb : body s with
    | none => simp [runLoopTrace, hb] at h
    | some st =>
      cases st with
      | next s' =>
        rw [runLoopTrace_next body n s s' hb] at h
        cases hr : runLoopTrace body n s' with
        | none => rw [hr] at h; cases h
        | some y =>
          rw [hr] at h
          simp only [Option.map_some', Option.some.injEq, Prod.mk.injEq] at h
          obtain ⟨h1, h2⟩ := h
          subst h1
          rcases List.mem_cons.mp hx with rfl | hx'
          · exact ⟨s', hb⟩
          · exact ih s' y.1 y.2 hr x hx'
      | exit r' =>
        rw [runLoopTrace_exit body n s r' hb] at h
        simp only [Option.some.injEq, Prod.mk.injEq] at h
        rw [← h.1] at hx
        cases hx

/-- What a pass of the scanning loop of `Statistics` that goes on has read:
the node at its pointer, which is in range, and, where the stack is reset,
the thread target in the stack. -/
theorem statsBody_pass (s : Index) (x x' : StatState)
    (h : statsBody s x = some (LoopStep.next x')) :
    ∃ nd, getNode s.node x.indexPointer = some nd ∧
      (nd.indexType = indexTerminalNode → nd.rightPointer ≠ nullIndexPointer →
        nd.rightPointer ∈ (pushStack x.stack x.indexPointer x.stackPointer).1) ∧
      (nd.indexType = duplicateTerminalNode → x.direction ≠ left →
        nd.rightPointer ≠ nullIndexPointer → nd.rightPointer ∈ x.stack) := by
  unfold statsBody at h
  by_cases h0 : x.indexPointer = nullIndexPointer
  · rw [if_pos h0] at h
    cases h
  rw [if_neg h0] at h
  cases hn : getNode s.node x.indexPointer with
  | none => rw [hn] at h; cases h
  | some nd =>
    rw [hn] at h
    simp only at h
    refine ⟨nd, rfl, fun ht hr => ?_, fun ht hd hr => ?_⟩
    · rw [if_neg (by rw [ht]; decide), if_neg (by rw [ht]; decide), if_neg (by rw [ht]; decide),
        if_neg (by rw [ht]; decide), if_pos ht] at h
      rw [← stackSeek_isSome_iff]
      simp only [resetStack, if_pos hr] at h
      cases hs : stackSeek (pushStack x.stack x.indexPointer x.stackPointer).1 nd.rightPointer with
      | none => rw [hs] at h; cases h
      | some m => rfl
    · rw [if_neg (by rw [ht]; decide), if_neg (by rw [ht]; decide), if_neg (by rw [ht]; decide),
        if_neg (by rw [ht]; decide), if_neg (by rw [ht]; decide), if_pos ht, if_neg hd] at h
      rw [← stackSeek_isSome_iff]
      simp only [resetStack, if_pos hr] at h
      cases hs : stackSeek x.stack nd.rightPointer with
      | none => rw [hs] at h; cases h
      | some m => rfl

/-- The scanning loop of a run of `Statistics` that returns: the record of
its passes. -/
theorem stats_passes (fuel : Nat) (s : Index) (r : Statistic × List Nat)
    (h : Statistics fuel s = some r) :
    ∃ tr st, runLoopTrace (statsBody s) fuel
        ⟨[], 0, left, ⟨0, 0, 0, 0, 0, 0, 0, 0, 0⟩, s.indexRootPointer⟩ = some (tr, st) ∧
      ∀ x ∈ tr, ∃ nd, getNode s.node x.indexPointer = some nd ∧
        (nd.indexType = indexTerminalNode → nd.rightPointer ≠ nullIndexPointer →
          nd.rightPointer ∈ (pushStack x.stack x.indexPointer x.stackPointer).1) ∧
        (nd.indexType = duplicateTerminalNode → x.direction ≠ left →
          nd.rightPointer ≠ nullIndexPointer → nd.rightPointer ∈ x.stack) := by
  simp only [Statistics] at h
  cases hr : runLoop (statsBody s) fuel ⟨[], 0, left, ⟨0, 0, 0, 0, 0, 0, 0, 0, 0⟩,
      s.indexRootPointer⟩ with
  | none => rw [hr] at h; cases h
  | some st =>
    obtain ⟨tr, htr⟩ := runLoopTrace_of_result _ _ _ _ hr
    refine ⟨tr, st, htr, fun x hx => ?_⟩
    obtain ⟨x', hx'⟩ := runLoopTrace_pass _ _ _ _ _ htr x hx
    exact statsBody_pass s x x' hx'

/-! ## Search on a tree with key bytes of any value

The descent of `Search` compares the key byte as a string of one byte with
`string(keyCharacter)`, which has two bytes for a key byte above 0x7f. -/

/-- The descent loop of `Search` on a tree with key bytes of any value. -/
theorem search_bytes (ix : Index) (ks : List Nat) :
    ∀ (t : Trie) (th : Int), Trie.Laid ix.node t th → t.addrs.Nodup →
      (∀ a ∈ t.addrs, (a : Int) ≠ th) →
      ∀ (i k : Nat) (rest : List Nat), ks.drop i = k :: rest →
        ∀ fuel, t.size ≤ fuel →
          ∃ ex, runLoop (searchBody ks ks.length ix) fuel ⟨(t.addr : Int), th, i⟩ = some ex ∧
            SearchAt ix t (k :: rest) ex := by
  intro t
  induction t with
  | S p c e =>
    intro th h hnd hth i k rest hk fuel hf
    simp only [Trie.size] at hf
    by_cases hkc : [k] = byteToString c ∧ rest = []
    · refine ⟨SearchExit.found (p : Int) th, runLoop_exit' _ _ _ _ ?_ (by omega), ?_⟩
      · simp only [Trie.Laid] at h
        simp [searchBody, natCast_ne_null, h, sliceOne_drop hk, hkc.1,
          last_iff_of_drop hk, hkc.2, Trie.addr]
      · intro fuelT hT
        have := traverse_to_thread ix _ th h hth [] fuelT (by simp only [Trie.size] at hT ⊢; omega)
        simpa [traverseAndCollect, Trie.seekBytes, hkc, Trie.elems, Trie.addr] using this
    · refine ⟨SearchExit.notFound, runLoop_exit' _ _ _ _ ?_ (by omega), ?_⟩
      · simp only [Trie.Laid] at h
        by_cases h1 : [k] = byteToString c
        · have h2 : rest ≠ [] := fun h2 => hkc ⟨h1, h2⟩
          simp [searchBody, natCast_ne_null, h, sliceOne_drop hk, h1,
            last_iff_of_drop hk, h2, Trie.addr]
        · simp [searchBody, natCast_ne_null, h, sliceOne_drop hk, h1,
            Trie.addr]
      · simp [SearchAt, Trie.seekBytes, hkc]
  | R p c e n ih =>
    intro th h hnd hth i k rest hk fuel hf
    simp only [Trie.size] at hf
    by_cases hkc : [k] = byteToString c
    · by_cases hr : rest = []
      · refine ⟨SearchExit.found (p : Int) th, runLoop_exit' _ _ _ _ ?_ (by omega), ?_⟩
        · simp only [Trie.Laid] at h
          simp [searchBody, natCast_ne_null, h.1, sliceOne_drop hk, hkc,
            last_iff_of_drop hk, hr, Trie.addr]
        · intro fuelT hT
          have := traverse_to_thread ix _ th h hth [] fuelT (by simp only [Trie.size] at hT ⊢; omega)
          simpa [traverseAndCollect, Trie.seekBytes, hkc, hr, Trie.elems, Trie.addr] using this
      · obtain ⟨k2, rest2, hr2⟩ : ∃ k2 rest2, rest = k2 :: rest2 := by
          cases rest with
          | nil => exact absurd rfl hr
          | cons a b => exact ⟨a, b, rfl⟩
        obtain ⟨m, rfl⟩ : ∃ m, fuel = m + 1 := ⟨fuel - 1, by omega⟩
        simp only [Trie.Laid] at h
        have hk2 : ks.drop (i + 1) = k2 :: rest2 := by rw [drop_succ_of_drop hk, hr2]
        obtain ⟨ex, hex, hok⟩ := ih th h.2 (by simp [Trie.addrs] at hnd; exact hnd.2)
          (fun a ha' => hth a (by simp [Trie.addrs, ha'])) (i + 1) k2 rest2 hk2 m (by omega)
        refine ⟨ex, ?_, ?_⟩
        · rw [runLoop_next _ _ _ ⟨(n.addr : Int), th, i + 1⟩
            (by simp [searchBody, natCast_ne_null, h.1, sliceOne_drop hk,
              hkc, last_iff_of_drop hk, hr, Trie.addr])]
          exact hex
        · cases ex with
          | notFound => simpa [SearchAt, Trie.seekBytes, hkc, hr2] using hok
          | found s e' =>
            intro fuelT hT
            have := hok fuelT (by simp [Trie.size] at hT; omega)
            simpa [Trie.seekBytes, hkc, hr2] using this
    · refine ⟨SearchExit.notFound, runLoop_exit' _ _ _ _ ?_ (by omega), ?_⟩
      · simp only [Trie.Laid] at h
        simp [searchBody, natCast_ne_null, h.1, sliceOne_drop hk, hkc,
          Trie.addr]
      · simp [SearchAt, Trie.seekBytes, hkc]
  | X p c n ih =>
    intro th h hnd hth i k rest hk fuel hf
    simp only [Trie.size] at hf
    simp only [Trie.Laid] at h
    by_cases hkc : [k] = byteToString c
    · by_cases hr : rest = []
      · refine ⟨SearchExit.found (n.addr : Int) th, runLoop_exit' _ _ _ _ ?_ (by omega), ?_⟩
        · simp [searchBody, natCast_ne_null, h.1, sliceOne_drop hk, hkc,
            last_iff_of_drop hk, hr, Trie.addr]
        · intro fuelT hT
          have := traverse_to_thread ix n th h.2 (fun a ha' => hth a (by simp [Trie.addrs, ha']))
            [] fuelT (by simp [Trie.size] at hT; omega)
          simpa [traverseAndCollect, Trie.seekBytes, hkc, hr, Trie.elems, Trie.addr] using this
      · obtain ⟨k2, rest2, hr2⟩ : ∃ k2 rest2, rest = k2 :: rest2 := by
          cases rest with
          | nil => exact absurd rfl hr
          | cons a b => exact ⟨a, b, rfl⟩
        obtain ⟨m, rfl⟩ : ∃ m, fuel = m + 1 := ⟨fuel - 1, by omega⟩
        have hk2 : ks.drop (i + 1) = k2 :: rest2 := by rw [drop_succ_of_drop hk, hr2]
        obtain ⟨ex, hex, hok⟩ := ih th h.2 (by simp [Trie.addrs] at hnd; exact hnd.2)
          (fun a ha' => hth a (by simp [Trie.addrs, ha'])) (i + 1) k2 rest2 hk2 m (by omega)
        refine ⟨ex, ?_, ?_⟩
        · rw [runLoop_next _ _ _ ⟨(n.addr : Int), th, i + 1⟩
            (by simp [searchBody, natCast_ne_null, h.1, sliceOne_drop hk,
              hkc, last_iff_of_drop hk, hr, Trie.addr])]
          exact hex
        · cases ex with
          | notFound => simpa [SearchAt, Trie.seekBytes, hkc, hr2] using hok
          | found s e' =>
            intro fuelT hT
            have := hok fuelT (by simp [Trie.size] at hT; omega)
            simpa [Trie.seekBytes, hkc, hr2] using this
    · refine ⟨SearchExit.notFound, runLoop_exit' _ _ _ _ ?_ (by omega), ?_⟩
      · simp [searchBody, natCast_ne_null, h.1, sliceOne_drop hk, hkc,
          Trie.addr]
      · simp [SearchAt, Trie.seekBytes, hkc]
  | D p c l r ihl ihr =>
    intro th h hnd hth i k rest hk fuel hf
    simp only [Trie.size] at hf
    simp only [Trie.Laid] at h
    have hnd' : p ∉ l.addrs ∧ l.addrs.Nodup ∧ r.addrs.Nodup := by
      simp [Trie.addrs, List.nodup_append] at hnd; exact ⟨hnd.1.1, hnd.2.1, hnd.2.2.1⟩
    obtain ⟨m, rfl⟩ : ∃ m, fuel = m + 1 := ⟨fuel - 1, by omega⟩
    by_cases hkc : strLe [k] (byteToString c) = true
    · obtain ⟨ex, hex, hok⟩ := ihl _ h.2.1 hnd'.2.1
        (fun a ha' hc' => hnd'.1 (by have : a = p := by exact_mod_cast hc'
                                     rw [← this]; exact ha')) i k rest hk m (by omega)
      refine ⟨ex, ?_, ?_⟩
      · rw [runLoop_next _ _ _ ⟨(l.addr : Int), (p : Int), i⟩
          (by simp [searchBody, natCast_ne_null, h.1, sliceOne_drop hk,
            hkc, Trie.addr])]
        exact hex
      · cases ex with
        | notFound => simpa [SearchAt, Trie.seekBytes, hkc] using hok
        | found s e' =>
          intro fuelT hT
          have := hok fuelT (by simp [Trie.size] at hT; omega)
          simpa [Trie.seekBytes, hkc] using this
    · obtain ⟨ex, hex, hok⟩ := ihr _ h.2.2 hnd'.2.2
        (fun a ha' => hth a (by simp [Trie.addrs, ha'])) i k rest hk m (by omega)
      refine ⟨ex, ?_, ?_⟩
      · rw [runLoop_next _ _ _ ⟨(r.addr : Int), th, i⟩
          (by simp [searchBody, natCast_ne_null, h.1, sliceOne_drop hk,
            hkc, Trie.addr])]
        exact hex
      · cases ex with
        | notFound => simpa [SearchAt, Trie.seekBytes, hkc] using hok
        | found s e' =>
          intro fuelT hT
          have := hok fuelT (by simp [Trie.size] at hT; omega)
          simpa [Trie.seekBytes, hkc] using this
  | L p c sub ih =>
    intro th h hnd hth i k rest hk fuel hf
    simp only [Trie.size] at hf
    simp only [Trie.Laid] at h
    by_cases hkc : [k] = byteToString c ∧ rest = []
    · refine ⟨SearchExit.found (sub.addr : Int) th, runLoop_exit' _ _ _ _ ?_ (by omega), ?_⟩
      · simp [searchBody, natCast_ne_null, h.1, sliceOne_drop hk, hkc.1,
          last_iff_of_drop hk, hkc.2, Trie.addr]
      · intro fuelT hT
        simp only [Trie.size] at hT
        have hpth : (p : Int) ≠ th := hth p (by simp [Trie.addrs])
        have h0 : runLoop (traverseBody th ix) 2 ⟨right, (p : Int), [] ++ sub.elems⟩
            = some sub.elems := by
          apply runLoop_step _ _ ⟨right, th, sub.elems⟩ _ 1 2
            (by simp [traverseBody, hpth, natCast_ne_null, h.1]) _ (by omega)
          exact runLoop_exit' _ _ _ _ (by simp [traverseBody]) (by omega)
        have h1 := traverse_tree ix th sub (p : Int) h.2
          (fun a ha' => hth a (by simp [Trie.addrs, ha'])) [] 2 _ h0
        have h2 := runLoop_mono _ _ _ _ h1 fuelT (by omega)
        simpa [traverseAndCollect, Trie.seekBytes, hkc] using h2
    · refine ⟨SearchExit.notFound, runLoop_exit' _ _ _ _ ?_ (by omega), ?_⟩
      · by_cases h1 : [k] = byteToString c
        · have h2 : rest ≠ [] := fun h2 => hkc ⟨h1, h2⟩
          simp [searchBody, natCast_ne_null, h.1, sliceOne_drop hk, h1,
            last_iff_of_drop hk, h2, Trie.addr]
        · simp [searchBody, natCast_ne_null, h.1, sliceOne_drop hk, h1,
            Trie.addr]
      · simp [SearchAt, Trie.seekBytes, hkc]
  | K p c sub n ihs ihn =>
    intro th h hnd hth i k rest hk fuel hf
    simp only [Trie.size] at hf
    simp only [Trie.Laid] at h
    have hnd' : n.addrs.Nodup := by
      simp [Trie.addrs, List.nodup_append] at hnd; exact hnd.2.2.1
    by_cases hkc : [k] = byteToString c
    · by_cases hr : rest = []
      · refine ⟨SearchExit.found (sub.addr : Int) th, runLoop_exit' _ _ _ _ ?_ (by omega), ?_⟩
        · simp [searchBody, natCast_ne_null, h.1, sliceOne_drop hk, hkc,
            last_iff_of_drop hk, hr, Trie.addr]
        · intro fuelT hT
          simp only [Trie.size] at hT
          have hpth : (p : Int) ≠ th := hth p (by simp [Trie.addrs])
          have h0 := traverse_to_thread ix n th h.2.2
            (fun a ha' => hth a (by simp [Trie.addrs, ha'])) ([] ++ sub.elems)
            (2 * n.size + 1) (by omega)
          have h0' : runLoop (traverseBody th ix) (2 * n.size + 2)
              ⟨right, (p : Int), [] ++ sub.elems⟩ = some ([] ++ sub.elems ++ n.elems) :=
            runLoop_step _ _ _ _ _ _ (by simp [traverseBody, hpth, natCast_ne_null, h.1]) h0
              (by omega)
          have h1 := traverse_tree ix th sub (p : Int) h.2.1
            (fun a ha' => hth a (by simp [Trie.addrs, ha'])) [] _ _ h0'
          have h2 := runLoop_mono _ _ _ _ h1 fuelT (by omega)
          simpa [traverseAndCollect, Trie.seekBytes, hkc, hr] using h2
      · obtain ⟨k2, rest2, hr2⟩ : ∃ k2 rest2, rest = k2 :: rest2 := by
          cases rest with
          | nil => exact absurd rfl hr
          | cons a b => exact ⟨a, b, rfl⟩
        obtain ⟨m, rfl⟩ : ∃ m, fuel = m + 1 := ⟨fuel - 1, by omega⟩
        have hk2 : ks.drop (i + 1) = k2 :: rest2 := by rw [drop_succ_of_drop hk, hr2]
        obtain ⟨ex, hex, hok⟩ := ihn th h.2.2 hnd'
          (fun a ha' => hth a (by simp [Trie.addrs, ha'])) (i + 1) k2 rest2 hk2 m (by omega)
        refine ⟨ex, ?_, ?_⟩
        · rw [runLoop_next _ _ _ ⟨(n.addr : Int), th, i + 1⟩
            (by simp [searchBody, natCast_ne_null, h.1, sliceOne_drop hk,
              hkc, last_iff_of_drop hk, hr, Trie.addr])]
          exact hex
        · cases ex with
          | notFound => simpa [SearchAt, Trie.seekBytes, hkc, hr2] using hok
          | found s e' =>
            intro fuelT hT
            have := hok fuelT (by simp [Trie.size] at hT; omega)
            simpa [Trie.seekBytes, hkc, hr2] using this
    · refine ⟨SearchExit.notFound, runLoop_exit' _ _ _ _ ?_ (by omega), ?_⟩
      · simp [searchBody, natCast_ne_null, h.1, sliceOne_drop hk, hkc,
          Trie.addr]
      · simp [SearchAt, Trie.seekBytes, hkc]

/-! ## Search with a longer key -/

/-- What `Search` returns is in the tree. -/
theorem Trie.seekBytes_sub : ∀ (t : Trie) (key : List Nat) (x : Int),
    x ∈ t.seekBytes key → x ∈ t.elems := by
  intro t
  induction t with
  | S p c e =>
    intro key x hx
    cases key with
    | nil => simp [Trie.seekBytes] at hx
    | cons k rest =>
      simp only [Trie.seekBytes] at hx
      split_ifs at hx
      · exact hx
      · cases hx
  | R p c e n ih =>
    intro key x hx
    cases key with
    | nil => simp [Trie.seekBytes] at hx
    | cons k rest =>
      simp only [Trie.seekBytes] at hx
      split_ifs at hx
      · exact hx
      · exact List.mem_cons_of_mem _ (ih rest x hx)
      · cases hx
  | X p c n ih =>
    intro key x hx
    cases key with
    | nil => simp [Trie.seekBytes] at hx
    | cons k rest =>
      simp only [Trie.seekBytes] at hx
      split_ifs at hx
      · exact hx
      · exact ih rest x hx
      · cases hx
  | D p c l r ihl ihr =>
    intro key x hx
    cases key with
    | nil => simp [Trie.seekBytes] at hx
    | cons k rest =>
      simp only [Trie.seekBytes] at hx
      simp only [Trie.elems, List.mem_append]
      split_ifs at hx
      · exact Or.inl (ihl _ x hx)
      · exact Or.inr (ihr _ x hx)
  | L p c sub ih =>
    intro key x hx
    cases key with
    | nil => simp [Trie.seekBytes] at hx
    | cons k rest =>
      simp only [Trie.seekBytes] at hx
      split_ifs at hx
      · exact hx
      · cases hx
  | K p c sub n ihs ihn =>
    intro key x hx
    cases key with
    | nil => simp [Trie.seekBytes] at hx
    | cons k rest =>
      simp only [Trie.seekBytes] at hx
      split_ifs at hx
      · exact hx
      · simp only [Trie.elems, List.mem_append]
        exact Or.inr (ihn rest x hx)
      · cases hx

/-- What `Search` returns for a key is returned for every initial segment of
the key that is not empty. -/
theorem Trie.seekBytes_mono : ∀ (t : Trie) (p q : List Nat) (x : Int), p ≠ [] →
    x ∈ t.seekBytes (p ++ q) → x ∈ t.seekBytes p := by
  intro t
  induction t with
  | S p0 c e =>
    intro p q x hp hx
    obtain ⟨k, rest, rfl⟩ := ne_nil_cons hp
    simp only [List.cons_append, Trie.seekBytes, List.append_eq] at hx ⊢
    split_ifs at hx with h1
    · have hr : rest = [] := (List.append_eq_nil.mp h1.2).1
      rw [if_pos ⟨h1.1, hr⟩]
      exact hx
    · cases hx
  | R p0 c e n ih =>
    intro p q x hp hx
    obtain ⟨k, rest, rfl⟩ := ne_nil_cons hp
    simp only [List.cons_append, Trie.seekBytes, List.append_eq] at hx ⊢
    by_cases h1 : [k] = byteToString c
    · rw [if_pos h1] at hx ⊢
      by_cases hr : rest = []
      · rw [if_pos hr]
        subst hr
        by_cases hq : q = []
        · subst hq
          simpa using hx
        · rw [List.nil_append, if_neg hq] at hx
          exact List.mem_cons_of_mem _ (n.seekBytes_sub q x hx)
      · rw [if_neg hr]
        rw [if_neg (fun hc => hr (List.append_eq_nil.mp hc).1)] at hx
        exact ih rest q x hr hx
    · rw [if_neg h1] at hx
      cases hx
  | X p0 c n ih =>
    intro p q x hp hx
    obtain ⟨k, rest, rfl⟩ := ne_nil_cons hp
    simp only [List.cons_append, Trie.seekBytes, List.append_eq] at hx ⊢
    by_cases h1 : [k] = byteToString c
    · rw [if_pos h1] at hx ⊢
      by_cases hr : rest = []
      · rw [if_pos hr]
        subst hr
        by_cases hq : q = []
        · subst hq
          simpa using hx
        · rw [List.nil_append, if_neg hq] at hx
          exact n.seekBytes_sub q x hx
      · rw [if_neg hr]
        rw [if_neg (fun hc => hr (List.append_eq_nil.mp hc).1)] at hx
        exact ih rest q x hr hx
    · rw [if_neg h1] at hx
      cases hx
  | D p0 c l r ihl ihr =>
    intro p q x hp hx
    obtain ⟨k, rest, rfl⟩ := ne_nil_cons hp
    simp only [List.cons_append, Trie.seekBytes, List.append_eq] at hx ⊢
    by_cases h1 : strLe [k] (byteToString c) = true
    · rw [if_pos h1] at hx ⊢
      exact ihl (k :: rest) q x (List.cons_ne_nil _ _) hx
    · rw [if_neg h1] at hx ⊢
      exact ihr (k :: rest) q x (List.cons_ne_nil _ _) hx
  | L p0 c sub ih =>
    intro p q x hp hx
    obtain ⟨k, rest, rfl⟩ := ne_nil_cons hp
    simp only [List.cons_append, Trie.seekBytes, List.append_eq] at hx ⊢
    split_ifs at hx with h1
    · have hr : rest = [] := (List.append_eq_nil.mp h1.2).1
      rw [if_pos ⟨h1.1, hr⟩]
      exact hx
    · cases hx
  | K p0 c sub n ihs ihn =>
    intro p q x hp hx
    obtain ⟨k, rest, rfl⟩ := ne_nil_cons hp
    simp only [List.cons_append, Trie.seekBytes, List.append_eq] at hx ⊢
    by_cases h1 : [k] = byteToString c
    · rw [if_pos h1] at hx ⊢
      by_cases hr : rest = []
      · rw [if_pos hr]
        subst hr
        by_cases hq : q = []
        · subst hq
          simpa using hx
        · rw [List.nil_append, if_neg hq] at hx
          exact List.mem_append_right _ (n.seekBytes_sub q x hx)
      · rw [if_neg hr]
        rw [if_neg (fun hc => hr (List.append_eq_nil.mp hc).1)] at hx
        exact ihn rest q x hr hx
    · rw [if_neg h1] at hx
      cases hx

theorem seekOf_mono (oT : Option Trie) (p q : List Nat) (x : Int) (hp : p ≠ [])
    (hx : x ∈ seekOf oT (p ++ q)) : x ∈ seekOf oT p := by
  cases oT with
  | none => exact hx
  | some T => exact T.seekBytes_mono p q x hp hx

theorem seekOf_nil (oT : Option Trie) : seekOf oT [] = [] := by
  cases oT with
  | none => rfl
  | some T => cases T <;> rfl

/-- The result of `Search` on an index that holds a tree of any shape, with
key bytes of any value, or none: for every key `Search` returns, on enough
fuel, the elements read off the tree. -/
theorem search_holds (ix : Index) (oT : Option Trie) (k : List Nat) (h : Holds ix oT) :
    ∃ N, ∀ f, N ≤ f → Search f k ix =
      some (decide ((seekOf oT (validate k).1).length > 0), seekOf oT (validate k).1) := by
  by_cases hnil : (validate k).1 = []
  · refine ⟨0, fun f _ => ?_⟩
    have hv : (validate k).2 = 0 := by rw [validate_snd, hnil]; rfl
    rw [hnil, seekOf_nil]
    unfold Search
    rcases hval : validate k with ⟨ks, kl⟩
    rw [hval] at hv
    simp only at hv ⊢
    rw [if_pos hv]
    rfl
  have hlen : (validate k).2 ≠ 0 := by
    rw [validate_snd]
    exact fun hc => hnil (List.length_eq_zero.mp hc)
  have hcode : ∀ f, Search f k ix =
      match runLoop (searchBody (validate k).1 (validate k).1.length ix) f
        ⟨ix.indexRootPointer, nullIndexPointer, 0⟩ with
      | none => none
      | some SearchExit.notFound => some (false, [])
      | some (SearchExit.found startPointer endPointer) =>
        match traverseAndCollect f startPointer endPointer ix with
        | none => none
        | some results => some (decide (results.length > 0), results) := by
    intro f
    unfold Search
    rcases hval : validate k with ⟨ks, kl⟩
    have hkl : kl = ks.length := by
      have := validate_snd k
      rw [hval] at this; exact this
    rw [hval] at hlen
    simp only at hlen ⊢
    rw [if_neg hlen]
    subst hkl
    generalize runLoop (searchBody ks ks.length ix) f
      ⟨ix.indexRootPointer, nullIndexPointer, 0⟩ = r
    cases r with
    | none => rfl
    | some res => cases res <;> rfl
  cases oT with
  | none =>
    refine ⟨1, fun f hf => ?_⟩
    obtain ⟨m, rfl⟩ : ∃ m, f = m + 1 := ⟨f - 1, by omega⟩
    have hroot : ix.indexRootPointer = nullIndexPointer := h
    rw [hcode]
    simp [runLoop, searchBody, hroot, seekOf]
  | some T =>
    obtain ⟨hroot, hlaid, hnd⟩ := h
    obtain ⟨k0, rest, hk⟩ := ne_nil_cons hnil
    refine ⟨2 * T.size + 2, fun f hf => ?_⟩
    rw [hcode, hroot]
    obtain ⟨ex, hrun, hok⟩ := search_bytes ix (validate k).1 T (-1) hlaid hnd
      (fun a _ => natCast_ne_null a) 0 k0 rest
      (by rw [List.drop_zero]; exact hk) f (by omega)
    have hrun' : runLoop (searchBody (validate k).1 (validate k).1.length ix) f
        ⟨(T.addr : Int), nullIndexPointer, 0⟩ = some ex := hrun
    rw [hrun']
    rw [← hk] at hok
    cases ex with
    | notFound =>
      simp only [SearchAt] at hok
      simp only [seekOf, hok]
      rfl
    | found s e =>
      simp only [SearchAt] at hok
      simp only [seekOf, hok f hf]

/-! ## The read operations as transitions of the index

`Select`, `Search`, `Scan`, `Count` and `Statistics` receive the index by a
pointer.  Here they are embedded a second time, with explicit state passing:
every function and every pass of a loop takes the index, with its mutex, and
hands it on, as a call through the pointer can write to it.  The only writes
of the source are `indexMutex.Lock()` and the deferred
`indexMutex.Unlock()`; `Statistics` has neither. -/

/-! ## The state-passing read operations and the functions of the index -/

/-- A loop whose passes hand the index on as they got it returns the index it
was given, with the result of the loop on that index. -/
theorem runLoop_passing {σ ρ : Type} (g : Guarded) (body : σ → Option (LoopStep σ ρ))
    (bodyS : Guarded × σ → Option (LoopStep (Guarded × σ) (ρ × Guarded)))
    (h : ∀ st, bodyS (g, st) =
      (body st).map (LoopStep.withIndex g)) :
    ∀ (fuel : Nat) (st : σ), runLoop bodyS fuel (g, st) =
      (runLoop body fuel st).map (fun r => (r, g)) := by
  intro fuel
  induction fuel with
  | zero => intro st; rfl
  | succ n ih =>
    intro st
    have hs := h st
    cases hb : body st with
    | none =>
      rw [hb] at hs
      simp only [runLoop, hb, hs, Option.map_none']
    | some x =>
      rw [hb] at hs
      cases x with
      | next st' =>
        rw [runLoop_next bodyS n _ _ hs, runLoop_next body n _ _ hb]
        exact ih st'
      | exit r =>
        rw [runLoop_exit bodyS n _ _ hs, runLoop_exit body n _ _ hb]
        rfl

theorem run_traverseBody (endPointer : Int) (g : Guarded) (st : TraverseState) :
    Run.traverseBody endPointer (g, st) =
      (traverseBody endPointer g.index st).map (LoopStep.withIndex g) := by
  unfold Run.traverseBody traverseBody
  simp only
  by_cases h1 : st.indexPointer ≠ endPointer ∧ st.indexPointer ≠ nullIndexPointer
  · rw [if_pos h1, if_pos h1]
    cases getNode g.index.node st.indexPointer with
    | none => rfl
    | some nd =>
      simp only
      split_ifs <;> rfl
  · rw [if_neg h1, if_neg h1]
    rfl

theorem run_traverse (fuel : Nat) (a b : Int) (g : Guarded) :
    Run.traverseAndCollect fuel a b g =
      (traverseAndCollect fuel a b g.index).map (fun r => (r, g)) :=
  runLoop_passing g (traverseBody b g.index) (Run.traverseBody b)
    (run_traverseBody b g) fuel _

theorem run_searchBody (ks : List Nat) (kl : Nat) (g : Guarded) (st : SearchState) :
    Run.searchBody ks kl (g, st) =
      (searchBody ks kl g.index st).map (LoopStep.withIndex g) := by
  unfold Run.searchBody searchBody
  simp only
  by_cases h1 : st.indexPointer = nullIndexPointer
  · rw [if_pos h1, if_pos h1]
    rfl
  · rw [if_neg h1, if_neg h1]
    cases getNode g.index.node st.indexPointer with
    | none => rfl
    | some nd =>
      simp only
      cases sliceOne ks st.i with
      | none => split_ifs <;> rfl
      | some k =>
        simp only
        split_ifs <;> rfl

set_option maxHeartbeats 1000000 in

theorem run_selectBody (fuel : Nat) (ks : List Nat) (kl : Nat) (g : Guarded)
    (st : SelectState) :
    Run.selectBody fuel ks kl (g, st) =
      (selectBody fuel ks kl g.index st).map (LoopStep.withIndex g) := by
  unfold Run.selectBody selectBody
  simp only
  by_cases h1 : st.indexPointer = nullIndexPointer
  · rw [if_pos h1, if_pos h1]
    rfl
  · rw [if_neg h1, if_neg h1]
    cases getNode g.index.node st.indexPointer with
    | none => rfl
    | some nd =>
      simp only
      rw [run_traverse]
      cases traverseAndCollect fuel nd.leftPointer st.indexPointer g.index with
      | none =>
        cases sliceOne ks st.i with
        | none => split_ifs <;> rfl
        | some k =>
          simp only
          split_ifs <;> rfl
      | some res =>
        cases sliceOne ks st.i with
        | none => split_ifs <;> rfl
        | some k =>
          simp only
          split_ifs <;> rfl

set_option maxHeartbeats 1000000 in

theorem run_statsBody (g : Guarded) (st : StatState) :
    Run.statsBody (g, st) =
      (statsBody g.index st).map (LoopStep.withIndex g) := by
  unfold Run.statsBody statsBody
  simp only
  by_cases h1 : st.indexPointer = nullIndexPointer
  · rw [if_pos h1, if_pos h1]
    rfl
  · rw [if_neg h1, if_neg h1]
    cases getNode g.index.node st.indexPointer with
    | none => rfl
    | some nd =>
      simp only
      cases resetStack (pushStack st.stack st.indexPointer st.stackPointer).1 nd.rightPointer
          (pushStack st.stack st.indexPointer st.stackPointer).2 with
      | none =>
        cases resetStack st.stack nd.rightPointer st.stackPointer with
        | none => split_ifs <;> rfl
        | some sp => split_ifs <;> rfl
      | some sp1 =>
        cases resetStack st.stack nd.rightPointer st.stackPointer with
        | none => split_ifs <;> rfl
        | some sp => split_ifs <;> rfl

theorem run_deletedBody (g : Guarded) (st : Int × Int) :
    Run.deletedBody (g, st) =
      (deletedBody g.index st).map (LoopStep.withIndex g) := by
  unfold Run.deletedBody deletedBody
  simp only
  by_cases h1 : st.1 ≠ nullIndexPointer
  · rw [if_pos h1, if_pos h1]
    cases getNode g.index.node st.1 <;> rfl
  · rw [if_neg h1, if_neg h1]
    rfl

/-! ## What the state-passing read operations return -/

/-- `Scan` on a locked mutex does not return; on a free mutex it returns the
result of `Scan` on the index, with the index and the mutex as they were. -/
theorem run_Scan (fuel : Nat) (g : Guarded) :
    Run.Scan fuel g =
      if g.held = true then none else (Scan fuel g.index).map (fun r => (r, g)) := by
  obtain ⟨ix, held⟩ := g
  cases held with
  | true => rfl
  | false =>
    simp only [Run.Scan, lockMutex, Bool.false_eq_true, if_false, run_traverse, Scan]
    cases traverseAndCollect fuel ix.indexRootPointer nullIndexPointer ix with
    | none => rfl
    | some res => rfl

/-- `Search` on a locked mutex does not return; on a free mutex it returns
the result of `Search` on the index, with the index and the mutex as they
were. -/
theorem run_Search (fuel : Nat) (k : List Nat) (g : Guarded) :
    Run.Search fuel k g =
      if g.held = true then none else (Search fuel k g.index).map (fun r => (r, g)) := by
  obtain ⟨ix, held⟩ := g
  cases held with
  | true => rfl
  | false =>
    simp only [Run.Search, lockMutex, Bool.false_eq_true, if_false, Search]
    rcases validate k with ⟨ks, kl⟩
    simp only
    by_cases h0 : kl = 0
    · rw [if_pos h0, if_pos h0]
      rfl
    · rw [if_neg h0, if_neg h0]
      rw [runLoop_passing ⟨ix, true⟩ (searchBody ks kl ix) (Run.searchBody ks kl)
        (run_searchBody ks kl ⟨ix, true⟩)]
      cases runLoop (searchBody ks kl ix) fuel ⟨ix.indexRootPointer, nullIndexPointer, 0⟩ with
      | none => rfl
      | some ex =>
        cases ex with
        | notFound => rfl
        | found a b =>
          simp only [Option.map_some', run_traverse]
          cases traverseAndCollect fuel a b ix with
          | none => rfl
          | some res => rfl

/-- `Select` on a locked mutex does not return; on a free mutex it returns
the result of `Select` on the index, with the index and the mutex as they
were. -/
theorem run_Select (fuel : Nat) (k : List Nat) (g : Guarded) :
    Run.Select fuel k g =
      if g.held = true then none else (Select fuel k g.index).map (fun r => (r, g)) := by
  obtain ⟨ix, held⟩ := g
  cases held with
  | true => rfl
  | false =>
    simp only [Run.Select, lockMutex, Bool.false_eq_true, if_false, Select]
    rcases validate k with ⟨ks, kl⟩
    simp only
    by_cases h0 : kl = 0
    · rw [if_pos h0, if_pos h0]
      rfl
    · rw [if_neg h0, if_neg h0]
      rw [runLoop_passing ⟨ix, true⟩ (selectBody fuel ks kl ix) (Run.selectBody fuel ks kl)
        (run_selectBody fuel ks kl ⟨ix, true⟩)]
      cases runLoop (selectBody fuel ks kl ix) fuel ⟨ix.indexRootPointer, 0⟩ with
      | none => rfl
      | some r => rfl

/-- `Count` on a locked mutex does not return; on a free mutex it returns the
key count, with the index and the mutex as they were. -/
theorem run_Count (g : Guarded) :
    Run.Count g = if g.held = true then none else some (Count g.index, g) := by
  obtain ⟨ix, held⟩ := g
  cases held <;> rfl

/-- `Statistics` returns the result of `Statistics` on the index, with the
index and the mutex as they were, whether the mutex is locked or not. -/
theorem run_Statistics (fuel : Nat) (g : Guarded) :
    Run.Statistics fuel g = (Statistics fuel g.index).map (fun r => (r, g)) := by
  simp only [Run.Statistics, Statistics]
  rw [runLoop_passing g (statsBody g.index) Run.statsBody (run_statsBody g)]
  cases runLoop (statsBody g.index) fuel ⟨[], 0, left, ⟨0, 0, 0, 0, 0, 0, 0, 0, 0⟩,
      g.index.indexRootPointer⟩ with
  | none => rfl
  | some st =>
    simp only [Option.map_some']
    rw [runLoop_passing g (deletedBody g.index) Run.deletedBody (run_deletedBody g)]
    cases runLoop (deletedBody g.index) fuel
        (g.index.deletedRootPointer, (statsTotals st).Deleted) with
    | none => rfl
    | some d => rfl

/-- An operation that returns the result of a function of the index, with
the index it was given, unless the mutex stops it: a run that returns leaves
the index as it was, and a second run right after it returns the same. -/
theorem reads_twice {α : Type} (op : Nat → Guarded → Option (α × Guarded))
    (f : Nat → Index → Option α) (c : Guarded → Bool)
    (href : ∀ fuel g, op fuel g =
      if c g = true then none else (f fuel g.index).map (fun r => (r, g)))
    (hmono : ∀ n n' s r, n ≤ n' → f n s = some r → f n' s = some r)
    (g : Guarded) (fuel : Nat) (r : α) (g1 : Guarded) (h : op fuel g = some (r, g1)) :
    g1 = g ∧ (∀ fuel', fuel ≤ fuel' → op fuel' g1 = some (r, g1)) ∧
      ∀ fuel' r2 g2, op fuel' g1 = some (r2, g2) → r2 = r ∧ g2 = g1 := by
  rw [href] at h
  by_cases hc : c g = true
  · rw [if_pos hc] at h
    cases h
  rw [if_neg hc] at h
  simp only [Option.map_eq_some', Prod.mk.injEq] at h
  obtain ⟨a, ha, rfl, rfl⟩ := h
  refine ⟨rfl, fun fuel' hf => ?_, fun fuel' r2 g2 h2 => ?_⟩
  · rw [href, if_neg hc, hmono fuel fuel' _ _ hf ha]
    rfl
  · rw [href, if_neg hc] at h2
    simp only [Option.map_eq_some', Prod.mk.injEq] at h2
    obtain ⟨b, hb, rfl, rfl⟩ := h2
    have e1 := hmono fuel (max fuel fuel') _ _ (le_max_left _ _) ha
    have e2 := hmono fuel' (max fuel fuel') _ _ (le_max_right _ _) hb
    rw [e1] at e2
    injection e2 with e2
    exact ⟨e2.symm, rfl⟩

/-! ## Sample indexes -/

theorem reach_sampleOne : Reach sampleOne sampleOneLog :=
  Reach.insert 4 [97] 1 true _ _ [] Reach.init (by decide) (by decide)

set_option maxRecDepth 100000 in

theorem reach_sampleCat : Reach sampleCat sampleCatLog :=
  Reach.insert 10 [67, 65, 84, 84, 76, 69] 2 true
    ⟨2, [⟨83, 1, 84, -1⟩, ⟨88, -1, 65, 0⟩, ⟨88, -1, 67, 1⟩], -1, 1⟩ _ _
    (Reach.insert 10 [67, 65, 84] 1 true _ _ [] Reach.init (by decide) (by decide))
    (by decide) (by decide)

/-! ## The claims -/

/-- What `Select` returns on a reachable index. -/
theorem select_reach (s : Index) (log : List Call) (k : List Nat) (hr : Reach s log) :
    ∃ L : List Int, (∃ N, ∀ fuel, N ≤ fuel → Select fuel k s = some (decide (L ≠ []), L)) ∧
      L.Nodup ∧ (∀ e : Int, e ∈ L ↔ (normalize k, e) ∈ stored log) ∧
      ∀ (k' : List Nat) (fuel : Nat), normalize k' = normalize k →
        Select fuel k' s = Select fuel k s := by
  obtain ⟨es, hperm, hsorted, _, _, hsel, _⟩ := good_queries s _ (reach_good hr)
  exact ⟨underKey es (normalize k), hsel k,
    underKey_nodup es _ (pairwise_pairLt_nodup hsorted),
    fun e => (mem_underKey es _ e).trans hperm.mem_iff,
    fun k' fuel h => Select_congr fuel k k' s h⟩

/-- Claim C1: on every index obtained from a fresh one by `Insert` and `Delete`
calls with ASCII keys, `Select(k)` returns the list `L` of the elements `e`
such that the pair (normalized `k`, `e`) was inserted successfully and not
deleted afterwards, each exactly once; the success flag is true exactly when
`L` is not empty; a key with the same normalized form gives the same result.
Elements are arbitrary integers; the key `k` need not even be ASCII. -/
theorem C1_select_stored (s : Index) (log : List Call) (k : List Nat) (hr : Reach s log) :
    ∃ L : List Int, (∃ N, ∀ fuel, N ≤ fuel → Select fuel k s = some (decide (L ≠ []), L)) ∧
      L.Nodup ∧ (∀ e : Int, e ∈ L ↔ (normalize k, e) ∈ stored log) ∧
      ∀ (k' : List Nat) (fuel : Nat), normalize k' = normalize k →
        Select fuel k' s = Select fuel k s := by
  obtain ⟨es, hperm, hsorted, _, _, hsel, _⟩ := good_queries s _ (reach_good hr)
  refine ⟨underKey es (normalize k), hsel k, ?_, ?_, ?_⟩
  · exact underKey_nodup es _ (pairwise_pairLt_nodup hsorted)
  · intro e
    exact (mem_underKey es _ e).trans hperm.mem_iff
  · intro k' fuel h
    exact Select_congr fuel k k' s h

/-- Witness of C1 on the index that holds the pairs ("CAT", 1) and ("CATTLE", 2). -/
theorem C1_select_stored_witness :
    Reach sampleCat sampleCatLog ∧
    ∃ L : List Int, (∃ N, ∀ fuel, N ≤ fuel →
        Select fuel [67, 65, 84] sampleCat = some (decide (L ≠ []), L)) ∧
      L.Nodup ∧ (∀ e : Int, e ∈ L ↔ (normalize [67, 65, 84], e) ∈ stored sampleCatLog) ∧
      ∀ (k' : List Nat) (fuel : Nat), normalize k' = normalize [67, 65, 84] →
        Select fuel k' sampleCat = Select fuel [67, 65, 84] sampleCat :=
  ⟨reach_sampleCat, C1_select_stored sampleCat sampleCatLog [67, 65, 84] reach_sampleCat⟩

/-- Claim C2: on every index obtained from a fresh one by `Insert` and `Delete`
calls with ASCII keys, `Count` is the number of stored pairs, no pair is
stored twice, and that number is the number of successful `Insert` calls less
the number of successful `Delete` calls. -/
theorem C2_count_stored (s : Index) (log : List Call) (hr : Reach s log) :
    Count s = ((stored log).length : Int) ∧ (stored log).Nodup ∧
      (stored log).length + deletedCount log = insertedCount log := by
  have hg := reach_good hr
  refine ⟨?_, hg.nodup_stored, reach_count hr⟩
  obtain ⟨_, _, _, _, hc⟩ := hg
  exact hc

/-- Witness of C2 on the index that holds the pairs ("CAT", 1) and ("CATTLE", 2). -/
theorem C2_count_stored_witness :
    Reach sampleCat sampleCatLog ∧ Count sampleCat = ((stored sampleCatLog).length : Int) ∧
      (stored sampleCatLog).Nodup ∧
      (stored sampleCatLog).length + deletedCount sampleCatLog = insertedCount sampleCatLog :=
  ⟨reach_sampleCat, C2_count_stored sampleCat sampleCatLog reach_sampleCat⟩

/-- Claim C5: on every index obtained from a fresh one by `Insert` and `Delete`
calls with ASCII keys, `Scan` returns the elements of a list `es` of all the
stored pairs, each pair once, in strictly ascending order: by key, byte-wise
lexicographic with a proper initial segment first, and under one key by the
decimal renderings of the elements.  The success flag is true exactly when
the list is not empty. -/
theorem C5_scan_ordered (s : Index) (log : List Call) (hr : Reach s log) :
    ∃ es : List (List Nat × Int), es.Perm (stored log) ∧ es.Pairwise pairLt ∧
      ∃ N, ∀ fuel, N ≤ fuel →
        Scan fuel s = some (decide (es.map Prod.snd ≠ []), es.map Prod.snd) := by
  obtain ⟨es, hperm, hsorted, _, hscan, _, _⟩ := good_queries s _ (reach_good hr)
  exact ⟨es, hperm, hsorted, hscan⟩

/-- Witness of C5 on the index that holds the pairs ("CAT", 1) and ("CATTLE", 2). -/
theorem C5_scan_ordered_witness :
    Reach sampleCat sampleCatLog ∧
    ∃ es : List (List Nat × Int), es.Perm (stored sampleCatLog) ∧ es.Pairwise pairLt ∧
      ∃ N, ∀ fuel, N ≤ fuel →
        Scan fuel sampleCat = some (decide (es.map Prod.snd ≠ []), es.map Prod.snd) :=
  ⟨reach_sampleCat, C5_scan_ordered sampleCat sampleCatLog reach_sampleCat⟩

/-- Claim C6: on every index obtained from a fresh one by `Insert` and `Delete`
calls with ASCII keys, for a string `p` whose normalized form `q` is not
empty, `Search(p)` returns the elements of exactly the stored pairs whose key
starts with `q`, each pair once, in the order in which `Scan` returns them:
with `es` the list of the stored pairs in the order of `Scan`, the result is
the list of the elements of the pairs of `es` whose key starts with `q`. -/
theorem C6_search_start (s : Index) (log : List Call) (p : List Nat) (hr : Reach s log)
    (hq : normalize p ≠ []) :
    ∃ es : List (List Nat × Int), es.Perm (stored log) ∧ es.Nodup ∧
      ∃ N, ∀ fuel, N ≤ fuel →
        Scan fuel s = some (decide (es.map Prod.snd ≠ []), es.map Prod.snd) ∧
        Search fuel p s =
          some (decide ((es.filter (fun x => (normalize p).isPrefixOf x.1)).map Prod.snd ≠ []),
            (es.filter (fun x => (normalize p).isPrefixOf x.1)).map Prod.snd) := by
  obtain ⟨es, hperm, hsorted, _, ⟨N1, hscan⟩, _, hsearch⟩ := good_queries s _ (reach_good hr)
  obtain ⟨N2, hs⟩ := hsearch p hq
  exact ⟨es, hperm, pairwise_pairLt_nodup hsorted, max N1 N2, fun fuel hf =>
    ⟨hscan fuel (le_trans (le_max_left _ _) hf), hs fuel (le_trans (le_max_right _ _) hf)⟩⟩

set_option maxRecDepth 100000 in

/-- Witness of C6: after `Insert("CAT", 1)` and `Insert("CATTLE", 2)` the call
`Search("CAT")` returns the elements 1 and 2. -/
theorem C6_search_start_witness :
    (Reach sampleCat sampleCatLog ∧ normalize [67, 65, 84] ≠ [] ∧
      Search 20 [67, 65, 84] sampleCat = some (true, [1, 2])) ∧
    ∃ es : List (List Nat × Int), es.Perm (stored sampleCatLog) ∧ es.Nodup ∧
      ∃ N, ∀ fuel, N ≤ fuel →
        Scan fuel sampleCat = some (decide (es.map Prod.snd ≠ []), es.map Prod.snd) ∧
        Search fuel [67, 65, 84] sampleCat =
          some (decide ((es.filter
              (fun x => (normalize [67, 65, 84]).isPrefixOf x.1)).map Prod.snd ≠ []),
            (es.filter (fun x => (normalize [67, 65, 84]).isPrefixOf x.1)).map Prod.snd) :=
  ⟨⟨reach_sampleCat, by decide, by decide⟩,
    C6_search_start sampleCat sampleCatLog [67, 65, 84] reach_sampleCat (by decide)⟩

/-- Claim C3 fails as stated: the key `" "` is a non-empty ASCII key, and
`Insert(" ", 1)` on a fresh index returns false (on every fuel) and leaves
the index as it was: the normalized form of the key is empty. -/
theorem C3_blank_key_counterexample :
    AsciiKey [32] ∧ ([32] : List Nat) ≠ [] ∧
      ∀ fuel, Insert fuel [32] 1 (Initialise zeroIndex) = some (false, Initialise zeroIndex) :=
  ⟨by decide, by decide, fun _ => rfl⟩

/-- Claim C3, amended: for ASCII keys whose normalized forms are not empty and
pairs that are distinct after normalization, inserting the pairs `ps` in
their order into a fresh index and then deleting them in any order `qs`:
every `Insert` and every `Delete` returns true, and afterwards `Count` is 0,
`Scan` returns (false, empty list) and the root pointer is null. -/
theorem C3_round_trip (ps qs : List (List Nat × Int))
    (hasc : ∀ p ∈ ps, AsciiKey p.1) (hne : ∀ p ∈ ps, normalize p.1 ≠ [])
    (hnd : (ps.map normPair).Nodup) (hperm : qs.Perm ps) :
    ∃ (s1 s2 : Index) (N : Nat), ∀ fuel, N ≤ fuel →
      insertAll fuel ps (Initialise zeroIndex) = some (List.replicate ps.length true, s1) ∧
      deleteAll fuel qs s1 = some (List.replicate qs.length true, s2) ∧
      Count s2 = 0 ∧ Scan fuel s2 = some (false, []) ∧
      s2.indexRootPointer = nullIndexPointer := by
  obtain ⟨N1, s1, hins, hg1⟩ := insertAll_good ps (Initialise zeroIndex) [] good_init
    (fun p hp => ⟨hasc p hp, hne p hp⟩) (by simpa using hnd)
  obtain ⟨N2, s2, hdel, hg2⟩ := deleteAll_good qs s1 _ hg1
    (fun q hq => hasc q (hperm.mem_iff.mp hq))
    (by
      rw [List.append_nil]
      exact (hperm.map normPair).trans (List.reverse_perm _).symm)
  obtain ⟨es, hes, _, hroot, ⟨N3, hscan⟩, _, _⟩ := good_queries s2 [] hg2
  have hnil : es = [] := by simpa using hes
  subst hnil
  refine ⟨s1, s2, max N1 (max N2 N3), fun fuel hf => ⟨hins fuel (by omega), hdel fuel (by omega),
    ?_, ?_, hroot rfl⟩⟩
  · obtain ⟨_, _, _, _, hc⟩ := hg2
    exact hc
  · rw [hscan fuel (by omega)]; rfl

set_option maxRecDepth 100000 in

/-- Witness of the amended C3: the pairs ("CAT", 1) and ("CATTLE", 2), deleted
in the other order. -/
theorem C3_round_trip_witness :
    ∃ (s1 s2 : Index) (N : Nat), ∀ fuel, N ≤ fuel →
      insertAll fuel [([67, 65, 84], 1), ([67, 65, 84, 84, 76, 69], 2)]
        (Initialise zeroIndex) = some (List.replicate 2 true, s1) ∧
      deleteAll fuel [([67, 65, 84, 84, 76, 69], 2), ([67, 65, 84], 1)] s1 =
        some (List.replicate 2 true, s2) ∧
      Count s2 = 0 ∧ Scan fuel s2 = some (false, []) ∧
      s2.indexRootPointer = nullIndexPointer :=
  C3_round_trip [([67, 65, 84], 1), ([67, 65, 84, 84, 76, 69], 2)]
    [([67, 65, 84, 84, 76, 69], 2), ([67, 65, 84], 1)] (by decide) (by decide) (by decide)
    (List.Perm.swap _ _ _)

set_option maxRecDepth 100000 in

/-- Claim C4 fails on the code for a key with a byte above 0x7f: on a fresh
index `Insert("\x80", 1)` returns true, and a second `Insert("\x80", 1)`
returns true again; `Count` goes from 1 to 2 and `Scan` lists the element
twice. -/
theorem C4_insert_twice_high_byte :
    ∃ s1 s2, Insert 4 [128] 1 (Initialise zeroIndex) = some (true, s1) ∧
      Insert 4 [128] 1 s1 = some (true, s2) ∧ Count s1 = 1 ∧ Count s2 = 2 ∧
      Scan 8 s1 = some (true, [1]) ∧ Scan 8 s2 = some (true, [1, 1]) ∧
      normalize [128] = [128] := by
  refine ⟨⟨0, [⟨83, 1, 128, -1⟩], -1, 1⟩,
    ⟨1, [⟨83, 1, 128, -1⟩, ⟨68, 2, 128, 0⟩, ⟨83, 1, 128, 1⟩], -1, 2⟩,
    ?_, ?_, ?_, ?_, ?_, ?_, ?_⟩ <;> decide

/-- Claim C9: on every index obtained from a fresh one by `Insert` and `Delete`
calls with ASCII keys, for an ASCII key `k` and an element `e`, the call
`Delete(k, e)` returns: there is one result `(b, s')` of all the runs that
return, and it is the result on enough fuel; `b` is true exactly when the
pair (normalized `k`, `e`) is stored; on success the key count goes down by
one and the pair is no longer stored, and on failure the index is
unchanged. -/
theorem C9_delete_iff (s : Index) (log : List Call) (k : List Nat) (e : Int)
    (hr : Reach s log) (hk : AsciiKey k) :
    ∃ (b : Bool) (s' : Index), (∃ N, ∀ fuel, N ≤ fuel → Delete fuel k e s = some (b, s')) ∧
      (∀ fuel out, Delete fuel k e s = some out → out = (b, s')) ∧
      (b = true ↔ (normalize k, e) ∈ stored log) ∧
      (b = true → Count s' = Count s - 1 ∧
        (normalize k, e) ∉ stored (⟨false, k, e, b⟩ :: log)) ∧
      (b = false → s' = s) ∧ Reach s' (⟨false, k, e, b⟩ :: log) := by
  obtain ⟨N, out, hrun, hout⟩ := delete_good s _ k e (reach_good hr) hk
  have huniq : ∀ fuel out', Delete fuel k e s = some out' → out' = out := by
    intro fuel out' h
    have h1 := Delete_mono fuel (max fuel N) k e s _ (le_max_left _ _) h
    rw [hrun _ (le_max_right _ _)] at h1
    injection h1 with h1
    exact h1.symm
  have hreach : Reach out.2 (⟨false, k, e, out.1⟩ :: log) :=
    Reach.delete N k e out.1 s out.2 log hr hk (hrun N (le_refl _))
  rcases hout with ⟨h1, h2⟩ | ⟨h2, ix', h1, _, h4⟩
  · subst h1
    exact ⟨false, s, ⟨N, hrun⟩, huniq, by simp [h2], by simp, fun _ => rfl, hreach⟩
  · subst h1
    refine ⟨true, ix', ⟨N, hrun⟩, huniq, by simp [h2], fun _ => ⟨h4, ?_⟩, by simp, hreach⟩
    simp [stored, removePair]

set_option maxRecDepth 100000 in

/-- Witness of C9: `Delete("CAT", 1)` on the index that holds the pairs
("CAT", 1) and ("CATTLE", 2). -/
theorem C9_delete_iff_witness :
    (Reach sampleCat sampleCatLog ∧ AsciiKey [67, 65, 84]) ∧
    ∃ (b : Bool) (s' : Index),
      (∃ N, ∀ fuel, N ≤ fuel → Delete fuel [67, 65, 84] 1 sampleCat = some (b, s')) ∧
      (∀ fuel out, Delete fuel [67, 65, 84] 1 sampleCat = some out → out = (b, s')) ∧
      (b = true ↔ (normalize [67, 65, 84], 1) ∈ stored sampleCatLog) ∧
      (b = true → Count s' = Count sampleCat - 1 ∧
        (normalize [67, 65, 84], 1) ∉ stored (⟨false, [67, 65, 84], 1, b⟩ :: sampleCatLog)) ∧
      (b = false → s' = sampleCat) ∧
      Reach s' (⟨false, [67, 65, 84], 1, b⟩ :: sampleCatLog) :=
  ⟨⟨reach_sampleCat, by decide⟩,
    C9_delete_iff sampleCat sampleCatLog [67, 65, 84] 1 reach_sampleCat (by decide)⟩

/-- Claim C10: on every index obtained from a fresh one by `Insert` and
`Delete` calls with ASCII keys, for an ASCII key `k` and an element `e`, the
call `Insert(k, e)` returns: there is one result `(b, s')` of all the runs
that return, and it is the result on enough fuel; `b` is true exactly when
the normalized form of `k` is not empty and the pair (normalized `k`, `e`) is
not stored; on success the key count goes up by one, and every pair stored
before is stored afterwards and is returned by `Select` on the new index; on
failure the index is unchanged. -/
theorem C10_insert_iff (s : Index) (log : List Call) (k : List Nat) (e : Int)
    (hr : Reach s log) (hk : AsciiKey k) :
    ∃ (b : Bool) (s' : Index), (∃ N, ∀ fuel, N ≤ fuel → Insert fuel k e s = some (b, s')) ∧
      (∀ fuel out, Insert fuel k e s = some out → out = (b, s')) ∧
      (b = true ↔ normalize k ≠ [] ∧ (normalize k, e) ∉ stored log) ∧
      (b = true → Count s' = Count s + 1 ∧
        (∀ x ∈ stored log, x ∈ stored (⟨true, k, e, b⟩ :: log)) ∧
        ∀ (k1 : List Nat) (e1 : Int), (normalize k1, e1) ∈ stored log →
          ∃ L : List Int, e1 ∈ L ∧ ∃ N, ∀ fuel, N ≤ fuel →
            Select fuel k1 s' = some (true, L)) ∧
      (b = false → s' = s) ∧ Reach s' (⟨true, k, e, b⟩ :: log) := by
  obtain ⟨N, out, hrun, hout⟩ := insert_good s _ k e (reach_good hr) hk
  have huniq : ∀ fuel out', Insert fuel k e s = some out' → out' = out := by
    intro fuel out' h
    have h1 := Insert_mono fuel (max fuel N) k e s _ (le_max_left _ _) h
    rw [hrun _ (le_max_right _ _)] at h1
    injection h1 with h1
    exact h1.symm
  have hreach : Reach out.2 (⟨true, k, e, out.1⟩ :: log) :=
    Reach.insert N k e out.1 s out.2 log hr hk (hrun N (le_refl _))
  rcases hout with ⟨h1, h2⟩ | ⟨hne, hnot, ix', h1, _, h4⟩
  · subst h1
    refine ⟨false, s, ⟨N, hrun⟩, huniq, ?_, by simp, fun _ => rfl, hreach⟩
    simp only [Bool.false_eq_true, false_iff, not_and, not_not]
    intro hne
    exact h2.resolve_left hne
  · subst h1
    refine ⟨true, ix', ⟨N, hrun⟩, huniq, by simp [hne, hnot], fun _ => ⟨h4, ?_, ?_⟩, by simp,
      hreach⟩
    · intro x hx
      simp [stored, hx]
    · intro k1 e1 hmem
      obtain ⟨L, ⟨N1, hsel⟩, _, hL, _⟩ := select_reach ix' _ k1 hreach
      have he1 : e1 ∈ L := (hL e1).mpr (by simp [stored, hmem])
      have hLne : L ≠ [] := List.ne_nil_of_mem he1
      refine ⟨L, he1, N1, fun fuel hf => ?_⟩
      rw [hsel fuel hf]
      simp [hLne]

set_option maxRecDepth 100000 in

/-- Witness of C10: `Insert("CAT", 3)` on the index that holds the pairs
("CAT", 1) and ("CATTLE", 2). -/
theorem C10_insert_iff_witness :
    (Reach sampleCat sampleCatLog ∧ AsciiKey [67, 65, 84]) ∧
    ∃ (b : Bool) (s' : Index),
      (∃ N, ∀ fuel, N ≤ fuel → Insert fuel [67, 65, 84] 3 sampleCat = some (b, s')) ∧
      (∀ fuel out, Insert fuel [67, 65, 84] 3 sampleCat = some out → out = (b, s')) ∧
      (b = true ↔ normalize [67, 65, 84] ≠ [] ∧
        (normalize [67, 65, 84], 3) ∉ stored sampleCatLog) ∧
      (b = true → Count s' = Count sampleCat + 1 ∧
        (∀ x ∈ stored sampleCatLog, x ∈ stored (⟨true, [67, 65, 84], 3, b⟩ :: sampleCatLog)) ∧
        ∀ (k1 : List Nat) (e1 : Int), (normalize k1, e1) ∈ stored sampleCatLog →
          ∃ L : List Int, e1 ∈ L ∧ ∃ N, ∀ fuel, N ≤ fuel →
            Select fuel k1 s' = some (true, L)) ∧
      (b = false → s' = sampleCat) ∧
      Reach s' (⟨true, [67, 65, 84], 3, b⟩ :: sampleCatLog) :=
  ⟨⟨reach_sampleCat, by decide⟩,
    C10_insert_iff sampleCat sampleCatLog [67, 65, 84] 3 reach_sampleCat (by decide)⟩

/-! ## Failure without change -/

/-- An `Insert` with an ASCII key that returns false leaves the index as it
was, on every index obtained from a fresh one by `Insert` and `Delete` calls
with ASCII keys. -/
theorem Insert_false_unchanged (fuel : Nat) (k : List Nat) (e : Int) (s s' : Index)
    (log : List Call) (hr : Reach s log) (hk : AsciiKey k)
    (h : Insert fuel k e s = some (false, s')) : s' = s := by
  obtain ⟨N, out, hrun, hout⟩ := insert_good s _ k e (reach_good hr) hk
  have h1 := Insert_mono fuel (max fuel N) k e s _ (le_max_left _ _) h
  rw [hrun _ (le_max_right _ _)] at h1
  injection h1 with h1
  subst h1
  rcases hout with ⟨h2, _⟩ | ⟨_, _, ix', h2, _, _⟩
  · exact (Prod.mk.inj h2).2
  · exact absurd (Prod.mk.inj h2).1 (by simp)

set_option maxRecDepth 100000 in

/-- Witness: a second `Insert("CAT", 1)` on the index that holds the pairs
("CAT", 1) and ("CATTLE", 2). -/
theorem Insert_false_unchanged_witness :
    (Reach sampleCat sampleCatLog ∧ AsciiKey [67, 65, 84] ∧
      Insert 10 [67, 65, 84] 1 sampleCat = some (false, sampleCat)) ∧ sampleCat = sampleCat :=
  ⟨⟨reach_sampleCat, by decide, by decide⟩,
    Insert_false_unchanged 10 [67, 65, 84] 1 sampleCat sampleCat sampleCatLog reach_sampleCat
      (by decide) (by decide)⟩

set_option maxRecDepth 100000 in

/-- Witness: `Delete("CAT", 2)` on the index that holds the pairs ("CAT", 1)
and ("CATTLE", 2). -/
theorem Delete_false_unchanged_witness :
    Delete 10 [67, 65, 84] 2 sampleCat = some (false, sampleCat) ∧ sampleCat = sampleCat :=
  ⟨by decide, Delete_false_unchanged 10 [67, 65, 84] 2 sampleCat sampleCat (by decide)⟩

/-! ## Further sample indexes -/

theorem reach_sampleDog : Reach sampleDog sampleDogLog :=
  Reach.insert 20 dogKey 30 true sampleDogTwo _ _
    (Reach.insert 20 dogKey 20 true sampleDogOne _ _
      (Reach.insert 20 dogKey 10 true _ _ [] Reach.init (by decide) (by decide))
      (by decide) (by decide))
    (by decide) (by decide)

set_option maxRecDepth 100000 in

theorem reach_sampleDogLess : Reach sampleDogLess sampleDogLessLog :=
  Reach.delete 30 dogKey 20 true sampleDog _ _ reach_sampleDog (by decide) (by decide)

/-! ## The claims C11 to C19 -/

/-- Claim C11: for every input string whose normalized form is empty and every
index state, on every fuel: `Insert` and `Delete` return false and leave the
index state as it is, and `Select` and `Search` return (false, empty list). -/
theorem C11_blank_key (fuel : Nat) (k : List Nat) (e : Int) (s : Index)
    (h : normalize k = []) :
    Insert fuel k e s = some (false, s) ∧ Delete fuel k e s = some (false, s) ∧
      Select fuel k s = some (false, []) ∧ Search fuel k s = some (false, []) := by
  have hv : validate k = ([], 0) := by
    have h1 : validate k = ((validate k).1, (validate k).1.length) := rfl
    rw [h1]
    simp only [normalize] at h
    rw [h]
    rfl
  refine ⟨?_, ?_, ?_, ?_⟩
  · rw [Insert_eq, hv]; rfl
  · rw [Delete_eq, hv]; rfl
  · simp only [Select, hv]; rfl
  · simp only [Search, hv]; rfl

set_option maxRecDepth 100000 in

/-- Witness of C11: the empty string and a string of white space have an empty
normalized form; the calls with the string of white space on the index that
holds the pairs ("CAT", 1) and ("CATTLE", 2). -/
theorem C11_blank_key_witness :
    (normalize [] = [] ∧ normalize [32, 9, 10, 32] = []) ∧
    Insert 10 [32, 9, 10, 32] 7 sampleCat = some (false, sampleCat) ∧
      Delete 10 [32, 9, 10, 32] 7 sampleCat = some (false, sampleCat) ∧
      Select 10 [32, 9, 10, 32] sampleCat = some (false, []) ∧
      Search 10 [32, 9, 10, 32] sampleCat = some (false, []) :=
  ⟨⟨by decide, by decide⟩, C11_blank_key 10 [32, 9, 10, 32] 7 sampleCat (by decide)⟩

set_option maxRecDepth 100000 in

/-- Claim C12 fails as stated: the input of the bytes 0xC2 0xA0 (the UTF-8
encoding of U+00A0) and `a` holds no ASCII white space, and `validate`
returns the key `a` of length 1: `strings.TrimSpace` removes Unicode white
space. -/
theorem C12_unicode_space_counterexample :
    validate [194, 160, 97] = ([97], 1) ∧ specValidate [194, 160, 97] = ([194, 160, 97], 3) ∧
      validate [194, 160, 97] ≠ specValidate [194, 160, 97] :=
  ⟨by decide, by decide, by decide⟩

/-- Claim C12, amended: for every input byte string `s`, `validate(s)` returns
`(t, len(t))` where `t` is a run of consecutive bytes of `s` of length at
most 32; and when every byte of `s` is an ASCII byte, `t` is obtained by
removing from `s` exactly its leading and trailing ASCII white space bytes and
then keeping the first `min(32, length)` bytes of the result. -/
theorem C12_validate_ascii (s : List Nat) :
    ((validate s).2 = (validate s).1.length ∧ (validate s).1.length ≤ 32 ∧
      ∃ a b, s = a ++ (validate s).1 ++ b) ∧
    (AsciiKey s → validate s = specValidate s) :=
  ⟨validate_part s, validate_spec_ascii s⟩

set_option maxRecDepth 100000 in

/-- Witness of the amended C12: a key of 40 bytes between white space is used
as its first 32 bytes. -/
theorem C12_validate_ascii_witness :
    AsciiKey longKey ∧ validate longKey = specValidate longKey ∧
      specValidate longKey = (List.range' 48 32, 32) :=
  ⟨by decide, (C12_validate_ascii longKey).2 (by decide), by decide⟩

set_option maxRecDepth 100000 in

/-- Claim C13 fails on the code for bytes above 0x7f: the test
`keyString[i:i+1] == string(c)` compares with the UTF-8 encoding of the code
point `c`, two bytes long for `c >= 0x80`, so it fails for the key byte 0x80
and the node byte 0x80; the test `<=` sends the key byte 0xC4 right at a
node byte 0xFF.  On a fresh index `Insert("\x80", 1)` returns true and
`Select("\x80")` then returns (false, empty list), on every fuel. -/
theorem C13_high_byte_lookup :
    normalize [128] = [128] ∧
      Insert 4 [128] 1 (Initialise zeroIndex) = some (true, ⟨0, [⟨83, 1, 128, -1⟩], -1, 1⟩) ∧
      (∀ fuel, Select (fuel + 1) [128] ⟨0, [⟨83, 1, 128, -1⟩], -1, 1⟩ = some (false, [])) ∧
      byteToString 128 = [194, 128] ∧ ([128] : List Nat) ≠ byteToString 128 ∧
      byteToString 255 = [195, 191] ∧ strLe [196] (byteToString 255) = false :=
  ⟨by decide, by decide, fun _ => rfl, by decide, by decide, by decide, by decide⟩

/-- Claim C15: on every index obtained from a fresh one by `Insert` and
`Delete` calls with ASCII keys there are a list `tree` of the slots reachable
from the root and the list `free` of the slots of the free list, in the order
of the list; no slot is in both, no slot is twice in one, and together they
are all the slots of the arena.  `Statistics` returns, and its `Active` is
the length of `tree`, its `Deleted` the length of `free`, and their sum the
length of the arena. -/
theorem C15_arena_partition (s : Index) (log : List Call) (hr : Reach s log) :
    ∃ tree free : List Nat, (∀ a : Int, Reachable s a ↔ ∃ n ∈ tree, a = (n : Int)) ∧
      FreeList s.node s.deletedRootPointer free ∧
      (∀ n ∈ tree, n ∉ free) ∧ tree.Nodup ∧ free.Nodup ∧
      (∀ n : Nat, n < s.node.length ↔ n ∈ tree ∨ n ∈ free) ∧
      ∃ N, ∀ fuel, N ≤ fuel → ∃ r, Statistics fuel s = some r ∧
        r.1.Active = (tree.length : Int) ∧ r.1.Deleted = (free.length : Int) ∧
        r.1.Active + r.1.Deleted = (s.node.length : Int) := by
  obtain ⟨fl, oT, hinv, _, _⟩ := reach_tree hr
  have hperm := hinv.partition
  have hnd : (addrsOf oT ++ fl).Nodup := hperm.nodup_iff.mpr (List.nodup_range _)
  obtain ⟨N, hN⟩ := stats_inv s fl oT hinv hinv.free_list
  refine ⟨addrsOf oT, fl, reachable_inv s fl oT hinv, hinv.free_list,
    fun n h1 h2 => (List.nodup_append.mp hnd).2.2 h1 h2, (List.nodup_append.mp hnd).1,
    (List.nodup_append.mp hnd).2.1, fun n => ?_, N, fun fuel hf => ?_⟩
  · rw [← List.mem_range, ← hperm.mem_iff, List.mem_append]
  · obtain ⟨r, h1, h2, h3, _⟩ := hN fuel hf
    refine ⟨r, h1, h2, h3, ?_⟩
    have hl := hperm.length_eq
    simp only [List.length_append, List.length_range] at hl
    rw [h2, h3, ← hl]
    push_cast
    rfl

set_option maxRecDepth 100000 in

/-- Witness of C15: the index with the elements 10 and 30 under `"DOG"` after
the deletion of 20: `Statistics` counts 8 active and 3 deleted slots of 11. -/
theorem C15_arena_partition_witness :
    (Reach sampleDogLess sampleDogLessLog ∧
      (Statistics 40 sampleDogLess).map Prod.fst = some ⟨8, 3, 6, 1, 4, 0, 2, 0, 1⟩) ∧
    ∃ tree free : List Nat,
      (∀ a : Int, Reachable sampleDogLess a ↔ ∃ n ∈ tree, a = (n : Int)) ∧
      FreeList sampleDogLess.node sampleDogLess.deletedRootPointer free ∧
      (∀ n ∈ tree, n ∉ free) ∧ tree.Nodup ∧ free.Nodup ∧
      (∀ n : Nat, n < sampleDogLess.node.length ↔ n ∈ tree ∨ n ∈ free) ∧
      ∃ N, ∀ fuel, N ≤ fuel → ∃ r, Statistics fuel sampleDogLess = some r ∧
        r.1.Active = (tree.length : Int) ∧ r.1.Deleted = (free.length : Int) ∧
        r.1.Active + r.1.Deleted = (sampleDogLess.node.length : Int) :=
  ⟨⟨reach_sampleDogLess, by decide⟩,
    C15_arena_partition sampleDogLess sampleDogLessLog reach_sampleDogLess⟩

/-- Claim C16: every index obtained from a fresh one by `Insert` and `Delete`
calls with ASCII keys holds a tree, its nodes being the slots reachable from
the root, in which at every decision node, of the main trie and of the
duplicates branches, every key of the left subtree has at the key position
of the node a byte that is at most the key byte of the node, every key of the
right subtree a byte that is greater, and both subtrees hold a key.  A
further `Insert` or `Delete` with an ASCII key that returns gives an index
with the same property. -/
theorem C16_decision_order (s : Index) (log : List Call) (hr : Reach s log) :
    DecisionInvariant s ∧
      ∀ (fuel : Nat) (k : List Nat) (e : Int) (b : Bool) (s' : Index), AsciiKey k →
        (Insert fuel k e s = some (b, s') ∨ Delete fuel k e s = some (b, s')) →
        DecisionInvariant s' := by
  refine ⟨reach_decision hr, ?_⟩
  intro fuel k e b s' hk h
  rcases h with h | h
  · exact reach_decision (Reach.insert fuel k e b s s' log hr hk h)
  · exact reach_decision (Reach.delete fuel k e b s s' log hr hk h)

/-- Witness of C16 on the index with the elements 10, 20 and 30 under `"DOG"`,
whose duplicates branch has two decision nodes. -/
theorem C16_decision_order_witness :
    Reach sampleDog sampleDogLog ∧ DecisionInvariant sampleDog ∧
      ∀ (fuel : Nat) (k : List Nat) (e : Int) (b : Bool) (s' : Index), AsciiKey k →
        (Insert fuel k e sampleDog = some (b, s') ∨ Delete fuel k e sampleDog = some (b, s')) →
        DecisionInvariant s' :=
  ⟨reach_sampleDog, C16_decision_order sampleDog sampleDogLog reach_sampleDog⟩

/-- Claim C17: every index obtained from a fresh one by `Insert` and `Delete`
calls with ASCII keys holds a tree, its nodes being the slots reachable from
the root, in which the right pointer of every index-terminal and
duplicate-terminal node is its thread: the decision node in whose left
subtree the terminal is the last terminal, the duplicate node that owns the
duplicates branch of which the terminal is the last terminal, and null for
the last terminal of the main trie and for no other.  A further `Insert` or
`Delete` with an ASCII key that returns gives an index with the same
property. -/
theorem C17_threading (s : Index) (log : List Call) (hr : Reach s log) :
    ThreadInvariant s ∧
      ∀ (fuel : Nat) (k : List Nat) (e : Int) (b : Bool) (s' : Index), AsciiKey k →
        (Insert fuel k e s = some (b, s') ∨ Delete fuel k e s = some (b, s')) →
        ThreadInvariant s' := by
  refine ⟨reach_thread hr, ?_⟩
  intro fuel k e b s' hk h
  rcases h with h | h
  · exact reach_thread (Reach.insert fuel k e b s s' log hr hk h)
  · exact reach_thread (Reach.delete fuel k e b s s' log hr hk h)

/-- Witness of C17 on the index with the elements 10, 20 and 30 under `"DOG"`. -/
theorem C17_threading_witness :
    Reach sampleDog sampleDogLog ∧ ThreadInvariant sampleDog ∧
      ∀ (fuel : Nat) (k : List Nat) (e : Int) (b : Bool) (s' : Index), AsciiKey k →
        (Insert fuel k e sampleDog = some (b, s') ∨ Delete fuel k e sampleDog = some (b, s')) →
        ThreadInvariant s' :=
  ⟨reach_sampleDog, C17_threading sampleDog sampleDogLog reach_sampleDog⟩

/-- Claim C18: every index obtained from a fresh one by `Insert` and `Delete`
calls with ASCII keys holds a tree, its nodes being the slots reachable from
the root, in which the branch under the left pointer of every duplicate-key
and duplicate-terminal node holds at least two elements, all distinct, each
in a node at the end of the bytes of its decimal rendering, and no duplicate
node; a duplicate node stands for a key only when two or more elements are
stored under the key, and a key with exactly one element has an index-key or
index-terminal node.  A further `Insert` or `Delete` with an ASCII key that
returns gives an index with the same property. -/
theorem C18_duplicates (s : Index) (log : List Call) (hr : Reach s log) :
    DuplicatesInvariant s (stored log) ∧
      ∀ (fuel : Nat) (k : List Nat) (e : Int) (b : Bool) (s' : Index), AsciiKey k →
        (Insert fuel k e s = some (b, s') → DuplicatesInvariant s' (stored (⟨true, k, e, b⟩ :: log))) ∧
        (Delete fuel k e s = some (b, s') →
          DuplicatesInvariant s' (stored (⟨false, k, e, b⟩ :: log))) := by
  refine ⟨reach_duplicates hr, ?_⟩
  intro fuel k e b s' hk
  exact ⟨fun h => reach_duplicates (Reach.insert fuel k e b s s' log hr hk h),
    fun h => reach_duplicates (Reach.delete fuel k e b s s' log hr hk h)⟩

/-- Witness of C18 on the index with the elements 10, 20 and 30 under `"DOG"`. -/
theorem C18_duplicates_witness :
    Reach sampleDog sampleDogLog ∧ DuplicatesInvariant sampleDog (stored sampleDogLog) ∧
      ∀ (fuel : Nat) (k : List Nat) (e : Int) (b : Bool) (s' : Index), AsciiKey k →
        (Insert fuel k e sampleDog = some (b, s') →
          DuplicatesInvariant s' (stored (⟨true, k, e, b⟩ :: sampleDogLog))) ∧
        (Delete fuel k e sampleDog = some (b, s') →
          DuplicatesInvariant s' (stored (⟨false, k, e, b⟩ :: sampleDogLog))) :=
  ⟨reach_sampleDog, C18_duplicates sampleDog sampleDogLog reach_sampleDog⟩

/-- Claim C19: on every index obtained from a fresh one by `Insert` and
`Delete` calls with ASCII keys, which holds a tree or none, the key count is
the number of index-key and index-terminal nodes of the main trie plus the
number of elements held in the duplicates branches; `Statistics` returns,
and the sum of its `IndexKeyNodeCount` and `IndexTerminalNodeCount` is
`Count`. -/
theorem C19_key_count (s : Index) (log : List Call) (hr : Reach s log) :
    ∃ fl oT, Inv s fl oT ∧
      (∀ a : Int, Reachable s a ↔ ∃ n ∈ addrsOf oT, a = (n : Int)) ∧
      Count s = ((mainKeysOf oT + branchEntriesOf oT : Nat) : Int) ∧
      ∃ N, ∀ fuel, N ≤ fuel → ∃ r, Statistics fuel s = some r ∧
        r.1.IndexKeyNodeCount + r.1.IndexTerminalNodeCount = Count s := by
  obtain ⟨fl, oT, hinv, hperm, hcount⟩ := reach_tree hr
  obtain ⟨N, hN⟩ := stats_inv s fl oT hinv hinv.free_list
  have hc : Count s = ((entsOf oT).length : Int) := by
    simp only [Count, hcount, hperm.length_eq]
  refine ⟨fl, oT, hinv, reachable_inv s fl oT hinv, ?_, N, fun fuel hf => ?_⟩
  · rw [hc, keysOf_total]
  · obtain ⟨r, h1, _, _, h4, _⟩ := hN fuel hf
    exact ⟨r, h1, by rw [h4, hc]⟩

set_option maxRecDepth 100000 in

/-- Witness of C19 on the index with the elements 10, 20 and 30 under `"DOG"`:
no index node in the main trie, three elements in the duplicates branch. -/
theorem C19_key_count_witness :
    (Reach sampleDog sampleDogLog ∧ Count sampleDog = 3 ∧
      (Statistics 40 sampleDog).map Prod.fst = some ⟨11, 0, 7, 2, 5, 0, 3, 0, 1⟩) ∧
    ∃ fl oT, Inv sampleDog fl oT ∧
      (∀ a : Int, Reachable sampleDog a ↔ ∃ n ∈ addrsOf oT, a = (n : Int)) ∧
      Count sampleDog = ((mainKeysOf oT + branchEntriesOf oT : Nat) : Int) ∧
      ∃ N, ∀ fuel, N ≤ fuel → ∃ r, Statistics fuel sampleDog = some r ∧
        r.1.IndexKeyNodeCount + r.1.IndexTerminalNodeCount = Count sampleDog :=
  ⟨⟨reach_sampleDog, by decide, by decide⟩,
    C19_key_count sampleDog sampleDogLog reach_sampleDog⟩

/-! ## Indexes with key bytes above 0x7f: samples -/

theorem reachAny_sampleHigh : ReachAny sampleHigh :=
  ReachAny.insert 4 [128] 1 true sampleHighOne _
    (ReachAny.insert 4 [128] 1 true _ _ ReachAny.init (by decide)) (by decide)

theorem freeList_sampleDogLess :
    FreeList sampleDogLess.node sampleDogLess.deletedRootPointer [8, 7, 6] :=
  ⟨rfl, _, rfl, rfl, _, rfl, rfl, _, rfl, rfl⟩

/-! ## The claims C8 and C20 -/

/-- Claim C8: on every index obtained from a fresh one by `Insert` and
`Delete` calls, with keys of arbitrary bytes, for every key `k` and element
`e`: `Insert(k, e)` and `Delete(k, e)` return on enough fuel, and a run of
either that returns false returns the index it was given: the arena and its
length, the root pointer, the head of the free list and the key count are
those before the call. -/
theorem C8_failure_atomic (s : Index) (hs : ReachAny s) (k : List Nat) (e : Int) :
    (∃ (N : Nat) (bi : Bool) (si : Index) (bd : Bool) (sd : Index), ∀ fuel, N ≤ fuel →
        Insert fuel k e s = some (bi, si) ∧ Delete fuel k e s = some (bd, sd)) ∧
    (∀ fuel s', Insert fuel k e s = some (false, s') → s' = s) ∧
    (∀ fuel s', Delete fuel k e s = some (false, s') → s' = s) := by
  obtain ⟨fl, oT, hinv⟩ := reachAny_invG hs
  obtain ⟨N1, out1, hN1, hout1⟩ := insert_invG s fl oT k e hinv
  obtain ⟨N2, out2, hN2, hout2⟩ := delete_invG s fl oT k e hinv
  refine ⟨⟨max N1 N2, out1.1, out1.2, out2.1, out2.2, fun fuel hf =>
    ⟨hN1 fuel (le_trans (le_max_left _ _) hf), hN2 fuel (le_trans (le_max_right _ _) hf)⟩⟩,
    fun fuel s' h => ?_, fun fuel s' h => ?_⟩
  · have h1 := Insert_result hN1 fuel _ h
    rcases hout1 with ho | ⟨ix', _, _, ho, _⟩
    · rw [ho] at h1
      exact (Prod.mk.inj h1).2
    · rw [ho] at h1
      exact absurd (Prod.mk.inj h1).1 (by simp)
  · have h1 := Delete_result hN2 fuel _ h
    rcases hout2 with ho | ⟨ix', _, _, ho, _⟩
    · rw [ho] at h1
      exact (Prod.mk.inj h1).2
    · rw [ho] at h1
      exact absurd (Prod.mk.inj h1).1 (by simp)

set_option maxRecDepth 100000 in

/-- Witness of C8: on the index obtained by two calls `Insert("\x80", 1)`,
the call `Delete("\x80", 1)` returns false, the stored byte never being
matched, and returns the index as it was. -/
theorem C8_failure_atomic_witness :
    (ReachAny sampleHigh ∧ Delete 8 [128] 1 sampleHigh = some (false, sampleHigh)) ∧
    (∃ (N : Nat) (bi : Bool) (si : Index) (bd : Bool) (sd : Index), ∀ fuel, N ≤ fuel →
        Insert fuel [128] 1 sampleHigh = some (bi, si) ∧
        Delete fuel [128] 1 sampleHigh = some (bd, sd)) ∧
    (∀ fuel s', Insert fuel [128] 1 sampleHigh = some (false, s') → s' = sampleHigh) ∧
    (∀ fuel s', Delete fuel [128] 1 sampleHigh = some (false, s') → s' = sampleHigh) :=
  ⟨⟨reachAny_sampleHigh, by decide⟩, C8_failure_atomic sampleHigh reachAny_sampleHigh [128] 1⟩

/-- Claim C20: every index obtained from a fresh one by `Insert` and `Delete`
calls, with keys of arbitrary bytes, has a free list `fl`, and on it every
`Insert` returns, with one result `(b, s')` on all the runs that return.
There is a number `m` of new nodes: the number of slots in use, which is the
length of the arena less that of the free list, grows by `m`; the free list
afterwards is `fl` without its first `m` slots, so `min m fl.length` slots
are taken from its head in the order of the list; the arena grows by
`m - fl.length` slots, by none when `m ≤ fl.length`, and it grows only when
the free list is used up.  Every `Delete` returns, with one result on all
the runs that return, and leaves the length of the arena as it was.  The
operations `Select`, `Search`, `Scan`, `Count` and `Statistics` return their
results only and hand back no arena. -/
theorem C20_allocation (s : Index) (hs : ReachAny s) (k : List Nat) (e : Int) :
    ∃ fl : List Nat, FreeList s.node s.deletedRootPointer fl ∧
      (∃ (b : Bool) (s' : Index) (fl' : List Nat) (m : Nat),
        (∃ N, ∀ fuel, N ≤ fuel → Insert fuel k e s = some (b, s')) ∧
        (∀ fuel out, Insert fuel k e s = some out → out = (b, s')) ∧
        FreeList s'.node s'.deletedRootPointer fl' ∧
        s'.node.length - fl'.length = s.node.length - fl.length + m ∧
        fl' = fl.drop m ∧ fl.length - fl'.length = min m fl.length ∧
        s'.node.length = s.node.length + (m - fl.length) ∧
        (s.node.length < s'.node.length → fl' = [])) ∧
      (∃ (b : Bool) (s' : Index),
        (∃ N, ∀ fuel, N ≤ fuel → Delete fuel k e s = some (b, s')) ∧
        (∀ fuel out, Delete fuel k e s = some out → out = (b, s')) ∧
        s'.node.length = s.node.length) := by
  obtain ⟨fl, oT, hinv⟩ := reachAny_invG hs
  have hle := hinv.free_le
  obtain ⟨N1, out1, hN1, hout1⟩ := insert_invG s fl oT k e hinv
  obtain ⟨N2, out2, hN2, hout2⟩ := delete_invG s fl oT k e hinv
  refine ⟨fl, hinv.free_list_g, ?_, ?_⟩
  · rcases hout1 with ho | ⟨ix', fl', T', ho, hinv', _, m, hfl, hlen⟩
    · subst ho
      exact ⟨false, s, fl, 0, ⟨N1, hN1⟩, Insert_result hN1, hinv.free_list_g, by omega,
        by simp, by simp, by omega, fun h => absurd h (lt_irrefl _)⟩
    · subst ho
      have hd : fl'.length = fl.length - m := by rw [hfl, List.length_drop]
      refine ⟨true, ix', fl', m, ⟨N1, hN1⟩, Insert_result hN1, hinv'.free_list_g, by omega,
        hfl, by omega, hlen, fun h => ?_⟩
      rw [hfl]
      exact List.drop_eq_nil_of_le (by omega)
  · rcases hout2 with ho | ⟨ix', _, _, ho, _, _, hlen⟩
    · subst ho
      exact ⟨false, s, ⟨N2, hN2⟩, Delete_result hN2, rfl⟩
    · subst ho
      exact ⟨true, ix', ⟨N2, hN2⟩, Delete_result hN2, hlen⟩

set_option maxRecDepth 100000 in

/-- Witness of C20: the index with the elements 10 and 30 under `"DOG"` after
the deletion of 20 has the free list 8, 7, 6 in an arena of 11 slots;
`Insert("CAT", 5)` needs four nodes, takes the three free slots and one new
slot: the arena has 12 slots afterwards and the free list is empty. -/
theorem C20_allocation_witness :
    (ReachAny sampleDogLess ∧
      FreeList sampleDogLess.node sampleDogLess.deletedRootPointer [8, 7, 6] ∧
      sampleDogLess.node.length = 11 ∧
      (Insert 20 [67, 65, 84] 5 sampleDogLess).map
        (fun r => (r.1, r.2.node.length, r.2.deletedRootPointer)) = some (true, 12, -1)) ∧
    ∃ fl : List Nat, FreeList sampleDogLess.node sampleDogLess.deletedRootPointer fl ∧
      (∃ (b : Bool) (s' : Index) (fl' : List Nat) (m : Nat),
        (∃ N, ∀ fuel, N ≤ fuel → Insert fuel [67, 65, 84] 5 sampleDogLess = some (b, s')) ∧
        (∀ fuel out, Insert fuel [67, 65, 84] 5 sampleDogLess = some out → out = (b, s')) ∧
        FreeList s'.node s'.deletedRootPointer fl' ∧
        s'.node.length - fl'.length = sampleDogLess.node.length - fl.length + m ∧
        fl' = fl.drop m ∧ fl.length - fl'.length = min m fl.length ∧
        s'.node.length = sampleDogLess.node.length + (m - fl.length) ∧
        (sampleDogLess.node.length < s'.node.length → fl' = [])) ∧
      (∃ (b : Bool) (s' : Index),
        (∃ N, ∀ fuel, N ≤ fuel → Delete fuel [67, 65, 84] 5 sampleDogLess = some (b, s')) ∧
        (∀ fuel out, Delete fuel [67, 65, 84] 5 sampleDogLess = some out → out = (b, s')) ∧
        s'.node.length = sampleDogLess.node.length) :=
  ⟨⟨reachAny_of_reach reach_sampleDogLess, freeList_sampleDogLess, by decide, by decide⟩,
    C20_allocation sampleDogLess (reachAny_of_reach reach_sampleDogLess) [67, 65, 84] 5⟩

/-! ## The claim C28 -/

/-- Counterexample to C28: the index that holds the pair `("a", 1)` is
obtained from a fresh one by `Insert("a", 1)`; after `Initialise` on it
`Scan` returns `(false, [])`, no pair being stored any more, while `Count`
returns 1. -/
theorem C28_stale_count_counterexample :
    Reach sampleOne sampleOneLog ∧
    Scan 1 (Initialise sampleOne) = some (false, []) ∧
    Count (Initialise sampleOne) = 1 := by
  exact ⟨reach_sampleOne, by decide, by decide⟩

/-- Claim C28, amended: after `Initialise` on an index in any state the root
and the head of the free list are null and `Scan` returns `(false, [])`; the
arena and the key count are kept, so `Count` returns the count the index had
before; it returns 0 when `Initialise` is applied to a new index, the zero
value of the type. -/
theorem C28_initialise (s : Index) :
    (Initialise s).indexRootPointer = nullIndexPointer ∧
    (Initialise s).deletedRootPointer = nullIndexPointer ∧
    (∀ fuel, Scan (fuel + 1) (Initialise s) = some (false, [])) ∧
    (Initialise s).node = s.node ∧
    Count (Initialise s) = Count s ∧
    Count (Initialise zeroIndex) = 0 := by
  refine ⟨rfl, rfl, fun fuel => ?_, rfl, rfl, rfl⟩
  simp [Scan, traverseAndCollect, runLoop, traverseBody, Initialise]

/-! ## The claim C22 -/

/-- Claim C22: on an index with a free list `fl`, `extend` with no key byte
allocates nothing and returns `next`.  With a key `ks` of `n ≥ 1` bytes it
returns the slot `a` of the first node of a chain in the slots `a :: as`,
linked through the right pointers, the node `i` holding the byte `ks[i]`:
the first `n - 1` nodes are character nodes with a null left pointer, the
last is an index terminal with the left pointer `e` and the right pointer
`next`.  It allocates exactly the `n` slots of the chain: these are the
first `n` slots of the free list and, once the free list is used up, new
slots at the end of the arena; the free list loses them, every other slot,
the root and the key count are kept.  `Insert` of a key `k` whose
normalized form has `n ≥ 1` bytes into an index without a root returns true
and makes such a chain, with the thread null, the root, and on the index
after it `Statistics` returns with `Active = n`, `CharacterNodeCount = n - 1`
and `IndexTerminalNodeCount = 1`. -/
theorem C22_extend_chain (ks : List Nat) (e next : Int) (ix : Index) (fl : List Nat)
    (k : List Nat) (hfl : FreeList ix.node ix.deletedRootPointer fl) :
    extend [] e next ix = some (next, ix) ∧
    (ks ≠ [] → ∃ (a : Nat) (as : List Nat) (ix' : Index),
      extend ks e next ix = some ((a : Int), ix') ∧
      ChainAt ix'.node (a :: as) ks e next ∧
      (a :: as).length = ks.length ∧
      (a :: as).Perm (fl.take ks.length ++ List.range' ix.node.length (ks.length - fl.length)) ∧
      FreeList ix'.node ix'.deletedRootPointer (fl.drop ks.length) ∧
      ix'.node.length = ix.node.length + (ks.length - fl.length) ∧
      (∀ b, b < ix.node.length → b ∉ fl.take ks.length → ix'.node[b]? = ix.node[b]?) ∧
      ix'.indexRootPointer = ix.indexRootPointer ∧ ix'.keyCount = ix.keyCount) ∧
    (ix.indexRootPointer = nullIndexPointer → (validate k).1 ≠ [] →
      ∃ (a : Nat) (as : List Nat) (ix' : Index),
        (∀ fuel, Insert fuel k e ix = some (true, ix')) ∧
        ix'.indexRootPointer = (a : Int) ∧
        ChainAt ix'.node (a :: as) (validate k).1 e nullIndexPointer ∧
        (a :: as).length = (validate k).2 ∧
        ix'.keyCount = ix.keyCount + 1 ∧
        ∃ N, ∀ fuel, N ≤ fuel → ∃ r, Statistics fuel ix' = some r ∧
          r.1.Active = ((validate k).2 : Int) ∧
          r.1.CharacterNodeCount = ((validate k).2 : Int) - 1 ∧
          r.1.IndexTerminalNodeCount = 1) := by
  refine ⟨rfl, fun hks => ?_, fun hroot hk => ?_⟩
  · obtain ⟨a, as, ix', h1, h2, h3, h4, h5, h6, h7, h8⟩ := extend_exact ks e next ix fl hks hfl
    exact ⟨a, as, ix', h1, h2, ChainAt.chain_length _ _ _ _ h2, h3, h4, h5, h6, h7, h8⟩
  · obtain ⟨res, ix1, fl', hext, hch, hE, hrun⟩ := insert_empty_exact k e ix fl hroot hfl hk
    have hc := Trie.IsChain.chain_at res _ e nullIndexPointer hch hE.laid
    have hcons := Trie.IsChain.addrs_cons res _ e hch
    have hsz : res.addrs.length = (validate k).1.length := by
      rw [← Trie.size_eq_length, Trie.IsChain.size res _ e hch]
    have hlenpos : 1 ≤ (validate k).1.length := List.length_pos.mpr hk
    have hholds : Holds ⟨(res.addr : Int), ix1.node, ix1.deletedRootPointer, ix1.keyCount + 1⟩
        (some res) :=
      ⟨rfl, hE.laid, hE.nodup_res hfl⟩
    obtain ⟨N, hN⟩ := stats_holds _ fl' (some res) hholds hE.free
    refine ⟨res.addr, res.addrs.tail, _, hrun, rfl, ?_, ?_, ?_, N, fun fuel hf => ?_⟩
    · rw [← hcons]; exact hc
    · rw [← hcons, hsz, validate_snd]
    · simp only; rw [hE.count]
    · obtain ⟨r, hr, hact, _, _, hchar, _, hterm, _⟩ := hN fuel hf
      refine ⟨r, hr, ?_, ?_, ?_⟩
      · rw [hact, validate_snd]
        simp only [addrsOf, hsz]
      · rw [hchar, validate_snd]
        simp only [typesOf, Trie.IsChain.types_chain res _ e hch, count_chain_character]
        omega
      · rw [hterm]
        simp only [typesOf, Trie.IsChain.types_chain res _ e hch, count_chain_terminal]
        rfl

set_option maxRecDepth 100000 in

/-- Witness of C22: on the fresh index `extend` for the bytes of `"CAT"`, the
element 1 and the thread null builds the chain in the slots 2, 1, 0 and
returns the slot 2, and `Insert("CAT", 1)` makes it the root. -/
theorem C22_extend_chain_witness :
    (FreeList (Initialise zeroIndex).node (Initialise zeroIndex).deletedRootPointer [] ∧
      extend [67, 65, 84] 1 (-1) (Initialise zeroIndex) =
        some (2, ⟨-1, [⟨indexTerminalNode, 1, 84, -1⟩, ⟨characterNode, -1, 65, 0⟩, ⟨characterNode, -1, 67, 1⟩], -1, 0⟩) ∧
      Insert 1 [67, 65, 84] 1 (Initialise zeroIndex) =
        some (true, ⟨2, [⟨indexTerminalNode, 1, 84, -1⟩, ⟨characterNode, -1, 65, 0⟩, ⟨characterNode, -1, 67, 1⟩], -1, 1⟩) ∧
      (Statistics 20 ⟨2, [⟨indexTerminalNode, 1, 84, -1⟩, ⟨characterNode, -1, 65, 0⟩, ⟨characterNode, -1, 67, 1⟩], -1, 1⟩).map
        (fun r => (r.1.Active, r.1.CharacterNodeCount, r.1.IndexTerminalNodeCount)) =
        some (3, 2, 1)) ∧
    (extend [] 1 (-1) (Initialise zeroIndex) = some (-1, Initialise zeroIndex) ∧
    (([67, 65, 84] : List Nat) ≠ [] → ∃ (a : Nat) (as : List Nat) (ix' : Index),
      extend [67, 65, 84] 1 (-1) (Initialise zeroIndex) = some ((a : Int), ix') ∧
      ChainAt ix'.node (a :: as) [67, 65, 84] 1 (-1) ∧
      (a :: as).length = ([67, 65, 84] : List Nat).length ∧
      (a :: as).Perm (([] : List Nat).take ([67, 65, 84] : List Nat).length ++
        List.range' (Initialise zeroIndex).node.length
          (([67, 65, 84] : List Nat).length - ([] : List Nat).length)) ∧
      FreeList ix'.node ix'.deletedRootPointer
        (([] : List Nat).drop ([67, 65, 84] : List Nat).length) ∧
      ix'.node.length = (Initialise zeroIndex).node.length +
        (([67, 65, 84] : List Nat).length - ([] : List Nat).length) ∧
      (∀ b, b < (Initialise zeroIndex).node.length →
        b ∉ ([] : List Nat).take ([67, 65, 84] : List Nat).length →
        ix'.node[b]? = (Initialise zeroIndex).node[b]?) ∧
      ix'.indexRootPointer = (Initialise zeroIndex).indexRootPointer ∧
      ix'.keyCount = (Initialise zeroIndex).keyCount) ∧
    ((Initialise zeroIndex).indexRootPointer = nullIndexPointer →
      (validate [67, 65, 84]).1 ≠ [] →
      ∃ (a : Nat) (as : List Nat) (ix' : Index),
        (∀ fuel, Insert fuel [67, 65, 84] 1 (Initialise zeroIndex) = some (true, ix')) ∧
        ix'.indexRootPointer = (a : Int) ∧
        ChainAt ix'.node (a :: as) (validate [67, 65, 84]).1 1 nullIndexPointer ∧
        (a :: as).length = (validate [67, 65, 84]).2 ∧
        ix'.keyCount = (Initialise zeroIndex).keyCount + 1 ∧
        ∃ N, ∀ fuel, N ≤ fuel → ∃ r, Statistics fuel ix' = some r ∧
          r.1.Active = ((validate [67, 65, 84]).2 : Int) ∧
          r.1.CharacterNodeCount = ((validate [67, 65, 84]).2 : Int) - 1 ∧
          r.1.IndexTerminalNodeCount = 1)) :=
  ⟨⟨rfl, by decide, by decide, by decide⟩,
    C22_extend_chain [67, 65, 84] 1 (-1) (Initialise zeroIndex) [] [67, 65, 84] rfl⟩

/-! ## The claim C27 -/

/-- Counterexample to C27: the index holds only the pair `("a", 1)`;
`Delete("a", 1)` returns true and leaves an arena of one slot, which is on
the free list; the following `Insert("ab", 2)` takes that slot and one new
slot, so the arena has two slots afterwards. -/
theorem C27_following_insert_counterexample :
    Reach sampleOne sampleOneLog ∧ stored sampleOneLog = [([97], 1)] ∧
    Delete 4 [97] 1 sampleOne = some (true, ⟨-1, [⟨indexTerminalNode, 1, 97, -1⟩], 0, 0⟩) ∧
    (Insert 4 [97, 98] 2 ⟨-1, [⟨indexTerminalNode, 1, 97, -1⟩], 0, 0⟩).map
      (fun r => (r.1, r.2.node.length)) = some (true, 2) := by
  exact ⟨reach_sampleOne, by decide, by decide, by decide⟩

/-- Claim C27, amended: on an index obtained from a fresh one by `Insert`
and `Delete` calls with ASCII keys that stores only the pair `(k, e)`, the
key `k` of ASCII bytes, the root is the head `a` of a chain in the slots
`a :: as`, one for each of the `n` bytes of the normalized key, and `fl` is
the free list.  `Delete(k, e)` returns true; afterwards the root is null,
the free list is `a :: as` followed by `fl`, the arena has the length it
had, `Count` returns 0 and `Statistics` returns with `Active = 0` and
`Deleted = n + fl.length`.  A following `Insert` of a key whose normalized
form has `m ≥ 1` bytes returns true and takes the first `m` slots of that
free list; the arena grows by `m - (n + fl.length)` slots, so it does not
grow when `m ≤ n + fl.length`. -/
theorem C27_last_key (s : Index) (log : List Call) (k : List Nat) (e : Int)
    (hr : Reach s log) (hk : AsciiKey k) (hst : stored log = [(normalize k, e)]) :
    ∃ (fl : List Nat) (a : Nat) (as : List Nat) (s' : Index),
      FreeList s.node s.deletedRootPointer fl ∧
      s.indexRootPointer = (a : Int) ∧
      ChainAt s.node (a :: as) (normalize k) e nullIndexPointer ∧
      (a :: as).length = (validate k).2 ∧
      (∃ N, ∀ fuel, N ≤ fuel → Delete fuel k e s = some (true, s')) ∧
      s'.indexRootPointer = nullIndexPointer ∧
      FreeList s'.node s'.deletedRootPointer ((a :: as) ++ fl) ∧
      s'.node.length = s.node.length ∧ Count s' = 0 ∧
      (∃ N, ∀ fuel, N ≤ fuel → ∃ r, Statistics fuel s' = some r ∧ r.1.Active = 0 ∧
        r.1.Deleted = (((a :: as).length + fl.length : Nat) : Int)) ∧
      ∀ (k2 : List Nat) (e2 : Int), (validate k2).1 ≠ [] →
        ∃ s'', (∀ fuel, Insert fuel k2 e2 s' = some (true, s'')) ∧
          FreeList s''.node s''.deletedRootPointer (((a :: as) ++ fl).drop (validate k2).2) ∧
          s''.node.length = s.node.length + ((validate k2).2 - ((a :: as).length + fl.length)) ∧
          ((validate k2).2 ≤ (a :: as).length + fl.length →
            s''.node.length = s.node.length) := by
  obtain ⟨fl, oT, hinv, hperm, hcount⟩ := reach_tree hr
  rw [hst] at hperm hcount
  obtain ⟨chain, rfl, hch⟩ := hinv.only_chain hperm
  have hch' : chain.IsChain (validate k).1 e := hch
  obtain ⟨s', h1, h2, h3, h4, h5⟩ :=
    delete_only_chain k e s fl chain hinv.1 hch' (validate_ascii k hk)
  have htree : Trie.Laid s.node chain nullIndexPointer := by
    simpa [Path.thread] using hinv.1.tree
  have hc := Trie.IsChain.chain_at chain _ e nullIndexPointer hch htree
  have hcons := Trie.IsChain.addrs_cons chain _ e hch
  have hsz : chain.addrs.length = (validate k).1.length := by
    rw [← Trie.size_eq_length, Trie.IsChain.size chain _ e hch']
  rw [hcons] at hc h3 hsz
  obtain ⟨N, hN⟩ := stats_holds s' _ none h2 h3
  refine ⟨fl, chain.addr, chain.addrs.tail, s', hinv.1.free, hinv.1.root, hc, ?_,
    ⟨chain.size + 1, h1⟩, h2, h3, h5, ?_, ⟨N, fun fuel hf => ?_⟩, fun k2 e2 hk2 => ?_⟩
  · rw [hsz, validate_snd]
  · simp only [Count, h4, hcount]
    rfl
  · obtain ⟨r, hr1, hr2, hr3, _⟩ := hN fuel hf
    refine ⟨r, hr1, ?_, ?_⟩
    · rw [hr2]; rfl
    · rw [hr3, List.length_append]
  · obtain ⟨res, ix1, fl', hext, hchain, hE, hrun⟩ :=
      insert_empty_exact k2 e2 s' _ h2 h3 hk2
    have hsz2 : res.addrs.length = (validate k2).2 := by
      rw [← Trie.size_eq_length, Trie.IsChain.size res _ e2 hchain, validate_snd]
    obtain ⟨g1, g2, _⟩ := hE.slots _ hsz2
    refine ⟨_, hrun, ?_, ?_, fun hle => ?_⟩
    · rw [← g1]; exact hE.free
    · simp only [g2, h5, List.length_append]
    · simp only [g2, h5, List.length_append]
      omega

set_option maxRecDepth 100000 in

/-- Witness of C27: the index that holds only the pair `("a", 1)`. -/
theorem C27_last_key_witness :
    (Reach sampleOne sampleOneLog ∧ AsciiKey [97] ∧
      stored sampleOneLog = [(normalize [97], 1)]) ∧
    ∃ (fl : List Nat) (a : Nat) (as : List Nat) (s' : Index),
      FreeList sampleOne.node sampleOne.deletedRootPointer fl ∧
      sampleOne.indexRootPointer = (a : Int) ∧
      ChainAt sampleOne.node (a :: as) (normalize [97]) 1 nullIndexPointer ∧
      (a :: as).length = (validate [97]).2 ∧
      (∃ N, ∀ fuel, N ≤ fuel → Delete fuel [97] 1 sampleOne = some (true, s')) ∧
      s'.indexRootPointer = nullIndexPointer ∧
      FreeList s'.node s'.deletedRootPointer ((a :: as) ++ fl) ∧
      s'.node.length = sampleOne.node.length ∧ Count s' = 0 ∧
      (∃ N, ∀ fuel, N ≤ fuel → ∃ r, Statistics fuel s' = some r ∧ r.1.Active = 0 ∧
        r.1.Deleted = (((a :: as).length + fl.length : Nat) : Int)) ∧
      ∀ (k2 : List Nat) (e2 : Int), (validate k2).1 ≠ [] →
        ∃ s'', (∀ fuel, Insert fuel k2 e2 s' = some (true, s'')) ∧
          FreeList s''.node s''.deletedRootPointer (((a :: as) ++ fl).drop (validate k2).2) ∧
          s''.node.length =
            sampleOne.node.length + ((validate k2).2 - ((a :: as).length + fl.length)) ∧
          ((validate k2).2 ≤ (a :: as).length + fl.length →
            s''.node.length = sampleOne.node.length) :=
  ⟨⟨reach_sampleOne, by decide, by decide⟩,
    C27_last_key sampleOne sampleOneLog [97] 1 reach_sampleOne (by decide) (by decide)⟩

/-! ## The claim C26 -/

theorem reachAny_sampleTriple : ReachAny sampleTriple :=
  ReachAny.insert 20 [65] 3 true
    ⟨0, [⟨duplicateTerminalNode, 1, 65, -1⟩, ⟨indexKeyNode, 1, 49, 2⟩,
      ⟨indexTerminalNode, 12, 50, 0⟩], -1, 2⟩ _
    (ReachAny.insert 20 [65] 12 true ⟨0, [⟨indexTerminalNode, 1, 65, -1⟩], -1, 1⟩ _
      (ReachAny.insert 20 [65] 1 true _ _ ReachAny.init (by decide)) (by decide)) (by decide)

/-- Claim C26: on every index state `s`, when the descent loop of
`Delete(k, e)` leaves with a match at the slot `p`, which holds an index key
node `nd`, and the match is not inside a duplicates branch that the count
loop finds to hold fewer than 3 elements, then `nd` holds the element `e`
and `Delete` returns true on all fuels from that of the descent on; the
index after it is the index before it but for the slot `p`, which holds a
character node with a null left pointer and the key byte and right pointer
of `nd`, and for the key count, which is one less: the root, the head of
the free list, the length of the arena and every other slot are as before,
and every free list of the index before is one of the index after. -/
theorem C26_subset_demotion (s : Index) (k : List Nat) (e : Int) (f0 : Nat)
    (st : DeleteState) (p : Nat) (nd : indexNode) (hlen : (validate k).2 ≠ 0)
    (hloop : runLoop (deleteBody e s) f0
      ⟨(validate k).1, (validate k).2, nullIndexPointer, nullIndexPointer, nullIndexPointer,
        nullIndexPointer, s.indexRootPointer, null, 0⟩ = some (DeleteExit.matched st))
    (hp : st.indexPointer = (p : Int)) (hnd : s.node[p]? = some nd)
    (hty : nd.indexType = indexKeyNode)
    (hcnt : st.duplicateNodePointer = nullIndexPointer ∨
      ∃ dn cnt, getNode s.node st.duplicateNodePointer = some dn ∧
        runLoop (deleteCountBody s.node st.duplicateNodePointer) f0 ⟨0, left, dn.leftPointer⟩ =
          some cnt ∧ 3 ≤ cnt) :
    nd.leftPointer = e ∧
    ∃ s', (∀ fuel, f0 ≤ fuel → Delete fuel k e s = some (true, s')) ∧
      s'.node = s.node.set p ⟨characterNode, nullIndexPointer, nd.keyCharacter, nd.rightPointer⟩ ∧
      s'.keyCount = s.keyCount - 1 ∧
      s'.indexRootPointer = s.indexRootPointer ∧
      s'.deletedRootPointer = s.deletedRootPointer ∧
      s'.node.length = s.node.length ∧
      (∀ b, b ≠ p → s'.node[b]? = s.node[b]?) ∧
      (∀ fl, FreeList s.node s.deletedRootPointer fl →
        FreeList s'.node s'.deletedRootPointer fl) := by
  have hp_lt : p < s.node.length := lt_length_of_getElem? hnd
  have hroot : s.indexRootPointer ≠ nullIndexPointer := by
    intro hc
    obtain ⟨x, hx⟩ := runLoop_body_some _ _ _ _ hloop
    simp [deleteBody, hc, nullIndexPointer] at hx
  refine ⟨?_, ⟨s.indexRootPointer,
    s.node.set p ⟨characterNode, nullIndexPointer, nd.keyCharacter, nd.rightPointer⟩,
    s.deletedRootPointer, s.keyCount - 1⟩, fun fuel hf => ?_, rfl, rfl, rfl, rfl, ?_, ?_, ?_⟩
  · obtain ⟨st1, hst1⟩ := runLoop_exit_state _ _ _ _ hloop
    obtain ⟨nd1, g1, g2, _⟩ := deleteBody_matched e s st1 st hst1
    rw [hp, getNode_natCast, hnd] at g1
    injection g1 with g1
    rw [g1]; exact g2
  · rw [Delete_eq, if_neg hlen, if_neg hroot, runLoop_mono _ _ _ _ hloop fuel hf]
    simp only [deleteOutcome]
    have hsingle := deleteSingle_key fuel s st p nd hp hnd hty
    by_cases hd : st.duplicateNodePointer = nullIndexPointer
    · rw [if_neg (not_not.mpr hd)]
      exact hsingle
    · rcases hcnt with hc | ⟨dn, cnt, c1, c2, c3⟩
      · exact absurd hc hd
      · rw [if_pos hd, c1]
        simp only
        rw [runLoop_mono _ _ _ _ c2 fuel hf]
        simp only
        rw [if_neg (by omega)]
        exact hsingle
  · simp only [List.length_set]
  · intro b hb
    exact getElem?_set_other _ _ _ _ (fun h => hb h.symm)
  · intro fl hfl
    refine FreeList.keep_right fl _ hfl (fun a nd0 ha => ?_)
    by_cases hap : a = p
    · subst hap
      rw [hnd] at ha
      injection ha with ha
      subst ha
      exact ⟨_, getElem?_set_self' _ _ _ hp_lt, rfl⟩
    · exact ⟨nd0, by rw [getElem?_set_other _ _ _ _ (fun h => hap h.symm)]; exact ha, rfl⟩

set_option maxRecDepth 100000 in

/-- Witness of C26: on the index that holds `("CAT", 1)` and `("CATTLE", 2)`
the call `Delete("CAT", 1)` matches the index key node in the slot 0; on the
index that holds the elements 1, 12 and 3 under `"A"` the call
`Delete("A", 1)` matches, in the duplicates branch, the index key node of
the entry `"1"` in the slot 1, and the count loop finds 3 elements. -/
theorem C26_subset_demotion_witness :
    (ReachAny sampleCat ∧
      ((⟨indexKeyNode, 1, 84, 5⟩ : indexNode).leftPointer = 1 ∧
      ∃ s', (∀ fuel, 10 ≤ fuel → Delete fuel [67, 65, 84] 1 sampleCat = some (true, s')) ∧
        s'.node = sampleCat.node.set 0 ⟨characterNode, nullIndexPointer,
          (⟨indexKeyNode, 1, 84, 5⟩ : indexNode).keyCharacter,
          (⟨indexKeyNode, 1, 84, 5⟩ : indexNode).rightPointer⟩ ∧
        s'.keyCount = sampleCat.keyCount - 1 ∧
        s'.indexRootPointer = sampleCat.indexRootPointer ∧
        s'.deletedRootPointer = sampleCat.deletedRootPointer ∧
        s'.node.length = sampleCat.node.length ∧
        (∀ b, b ≠ 0 → s'.node[b]? = sampleCat.node[b]?) ∧
        (∀ fl, FreeList sampleCat.node sampleCat.deletedRootPointer fl →
          FreeList s'.node s'.deletedRootPointer fl))) ∧
    (ReachAny sampleTriple ∧
      ((⟨indexKeyNode, 1, 49, 2⟩ : indexNode).leftPointer = 1 ∧
      ∃ s', (∀ fuel, 10 ≤ fuel → Delete fuel [65] 1 sampleTriple = some (true, s')) ∧
        s'.node = sampleTriple.node.set 1 ⟨characterNode, nullIndexPointer,
          (⟨indexKeyNode, 1, 49, 2⟩ : indexNode).keyCharacter,
          (⟨indexKeyNode, 1, 49, 2⟩ : indexNode).rightPointer⟩ ∧
        s'.keyCount = sampleTriple.keyCount - 1 ∧
        s'.indexRootPointer = sampleTriple.indexRootPointer ∧
        s'.deletedRootPointer = sampleTriple.deletedRootPointer ∧
        s'.node.length = sampleTriple.node.length ∧
        (∀ b, b ≠ 1 → s'.node[b]? = sampleTriple.node[b]?) ∧
        (∀ fl, FreeList sampleTriple.node sampleTriple.deletedRootPointer fl →
          FreeList s'.node s'.deletedRootPointer fl))) :=
  ⟨⟨reachAny_of_reach reach_sampleCat,
    C26_subset_demotion sampleCat [67, 65, 84] 1 10
      ⟨[67, 65, 84], 3, 1, 0, nullIndexPointer, 1, 0, null, 2⟩ 0 ⟨indexKeyNode, 1, 84, 5⟩
      (by decide) rfl rfl rfl rfl (Or.inl rfl)⟩,
   ⟨reachAny_sampleTriple,
    C26_subset_demotion sampleTriple [65] 1 10
      ⟨[49], 1, 3, 1, 0, 3, 1, left, 0⟩ 1 ⟨indexKeyNode, 1, 49, 2⟩
      (by decide) rfl rfl rfl rfl
      (Or.inr ⟨⟨duplicateTerminalNode, 3, 65, -1⟩, 3, rfl, rfl, le_refl _⟩)⟩⟩

/-! ## The claim C24 -/

set_option maxRecDepth 100000 in

/-- Claim C24, the code at a failing input: on a fresh index `Insert("\xC8", 1)`
stores the byte 200 in the slot 0, and the descent of `Insert("\xC4", 2)`
stops there with the key byte 196.  The decision node made for the
divergence, in the slot 1, has the key byte 200, which is the larger of the
two bytes, its left pointer is the slot 0 with the larger byte 200 and its
right pointer is the slot 2 with the smaller byte 196.  With the ASCII keys
`"APPLE"` and `"APRIL"` the decision node, in the slot 5, has the smaller
byte 80 and the side of the smaller byte to its left, `Statistics` counts
one decision node and `Search("AP")` returns the elements 1 and 2. -/
theorem C24_decision_high_byte :
    Insert 4 [200] 1 (Initialise zeroIndex) =
      some (true, ⟨0, [⟨indexTerminalNode, 1, 200, -1⟩], -1, 1⟩) ∧
    Insert 8 [196] 2 ⟨0, [⟨indexTerminalNode, 1, 200, -1⟩], -1, 1⟩ =
      some (true, ⟨1, [⟨indexTerminalNode, 1, 200, 1⟩, ⟨decisionNode, 0, 200, 2⟩,
        ⟨indexTerminalNode, 2, 196, -1⟩], -1, 2⟩) ∧
    (200 : Nat) ≠ min 196 200 ∧
    Insert 12 [65, 80, 82, 73, 76] 2
      ⟨4, [⟨indexTerminalNode, 1, 69, -1⟩, ⟨characterNode, -1, 76, 0⟩,
        ⟨characterNode, -1, 80, 1⟩, ⟨characterNode, -1, 80, 2⟩,
        ⟨characterNode, -1, 65, 3⟩], -1, 1⟩ =
      some (true, ⟨4, [⟨indexTerminalNode, 1, 69, 5⟩, ⟨characterNode, -1, 76, 0⟩,
        ⟨characterNode, -1, 80, 1⟩, ⟨characterNode, -1, 80, 5⟩, ⟨characterNode, -1, 65, 3⟩,
        ⟨decisionNode, 2, 80, 8⟩, ⟨indexTerminalNode, 2, 76, -1⟩, ⟨characterNode, -1, 73, 6⟩,
        ⟨characterNode, -1, 82, 7⟩], -1, 2⟩) ∧
    (Statistics 30 ⟨4, [⟨indexTerminalNode, 1, 69, 5⟩, ⟨characterNode, -1, 76, 0⟩,
        ⟨characterNode, -1, 80, 1⟩, ⟨characterNode, -1, 80, 5⟩, ⟨characterNode, -1, 65, 3⟩,
        ⟨decisionNode, 2, 80, 8⟩, ⟨indexTerminalNode, 2, 76, -1⟩, ⟨characterNode, -1, 73, 6⟩,
        ⟨characterNode, -1, 82, 7⟩], -1, 2⟩).map (fun r => r.1.DecisionNodeCount) = some 1 ∧
    Search 30 [65, 80] ⟨4, [⟨indexTerminalNode, 1, 69, 5⟩, ⟨characterNode, -1, 76, 0⟩,
        ⟨characterNode, -1, 80, 1⟩, ⟨characterNode, -1, 80, 5⟩, ⟨characterNode, -1, 65, 3⟩,
        ⟨decisionNode, 2, 80, 8⟩, ⟨indexTerminalNode, 2, 76, -1⟩, ⟨characterNode, -1, 73, 6⟩,
        ⟨characterNode, -1, 82, 7⟩], -1, 2⟩ = some (true, [1, 2]) := by
  exact ⟨by decide, by decide, by decide, by decide, by decide, by decide⟩

/-! ## The claim C23 -/

theorem atFocus_sampleCatOne : AtFocus sampleCatOne [] [] sampleCatOneTree :=
  ⟨rfl, trivial, ⟨rfl, rfl, rfl⟩, rfl, by decide⟩

theorem atFocus_sampleDupTwo : AtFocus sampleDupTwo [] [] sampleDupTwoTree :=
  ⟨rfl, trivial, ⟨rfl, rfl, rfl, rfl⟩, rfl, by decide⟩

/-- Claim C23: the index `s` holds the tree `T` and the free list `fl`, and
the descent of `Insert(k, e)` through `T` stops at the terminal node `t` in
the slot `p`, an index terminal (resp. a duplicate terminal), with its byte
`c`, an ASCII byte, matched by the current key byte and the key bytes `rest`
left.  Then the slot `p` holds a node of that type with a left pointer `l`
and a right pointer `th`, and `Insert` returns true on enough fuel; after it
the slot `p` holds an index key node (resp. a duplicate key node) with the
left pointer `l`, the byte `c` and the right pointer `a`, the head of a
chain for exactly the bytes `rest` with the element `e` and the right
pointer `th` at its terminal; the chain is in the slots `a :: as`, which are
the first slots of the free list and new slots at the end of the arena, and
every other slot of the arena is as before, so no decision node is made;
the root is as before and the key count is one more. -/
theorem C23_superset_insert (s : Index) (fl : List Nat) (T : Trie) (k : List Nat) (e : Int)
    (rc : Path) (t : Trie) (p c : Nat) (rest : List Nat) (ty promoted : Nat)
    (hfoc : AtFocus s fl [] T)
    (hd : descendM T (validate k).1 [] = (rc, t, c :: rest))
    (ht : (ty = indexTerminalNode ∧ promoted = indexKeyNode ∧ ∃ e0, t = Trie.S p c e0) ∨
      (ty = duplicateTerminalNode ∧ promoted = duplicateKeyNode ∧ ∃ sub, t = Trie.L p c sub))
    (hc : c < 128) (hr : rest ≠ []) :
    ∃ (l th : Int) (a : Nat) (as : List Nat) (s' : Index),
      s.node[p]? = some ⟨ty, l, c, th⟩ ∧
      (∃ N, ∀ fuel, N ≤ fuel → Insert fuel k e s = some (true, s')) ∧
      s'.node[p]? = some ⟨promoted, l, c, (a : Int)⟩ ∧
      ChainAt s'.node (a :: as) rest e th ∧
      (a :: as).Perm
        (fl.take rest.length ++ List.range' s.node.length (rest.length - fl.length)) ∧
      (∀ b, b < s.node.length → b ≠ p → b ∉ fl.take rest.length →
        s'.node[b]? = s.node[b]?) ∧
      s'.node.length = s.node.length + (rest.length - fl.length) ∧
      FreeList s'.node s'.deletedRootPointer (fl.drop rest.length) ∧
      s'.indexRootPointer = s.indexRootPointer ∧ s'.keyCount = s.keyCount + 1 := by
  obtain ⟨l, th, a, as, s', h1, h2, hg⟩ :=
    insert_graft s fl T k e rc t p c rest ty promoted hfoc hd ht hc hr
  exact ⟨l, th, a, as, s', h1, ⟨T.size + 1, h2⟩, hg.node, hg.chain, hg.slots, hg.keep, hg.len,
    hg.free, hg.root, hg.count⟩

set_option maxRecDepth 100000 in

/-- Witness of C23: on the index that holds `("CAT", 1)` the descent of
`Insert("CATTLE", 2)` stops at the index terminal of `"CAT"` in the slot 0
with the bytes `"TLE"` left; on the index that holds the elements 1 and 2
under `"A"` the descent of `Insert("AB", 3)` stops at the duplicate terminal
in the slot 0 with the byte `"B"` left. -/
theorem C23_superset_insert_witness :
    (AtFocus sampleCatOne [] [] sampleCatOneTree ∧
      descendM sampleCatOneTree (validate [67, 65, 84, 84, 76, 69]).1 [] =
        ([Frame.Xf 1 65, Frame.Xf 2 67], Trie.S 0 84 1, [84, 84, 76, 69]) ∧
      Insert 10 [67, 65, 84, 84, 76, 69] 2 sampleCatOne = some (true, sampleCat) ∧
      ∃ (l th : Int) (a : Nat) (as : List Nat) (s' : Index),
        sampleCatOne.node[0]? = some ⟨indexTerminalNode, l, 84, th⟩ ∧
        (∃ N, ∀ fuel, N ≤ fuel →
          Insert fuel [67, 65, 84, 84, 76, 69] 2 sampleCatOne = some (true, s')) ∧
        s'.node[0]? = some ⟨indexKeyNode, l, 84, (a : Int)⟩ ∧
        ChainAt s'.node (a :: as) [84, 76, 69] 2 th ∧
        (a :: as).Perm (([] : List Nat).take ([84, 76, 69] : List Nat).length ++
          List.range' sampleCatOne.node.length
            (([84, 76, 69] : List Nat).length - ([] : List Nat).length)) ∧
        (∀ b, b < sampleCatOne.node.length → b ≠ 0 →
          b ∉ ([] : List Nat).take ([84, 76, 69] : List Nat).length →
          s'.node[b]? = sampleCatOne.node[b]?) ∧
        s'.node.length = sampleCatOne.node.length +
          (([84, 76, 69] : List Nat).length - ([] : List Nat).length) ∧
        FreeList s'.node s'.deletedRootPointer
          (([] : List Nat).drop ([84, 76, 69] : List Nat).length) ∧
        s'.indexRootPointer = sampleCatOne.indexRootPointer ∧
        s'.keyCount = sampleCatOne.keyCount + 1) ∧
    (AtFocus sampleDupTwo [] [] sampleDupTwoTree ∧
      descendM sampleDupTwoTree (validate [65, 66]).1 [] =
        ([], Trie.L 0 65 (Trie.D 2 49 (Trie.S 1 49 1) (Trie.S 3 50 2)), [65, 66]) ∧
      ∃ (l th : Int) (a : Nat) (as : List Nat) (s' : Index),
        sampleDupTwo.node[0]? = some ⟨duplicateTerminalNode, l, 65, th⟩ ∧
        (∃ N, ∀ fuel, N ≤ fuel → Insert fuel [65, 66] 3 sampleDupTwo = some (true, s')) ∧
        s'.node[0]? = some ⟨duplicateKeyNode, l, 65, (a : Int)⟩ ∧
        ChainAt s'.node (a :: as) [66] 3 th ∧
        (a :: as).Perm (([] : List Nat).take ([66] : List Nat).length ++
          List.range' sampleDupTwo.node.length
            (([66] : List Nat).length - ([] : List Nat).length)) ∧
        (∀ b, b < sampleDupTwo.node.length → b ≠ 0 →
          b ∉ ([] : List Nat).take ([66] : List Nat).length →
          s'.node[b]? = sampleDupTwo.node[b]?) ∧
        s'.node.length = sampleDupTwo.node.length +
          (([66] : List Nat).length - ([] : List Nat).length) ∧
        FreeList s'.node s'.deletedRootPointer (([] : List Nat).drop ([66] : List Nat).length) ∧
        s'.indexRootPointer = sampleDupTwo.indexRootPointer ∧
        s'.keyCount = sampleDupTwo.keyCount + 1) :=
  ⟨⟨atFocus_sampleCatOne, rfl, by decide,
    C23_superset_insert sampleCatOne [] sampleCatOneTree [67, 65, 84, 84, 76, 69] 2
      [Frame.Xf 1 65, Frame.Xf 2 67] (Trie.S 0 84 1) 0 84 [84, 76, 69] indexTerminalNode
      indexKeyNode atFocus_sampleCatOne rfl (Or.inl ⟨rfl, rfl, 1, rfl⟩) (by decide)
      (by decide)⟩,
   ⟨atFocus_sampleDupTwo, rfl,
    C23_superset_insert sampleDupTwo [] sampleDupTwoTree [65, 66] 3
      [] (Trie.L 0 65 (Trie.D 2 49 (Trie.S 1 49 1) (Trie.S 3 50 2))) 0 65 [66]
      duplicateTerminalNode duplicateKeyNode atFocus_sampleDupTwo rfl
      (Or.inr ⟨rfl, rfl, _, rfl⟩) (by decide) (by decide)⟩⟩

/-! ## The claim C29 -/

/-- Claim C29: on every index obtained from a fresh one by `Insert` and
`Delete` calls with ASCII keys, `Scan`, `Select`, `Search` and `Statistics`
return on all fuels from some number on.  The traversal
`traverseAndCollect(root, null)` returns, with the record `tr` of its passes
and the results `res`: the results are what the passes at index key and
index terminal nodes have emitted, every pass is at a slot reachable from
the root, every reachable index key, index terminal or character node is
entered by exactly one pass, so that it is emitted exactly once, and every
reachable decision or duplicate node is entered by exactly two passes.  A
traversal started at any reachable slot `a` with any end pointer `b`, as
`Select` and `Search` start it, returns too, and the slots of its passes are
a run of consecutive passes of the traversal of the whole index, so that it
enters no slot more often. -/
theorem C29_traversal_terminates (s : Index) (log : List Call) (k : List Nat)
    (hr : Reach s log) :
    (∃ (N : Nat) (r1 r2 r3 : Bool × List Int) (r4 : Statistic × List Nat), ∀ fuel, N ≤ fuel →
      Scan fuel s = some r1 ∧ Select fuel k s = some r2 ∧ Search fuel k s = some r3 ∧
      Statistics fuel s = some r4) ∧
    ∃ (N : Nat) (tr : List TraverseState) (res : List Int),
      (∀ fuel, N ≤ fuel →
        runLoopTrace (traverseBody nullIndexPointer s) fuel ⟨left, s.indexRootPointer, []⟩ =
          some (tr, res) ∧
        traverseAndCollect fuel s.indexRootPointer nullIndexPointer s = some res) ∧
      res = (tr.map (emitted s)).flatten ∧
      (∀ x ∈ tr, Reachable s x.indexPointer) ∧
      (∀ (a : Nat) (nd : indexNode), Reachable s (a : Int) → s.node[a]? = some nd →
        ((nd.indexType = indexKeyNode ∨ nd.indexType = indexTerminalNode ∨
            nd.indexType = characterNode) →
          (tr.map (fun x => x.indexPointer)).count (a : Int) = 1) ∧
        ((nd.indexType = decisionNode ∨ nd.indexType = duplicateKeyNode ∨
            nd.indexType = duplicateTerminalNode) →
          (tr.map (fun x => x.indexPointer)).count (a : Int) = 2)) ∧
      (∀ (a : Nat) (b : Int), Reachable s (a : Int) →
        ∃ (tr' : List TraverseState) (res' : List Int) (pre post : List Int),
          (∀ fuel, N ≤ fuel →
            runLoopTrace (traverseBody b s) fuel ⟨left, (a : Int), []⟩ = some (tr', res') ∧
            traverseAndCollect fuel (a : Int) b s = some res') ∧
          tr.map (fun x => x.indexPointer) =
            pre ++ tr'.map (fun x => x.indexPointer) ++ post) := by
  refine ⟨reach_reads_return hr k, ?_⟩
  obtain ⟨fl, oT, hinv, _, _⟩ := reach_tree hr
  obtain ⟨N, tr, res, ht⟩ := traversal_inv s fl oT hinv
  have hres : ∀ (b : Int) (st : TraverseState) (fuel : Nat) (x : List TraverseState × List Int),
      runLoopTrace (traverseBody b s) fuel st = some x →
      runLoop (traverseBody b s) fuel st = some x.2 := by
    intro b st fuel x hx
    rw [← runLoopTrace_result, hx]
    rfl
  refine ⟨N, tr, res, fun fuel hf => ⟨ht.run fuel hf, hres _ _ _ _ (ht.run fuel hf)⟩, ht.emits,
    ht.reach, fun a nd ha hn => ⟨ht.once a nd ha hn, ht.twice a nd ha hn⟩, fun a b ha => ?_⟩
  obtain ⟨tr', res', pre, post, h1, h2⟩ := ht.part a b ha
  exact ⟨tr', res', pre, post, fun fuel hf => ⟨h1 fuel hf, hres _ _ _ _ (h1 fuel hf)⟩, h2⟩

set_option maxRecDepth 100000 in

/-- Witness of C29: on the index that holds the elements 10, 20 and 30 under
`"DOG"` the traversal of the whole index makes 14 passes: the duplicate
terminal in the slot 0 and the decision nodes in the slots 5 and 8 are
entered twice, every other slot once, and the elements 10, 20 and 30 are
emitted once each. -/
theorem C29_traversal_terminates_witness :
    (Reach sampleDog sampleDogLog ∧
      (runLoopTrace (traverseBody nullIndexPointer sampleDog) 20
        ⟨left, sampleDog.indexRootPointer, []⟩).map
          (fun x => (x.1.map (fun y => y.indexPointer), x.2)) =
        some ([2, 1, 0, 5, 4, 3, 5, 8, 7, 6, 8, 10, 9, 0], [10, 20, 30])) ∧
    ((∃ (N : Nat) (r1 r2 r3 : Bool × List Int) (r4 : Statistic × List Nat), ∀ fuel, N ≤ fuel →
      Scan fuel sampleDog = some r1 ∧ Select fuel dogKey sampleDog = some r2 ∧
      Search fuel dogKey sampleDog = some r3 ∧ Statistics fuel sampleDog = some r4) ∧
    ∃ (N : Nat) (tr : List TraverseState) (res : List Int),
      (∀ fuel, N ≤ fuel →
        runLoopTrace (traverseBody nullIndexPointer sampleDog) fuel
          ⟨left, sampleDog.indexRootPointer, []⟩ = some (tr, res) ∧
        traverseAndCollect fuel sampleDog.indexRootPointer nullIndexPointer sampleDog =
          some res) ∧
      res = (tr.map (emitted sampleDog)).flatten ∧
      (∀ x ∈ tr, Reachable sampleDog x.indexPointer) ∧
      (∀ (a : Nat) (nd : indexNode), Reachable sampleDog (a : Int) →
        sampleDog.node[a]? = some nd →
        ((nd.indexType = indexKeyNode ∨ nd.indexType = indexTerminalNode ∨
            nd.indexType = characterNode) →
          (tr.map (fun x => x.indexPointer)).count (a : Int) = 1) ∧
        ((nd.indexType = decisionNode ∨ nd.indexType = duplicateKeyNode ∨
            nd.indexType = duplicateTerminalNode) →
          (tr.map (fun x => x.indexPointer)).count (a : Int) = 2)) ∧
      (∀ (a : Nat) (b : Int), Reachable sampleDog (a : Int) →
        ∃ (tr' : List TraverseState) (res' : List Int) (pre post : List Int),
          (∀ fuel, N ≤ fuel →
            runLoopTrace (traverseBody b sampleDog) fuel ⟨left, (a : Int), []⟩ =
              some (tr', res') ∧
            traverseAndCollect fuel (a : Int) b sampleDog = some res') ∧
          tr.map (fun x => x.indexPointer) =
            pre ++ tr'.map (fun x => x.indexPointer) ++ post)) :=
  ⟨⟨reach_sampleDog, by decide⟩, C29_traversal_terminates sampleDog sampleDogLog dogKey
    reach_sampleDog⟩

/-! ## The claim C25 -/

theorem atFocus_sampleTriple : AtFocus sampleTriple [] [] sampleTripleTree :=
  ⟨rfl, trivial, ⟨rfl, ⟨rfl, ⟨rfl, rfl⟩, rfl⟩⟩, rfl, by decide⟩

theorem wfg_sampleDupTwoTree : sampleDupTwoTree.WFg := by
  simp only [sampleDupTwoTree, Trie.WFg, Trie.WF, Trie.elems]
  decide

theorem wfg_sampleTripleTree : sampleTripleTree.WFg := by
  simp only [sampleTripleTree, Trie.WFg, Trie.WF, Trie.elems]
  decide

/-- Claim C25: the index `s` holds the well-formed tree `T` and the free list
`fl`, and the descent of `Delete(k, e)` through the main part of `T` stops
with the last key byte `c` at the duplicates node of that byte in the slot
`p`, a duplicate terminal (resp. a duplicate key), with the sub-branch `sub`.
Then the slot `p` holds a node of that type with the root of `sub` as left
pointer and a right pointer `r`, `sub` is laid out in the arena and holds
`n ≥ 2` elements, and `Delete` returns one result `(b, s')` on enough fuel.
When it returns true, the node in the slot `p` afterwards is an index
terminal (resp. an index key) if and only if `n = 2`, and a duplicate node
of the type before if and only if `n ≥ 3`.  When `n = 2`, `sub` holds `e`
and one other element `e'`, the slot `p` holds an index terminal (resp. an
index key) with the left pointer `e'`, the byte `c` and the right pointer
`r`, the free list afterwards is made of the slots of `sub` and of the free
list before, and `Deleted` of `Statistics` has grown by the number of nodes
of `sub`.  When `n ≥ 3`, the slot `p` keeps its type, byte and right pointer,
and its left pointer is the root of a sub-branch `sub'` laid out in the
arena, which holds the `n - 1` elements of `sub` other than `e`. -/
theorem C25_duplicate_collapse (s : Index) (fl : List Nat) (T : Trie) (k : List Nat) (e : Int)
    (rc : Path) (t : Trie) (p c : Nat) (sub : Trie) (ty demoted : Nat)
    (hfoc : AtFocus s fl [] T) (hw : T.WFg)
    (hd : descendM T (validate k).1 [] = (rc, t, [c]))
    (ht : (ty = duplicateTerminalNode ∧ demoted = indexTerminalNode ∧ t = Trie.L p c sub) ∨
      (ty = duplicateKeyNode ∧ demoted = indexKeyNode ∧ ∃ n, t = Trie.K p c sub n)) :
    ∃ (r : Int) (b : Bool) (s' : Index),
      s.node[p]? = some ⟨ty, (sub.addr : Int), c, r⟩ ∧ Trie.Laid s.node sub (p : Int) ∧
      2 ≤ sub.elems.length ∧
      (∃ N, ∀ fuel, N ≤ fuel → Delete fuel k e s = some (b, s')) ∧
      (b = true →
        (∃ nd, s'.node[p]? = some nd ∧
          (nd.indexType = demoted ↔ sub.elems.length = 2) ∧
          (nd.indexType = ty ↔ 3 ≤ sub.elems.length)) ∧
        ((sub.elems.length = 2 ∧ ∃ (e' : Int) (fl' : List Nat),
            sub.elems.Perm [e, e'] ∧
            s'.node[p]? = some ⟨demoted, e', c, r⟩ ∧
            FreeList s'.node s'.deletedRootPointer fl' ∧ fl'.Perm (sub.addrs ++ fl) ∧
            (∀ a ∈ sub.addrs, a ∈ fl') ∧
            ∃ N, ∀ fuel, N ≤ fuel → ∃ st st', Statistics fuel s = some st ∧
              Statistics fuel s' = some st' ∧
              st'.1.Deleted = st.1.Deleted + (sub.addrs.length : Int)) ∨
         (3 ≤ sub.elems.length ∧ ∃ sub' : Trie,
            s'.node[p]? = some ⟨ty, (sub'.addr : Int), c, r⟩ ∧
            Trie.Laid s'.node sub' (p : Int) ∧
            sub.elems.Perm (e :: sub'.elems) ∧
            sub'.elems.length = sub.elems.length - 1))) := by
  rcases ht with ⟨rfl, rfl, rfl⟩ | ⟨rfl, rfl, n, rfl⟩
  · obtain ⟨hl, h2, b, s', hrun, hout⟩ :=
      delete_dup_exact e s fl T k rc (Frame.Ls p c) sub c hfoc hw hd rfl
    refine ⟨Path.thread rc (-1), b, s', hl.1, hl.2, h2, hrun, fun hb => ?_⟩
    rcases hout hb with ⟨hn, e', fl', h3, h4, h5, h6, h7⟩ | ⟨hn, sub', h3, h4, h5⟩
    · have h4' : s'.node[p]? = some ⟨indexTerminalNode, e', c, Path.thread rc (-1)⟩ := h4
      exact ⟨⟨_, h4', by simp [hn], by simp [hn, indexTerminalNode, duplicateTerminalNode]⟩,
        Or.inl ⟨hn, e', fl', h3, h4', h5, h6,
          fun a ha => h6.symm.subset (List.mem_append_left _ ha), h7⟩⟩
    · exact ⟨⟨_, h3.1, by
          simp only [indexTerminalNode, duplicateTerminalNode]
          constructor
          · intro hc; exact absurd hc (by decide)
          · intro hc; omega, by simp [hn]⟩,
        Or.inr ⟨hn, sub', h3.1, h3.2, h4, h5⟩⟩
  · obtain ⟨hl, h2, b, s', hrun, hout⟩ :=
      delete_dup_exact e s fl T k rc (Frame.Ks p c n) sub c hfoc hw hd rfl
    refine ⟨(n.addr : Int), b, s', hl.1, hl.2.1, h2, hrun, fun hb => ?_⟩
    rcases hout hb with ⟨hn, e', fl', h3, h4, h5, h6, h7⟩ | ⟨hn, sub', h3, h4, h5⟩
    · have h4' : s'.node[p]? = some ⟨indexKeyNode, e', c, (n.addr : Int)⟩ := h4.1
      exact ⟨⟨_, h4', by simp [hn], by simp [hn, indexKeyNode, duplicateKeyNode]⟩,
        Or.inl ⟨hn, e', fl', h3, h4', h5, h6,
          fun a ha => h6.symm.subset (List.mem_append_left _ ha), h7⟩⟩
    · exact ⟨⟨_, h3.1, by
          simp only [indexKeyNode, duplicateKeyNode]
          constructor
          · intro hc; exact absurd hc (by decide)
          · intro hc; omega, by simp [hn]⟩,
        Or.inr ⟨hn, sub', h3.1, h3.2.1, h4, h5⟩⟩

/-- Witness of C25: `Insert("A", 1)`, `Insert("A", 2)` on a fresh index give
`sampleDupTwo`, with a sub-branch of two elements under the duplicate
terminal in the slot 0; `Delete("A", 1)` returns true and leaves the index
terminal of the element 2 in the slot 0, the count 0 of duplicate terminal
nodes, the result 2 of `Select("A")` and the key count 1.  On the index
with the elements 1, 12 and 3 under `"A"`, `Delete("A", 12)` returns true
and the slot 0 keeps its duplicate terminal. -/
theorem C25_duplicate_collapse_witness :
    (((Insert 20 [65] 1 (Initialise zeroIndex)).bind (fun x => Insert 20 [65] 2 x.2) =
        some (true, sampleDupTwo) ∧
      AtFocus sampleDupTwo [] [] sampleDupTwoTree ∧ sampleDupTwoTree.WFg ∧
      descendM sampleDupTwoTree (validate [65]).1 [] =
        ([], Trie.L 0 65 (Trie.D 2 49 (Trie.S 1 49 1) (Trie.S 3 50 2)), [65]) ∧
      Delete 20 [65] 1 sampleDupTwo = some (true, sampleDupLess) ∧
      (Statistics 20 sampleDupLess).map
        (fun x => (x.1.DuplicateTerminalNodeCount, x.1.Deleted)) = some (0, 3) ∧
      Select 20 [65] sampleDupLess = some (true, [2]) ∧ Count sampleDupLess = 1) ∧
     (∃ (r : Int) (b : Bool) (s' : Index),
      sampleDupTwo.node[0]? = some ⟨duplicateTerminalNode, ((Trie.D 2 49 (Trie.S 1 49 1) (Trie.S 3 50 2)).addr : Int), 65, r⟩ ∧ Trie.Laid sampleDupTwo.node (Trie.D 2 49 (Trie.S 1 49 1) (Trie.S 3 50 2)) ((0 : Nat) : Int) ∧
      2 ≤ (Trie.D 2 49 (Trie.S 1 49 1) (Trie.S 3 50 2)).elems.length ∧
      (∃ N, ∀ fuel, N ≤ fuel → Delete fuel [65] 1 sampleDupTwo = some (b, s')) ∧
      (b = true →
        (∃ nd, s'.node[0]? = some nd ∧
          (nd.indexType = indexTerminalNode ↔ (Trie.D 2 49 (Trie.S 1 49 1) (Trie.S 3 50 2)).elems.length = 2) ∧
          (nd.indexType = duplicateTerminalNode ↔ 3 ≤ (Trie.D 2 49 (Trie.S 1 49 1) (Trie.S 3 50 2)).elems.length)) ∧
        (((Trie.D 2 49 (Trie.S 1 49 1) (Trie.S 3 50 2)).elems.length = 2 ∧ ∃ (e' : Int) (fl' : List Nat),
            (Trie.D 2 49 (Trie.S 1 49 1) (Trie.S 3 50 2)).elems.Perm [1, e'] ∧
            s'.node[0]? = some ⟨indexTerminalNode, e', 65, r⟩ ∧
            FreeList s'.node s'.deletedRootPointer fl' ∧ fl'.Perm ((Trie.D 2 49 (Trie.S 1 49 1) (Trie.S 3 50 2)).addrs ++ []) ∧
            (∀ a ∈ (Trie.D 2 49 (Trie.S 1 49 1) (Trie.S 3 50 2)).addrs, a ∈ fl') ∧
            ∃ N, ∀ fuel, N ≤ fuel → ∃ st st', Statistics fuel sampleDupTwo = some st ∧
              Statistics fuel s' = some st' ∧
              st'.1.Deleted = st.1.Deleted + ((Trie.D 2 49 (Trie.S 1 49 1) (Trie.S 3 50 2)).addrs.length : Int)) ∨
         (3 ≤ (Trie.D 2 49 (Trie.S 1 49 1) (Trie.S 3 50 2)).elems.length ∧ ∃ sub' : Trie,
            s'.node[0]? = some ⟨duplicateTerminalNode, (sub'.addr : Int), 65, r⟩ ∧
            Trie.Laid s'.node sub' ((0 : Nat) : Int) ∧
            (Trie.D 2 49 (Trie.S 1 49 1) (Trie.S 3 50 2)).elems.Perm (1 :: sub'.elems) ∧
            sub'.elems.length = (Trie.D 2 49 (Trie.S 1 49 1) (Trie.S 3 50 2)).elems.length - 1))))) ∧
    ((AtFocus sampleTriple [] [] sampleTripleTree ∧ sampleTripleTree.WFg ∧
      descendM sampleTripleTree (validate [65]).1 [] =
        ([], Trie.L 0 65 (Trie.D 3 49 (Trie.R 1 49 1 (Trie.S 2 50 12)) (Trie.S 4 51 3)), [65]) ∧
      (Delete 20 [65] 12 sampleTriple).map (fun x => (x.1, x.2.node[0]?)) =
        some (true, some ⟨duplicateTerminalNode, 3, 65, -1⟩)) ∧
     (∃ (r : Int) (b : Bool) (s' : Index),
      sampleTriple.node[0]? = some ⟨duplicateTerminalNode, ((Trie.D 3 49 (Trie.R 1 49 1 (Trie.S 2 50 12)) (Trie.S 4 51 3)).addr : Int), 65, r⟩ ∧ Trie.Laid sampleTriple.node (Trie.D 3 49 (Trie.R 1 49 1 (Trie.S 2 50 12)) (Trie.S 4 51 3)) ((0 : Nat) : Int) ∧
      2 ≤ (Trie.D 3 49 (Trie.R 1 49 1 (Trie.S 2 50 12)) (Trie.S 4 51 3)).elems.length ∧
      (∃ N, ∀ fuel, N ≤ fuel → Delete fuel [65] 12 sampleTriple = some (b, s')) ∧
      (b = true →
        (∃ nd, s'.node[0]? = some nd ∧
          (nd.indexType = indexTerminalNode ↔ (Trie.D 3 49 (Trie.R 1 49 1 (Trie.S 2 50 12)) (Trie.S 4 51 3)).elems.length = 2) ∧
          (nd.indexType = duplicateTerminalNode ↔ 3 ≤ (Trie.D 3 49 (Trie.R 1 49 1 (Trie.S 2 50 12)) (Trie.S 4 51 3)).elems.length)) ∧
        (((Trie.D 3 49 (Trie.R 1 49 1 (Trie.S 2 50 12)) (Trie.S 4 51 3)).elems.length = 2 ∧ ∃ (e' : Int) (fl' : List Nat),
            (Trie.D 3 49 (Trie.R 1 49 1 (Trie.S 2 50 12)) (Trie.S 4 51 3)).elems.Perm [12, e'] ∧
            s'.node[0]? = some ⟨indexTerminalNode, e', 65, r⟩ ∧
            FreeList s'.node s'.deletedRootPointer fl' ∧ fl'.Perm ((Trie.D 3 49 (Trie.R 1 49 1 (Trie.S 2 50 12)) (Trie.S 4 51 3)).addrs ++ []) ∧
            (∀ a ∈ (Trie.D 3 49 (Trie.R 1 49 1 (Trie.S 2 50 12)) (Trie.S 4 51 3)).addrs, a ∈ fl') ∧
            ∃ N, ∀ fuel, N ≤ fuel → ∃ st st', Statistics fuel sampleTriple = some st ∧
              Statistics fuel s' = some st' ∧
              st'.1.Deleted = st.1.Deleted + ((Trie.D 3 49 (Trie.R 1 49 1 (Trie.S 2 50 12)) (Trie.S 4 51 3)).addrs.length : Int)) ∨
         (3 ≤ (Trie.D 3 49 (Trie.R 1 49 1 (Trie.S 2 50 12)) (Trie.S 4 51 3)).elems.length ∧ ∃ sub' : Trie,
            s'.node[0]? = some ⟨duplicateTerminalNode, (sub'.addr : Int), 65, r⟩ ∧
            Trie.Laid s'.node sub' ((0 : Nat) : Int) ∧
            (Trie.D 3 49 (Trie.R 1 49 1 (Trie.S 2 50 12)) (Trie.S 4 51 3)).elems.Perm (12 :: sub'.elems) ∧
            sub'.elems.length = (Trie.D 3 49 (Trie.R 1 49 1 (Trie.S 2 50 12)) (Trie.S 4 51 3)).elems.length - 1))))) :=
  ⟨⟨⟨by decide, atFocus_sampleDupTwo, wfg_sampleDupTwoTree, rfl, by decide, by decide,
      by decide, rfl⟩,
    C25_duplicate_collapse sampleDupTwo [] sampleDupTwoTree [65] 1 []
      (Trie.L 0 65 (Trie.D 2 49 (Trie.S 1 49 1) (Trie.S 3 50 2))) 0 65 (Trie.D 2 49 (Trie.S 1 49 1) (Trie.S 3 50 2)) duplicateTerminalNode indexTerminalNode
      atFocus_sampleDupTwo wfg_sampleDupTwoTree rfl (Or.inl ⟨rfl, rfl, rfl⟩)⟩,
   ⟨⟨atFocus_sampleTriple, wfg_sampleTripleTree, rfl, by decide⟩,
    C25_duplicate_collapse sampleTriple [] sampleTripleTree [65] 12 []
      (Trie.L 0 65 (Trie.D 3 49 (Trie.R 1 49 1 (Trie.S 2 50 12)) (Trie.S 4 51 3))) 0 65 (Trie.D 3 49 (Trie.R 1 49 1 (Trie.S 2 50 12)) (Trie.S 4 51 3)) duplicateTerminalNode indexTerminalNode
      atFocus_sampleTriple wfg_sampleTripleTree rfl (Or.inl ⟨rfl, rfl, rfl⟩)⟩⟩

/-! ## The claim C31 -/

/-- Claim C31: in the embedding a read or write `node[p]` outside
`0 ≤ p < len(node)`, a slice of the key outside its bounds and a run of the
stack-reset loop past the end of the stack give `none`, and only these and
the end of the fuel do; an operation hands every `none` on to its result.
So the accesses are characterised: `getNode` and `setNode` give a value
exactly for `0 ≤ p < len(node)`, hence never for the null pointer `-1`, the
slice `keyString[i:i+1]` exactly for `i < len(keyString)`, the slice
`keyString[i:]` exactly for `i ≤ len(keyString)`, and the stack-reset loop
exactly when the stack holds the pointer.  On every index obtained from a
fresh one by `Insert` and `Delete` calls with ASCII keys, for every key `k`
of arbitrary bytes and every element `e`, each of `Insert(k, e)`,
`Delete(k, e)`, `Select(k)`, `Search(k)`, `Scan` and `Statistics` returns a
result on all fuels from some number on: no access of the run is out of
range.  The scanning loop of `Statistics` is given with the record of its
passes: every pass reads the node at a pointer in range, a pass at an index
terminal with a thread finds the thread target in the stack after the push,
and a pass that leaves a duplicate terminal by its thread finds the target
in the stack. -/
theorem C31_no_out_of_range (s : Index) (log : List Call) (hr : Reach s log) (k : List Nat)
    (e : Int) :
    ((∀ (ns : List indexNode) (p : Int),
        (getNode ns p).isSome = true ↔ (0 ≤ p ∧ p < (ns.length : Int))) ∧
      (∀ (ns : List indexNode) (p : Int) (n : indexNode),
        (setNode ns p n).isSome = true ↔ (0 ≤ p ∧ p < (ns.length : Int))) ∧
      (∀ (ks : List Nat) (i : Nat), (sliceOne ks i).isSome = true ↔ i < ks.length) ∧
      (∀ (ks : List Nat) (i : Nat), (sliceFrom ks i).isSome = true ↔ i ≤ ks.length) ∧
      (∀ (stack : List Int) (p : Int), (stackSeek stack p).isSome = true ↔ p ∈ stack)) ∧
    (∃ (N : Nat) (ri rd : Bool × Index) (r1 r2 r3 : Bool × List Int)
        (r4 : Statistic × List Nat), ∀ fuel, N ≤ fuel →
      Insert fuel k e s = some ri ∧ Delete fuel k e s = some rd ∧
      Select fuel k s = some r1 ∧ Search fuel k s = some r2 ∧ Scan fuel s = some r3 ∧
      Statistics fuel s = some r4) ∧
    ∃ (N : Nat) (tr : List StatState) (st : StatState),
      (∀ fuel, N ≤ fuel → runLoopTrace (statsBody s) fuel
        ⟨[], 0, left, ⟨0, 0, 0, 0, 0, 0, 0, 0, 0⟩, s.indexRootPointer⟩ = some (tr, st)) ∧
      ∀ x ∈ tr, ∃ nd, 0 ≤ x.indexPointer ∧ x.indexPointer < (s.node.length : Int) ∧
        getNode s.node x.indexPointer = some nd ∧
        (nd.indexType = indexTerminalNode → nd.rightPointer ≠ nullIndexPointer →
          nd.rightPointer ∈ (pushStack x.stack x.indexPointer x.stackPointer).1) ∧
        (nd.indexType = duplicateTerminalNode → x.direction ≠ left →
          nd.rightPointer ≠ nullIndexPointer → nd.rightPointer ∈ x.stack) := by
  refine ⟨⟨getNode_isSome_iff, setNode_isSome_iff, sliceOne_isSome_iff, sliceFrom_isSome_iff,
    stackSeek_isSome_iff⟩, ?_⟩
  obtain ⟨fl, oT, hinv, _, _⟩ := reach_tree hr
  obtain ⟨N0, r3, r1, r2, r4, hreads⟩ := reach_reads_return hr k
  obtain ⟨N1, ri, hN1, _⟩ := insert_invG s fl oT k e hinv.invG
  obtain ⟨N2, rd, hN2, _⟩ := delete_invG s fl oT k e hinv.invG
  refine ⟨⟨max N0 (max N1 N2), ri, rd, r1, r2, r3, r4, fun fuel hf => ?_⟩, ?_⟩
  · have h0 := hreads fuel (le_trans (le_max_left _ _) hf)
    exact ⟨hN1 fuel (le_trans (le_trans (le_max_left _ _) (le_max_right _ _)) hf),
      hN2 fuel (le_trans (le_trans (le_max_right _ _) (le_max_right _ _)) hf),
      h0.2.1, h0.2.2.1, h0.1, h0.2.2.2⟩
  · obtain ⟨tr, st, htr, hpass⟩ := stats_passes N0 s r4 (hreads N0 (le_refl _)).2.2.2
    refine ⟨N0, tr, st, fun fuel hf => runLoopTrace_mono _ _ _ _ htr fuel hf, fun x hx => ?_⟩
    obtain ⟨nd, h1, h2, h3⟩ := hpass x hx
    have hrange := (getNode_isSome_iff s.node x.indexPointer).mp (by rw [h1]; rfl)
    exact ⟨nd, hrange.1, hrange.2, h1, h2, h3⟩

set_option maxRecDepth 100000 in

/-- Witness of C31: the index with the elements 10 and 30 under `"DOG"` after
the deletion of 20, with three slots on the free list, is obtained by calls
with ASCII keys; on it the six operations return for the key `"DOG"` and the
element 40, and the scanning loop of `Statistics` makes 10 passes, through
the slots 2, 1, 0, 5, 4, 3, 5, 10, 9 and 0 again. -/
theorem C31_no_out_of_range_witness :
    (Reach sampleDogLess sampleDogLessLog ∧
      (Insert 30 dogKey 40 sampleDogLess).isSome = true ∧
      (Delete 30 dogKey 40 sampleDogLess) = some (false, sampleDogLess) ∧
      Select 30 dogKey sampleDogLess = some (true, [10, 30]) ∧
      (Statistics 30 sampleDogLess).isSome = true ∧
      (runLoopTrace (statsBody sampleDogLess) 30
        ⟨[], 0, left, ⟨0, 0, 0, 0, 0, 0, 0, 0, 0⟩, sampleDogLess.indexRootPointer⟩).map
          (fun x => x.1.map (fun y => y.indexPointer)) = some [2, 1, 0, 5, 4, 3, 5, 10, 9, 0]) ∧
    (((∀ (ns : List indexNode) (p : Int),
        (getNode ns p).isSome = true ↔ (0 ≤ p ∧ p < (ns.length : Int))) ∧
      (∀ (ns : List indexNode) (p : Int) (n : indexNode),
        (setNode ns p n).isSome = true ↔ (0 ≤ p ∧ p < (ns.length : Int))) ∧
      (∀ (ks : List Nat) (i : Nat), (sliceOne ks i).isSome = true ↔ i < ks.length) ∧
      (∀ (ks : List Nat) (i : Nat), (sliceFrom ks i).isSome = true ↔ i ≤ ks.length) ∧
      (∀ (stack : List Int) (p : Int), (stackSeek stack p).isSome = true ↔ p ∈ stack)) ∧
    (∃ (N : Nat) (ri rd : Bool × Index) (r1 r2 r3 : Bool × List Int)
        (r4 : Statistic × List Nat), ∀ fuel, N ≤ fuel →
      Insert fuel dogKey 40 sampleDogLess = some ri ∧ Delete fuel dogKey 40 sampleDogLess = some rd ∧
      Select fuel dogKey sampleDogLess = some r1 ∧ Search fuel dogKey sampleDogLess = some r2 ∧ Scan fuel sampleDogLess = some r3 ∧
      Statistics fuel sampleDogLess = some r4) ∧
    ∃ (N : Nat) (tr : List StatState) (st : StatState),
      (∀ fuel, N ≤ fuel → runLoopTrace (statsBody sampleDogLess) fuel
        ⟨[], 0, left, ⟨0, 0, 0, 0, 0, 0, 0, 0, 0⟩, sampleDogLess.indexRootPointer⟩ = some (tr, st)) ∧
      ∀ x ∈ tr, ∃ nd, 0 ≤ x.indexPointer ∧ x.indexPointer < (sampleDogLess.node.length : Int) ∧
        getNode sampleDogLess.node x.indexPointer = some nd ∧
        (nd.indexType = indexTerminalNode → nd.rightPointer ≠ nullIndexPointer →
          nd.rightPointer ∈ (pushStack x.stack x.indexPointer x.stackPointer).1) ∧
        (nd.indexType = duplicateTerminalNode → x.direction ≠ left →
          nd.rightPointer ≠ nullIndexPointer → nd.rightPointer ∈ x.stack)) :=
  ⟨⟨reach_sampleDogLess, by decide, by decide, by decide, by decide, by decide⟩,
    C31_no_out_of_range sampleDogLess sampleDogLessLog reach_sampleDogLess dogKey 40⟩

/-! ## The claim C7 -/

set_option maxRecDepth 100000 in

/-- Claim C7 fails as stated, at two inputs, on the index that holds the pair
("a", 1).  The empty string is an initial segment of `"a"`: `Search("a")`
returns the element 1 and `Search("")` returns nothing.  The two bytes
`"a\xC2"` are an initial segment of `"a\xC2\xA0"`, the letter with a
no-break space after it, whose normalized form is `"a"`, the normalized form
of `"a\xC2"` being `"a\xC2"` itself: `Search("a\xC2\xA0")` returns the
element 1 and `Search("a\xC2")` returns nothing. -/
theorem C7_initial_segment_counterexample :
    ReachAny sampleOne ∧
    (([] : List Nat) <+: [97] ∧
      (∀ fuel, Search fuel [] sampleOne = some (false, [])) ∧
      Search 4 [97] sampleOne = some (true, [1])) ∧
    (([97, 194] : List Nat) <+: [97, 194, 160] ∧
      normalize [97, 194] = [97, 194] ∧ normalize [97, 194, 160] = [97] ∧
      Search 4 [97, 194] sampleOne = some (false, []) ∧
      Search 4 [97, 194, 160] sampleOne = some (true, [1])) :=
  ⟨reachAny_of_reach reach_sampleOne, ⟨List.nil_prefix, fun _ => rfl, by decide⟩,
    ⟨⟨[160], rfl⟩, by decide, by decide, by decide, by decide⟩⟩

/-- Claim C7, amended: on every index obtained from a fresh one by `Insert`
and `Delete` calls, with keys of arbitrary bytes, for all strings `p1` and
`p2` of arbitrary bytes such that the normalized form of `p1` is not empty
and is an initial segment of the normalized form of `p2`, as it is whenever
`p1` is an initial segment of `p2` and `p2` is an ASCII string, `Search(p1)`
and `Search(p2)` return on enough fuel, and every element returned by
`Search(p2)` is also returned by `Search(p1)`. -/
theorem C7_search_monotone (s : Index) (p1 p2 : List Nat) (hr : ReachAny s)
    (hne : normalize p1 ≠ [])
    (hp : normalize p1 <+: normalize p2 ∨ (AsciiKey p2 ∧ p1 <+: p2)) :
    ∃ L1 L2 : List Int, (∃ N, ∀ fuel, N ≤ fuel →
        Search fuel p1 s = some (decide (L1 ≠ []), L1) ∧
        Search fuel p2 s = some (decide (L2 ≠ []), L2)) ∧
      ∀ e ∈ L2, e ∈ L1 := by
  have hq : normalize p1 <+: normalize p2 := by
    rcases hp with h | ⟨h2, h⟩
    · exact h
    · exact normalize_start p1 p2 h2 h hne
  obtain ⟨fl, oT, hinv⟩ := reachAny_invG hr
  obtain ⟨N1, hs1⟩ := search_holds s oT p1 hinv.holds
  obtain ⟨N2, hs2⟩ := search_holds s oT p2 hinv.holds
  have hflag : ∀ L : List Int, decide (L.length > 0) = decide (L ≠ []) := by
    intro L
    cases L <;> simp
  refine ⟨seekOf oT (validate p1).1, seekOf oT (validate p2).1,
    ⟨max N1 N2, fun fuel hf => ⟨?_, ?_⟩⟩, fun e he => ?_⟩
  · rw [hs1 fuel (le_trans (le_max_left _ _) hf), hflag]
  · rw [hs2 fuel (le_trans (le_max_right _ _) hf), hflag]
  · obtain ⟨q, hq'⟩ := hq
    have hq2 : (validate p2).1 = (validate p1).1 ++ q := hq'.symm
    rw [hq2] at he
    exact seekOf_mono oT _ q e hne he

set_option maxRecDepth 100000 in

/-- Witness of the amended C7: `"CAT"` and `"CATTLE"` on the index that holds
the pairs ("CAT", 1) and ("CATTLE", 2), as ASCII strings and by their
normalized forms; the one byte `"\x80"` and the bytes `"\x80A"` on the
index obtained by two calls `Insert("\x80", 1)`. -/
theorem C7_search_monotone_witness :
    ((ReachAny sampleCat ∧ normalize [67, 65, 84] ≠ [] ∧
        AsciiKey [67, 65, 84, 84, 76, 69] ∧
        ([67, 65, 84] : List Nat) <+: [67, 65, 84, 84, 76, 69] ∧
        Search 20 [67, 65, 84] sampleCat = some (true, [1, 2]) ∧
        Search 20 [67, 65, 84, 84, 76, 69] sampleCat = some (true, [2])) ∧
      ∃ L1 L2 : List Int, (∃ N, ∀ fuel, N ≤ fuel →
          Search fuel [67, 65, 84] sampleCat = some (decide (L1 ≠ []), L1) ∧
          Search fuel [67, 65, 84, 84, 76, 69] sampleCat = some (decide (L2 ≠ []), L2)) ∧
        ∀ e ∈ L2, e ∈ L1) ∧
    ((ReachAny sampleHigh ∧ normalize [128] ≠ [] ∧ normalize [128] <+: normalize [128, 65]) ∧
      ∃ L1 L2 : List Int, (∃ N, ∀ fuel, N ≤ fuel →
          Search fuel [128] sampleHigh = some (decide (L1 ≠ []), L1) ∧
          Search fuel [128, 65] sampleHigh = some (decide (L2 ≠ []), L2)) ∧
        ∀ e ∈ L2, e ∈ L1) :=
  ⟨⟨⟨reachAny_of_reach reach_sampleCat, by decide, by decide, ⟨[84, 76, 69], rfl⟩, by decide,
      by decide⟩,
    C7_search_monotone sampleCat [67, 65, 84] [67, 65, 84, 84, 76, 69]
      (reachAny_of_reach reach_sampleCat) (by decide)
      (Or.inr ⟨by decide, ⟨[84, 76, 69], rfl⟩⟩)⟩,
   ⟨⟨reachAny_sampleHigh, by decide, by decide⟩,
    C7_search_monotone sampleHigh [128] [128, 65] reachAny_sampleHigh (by decide)
      (Or.inl (by decide))⟩⟩

/-! ## The claim C30 -/

/-- Claim C30: the read operations are taken as transitions of the index with
its mutex, `Run.Select`, `Run.Search`, `Run.Scan`, `Run.Count` and
`Run.Statistics`, in which every function and every pass of a loop hands the
index on.  For every state `g` of the index and its mutex and every key `k`:
a run of `Select`, `Search`, `Scan` or `Statistics` that returns, on any
fuel, leaves the arena nodes, the arena length, the root pointer, the head
of the free list and the key count as they were, and the mutex as it was; a
second run of the same operation right after it returns the same result on
that fuel and on every larger one, and no run of it returns another result;
`Count` returns the key count and leaves the index as it was.  The results
are those of the functions `Select`, `Search`, `Scan` and `Statistics` of
the index: a run either does not return or returns that result.  On an
index obtained from a fresh one by `Insert` and `Delete` calls with ASCII
keys, with its mutex free, the five operations do return, on all fuels from
some number on. -/
theorem C30_reads_pure (g : Guarded) (k : List Nat) :
    (∀ fuel r g1, Run.Select fuel k g = some (r, g1) →
      (g1.index.node = g.index.node ∧ g1.index.node.length = g.index.node.length ∧
        g1.index.indexRootPointer = g.index.indexRootPointer ∧
        g1.index.deletedRootPointer = g.index.deletedRootPointer ∧
        g1.index.keyCount = g.index.keyCount ∧ g1.held = g.held) ∧
      (∀ fuel', fuel ≤ fuel' → Run.Select fuel' k g1 = some (r, g1)) ∧
      ∀ fuel' r2 g2, Run.Select fuel' k g1 = some (r2, g2) → r2 = r ∧ g2 = g1) ∧
    (∀ fuel r g1, Run.Search fuel k g = some (r, g1) →
      (g1.index.node = g.index.node ∧ g1.index.node.length = g.index.node.length ∧
        g1.index.indexRootPointer = g.index.indexRootPointer ∧
        g1.index.deletedRootPointer = g.index.deletedRootPointer ∧
        g1.index.keyCount = g.index.keyCount ∧ g1.held = g.held) ∧
      (∀ fuel', fuel ≤ fuel' → Run.Search fuel' k g1 = some (r, g1)) ∧
      ∀ fuel' r2 g2, Run.Search fuel' k g1 = some (r2, g2) → r2 = r ∧ g2 = g1) ∧
    (∀ fuel r g1, Run.Scan fuel g = some (r, g1) →
      (g1.index.node = g.index.node ∧ g1.index.node.length = g.index.node.length ∧
        g1.index.indexRootPointer = g.index.indexRootPointer ∧
        g1.index.deletedRootPointer = g.index.deletedRootPointer ∧
        g1.index.keyCount = g.index.keyCount ∧ g1.held = g.held) ∧
      (∀ fuel', fuel ≤ fuel' → Run.Scan fuel' g1 = some (r, g1)) ∧
      ∀ fuel' r2 g2, Run.Scan fuel' g1 = some (r2, g2) → r2 = r ∧ g2 = g1) ∧
    (∀ fuel r g1, Run.Statistics fuel g = some (r, g1) →
      (g1.index.node = g.index.node ∧ g1.index.node.length = g.index.node.length ∧
        g1.index.indexRootPointer = g.index.indexRootPointer ∧
        g1.index.deletedRootPointer = g.index.deletedRootPointer ∧
        g1.index.keyCount = g.index.keyCount ∧ g1.held = g.held) ∧
      (∀ fuel', fuel ≤ fuel' → Run.Statistics fuel' g1 = some (r, g1)) ∧
      ∀ fuel' r2 g2, Run.Statistics fuel' g1 = some (r2, g2) → r2 = r ∧ g2 = g1) ∧
    (∀ r g1, Run.Count g = some (r, g1) →
      (r = g.index.keyCount ∧ g1.index.node = g.index.node ∧
        g1.index.node.length = g.index.node.length ∧
        g1.index.indexRootPointer = g.index.indexRootPointer ∧
        g1.index.deletedRootPointer = g.index.deletedRootPointer ∧
        g1.index.keyCount = g.index.keyCount ∧ g1.held = g.held) ∧
      Run.Count g1 = some (r, g1)) ∧
    (∀ fuel, Run.Select fuel k g = none ∨
      Run.Select fuel k g = (Select fuel k g.index).map (fun r => (r, g))) ∧
    (∀ fuel, Run.Search fuel k g = none ∨
      Run.Search fuel k g = (Search fuel k g.index).map (fun r => (r, g))) ∧
    (∀ fuel, Run.Scan fuel g = none ∨
      Run.Scan fuel g = (Scan fuel g.index).map (fun r => (r, g))) ∧
    (∀ fuel, Run.Statistics fuel g = (Statistics fuel g.index).map (fun r => (r, g))) ∧
    (∀ log, Reach g.index log → g.held = false →
      ∃ (N : Nat) (r1 r2 r3 : Bool × List Int) (r4 : Statistic × List Nat), ∀ fuel, N ≤ fuel →
        Run.Scan fuel g = some (r1, g) ∧ Run.Select fuel k g = some (r2, g) ∧
        Run.Search fuel k g = some (r3, g) ∧ Run.Statistics fuel g = some (r4, g) ∧
        Run.Count g = some (g.index.keyCount, g)) := by
  have keep : ∀ g1 : Guarded, g1 = g →
      g1.index.node = g.index.node ∧ g1.index.node.length = g.index.node.length ∧
        g1.index.indexRootPointer = g.index.indexRootPointer ∧
        g1.index.deletedRootPointer = g.index.deletedRootPointer ∧
        g1.index.keyCount = g.index.keyCount ∧ g1.held = g.held := by
    intro g1 h
    subst h
    exact ⟨rfl, rfl, rfl, rfl, rfl, rfl⟩
  have hsel := reads_twice (fun n x => Run.Select n k x) (fun n s => Select n k s)
    (fun x => x.held) (fun n x => run_Select n k x) (fun n n' s r => Select_mono n n' k s r)
  have hsea := reads_twice (fun n x => Run.Search n k x) (fun n s => Search n k s)
    (fun x => x.held) (fun n x => run_Search n k x) (fun n n' s r => Search_mono n n' k s r)
  have hsca := reads_twice Run.Scan Scan (fun x => x.held) run_Scan Scan_mono
  have hsta := reads_twice Run.Statistics Statistics (fun _ => false)
    (fun n x => by rw [run_Statistics]; rfl) Statistics_mono
  refine ⟨fun fuel r g1 h => ?_, fun fuel r g1 h => ?_, fun fuel r g1 h => ?_,
    fun fuel r g1 h => ?_, fun r g1 h => ?_, fun fuel => ?_, fun fuel => ?_, fun fuel => ?_,
    fun fuel => run_Statistics fuel g, fun log hr hfree => ?_⟩
  · obtain ⟨h1, h2, h3⟩ := hsel g fuel r g1 h
    exact ⟨keep g1 h1, h2, h3⟩
  · obtain ⟨h1, h2, h3⟩ := hsea g fuel r g1 h
    exact ⟨keep g1 h1, h2, h3⟩
  · obtain ⟨h1, h2, h3⟩ := hsca g fuel r g1 h
    exact ⟨keep g1 h1, h2, h3⟩
  · obtain ⟨h1, h2, h3⟩ := hsta g fuel r g1 h
    exact ⟨keep g1 h1, h2, h3⟩
  · rw [run_Count] at h
    by_cases hc : g.held = true
    · rw [if_pos hc] at h
      cases h
    · rw [if_neg hc] at h
      simp only [Option.some.injEq, Prod.mk.injEq] at h
      obtain ⟨rfl, rfl⟩ := h
      exact ⟨⟨rfl, rfl, rfl, rfl, rfl, rfl, rfl⟩, by rw [run_Count, if_neg hc]⟩
  · rw [run_Select]
    by_cases hc : g.held = true
    · exact Or.inl (if_pos hc)
    · exact Or.inr (if_neg hc)
  · rw [run_Search]
    by_cases hc : g.held = true
    · exact Or.inl (if_pos hc)
    · exact Or.inr (if_neg hc)
  · rw [run_Scan]
    by_cases hc : g.held = true
    · exact Or.inl (if_pos hc)
    · exact Or.inr (if_neg hc)
  · obtain ⟨N, r1, r2, r3, r4, hN⟩ := reach_reads_return hr k
    have hc : ¬ g.held = true := by rw [hfree]; decide
    refine ⟨N, r1, r2, r3, r4, fun fuel hf => ?_⟩
    obtain ⟨h1, h2, h3, h4⟩ := hN fuel hf
    refine ⟨?_, ?_, ?_, ?_, ?_⟩
    · rw [run_Scan, if_neg hc, h1]; rfl
    · rw [run_Select, if_neg hc, h2]; rfl
    · rw [run_Search, if_neg hc, h3]; rfl
    · rw [run_Statistics, h4]; rfl
    · rw [run_Count, if_neg hc]; rfl

/-- Witness of C30: on the index that holds `("CAT", 1)` and `("CATTLE", 2)`,
with its mutex free, `Select("CAT")` returns the element 1, `Search("CAT")`
the elements 1 and 2, and each leaves the index and the mutex as they were;
with the mutex locked `Scan` does not return, and `Statistics`, which does
not lock, returns. -/
theorem C30_reads_pure_witness :
    (Reach sampleCat sampleCatLog ∧
      Run.Select 20 [67, 65, 84] sampleCatFree =
        some ((true, [1]), sampleCatFree) ∧
      Run.Search 20 [67, 65, 84] sampleCatFree =
        some ((true, [1, 2]), sampleCatFree) ∧
      Run.Scan 20 sampleCatFree = some ((true, [1, 2]), sampleCatFree) ∧
      Run.Count sampleCatFree = some (2, sampleCatFree) ∧
      (Run.Statistics 20 sampleCatFree).map (fun x => x.2) =
        some sampleCatFree ∧
      Run.Scan 20 ⟨sampleCat, true⟩ = none ∧
      (Run.Statistics 20 ⟨sampleCat, true⟩).map (fun x => x.2) =
        some ⟨sampleCat, true⟩) ∧
    ((∀ fuel r g1, Run.Select fuel [67, 65, 84] sampleCatFree = some (r, g1) →
      (g1.index.node = sampleCatFree.index.node ∧
        g1.index.node.length = sampleCatFree.index.node.length ∧
        g1.index.indexRootPointer = sampleCatFree.index.indexRootPointer ∧
        g1.index.deletedRootPointer = sampleCatFree.index.deletedRootPointer ∧
        g1.index.keyCount = sampleCatFree.index.keyCount ∧ g1.held = sampleCatFree.held) ∧
      (∀ fuel', fuel ≤ fuel' → Run.Select fuel' [67, 65, 84] g1 = some (r, g1)) ∧
      ∀ fuel' r2 g2, Run.Select fuel' [67, 65, 84] g1 = some (r2, g2) → r2 = r ∧ g2 = g1) ∧
    (∀ fuel r g1, Run.Search fuel [67, 65, 84] sampleCatFree = some (r, g1) →
      (g1.index.node = sampleCatFree.index.node ∧
        g1.index.node.length = sampleCatFree.index.node.length ∧
        g1.index.indexRootPointer = sampleCatFree.index.indexRootPointer ∧
        g1.index.deletedRootPointer = sampleCatFree.index.deletedRootPointer ∧
        g1.index.keyCount = sampleCatFree.index.keyCount ∧ g1.held = sampleCatFree.held) ∧
      (∀ fuel', fuel ≤ fuel' → Run.Search fuel' [67, 65, 84] g1 = some (r, g1)) ∧
      ∀ fuel' r2 g2, Run.Search fuel' [67, 65, 84] g1 = some (r2, g2) → r2 = r ∧ g2 = g1) ∧
    (∀ fuel r g1, Run.Scan fuel sampleCatFree = some (r, g1) →
      (g1.index.node = sampleCatFree.index.node ∧
        g1.index.node.length = sampleCatFree.index.node.length ∧
        g1.index.indexRootPointer = sampleCatFree.index.indexRootPointer ∧
        g1.index.deletedRootPointer = sampleCatFree.index.deletedRootPointer ∧
        g1.index.keyCount = sampleCatFree.index.keyCount ∧ g1.held = sampleCatFree.held) ∧
      (∀ fuel', fuel ≤ fuel' → Run.Scan fuel' g1 = some (r, g1)) ∧
      ∀ fuel' r2 g2, Run.Scan fuel' g1 = some (r2, g2) → r2 = r ∧ g2 = g1) ∧
    (∀ fuel r g1, Run.Statistics fuel sampleCatFree = some (r, g1) →
      (g1.index.node = sampleCatFree.index.node ∧
        g1.index.node.length = sampleCatFree.index.node.length ∧
        g1.index.indexRootPointer = sampleCatFree.index.indexRootPointer ∧
        g1.index.deletedRootPointer = sampleCatFree.index.deletedRootPointer ∧
        g1.index.keyCount = sampleCatFree.index.keyCount ∧ g1.held = sampleCatFree.held) ∧
      (∀ fuel', fuel ≤ fuel' → Run.Statistics fuel' g1 = some (r, g1)) ∧
      ∀ fuel' r2 g2, Run.Statistics fuel' g1 = some (r2, g2) → r2 = r ∧ g2 = g1) ∧
    (∀ r g1, Run.Count sampleCatFree = some (r, g1) →
      (r = sampleCatFree.index.keyCount ∧ g1.index.node = sampleCatFree.index.node ∧
        g1.index.node.length = sampleCatFree.index.node.length ∧
        g1.index.indexRootPointer = sampleCatFree.index.indexRootPointer ∧
        g1.index.deletedRootPointer = sampleCatFree.index.deletedRootPointer ∧
        g1.index.keyCount = sampleCatFree.index.keyCount ∧ g1.held = sampleCatFree.held) ∧
      Run.Count g1 = some (r, g1)) ∧
    (∀ fuel, Run.Select fuel [67, 65, 84] sampleCatFree = none ∨
      Run.Select fuel [67, 65, 84] sampleCatFree =
          (Select fuel [67, 65, 84] sampleCatFree.index).map (fun r => (r, sampleCatFree))) ∧
    (∀ fuel, Run.Search fuel [67, 65, 84] sampleCatFree = none ∨
      Run.Search fuel [67, 65, 84] sampleCatFree =
          (Search fuel [67, 65, 84] sampleCatFree.index).map (fun r => (r, sampleCatFree))) ∧
    (∀ fuel, Run.Scan fuel sampleCatFree = none ∨
      Run.Scan fuel sampleCatFree =
          (Scan fuel sampleCatFree.index).map (fun r => (r, sampleCatFree))) ∧
    (∀ fuel, Run.Statistics fuel sampleCatFree =
        (Statistics fuel sampleCatFree.index).map (fun r => (r, sampleCatFree))) ∧
    (∀ log, Reach sampleCatFree.index log → sampleCatFree.held = false →
      ∃ (N : Nat) (r1 r2 r3 : Bool × List Int) (r4 : Statistic × List Nat), ∀ fuel, N ≤ fuel →
        Run.Scan fuel sampleCatFree = some (r1, sampleCatFree) ∧
          Run.Select fuel [67, 65, 84] sampleCatFree = some (r2, sampleCatFree) ∧
        Run.Search fuel [67, 65, 84] sampleCatFree = some (r3, sampleCatFree) ∧
          Run.Statistics fuel sampleCatFree = some (r4, sampleCatFree) ∧
        Run.Count sampleCatFree = some (sampleCatFree.index.keyCount, sampleCatFree))) :=
  ⟨⟨reach_sampleCat, by decide, by decide, by decide, by decide, by decide, by decide,
      by decide⟩,
    C30_reads_pure sampleCatFree [67, 65, 84]⟩

end RadixIndex
